import Mathlib

/-! # Inertia solver (`solver.cpp`): a shallow embedding

The C++ program keeps its boards in column-major `Array2<T>` objects and its
coordinates and ids in 16-bit integers.  Here

* an `Array2 α` is a width, a height and a total function of the two
  coordinates; every read that the program performs goes through `Array2.get?`,
  whose `none` branch stands for a read outside the array;
* every store into a `std::int16_t` goes through `wrap16`;
* loops without a syntactic bound are unrolled along a fuel argument, and a
  run that leaves the board or exhausts its fuel ends in a `Fault`.
-/

namespace apto

/-! ## Scalars -/

/-- Narrowing of a C++ `int` to `std::int16_t` (two's complement). -/
def wrap16 (v : Int) : Int := (v + 32768) % 65536 - 32768

def invalidNodeId : Int := -1

def invalidJewelId : Int := -1

def invalidSccId : Int := -1

def invalidMoveId : Int := -1

/-- Constant `Solver::isVehicleSpotAHole`. -/
def isVehicleSpotAHole : Bool := false

/-- Function `apto::sign`: `(v > 0) - (v < 0)`. -/
def sign (v : Int) : Int := (if v > 0 then 1 else 0) - (if v < 0 then 1 else 0)

/-- How a run of the embedded program can fail to produce a value. -/
inductive Fault where
  | outOfBounds
  | outOfFuel
deriving DecidableEq, Repr

instance instDecidableEqExcept {ε α : Type} [DecidableEq ε] [DecidableEq α] :
    DecidableEq (Except ε α) := fun a b =>
  match a, b with
  | .ok x, .ok y => if h : x = y then isTrue (by rw [h]) else isFalse (fun e => h (by cases e; rfl))
  | .error x, .error y =>
    if h : x = y then isTrue (by rw [h]) else isFalse (fun e => h (by cases e; rfl))
  | .ok _, .error _ => isFalse (fun e => by cases e)
  | .error _, .ok _ => isFalse (fun e => by cases e)

/-! ## Coordinates -/

/-- Struct `Coords2`: a pair of `std::int16_t`. -/
structure Coords2 where
  x : Int
  y : Int
deriving DecidableEq, Repr

namespace Coords2

/-- Constructor `Coords2(int x, int y)`: both arguments are narrowed. -/
def ofInts (x y : Int) : Coords2 := ⟨wrap16 x, wrap16 y⟩

/-- Both `operator+` and `operator+=`. -/
def add (a b : Coords2) : Coords2 := ofInts (a.x + b.x) (a.y + b.y)

/-- Both `operator-` and `operator-=`. -/
def sub (a b : Coords2) : Coords2 := ofInts (a.x - b.x) (a.y - b.y)

/-- Member `Coords2::sign`. -/
def sign (c : Coords2) : Coords2 := ofInts (apto.sign c.x) (apto.sign c.y)

/-- The components are values of `std::int16_t`. -/
def Representable (c : Coords2) : Prop :=
  -32768 ≤ c.x ∧ c.x ≤ 32767 ∧ -32768 ≤ c.y ∧ c.y ≤ 32767

instance (c : Coords2) : Decidable c.Representable := by
  unfold Representable; infer_instance

end Coords2

/-! ## Two-dimensional arrays -/

/-- Struct `Array2<T>`: `values x y` is the element `a[x][y]`. -/
structure Array2 (α : Type) where
  width : Int
  height : Int
  values : Int → Int → α

namespace Array2

variable {α : Type}

/-- Constructor `Array2(width, height, value)`. -/
def filled (width height : Int) (value : α) : Array2 α := ⟨width, height, fun _ _ => value⟩

def InBounds (a : Array2 α) (x y : Int) : Prop :=
  0 ≤ x ∧ x < a.width ∧ 0 ≤ y ∧ y < a.height

instance (a : Array2 α) (x y : Int) : Decidable (a.InBounds x y) := by
  unfold InBounds; infer_instance

/-- A read `a[x][y]`; `none` when the coordinates are not those of an element. -/
def get? (a : Array2 α) (x y : Int) : Option α :=
  if a.InBounds x y then some (a.values x y) else none

/-- A write `a[x][y] = v`; `none` when the coordinates are not those of an element. -/
def set? (a : Array2 α) (x y : Int) (v : α) : Option (Array2 α) :=
  if a.InBounds x y then
    some { a with values := fun i j => if i = x ∧ j = y then v else a.values i j }
  else none

/-- The coordinates in the order of `apto::forEach`: `x` outer, `y` inner. -/
def coords (a : Array2 α) : List (Int × Int) :=
  (List.range a.width.toNat).flatMap fun (x : Nat) =>
    (List.range a.height.toNat).map fun (y : Nat) => ((x : Int), (y : Int))

end Array2

/-! ## Cells and directions -/

inductive CellType where
  | Wall
  | Jewel
  | Mine
  | Hole
  | Vehicle
  | Blank
  | Invalid
deriving DecidableEq, Repr

namespace CellTypeHelper

def toChar : CellType → Char
  | .Wall => '#'
  | .Jewel => '+'
  | .Mine => '*'
  | .Hole => 'O'
  | .Vehicle => '.'
  | .Blank => ' '
  | .Invalid => '\x00'

def fromChar (c : Char) : CellType :=
  if c = '#' then .Wall
  else if c = '+' then .Jewel
  else if c = '*' then .Mine
  else if c = 'O' then .Hole
  else if c = '.' then .Vehicle
  else if c = ' ' then .Blank
  else .Invalid

end CellTypeHelper

inductive Direction where
  | North
  | NorthEast
  | East
  | SouthEast
  | South
  | SouthWest
  | West
  | NorthWest
  | None
deriving DecidableEq, Repr

namespace DirectionHelper

def toId : Direction → Nat
  | .North => 0
  | .NorthEast => 1
  | .East => 2
  | .SouthEast => 3
  | .South => 4
  | .SouthWest => 5
  | .West => 6
  | .NorthWest => 7
  | .None => 8

def offset : Direction → Coords2
  | .North => Coords2.ofInts 0 (-1)
  | .NorthEast => Coords2.ofInts 1 (-1)
  | .East => Coords2.ofInts 1 0
  | .SouthEast => Coords2.ofInts 1 1
  | .South => Coords2.ofInts 0 1
  | .SouthWest => Coords2.ofInts (-1) 1
  | .West => Coords2.ofInts (-1) 0
  | .NorthWest => Coords2.ofInts (-1) (-1)
  | .None => Coords2.ofInts 0 0

def values : List Direction :=
  [.North, .NorthEast, .East, .SouthEast, .South, .SouthWest, .West, .NorthWest]

/-- The table `directions[offset.y + 1][offset.x + 1]` of `fromDisplacement`. -/
def fromDisplacement (start stop : Coords2) : Direction :=
  let o := (stop.sub start).sign
  if o.y = -1 then
    (if o.x = -1 then .NorthWest else if o.x = 0 then .North else .NorthEast)
  else if o.y = 0 then
    (if o.x = -1 then .West else if o.x = 0 then .None else .East)
  else
    (if o.x = -1 then .SouthWest else if o.x = 0 then .South else .SouthEast)

end DirectionHelper

/-! ## Board, level, solution -/

/-- Struct `Board`: a wrapper of `Array2<CellType>`. -/
abbrev Board := Array2 CellType

/-- Struct `Level`. -/
structure Level where
  board : Board
  maxMoves : Int

namespace Level

def width (l : Level) : Int := l.board.width

def height (l : Level) : Int := l.board.height

/-- Member `Board::vehicleCoords`: the last Vehicle cell in `forEach` order, else `(-1, -1)`. -/
def vehicleCoords (l : Level) : Coords2 :=
  l.board.coords.foldl
    (fun c p => if l.board.values p.1 p.2 = .Vehicle then Coords2.ofInts p.1 p.2 else c)
    (Coords2.ofInts (-1) (-1))

end Level

/-- Struct `Solution`. -/
structure Solution where
  m_exists : Bool
  m_moves : List Direction
deriving DecidableEq, Repr

namespace Solution

def empty : Solution := ⟨true, []⟩

def invalid : Solution := ⟨false, []⟩

def «exists» (s : Solution) : Bool := s.m_exists

def size (s : Solution) : Int := s.m_moves.length

def isEmpty (s : Solution) : Bool := s.m_moves.isEmpty

def push (s : Solution) (dir : Direction) : Solution := { s with m_moves := s.m_moves ++ [dir] }

def append (s : Solution) (path : List Direction) : Solution :=
  { s with m_moves := s.m_moves ++ path }

def setExists (s : Solution) (e : Bool) : Solution := { s with m_exists := e }

def isBetterThan (s other : Solution) : Bool := !other.exists || decide (s.size < other.size)

end Solution

/-- Function `write(const Solution&, std::ostream&)`: the characters sent to the stream. -/
def write (solution : Solution) : String :=
  if !solution.exists then "BRAK"
  else
    String.join ((solution.m_moves.filter fun dir => dir ≠ Direction.None).map
      fun dir => toString (DirectionHelper.toId dir))

/-! ## Slide moves -/

/-- Struct `Move`. -/
structure Move where
  startPos : Coords2
  endPos : Coords2
  id : Int
  jewels : List Int
deriving DecidableEq, Repr

namespace Move

/-- Constructor `Move(int id, start, end, jewels)`; the id is stored as `MoveId`. -/
def make (id : Int) (start stop : Coords2) (jewels : List Int) : Move :=
  ⟨start, stop, wrap16 id, jewels⟩

def direction (m : Move) : Direction := DirectionHelper.fromDisplacement m.startPos m.endPos

def setId (m : Move) (id : Int) : Move := { m with id := wrap16 id }

end Move

/-- A zero-initialised `Move`, the element of a value-initialised `Moves`. -/
instance : Inhabited Move := ⟨⟨⟨0, 0⟩, ⟨0, 0⟩, 0, []⟩⟩

/-- Struct `Moves`: the eight slots `m_ends`, in the order of `DirectionHelper::values`. -/
structure Moves where
  m_ends : List Move
deriving DecidableEq, Repr

instance : Inhabited Moves := ⟨⟨List.replicate 8 default⟩⟩

/-- Both `Moves::operator[]`. -/
def Moves.get (m : Moves) (dir : Direction) : Move := m.m_ends.getD (DirectionHelper.toId dir) default

/-- The `for (;;)` loop of `generateMovesAt` for one direction; `pos` is the local `end`. -/
def slide (level : Level) (jewelIdByPosition : Array2 Int) (start offset : Coords2) :
    Nat → Coords2 → List Int → Except Fault Move
  | 0, _, _ => .error .outOfFuel
  | fuel + 1, pos, jewels =>
    let pos := pos.add offset
    match level.board.get? pos.x pos.y with
    | none => .error .outOfBounds
    | some cell =>
      let jewels :=
        if cell = .Jewel then jewels ++ [jewelIdByPosition.values pos.x pos.y] else jewels
      if cell = .Wall then
        .ok (Move.make invalidMoveId start (pos.sub offset) jewels)
      else if cell = .Mine then
        .ok (Move.make invalidMoveId start start jewels)
      else if cell = .Hole ∨ (cell = .Vehicle ∧ isVehicleSpotAHole = true) then
        .ok (Move.make invalidMoveId start pos jewels)
      else
        slide level jewelIdByPosition start offset fuel pos jewels

/-- Steps after which a slide has left every board of this size. -/
def slideFuel (level : Level) : Nat := (max level.width level.height).toNat + 1

/-- The body of the loop over directions in `generateMovesAt`. -/
def slideFrom (level : Level) (jewelIdByPosition : Array2 Int) (start : Coords2)
    (dir : Direction) : Except Fault Move :=
  match level.board.get? start.x start.y with
  | none => .error .outOfBounds
  | some cell =>
    let jewels := if cell = .Jewel then [jewelIdByPosition.values start.x start.y] else []
    slide level jewelIdByPosition start (DirectionHelper.offset dir) (slideFuel level) start jewels

/-- Member `Solver::generateMovesAt`. -/
def generateMovesAt (level : Level) (jewelIdByPosition : Array2 Int) (start : Coords2) :
    Except Fault Moves :=
  (DirectionHelper.values.mapM (slideFrom level jewelIdByPosition start)).map Moves.mk

/-! ## Vocabulary of the slide rule -/

/-- The cell `c + k·D` on the ray that leaves `start`, in `Coords2` arithmetic. -/
def rayCell (start offset : Coords2) : Nat → Coords2
  | 0 => start
  | k + 1 => (rayCell start offset k).add offset

/-- The cell kinds at which a slide ends. -/
def stopsSlide (cell : CellType) : Prop := cell = .Wall ∨ cell = .Mine ∨ cell = .Hole

instance (cell : CellType) : Decidable (stopsSlide cell) := by
  unfold stopsSlide; infer_instance

/-- Cells that a slide along `offset` can still enter after `p` before it leaves the board. -/
def room (b : Board) (offset p : Coords2) : Int :=
  if offset.x = 1 then b.width - 1 - p.x
  else if offset.x = -1 then p.x
  else if offset.y = 1 then b.height - 1 - p.y
  else p.y

/-! ## Reading a level, numbering the jewels -/

/-- The level that `read<Level>` builds from the three numbers it parsed and the characters
that follow them: characters that are no cell glyph are skipped, and the i-th glyph of row `y`
is stored at `board[i][y]`. -/
def Level.ofGlyphs (height width maxMoves : Int) (glyphs : List Char) : Level :=
  let cells := (glyphs.map CellTypeHelper.fromChar).filter fun c => c ≠ CellType.Invalid
  ⟨⟨width, height, fun x y => cells.getD (y * width + x).toNat CellType.Invalid⟩, maxMoves⟩

/-- Function `read<Level>`: it returns only when the stream holds a glyph for every cell. -/
def read (height width maxMoves : Int) (glyphs : List Char) : Option Level :=
  let cells := (glyphs.map CellTypeHelper.fromChar).filter fun c => c ≠ CellType.Invalid
  if width * height ≤ cells.length then some (Level.ofGlyphs height width maxMoves glyphs)
  else none

/-- Member `Solver::countJewels`. -/
def countJewels (level : Level) : Int :=
  level.board.coords.foldl
    (fun count p => if level.board.values p.1 p.2 = .Jewel then count + 1 else count) 0

/-- A write `a[x][y] = v` at coordinates taken from `Array2.coords`. -/
def Array2.set {α : Type} (a : Array2 α) (x y : Int) (v : α) : Array2 α :=
  { a with values := fun i j => if i = x ∧ j = y then v else a.values i j }

/-! ## Scenario boards -/

/-- Scenario "Mutually exclusive SCCs": a mine north and west of the vehicle, a jewel and
then a hole south and east of it, walls elsewhere. -/
def exclusiveLevel : Level :=
  Level.ofGlyphs 6 6 10
    ("######".toList ++ '\n' :: "##*###".toList ++ '\n' :: "#*.+O#".toList ++ '\n' ::
      "##+###".toList ++ '\n' :: "##O###".toList ++ '\n' :: "######".toList)

/-- Scenario "Hole stop": the corridor `#.  O  +#` between two rows of walls. -/
def holeStopLevel (maxMoves : Int) : Level :=
  Level.ofGlyphs 3 9 maxMoves
    ("#########".toList ++ '\n' :: "#.  O  +#".toList ++ '\n' :: "#########".toList)

/-- Ids (by the table `ids`) of the Jewel cells among `cells`, in the order of `cells`. -/
def jewelIdsAlong (level : Level) (ids : Array2 Int) (cells : List Coords2) : List Int :=
  (cells.filter fun p => level.board.values p.x p.y = .Jewel).map fun p => ids.values p.x p.y

/-- The cells `c, c+D, …, c+nD`. -/
def rayCells (start offset : Coords2) (n : Nat) : List Coords2 :=
  (List.range (n + 1)).map (rayCell start offset)

/-- Every border cell of the board is a Wall. -/
def Walled (b : Board) : Prop :=
  ∀ x y, b.InBounds x y → (x = 0 ∨ x = b.width - 1 ∨ y = 0 ∨ y = b.height - 1) →
    b.values x y = .Wall

/-- A cell of the board that is not on its border. -/
def Interior (b : Board) (p : Coords2) : Prop :=
  0 < p.x ∧ p.x < b.width - 1 ∧ 0 < p.y ∧ p.y < b.height - 1

instance (b : Board) (p : Coords2) : Decidable (Interior b p) := by
  unfold Interior; infer_instance

/-- A walled corridor of 32770 columns and 3 rows: the vehicle stands at column 32767 and
a jewel at column 1. -/
def wideLevel : Level :=
  ⟨⟨32770, 3, fun x y =>
      if x = 0 ∨ x = 32769 ∨ y = 0 ∨ y = 2 then .Wall
      else if x = 32767 then .Vehicle
      else if x = 1 then .Jewel
      else .Blank⟩, 40000⟩

/-- Scenario "Minimal" closed by a wall east of the jewel: rows `####`, `#.+#`, `####`. -/
def minimalWalledLevel : Level :=
  Level.ofGlyphs 3 4 1 ("####".toList ++ '\n' :: "#.+#".toList ++ '\n' :: "####".toList)

/-! ## Vectors -/

/-- A read `v[i]` of a `std::vector`. -/
def vecGet {α : Type} (v : List α) (i : Int) : Except Fault α :=
  if 0 ≤ i then
    match v.get? i.toNat with
    | some a => .ok a
    | none => .error .outOfBounds
  else .error .outOfBounds

/-- A write `v[i] = a` of a `std::vector`. -/
def vecSet {α : Type} (v : List α) (i : Int) (a : α) : Except Fault (List α) :=
  if 0 ≤ i ∧ i < v.length then .ok (v.set i.toNat a) else .error .outOfBounds

/-- A read `a[x][y]` of an `Array2`. -/
def Array2.read {α : Type} (a : Array2 α) (x y : Int) : Except Fault α :=
  match a.get? x y with
  | some v => .ok v
  | none => .error .outOfBounds

/-- A read `a[c]` of an `Array2`. -/
def Array2.at {α : Type} (a : Array2 α) (c : Coords2) : Except Fault α := a.read c.x c.y

/-- A write `a[x][y] = v` of an `Array2`. -/
def Array2.write {α : Type} (a : Array2 α) (x y : Int) (v : α) : Except Fault (Array2 α) :=
  match a.set? x y v with
  | some r => .ok r
  | none => .error .outOfBounds

/-- A write `a[c] = v` of an `Array2`. -/
def Array2.put {α : Type} (a : Array2 α) (c : Coords2) (v : α) : Except Fault (Array2 α) :=
  a.write c.x c.y v

/-! ## Jewel state -/

/-- Struct `JewelState`; the counts are stored as `MoveId`. -/
structure JewelState where
  m_numCollected : List Int
  m_isCollectible : List Bool
  m_numLeft : Int
deriving DecidableEq, Repr

namespace JewelState

/-- Constructor `JewelState(int numJewels)`. -/
def make (numJewels : Int) : JewelState :=
  ⟨List.replicate numJewels.toNat 0, List.replicate numJewels.toNat true, numJewels⟩

def numCollected (s : JewelState) (i : Int) : Except Fault Int := vecGet s.m_numCollected i

def isCollected (s : JewelState) (i : Int) : Except Fault Bool := do
  let n ← vecGet s.m_numCollected i
  pure (decide (n > 0))

/-- Member `addToCollected`: the new state and the returned flag. -/
def addToCollected (s : JewelState) (i : Int) : Except Fault (JewelState × Bool) := do
  let n ← vecGet s.m_numCollected i
  let n := wrap16 (n + 1)
  let counts ← vecSet s.m_numCollected i n
  if n = 1 then
    let flags ← vecSet s.m_isCollectible i false
    pure (⟨counts, flags, s.m_numLeft - 1⟩, true)
  else
    pure ({ s with m_numCollected := counts }, false)

/-- Member `removeFromCollected`: the new state and the returned flag. -/
def removeFromCollected (s : JewelState) (i : Int) : Except Fault (JewelState × Bool) := do
  let n ← vecGet s.m_numCollected i
  let n := wrap16 (n - 1)
  let counts ← vecSet s.m_numCollected i n
  if n = 0 then
    let flags ← vecSet s.m_isCollectible i true
    pure (⟨counts, flags, s.m_numLeft + 1⟩, true)
  else
    pure ({ s with m_numCollected := counts }, false)

def numLeft (s : JewelState) : Int := s.m_numLeft

def numJewels (s : JewelState) : Int := s.m_numCollected.length

def clear (s : JewelState) : JewelState :=
  ⟨s.m_numCollected.map fun _ => 0, s.m_isCollectible.map fun _ => true, s.numJewels⟩

end JewelState

/-! ## The solver and its move graph -/

/-- Struct `Solver::Scc`. -/
structure Scc where
  id : Int
  nodes : List Coords2
  bridges : List Move
  neighbours : List Int
  predecessors : List Int
  jewels : List Int
deriving DecidableEq, Repr

instance : Inhabited Scc := ⟨⟨0, [], [], [], [], []⟩⟩

/-- The data members of `Solver` that the stages before the search fill.  A `const Move*`
is kept as the `Move` it points to: a registered move is never changed again. -/
structure Solver where
  m_level : Level
  m_jewelState : JewelState
  m_vehicleCoords : Coords2
  m_jewelIdByPosition : Array2 Int
  m_movesByPosition : Array2 Moves
  m_movesByEndPosition : Array2 (List Move)
  m_allMoves : List Move
  m_movesCollectingJewel : List (List Move)
  m_nodeIdByPosition : Array2 Int
  m_nodePositionById : List Coords2
  m_distanceFromTo : Array2 Int
  m_sccs : List Scc
  m_lastSccWithJewel : List Int
  m_sccIdAt : Array2 Int
  m_ifSccTraversedThenSccUnreachable : Array2 Bool
  m_numSccsWithJewel : List Int

namespace Solver

/-- Constructor `Solver(Level level, Bench& bench)`. -/
def make (level : Level) : Solver :=
  let numJewels := countJewels level
  { m_level := level
    m_jewelState := JewelState.make numJewels
    m_vehicleCoords := level.vehicleCoords
    m_jewelIdByPosition := Array2.filled level.width level.height invalidJewelId
    m_movesByPosition := Array2.filled level.width level.height default
    m_movesByEndPosition := Array2.filled level.width level.height []
    m_allMoves := []
    m_movesCollectingJewel := List.replicate numJewels.toNat []
    m_nodeIdByPosition := Array2.filled level.width level.height invalidNodeId
    m_nodePositionById := []
    m_distanceFromTo := Array2.filled 0 0 0
    m_sccs := []
    m_lastSccWithJewel := []
    m_sccIdAt := Array2.filled level.width level.height invalidSccId
    m_ifSccTraversedThenSccUnreachable := Array2.filled 0 0 false
    m_numSccsWithJewel := [] }

def numJewels (s : Solver) : Int := s.m_jewelState.numJewels

/-- Member `Solver::identifyJewels`; each id is stored as `JewelId`. -/
def identifyJewels (s : Solver) : Except Fault Solver := do
  let (ids, _) ← s.m_level.board.coords.foldlM
    (fun (st : Array2 Int × Int) p => do
      if s.m_level.board.values p.1 p.2 = .Jewel then
        pure (← st.1.write p.1 p.2 (wrap16 st.2), st.2 + 1)
      else pure st)
    (s.m_jewelIdByPosition, (0 : Int))
  pure { s with m_jewelIdByPosition := ids }

/-- Member `Solver::addMove`: the registered move (with its id) and the new state. -/
def addMove (s : Solver) (move : Move) : Except Fault (Move × Solver) := do
  let move := move.setId s.m_allMoves.length
  let collecting ← move.jewels.foldlM
    (fun (acc : List (List Move)) jewelId => do
      let old ← vecGet acc jewelId
      vecSet acc jewelId (old ++ [move]))
    s.m_movesCollectingJewel
  let atEnd ← s.m_movesByEndPosition.at move.endPos
  let byEnd ← s.m_movesByEndPosition.put move.endPos (atEnd ++ [move])
  pure (move, { s with
    m_allMoves := s.m_allMoves ++ [move]
    m_movesCollectingJewel := collecting
    m_movesByEndPosition := byEnd })

/-- The loop of `Solver::addMoves` over the eight slots: the slots with their ids, the new
state and the ends pushed to the queue. -/
def addMovesLoop : Solver → List Move → Except Fault (List Move × Solver × List Coords2)
  | s, [] => .ok ([], s, [])
  | s, move :: rest =>
    if move.startPos = move.endPos then do
      let (slots, s, ends) ← addMovesLoop s rest
      pure (move :: slots, s, ends)
    else do
      let (move, s) ← s.addMove move
      let (slots, s, ends) ← addMovesLoop s rest
      pure (move :: slots, s, move.endPos :: ends)

/-- Member `Solver::addMoves`. -/
def addMoves (s : Solver) (moves : Moves) (start : Coords2) :
    Except Fault (Solver × List Coords2) := do
  let (slots, s, ends) ← addMovesLoop s (DirectionHelper.values.map moves.get)
  let byPos ← s.m_movesByPosition.put start ⟨slots⟩
  pure ({ s with m_movesByPosition := byPos }, ends)

/-- The `while` loop of `Solver::generateAllMoves`. -/
def generateAllMovesLoop :
    Nat → Solver → Array2 Bool → List Coords2 → Except Fault Solver
  | _, s, _, [] => .ok s
  | 0, _, _, _ :: _ => .error .outOfFuel
  | fuel + 1, s, isVisited, start :: queue => do
    if (← isVisited.at start) then
      generateAllMovesLoop fuel s isVisited queue
    else
      let isVisited ← isVisited.put start true
      let moves ← generateMovesAt s.m_level s.m_jewelIdByPosition start
      let (s, ends) ← s.addMoves moves start
      generateAllMovesLoop fuel s isVisited (queue ++ ends)

/-- Queue pops after which `generateAllMoves` has emptied its queue: every pop either marks
one of the `width * height` cells or removes one of the at most eight ends pushed per cell. -/
def generateAllMovesFuel (level : Level) : Nat := 9 * (level.width * level.height).toNat + 2

/-- Member `Solver::generateAllMoves`. -/
def generateAllMoves (s : Solver) : Except Fault Solver :=
  generateAllMovesLoop (generateAllMovesFuel s.m_level) s
    (Array2.filled s.m_level.width s.m_level.height false) [s.m_vehicleCoords]

/-- Member `Solver::countReachableJewels`. -/
def countReachableJewels (s : Solver) : Except Fault Int := do
  let isReachable ← s.m_allMoves.foldlM
    (fun (acc : List Bool) move =>
      move.jewels.foldlM (fun (acc : List Bool) jewelId => vecSet acc jewelId true) acc)
    (List.replicate s.m_jewelState.numJewels.toNat false)
  pure (isReachable.count true)

/-- Member `Solver::areAllJewelsReachable`. -/
def areAllJewelsReachable (s : Solver) : Except Fault Bool := do
  pure (decide (s.m_jewelState.numJewels = (← s.countReachableJewels)))

end Solver

/-- The table `m_jewelIdByPosition` of a fresh solver after `identifyJewels`. -/
def identifiedJewels (level : Level) : Array2 Int :=
  match (Solver.make level).identifyJewels with
  | .ok s => s.m_jewelIdByPosition
  | .error _ => (Solver.make level).m_jewelIdByPosition

/-! ## Node ids and pairwise distances -/

/-- Constant `Solver::infiniteDistance`, the largest `DistanceType`. -/
def infiniteDistance : Int := 65535

/-- Narrowing of a C++ `int` to `DistanceType` (`std::uint16_t`). -/
def wrapU16 (v : Int) : Int := v % 65536

namespace Solver

/-- Member `Solver::isVertex`. -/
def isVertex (s : Solver) (v : Coords2) : Except Fault Bool := do
  pure (decide ((← s.m_nodeIdByPosition.at v) ≠ invalidNodeId))

/-- The inner `for` loop of `fillDistancesFromNode` over the successors of `v`:
the state is the `visited` vector, the distance matrix, the queue `Q` and its end index. -/
def fillDistancesVisit (source v : Int) :
    List Int → List Bool × Array2 Int × List Int × Int →
      Except Fault (List Bool × Array2 Int × List Int × Int)
  | [], st => .ok st
  | endV :: rest, (visited, dist, q, qEnd) => do
    if (← vecGet visited endV) then
      fillDistancesVisit source v rest (visited, dist, q, qEnd)
    else
      let visited ← vecSet visited endV true
      let dv ← dist.at ⟨source, v⟩
      let dist ← dist.put ⟨source, endV⟩ (wrapU16 (dv + 1))
      let q ← vecSet q qEnd endV
      fillDistancesVisit source v rest (visited, dist, q, qEnd + 1)

/-- The `while (begin != end)` loop of `fillDistancesFromNode`. -/
def fillDistancesLoop (source : Int) (moveEnds : List (List Int)) :
    Nat → Int → List Bool × Array2 Int × List Int × Int → Except Fault (Array2 Int)
  | 0, qBegin, (_, dist, _, qEnd) =>
    if qBegin = qEnd then .ok dist else .error .outOfFuel
  | fuel + 1, qBegin, (visited, dist, q, qEnd) =>
    if qBegin = qEnd then .ok dist
    else do
      let v ← vecGet q qBegin
      let succs ← vecGet moveEnds v
      let st ← fillDistancesVisit source v succs (visited, dist, q, qEnd)
      fillDistancesLoop source moveEnds fuel (qBegin + 1) st

/-- Member `Solver::fillDistancesFromNode`; the queue `Q` is handed on to the next call. -/
def fillDistancesFromNode (dist : Array2 Int) (source : Int) (moveEnds : List (List Int))
    (q : List Int) : Except Fault (Array2 Int) := do
  let numNodes := dist.width
  let visited := List.replicate numNodes.toNat false
  let dist ← dist.put ⟨source, source⟩ 0
  let q ← vecSet q 0 source
  let visited ← vecSet visited source true
  fillDistancesLoop source moveEnds (numNodes.toNat + 1) 0 (visited, dist, q, 1)

/-- The successor lists `moveEnds` built at the start of `fillDistancesBetweenNodes`. -/
def moveEndsOf (s : Solver) : Except Fault (List (List Int)) :=
  s.m_movesByPosition.coords.foldlM
    (fun (moveEnds : List (List Int)) p => do
      let nodeId ← s.m_nodeIdByPosition.read p.1 p.2
      if nodeId = invalidNodeId then pure moveEnds
      else
        let moves := s.m_movesByPosition.values p.1 p.2
        DirectionHelper.values.foldlM
          (fun (moveEnds : List (List Int)) dir => do
            let move := moves.get dir
            if move.id < 0 then pure moveEnds
            else
              let endV ← s.m_nodeIdByPosition.at move.endPos
              let old ← vecGet moveEnds nodeId
              if old.length < 8 then vecSet moveEnds nodeId (old ++ [endV])
              else .error .outOfBounds)
          moveEnds)
    (List.replicate s.m_nodePositionById.length [])

/-- Member `Solver::fillDistancesBetweenNodes`.  The queue `Q` is one vector that every
call of `fillDistancesFromNode` overwrites from its first element; no call reads an element
that it has not written, so each call is given the vector as first allocated. -/
def fillDistancesBetweenNodes (s : Solver) : Except Fault Solver := do
  let moveEnds ← s.moveEndsOf
  let q := List.replicate s.m_nodePositionById.length (0 : Int)
  let numNodes := s.m_distanceFromTo.width
  let dist ← (List.range numNodes.toNat).foldlM
    (fun (dist : Array2 Int) i => fillDistancesFromNode dist i moveEnds q)
    s.m_distanceFromTo
  pure { s with m_distanceFromTo := dist }

/-- Member `Solver::computePairwiseNodeDistances`. -/
def computePairwiseNodeDistances (s : Solver) : Except Fault Solver := do
  let visited : Array2 Bool := Array2.filled s.m_level.width s.m_level.height false
  let (nodeIds, _, c) ← s.m_allMoves.foldlM
    (fun (st : Array2 Int × Array2 Bool × Int) move => do
      let (nodeIds, visited, c) := st
      if (← visited.at move.endPos) then pure st
      else
        let nodeIds ← nodeIds.put move.endPos (wrap16 c)
        let visited ← visited.put move.endPos true
        pure (nodeIds, visited, c + 1))
    (s.m_nodeIdByPosition, visited, (0 : Int))
  let (nodeIds, c) ←
    if (← nodeIds.at s.m_vehicleCoords) = invalidNodeId then do
      let nodeIds ← nodeIds.put s.m_vehicleCoords (wrap16 c)
      pure (nodeIds, c + 1)
    else pure (nodeIds, c)
  let positions ← s.m_level.board.coords.foldlM
    (fun (positions : List Coords2) p => do
      let id ← nodeIds.read p.1 p.2
      if id < 0 then pure positions else vecSet positions id (Coords2.ofInts p.1 p.2))
    (List.replicate c.toNat (⟨0, 0⟩ : Coords2))
  fillDistancesBetweenNodes { s with
    m_nodeIdByPosition := nodeIds
    m_distanceFromTo := Array2.filled c c infiniteDistance
    m_nodePositionById := positions }

end Solver

/-! ## Strongly connected components -/

/-- Insertion into a `std::set<int>`, kept as the ascending list of its elements. -/
def setInsert (a : Int) : List Int → List Int
  | [] => [a]
  | b :: rest => if a < b then a :: b :: rest else if a = b then b :: rest else b :: setInsert a rest

/-- The local state of `identifySccs` that `identifyOneScc` receives by reference. -/
structure Tarjan where
  stack : List Coords2
  index : Int
  indexAt : Array2 Int
  lowlinkAt : Array2 Int
  onStackAt : Array2 Bool
  sccs : List Scc

namespace Solver

/-- The `do … while (w != v)` loop of `identifyOneScc`: pops the stack down to `v`. -/
def popScc (v : Coords2) :
    List Coords2 → Array2 Bool → List Coords2 →
      Except Fault (List Coords2 × Array2 Bool × List Coords2)
  | [], _, _ => .error .outOfBounds
  | w :: stack, onStackAt, scc => do
    let onStackAt ← onStackAt.put w false
    if w ≠ v then popScc v stack onStackAt (scc ++ [w])
    else pure (stack, onStackAt, scc ++ [w])

/-- Member `Solver::identifyOneScc`; the fuel bounds the depth of the recursion. -/
def identifyOneScc (s : Solver) : Nat → Tarjan → Coords2 → Except Fault Tarjan
  | 0, _, _ => .error .outOfFuel
  | fuel + 1, t, v => do
    let indexAt ← t.indexAt.put v t.index
    let lowlinkAt ← t.lowlinkAt.put v t.index
    let onStackAt ← t.onStackAt.put v true
    let t : Tarjan := { t with
      indexAt := indexAt, lowlinkAt := lowlinkAt, index := t.index + 1,
      stack := v :: t.stack, onStackAt := onStackAt }
    let moves ← s.m_movesByPosition.at v
    let t ← DirectionHelper.values.foldlM
      (fun (t : Tarjan) dir => do
        let move := moves.get dir
        if move.id < 0 then pure t
        else
          let w := move.endPos
          if (← t.indexAt.at w) = -1 then
            let t ← identifyOneScc s fuel t w
            let low ← t.lowlinkAt.write v.x v.y
              (min (← t.lowlinkAt.read v.x v.y) (← t.lowlinkAt.at w))
            pure { t with lowlinkAt := low }
          else if (← t.onStackAt.at w) then
            let low ← t.lowlinkAt.write v.x v.y
              (min (← t.lowlinkAt.read v.x v.y) (← t.indexAt.at w))
            pure { t with lowlinkAt := low }
          else pure t)
      t
    if (← t.lowlinkAt.read v.x v.y) = (← t.indexAt.at v) then
      let (stack, onStackAt, scc) ← popScc v t.stack t.onStackAt []
      pure { t with
        stack := stack, onStackAt := onStackAt,
        sccs := t.sccs ++ [{ (default : Scc) with nodes := scc }] }
    else pure t

/-- The part of `identifySccs` that fills `bridges` and `neighbours` of the component at
index `iv` and the `predecessors` of its neighbours. -/
def linkScc (s : Solver) (sccs : List Scc) (iv : Int) : Except Fault (List Scc) := do
  let scc ← vecGet sccs iv
  let (bridges, neighbours) ← scc.nodes.foldlM
    (fun (acc : List Move × List Int) v => do
      let moves ← s.m_movesByPosition.at v
      DirectionHelper.values.foldlM
        (fun (acc : List Move × List Int) dir => do
          let move := moves.get dir
          if move.id < 0 then pure acc
          else
            let iw ← s.m_sccIdAt.at move.endPos
            if iv ≠ iw then pure (acc.1 ++ [move], setInsert iw acc.2) else pure acc)
        acc)
    (scc.bridges, ([] : List Int))
  let scc := { scc with bridges := bridges, neighbours := neighbours }
  let sccs ← vecSet sccs iv scc
  neighbours.foldlM
    (fun (sccs : List Scc) n => do
      let other ← vecGet sccs n
      vecSet sccs n { other with predecessors := other.predecessors ++ [scc.id] })
    sccs

/-- Member `Solver::identifySccs`. -/
def identifySccs (s : Solver) : Except Fault Solver := do
  let width := s.m_level.width
  let height := s.m_level.height
  let t : Tarjan :=
    { stack := [], index := 0, indexAt := Array2.filled width height (-1),
      lowlinkAt := Array2.filled width height (-1),
      onStackAt := Array2.filled width height false, sccs := s.m_sccs }
  let t ← s.m_movesByPosition.coords.foldlM
    (fun (t : Tarjan) p => do
      let v := Coords2.ofInts p.1 p.2
      if (← s.isVertex v) then
        if (← t.indexAt.at v) = -1 then
          identifyOneScc s (s.m_nodePositionById.length + 1) t v
        else pure t
      else pure t)
    t
  -- reverse sccs so they are in topological order, then number them
  let sccs := (t.sccs.reverse.enum).map fun (p : Nat × Scc) => { p.2 with id := wrap16 p.1 }
  let sccIdAt ← (sccs.enum).foldlM
    (fun (sccIdAt : Array2 Int) (p : Nat × Scc) =>
      p.2.nodes.foldlM (fun (sccIdAt : Array2 Int) v => sccIdAt.put v (wrap16 p.1)) sccIdAt)
    s.m_sccIdAt
  let s := { s with m_sccs := sccs, m_sccIdAt := sccIdAt }
  let sccs ← (List.range sccs.length).foldlM
    (fun (sccs : List Scc) iv => s.linkScc sccs iv) sccs
  pure { s with m_sccs := sccs }

/-- Member `Solver::resetSccCountsPerJewel`. -/
def resetSccCountsPerJewel (s : Solver) : Except Fault Solver := do
  let counts ← s.m_sccs.foldlM
    (fun (counts : List Int) scc =>
      scc.jewels.foldlM
        (fun (counts : List Int) jewelId => do
          vecSet counts jewelId (wrap16 ((← vecGet counts jewelId) + 1)))
        counts)
    (List.replicate s.m_jewelState.numJewels.toNat (0 : Int))
  pure { s with m_numSccsWithJewel := counts }

/-- Member `Solver::assignJewelsToSccs`. -/
def assignJewelsToSccs (s : Solver) : Except Fault Solver := do
  let numJewels := s.m_jewelState.numJewels
  let jewels ← s.m_allMoves.foldlM
    (fun (jewels : List (List Int)) move => do
      if move.id < 0 then pure jewels
      else
        let iv ← s.m_sccIdAt.at move.startPos
        let iw ← s.m_sccIdAt.at move.endPos
        move.jewels.foldlM
          (fun (jewels : List (List Int)) jewelId => do
            if iv ≠ iw ∧ (← s.m_jewelIdByPosition.at move.startPos) ≠ jewelId then
              vecSet jewels iw (setInsert jewelId (← vecGet jewels iw))
            else
              vecSet jewels iv (setInsert jewelId (← vecGet jewels iv)))
          jewels)
    (List.replicate s.m_sccs.length ([] : List Int))
  let sccs := (s.m_sccs.zip jewels).map fun (p : Scc × List Int) =>
    { p.1 with jewels := p.2.map wrap16 }
  -- `resize(numJewels)` of the empty vector `m_lastSccWithJewel`
  let last := s.m_lastSccWithJewel.take numJewels.toNat ++
    List.replicate (numJewels.toNat - s.m_lastSccWithJewel.length) (0 : Int)
  let last ← (sccs.enum).foldlM
    (fun (last : List Int) (p : Nat × Scc) =>
      p.2.jewels.foldlM (fun (last : List Int) jewelId => vecSet last jewelId (wrap16 p.1)) last)
    last
  resetSccCountsPerJewel { s with m_sccs := sccs, m_lastSccWithJewel := last }

/-- The `while` loop shared by `fillForwardSccUnreachabilityIfSccTraversed` (which follows
`neighbours`) and `fillBackwardSccUnreachabilityIfSccTraversed` (`predecessors`). -/
def fillReachableLoop (s : Solver) (links : Scc → List Int) (initialId : Int) :
    Nat → Array2 Bool → List Bool → List Int → Except Fault (Array2 Bool)
  | _, u, _, [] => .ok u
  | 0, _, _, _ :: _ => .error .outOfFuel
  | fuel + 1, u, isVisited, top :: reachable => do
    let scc ← vecGet s.m_sccs top
    let u ← u.write initialId scc.id false
    let (isVisited, reachable) ← (links scc).foldlM
      (fun (st : List Bool × List Int) n => do
        if (← vecGet st.1 n) then pure st
        else pure (← vecSet st.1 n true, n :: st.2))
      (isVisited, reachable)
    fillReachableLoop s links initialId fuel u isVisited reachable

/-- Member `Solver::fillForwardSccUnreachabilityIfSccTraversed`. -/
def fillForwardSccUnreachabilityIfSccTraversed (s : Solver) (u : Array2 Bool)
    (initialScc : Scc) : Except Fault (Array2 Bool) :=
  fillReachableLoop s Scc.neighbours initialScc.id (s.m_sccs.length + 2) u
    (List.replicate s.m_sccs.length false) [initialScc.id]

/-- Member `Solver::fillBackwardSccUnreachabilityIfSccTraversed`. -/
def fillBackwardSccUnreachabilityIfSccTraversed (s : Solver) (u : Array2 Bool)
    (initialScc : Scc) : Except Fault (Array2 Bool) :=
  fillReachableLoop s Scc.predecessors initialScc.id (s.m_sccs.length + 2) u
    (List.replicate s.m_sccs.length false) [initialScc.id]

/-- Member `Solver::fillSccUnreachabilityIfSccTraversed`. -/
def fillSccUnreachabilityIfSccTraversed (s : Solver) (u : Array2 Bool) (initialScc : Scc) :
    Except Fault (Array2 Bool) := do
  let u ← s.fillForwardSccUnreachabilityIfSccTraversed u initialScc
  s.fillBackwardSccUnreachabilityIfSccTraversed u initialScc

/-- Member `Solver::fillSccConditionalUnreachability`. -/
def fillSccConditionalUnreachability (s : Solver) : Except Fault Solver := do
  let numSccs : Int := s.m_sccs.length
  let u ← s.m_sccs.foldlM
    (fun (u : Array2 Bool) scc => s.fillSccUnreachabilityIfSccTraversed u scc)
    (Array2.filled numSccs numSccs true)
  pure { s with m_ifSccTraversedThenSccUnreachable := u }

/-- The innermost loop of `mayBeSolvable`: does the SCC `other` hold a jewel that lies in
one SCC only? -/
def holdsSingleSccJewel (s : Solver) (other : Scc) : Except Fault Bool :=
  other.jewels.anyM fun jewelId => do
    pure (decide ((← vecGet s.m_numSccsWithJewel jewelId) = 1))

/-- The loop of `mayBeSolvable` over `otherSccId`. -/
def excludesRequiredScc (s : Solver) (scc : Scc) : Except Fault Bool :=
  (List.range s.m_sccs.length).anyM fun (otherSccId : Nat) => do
    if scc.id = otherSccId then pure false
    else if (← s.m_ifSccTraversedThenSccUnreachable.read scc.id otherSccId) then
      s.holdsSingleSccJewel (← vecGet s.m_sccs otherSccId)
    else pure false

/-- The loop of `mayBeSolvable` over the jewels of `scc`. -/
def hasExclusiveJewel (s : Solver) (scc : Scc) : Except Fault Bool :=
  scc.jewels.anyM fun jewelId => do
    if (← vecGet s.m_numSccsWithJewel jewelId) = 1 then s.excludesRequiredScc scc
    else pure false

/-- Member `Solver::mayBeSolvable`. -/
def mayBeSolvable (s : Solver) : Except Fault Bool := do
  let found ← s.m_sccs.anyM fun scc => s.hasExclusiveJewel scc
  pure (!found)

end Solver

/-! ## Paths along the move graph -/

namespace Solution

/-- Member `Solution::replace`. -/
def replace (s : Solution) (start length : Int) (replacement : List Direction) :
    Except Fault Solution := do
  let diff := length - replacement.length
  if start < 0 ∨ diff < 0 ∨ start + diff > s.m_moves.length then .error .outOfBounds
  else
    let erased := s.m_moves.take start.toNat ++ s.m_moves.drop (start + diff).toNat
    let moves ← (replacement.enum).foldlM
      (fun (moves : List Direction) (p : Nat × Direction) => vecSet moves (start + p.1) p.2)
      erased
    pure { s with m_moves := moves }

end Solution

namespace Solver

/-- The overloads of `Solver::forEachMoveInSolution`, with the state of the callback made
explicit: returns the final state and the final value of `start`. -/
def forEachMoveInSolution {σ : Type} (s : Solver) (f : σ → Move → Coords2 → Except Fault σ) :
    List Direction → Coords2 → σ → Except Fault (σ × Coords2)
  | [], start, st => .ok (st, start)
  | dir :: rest, start, st => do
    let moves ← s.m_movesByPosition.at start
    let move := moves.get dir
    let st ← f st move start
    forEachMoveInSolution s f rest move.endPos st

/-- The search of `pathFromToWithLength` for a move that brings the current node closer to `toNode`. -/
def stepTowards (s : Solver) (moves : Moves) (toNode distance : Int) :
    List Direction → Except Fault (Option (Direction × Int))
  | [] => .ok none
  | dir :: rest => do
    let move := moves.get dir
    if move.id < 0 then stepTowards s moves toNode distance rest
    else
      let newFromCandidate ← s.m_nodeIdByPosition.at move.endPos
      if (← s.m_distanceFromTo.read newFromCandidate toNode) < distance then
        pure (some (dir, newFromCandidate))
      else stepTowards s moves toNode distance rest

/-- The `while (from != to)` loop of `pathFromToWithLength`. -/
def pathLoop (s : Solver) (toNode : Int) :
    Nat → Int → Int → List Direction → Except Fault (Bool × List Direction)
  | 0, fromNode, _, path => if fromNode = toNode then .ok (true, path) else .error .outOfFuel
  | fuel + 1, fromNode, length, path =>
    if fromNode = toNode then .ok (true, path)
    else if length ≤ 0 then .ok (false, path)
    else do
      let distance ← s.m_distanceFromTo.read fromNode toNode
      let moves ← s.m_movesByPosition.at (← vecGet s.m_nodePositionById fromNode)
      match ← stepTowards s moves toNode distance DirectionHelper.values with
      | none => pure (false, path)
      | some (dir, newFrom) =>
        if fromNode = newFrom then pure (false, path ++ [dir])
        else pathLoop s toNode fuel newFrom (length - 1) (path ++ [dir])

/-- Member `Solver::pathFromToWithLength`: the returned flag and the vector `path`. -/
def pathFromToWithLength (s : Solver) (fromCoords toCoords : Coords2) (length : Int)
    (path : List Direction) : Except Fault (Bool × List Direction) := do
  let fromNode ← s.m_nodeIdByPosition.at fromCoords
  let toNode ← s.m_nodeIdByPosition.at toCoords
  if (← s.m_distanceFromTo.read fromNode toNode) > length then pure (false, path)
  else pathLoop s toNode (length.toNat + 1) fromNode length path

/-- Member `Solver::shortestPathFromTo`. -/
def shortestPathFromTo (s : Solver) (fromCoords toCoords : Coords2) (path : List Direction) :
    Except Fault (Bool × List Direction) := do
  let fromNode ← s.m_nodeIdByPosition.at fromCoords
  let toNode ← s.m_nodeIdByPosition.at toCoords
  s.pathFromToWithLength fromCoords toCoords (← s.m_distanceFromTo.read fromNode toNode) path

/-- The loop of `Solver::solutionThroughNodes(nodes)` from the node `startNodeId` on. -/
def solutionThroughNodesFrom (s : Solver) : Int → List Int → Solution → Except Fault Solution
  | _, [], solution => .ok solution
  | startNodeId, endNodeId :: rest, solution => do
    let (_, pathBuffer) ← s.shortestPathFromTo (← vecGet s.m_nodePositionById startNodeId)
      (← vecGet s.m_nodePositionById endNodeId) []
    solutionThroughNodesFrom s endNodeId rest (solution.append pathBuffer)

/-- Member `Solver::solutionThroughNodes(nodes)`. -/
def solutionThroughNodes (s : Solver) (nodes : List Int) : Except Fault Solution :=
  match nodes with
  | [] => .ok Solution.empty
  | startNodeId :: rest => s.solutionThroughNodesFrom startNodeId rest Solution.empty

/-- Member `Solver::coordsAlongSolution`. -/
def coordsAlongSolution (s : Solver) (solution : Solution) : Except Fault (List Coords2) := do
  let (r, _) ← s.forEachMoveInSolution
    (fun (r : List Coords2) move _ => pure (r ++ [move.endPos]))
    solution.m_moves s.m_vehicleCoords [s.m_vehicleCoords]
  pure r

/-- The move `m_movesByPosition[starts[i]][solution[i]]`. -/
def moveOfSolution (s : Solver) (starts : List Coords2) (solution : Solution) (i : Int) :
    Except Fault Move := do
  let moves ← s.m_movesByPosition.at (← vecGet starts i)
  pure (moves.get (← vecGet solution.m_moves i))

end Solver

/-! ## Run removal -/

/-- Local struct `Improvement` of `findMostImprovableRedundantEdgeRun`. -/
structure Improvement where
  start : Int
  length : Int
  possibleImprovement : Int
deriving DecidableEq, Repr

namespace Solver

/-- The loop of `findMostImprovableRedundantEdgeRun` over the jewels of the move at `end`:
the flag `isRedundant` and the counters `numOmitted` (stored as `MoveId`). -/
def markOmitted (s : Solver) :
    List Int → Bool × List Int → Except Fault (Bool × List Int)
  | [], st => .ok st
  | jewelId :: rest, (isRedundant, numOmitted) => do
    let omitted ← vecGet numOmitted jewelId
    let isRedundant :=
      if (← s.m_jewelState.numCollected jewelId) - omitted < 2 then false else isRedundant
    let numOmitted ← vecSet numOmitted jewelId (wrap16 (omitted + 1))
    markOmitted s rest (isRedundant, numOmitted)

/-- The loops `--numOmitted[jewelId]` over the jewels of a move. -/
def unmarkOmitted : List Int → List Int → Except Fault (List Int)
  | [], numOmitted => .ok numOmitted
  | jewelId :: rest, numOmitted => do
    let numOmitted ← vecSet numOmitted jewelId (wrap16 ((← vecGet numOmitted jewelId) - 1))
    unmarkOmitted rest numOmitted

/-- The inner `while (end != solLength)` loop of `findMostImprovableRedundantEdgeRun`. -/
def growRun (s : Solver) (starts : List Coords2) (solution : Solution) (solLength : Int) :
    Nat → Int → List Int → Except Fault (Int × List Int)
  | 0, stop, numOmitted =>
    if stop = solLength then .ok (stop, numOmitted) else .error .outOfFuel
  | fuel + 1, stop, numOmitted =>
    if stop = solLength then .ok (stop, numOmitted)
    else do
      let move ← s.moveOfSolution starts solution stop
      let (isRedundant, numOmitted) ← s.markOmitted move.jewels (true, numOmitted)
      if !isRedundant then
        pure (stop, ← unmarkOmitted move.jewels numOmitted)
      else growRun s starts solution solLength fuel (stop + 1) numOmitted

/-- The outer `while` loop of `findMostImprovableRedundantEdgeRun`. -/
def bestRunLoop (s : Solver) (starts : List Coords2) (solution : Solution) (solLength : Int) :
    Nat → Int → Int → List Int → Improvement → Except Fault Improvement
  | 0, start, stop, _, best =>
    if start ≠ solLength ∧ stop ≠ solLength then .error .outOfFuel else .ok best
  | fuel + 1, start, stop, numOmitted, best =>
    if start ≠ solLength ∧ stop ≠ solLength then do
      let (stop, numOmitted) ←
        s.growRun starts solution solLength (solLength.toNat + 1) stop numOmitted
      let best ←
        if start ≠ stop then do
          let length := stop - start
          if length > best.possibleImprovement then
            let fromCoords ← vecGet starts start
            let toCoords ← vecGet starts (start + length)
            let fromNode ← s.m_nodeIdByPosition.at fromCoords
            let toNode ← s.m_nodeIdByPosition.at toCoords
            let newLength ← s.m_distanceFromTo.read fromNode toNode
            let impr := length - newLength
            if impr > best.possibleImprovement then pure ⟨start, length, impr⟩ else pure best
          else pure best
        else pure best
      let move ← s.moveOfSolution starts solution start
      let numOmitted ← unmarkOmitted move.jewels numOmitted
      bestRunLoop s starts solution solLength fuel (start + 1) stop numOmitted best
    else .ok best

/-- Member `Solver::findMostImprovableRedundantEdgeRun`. -/
def findMostImprovableRedundantEdgeRun (s : Solver) (solution : Solution) :
    Except Fault (Int × Int) := do
  let starts ← s.coordsAlongSolution solution
  let solLength := solution.size
  let numOmitted := List.replicate s.m_jewelState.numJewels.toNat (0 : Int)
  let best ← s.bestRunLoop starts solution solLength (solLength.toNat + 1) 0 0 numOmitted
    ⟨-1, -1, 0⟩
  pure (best.start, best.length)

/-- The two loops of `tryShortenRun` that walk `count` moves of the solution from index
`i`, starting at `coords`. -/
def walkSolution (s : Solver) (solution : Solution) :
    Nat → Int → Coords2 → Except Fault Coords2
  | 0, _, coords => .ok coords
  | count + 1, i, coords => do
    let moves ← s.m_movesByPosition.at coords
    let move := moves.get (← vecGet solution.m_moves i)
    walkSolution s solution count (i + 1) move.endPos

/-- Member `Solver::tryShortenRun`. -/
def tryShortenRun (s : Solver) (solution : Solution) (start length : Int) :
    Except Fault (List Direction) := do
  if length ≤ 1 then pure []
  else
    let coords ← s.walkSolution solution start.toNat 0 s.m_vehicleCoords
    let endCoords ← s.walkSolution solution length.toNat start coords
    let (found, path) ← s.pathFromToWithLength coords endCoords (length - 1) []
    if found then pure path else pure []

/-- The first loop of `updateJewelStateOnSolutionPartReplaced`. -/
def uncollectAlong (s : Solver) (oldSolution : Solution) :
    Nat → Int → Coords2 → JewelState → Except Fault JewelState
  | 0, _, _, js => .ok js
  | count + 1, i, coords, js => do
    let moves ← s.m_movesByPosition.at coords
    let move := moves.get (← vecGet oldSolution.m_moves i)
    let js ← move.jewels.foldlM
      (fun (js : JewelState) jewelId => do pure (← js.removeFromCollected jewelId).1) js
    uncollectAlong s oldSolution count (i + 1) move.endPos js

/-- Member `Solver::updateJewelStateOnSolutionPartReplaced`. -/
def updateJewelStateOnSolutionPartReplaced (s : Solver) (oldSolution : Solution)
    (start length : Int) (directions : List Direction) : Except Fault Solver := do
  let starts ← s.coordsAlongSolution oldSolution
  let coords ← vecGet starts start
  let js ← s.uncollectAlong oldSolution length.toNat start coords s.m_jewelState
  let (js, _) ← s.forEachMoveInSolution
    (fun (js : JewelState) move _ =>
      move.jewels.foldlM
        (fun (js : JewelState) jewelId => do pure (← js.addToCollected jewelId).1) js)
    directions coords js
  pure { s with m_jewelState := js }

/-- Member `Solver::tryRemoveAnyRunFromSolution`: the flag, the solver (its jewel state is
updated) and the solution. -/
def tryRemoveAnyRunFromSolution (s : Solver) (solution : Solution) :
    Except Fault (Bool × Solver × Solution) := do
  let run ← s.findMostImprovableRedundantEdgeRun solution
  if run.1 ≠ -1 then
    let start := run.1
    let length := run.2
    let sol ← s.tryShortenRun solution start length
    let s ← s.updateJewelStateOnSolutionPartReplaced solution start length sol
    let solution ← solution.replace start length sol
    pure (true, s, solution)
  else pure (false, s, solution)

/-- The loop `while (tryRemoveAnyRunFromSolution(solution)) {}`. -/
def removeRuns : Nat → Solver → Solution → Except Fault (Solver × Solution)
  | 0, _, _ => .error .outOfFuel
  | fuel + 1, s, solution => do
    let (removed, s, solution) ← s.tryRemoveAnyRunFromSolution solution
    if removed then removeRuns fuel s solution else pure (s, solution)

end Solver

/-! ## The CAH heuristic -/

/-- The variables that one call of `solveUsingCahHeuristic` shares with its lambdas, next to
the solver itself: the three penalty vectors (arguments by reference) and the locals
`nodesInPath`, `isTraversed` and `mayBeEnterable`. -/
structure Cah where
  solver : Solver
  penalties : List Int
  lastPenaltyIter : List Int
  numConsecutivePenalties : List Int
  nodesInPath : List Int
  isTraversed : List Bool
  mayBeEnterable : List Bool

namespace Solver

/-- The two loops of `remainsSolvableAfterEnteringScc` over the SCCs that `i` makes
unreachable: `delta` is `-1` in the first loop and `+1` in the second. -/
def shiftSccCounts (s : Solver) (i delta : Int) :
    List Scc → Bool × List Int → Except Fault (Bool × List Int)
  | [], st => .ok st
  | scc :: rest, (remainsSolvable, counts) => do
    if (← s.m_ifSccTraversedThenSccUnreachable.read i scc.id) then
      let st ← scc.jewels.foldlM
        (fun (st : Bool × List Int) jewelId => do
          let n := wrap16 ((← vecGet st.2 jewelId) + delta)
          let counts ← vecSet st.2 jewelId n
          pure (if delta < 0 ∧ n ≤ 0 then false else st.1, counts))
        (remainsSolvable, counts)
      shiftSccCounts s i delta rest st
    else shiftSccCounts s i delta rest (remainsSolvable, counts)

/-- Member `Solver::remainsSolvableAfterEnteringScc`: the flag and the solver, whose vector
`m_numSccsWithJewel` went through both loops. -/
def remainsSolvableAfterEnteringScc (s : Solver) (isTraversed : List Bool) (i : Int) :
    Except Fault (Bool × Solver) := do
  if i = invalidSccId then pure (true, s)
  else if (← vecGet isTraversed i) then pure (true, s)
  else
    let (remainsSolvable, counts) ← s.shiftSccCounts i (-1) s.m_sccs (true, s.m_numSccsWithJewel)
    let (_, counts) ← s.shiftSccCounts i 1 s.m_sccs (remainsSolvable, counts)
    pure (remainsSolvable, { s with m_numSccsWithJewel := counts })

/-- Collects or releases, by `JewelState::addToCollected` or `removeFromCollected`, the
jewels of every move on the shortest path between two nodes: the lambdas
`addJewelsFromPath` (`add = true`) and `removeJewelsFromPath`. -/
def jewelsFromPath (s : Solver) (add : Bool) (startNodeId endNodeId : Int) :
    Except Fault Solver := do
  let c ← vecGet s.m_nodePositionById startNodeId
  let (_, pathBuffer) ← s.shortestPathFromTo (← vecGet s.m_nodePositionById startNodeId)
    (← vecGet s.m_nodePositionById endNodeId) []
  let (js, _) ← s.forEachMoveInSolution
    (fun (js : JewelState) move _ =>
      move.jewels.foldlM
        (fun (js : JewelState) jewelId => do
          if add then pure (← js.addToCollected jewelId).1
          else pure (← js.removeFromCollected jewelId).1)
        js)
    pathBuffer c s.m_jewelState
  pure { s with m_jewelState := js }

end Solver

namespace Cah

/-- The loop of the lambda `applyPenaltiesToPath` from the node `startNodeId` on; `c` runs
on from one segment of the path to the next. -/
def applyPenaltiesFrom (iter : Int) : Cah → Int → List Int → Coords2 → Except Fault Cah
  | st, _, [], _ => .ok st
  | st, startNodeId, endNodeId :: rest, c => do
    let s := st.solver
    let _ ← s.m_distanceFromTo.read startNodeId endNodeId
    let (_, pathBuffer) ← s.shortestPathFromTo (← vecGet s.m_nodePositionById startNodeId)
      (← vecGet s.m_nodePositionById endNodeId) []
    let (st, c) ← s.forEachMoveInSolution
      (fun (st : Cah) move _ => do
        let moveId := move.id
        let _ ← vecGet st.penalties moveId
        let consecutive ←
          if iter > (← vecGet st.lastPenaltyIter moveId) + 1 then
            vecSet st.numConsecutivePenalties moveId 0
          else pure st.numConsecutivePenalties
        let n ← vecGet consecutive moveId
        let penalties ← vecSet st.penalties moveId ((← vecGet st.penalties moveId) + (n * 2 + 1))
        let consecutive ← vecSet consecutive moveId (n + 1)
        let last ← vecSet st.lastPenaltyIter moveId iter
        pure { st with
          penalties := penalties, numConsecutivePenalties := consecutive,
          lastPenaltyIter := last })
      pathBuffer c st
    applyPenaltiesFrom iter st endNodeId rest c

/-- Lambda `applyPenaltiesToPath` of `solveUsingCahHeuristic`, called with `nodesInPath`. -/
def applyPenaltiesToPath (iter : Int) (start : Coords2) (st : Cah) : Except Fault Cah :=
  match st.nodesInPath with
  | [] => .ok st
  | startNodeId :: rest => applyPenaltiesFrom iter st startNodeId rest start

/-- The candidate that `insertForJewel` has found so far: `bestMove` (none for `nullptr`),
`bestI`, `lowestDistance` and `additionalDistance`. -/
structure Candidate where
  bestMove : Option Move
  bestI : Int
  lowestDistance : Int
  additionalDistance : Int

/-- The loop of `insertForJewel` over the insertion places `i = 0, 2, 4, …`. -/
def scanPlaces (s : Solver) (move : Move) (moveValue thisMoveStartId thisMoveEndId : Int) :
    List Int → Int → Candidate → Except Fault Candidate
  | startNodeId :: endNodeId :: rest, i, best => do
    let d0 ← s.m_distanceFromTo.read startNodeId thisMoveStartId
    let d1 ← s.m_distanceFromTo.read thisMoveEndId endNodeId
    let dOld ← s.m_distanceFromTo.read startNodeId endNodeId
    let best :=
      if d0 = infiniteDistance ∨ d1 = infiniteDistance then best
      else
        let distance := d0 + d1 - dOld - moveValue
        if distance < best.lowestDistance then
          ⟨some move, i, distance, d0 + d1 - dOld⟩
        else best
    scanPlaces s move moveValue thisMoveStartId thisMoveEndId rest (i + 2) best
  | _, _, best => .ok best

end Cah

namespace Cah

/-- One of the two SCC admission tests at the head of the loop of `insertForJewel`: the
flag tells whether the `continue` was taken. -/
def rejectScc (st : Cah) (sccId : Int) : Except Fault (Bool × Cah) := do
  if (← vecGet st.mayBeEnterable sccId) then
    let (remains, s) ← st.solver.remainsSolvableAfterEnteringScc st.isTraversed sccId
    let st := { st with solver := s }
    if !remains then
      pure (true, { st with mayBeEnterable := ← vecSet st.mayBeEnterable sccId false })
    else pure (false, st)
  else pure (false, st)

/-- The body of the loop of `insertForJewel` over the moves that collect the jewel. -/
def considerMove (st : Cah) (move : Move) (best : Candidate) :
    Except Fault (Cah × Candidate) := do
  let startSccId ← st.solver.m_sccIdAt.at move.startPos
  let endSccId ← st.solver.m_sccIdAt.at move.endPos
  let (skip, st) ← st.rejectScc startSccId
  if skip then pure (st, best)
  else
    let (skip, st) ← st.rejectScc endSccId
    if skip then pure (st, best)
    else
      let s := st.solver
      let numJewelsOnTheWay : Int := move.jewels.length
      let moveValue := numJewelsOnTheWay - (← vecGet st.penalties move.id)
      let thisMoveStartId ← s.m_nodeIdByPosition.at move.startPos
      let thisMoveEndId ← s.m_nodeIdByPosition.at move.endPos
      let best ← scanPlaces s move moveValue thisMoveStartId thisMoveEndId st.nodesInPath 0 best
      match st.nodesInPath.getLast? with
      | none => .error .outOfBounds
      | some back =>
        let dn ← s.m_distanceFromTo.read back thisMoveStartId
        let distance := dn - moveValue
        if dn ≠ infiniteDistance ∧ distance < best.lowestDistance then
          pure (st, ⟨some move, (st.nodesInPath.length : Int) - 1, distance, dn⟩)
        else pure (st, best)

/-- Lambda `insertForJewel` of `solveUsingCahHeuristic`: the returned number and the state. -/
def insertForJewel (iter : Int) (start : Coords2) (st : Cah) (jewelId : Int) :
    Except Fault (Int × Cah) := do
  let candidates ← vecGet st.solver.m_movesCollectingJewel jewelId
  let (st, best) ← candidates.foldlM
    (fun (acc : Cah × Candidate) move => considerMove acc.1 move acc.2)
    (st, (⟨none, -1, 2147483647, infiniteDistance⟩ : Candidate))
  if best.bestI < 0 then
    let st ← applyPenaltiesToPath iter start st
    pure (infiniteDistance,
      { st with solver := { st.solver with m_jewelState := st.solver.m_jewelState.clear } })
  else
    match best.bestMove with
    | none => .error .outOfBounds
    | some bestMove =>
      let s := st.solver
      let js ← bestMove.jewels.foldlM
        (fun (js : JewelState) jewelId => do pure (← js.addToCollected jewelId).1)
        s.m_jewelState
      let s := { s with m_jewelState := js }
      let bestMoveStartId ← s.m_nodeIdByPosition.at bestMove.startPos
      let bestMoveEndId ← s.m_nodeIdByPosition.at bestMove.endPos
      let isTraversed ← vecSet st.isTraversed (← s.m_sccIdAt.at bestMove.startPos) true
      let isTraversed ← vecSet isTraversed (← s.m_sccIdAt.at bestMove.endPos) true
      let startNodeId ← vecGet st.nodesInPath best.bestI
      let s ← s.jewelsFromPath true startNodeId bestMoveStartId
      let s ←
        if best.bestI ≠ (st.nodesInPath.length : Int) - 1 then do
          let endNodeId ← vecGet st.nodesInPath (best.bestI + 1)
          let s ← s.jewelsFromPath true bestMoveEndId endNodeId
          s.jewelsFromPath false startNodeId endNodeId
        else pure s
      let nodes := st.nodesInPath.take (best.bestI + 1).toNat ++
        [wrap16 bestMoveStartId, wrap16 bestMoveEndId] ++
        st.nodesInPath.drop (best.bestI + 1).toNat
      pure (best.additionalDistance + 1,
        { st with solver := s, isTraversed := isTraversed, nodesInPath := nodes })

/-- The `for` loop inside the first `while` of `solveUsingCahHeuristic`, over the indices
`a` that are left: the flag is false when the function has returned false. -/
def insertShuffled (iter : Int) (start : Coords2) (jewelIdsShuffled : List Int) :
    List Nat → Cah → Except Fault (Bool × Cah)
  | [], st => .ok (true, st)
  | a :: rest, st => do
    let jewelId ← vecGet jewelIdsShuffled a
    if (← st.solver.m_jewelState.isCollected jewelId) then
      insertShuffled iter start jewelIdsShuffled rest st
    else
      let (r, st) ← insertForJewel iter start st jewelId
      if r = infiniteDistance then pure (false, st)
      else insertShuffled iter start jewelIdsShuffled rest st

/-- The first `while (m_jewelState.numLeft() > 0)` loop of `solveUsingCahHeuristic`. -/
def insertUntilCollected (iter : Int) (start : Coords2) (jewelIdsShuffled : List Int) :
    Nat → Cah → Except Fault (Bool × Cah)
  | 0, st => if st.solver.m_jewelState.numLeft > 0 then .error .outOfFuel else .ok (true, st)
  | fuel + 1, st =>
    if st.solver.m_jewelState.numLeft > 0 then do
      let (continued, st) ← insertShuffled iter start jewelIdsShuffled
        (List.range st.solver.m_jewelState.numJewels.toNat) st
      if continued then insertUntilCollected iter start jewelIdsShuffled fuel st
      else pure (false, st)
    else .ok (true, st)

/-- The `for` loop inside the `while` of the lambda `tryExchange`. -/
def reinsertPass (iter : Int) (start : Coords2) : List Nat → Int × Cah → Except Fault (Int × Cah)
  | [], acc => .ok acc
  | jewelId :: rest, (addedDistance, st) => do
    if (← st.solver.m_jewelState.isCollected jewelId) then
      reinsertPass iter start rest (addedDistance, st)
    else
      let (r, st) ← insertForJewel iter start st jewelId
      reinsertPass iter start rest (addedDistance + r, st)

/-- The `while (m_jewelState.numLeft() > 0)` loop of the lambda `tryExchange`. -/
def reinsertUntilCollected (iter : Int) (start : Coords2) :
    Nat → Int × Cah → Except Fault (Int × Cah)
  | 0, (addedDistance, st) =>
    if st.solver.m_jewelState.numLeft > 0 then .error .outOfFuel else .ok (addedDistance, st)
  | fuel + 1, (addedDistance, st) =>
    if st.solver.m_jewelState.numLeft > 0 then do
      let acc ← reinsertPass iter start (List.range st.solver.m_jewelState.numJewels.toNat)
        (addedDistance, st)
      reinsertUntilCollected iter start fuel acc
    else .ok (addedDistance, st)

/-- Lambda `tryExchange` of `solveUsingCahHeuristic`. -/
def tryExchange (iter : Int) (start : Coords2) (fuel : Nat) (st : Cah) (i : Int) :
    Except Fault (Bool × Cah) := do
  let startNodeId ← vecGet st.nodesInPath i
  let leftMiddleNodeId ← vecGet st.nodesInPath (i + 1)
  let rightMiddleNodeId ← vecGet st.nodesInPath (i + 2)
  let s ← st.solver.jewelsFromPath false startNodeId leftMiddleNodeId
  let s ← s.jewelsFromPath false leftMiddleNodeId rightMiddleNodeId
  let distanceSaved ← s.m_distanceFromTo.read startNodeId leftMiddleNodeId
  let (s, distanceSaved) ←
    if i + 3 < st.nodesInPath.length then do
      let endNodeId ← vecGet st.nodesInPath (i + 3)
      let s ← s.jewelsFromPath false rightMiddleNodeId endNodeId
      let s ← s.jewelsFromPath true startNodeId endNodeId
      pure (s, distanceSaved + ((← s.m_distanceFromTo.read rightMiddleNodeId endNodeId)
        - (← s.m_distanceFromTo.read startNodeId endNodeId)))
    else pure (s, distanceSaved)
  let nodes := st.nodesInPath.take (i + 1).toNat ++ st.nodesInPath.drop (i + 3).toNat
  let (addedDistance, st) ← reinsertUntilCollected iter start fuel
    (0, { st with solver := s, nodesInPath := nodes })
  pure (decide (addedDistance < distanceSaved), st)

/-- The `for` loop of the lambda `exchange`. -/
def exchangeLoop (iter : Int) (start : Coords2) (fuel : Nat) :
    Nat → Int → Bool × Cah → Except Fault (Bool × Cah)
  | 0, i, (anyImprovement, st) =>
    if i + 1 < st.nodesInPath.length then .error .outOfFuel else .ok (anyImprovement, st)
  | more + 1, i, (anyImprovement, st) =>
    if i + 1 < st.nodesInPath.length then do
      let oldState := st.solver.m_jewelState
      let nodesInPathCpy := st.nodesInPath
      let (improved, st) ← tryExchange iter start fuel st i
      if improved then exchangeLoop iter start fuel more (i + 2) (true, st)
      else
        exchangeLoop iter start fuel more (i + 2)
          (anyImprovement, { st with
            solver := { st.solver with m_jewelState := oldState }
            nodesInPath := nodesInPathCpy })
    else .ok (anyImprovement, st)

/-- Lambda `exchange` of `solveUsingCahHeuristic`. -/
def exchange (iter : Int) (start : Coords2) (fuel : Nat) (st : Cah) : Except Fault (Bool × Cah) :=
  exchangeLoop iter start fuel fuel 0 (false, st)

/-- The loop `for (;;)` of `solveUsingCahHeuristic` that exchanges until nothing improves. -/
def exchangeUntilSettled (iter : Int) (start : Coords2) (solution : Solution) (fuel : Nat) :
    Nat → Cah → Except Fault Cah
  | 0, _ => .error .outOfFuel
  | more + 1, st =>
    if solution.size ≤ st.solver.m_level.maxMoves then .ok st
    else do
      let (improved, st) ← exchange iter start fuel st
      if !improved then pure st else exchangeUntilSettled iter start solution fuel more st

end Cah

namespace Solver

/-- Member `Solver::solveUsingCahHeuristic`.  `jewelIdsShuffled` is the vector left by
`std::shuffle`; `fuel` bounds the iterations of each loop whose end the code leaves to the
data.  Returns the flag, the solution, the penalty vectors with the solver (in a `Cah`) and
`currentBestBeforeReduction`. -/
def solveUsingCahHeuristic (s : Solver) (fuel : Nat) (jewelIdsShuffled : List Int)
    (solution : Solution) (start : Coords2)
    (penalties lastPenaltyIter numConsecutivePenalties : List Int)
    (currentBestBeforeReduction : Int) (iter : Int) :
    Except Fault (Bool × Solution × Cah × Int) := do
  let isTraversed ← vecSet (List.replicate s.m_sccs.length false) (← s.m_sccIdAt.at start) true
  let st : Cah :=
    { solver := s, penalties := penalties, lastPenaltyIter := lastPenaltyIter,
      numConsecutivePenalties := numConsecutivePenalties,
      nodesInPath := [← s.m_nodeIdByPosition.at start],
      isTraversed := isTraversed,
      mayBeEnterable := List.replicate s.m_sccs.length true }
  let (collected, st) ← Cah.insertUntilCollected iter start jewelIdsShuffled fuel st
  if !collected then pure (false, solution, st, currentBestBeforeReduction)
  else
    let solution ← st.solver.solutionThroughNodes st.nodesInPath
    -- shorten all possible subpaths, only to get the length of the shortened solution
    let oldState := st.solver.m_jewelState
    let (_, solution) ← st.solver.removeRuns (solution.size.toNat + 1) solution
    let st := { st with solver := { st.solver with m_jewelState := oldState } }
    let (st, currentBestBeforeReduction) ←
      if solution.size < currentBestBeforeReduction then do
        pure (← Cah.exchangeUntilSettled iter start solution fuel fuel st, solution.size)
      else pure (st, currentBestBeforeReduction)
    let solution ← st.solver.solutionThroughNodes st.nodesInPath
    let (s, solution) ← st.solver.removeRuns (solution.size.toNat + 1) solution
    let st := { st with solver := { s with m_jewelState := s.m_jewelState.clear } }
    pure (true, solution.setExists true, st, currentBestBeforeReduction)

end Solver

/-! ## 3-opt -/

namespace Solver

/-- Member `Solver::solutionThroughNodes(nodes, successors)`: `steps` iterations are left. -/
def solutionThroughSuccessors (s : Solver) (nodes : List Int) (successors : List Int) :
    Nat → Int → Solution → Except Fault Solution
  | 0, _, solution => .ok solution
  | steps + 1, i, solution => do
    let startNodeId ← vecGet nodes i
    let next ← vecGet successors i
    let endNodeId ← vecGet nodes next
    let (_, pathBuffer) ← s.shortestPathFromTo (← vecGet s.m_nodePositionById startNodeId)
      (← vecGet s.m_nodePositionById endNodeId) []
    solutionThroughSuccessors s nodes successors steps next (solution.append pathBuffer)

/-- Member `Solver::solutionToNodeList`: the node list and the flags. -/
def solutionToNodeList (s : Solver) (solution : Solution) :
    Except Fault (List Int × List Bool) := do
  let c := s.m_vehicleCoords
  let first ← s.m_nodeIdByPosition.at c
  let ((nodes, flags, _), _) ← s.forEachMoveInSolution
    (fun (st : List Int × List Bool × List Bool) move _ => do
      let (nodes, flags, isJewelCollected) := st
      let (anyNewJewels, isJewelCollected) ← move.jewels.foldlM
        (fun (acc : Bool × List Bool) jewelId => do
          if !(← vecGet acc.2 jewelId) then pure (true, ← vecSet acc.2 jewelId true)
          else pure acc)
        (false, isJewelCollected)
      let endNodeId ← s.m_nodeIdByPosition.at move.endPos
      pure (nodes ++ [endNodeId], flags ++ [anyNewJewels], isJewelCollected))
    solution.m_moves c ([first], [], List.replicate s.numJewels.toNat false)
  pure (nodes, flags)

/-- Member `Solver::solutionToCoalescedNodeList`. -/
def solutionToCoalescedNodeList (s : Solver) (solution : Solution) :
    Except Fault (List Int × List Bool) := do
  let (nodesInPath, flags) ← s.solutionToNodeList solution
  let first ← s.m_nodeIdByPosition.at s.m_vehicleCoords
  let (nodes, cflags) ← (List.range (flags.length - 1)).foldlM
    (fun (acc : List Int × List Bool) (i : Nat) => do
      if (← vecGet flags i) ∨ (← vecGet flags (i + 1)) then
        pure (acc.1 ++ [← vecGet nodesInPath (i + 1)], acc.2 ++ [← vecGet flags i])
      else pure acc)
    ([first], [])
  match nodesInPath.getLast?, flags.getLast? with
  | some lastNode, some lastFlag => pure (nodes ++ [lastNode], cflags ++ [lastFlag])
  | _, _ => .error .outOfBounds

/-- The innermost loop of `opt3`, over `k`: the new successors when an exchange was made. -/
def opt3LoopK (s : Solver) (nodesInPath : List Int) (successors : List Int)
    (flags : List Bool) (window : Int) (i iStart iEnd iCost j jStart jEnd jCost j0 : Int) :
    Nat → Int → Int → Except Fault (Option (List Int × Int))
  | 0, _, _ => .ok none
  | steps + 1, k0, k =>
    if k0 + 1 < nodesInPath.length ∧ k0 < j0 + window then do
      if (← vecGet flags k) then
        opt3LoopK s nodesInPath successors flags window i iStart iEnd iCost j jStart jEnd jCost
          j0 steps (k0 + 1) (← vecGet successors k)
      else
        let kStart ← vecGet nodesInPath k
        let kEnd ← vecGet nodesInPath (← vecGet successors k)
        let kCost ← s.m_distanceFromTo.read kStart kEnd
        let iCostNew ← s.m_distanceFromTo.read iStart jEnd
        let jCostNew ← s.m_distanceFromTo.read kStart iEnd
        let kCostNew ← s.m_distanceFromTo.read jStart kEnd
        if iCostNew = infiniteDistance ∨ jCostNew = infiniteDistance ∨
            kCostNew = infiniteDistance then
          opt3LoopK s nodesInPath successors flags window i iStart iEnd iCost j jStart jEnd jCost
            j0 steps (k0 + 1) (← vecGet successors k)
        else
          let cost := iCost + jCost + kCost
          let costNew := iCostNew + jCostNew + kCostNew
          if costNew < cost then
            let sj ← vecGet successors j
            let succs ← vecSet successors j (← vecGet successors k)
            let succs ← vecSet succs k (← vecGet succs i)
            let succs ← vecSet succs i sj
            pure (some (succs, cost - costNew))
          else
            opt3LoopK s nodesInPath successors flags window i iStart iEnd iCost j jStart jEnd
              jCost j0 steps (k0 + 1) (← vecGet successors k)
    else .ok none

/-- The middle loop of `opt3`, over `j`. -/
def opt3LoopJ (s : Solver) (nodesInPath : List Int) (successors : List Int)
    (flags : List Bool) (window : Int) (i iStart iEnd iCost i0 : Int) :
    Nat → Int → Int → Except Fault (Option (List Int × Int))
  | 0, _, _ => .ok none
  | steps + 1, j0, j =>
    if j0 + 3 < nodesInPath.length ∧ j0 < i0 + window then do
      if (← vecGet flags j) then
        opt3LoopJ s nodesInPath successors flags window i iStart iEnd iCost i0 steps (j0 + 1)
          (← vecGet successors j)
      else
        let jStart ← vecGet nodesInPath j
        let jEnd ← vecGet nodesInPath (← vecGet successors j)
        let jCost ← s.m_distanceFromTo.read jStart jEnd
        let k ← vecGet successors (← vecGet successors j)
        match ← opt3LoopK s nodesInPath successors flags window i iStart iEnd iCost j jStart
            jEnd jCost j0 nodesInPath.length (j0 + 2) k with
        | some r => pure (some r)
        | none =>
          opt3LoopJ s nodesInPath successors flags window i iStart iEnd iCost i0 steps (j0 + 1)
            (← vecGet successors j)
    else .ok none

/-- The outer loop of `opt3`, over `i`: the successors, `savedLength`, `anyImprovement`. -/
def opt3LoopI (s : Solver) (nodesInPath : List Int) (flags : List Bool) (window : Int)
    (totalLength : Int) :
    Nat → Int → Int → List Int × Int × Bool → Except Fault (List Int × Int × Bool)
  | 0, _, _, st => .ok st
  | steps + 1, i0, i, (successors, savedLength, anyImprovement) =>
    if i0 + 5 < nodesInPath.length then
      if totalLength - savedLength ≤ s.m_level.maxMoves then
        .ok (successors, savedLength, anyImprovement)
      else do
        if (← vecGet flags i) then
          opt3LoopI s nodesInPath flags window totalLength steps (i0 + 1)
            (← vecGet successors i) (successors, savedLength, anyImprovement)
        else
          let iStart ← vecGet nodesInPath i
          let iEnd ← vecGet nodesInPath (← vecGet successors i)
          let iCost ← s.m_distanceFromTo.read iStart iEnd
          let j ← vecGet successors (← vecGet successors i)
          match ← opt3LoopJ s nodesInPath successors flags window i iStart iEnd iCost i0
              nodesInPath.length (i0 + 2) j with
          | some (succs, saved) =>
            opt3LoopI s nodesInPath flags window totalLength steps (i0 + 1)
              (← vecGet succs i) (succs, savedLength + saved, true)
          | none =>
            opt3LoopI s nodesInPath flags window totalLength steps (i0 + 1)
              (← vecGet successors i) (successors, savedLength, anyImprovement)
    else .ok (successors, savedLength, anyImprovement)

/-- Member `Solver::opt3(nodesInPath, successors, flags, window)`: the flag and the
successors. -/
def opt3Pass (s : Solver) (nodesInPath : List Int) (successors : List Int)
    (flags : List Bool) (window : Int) : Except Fault (Bool × List Int) := do
  let total ← s.solutionThroughSuccessors nodesInPath successors (nodesInPath.length - 1) 0
    Solution.empty
  let (successors, _, anyImprovement) ← s.opt3LoopI nodesInPath flags window total.size
    nodesInPath.length 0 0 (successors, 0, false)
  pure (anyImprovement, successors)

/-- The `while` loop of `Solver::opt3(solution)`. -/
def opt3Loop (s : Solver) (nodes : List Int) (flags : List Bool) :
    Nat → List Int → Int → Solution → Except Fault Solution
  | 0, _, _, solution =>
    if solution.size > s.m_level.maxMoves then .error .outOfFuel else .ok solution
  | fuel + 1, successors, window, solution =>
    if solution.size > s.m_level.maxMoves then do
      let (improved, successors) ← s.opt3Pass nodes successors flags window
      if !improved then pure solution
      else
        let solution ← s.solutionThroughSuccessors nodes successors (nodes.length - 1) 0
          Solution.empty
        opt3Loop s nodes flags fuel successors (min (window * 4) nodes.length) solution
    else .ok solution

/-- Member `Solver::opt3(solution)`. -/
def opt3 (s : Solver) (fuel : Nat) (solution : Solution) : Except Fault Solution := do
  let (nodes, flags) ← s.solutionToCoalescedNodeList solution
  let successors := (List.range nodes.length).map fun (i : Nat) => (i : Int) + 1
  let window : Int := max 16 (Nat.sqrt nodes.length)
  s.opt3Loop nodes flags fuel successors window solution

end Solver

/-! ## The search for the best CAH solution and `solve` -/

/-- What the embedding takes from outside the program text: the wall clock, the random
number generator and the stage after the CAH heuristic.

* `cahRounds`: the clock test at the end of the CAH loop fails this many times before it
  breaks the loop (so the loop body runs at most `cahRounds + 1` times);
* `opt3Rounds`: the clock test of the 3-opt loop lets this many candidates through;
* `shuffled i`: the vector `jewelIdsShuffled` that `std::shuffle` leaves in iteration `i`;
* `search`: the result of the potential-field stages and `solveUsingSearchWithBacktracking`
  on the solver as the CAH stage left it. -/
structure Oracle where
  cahRounds : Nat
  opt3Rounds : Nat
  shuffled : Nat → List Int
  search : Solver → Except Fault Solution

/-- The variables of `lookForBestSolutionUsingCahHeuristicForTime` that live across the
iterations of its first loop. -/
structure CahSearch where
  solver : Solver
  penalties : List Int
  lastPenaltyIter : List Int
  numConsecutivePenalties : List Int
  bestSolutions : List Solution
  best : Solution
  currentBestBeforeReduction : Int

namespace Solver

/-- The body of the first loop of `lookForBestSolutionUsingCahHeuristicForTime` up to the
test of `best`; `i` is the loop counter after `++i` and `jewelIdsShuffled` the vector that
`std::shuffle` leaves in this iteration. -/
def cahIteration (fuel : Nat) (jewelIdsShuffled : List Int) (i : Nat) (st : CahSearch) :
    Except Fault CahSearch := do
  let s := st.solver
  let (solved, solution, cah, currentBest) ← s.solveUsingCahHeuristic fuel jewelIdsShuffled
    Solution.invalid s.m_vehicleCoords st.penalties st.lastPenaltyIter
    st.numConsecutivePenalties st.currentBestBeforeReduction i
  let st := { st with
    solver := cah.solver, penalties := cah.penalties, lastPenaltyIter := cah.lastPenaltyIter,
    numConsecutivePenalties := cah.numConsecutivePenalties,
    currentBestBeforeReduction := currentBest }
  -- `isSolutionValid` returns true: `assumeCorrect` is set
  if solved ∧ solution.isBetterThan st.best then
    let (penalties, _) ← st.solver.forEachMoveInSolution
      (fun (penalties : List Int) move _ => do
        vecSet penalties move.id ((← vecGet penalties move.id) - 1))
      solution.m_moves st.solver.m_vehicleCoords st.penalties
    pure { st with
      penalties := penalties, bestSolutions := st.bestSolutions ++ [solution],
      best := solution }
  else pure st

/-- The first loop of `lookForBestSolutionUsingCahHeuristicForTime`: the flag tells whether
the loop returned `best` (true) or was broken by the clock (false). -/
def cahLoop (o : Oracle) (fuel : Nat) : Nat → Nat → CahSearch → Except Fault (Bool × CahSearch)
  | rounds, i, st => do
    let st ← cahIteration fuel (o.shuffled (i + 1)) (i + 1) st
    if st.best.exists ∧ st.best.size ≤ st.solver.m_level.maxMoves then pure (true, st)
    else
      match rounds with
      | 0 => pure (false, st)
      | rounds + 1 => cahLoop o fuel rounds (i + 1) st

/-- The second loop of `lookForBestSolutionUsingCahHeuristicForTime`, over the candidates
that the clock lets through. -/
def opt3Candidates (s : Solver) (fuel : Nat) : List Solution → Solution → Except Fault Solution
  | [], best => .ok best
  | sol :: rest, best => do
    let sol ← s.opt3 fuel sol
    if sol.size ≤ s.m_level.maxMoves then pure sol
    else if sol.isBetterThan best then opt3Candidates s fuel rest sol
    else opt3Candidates s fuel rest best

/-- The locals of `lookForBestSolutionUsingCahHeuristicForTime` before its first loop. -/
def initialCahSearch (s : Solver) : CahSearch :=
  let numMoves := s.m_allMoves.length
  { solver := s, penalties := List.replicate numMoves 0,
    lastPenaltyIter := List.replicate numMoves (-1),
    numConsecutivePenalties := List.replicate numMoves 0,
    bestSolutions := [], best := Solution.invalid,
    currentBestBeforeReduction := 2147483647 }

/-- Member `Solver::lookForBestSolutionUsingCahHeuristicForTime`: the solution and the
solver, in which the heuristic has written to `m_jewelState` and `m_numSccsWithJewel` (the
only two members that its functions assign). -/
def lookForBestSolutionUsingCahHeuristicForTime (s : Solver) (o : Oracle) (fuel : Nat) :
    Except Fault (Solution × Solver) := do
  let (returned, st) ← cahLoop o fuel o.cahRounds 0 s.initialCahSearch
  let after : Solver := { s with
    m_jewelState := st.solver.m_jewelState
    m_numSccsWithJewel := st.solver.m_numSccsWithJewel }
  if returned then pure (st.best, after)
  else
    let best ← st.solver.opt3Candidates fuel (st.bestSolutions.reverse.take o.opt3Rounds)
      st.best
    pure (best, after)

/-- The stages of `solve` between the test for jewels and the heuristic; `none` stands for
the `return Solution::invalid()` of the two rejections. -/
def prepare (s : Solver) : Except Fault (Option Solver) := do
  let s ← s.identifyJewels
  let s ← s.generateAllMoves
  if !(← s.areAllJewelsReachable) then pure none
  else
    let s ← s.computePairwiseNodeDistances
    let s ← s.identifySccs
    let s ← s.assignJewelsToSccs
    let s ← s.fillSccConditionalUnreachability
    if !(← s.mayBeSolvable) then pure none
    else pure (some s)

/-- Member `Solver::solve`, from the solver that the constructor built.  `fuel` bounds the
iterations of each loop of the heuristic whose end the code leaves to the data; a run that
returns with some fuel is the run of the program. -/
def solve (s : Solver) (o : Oracle) (fuel : Nat) : Except Fault Solution := do
  if s.numJewels = 0 then pure Solution.empty
  else
    match ← s.prepare with
    | none => pure Solution.invalid
    | some s =>
      let (cahSolution, s) ← s.lookForBestSolutionUsingCahHeuristicForTime o fuel
      if cahSolution.exists ∧ cahSolution.size ≤ s.m_level.maxMoves then pure cahSolution
      else
        let solution ← o.search s
        if solution.exists ∧ solution.size ≤ s.m_level.maxMoves then pure solution
        else pure Solution.invalid

/-- The stages of `solve` between the test for a board without jewels and the call of
`mayBeSolvable`; `none` is the return of `Solution::invalid()` on an unreachable jewel. -/
def analyse (s : Solver) : Except Fault (Option Solver) := do
  let s ← s.identifyJewels
  let s ← s.generateAllMoves
  if !(← s.areAllJewelsReachable) then pure none
  else
    let s ← s.computePairwiseNodeDistances
    let s ← s.identifySccs
    let s ← s.assignJewelsToSccs
    let s ← s.fillSccConditionalUnreachability
    pure (some s)

end Solver

/-- The solver as `solve` hands it to `mayBeSolvable`, where `isAnalysed` holds. -/
def analysed (level : Level) : Solver :=
  match (Solver.make level).analyse with
  | .ok (some s) => s
  | _ => Solver.make level

/-- The run of `solve` on `level` comes to its call of `mayBeSolvable`. -/
def isAnalysed (level : Level) : Bool :=
  match (Solver.make level).analyse with
  | .ok (some _) => true
  | _ => false

/-- The first pass of the CAH loop of `solve` on `level`, with `jewelIdsShuffled` as the
shuffle left it, finds the solution `sol` and `sol` fits `maxMoves`. -/
def fitsAtOnce (level : Level) (jewelIdsShuffled : List Int) (fuel : Nat) (sol : Solution) :
    Bool :=
  match (Solver.make level).prepare with
  | .ok (some s) =>
    match Solver.cahIteration fuel jewelIdsShuffled 1 s.initialCahSearch with
    | .ok st =>
      decide (st.best = sol) && st.best.exists &&
        decide (st.best.size ≤ st.solver.m_level.maxMoves) &&
        decide (st.best.size ≤ s.m_level.maxMoves) &&
        decide ((Solver.make level).numJewels ≠ 0)
    | .error _ => false
  | _ => false

/-- The program on a parsed level: `Solver solver(level, bench); solver.solve()`. -/
def solve (level : Level) (o : Oracle) (fuel : Nat) : Except Fault Solution :=
  (Solver.make level).solve o fuel

/-! ## Environments used in closed runs -/

/-- An environment whose clock breaks both loops at their first test, whose shuffles
leave the vector `jewelIdsShuffled`, and whose search stage finds nothing. -/
def quietOracle (jewelIdsShuffled : List Int) : Oracle :=
  ⟨0, 0, fun _ => jewelIdsShuffled, fun _ => .ok Solution.invalid⟩

/-- The vector `m_allMoves` (the live moves) after `identifyJewels` and `generateAllMoves`
on a fresh solver. -/
def generatedMoves (level : Level) : Except Fault (List Move) := do
  let s ← (Solver.make level).identifyJewels
  let s ← s.generateAllMoves
  pure s.m_allMoves

/-- Scenario "Unreachable jewel": a wall between the vehicle and the jewel. -/
def walledOffLevel : Level :=
  Level.ofGlyphs 3 5 3 ("#####".toList ++ '\n' :: "#.#+#".toList ++ '\n' :: "#####".toList)

/-! ## Invariants used in the proofs -/

/-- The jewel ids on registered moves are indices of `m_movesCollectingJewel`. -/
def Solver.IdsValid (n : Nat) (s : Solver) : Prop :=
  s.m_movesCollectingJewel.length = n ∧
    ∀ m ∈ s.m_allMoves, ∀ j ∈ m.jewels, 0 ≤ j ∧ j < (n : Int)

/-- The SCCs are numbered by their position in `m_sccs`, as `identifySccs` numbers them. -/
def Solver.SccIdsArePositions (s : Solver) : Prop :=
  ∀ (i : Nat) (scc : Scc), s.m_sccs.get? i = some scc → scc.id = i

/-- What the stages before `mayBeSolvable` leave behind: numbered SCCs, a square matrix
`U` with a false diagonal, and jewel lists whose ids index `m_numSccsWithJewel`. -/
def Solver.SccsReady (s : Solver) : Prop :=
  s.SccIdsArePositions ∧
    s.m_ifSccTraversedThenSccUnreachable.width = s.m_sccs.length ∧
    s.m_ifSccTraversedThenSccUnreachable.height = s.m_sccs.length ∧
    (∀ a : Nat, a < s.m_sccs.length →
      s.m_ifSccTraversedThenSccUnreachable.values a a = false) ∧
    (∀ scc ∈ s.m_sccs, ∀ j ∈ scc.jewels, 0 ≤ j ∧ j < (s.m_numSccsWithJewel.length : Int))

/-- The condition of the solvability prefilter: two jewels that each lie in one SCC only,
the SCCs being `a` and `b`, with `U[a][b]` true. -/
def Solver.ExclusivePair (s : Solver) : Prop :=
  ∃ (a b : Nat) (sccA sccB : Scc) (j1 j2 : Int),
    s.m_sccs.get? a = some sccA ∧ s.m_sccs.get? b = some sccB ∧
    j1 ∈ sccA.jewels ∧ j2 ∈ sccB.jewels ∧
    vecGet s.m_numSccsWithJewel j1 = .ok 1 ∧ vecGet s.m_numSccsWithJewel j2 = .ok 1 ∧
    s.m_ifSccTraversedThenSccUnreachable.values a b = true

/-- The array `u'` has the size of `u` and is false wherever `u` is: it arose from `u` by
writes of `false`. -/
def Array2.Cleared (u u' : Array2 Bool) : Prop :=
  u'.width = u.width ∧ u'.height = u.height ∧
    ∀ x y, u.values x y = false → u'.values x y = false

/-- The `id` of every SCC is its index in `m_sccs`, stored as `SccId`. -/
def SccIdsWrapped (sccs : List Scc) : Prop :=
  ∀ (i : Nat) (scc : Scc), sccs.get? i = some scc → scc.id = wrap16 i

/-- The eight slots at the hole `(4, 1)` of `holeStopLevel`: East ends on the jewel cell
`(7, 1)`, West on `(1, 1)`, the other six are blocked at once. -/
def holeStopMovesAtHole : Moves :=
  ⟨[⟨⟨4, 1⟩, ⟨4, 1⟩, -1, []⟩, ⟨⟨4, 1⟩, ⟨4, 1⟩, -1, []⟩, ⟨⟨4, 1⟩, ⟨7, 1⟩, -1, [0]⟩,
    ⟨⟨4, 1⟩, ⟨4, 1⟩, -1, []⟩, ⟨⟨4, 1⟩, ⟨4, 1⟩, -1, []⟩, ⟨⟨4, 1⟩, ⟨4, 1⟩, -1, []⟩,
    ⟨⟨4, 1⟩, ⟨1, 1⟩, -1, []⟩, ⟨⟨4, 1⟩, ⟨4, 1⟩, -1, []⟩]⟩

/-- The number of Jewel cells among the cells `l` of the board, as `countJewels` counts. -/
def jewelsAmong (b : Board) (l : List (Int × Int)) : Int :=
  l.foldl (fun count p => if b.values p.1 p.2 = .Jewel then count + 1 else count) 0

/-- The states that calls of `addToCollected` and `removeFromCollected` reach from
`JewelState(n)` when no call takes a count below 0. -/
inductive JewelState.Reachable (n : Int) : JewelState → Prop
  | init : JewelState.Reachable n (JewelState.make n)
  | add {s s' : JewelState} {i : Int} {b : Bool} :
      JewelState.Reachable n s → s.addToCollected i = .ok (s', b) →
      (∀ c ∈ s'.m_numCollected, 0 ≤ c) → JewelState.Reachable n s'
  | remove {s s' : JewelState} {i : Int} {b : Bool} :
      JewelState.Reachable n s → s.removeFromCollected i = .ok (s', b) →
      (∀ c ∈ s'.m_numCollected, 0 ≤ c) → JewelState.Reachable n s'

/-- What a call of `addToCollected` or `removeFromCollected` on the id `i` did to the count
of `i` and to the other counts: `b` tells whether the count went from `before` to `after`. -/
def JewelState.Crossed (s s' : JewelState) (i : Int) (b : Bool) (before after : Int) : Prop :=
  (b = true ↔ (s.numCollected i = .ok before ∧ s'.numCollected i = .ok after)) ∧
    ∀ j, j ≠ i → s'.numCollected j = s.numCollected j

/-- Two moves are the same slide: they differ in their id at most. -/
def Move.SameSlide (a b : Move) : Prop :=
  a.startPos = b.startPos ∧ a.endPos = b.endPos ∧ a.jewels = b.jewels

/-- The walk of `generateMovesAt(c)` for the direction `d` returns the move `m`, and `m` is
live: its end is not its start. -/
def LiveSlide (level : Level) (ids : Array2 Int) (c : Coords2) (d : Direction) (m : Move) :
    Prop :=
  d ∈ DirectionHelper.values ∧ slideFrom level ids c d = .ok m ∧ m.startPos ≠ m.endPos

/-- The cells that zero or more live slides reach from the cell `v`. -/
inductive SlideReach (level : Level) (ids : Array2 Int) (v : Coords2) : Coords2 → Prop
  | refl : SlideReach level ids v v
  | step {c : Coords2} {d : Direction} {m : Move} :
      SlideReach level ids v c → LiveSlide level ids c d m → SlideReach level ids v m.endPos

/-- The reading of `generateAllMoves` between two passes of its loop: `s0` is the solver at
the call, `s` the solver now, `vis` the local `isVisited` and `queue` the local
`coordsQueue`. -/
structure GenInv (s0 s : Solver) (vis : Array2 Bool) (queue : List Coords2) : Prop where
  level : s.m_level = s0.m_level
  ids : s.m_jewelIdByPosition = s0.m_jewelIdByPosition
  vehicle : s.m_vehicleCoords = s0.m_vehicleCoords
  moveIds : ∀ (i : Nat) (m : Move), s.m_allMoves.get? i = some m → m.id = wrap16 i
  registered : ∀ m ∈ s.m_allMoves, vis.values m.startPos.x m.startPos.y = true ∧
    ∃ d ∈ DirectionHelper.values,
      (s.m_movesByPosition.values m.startPos.x m.startPos.y).get d = m
  slots : ∀ c : Coords2, vis.values c.x c.y = true → ∀ d ∈ DirectionHelper.values,
    ∃ m0, slideFrom s0.m_level s0.m_jewelIdByPosition c d = .ok m0 ∧
      ((s.m_movesByPosition.values c.x c.y).get d).SameSlide m0 ∧
      (m0.startPos = m0.endPos → (s.m_movesByPosition.values c.x c.y).get d = m0) ∧
      (m0.startPos ≠ m0.endPos → (s.m_movesByPosition.values c.x c.y).get d ∈ s.m_allMoves)
  untouched : ∀ x y, vis.values x y = false →
    s.m_movesByPosition.values x y = s0.m_movesByPosition.values x y
  ends : ∀ m ∈ s.m_allMoves, vis.values m.endPos.x m.endPos.y = true ∨ m.endPos ∈ queue
  veh : vis.values s0.m_vehicleCoords.x s0.m_vehicleCoords.y = true ∨
    s0.m_vehicleCoords ∈ queue
  reachVis : ∀ c : Coords2, vis.values c.x c.y = true →
    SlideReach s0.m_level s0.m_jewelIdByPosition s0.m_vehicleCoords c
  reachQueue : ∀ c ∈ queue, SlideReach s0.m_level s0.m_jewelIdByPosition s0.m_vehicleCoords c
  repVis : ∀ c : Coords2, vis.values c.x c.y = true → c.Representable
  repQueue : ∀ c ∈ queue, c.Representable
  once : (s.m_allMoves.map fun m => (m.startPos, m.endPos)).Nodup
  live : ∀ m ∈ s.m_allMoves, m.startPos ≠ m.endPos
  dimsW : s.m_movesByPosition.width = s0.m_movesByPosition.width
  dimsH : s.m_movesByPosition.height = s0.m_movesByPosition.height
  nodeIds : s.m_nodeIdByPosition = s0.m_nodeIdByPosition
  inB : ∀ c : Coords2, vis.values c.x c.y = true → s0.m_movesByPosition.InBounds c.x c.y

instance (a b : Move) : Decidable (a.SameSlide b) := by
  unfold Move.SameSlide; infer_instance

/-- The solver that the constructor built, after the call of `identifyJewels`. -/
def identified (level : Level) : Solver :=
  match (Solver.make level).identifyJewels with
  | .ok s => s
  | .error _ => Solver.make level

/-- The solver after `generateAllMoves`, called on `identified level`. -/
def generated (level : Level) : Solver :=
  match (identified level).generateAllMoves with
  | .ok s => s
  | .error _ => identified level

/-- The call of `generateAllMoves` on `identified level` returns. -/
def isGenerated (level : Level) : Bool :=
  match (identified level).generateAllMoves with
  | .ok _ => true
  | .error _ => false

/-- An edge `a → b` of the graph that the successor lists `moveEnds` give. -/
def EndsEdge (moveEnds : List (List Int)) (a b : Int) : Prop :=
  0 ≤ a ∧ ∃ l, moveEnds.get? a.toNat = some l ∧ b ∈ l

/-- Walks of `k` edges of the relation `E`. -/
inductive WalkOf (E : Int → Int → Prop) : Nat → Int → Int → Prop
  | zero (a : Int) : WalkOf E 0 a a
  | step {k : Nat} {a b c : Int} : WalkOf E k a b → E b c → WalkOf E (k + 1) a c

/-- The reading of `fillDistancesFromNode(source)` between two steps of its loops: `ql` is
the part `Q[0 .. end)` of the queue, `qb` the position `begin`, `dist0` the matrix at the
call and `n` the number of nodes. -/
structure BfsInv (n : Nat) (source : Int) (moveEnds : List (List Int)) (dist0 : Array2 Int)
    (qb : Nat) (visited : List Bool) (dist : Array2 Int) (q ql : List Int) : Prop where
  vlen : visited.length = n
  qlen : q.length = n
  width : dist.width = n
  height : dist.height = n
  qpre : ∃ t, q = ql ++ t
  bounds : qb ≤ ql.length ∧ 1 ≤ ql.length
  head : ql.getD 0 0 = source
  d0 : dist.values source source = 0
  node : ∀ v ∈ ql, 0 ≤ v ∧ v < n ∧ visited.getD v.toNat false = true
  nodup : ql.Nodup
  queued : ∀ v : Int, 0 ≤ v → v < n → visited.getD v.toNat false = true → v ∈ ql
  mono : ∀ i j : Nat, i ≤ j → j < ql.length →
    dist.values source (ql.getD i 0) ≤ dist.values source (ql.getD j 0)
  near : ∀ i j : Nat, qb ≤ i → i < ql.length → j < ql.length →
    dist.values source (ql.getD j 0) ≤ dist.values source (ql.getD i 0) + 1
  parent : ∀ j : Nat, 0 < j → j < ql.length → ∃ i, i < j ∧
    EndsEdge moveEnds (ql.getD i 0) (ql.getD j 0) ∧
    dist.values source (ql.getD j 0) = dist.values source (ql.getD i 0) + 1
  small : ∀ j : Nat, j < ql.length →
    0 ≤ dist.values source (ql.getD j 0) ∧ dist.values source (ql.getD j 0) ≤ j
  closed : ∀ i : Nat, i < qb → ∀ w, EndsEdge moveEnds (ql.getD i 0) w →
    visited.getD w.toNat false = true ∧
      dist.values source w ≤ dist.values source (ql.getD i 0) + 1
  rest : ∀ v : Int, 0 ≤ v → v < n → visited.getD v.toNat false = false →
    dist.values source v = dist0.values source v
  rows : ∀ a b : Int, a ≠ source → dist.values a b = dist0.values a b

/-- Row `a` of the matrix `dist` holds the distances from `a` in the graph of the relation
`E` on the nodes `0 .. n-1`: 0 on the diagonal, the least number of edges of a walk where
there is a walk (a number below `n`), and `infiniteDistance` where there is none. -/
def DistRow (n : Nat) (E : Int → Int → Prop) (dist : Array2 Int) (a : Int) : Prop :=
  dist.values a a = 0 ∧
  (∀ (v : Int) (k : Nat), WalkOf E k a v →
    WalkOf E (dist.values a v).toNat a v ∧ 0 ≤ dist.values a v ∧
      dist.values a v ≤ k ∧ dist.values a v < n) ∧
  (∀ v : Int, 0 ≤ v → v < n → (¬ ∃ k, WalkOf E k a v) →
    dist.values a v = infiniteDistance)

/-- What the numbering loops of `computePairwiseNodeDistances` leave: `T` is the table
`m_nodeIdByPosition` and `c` the number of nodes.  The cells with an id are the ends of the
moves and the vehicle cell, and the ids `0 .. c-1` are given once each. -/
structure NodeTable (moves : List Move) (vehicle : Coords2) (T : Array2 Int) (c : Int) :
    Prop where
  range : ∀ x y, T.values x y = -1 ∨ (0 ≤ T.values x y ∧ T.values x y < c)
  inj : ∀ x y x' y', 0 ≤ T.values x y → T.values x y = T.values x' y' → x = x' ∧ y = y'
  ends : ∀ m ∈ moves, 0 ≤ T.values m.endPos.x m.endPos.y
  veh : 0 ≤ T.values vehicle.x vehicle.y
  only : ∀ x y, 0 ≤ T.values x y → (∃ m ∈ moves, m.endPos = ⟨x, y⟩) ∨ vehicle = ⟨x, y⟩
  count : 0 ≤ c ∧ c ≤ moves.length + 1
  onto : ∀ a, 0 ≤ a → a < c → ∃ x y, T.values x y = a

/-- The reading of the first loop of `computePairwiseNodeDistances` after the moves `pre`:
`T` is `m_nodeIdByPosition`, `V` the local `visited` and `c` the local counter. -/
structure NumberingInv (W H : Int) (pre : List Move) (T : Array2 Int) (V : Array2 Bool)
    (c : Int) : Prop where
  widthT : T.width = W
  heightT : T.height = H
  widthV : V.width = W
  heightV : V.height = H
  seen : ∀ x y, V.values x y = true ↔ ∃ m ∈ pre, m.endPos = ⟨x, y⟩
  range : ∀ x y, V.values x y = true → 0 ≤ T.values x y ∧ T.values x y < c
  fresh : ∀ x y, V.values x y = false → T.values x y = -1
  inj : ∀ x y x' y', V.values x y = true → V.values x' y' = true →
    T.values x y = T.values x' y' → x = x' ∧ y = y'
  count : 0 ≤ c ∧ c ≤ pre.length
  onto : ∀ a, 0 ≤ a → a < c → ∃ x y, V.values x y = true ∧ T.values x y = a

/-- The node ids that `fillDistancesBetweenNodes` appends to `moveEnds[nodeId]` for the
cell `(x, y)`: the ids of the ends of the slots with an id `≥ 0`, in the order of the
directions.  `B` is `m_movesByPosition` and `T` is `m_nodeIdByPosition`. -/
def slotEnds (B : Array2 Moves) (T : Array2 Int) (x y : Int) : List Int :=
  (DirectionHelper.values.filter fun d => decide (0 ≤ ((B.values x y).get d).id)).map
    fun d => T.values ((B.values x y).get d).endPos.x ((B.values x y).get d).endPos.y

/-- An edge of the move graph on node ids: a registered move whose start has the id `a`
and whose end has the id `b`. -/
def Solver.MoveEdge (s : Solver) (a b : Int) : Prop :=
  ∃ m ∈ s.m_allMoves, s.m_nodeIdByPosition.values m.startPos.x m.startPos.y = a ∧
    s.m_nodeIdByPosition.values m.endPos.x m.endPos.y = b

/-- What `generateAllMoves`, called on `identified level`, hands to the later stages. -/
structure MovesReady (level : Level) (s : Solver) : Prop where
  lvl : s.m_level = level
  veh : s.m_vehicleCoords = level.vehicleCoords
  nodeIds : s.m_nodeIdByPosition = Array2.filled level.width level.height invalidNodeId
  byPosW : s.m_movesByPosition.width = level.width
  byPosH : s.m_movesByPosition.height = level.height
  vehicleIn : level.board.InBounds level.vehicleCoords.x level.vehicleCoords.y
  startIn : ∀ m ∈ s.m_allMoves, level.board.InBounds m.startPos.x m.startPos.y
  endIn : ∀ m ∈ s.m_allMoves, level.board.InBounds m.endPos.x m.endPos.y
  slot : ∀ m ∈ s.m_allMoves, ∃ d ∈ DirectionHelper.values,
    (s.m_movesByPosition.values m.startPos.x m.startPos.y).get d = m
  stops : ∀ x y, ((∃ m ∈ s.m_allMoves, m.endPos = ⟨x, y⟩) ∨ level.vehicleCoords = ⟨x, y⟩) →
    ∀ d ∈ DirectionHelper.values, ((s.m_movesByPosition.values x y).get d).id ≠ -1 →
      (s.m_movesByPosition.values x y).get d ∈ s.m_allMoves ∧
        ((s.m_movesByPosition.values x y).get d).startPos = ⟨x, y⟩
  starts : ∀ m ∈ s.m_allMoves,
    (∃ m1 ∈ s.m_allMoves, m1.endPos = m.startPos) ∨ level.vehicleCoords = m.startPos
  ids : ∀ (i : Nat) (m : Move), s.m_allMoves.get? i = some m → m.id = wrap16 i
  live : ∀ m ∈ s.m_allMoves, m.startPos ≠ m.endPos

/-- An edge `a → b` of the graph on SCC ids that the lists `links` of the SCCs give
(`Scc.neighbours` forwards, `Scc.predecessors` backwards). -/
def Solver.SccEdge (s : Solver) (links : Scc → List Int) (a b : Int) : Prop :=
  0 ≤ a ∧ ∃ scc, s.m_sccs.get? a.toNat = some scc ∧ b ∈ links scc

/-- The reading of the loop of `fillForward/BackwardSccUnreachabilityIfSccTraversed` between
two passes: `u0` is the matrix at the call, `a` the id of the initial SCC, `done` the SCCs
popped so far, `stack` the local `reachable`. -/
structure DfsInv (s : Solver) (links : Scc → List Int) (a : Int) (u0 u : Array2 Bool)
    (isVisited : List Bool) (stack : List Int) (done : Int → Prop) : Prop where
  vlen : isVisited.length = s.m_sccs.length
  width : u.width = s.m_sccs.length
  height : u.height = s.m_sccs.length
  onStack : ∀ x ∈ stack, 0 ≤ x ∧ x < s.m_sccs.length ∧
    Relation.ReflTransGen (s.SccEdge links) a x
  seen : ∀ x : Int, 0 ≤ x → x < s.m_sccs.length → isVisited.getD x.toNat false = true →
    x ∈ stack ∨ done x
  popped : ∀ x, done x → 0 ≤ x ∧ x < s.m_sccs.length ∧
    Relation.ReflTransGen (s.SccEdge links) a x ∧ u.values a x = false ∧
    ∀ y, s.SccEdge links x y → y ∈ stack ∨ done y
  start : a ∈ stack ∨ done a
  frame : ∀ i j, ¬ (i = a ∧ done j) → u.values i j = u0.values i j
  cleared : ∀ i j, u0.values i j = false → u.values i j = false

/-- The SCC data as `identifySccs` leaves it: the id of an SCC is its position in `m_sccs`,
the entries of the `neighbours` and `predecessors` lists are ids of SCCs, and `a` is a
predecessor of `b` exactly when `b` is a neighbour of `a`. -/
structure Solver.SccLinks (s : Solver) : Prop where
  ids : ∀ (i : Nat) (scc : Scc), s.m_sccs.get? i = some scc → scc.id = i
  neighbours : ∀ (i : Nat) (scc : Scc), s.m_sccs.get? i = some scc →
    ∀ x ∈ scc.neighbours, 0 ≤ x ∧ x < (s.m_sccs.length : Int)
  predecessors : ∀ (i : Nat) (scc : Scc), s.m_sccs.get? i = some scc →
    ∀ x ∈ scc.predecessors, 0 ≤ x ∧ x < (s.m_sccs.length : Int)
  converse : ∀ a b : Int, s.SccEdge Scc.predecessors b a ↔ s.SccEdge Scc.neighbours a b

/-- A directed path of zero or more edges from `a` to `b` in the condensation graph that
the `neighbours` lists give. -/
def Solver.SccPath (s : Solver) (a b : Int) : Prop :=
  Relation.ReflTransGen (s.SccEdge Scc.neighbours) a b

/-- The reading of the last loop of `identifySccs` when the SCCs at the positions below `k`
have their `neighbours`: `sccs` is `m_sccs`. -/
structure LinkInv (k : Nat) (sccs : List Scc) : Prop where
  ids : ∀ (i : Nat) (scc : Scc), sccs.get? i = some scc → scc.id = wrap16 i
  linked : ∀ (i : Nat) (scc : Scc), sccs.get? i = some scc → i < k →
    ∀ x ∈ scc.neighbours, 0 ≤ x ∧ x < (sccs.length : Int)
  unlinked : ∀ (i : Nat) (scc : Scc), sccs.get? i = some scc → k ≤ i → scc.neighbours = []
  preds : ∀ (i : Nat) (scc : Scc), sccs.get? i = some scc →
    ∀ p ∈ scc.predecessors, 0 ≤ p ∧ p < (k : Int)
  converse : ∀ (a : Int) (b : Nat) (sb : Scc), sccs.get? b = some sb →
    (a ∈ sb.predecessors ↔
      0 ≤ a ∧ ∃ sa, sccs.get? a.toNat = some sa ∧ (b : Int) ∈ sa.neighbours)

/-- The SCC to which `assignJewelsToSccs` assigns the jewel `j` of the move `m`: the SCC of
the end when the move crosses SCCs and `j` is not the jewel of the start cell, the SCC of
the start otherwise. -/
def Solver.jewelScc (s : Solver) (m : Move) (j : Int) : Int :=
  if s.m_sccIdAt.values m.startPos.x m.startPos.y ≠
        s.m_sccIdAt.values m.endPos.x m.endPos.y ∧
      s.m_jewelIdByPosition.values m.startPos.x m.startPos.y ≠ j then
    s.m_sccIdAt.values m.endPos.x m.endPos.y
  else s.m_sccIdAt.values m.startPos.x m.startPos.y

/-- The solver after `computePairwiseNodeDistances`, called on `generated level`. -/
def distanced (level : Level) : Solver :=
  match (generated level).computePairwiseNodeDistances with
  | .ok s => s
  | .error _ => generated level

/-- The solver after `identifySccs`, called on `distanced level`. -/
def sccsIdentified (level : Level) : Solver :=
  match (distanced level).identifySccs with
  | .ok s => s
  | .error _ => distanced level

/-- The call of `identifySccs` on `distanced level` returns. -/
def isSccsIdentified (level : Level) : Bool :=
  match (distanced level).identifySccs with
  | .ok _ => true
  | .error _ => false

/-- The solver after `assignJewelsToSccs`, called on `sccsIdentified level`. -/
def sccsAssigned (level : Level) : Solver :=
  match (sccsIdentified level).assignJewelsToSccs with
  | .ok s => s
  | .error _ => sccsIdentified level

/-- The call of `assignJewelsToSccs` on `sccsIdentified level` returns. -/
def isSccsAssigned (level : Level) : Bool :=
  match (sccsIdentified level).assignJewelsToSccs with
  | .ok _ => true
  | .error _ => false

/-- The value `indexAt[x]` of the local table of `identifySccs`. -/
def Tarjan.idx (t : Tarjan) (x : Coords2) : Int := t.indexAt.values x.x x.y

/-- The value `lowlinkAt[x]` of the local table of `identifySccs`. -/
def Tarjan.low (t : Tarjan) (x : Coords2) : Int := t.lowlinkAt.values x.x x.y

/-- The cell `x` is a node of a component that `identifyOneScc` has emitted. -/
def Tarjan.Emitted (t : Tarjan) (x : Coords2) : Prop := ∃ scc ∈ t.sccs, x ∈ scc.nodes

/-- The edges that `identifyOneScc` follows from the cell `x`: the slots of
`m_movesByPosition[x]` with an id `≥ 0`, to their ends. -/
def Solver.SlotEdge (s : Solver) (x y : Coords2) : Prop :=
  ∃ d ∈ DirectionHelper.values, 0 ≤ ((s.m_movesByPosition.values x.x x.y).get d).id ∧
    ((s.m_movesByPosition.values x.x x.y).get d).endPos = y

/-- The state of the search of `identifySccs` between two calls of `identifyOneScc`.  `G`
holds the cells on the stack whose call has not returned (or, for a top-level call, has
returned leaving the cell on the stack); the other cells of the stack are finished. -/
structure TarjanInv (s : Solver) (G : Coords2 → Prop) (t : Tarjan) : Prop where
  nodupS : t.stack.Nodup
  onStack : ∀ x : Coords2, t.onStackAt.values x.x x.y = true ↔ x ∈ t.stack
  idxS : ∀ x ∈ t.stack, 0 ≤ t.idx x ∧ t.idx x < t.index
  lowS : ∀ x ∈ t.stack, t.low x ≤ t.idx x
  sorted : t.stack.Pairwise (fun a b => t.idx b < t.idx a)
  counter : 0 ≤ t.index
  grayOn : ∀ g, G g → g ∈ t.stack
  emitted : ∀ x, t.Emitted x → t.idx x ≠ -1 ∧ x ∉ t.stack
  visited : ∀ x, t.idx x ≠ -1 → x ∈ t.stack ∨ t.Emitted x
  unique : (t.sccs.flatMap Scc.nodes).Nodup
  order : ∀ (i : Nat) (scc : Scc), t.sccs.get? i = some scc → ∀ x ∈ scc.nodes,
    ∀ y, s.SlotEdge x y → ∃ (j : Nat) (scc' : Scc), j ≤ i ∧ t.sccs.get? j = some scc' ∧
      y ∈ scc'.nodes
  blackP : ∀ x ∈ t.stack, ¬ G x → ∃ p ∈ t.stack, t.idx p < t.idx x ∧ t.low p ≤ t.low x ∧
    ∀ g, G g → ¬ (t.idx p < t.idx g ∧ t.idx g < t.idx x)
  blackE : ∀ x ∈ t.stack, ¬ G x → ∀ y, s.SlotEdge x y →
    t.Emitted y ∨ (y ∈ t.stack ∧ t.low x ≤ t.idx y)

/-- What a call of `identifyOneScc(v)` or a part of it changed: `t0` is the state at the
call, `t` the state now. -/
structure TarjanFrame (t0 t : Tarjan) (v : Coords2) : Prop where
  idxv : t.idx v = t0.index
  keepIdx : ∀ x, t0.idx x ≠ -1 → t.idx x = t0.idx x
  keepLow : ∀ x ∈ t0.stack, t.low x = t0.low x
  fresh : ∀ x, t0.idx x = -1 → t.idx x ≠ -1 → t0.index ≤ t.idx x
  grow : ∃ added, t.sccs = t0.sccs ++ added
  counter : t0.index < t.index

/-- The state of `identifyOneScc(v)` in its loop over the directions, after the directions
`done`: `t0` is the state at the call, `G` the cells whose calls are open. -/
structure VisitInv (s : Solver) (G : Coords2 → Prop) (t0 : Tarjan) (v : Coords2)
    (t : Tarjan) (done : List Direction) : Prop where
  inv : TarjanInv s (fun x => G x ∨ x = v) t
  frame : TarjanFrame t0 t v
  stack : ∃ seg, t.stack = seg ++ v :: t0.stack
  gsub : ∀ g, G g → g ∈ t0.stack
  edges : ∀ d ∈ done, 0 ≤ ((s.m_movesByPosition.values v.x v.y).get d).id →
    t.Emitted ((s.m_movesByPosition.values v.x v.y).get d).endPos ∨
      (((s.m_movesByPosition.values v.x v.y).get d).endPos ∈ t.stack ∧
        t.low v ≤ t.idx ((s.m_movesByPosition.values v.x v.y).get d).endPos)

/-- The state `t` in which a call of `identifyOneScc(v)` returns: either `v` was a root and
its component was emitted, or `v` stays on the stack with every edge from it examined. -/
structure VisitPost (s : Solver) (G : Coords2 → Prop) (t0 : Tarjan) (v : Coords2)
    (t : Tarjan) : Prop where
  frame : TarjanFrame t0 t v
  result : (t.stack = t0.stack ∧ TarjanInv s G t ∧ t.Emitted v) ∨
    ((∃ seg, t.stack = seg ++ v :: t0.stack) ∧ TarjanInv s (fun x => G x ∨ x = v) t ∧
      ∀ y, s.SlotEdge v y → t.Emitted y ∨ (y ∈ t.stack ∧ t.low v ≤ t.idx y))

/-- The call of `computePairwiseNodeDistances` on `generated level` returns. -/
def isDistanced (level : Level) : Bool :=
  match (generated level).computePairwiseNodeDistances with
  | .ok _ => true
  | .error _ => false

/-- The cell `v` has a node id: `isVertex(v)` holds. -/
def Solver.IsNode (s : Solver) (v : Coords2) : Prop :=
  s.m_nodeIdByPosition.values v.x v.y ≠ invalidNodeId

/-- What `identifySccs` relies on in the solver it is called on: the tables have the size
`W × H` of the board, the `c` cells with a node id lie on the board and have distinct ids
below `c`, and a slot with an id `≥ 0` at such a cell ends at such a cell. -/
structure SccReady (s : Solver) (W H : Int) (c : Nat) : Prop where
  wfit : W ≤ 32768
  hfit : H ≤ 32768
  byPosW : s.m_movesByPosition.width = W
  byPosH : s.m_movesByPosition.height = H
  nodeW : s.m_nodeIdByPosition.width = W
  nodeH : s.m_nodeIdByPosition.height = H
  sccW : s.m_sccIdAt.width = W
  sccH : s.m_sccIdAt.height = H
  levelW : s.m_level.width = W
  levelH : s.m_level.height = H
  range : ∀ v : Coords2, s.IsNode v →
    0 ≤ s.m_nodeIdByPosition.values v.x v.y ∧ s.m_nodeIdByPosition.values v.x v.y < c
  inj : ∀ v w : Coords2, s.IsNode v →
    s.m_nodeIdByPosition.values v.x v.y = s.m_nodeIdByPosition.values w.x w.y → v = w
  nodeIn : ∀ v : Coords2, s.IsNode v → 0 ≤ v.x ∧ v.x < W ∧ 0 ≤ v.y ∧ v.y < H
  closed : ∀ v w, s.IsNode v → s.SlotEdge v w → s.IsNode w
  fuel : s.m_nodePositionById.length = c
  sccs : s.m_sccs = []
  init : ∀ x y, s.m_sccIdAt.values x y = -1

/-- The local tables of `identifySccs` have the size of the board, and the cells on the
stack and in the emitted components have node ids, and no component is empty. -/
structure TarjanDims (s : Solver) (W H : Int) (t : Tarjan) : Prop where
  iaW : t.indexAt.width = W
  iaH : t.indexAt.height = H
  laW : t.lowlinkAt.width = W
  laH : t.lowlinkAt.height = H
  oaW : t.onStackAt.width = W
  oaH : t.onStackAt.height = H
  stackNodes : ∀ x ∈ t.stack, s.IsNode x
  sccNodes : ∀ scc ∈ t.sccs, ∀ x ∈ scc.nodes, s.IsNode x
  sccNonempty : ∀ scc ∈ t.sccs, scc.nodes ≠ []

/-- Member `Solver::saturatePotential`.  `PotentialType` is `std::uint8_t`: the argument is
promoted to `int`, and the result `p / 7 * 3` is stored as `std::uint8_t`. -/
def saturatePotential (p : Nat) : Nat := p / 7 * 3 % 256

/-- Both `operator*` and `operator*=` of `Coords2`: the products are narrowed by the
constructor `Coords2(int x, int y)`. -/
def Coords2.mul (a : Coords2) (n : Int) : Coords2 := Coords2.ofInts (a.x * n) (a.y * n)

/-- The moves that `forEachMoveInSolution` hands to its callback for the directions `ds`,
starting at the cell `c`. -/
def Solver.movesAlong (s : Solver) : Coords2 → List Direction → List Move
  | _, [] => []
  | c, d :: ds =>
    (s.m_movesByPosition.values c.x c.y).get d ::
      movesAlong s ((s.m_movesByPosition.values c.x c.y).get d).endPos ds

/-- Every step of the directions `ds` from the cell `c` takes a live slot: the slot of one
of the eight directions whose end is not its start. -/
def Solver.LiveWalk (s : Solver) : Coords2 → List Direction → Prop
  | _, [] => True
  | c, d :: ds =>
    d ∈ DirectionHelper.values ∧
      ((s.m_movesByPosition.values c.x c.y).get d).startPos ≠
        ((s.m_movesByPosition.values c.x c.y).get d).endPos ∧
      LiveWalk s ((s.m_movesByPosition.values c.x c.y).get d).endPos ds

/-! ## The search with backtracking -/

/-- Narrowing to `TotalPotentialType` (`std::uint32_t`). -/
def wrapU32 (v : Int) : Int := v % 4294967296

/-- Conversion of an `int` to `std::size_t` (64 bits), as in `path.size() > -additionalMoves`. -/
def toSize (v : Int) : Int := v % 18446744073709551616

/-- Constant `Solver::uncertainPotentialThreshold`. -/
def uncertainPotentialThreshold : Int := 256

/-- Member `Solution::pop`, without the returned direction. -/
def Solution.pop (s : Solution) : Except Fault Solution :=
  if s.m_moves.isEmpty then .error .outOfBounds
  else .ok { s with m_moves := s.m_moves.dropLast }

/-- Member `Move::numUncollectedJewelsOnTheWay`. -/
def Move.numUncollectedJewelsOnTheWay (m : Move) (jewelState : JewelState) :
    Except Fault Int :=
  m.jewels.foldlM
    (fun (i : Int) jewel => do
      if !(← jewelState.isCollected jewel) then pure (i + 1) else pure i)
    0

/-- What the model of the search does not compute: the order that `std::sort` leaves in
`orderMoves` (given `m_totalPotentialAtEdge` and the moves kept), the two comparisons made
in `float` (`potential < maxPotential * pruningFactor`, given the two total potentials, and
`minDepth > maxMoves - additionalMoves * 0.7071…f`, given the three integers), and the
outcome of the `n`-th draw `std::bernoulli_distribution(skipProbability)(m_rng)`. -/
structure SearchOracle where
  sort : List Int → List Move → List Move
  belowThreshold : Int → Int → Bool
  tooDeep : Int → Int → Int → Bool
  draw : Nat → Bool

/-- The state of `solveUsingSearchWithBacktracking`: the solver, its data members that only
the search uses (`m_skipProbabilityAtDepth` holds `float`, kept as rationals; `m_rng` is the
number of draws made), and the two arguments `solution` and `minDepth` passed by
reference. -/
structure Search where
  solver : Solver
  m_numJewelsLeftWhenSolvingAt : Array2 Int
  m_skipProbabilityAtDepth : List Rat
  m_potentialOfJewelAtEdge : Array2 Int
  m_totalPotentialAtEdge : List Int
  m_rng : Nat
  solution : Solution
  minDepth : Int

namespace Solver

/-- The loop of `Solver::canMoveToScc` over the jewel ids. -/
def canMoveToSccLoop (s : Solver) (id : Int) : List Nat → Except Fault Bool
  | [] => .ok true
  | jewelId :: rest => do
    if id > (← vecGet s.m_lastSccWithJewel jewelId) then
      if !(← s.m_jewelState.isCollected jewelId) then pure false
      else canMoveToSccLoop s id rest
    else canMoveToSccLoop s id rest

/-- Member `Solver::canMoveToScc`. -/
def canMoveToScc (s : Solver) (id : Int) : Except Fault Bool :=
  if id = invalidSccId then .ok false
  else s.canMoveToSccLoop id (List.range s.m_jewelState.numJewels.toNat)

/-- The test `startSccId != endSccId && !canMoveToScc(endSccId)` on a move. -/
def isMoveBlocked (s : Solver) (move : Move) : Except Fault Bool := do
  let startSccId ← s.m_sccIdAt.at move.startPos
  let endSccId ← s.m_sccIdAt.at move.endPos
  if startSccId ≠ endSccId then pure (!(← s.canMoveToScc endSccId)) else pure false

/-- Member `Solver::findNearestMoveWithUncollectedJewel`. -/
def findNearestMoveWithUncollectedJewel (s : Solver) (start : Coords2) :
    Except Fault (Option Move) := do
  let numJewels := s.m_jewelState.numJewels
  let startNodeId ← s.m_nodeIdByPosition.at start
  let best ← (List.range numJewels.toNat).foldlM
    (fun (best : Option Move × Int) (jewelId : Nat) => do
      if (← s.m_jewelState.isCollected jewelId) then pure best
      else
        (← vecGet s.m_movesCollectingJewel jewelId).foldlM
          (fun (best : Option Move × Int) move => do
            if (← s.isMoveBlocked move) then pure best
            else
              let moveStartNodeId ← s.m_nodeIdByPosition.at move.startPos
              let distance ← s.m_distanceFromTo.read startNodeId moveStartNodeId
              if distance < best.2 then pure (some move, distance) else pure best)
          best)
    (none, 2147483647)
  pure best.1

end Solver

namespace Search

/-- Member `Solver::orderMoves`. -/
def orderMoves (o : SearchOracle) (ss : Search) (moves : Moves) : Except Fault (List Move) := do
  let dirs ← DirectionHelper.values.foldlM
    (fun (dirs : List Move) dir => do
      let move := moves.get dir
      if move.id < 0 then pure dirs
      else if (← ss.solver.isMoveBlocked move) then pure dirs
      else pure (dirs ++ [move]))
    []
  pure (o.sort ss.m_totalPotentialAtEdge dirs)

/-- Member `Solver::onJewelContributionEnabled`. -/
def onJewelContributionEnabled (ss : Search) (jewelId : Int) : Except Fault Search := do
  let total ← (List.range ss.solver.m_allMoves.length).foldlM
    (fun (total : List Int) (edgeId : Nat) => do
      vecSet total edgeId
        (wrapU32 ((← vecGet total edgeId) + (← ss.m_potentialOfJewelAtEdge.read jewelId edgeId))))
    ss.m_totalPotentialAtEdge
  pure { ss with m_totalPotentialAtEdge := total }

/-- Member `Solver::onJewelContributionDisabled`. -/
def onJewelContributionDisabled (ss : Search) (jewelId : Int) : Except Fault Search := do
  let total ← (List.range ss.solver.m_allMoves.length).foldlM
    (fun (total : List Int) (edgeId : Nat) => do
      vecSet total edgeId
        (wrapU32 ((← vecGet total edgeId) - (← ss.m_potentialOfJewelAtEdge.read jewelId edgeId))))
    ss.m_totalPotentialAtEdge
  pure { ss with m_totalPotentialAtEdge := total }

/-- The loop of the search over `move.jewels()` that calls `addToCollected` and, when it
returns true, `onJewelContributionDisabled`. -/
def collect (ss : Search) (move : Move) : Except Fault Search :=
  move.jewels.foldlM
    (fun (ss : Search) jewel => do
      let (js, changed) ← ss.solver.m_jewelState.addToCollected jewel
      let ss := { ss with solver := { ss.solver with m_jewelState := js } }
      if changed then ss.onJewelContributionDisabled jewel else pure ss)
    ss

/-- The loop of the search over `move.jewels()` that calls `removeFromCollected` and, when
it returns true, `onJewelContributionEnabled`. -/
def uncollect (ss : Search) (move : Move) : Except Fault Search :=
  move.jewels.foldlM
    (fun (ss : Search) jewel => do
      let (js, changed) ← ss.solver.m_jewelState.removeFromCollected jewel
      let ss := { ss with solver := { ss.solver with m_jewelState := js } }
      if changed then ss.onJewelContributionEnabled jewel else pure ss)
    ss

/-- The lambda `discard` of the search. -/
def discard (ss : Search) (move : Move) (oldNumJewelsLeft : Int) : Except Fault Search := do
  let ss ← ss.uncollect move
  let left ← ss.m_numJewelsLeftWhenSolvingAt.put move.endPos (wrap16 oldNumJewelsLeft)
  let solution ← ss.solution.pop
  pure { ss with m_numJewelsLeftWhenSolvingAt := left, solution := solution }

/-- The branch of the search taken on a move that makes no progress and has a total
potential below `uncertainPotentialThreshold`: the walk to the nearest move that collects
a new jewel.  `call` is the recursive call. -/
def detour (call : Search → Coords2 → Int → Int → Except Fault (Bool × Search))
    (ss : Search) (coords : Coords2) (movesLeft depth additionalMoves : Int) :
    Except Fault (Bool × Search) := do
  match ← ss.solver.findNearestMoveWithUncollectedJewel coords with
  | none => pure (false, ss)
  | some bestMove =>
    let (found, path) ← ss.solver.shortestPathFromTo coords bestMove.startPos []
    if found then
      let (found, path) ← ss.solver.shortestPathFromTo bestMove.startPos bestMove.endPos path
      if found then
        if (path.length : Int) > toSize (-additionalMoves) then pure (false, ss)
        else
          let (ss, newCoords) ← ss.solver.forEachMoveInSolution
            (fun (ss : Search) move _ => do
              let ss ← ss.collect move
              pure { ss with solution := ss.solution.push move.direction })
            path coords ss
          let (solved, ss) ← call ss newCoords (movesLeft - path.length) (depth + path.length)
          if solved then pure (true, ss)
          else
            let (ss, _) ← ss.solver.forEachMoveInSolution
              (fun (ss : Search) move _ => do
                let ss ← ss.uncollect move
                pure { ss with solution := (← ss.solution.pop) })
              path coords ss
            pure (false, ss)
      else pure (false, ss)
    else pure (false, ss)

/-- The part of the loop body of the search that follows `m_numJewelsLeftWhenSolvingAt[end] =
m_jewelState.numLeft()`: `none` when the loop goes on, `some r` when the call returns `r`. -/
def afterMove (o : SearchOracle)
    (call : Search → Coords2 → Int → Int → Except Fault (Bool × Search))
    (ss : Search) (move : Move) (oldNumJewelsLeft movesLeft depth additionalMoves : Int) :
    Except Fault (Option Bool × Search) := do
  if ss.solver.m_jewelState.numLeft = 0 then
    if ss.solution.size > ss.solver.m_level.maxMoves then
      if o.tooDeep ss.minDepth ss.solver.m_level.maxMoves additionalMoves then
        pure (some false, ← ss.discard move oldNumJewelsLeft)
      else
        let ss := { ss with minDepth := depth }
        let jc := ss.solver.m_jewelState
        let (s, cpy) ← ss.solver.removeRuns (ss.solution.size.toNat + 1) ss.solution
        let ss := { ss with solver := { s with m_jewelState := jc } }
        -- `isSolutionValid` returns true: `assumeCorrect` is set
        if cpy.size ≤ ss.solver.m_level.maxMoves then
          pure (some true, { ss with solution := cpy })
        else pure (some false, ← ss.discard move oldNumJewelsLeft)
    else pure (some true, ss)
  else if movesLeft > -additionalMoves then
    let (solved, ss) ← call ss move.endPos (movesLeft - 1) (depth + 1)
    if solved then pure (some true, ss)
    else if movesLeft > 0 then
      let _ ← vecGet ss.m_skipProbabilityAtDepth depth
      let skip := o.draw ss.m_rng
      let ss := { ss with m_rng := ss.m_rng + 1 }
      if skip then pure (some false, ← ss.discard move oldNumJewelsLeft)
      else pure (none, ← ss.discard move oldNumJewelsLeft)
    else pure (some false, ← ss.discard move oldNumJewelsLeft)
  else pure (none, ← ss.discard move oldNumJewelsLeft)

/-- The body of the loop of the search over `orderedMoves`: `none` when the loop goes on,
`some r` when the call returns `r`. -/
def tryMove (o : SearchOracle)
    (call : Search → Coords2 → Int → Int → Except Fault (Bool × Search))
    (coords : Coords2) (movesLeft depth additionalMoves maxPotential : Int)
    (ss : Search) (move : Move) : Except Fault (Option Bool × Search) := do
  let potential ← vecGet ss.m_totalPotentialAtEdge move.id
  if o.belowThreshold potential maxPotential then pure (some false, ss)
  else
    let oldNumJewelsLeft ← ss.m_numJewelsLeftWhenSolvingAt.at move.endPos
    if ss.solver.m_jewelState.numLeft -
        (← move.numUncollectedJewelsOnTheWay ss.solver.m_jewelState) ≥ oldNumJewelsLeft then
      -- `potential` is a `float` here: it is below 256 exactly when the integer is
      if potential < uncertainPotentialThreshold then
        let (solved, ss) ← detour call ss coords movesLeft depth additionalMoves
        pure (some solved, ss)
      else pure (none, ss)
    else
      let ss := { ss with solution := ss.solution.push move.direction }
      let ss ← ss.collect move
      let left ← ss.m_numJewelsLeftWhenSolvingAt.put move.endPos
        (wrap16 ss.solver.m_jewelState.numLeft)
      let ss := { ss with m_numJewelsLeftWhenSolvingAt := left }
      afterMove o call ss move oldNumJewelsLeft movesLeft depth additionalMoves

/-- The loop of the search over `orderedMoves`. -/
def tryMoves (o : SearchOracle)
    (call : Search → Coords2 → Int → Int → Except Fault (Bool × Search))
    (coords : Coords2) (movesLeft depth additionalMoves maxPotential : Int) :
    Search → List Move → Except Fault (Bool × Search)
  | ss, [] => .ok (false, ss)
  | ss, move :: rest => do
    match ← tryMove o call coords movesLeft depth additionalMoves maxPotential ss move with
    | (some r, ss) => pure (r, ss)
    | (none, ss) =>
      tryMoves o call coords movesLeft depth additionalMoves maxPotential ss rest

/-- The recursive member `Solver::solveUsingSearchWithBacktracking(solution, coords,
movesLeft, depth, additionalMoves, minDepth)`; the fuel bounds the depth of the recursion
(`m_bench->node()` only counts the calls). -/
def solveUsingSearchWithBacktracking (o : SearchOracle) (additionalMoves : Int) :
    Nat → Search → Coords2 → Int → Int → Except Fault (Bool × Search)
  | 0, _, _, _, _ => .error .outOfFuel
  | fuel + 1, ss, coords, movesLeft, depth => do
    let ss := if depth < ss.minDepth then { ss with minDepth := depth } else ss
    let moves ← ss.solver.m_movesByPosition.at coords
    let orderedMoves ← ss.orderMoves o moves
    match orderedMoves with
    | [] => pure (false, ss)
    | first :: _ =>
      let maxPotential ← vecGet ss.m_totalPotentialAtEdge first.id
      tryMoves o (solveUsingSearchWithBacktracking o additionalMoves fuel) coords movesLeft
        depth additionalMoves maxPotential ss orderedMoves

end Search

/-- An instance of the oracle: a stable sort by descending total potential in place of
`std::sort`, both `float` comparisons false, no draw that skips. -/
def SearchOracle.plain : SearchOracle :=
  SearchOracle.mk
    (fun total dirs => dirs.mergeSort fun lhs rhs =>
      decide (total.getD lhs.id.toNat 0 ≥ total.getD rhs.id.toNat 0))
    (fun _ _ => false) (fun _ _ _ => false) (fun _ => false)

/-- The state in which the search members are created: the tables of
`initializeMovePotential`, `m_numJewelsLeftWhenSolvingAt` filled with `numJewels() + 1`,
an empty `m_skipProbabilityAtDepth`, `Solution::empty()` and `minDepth = 0`. -/
def Search.make (s : Solver) : Search :=
  Search.mk s
    (Array2.filled s.m_level.width s.m_level.height (wrap16 (s.m_jewelState.numJewels + 1)))
    []
    (Array2.filled s.m_jewelState.numJewels s.m_allMoves.length 0)
    (List.replicate s.m_allMoves.length 0)
    0 Solution.empty 0

/-- A board with two dead ends: the holes `(10, 2)` and `(1, 2)` can be entered from the
rest of the board and never left (the mine at `(5, 2)` kills every slide out of them).
Jewel 0 at `(2, 2)` is collected only by a slide into the hole `(1, 2)`; jewels 1 at
`(7, 2)` and 2 at `(9, 2)` can be collected on the way into the hole `(10, 2)` or without
entering it. -/
def trapLevel (maxMoves : Int) : Level :=
  Level.ofGlyphs 4 12 maxMoves
    ("############".toList ++ '\n' :: "####  .  ###".toList ++ '\n' ::
      "#O+  * + +O#".toList ++ '\n' :: "############".toList)

/-- The solver that `solve` hands to the CAH heuristic on `level`, after `mayBeSolvable`. -/
def prepared (level : Level) : Solver :=
  match (Solver.make level).prepare with
  | .ok (some s) => s
  | _ => Solver.make level

/-- The run of `solve` on `level` comes to the CAH heuristic. -/
def isPrepared (level : Level) : Bool :=
  match (Solver.make level).prepare with
  | .ok (some _) => true
  | _ => false

/-- The variables of `solveUsingCahHeuristic` when its first `while` loop starts. -/
def Cah.initial (s : Solver) (start : Coords2) : Except Fault Cah := do
  let isTraversed ← vecSet (List.replicate s.m_sccs.length false) (← s.m_sccIdAt.at start) true
  pure
    { solver := s, penalties := List.replicate s.m_allMoves.length 0,
      lastPenaltyIter := List.replicate s.m_allMoves.length (-1),
      numConsecutivePenalties := List.replicate s.m_allMoves.length 0,
      nodesInPath := [← s.m_nodeIdByPosition.at start],
      isTraversed := isTraversed,
      mayBeEnterable := List.replicate s.m_sccs.length true }

/-- The first call `insertForJewel(2)` of a CAH iteration on `trapLevel`. -/
def trapInsert : Except Fault (Int × Cah) := do
  let st ← Cah.initial (prepared (trapLevel 20)) (prepared (trapLevel 20)).m_vehicleCoords
  Cah.insertForJewel 1 (prepared (trapLevel 20)).m_vehicleCoords st 2

/-- The call `remainsSolvableAfterEnteringScc(isTraversed, 1)` at the start of a CAH
iteration on `trapLevel`: the flag, and `isTraversed`. -/
def trapAdmission : Except Fault (Bool × List Bool) := do
  let st ← Cah.initial (prepared (trapLevel 20)) (prepared (trapLevel 20)).m_vehicleCoords
  let r ← st.solver.remainsSolvableAfterEnteringScc st.isTraversed 1
  pure (r.1, st.isTraversed)

/-- One call of `solveUsingCahHeuristic` on `trapLevel`, as the first iteration of
`lookForBestSolutionUsingCahHeuristicForTime` makes it when `std::shuffle` leaves
`jewelIdsShuffled`: the returned flag and the moves of the solution. -/
def trapRun (jewelIdsShuffled : List Int) : Except Fault (Bool × List Direction) := do
  let s := prepared (trapLevel 20)
  let r ← s.solveUsingCahHeuristic 50 jewelIdsShuffled Solution.invalid s.m_vehicleCoords
    (List.replicate s.m_allMoves.length 0) (List.replicate s.m_allMoves.length (-1))
    (List.replicate s.m_allMoves.length 0) 2147483647 1
  pure (r.1, r.2.1.m_moves)

/-! ## Vocabulary of the 3-opt exchange -/

/-- The entry of `m_distanceFromTo` for the edge between the nodes at the indices `x` and
`y` of `nodes`. -/
def Solver.edgeCost (s : Solver) (nodes : List Int) (x y : Int) : Except Fault Int := do
  s.m_distanceFromTo.read (← vecGet nodes x) (← vecGet nodes y)

/-- The sum of `m_distanceFromTo` over the edges of the successor chain: the walk of
`solutionThroughNodes(nodes, successors)`, which adds the distance where that function
appends the shortest path. -/
def Solver.chainLength (s : Solver) (nodes successors : List Int) :
    Nat → Int → Except Fault Int
  | 0, _ => .ok 0
  | steps + 1, i => do
    let next ← vecGet successors i
    let d ← s.edgeCost nodes i next
    pure (d + (← chainLength s nodes successors steps next))

/-- The indices `c`, in this order, are what following `successors` visits: no index comes
twice and each is followed by its successor. -/
def IsChain (successors c : List Int) : Prop :=
  c.Nodup ∧ List.Chain' (fun x y => vecGet successors x = .ok y) c

/-- A committed exchange of `opt3` at the indices `i`, `j`, `k`, from `successors` to
`succs`: the edges `i → succ i`, `j → succ j`, `k → succ k` are replaced by `i → succ j`,
`k → succ i`, `j → succ k` (old successors), no other successor changes, the three new
distances are finite, and `saved` is the old cost minus the new one, which is positive. -/
def Solver.Exchanged (s : Solver) (nodes successors succs : List Int) (i j k saved : Int) :
    Prop :=
  ∃ si sj sk iCost jCost kCost iCostNew jCostNew kCostNew : Int,
    vecGet successors i = .ok si ∧ vecGet successors j = .ok sj ∧
    vecGet successors k = .ok sk ∧
    vecGet succs i = .ok sj ∧ vecGet succs k = .ok si ∧ vecGet succs j = .ok sk ∧
    (∀ x : Int, x ≠ i → x ≠ j → x ≠ k → vecGet succs x = vecGet successors x) ∧
    s.edgeCost nodes i si = .ok iCost ∧ s.edgeCost nodes j sj = .ok jCost ∧
    s.edgeCost nodes k sk = .ok kCost ∧
    s.edgeCost nodes i sj = .ok iCostNew ∧ s.edgeCost nodes k si = .ok jCostNew ∧
    s.edgeCost nodes j sk = .ok kCostNew ∧
    iCostNew ≠ infiniteDistance ∧ jCostNew ≠ infiniteDistance ∧
    kCostNew ≠ infiniteDistance ∧
    saved = (iCost + jCost + kCost) - (iCostNew + jCostNew + kCostNew) ∧ 0 < saved

/-- The entry that `edgeCost` reads, 0 when the read fails. -/
def Solver.edgeWeight (s : Solver) (nodes : List Int) (x y : Int) : Int :=
  match s.edgeCost nodes x y with
  | .ok v => v
  | .error _ => 0

/-- The summed weight of the consecutive pairs of a list. -/
def linkWeight (w : Int → Int → Int) : List Int → Int
  | x :: y :: rest => w x y + linkWeight w (y :: rest)
  | _ => 0

/-- The part of the state of the search that collecting a jewel changes: the counts and
`numLeft` of `m_jewelState`, and `m_totalPotentialAtEdge` with every entry reduced modulo
`2^32`. -/
structure Tally where
  counts : List Int
  numLeft : Int
  total : List Int

/-- The loop of `onJewelContributionDisabled` (`sign = -1`) or `onJewelContributionEnabled`
(`sign = 1`) on entries reduced modulo `2^32`: the entries of the first `n` edges change by
the potential of jewel `j`. -/
def shiftTotal (P : Array2 Int) (n : Nat) (sign : Int) (j : Int) (total : List Int) :
    List Int :=
  total.mapIdx fun e t => if e < n then wrapU32 (t + sign * P.values j e) else t

/-- The effect of `addToCollected(j)`, followed by `onJewelContributionDisabled(j)` when it
returns true, on the tally. -/
def Tally.add (P : Array2 Int) (n : Nat) (x : Tally) (j : Int) : Tally :=
  if 0 ≤ j ∧ j < x.counts.length then
    if wrap16 (x.counts.getD j.toNat 0 + 1) = 1 then
      ⟨x.counts.set j.toNat (wrap16 (x.counts.getD j.toNat 0 + 1)), x.numLeft - 1,
        shiftTotal P n (-1) j x.total⟩
    else ⟨x.counts.set j.toNat (wrap16 (x.counts.getD j.toNat 0 + 1)), x.numLeft, x.total⟩
  else x

/-- The effect of `removeFromCollected(j)`, followed by `onJewelContributionEnabled(j)` when
it returns true, on the tally. -/
def Tally.remove (P : Array2 Int) (n : Nat) (x : Tally) (j : Int) : Tally :=
  if 0 ≤ j ∧ j < x.counts.length then
    if wrap16 (x.counts.getD j.toNat 0 - 1) = 0 then
      ⟨x.counts.set j.toNat (wrap16 (x.counts.getD j.toNat 0 - 1)), x.numLeft + 1,
        shiftTotal P n 1 j x.total⟩
    else ⟨x.counts.set j.toNat (wrap16 (x.counts.getD j.toNat 0 - 1)), x.numLeft, x.total⟩
  else x

/-- The counts are values of `MoveId` and the totals values of `TotalPotentialType`. -/
def Tally.Ranged (x : Tally) : Prop :=
  (∀ c ∈ x.counts, wrap16 c = c) ∧ ∀ t ∈ x.total, wrapU32 t = t

/-- The tally of a state of the search. -/
def Search.tally (ss : Search) : Tally :=
  ⟨ss.solver.m_jewelState.m_numCollected, ss.solver.m_jewelState.m_numLeft,
    ss.m_totalPotentialAtEdge.map wrapU32⟩

/-- The tables that the search only reads are the same in `ss'` as in `ss`: the solver
apart from its jewel state, and `m_potentialOfJewelAtEdge`. -/
structure Search.Frame (ss ss' : Search) : Prop where
  solver : { ss'.solver with m_jewelState := ss.solver.m_jewelState } = ss.solver
  potential : ss'.m_potentialOfJewelAtEdge = ss.m_potentialOfJewelAtEdge

/-- The state `ss'` is the state `ss` unwound: the counts and `numLeft` of the jewel state,
`m_totalPotentialAtEdge` modulo `2^32`, the solution and `m_numJewelsLeftWhenSolvingAt` are
those of `ss`, and so are the tables that the search only reads. -/
structure Search.Unwound (ss ss' : Search) : Prop where
  frame : ss.Frame ss'
  tally : ss'.tally = ss.tally
  solution : ss'.solution = ss.solution
  left : ss'.m_numJewelsLeftWhenSolvingAt = ss.m_numJewelsLeftWhenSolvingAt

/-- The stored counts and the entries of `m_numJewelsLeftWhenSolvingAt` are values of their
16-bit types `MoveId` and `JewelId`. -/
structure Search.Ranged (ss : Search) : Prop where
  counts : ∀ c ∈ ss.solver.m_jewelState.m_numCollected, wrap16 c = c
  left : ∀ x y, ss.m_numJewelsLeftWhenSolvingAt.InBounds x y →
    wrap16 (ss.m_numJewelsLeftWhenSolvingAt.values x y) =
      ss.m_numJewelsLeftWhenSolvingAt.values x y

/-- A state of the search on `exclusiveLevel` in which every jewel has the potential 7 at
every edge and the totals of the two edges are 3 and 5, so that the subtraction of
`onJewelContributionDisabled` wraps around. -/
def unwindState : Search :=
  { Search.make (sccsAssigned exclusiveLevel) with
    m_potentialOfJewelAtEdge := Array2.filled 2 2 7
    m_totalPotentialAtEdge := [3, 5] }

/-- The state in which the call of the search on `unwindState` at the vehicle cell, with
`movesLeft = 0`, `depth = 0` and `additionalMoves = 5`, returns. -/
def unwindResult : Search :=
  match Search.solveUsingSearchWithBacktracking SearchOracle.plain 5 10 unwindState ⟨2, 2⟩ 0 0
    with
  | .ok (_, ss) => ss
  | .error _ => unwindState

/-- The call of the search on `unwindState` returns false. -/
def isUnwindFalse : Bool :=
  match Search.solveUsingSearchWithBacktracking SearchOracle.plain 5 10 unwindState ⟨2, 2⟩ 0 0
    with
  | .ok (false, _) => true
  | _ => false

/-- Narrowing to a C++ `int` (32 bits, two's complement). -/
def wrap32 (v : Int) : Int := (v + 2147483648) % 4294967296 - 2147483648

/-- The `for` loop of `isPerfectSquare`: `todo` passes are left and `i` is the counter. -/
def isPerfectSquareLoop (n : Int) : Nat → Int → Bool
  | 0, _ => false
  | todo + 1, i =>
    let x := wrap32 (i * i)
    if x = n then true
    else if n < x then false
    else isPerfectSquareLoop n todo (i + 1)

/-- Function `isPerfectSquare`; the loop makes `n / 2` passes at most. -/
def isPerfectSquare (n : Int) : Bool :=
  if n = 0 ∨ n = 1 then true else isPerfectSquareLoop n (Int.tdiv n 2).toNat 0

/-- Constant `minDepthToAllowSkip` of the solver. -/
def minDepthToAllowSkip : Int := 10

/-- The test `i <= minDepthToAllowSkip || isPerfectSquare(i)` of `initializeSkipProbability`,
the one call of `isPerfectSquare`: depth `i` gets the skip probability 0 when it holds. -/
def isSkipFree (i : Int) : Bool :=
  if i ≤ minDepthToAllowSkip then true else isPerfectSquare i

namespace Solver

end Solver

/-- The successor vectors that `Solver::opt3(solution)` holds: the vector that `std::iota`
fills with `1, 2, …`, and what a call `opt3(nodesInPath, successors, flags, window)` leaves
of a vector that it holds. -/
inductive Solver.Opt3Reached (s : Solver) (nodes : List Int) (flags : List Bool) :
    List Int → Prop
  | iota : Solver.Opt3Reached s nodes flags
      ((List.range nodes.length).map fun (i : Nat) => (i : Int) + 1)
  | pass {successors succs : List Int} {window : Int} {improved : Bool} :
      Solver.Opt3Reached s nodes flags successors →
      s.opt3Pass nodes successors flags window = .ok (improved, succs) →
      Solver.Opt3Reached s nodes flags succs

/-- The directions `ds` lead from the cell `c` to the cell `e` along live moves: every step
takes the slot of its direction at the current cell, which holds a move registered in
`m_allMoves` that starts at this cell, and goes on from the end of that move. -/
def Solver.WalksTo (s : Solver) : Coords2 → List Direction → Coords2 → Prop
  | c, [], e => c = e
  | c, d :: ds, e =>
    (s.m_movesByPosition.values c.x c.y).get d ∈ s.m_allMoves ∧
      ((s.m_movesByPosition.values c.x c.y).get d).startPos = c ∧
      WalksTo s ((s.m_movesByPosition.values c.x c.y).get d).endPos ds e

/-- What `computePairwiseNodeDistances` hands to `pathFromToWithLength`: `c` nodes with the
ids `0 .. c-1`, each the id of one cell of the board, whose position `m_nodePositionById`
holds; the registered moves lead from node to node and are the slots with an id `≥ 0` of the
node cells; and the rows of `m_distanceFromTo` are the distances in the graph of the moves. -/
structure PathsReady (s : Solver) (c : Int) : Prop where
  range : ∀ x y, s.m_nodeIdByPosition.values x y = -1 ∨
    (0 ≤ s.m_nodeIdByPosition.values x y ∧ s.m_nodeIdByPosition.values x y < c)
  inj : ∀ x y x' y', 0 ≤ s.m_nodeIdByPosition.values x y →
    s.m_nodeIdByPosition.values x y = s.m_nodeIdByPosition.values x' y' → x = x' ∧ y = y'
  cell : ∀ x y, 0 ≤ s.m_nodeIdByPosition.values x y →
    s.m_nodeIdByPosition.InBounds x y ∧ s.m_movesByPosition.InBounds x y ∧
      s.m_nodePositionById.get? (s.m_nodeIdByPosition.values x y).toNat = some ⟨x, y⟩
  moves : ∀ m ∈ s.m_allMoves,
    0 ≤ s.m_nodeIdByPosition.values m.startPos.x m.startPos.y ∧
    0 ≤ s.m_nodeIdByPosition.values m.endPos.x m.endPos.y ∧ 0 ≤ m.id ∧
    ∃ d ∈ DirectionHelper.values,
      (s.m_movesByPosition.values m.startPos.x m.startPos.y).get d = m
  stops : ∀ x y, 0 ≤ s.m_nodeIdByPosition.values x y → ∀ d ∈ DirectionHelper.values,
    0 ≤ ((s.m_movesByPosition.values x y).get d).id →
    (s.m_movesByPosition.values x y).get d ∈ s.m_allMoves ∧
      ((s.m_movesByPosition.values x y).get d).startPos = ⟨x, y⟩
  width : s.m_distanceFromTo.width = c
  height : s.m_distanceFromTo.height = c
  small : 0 ≤ c ∧ c ≤ 32768
  rows : ∀ a : Int, 0 ≤ a → a < c → DistRow c.toNat s.MoveEdge s.m_distanceFromTo a

/-- The sum over the jewels `j` with `counts[j] ≤ 0` (the jewels that `JewelState` holds as
not collected) of the potential `P[j][e]`. -/
def potentialSum (P : Array2 Int) (counts : List Int) (e : Int) : Int :=
  ((List.range counts.length).map fun (j : Nat) =>
    if counts.getD j 0 ≤ 0 then P.values j e else 0).sum

/-- The totals of a tally are the sums of the potentials of the jewels not collected. -/
def Tally.Summed (P : Array2 Int) (n : Nat) (x : Tally) : Prop :=
  ∀ e : Nat, e < n → x.total.get? e = some (wrapU32 (potentialSum P x.counts e))

/-- The total potential of every edge is, modulo `2^32`, the sum of the potentials of the
jewels that are not collected. -/
def Search.isSummed (ss : Search) : Bool :=
  (List.range ss.solver.m_allMoves.length).all fun (e : Nat) =>
    decide ((ss.m_totalPotentialAtEdge.get? e).map wrapU32 = some (wrapU32
      (potentialSum ss.m_potentialOfJewelAtEdge ss.solver.m_jewelState.m_numCollected e)))

/-- Bounds on the tables that the search reads: every jewel list of a slot of
`m_movesByPosition` has at most `J` entries, and a shortest path that
`shortestPathFromTo` finds appends at most `D` directions. -/
structure Search.Bounded (J D : Nat) (ss : Search) : Prop where
  jewels : ∀ x y, ss.solver.m_movesByPosition.InBounds x y → ∀ d : Direction,
    ((ss.solver.m_movesByPosition.values x y).get d).jewels.length ≤ J
  paths : ∀ (js : JewelState) (f g : Coords2) (p p' : List Direction),
    ({ ss.solver with m_jewelState := js } : Solver).shortestPathFromTo f g p =
      .ok (true, p') → p'.length ≤ p.length + D

/-- A state in which a call of the search can be entered: the totals are the sums of the
potentials of the jewels not collected, the counts are values of `MoveId` that are at most
`K`, and the tables are bounded by `J` and `D`. -/
structure Search.Good (J D : Nat) (K : Int) (ss : Search) : Prop where
  summed : ss.isSummed = true
  ranged : ss.Ranged
  capped : ∀ c ∈ ss.solver.m_jewelState.m_numCollected, c ≤ K
  bounded : ss.Bounded J D

/-- Constant `Solver::maxPotential`, the largest `PotentialType`. -/
def maxPotential : Int := 255

/-- Member `Solver::fillInitialMovePotential`. -/
def Search.fillInitialMovePotential (ss : Search) : Except Fault Search :=
  (List.range ss.solver.m_allMoves.length).foldlM
    (fun (ss : Search) (edgeId : Nat) => do
      let move ← vecGet ss.solver.m_allMoves edgeId
      move.jewels.foldlM
        (fun (ss : Search) jewelId => do
          let potential ← ss.m_potentialOfJewelAtEdge.write jewelId edgeId maxPotential
          pure { ss with m_potentialOfJewelAtEdge := potential })
        ss)
    ss

/-- The loop of `propagatePotentialFromJewel` over `m_movesByEndPosition[start]`: the
potentials and the queue. -/
def Solver.raiseAtEnd (jewelId newPotential : Int) (atEnd : List Move)
    (potential : Array2 Int) (queue : List Move) : Except Fault (Array2 Int × List Move) :=
  atEnd.foldlM
    (fun (st : Array2 Int × List Move) moveAtEnd => do
      if newPotential > (← st.1.read jewelId moveAtEnd.id) then
        pure (← st.1.write jewelId moveAtEnd.id newPotential, st.2 ++ [moveAtEnd])
      else pure st)
    (potential, queue)

/-- The `while (!movesQueue.empty())` loop of `propagatePotentialFromJewel`; the fuel
bounds the number of passes. -/
def Solver.propagateLoop (s : Solver) (jewelId : Int) :
    Nat → List Move → Array2 Int → Except Fault (Array2 Int)
  | _, [], potential => .ok potential
  | 0, _ :: _, _ => .error .outOfFuel
  | fuel + 1, move :: queue, potential => do
    let currentPotential ← potential.read jewelId move.id
    let newPotential : Int := saturatePotential currentPotential.toNat
    let atEnd ← s.m_movesByEndPosition.at move.startPos
    let (potential, queue) ← Solver.raiseAtEnd jewelId newPotential atEnd potential queue
    propagateLoop s jewelId fuel queue potential

/-- Member `Solver::propagatePotentialFromJewel`. -/
def Search.propagatePotentialFromJewel (fuel : Nat) (ss : Search) (jewelId : Int) :
    Except Fault Search := do
  let queue ← vecGet ss.solver.m_movesCollectingJewel jewelId
  let potential ← ss.solver.propagateLoop jewelId fuel queue ss.m_potentialOfJewelAtEdge
  pure { ss with m_potentialOfJewelAtEdge := potential }

/-- Member `Solver::propagateMovePotential`, without its log lines. -/
def Search.propagateMovePotential (fuel : Nat) (ss : Search) : Except Fault Search :=
  (List.range ss.solver.numJewels.toNat).foldlM
    (fun (ss : Search) (jewelId : Nat) => ss.propagatePotentialFromJewel fuel jewelId)
    ss

/-- What the potential field reads in the tables of the registered moves: the id of a move
is its index in `m_allMoves`, the jewel ids on the moves are ids of jewels,
`m_movesCollectingJewel[j]` holds registered moves and among them every move whose jewel
list contains `j`, and for a registered move `m` the list `m_movesByEndPosition[m.start]`
can be read and holds registered moves, among them every move that ends at `m.start`. -/
structure Solver.Registered (s : Solver) : Prop where
  ids : ∀ (i : Nat) (m : Move), s.m_allMoves.get? i = some m → m.id = i
  jewels : ∀ m ∈ s.m_allMoves, ∀ j ∈ m.jewels, 0 ≤ j ∧ j < s.numJewels
  size : s.m_movesCollectingJewel.length = s.numJewels.toNat
  queued : ∀ l ∈ s.m_movesCollectingJewel, ∀ m ∈ l, m ∈ s.m_allMoves
  collecting : ∀ (j : Nat) (l : List Move), s.m_movesCollectingJewel.get? j = some l →
    ∀ m ∈ s.m_allMoves, (j : Int) ∈ m.jewels → m ∈ l
  starts : ∀ m ∈ s.m_allMoves, s.m_movesByEndPosition.InBounds m.startPos.x m.startPos.y
  atEnd : ∀ m ∈ s.m_allMoves,
    ∀ m' ∈ s.m_movesByEndPosition.values m.startPos.x m.startPos.y, m' ∈ s.m_allMoves
  ending : ∀ m ∈ s.m_allMoves, ∀ m' ∈ s.m_allMoves, m'.endPos = m.startPos →
    m' ∈ s.m_movesByEndPosition.values m.startPos.x m.startPos.y

/-- The sum over the edges `e < n` of `255 - P[j][e]`: how far the potentials of jewel `j`
can still rise. -/
def potentialSlack (P : Array2 Int) (j : Int) (n : Nat) : Int :=
  ((List.range n).map fun (e : Nat) => 255 - P.values j e).sum

/-- The potentials of jewel `j` are settled at the move `e`: every registered move that
ends where `e` starts has at least the potential `saturatePotential(P[j][e])`. -/
def Solver.Settled (s : Solver) (P : Array2 Int) (j : Int) (e : Move) : Prop :=
  ∀ e' ∈ s.m_allMoves, e'.endPos = e.startPos →
    ((saturatePotential (P.values j e.id).toNat : Nat) : Int) ≤ P.values j e'.id

/-- The potentials of jewel `j` are values of `PotentialType`, in a table of the size that
`initializeMovePotential` gives it. -/
structure Solver.RowOk (s : Solver) (P : Array2 Int) (j : Int) : Prop where
  width : P.width = s.numJewels
  height : P.height = s.m_allMoves.length
  range : ∀ e : Nat, e < s.m_allMoves.length → 0 ≤ P.values j e ∧ P.values j e ≤ 255

/-- The two indexes of the registered moves agree with `m_allMoves`:
`m_movesCollectingJewel[j]` holds the registered moves whose jewel list contains `j`, and
`m_movesByEndPosition`, of the size `W × H`, holds at `(x, y)` the registered moves that end
there. -/
structure Solver.Tabled (s : Solver) (W H : Int) : Prop where
  coll : ∀ (j : Nat) (l : List Move), s.m_movesCollectingJewel.get? j = some l →
    ∀ m : Move, m ∈ l ↔ m ∈ s.m_allMoves ∧ (j : Int) ∈ m.jewels
  byEnd : ∀ (x y : Int) (m : Move),
    m ∈ s.m_movesByEndPosition.values x y ↔ m ∈ s.m_allMoves ∧ m.endPos = ⟨x, y⟩
  width : s.m_movesByEndPosition.width = W
  height : s.m_movesByEndPosition.height = H

/-- The state that `fillInitialMovePotential` and `propagateMovePotential` leave on the
state that `initializeMovePotential` gives on the hole-stop corridor. -/
def propagatedState : Search :=
  match (Search.make (sccsAssigned (holeStopLevel 2))).fillInitialMovePotential with
  | .ok s1 =>
    match s1.propagateMovePotential 1100 with
    | .ok s2 => s2
    | .error _ => s1
  | .error _ => Search.make (sccsAssigned (holeStopLevel 2))

/-- The number of times the jewel `j` is on the jewel lists of the moves `l`. -/
def jewelCount (j : Int) (l : List Move) : Nat := (l.flatMap Move.jewels).count j

/-- The counters `numOmitted` of `findMostImprovableRedundantEdgeRun` between two moves of
its window: for every jewel the counter is the number of its occurrences on the first
`stop` moves of the walk `M` minus that on the first `start` moves, and a jewel with a
positive counter is collected at least once more than the counter says. -/
structure Solver.Window (s : Solver) (M : List Move) (start stop : Int)
    (numOmitted : List Int) : Prop where
  startIn : 0 ≤ start ∧ start ≤ M.length
  stopIn : 0 ≤ stop ∧ stop ≤ M.length
  size : numOmitted.length = s.m_jewelState.m_numCollected.length
  counts : ∀ j : Nat, j < numOmitted.length →
    numOmitted.getD j 0 = (jewelCount j (M.take stop.toNat) : Int) -
      jewelCount j (M.take start.toNat)
  spare : ∀ j : Nat, j < numOmitted.length → 1 ≤ numOmitted.getD j 0 →
    1 ≤ s.m_jewelState.m_numCollected.getD j 0 - numOmitted.getD j 0

theorem wrap16_of_range {v : Int} (h₁ : -32768 ≤ v) (h₂ : v ≤ 32767) : wrap16 v = v := by
  unfold wrap16; omega

theorem wrap16_range (v : Int) : -32768 ≤ wrap16 v ∧ wrap16 v ≤ 32767 := by
  unfold wrap16; omega

theorem Coords2.ofInts_representable (x y : Int) : (Coords2.ofInts x y).Representable := by
  have hx := wrap16_range x
  have hy := wrap16_range y
  exact ⟨hx.1, hx.2, hy.1, hy.2⟩

theorem Coords2.add_sub_cancel {a : Coords2} (o : Coords2) (h : a.Representable) :
    (a.add o).sub o = a := by
  obtain ⟨h1, h2, h3, h4⟩ := h
  cases a with
  | mk ax ay =>
    simp only [Coords2.add, Coords2.sub, Coords2.ofInts, Coords2.mk.injEq] at *
    unfold wrap16
    constructor <;> omega

theorem offset_small {d : Direction} (hd : d ∈ DirectionHelper.values) :
    ((DirectionHelper.offset d).x = -1 ∨ (DirectionHelper.offset d).x = 0 ∨
        (DirectionHelper.offset d).x = 1) ∧
      ((DirectionHelper.offset d).y = -1 ∨ (DirectionHelper.offset d).y = 0 ∨
        (DirectionHelper.offset d).y = 1) ∧
      ((DirectionHelper.offset d).x ≠ 0 ∨ (DirectionHelper.offset d).y ≠ 0) := by
  simp only [DirectionHelper.values, List.mem_cons, List.mem_singleton, List.not_mem_nil,
    or_false] at hd
  rcases hd with rfl | rfl | rfl | rfl | rfl | rfl | rfl | rfl <;>
    simp [DirectionHelper.offset, Coords2.ofInts, wrap16]

theorem rayCell_representable (start offset : Coords2) (h : start.Representable) (k : Nat) :
    (rayCell start offset k).Representable := by
  cases k with
  | zero => exact h
  | succ k => exact Coords2.ofInts_representable _ _

theorem slide_along_ray (level : Level) (ids : Array2 Int) (start offset : Coords2)
    (cell : CellType) (hcell : stopsSlide cell) :
    ∀ (n fuel j : Nat) (jewels : List Int), n < fuel →
      (∀ i, j < i → i ≤ j + n → ∃ t, level.board.get? (rayCell start offset i).x
          (rayCell start offset i).y = some t ∧ ¬ stopsSlide t) →
      level.board.get? (rayCell start offset (j + n + 1)).x
          (rayCell start offset (j + n + 1)).y = some cell →
      ∃ js, slide level ids start offset fuel (rayCell start offset j) jewels =
        .ok (Move.make invalidMoveId start
          (if cell = .Wall then (rayCell start offset (j + n + 1)).sub offset
           else if cell = .Mine then start else rayCell start offset (j + n + 1)) js) := by
  intro n
  induction n with
  | zero =>
    intro fuel j jewels hf _ hstop
    obtain ⟨f, rfl⟩ : ∃ f, fuel = f + 1 := ⟨fuel - 1, by omega⟩
    simp only [Nat.add_zero] at hstop
    simp only [slide, Nat.add_zero]
    have hr : (rayCell start offset j).add offset = rayCell start offset (j + 1) := rfl
    rw [hr, hstop]
    rcases hcell with h | h | h <;> subst h <;> simp [isVehicleSpotAHole]
  | succ n ih =>
    intro fuel j jewels hf hfree hstop
    obtain ⟨f, rfl⟩ : ∃ f, fuel = f + 1 := ⟨fuel - 1, by omega⟩
    obtain ⟨t, ht, hns⟩ := hfree (j + 1) (by omega) (by omega)
    have hr : (rayCell start offset j).add offset = rayCell start offset (j + 1) := rfl
    have hstop' : level.board.get? (rayCell start offset (j + 1 + n + 1)).x
        (rayCell start offset (j + 1 + n + 1)).y = some cell := by
      have : j + 1 + n + 1 = j + (n + 1) + 1 := by omega
      rw [this]; exact hstop
    obtain ⟨js, hjs⟩ := ih f (j + 1)
      (if t = .Jewel then jewels ++ [ids.values (rayCell start offset (j + 1)).x
        (rayCell start offset (j + 1)).y] else jewels) (by omega)
      (fun i hi hi' => hfree i (by omega) (by omega)) hstop'
    have e : j + 1 + n + 1 = j + (n + 1) + 1 := by omega
    rw [e] at hjs
    refine ⟨js, ?_⟩
    rw [slide, hr]
    simp only [ht]
    have h1 : t ≠ .Wall := fun h => hns (Or.inl h)
    have h2 : t ≠ .Mine := fun h => hns (Or.inr (Or.inl h))
    have h3 : t ≠ .Hole := fun h => hns (Or.inr (Or.inr h))
    simp only [h1, h2, h3, isVehicleSpotAHole, if_false, false_or, and_false, Bool.false_eq_true]
    exact hjs

theorem Array2.get?_eq_some {α : Type} {a : Array2 α} {x y : Int} {v : α}
    (h : a.get? x y = some v) : a.InBounds x y ∧ a.values x y = v := by
  unfold Array2.get? at h
  by_cases hb : a.InBounds x y
  · rw [if_pos hb] at h
    exact ⟨hb, Option.some.inj h⟩
  · rw [if_neg hb] at h
    cases h

theorem Array2.get?_of_inBounds {α : Type} {a : Array2 α} {x y : Int}
    (h : a.InBounds x y) : a.get? x y = some (a.values x y) := by
  unfold Array2.get?
  rw [if_pos h]

theorem mapM_ok_getD {α β ε : Type} [Inhabited β] (f : α → Except ε β) :
    ∀ (l : List α) (r : List β), l.mapM f = .ok r →
      ∀ (i : Nat) (h : i < l.length), f (l.get ⟨i, h⟩) = .ok (r.getD i default) := by
  intro l
  induction l with
  | nil => intro r _ i h; simp at h
  | cons a l ih =>
    intro r hr i h
    rw [List.mapM_cons] at hr
    cases ha : f a with
    | error e => rw [ha] at hr; cases hr
    | ok b =>
      rw [ha] at hr
      cases hl : l.mapM f with
      | error e => rw [hl] at hr; cases hr
      | ok bs =>
        rw [hl] at hr
        have hr' : r = b :: bs := by cases hr; rfl
        subst hr'
        cases i with
        | zero => simpa using ha
        | succ i =>
          have := ih bs hl i (by simpa using h)
          simpa using this

theorem generateMovesAt_get {level : Level} {ids : Array2 Int} {c : Coords2} {ms : Moves}
    (h : generateMovesAt level ids c = .ok ms) {d : Direction}
    (hd : d ∈ DirectionHelper.values) : slideFrom level ids c d = .ok (ms.get d) := by
  unfold generateMovesAt at h
  cases hl : DirectionHelper.values.mapM (slideFrom level ids c) with
  | error e => rw [hl] at h; cases h
  | ok r =>
    rw [hl] at h
    have hms : ms = ⟨r⟩ := by cases h; rfl
    subst hms
    have key := mapM_ok_getD (slideFrom level ids c) _ r hl
    simp only [DirectionHelper.values, List.mem_cons, List.mem_singleton, List.not_mem_nil,
      or_false] at hd
    rcases hd with rfl | rfl | rfl | rfl | rfl | rfl | rfl | rfl
    · exact key 0 (by decide)
    · exact key 1 (by decide)
    · exact key 2 (by decide)
    · exact key 3 (by decide)
    · exact key 4 (by decide)
    · exact key 5 (by decide)
    · exact key 6 (by decide)
    · exact key 7 (by decide)

theorem room_nonneg (b : Board) (o p : Coords2) (h : b.InBounds p.x p.y) : 0 ≤ room b o p := by
  obtain ⟨h1, h2, h3, h4⟩ := h
  unfold room
  split_ifs <;> omega

theorem room_le (b : Board) (o p : Coords2) (h : b.InBounds p.x p.y) :
    room b o p ≤ max b.width b.height - 1 := by
  obtain ⟨h1, h2, h3, h4⟩ := h
  unfold room
  split_ifs <;> omega

theorem room_step (b : Board) (o p : Coords2)
    (hox : o.x = -1 ∨ o.x = 0 ∨ o.x = 1) (hoy : o.y = -1 ∨ o.y = 0 ∨ o.y = 1)
    (hne : o.x ≠ 0 ∨ o.y ≠ 0) (hp : p.Representable)
    (h1 : b.InBounds p.x p.y) (h2 : b.InBounds (p.add o).x (p.add o).y) :
    room b o (p.add o) = room b o p - 1 := by
  obtain ⟨a1, a2, a3, a4⟩ := h1
  obtain ⟨r1, r2, r3, r4⟩ := hp
  unfold Array2.InBounds at h2
  unfold room
  simp only [Coords2.add, Coords2.ofInts, wrap16] at h2 ⊢
  obtain ⟨b1, b2, b3, b4⟩ := h2
  rcases hox with h | h | h <;> rcases hoy with h' | h' | h' <;> simp only [h, h'] at * <;>
    first
      | omega
      | (simp; omega)

theorem ray_room (b : Board) (start o : Coords2)
    (hox : o.x = -1 ∨ o.x = 0 ∨ o.x = 1) (hoy : o.y = -1 ∨ o.y = 0 ∨ o.y = 1)
    (hne : o.x ≠ 0 ∨ o.y ≠ 0) (hs : start.Representable) :
    ∀ (n j : Nat), (∀ i, j ≤ i → i ≤ j + n →
        b.InBounds (rayCell start o i).x (rayCell start o i).y) →
      (n : Int) ≤ room b o (rayCell start o j) := by
  intro n
  induction n with
  | zero =>
    intro j h
    simpa using room_nonneg b o _ (h j (le_refl _) (by omega))
  | succ n ih =>
    intro j h
    have h1 := ih (j + 1) (fun i hi hi' => h i (by omega) (by omega))
    have h2 := room_step b o (rayCell start o j) hox hoy hne
      (rayCell_representable start o hs j) (h j (le_refl _) (by omega))
      (h (j + 1) (by omega) (by omega))
    have h3 : rayCell start o (j + 1) = (rayCell start o j).add o := rfl
    rw [h3] at h1
    push_cast
    omega

/-- The slide rule along the 16-bit ray: when the first cell of the ray `c+D, c+2D, …` (in
`Coords2` arithmetic) that is a Wall, a Mine or a Hole is `c+kD`, the cells before it being
cells of the board of any other kind, the walk of `generateMovesAt(c)` for `d` returns a
move with start `c` whose end is `c+(k-1)D` for a Wall, `c` for a Mine and `c+kD` for a
Hole; and that move is slot `d` of whatever `generateMovesAt(c)` returns. -/
theorem generateMovesAt_end_rule (level : Level) (ids : Array2 Int) (c : Coords2)
    (d : Direction) (k : Nat) (cell : CellType)
    (hd : d ∈ DirectionHelper.values) (hc : c.Representable)
    (hcb : level.board.InBounds c.x c.y) (hk : 1 ≤ k)
    (hfree : ∀ j, 1 ≤ j → j < k → ∃ t,
      level.board.get? (rayCell c (DirectionHelper.offset d) j).x
        (rayCell c (DirectionHelper.offset d) j).y = some t ∧ ¬ stopsSlide t)
    (hstop : level.board.get? (rayCell c (DirectionHelper.offset d) k).x
        (rayCell c (DirectionHelper.offset d) k).y = some cell)
    (hcell : stopsSlide cell) :
    isVehicleSpotAHole = false ∧
    ∃ m, slideFrom level ids c d = .ok m ∧ m.startPos = c ∧
      m.endPos = (if cell = .Wall then rayCell c (DirectionHelper.offset d) (k - 1)
        else if cell = .Mine then c else rayCell c (DirectionHelper.offset d) k) ∧
      ∀ ms, generateMovesAt level ids c = .ok ms → ms.get d = m := by
  refine ⟨rfl, ?_⟩
  obtain ⟨k, rfl⟩ : ∃ n, k = n + 1 := ⟨k - 1, by omega⟩
  obtain ⟨hox, hoy, hne⟩ := offset_small hd
  -- the ray stays on the board up to its stopping cell, so the fuel suffices
  have hin : ∀ i, 1 ≤ i → i ≤ 1 + k → level.board.InBounds
      (rayCell c (DirectionHelper.offset d) i).x (rayCell c (DirectionHelper.offset d) i).y := by
    intro i h1 h2
    by_cases hi : i = k + 1
    · subst hi; exact (Array2.get?_eq_some hstop).1
    · obtain ⟨t, ht, _⟩ := hfree i h1 (by omega)
      exact (Array2.get?_eq_some ht).1
  have hroom := ray_room level.board c _ hox hoy hne hc k 1 hin
  have hle := room_le level.board (DirectionHelper.offset d) _ (hin 1 (le_refl _) (by omega))
  have hfuel : k < slideFuel level := by
    unfold slideFuel Level.width Level.height
    omega
  obtain ⟨js, hjs⟩ := slide_along_ray level ids c (DirectionHelper.offset d) cell hcell k
    (slideFuel level) 0
    (if level.board.values c.x c.y = .Jewel then [ids.values c.x c.y] else []) hfuel
    (fun i h1 h2 => hfree i (by omega) (by omega)) (by simpa using hstop)
  have hsf : slideFrom level ids c d = .ok (Move.make invalidMoveId c
      (if cell = .Wall then (rayCell c (DirectionHelper.offset d) (0 + k + 1)).sub
          (DirectionHelper.offset d)
        else if cell = .Mine then c else rayCell c (DirectionHelper.offset d) (0 + k + 1))
      js) := by
    unfold slideFrom
    rw [Array2.get?_of_inBounds hcb]
    exact hjs
  refine ⟨_, hsf, rfl, ?_, ?_⟩
  · have hback : (rayCell c (DirectionHelper.offset d) (k + 1)).sub
        (DirectionHelper.offset d) = rayCell c (DirectionHelper.offset d) k :=
      Coords2.add_sub_cancel _ (rayCell_representable c _ hc k)
    simp only [Move.make, Nat.zero_add, hback, Nat.add_sub_cancel]
  · intro ms hms
    have := generateMovesAt_get hms hd
    rw [hsf] at this
    exact (Except.ok.inj this).symm

theorem jewelIdsAlong_append (level : Level) (ids : Array2 Int) (l₁ l₂ : List Coords2) :
    jewelIdsAlong level ids (l₁ ++ l₂) =
      jewelIdsAlong level ids l₁ ++ jewelIdsAlong level ids l₂ := by
  simp [jewelIdsAlong]

theorem jewelIdsAlong_singleton (level : Level) (ids : Array2 Int) (p : Coords2) :
    jewelIdsAlong level ids [p] =
      if level.board.values p.x p.y = .Jewel then [ids.values p.x p.y] else [] := by
  unfold jewelIdsAlong
  by_cases h : level.board.values p.x p.y = .Jewel <;> simp [h]

/-- What a slide that returns has done: it passed cells that do not stop it, reached a
stopping cell `c+kD`, and appended the ids of the Jewel cells it entered. -/
theorem slide_ok_shape (level : Level) (ids : Array2 Int) (start offset : Coords2) :
    ∀ (fuel j : Nat) (jewels : List Int) (m : Move),
      slide level ids start offset fuel (rayCell start offset j) jewels = .ok m →
      ∃ k cell, j < k ∧
        (∀ i, j < i → i < k → ∃ t, level.board.get? (rayCell start offset i).x
          (rayCell start offset i).y = some t ∧ ¬ stopsSlide t) ∧
        level.board.get? (rayCell start offset k).x (rayCell start offset k).y = some cell ∧
        stopsSlide cell ∧
        m = Move.make invalidMoveId start
          (if cell = .Wall then (rayCell start offset k).sub offset
           else if cell = .Mine then start else rayCell start offset k)
          (jewels ++ jewelIdsAlong level ids
            ((List.range' (j + 1) (k - j)).map (rayCell start offset))) := by
  intro fuel
  induction fuel with
  | zero => intro j jewels m h; simp [slide] at h
  | succ f ih =>
    intro j jewels m h
    rw [slide] at h
    have hr : (rayCell start offset j).add offset = rayCell start offset (j + 1) := rfl
    rw [hr] at h
    cases hg : level.board.get? (rayCell start offset (j + 1)).x
        (rayCell start offset (j + 1)).y with
    | none => rw [hg] at h; simp at h
    | some t =>
      rw [hg] at h
      have hv := (Array2.get?_eq_some hg).2
      simp only at h
      have hone : (List.range' (j + 1) (j + 1 - j)) = [j + 1] := by
        have : j + 1 - j = 1 := by omega
        rw [this]; rfl
      by_cases hs : stopsSlide t
      · refine ⟨j + 1, t, by omega, fun i h1 h2 => by omega, hg, hs, ?_⟩
        have hnj : t ≠ .Jewel := by
          rcases hs with h' | h' | h' <;> subst h' <;> decide
        rw [hone, List.map_singleton, jewelIdsAlong_singleton, hv, if_neg hnj,
          List.append_nil]
        rcases hs with h' | h' | h' <;> subst h' <;>
          simp [isVehicleSpotAHole] at h ⊢ <;> exact h.symm
      · have h1 : t ≠ .Wall := fun h' => hs (Or.inl h')
        have h2 : t ≠ .Mine := fun h' => hs (Or.inr (Or.inl h'))
        have h3 : t ≠ .Hole := fun h' => hs (Or.inr (Or.inr h'))
        simp only [h1, h2, h3, isVehicleSpotAHole, if_false, false_or, and_false,
          Bool.false_eq_true] at h
        obtain ⟨k, cell, hk, hfree, hstop, hcell, hm⟩ := ih (j + 1) _ m h
        refine ⟨k, cell, by omega, ?_, hstop, hcell, ?_⟩
        · intro i hi1 hi2
          by_cases hi : i = j + 1
          · subst hi; exact ⟨t, hg, hs⟩
          · exact hfree i (by omega) hi2
        · rw [hm]
          have hsplit : List.range' (j + 1) (k - j) =
              (j + 1) :: List.range' (j + 1 + 1) (k - (j + 1)) := by
            have : k - j = (k - (j + 1)) + 1 := by omega
            rw [this, List.range'_succ]
          rw [hsplit, List.map_cons]
          have hc : (rayCell start offset (j + 1) ::
              List.map (rayCell start offset) (List.range' (j + 1 + 1) (k - (j + 1)))) =
              [rayCell start offset (j + 1)] ++
              List.map (rayCell start offset) (List.range' (j + 1 + 1) (k - (j + 1))) := rfl
          rw [hc, jewelIdsAlong_append, jewelIdsAlong_singleton, hv]
          by_cases hj : t = .Jewel
          · simp [hj]
          · simp [hj]

theorem ray_room_eq (b : Board) (start o : Coords2)
    (hox : o.x = -1 ∨ o.x = 0 ∨ o.x = 1) (hoy : o.y = -1 ∨ o.y = 0 ∨ o.y = 1)
    (hne : o.x ≠ 0 ∨ o.y ≠ 0) (hs : start.Representable) (n : Nat)
    (hin : ∀ i, i ≤ n → b.InBounds (rayCell start o i).x (rayCell start o i).y) :
    ∀ i, i ≤ n → room b o (rayCell start o i) = room b o start - i := by
  intro i
  induction i with
  | zero => intro _; simp [rayCell]
  | succ i ih =>
    intro hi
    have h1 := ih (by omega)
    have h2 := room_step b o (rayCell start o i) hox hoy hne
      (rayCell_representable start o hs i) (hin i (by omega)) (hin (i + 1) hi)
    have h3 : rayCell start o (i + 1) = (rayCell start o i).add o := rfl
    rw [h3, h2, h1]
    push_cast
    omega

theorem rayCells_nodup (b : Board) (start o : Coords2)
    (hox : o.x = -1 ∨ o.x = 0 ∨ o.x = 1) (hoy : o.y = -1 ∨ o.y = 0 ∨ o.y = 1)
    (hne : o.x ≠ 0 ∨ o.y ≠ 0) (hs : start.Representable) (n : Nat)
    (hin : ∀ i, i ≤ n → b.InBounds (rayCell start o i).x (rayCell start o i).y) :
    (rayCells start o n).Nodup := by
  unfold rayCells
  refine List.Nodup.map_on ?_ (List.nodup_range _)
  intro i hi j hj hij
  rw [List.mem_range] at hi hj
  have h1 := ray_room_eq b start o hox hoy hne hs n hin i (by omega)
  have h2 := ray_room_eq b start o hox hoy hne hs n hin j (by omega)
  rw [hij] at h1
  omega

theorem rayCells_eq_cons (start o : Coords2) (n : Nat) :
    rayCells start o n = start :: (List.range' 1 n).map (rayCell start o) := by
  unfold rayCells
  rw [List.range_eq_range', List.range'_succ, List.map_cons]
  rfl

theorem slideFrom_jewels (level : Level) (ids : Array2 Int) (c : Coords2) (d : Direction)
    (m : Move) (hc : c.Representable)
    (hm : slideFrom level ids c d = .ok m) (hlive : m.startPos ≠ m.endPos) :
    ∃ n, 1 ≤ n ∧ m.endPos = rayCell c (DirectionHelper.offset d) n ∧
      (∀ i, i ≤ n → level.board.InBounds (rayCell c (DirectionHelper.offset d) i).x
        (rayCell c (DirectionHelper.offset d) i).y) ∧
      m.jewels = jewelIdsAlong level ids (rayCells c (DirectionHelper.offset d) n) := by
  unfold slideFrom at hm
  cases hg : level.board.get? c.x c.y with
  | none => rw [hg] at hm; simp at hm
  | some cell0 =>
    rw [hg] at hm
    simp only at hm
    obtain ⟨hcb, hv⟩ := Array2.get?_eq_some hg
    have hm' : slide level ids c (DirectionHelper.offset d) (slideFuel level)
        (rayCell c (DirectionHelper.offset d) 0)
        (if cell0 = .Jewel then [ids.values c.x c.y] else []) = .ok m := hm
    obtain ⟨k, cell, hk, hfree, hstop, hcell, hmk⟩ := slide_ok_shape level ids c _ _ 0 _ m hm'
    have hj0 : (if cell0 = .Jewel then [ids.values c.x c.y] else []) =
        jewelIdsAlong level ids [c] := by
      rw [jewelIdsAlong_singleton, hv]
    rw [hj0, ← jewelIdsAlong_append] at hmk
    simp only [Nat.zero_add, Nat.sub_zero, List.singleton_append] at hmk
    have hinb : ∀ i, i ≤ k → level.board.InBounds (rayCell c (DirectionHelper.offset d) i).x
        (rayCell c (DirectionHelper.offset d) i).y := by
      intro i hi
      by_cases h0 : i = 0
      · subst h0; exact hcb
      by_cases hik : i = k
      · subst hik; exact (Array2.get?_eq_some hstop).1
      · obtain ⟨t, ht, _⟩ := hfree i (by omega) (by omega)
        exact (Array2.get?_eq_some ht).1
    obtain ⟨k, rfl⟩ : ∃ n, k = n + 1 := ⟨k - 1, by omega⟩
    have hback : (rayCell c (DirectionHelper.offset d) (k + 1)).sub
        (DirectionHelper.offset d) = rayCell c (DirectionHelper.offset d) k :=
      Coords2.add_sub_cancel _ (rayCell_representable c _ hc k)
    rcases hcell with h | h | h
    · -- Wall: the move ends one cell before it
      subst h
      simp only [if_true, hback] at hmk
      subst hmk
      simp only [Move.make] at hlive ⊢
      have hk0 : k ≠ 0 := by
        intro h0; subst h0; exact hlive rfl
      refine ⟨k, by omega, rfl, fun i hi => hinb i (by omega), ?_⟩
      rw [rayCells_eq_cons, List.range'_1_concat, List.map_append]
      have hc2 : c :: (List.map (rayCell c (DirectionHelper.offset d)) (List.range' 1 k) ++
          List.map (rayCell c (DirectionHelper.offset d)) [1 + k]) =
          (c :: List.map (rayCell c (DirectionHelper.offset d)) (List.range' 1 k)) ++
          [rayCell c (DirectionHelper.offset d) (1 + k)] := by simp
      rw [hc2, jewelIdsAlong_append, jewelIdsAlong_singleton]
      have hw : level.board.values (rayCell c (DirectionHelper.offset d) (1 + k)).x
          (rayCell c (DirectionHelper.offset d) (1 + k)).y = .Wall := by
        rw [Nat.add_comm]; exact (Array2.get?_eq_some hstop).2
      rw [hw]
      simp
    · -- Mine: the move is dead
      subst h
      simp only [Move.make] at hmk
      subst hmk
      exact absurd rfl hlive
    · -- Hole: the move ends on it
      subst h
      simp only [Move.make] at hmk
      subst hmk
      refine ⟨k + 1, by omega, by simp, hinb, ?_⟩
      rw [rayCells_eq_cons]

theorem mapM_ok_of_forall {α β ε : Type} (f : α → Except ε β) :
    ∀ (l : List α), (∀ a ∈ l, ∃ b, f a = .ok b) → ∃ r, l.mapM f = .ok r := by
  intro l
  induction l with
  | nil => intro _; exact ⟨[], rfl⟩
  | cons a l ih =>
    intro h
    obtain ⟨b, hb⟩ := h a (List.mem_cons_self _ _)
    obtain ⟨r, hr⟩ := ih (fun x hx => h x (List.mem_cons_of_mem _ hx))
    refine ⟨b :: r, ?_⟩
    rw [List.mapM_cons, hb, hr]
    rfl

theorem interior_room_pos (b : Board) (o p : Coords2) (h : Interior b p) : 1 ≤ room b o p := by
  obtain ⟨h1, h2, h3, h4⟩ := h
  unfold room
  split_ifs <;> omega

/-- On a walled board whose sides fit 16-bit coordinates, a slide that is at an interior cell
returns a move, and that move ends at an interior cell. -/
theorem slide_walled (level : Level) (ids : Array2 Int) (start o : Coords2)
    (hw : Walled level.board) (hwidth : level.board.width ≤ 32768)
    (hheight : level.board.height ≤ 32768)
    (hox : o.x = -1 ∨ o.x = 0 ∨ o.x = 1) (hoy : o.y = -1 ∨ o.y = 0 ∨ o.y = 1)
    (hne : o.x ≠ 0 ∨ o.y ≠ 0) (hs : Interior level.board start) :
    ∀ (fuel : Nat) (pos : Coords2) (jewels : List Int), Interior level.board pos →
      room level.board o pos ≤ fuel →
      ∃ m, slide level ids start o fuel pos jewels = .ok m ∧ m.startPos = start ∧
        Interior level.board m.endPos := by
  intro fuel
  induction fuel with
  | zero =>
    intro pos jewels hp hr
    have := interior_room_pos level.board o pos hp
    omega
  | succ f ih =>
    intro pos jewels hp hr
    obtain ⟨p1, p2, p3, p4⟩ := hp
    have hx : (pos.add o).x = pos.x + o.x := by
      simp only [Coords2.add, Coords2.ofInts]
      exact wrap16_of_range (by omega) (by omega)
    have hy : (pos.add o).y = pos.y + o.y := by
      simp only [Coords2.add, Coords2.ofInts]
      exact wrap16_of_range (by omega) (by omega)
    have hin : level.board.InBounds (pos.add o).x (pos.add o).y := by
      unfold Array2.InBounds
      rw [hx, hy]
      omega
    have hback : (pos.add o).sub o = pos :=
      Coords2.add_sub_cancel o ⟨by omega, by omega, by omega, by omega⟩
    rw [slide]
    simp only [Array2.get?_of_inBounds hin]
    by_cases h1 : level.board.values (pos.add o).x (pos.add o).y = .Wall
    · simp only [h1, if_true]
      exact ⟨_, rfl, rfl, by simpa [Move.make, hback] using ⟨p1, p2, p3, p4⟩⟩
    · have hint : Interior level.board (pos.add o) := by
        obtain ⟨i1, i2, i3, i4⟩ := hin
        unfold Interior
        by_contra hcon
        exact h1 (hw _ _ ⟨i1, i2, i3, i4⟩ (by omega))
      by_cases h2 : level.board.values (pos.add o).x (pos.add o).y = .Mine
      · rw [h2]
        exact ⟨_, rfl, rfl, hs⟩
      · by_cases h3 : level.board.values (pos.add o).x (pos.add o).y = .Hole
        · rw [h3]
          exact ⟨_, rfl, rfl, hint⟩
        · simp only [h1, h2, h3, isVehicleSpotAHole, if_false, false_or, and_false,
            Bool.false_eq_true]
          have hstep := room_step level.board o pos hox hoy hne
            ⟨by omega, by omega, by omega, by omega⟩ ⟨by omega, by omega, by omega, by omega⟩
            hin
          exact ih (pos.add o) _ hint (by rw [hstep]; push_cast at hr; omega)

/-! ### The slide rule in integer coordinates -/

theorem wideLevel_walled : Walled wideLevel.board := by
  intro x y hb hborder
  obtain ⟨h1, h2, h3, h4⟩ := hb
  have h2' : x < 32770 := h2
  have h4' : y < 3 := h4
  have hb' : x = 0 ∨ x = 32769 ∨ y = 0 ∨ y = 2 := by
    rcases hborder with h | h | h | h
    · exact Or.inl h
    · exact Or.inr (Or.inl (by have : x = 32770 - 1 := h; omega))
    · exact Or.inr (Or.inr (Or.inl h))
    · exact Or.inr (Or.inr (Or.inr (by have : y = 3 - 1 := h; omega)))
  show (if x = 0 ∨ x = 32769 ∨ y = 0 ∨ y = 2 then CellType.Wall
    else if x = 32767 then CellType.Vehicle
    else if x = 1 then CellType.Jewel else CellType.Blank) = CellType.Wall
  rw [if_pos hb']

/-- On a board of at most 32768 columns and rows, the 16-bit ray and the ray in integer
coordinates are the same as long as the ray is on the board. -/
theorem rayCell_eq_int (b : Board) (c o : Coords2) (hw : b.width ≤ 32768)
    (hh : b.height ≤ 32768) :
    ∀ k : Nat, (∀ j : Nat, j ≤ k → b.InBounds (c.x + j * o.x) (c.y + j * o.y)) →
      rayCell c o k = ⟨c.x + k * o.x, c.y + k * o.y⟩ := by
  intro k
  induction k with
  | zero =>
    intro _
    show c = _
    simp
  | succ k ih =>
    intro h
    have hk := ih (fun j hj => h j (by omega))
    have hin := h (k + 1) (le_refl _)
    obtain ⟨h1, h2, h3, h4⟩ := hin
    show (rayCell c o k).add o = _
    rw [hk]
    unfold Coords2.add Coords2.ofInts
    have ex : c.x + (k : Int) * o.x + o.x = c.x + ((k + 1 : Nat) : Int) * o.x := by
      push_cast; ring
    have ey : c.y + (k : Int) * o.y + o.y = c.y + ((k + 1 : Nat) : Int) * o.y := by
      push_cast; ring
    show (⟨wrap16 (c.x + (k : Int) * o.x + o.x), wrap16 (c.y + (k : Int) * o.y + o.y)⟩ :
      Coords2) = _
    rw [ex, ey, wrap16_of_range (by omega) (by omega), wrap16_of_range (by omega) (by omega)]

/-- **C6, as stated, fails.** The board `wideLevel` is walled; east of its cell `(32767, 1)`
lie the Blank cell `(32768, 1)` and the Wall `(32769, 1)`, so the rule gives the move the
end `(32768, 1)`; the walk of the program computes the 16-bit column 32767 + 1 = -32768,
reads outside the board and returns no move. -/
theorem generateMovesAt_end_rule_counterexample :
    Walled wideLevel.board ∧ wideLevel.board.InBounds 32767 1 ∧
      wideLevel.board.get? 32768 1 = some .Blank ∧
      wideLevel.board.get? 32769 1 = some .Wall ∧
      slideFrom wideLevel (identifiedJewels wideLevel) ⟨32767, 1⟩ .East =
        .error .outOfBounds :=
  ⟨wideLevel_walled, by decide, by decide, by decide, by decide⟩

/-- **C6, amended.** On a board of at most 32768 columns and 32768 rows, for a cell `c` of
the board and a direction `d` with displacement `D`: when the first cell of the ray
`c+D, c+2D, …` that is a Wall, a Mine or a Hole is `c+kD` (the cells before it being cells
of the board of any other kind: Blank, Jewel, Invalid, or Vehicle, since
`isVehicleSpotAHole` is false), the walk of `generateMovesAt(c)` for `d` returns a move with
start `c` whose end is `c+(k-1)D` for a Wall, `c` for a Mine and `c+kD` for a Hole; and that
move is slot `d` of what `generateMovesAt(c)` returns. -/
theorem generateMovesAt_end_rule_int (level : Level) (ids : Array2 Int) (c : Coords2)
    (d : Direction) (k : Nat) (cell : CellType)
    (hd : d ∈ DirectionHelper.values)
    (hw : level.board.width ≤ 32768) (hh : level.board.height ≤ 32768)
    (hcb : level.board.InBounds c.x c.y) (hk : 1 ≤ k)
    (hfree : ∀ j : Nat, 1 ≤ j → j < k → ∃ t,
      level.board.get? (c.x + j * (DirectionHelper.offset d).x)
        (c.y + j * (DirectionHelper.offset d).y) = some t ∧ ¬ stopsSlide t)
    (hstop : level.board.get? (c.x + k * (DirectionHelper.offset d).x)
        (c.y + k * (DirectionHelper.offset d).y) = some cell)
    (hcell : stopsSlide cell) :
    isVehicleSpotAHole = false ∧
    ∃ m, slideFrom level ids c d = .ok m ∧ m.startPos = c ∧
      m.endPos = (if cell = .Wall then
          ⟨c.x + ((k : Int) - 1) * (DirectionHelper.offset d).x,
            c.y + ((k : Int) - 1) * (DirectionHelper.offset d).y⟩
        else if cell = .Mine then c
        else ⟨c.x + k * (DirectionHelper.offset d).x,
          c.y + k * (DirectionHelper.offset d).y⟩) ∧
      ∀ ms, generateMovesAt level ids c = .ok ms → ms.get d = m := by
  have hin : ∀ j : Nat, j ≤ k → level.board.InBounds
      (c.x + j * (DirectionHelper.offset d).x) (c.y + j * (DirectionHelper.offset d).y) := by
    intro j hj
    by_cases h0 : j = 0
    · subst h0
      simpa using hcb
    · by_cases hjk : j = k
      · subst hjk
        exact (Array2.get?_eq_some hstop).1
      · obtain ⟨t, ht, _⟩ := hfree j (by omega) (by omega)
        exact (Array2.get?_eq_some ht).1
  have hray : ∀ j : Nat, j ≤ k → rayCell c (DirectionHelper.offset d) j =
      ⟨c.x + j * (DirectionHelper.offset d).x, c.y + j * (DirectionHelper.offset d).y⟩ :=
    fun j hj => rayCell_eq_int level.board c _ hw hh j (fun i hi => hin i (by omega))
  have hc : c.Representable := by
    obtain ⟨h1, h2, h3, h4⟩ := hcb
    exact ⟨by omega, by omega, by omega, by omega⟩
  have key := generateMovesAt_end_rule level ids c d k cell hd hc hcb hk
    (by
      intro j h1 h2
      rw [hray j (by omega)]
      exact hfree j h1 h2)
    (by
      rw [hray k (le_refl _)]
      exact hstop)
    hcell
  obtain ⟨h0, m, hm, hs, he, hall⟩ := key
  refine ⟨h0, m, hm, hs, ?_, hall⟩
  rw [he, hray k (le_refl _), hray (k - 1) (by omega)]
  have : ((k - 1 : Nat) : Int) = (k : Int) - 1 := by omega
  rw [this]

theorem generateMovesAt_end_rule_int_witness :
    isVehicleSpotAHole = false ∧
    ∃ m, slideFrom (holeStopLevel 5) (identifiedJewels (holeStopLevel 5)) ⟨1, 1⟩ .East = .ok m ∧
      m.startPos = ⟨1, 1⟩ ∧
      m.endPos = (if CellType.Hole = .Wall then
          ⟨1 + (((3 : Nat) : Int) - 1) * (DirectionHelper.offset .East).x,
            1 + (((3 : Nat) : Int) - 1) * (DirectionHelper.offset .East).y⟩
        else if CellType.Hole = .Mine then ⟨1, 1⟩
        else ⟨1 + ((3 : Nat) : Int) * (DirectionHelper.offset .East).x,
          1 + ((3 : Nat) : Int) * (DirectionHelper.offset .East).y⟩) ∧
      ∀ ms, generateMovesAt (holeStopLevel 5) (identifiedJewels (holeStopLevel 5)) ⟨1, 1⟩ =
        .ok ms → ms.get .East = m :=
  generateMovesAt_end_rule_int (holeStopLevel 5) (identifiedJewels (holeStopLevel 5)) ⟨1, 1⟩
    .East 3 .Hole (by decide) (by decide) (by decide) (by decide) (by decide)
    (by
      intro j h1 h2
      have hj : j = 1 ∨ j = 2 := by omega
      rcases hj with rfl | rfl
      · exact ⟨.Blank, by decide, by decide⟩
      · exact ⟨.Blank, by decide, by decide⟩)
    (by decide) (by decide)

/-- **C8, amended.** On a board of at most 32768 columns and 32768 rows whose border cells
are all Wall, from every non-border cell `c`: `generateMovesAt(c)` returns (each of the
eight walks ends within its fuel and reads no cell outside the board, the two ways a walk
can fault), every returned move starts at `c`, and every returned move ends at a non-border
cell. -/
theorem generateMovesAt_walled (level : Level) (ids : Array2 Int) (c : Coords2)
    (hw : Walled level.board) (hwidth : level.board.width ≤ 32768)
    (hheight : level.board.height ≤ 32768) (hc : Interior level.board c) :
    ∃ ms, generateMovesAt level ids c = .ok ms ∧
      ∀ d ∈ DirectionHelper.values, (ms.get d).startPos = c ∧
        Interior level.board (ms.get d).endPos := by
  have hcb : level.board.InBounds c.x c.y := by
    obtain ⟨h1, h2, h3, h4⟩ := hc
    exact ⟨by omega, by omega, by omega, by omega⟩
  have each : ∀ d ∈ DirectionHelper.values, ∃ m, slideFrom level ids c d = .ok m ∧
      m.startPos = c ∧ Interior level.board m.endPos := by
    intro d hd
    obtain ⟨hox, hoy, hne⟩ := offset_small hd
    unfold slideFrom
    rw [Array2.get?_of_inBounds hcb]
    refine slide_walled level ids c _ hw hwidth hheight hox hoy hne hc _ c _ hc ?_
    have := room_le level.board (DirectionHelper.offset d) c hcb
    unfold slideFuel Level.width Level.height
    push_cast
    omega
  obtain ⟨r, hr⟩ := mapM_ok_of_forall (slideFrom level ids c) DirectionHelper.values
    (fun d hd => by obtain ⟨m, hm, _⟩ := each d hd; exact ⟨m, hm⟩)
  have hms : generateMovesAt level ids c = .ok ⟨r⟩ := by
    unfold generateMovesAt
    rw [hr]
    rfl
  refine ⟨⟨r⟩, hms, ?_⟩
  intro d hd
  obtain ⟨m, hm, h1, h2⟩ := each d hd
  have := generateMovesAt_get hms hd
  rw [hm] at this
  rw [← Except.ok.inj this]
  exact ⟨h1, h2⟩

theorem generateMovesAt_walled_witness :
    ∃ ms, generateMovesAt minimalWalledLevel (identifiedJewels minimalWalledLevel) ⟨1, 1⟩ =
        .ok ms ∧
      ∀ d ∈ DirectionHelper.values, (ms.get d).startPos = ⟨1, 1⟩ ∧
        Interior minimalWalledLevel.board (ms.get d).endPos :=
  generateMovesAt_walled minimalWalledLevel (identifiedJewels minimalWalledLevel) ⟨1, 1⟩
    (by
      intro x y hb hborder
      obtain ⟨h1, h2, h3, h4⟩ := hb
      have h2' : x < 4 := h2
      have h4' : y < 3 := h4
      have hx : x = 0 ∨ x = 1 ∨ x = 2 ∨ x = 3 := by omega
      have hy : y = 0 ∨ y = 1 ∨ y = 2 := by omega
      have hb' : x = 0 ∨ x = 3 ∨ y = 0 ∨ y = 2 := by
        rcases hborder with h | h | h | h
        · exact Or.inl h
        · exact Or.inr (Or.inl (by have : x = 4 - 1 := h; omega))
        · exact Or.inr (Or.inr (Or.inl h))
        · exact Or.inr (Or.inr (Or.inr (by have : y = 3 - 1 := h; omega)))
      rcases hx with rfl | rfl | rfl | rfl <;> rcases hy with rfl | rfl | rfl <;>
        first
          | decide
          | (exfalso; omega))
    (by decide) (by decide) (by decide)

/-- **C8, as stated, fails.** The board `wideLevel` is walled and `(32767, 1)` is a non-border
cell of it, yet the north-east walk of `generateMovesAt` leaves the board: the 16-bit
column 32767 + 1 is -32768. -/
theorem generateMovesAt_walled_counterexample :
    Walled wideLevel.board ∧ Interior wideLevel.board ⟨32767, 1⟩ ∧
      generateMovesAt wideLevel (identifiedJewels wideLevel) ⟨32767, 1⟩ =
        .error .outOfBounds :=
  ⟨wideLevel_walled, by decide, by decide⟩

/-! ### Reasoning about runs in `Except Fault` -/

theorem bind_eq_ok {ε α β : Type} {x : Except ε α} {f : α → Except ε β} {b : β} :
    (x >>= f) = .ok b ↔ ∃ a, x = .ok a ∧ f a = .ok b := by
  cases x with
  | error e => simp [bind, Except.bind]
  | ok a => simp [bind, Except.bind]

theorem pure_eq_ok {ε α : Type} {a b : α} : (pure a : Except ε α) = .ok b ↔ a = b := by
  simp [pure, Except.pure]

theorem foldlM_preserves {σ α : Type} (P : σ → Prop) (f : σ → α → Except Fault σ)
    (hf : ∀ s a s', P s → f s a = .ok s' → P s') :
    ∀ (l : List α) (s s' : σ), P s → l.foldlM f s = .ok s' → P s' := by
  intro l
  induction l with
  | nil =>
    intro s s' hs h
    rw [List.foldlM_nil, pure_eq_ok] at h
    exact h ▸ hs
  | cons a l ih =>
    intro s s' hs h
    rw [List.foldlM_cons, bind_eq_ok] at h
    obtain ⟨s1, h1, h2⟩ := h
    exact ih s1 s' (hf s a s1 hs h1) h2

theorem Array2.mem_coords {α : Type} (a : Array2 α) (p : Int × Int) (h : p ∈ a.coords) :
    a.InBounds p.1 p.2 := by
  unfold Array2.coords at h
  rw [List.mem_flatMap] at h
  obtain ⟨x, hx, h⟩ := h
  rw [List.mem_map] at h
  obtain ⟨y, hy, hp⟩ := h
  rw [List.mem_range] at hx hy
  subst hp
  unfold Array2.InBounds
  simp only
  omega

theorem foldl_eq_of_forall {σ α : Type} (f : σ → α → σ) (l : List α) (s : σ)
    (h : ∀ a ∈ l, ∀ t, f t a = t) : l.foldl f s = s := by
  induction l generalizing s with
  | nil => rfl
  | cons a l ih =>
    rw [List.foldl_cons, h a (List.mem_cons_self _ _)]
    exact ih s (fun b hb t => h b (List.mem_cons_of_mem _ hb) t)

theorem countJewels_eq_zero (level : Level)
    (h : ∀ x y, level.board.InBounds x y → level.board.values x y ≠ .Jewel) :
    countJewels level = 0 := by
  unfold countJewels
  apply foldl_eq_of_forall
  intro p hp t
  rw [if_neg (h p.1 p.2 (Array2.mem_coords _ p hp))]

theorem numJewels_make (level : Level) :
    (Solver.make level).numJewels = ((countJewels level).toNat : Int) := by
  simp [Solver.numJewels, Solver.make, JewelState.numJewels, JewelState.make]

/-- **C3.** For every board without a Jewel cell and whatever `maxMoves`, the clock, the
random numbers and the later stages are, `solve` returns `Solution::empty()`: a solution
that exists and has no move, which `write` prints as the empty string. -/
theorem solve_no_jewels (level : Level) (o : Oracle) (fuel : Nat)
    (h : ∀ x y, level.board.InBounds x y → level.board.values x y ≠ .Jewel) :
    solve level o fuel = .ok Solution.empty ∧ Solution.empty.exists = true ∧
      Solution.empty.m_moves = [] ∧ write Solution.empty = "" := by
  refine ⟨?_, rfl, rfl, by decide⟩
  have h0 : (Solver.make level).numJewels = 0 := by
    rw [numJewels_make, countJewels_eq_zero level h]
    rfl
  unfold solve Solver.solve
  rw [if_pos h0]
  rfl

/-! ### The stages before the heuristic leave the level alone -/

theorem identifyJewels_level {s s' : Solver} (h : s.identifyJewels = .ok s') :
    s'.m_level = s.m_level := by
  unfold Solver.identifyJewels at h
  simp only [bind_eq_ok] at h
  obtain ⟨a, _, h⟩ := h
  rw [pure_eq_ok] at h
  rw [← h]

/-- An invariant of the solver that `addMove` keeps and that does not depend on
`m_movesByPosition` holds after `addMovesLoop`. -/
theorem addMovesLoop_preserves (P : Solver → Prop)
    (hadd : ∀ s move r, P s → s.addMove move = .ok r → P r.2) :
    ∀ (l : List Move) (s : Solver) (r : List Move × Solver × List Coords2),
      P s → Solver.addMovesLoop s l = .ok r → P r.2.1 := by
  intro l
  induction l with
  | nil =>
    intro s r hs h
    simp only [Solver.addMovesLoop] at h
    cases h
    exact hs
  | cons move rest ih =>
    intro s r hs h
    rw [Solver.addMovesLoop] at h
    by_cases hdead : move.startPos = move.endPos
    · rw [if_pos hdead] at h
      simp only [bind_eq_ok] at h
      obtain ⟨r1, h1, h2⟩ := h
      rw [pure_eq_ok] at h2
      rw [← h2]
      exact ih s r1 hs h1
    · rw [if_neg hdead] at h
      simp only [bind_eq_ok] at h
      obtain ⟨a, ha, r1, h1, h2⟩ := h
      rw [pure_eq_ok] at h2
      rw [← h2]
      exact ih a.2 r1 (hadd s move a hs ha) h1

theorem generateAllMovesLoop_preserves (P : Solver → Prop)
    (hadd : ∀ s move r, P s → s.addMove move = .ok r → P r.2)
    (hpos : ∀ s byPos, P s → P { s with m_movesByPosition := byPos }) :
    ∀ (fuel : Nat) (s : Solver) (isVisited : Array2 Bool) (queue : List Coords2)
      (s' : Solver), P s → Solver.generateAllMovesLoop fuel s isVisited queue = .ok s' →
      P s' := by
  intro fuel
  induction fuel with
  | zero =>
    intro s isVisited queue s' hs h
    cases queue with
    | nil => simp only [Solver.generateAllMovesLoop] at h; cases h; exact hs
    | cons c q => simp [Solver.generateAllMovesLoop] at h
  | succ fuel ih =>
    intro s isVisited queue s' hs h
    cases queue with
    | nil => simp only [Solver.generateAllMovesLoop] at h; cases h; exact hs
    | cons c q =>
      rw [Solver.generateAllMovesLoop] at h
      simp only [bind_eq_ok] at h
      obtain ⟨visited, _, h⟩ := h
      by_cases hv : visited = true
      · rw [if_pos hv] at h
        exact ih s isVisited q s' hs h
      · rw [if_neg hv] at h
        simp only [bind_eq_ok] at h
        obtain ⟨isVisited', _, moves, _, r, hr, h⟩ := h
        refine ih r.1 isVisited' (q ++ r.2) s' ?_ h
        unfold Solver.addMoves at hr
        simp only [bind_eq_ok] at hr
        obtain ⟨r1, h1, byPos, _, h2⟩ := hr
        rw [pure_eq_ok] at h2
        rw [← h2]
        exact hpos _ _ (addMovesLoop_preserves P hadd _ s r1 hs h1)

theorem generateAllMoves_preserves (P : Solver → Prop)
    (hadd : ∀ s move r, P s → s.addMove move = .ok r → P r.2)
    (hpos : ∀ s byPos, P s → P { s with m_movesByPosition := byPos })
    {s s' : Solver} (hs : P s) (h : s.generateAllMoves = .ok s') : P s' :=
  generateAllMovesLoop_preserves P hadd hpos _ s _ _ s' hs h

theorem addMove_frame {s : Solver} {move : Move} {r : Move × Solver}
    (h : s.addMove move = .ok r) :
    r.2.m_level = s.m_level ∧ r.2.m_jewelState = s.m_jewelState ∧
      r.2.m_jewelIdByPosition = s.m_jewelIdByPosition ∧
      r.2.m_vehicleCoords = s.m_vehicleCoords := by
  unfold Solver.addMove at h
  simp only [bind_eq_ok] at h
  obtain ⟨_, _, _, _, _, _, h⟩ := h
  rw [pure_eq_ok] at h
  rw [← h]
  exact ⟨rfl, rfl, rfl, rfl⟩

theorem generateAllMoves_frame {s s' : Solver} (h : s.generateAllMoves = .ok s') :
    s'.m_level = s.m_level ∧ s'.m_jewelState = s.m_jewelState ∧
      s'.m_jewelIdByPosition = s.m_jewelIdByPosition ∧
      s'.m_vehicleCoords = s.m_vehicleCoords := by
  refine generateAllMoves_preserves
    (fun t => t.m_level = s.m_level ∧ t.m_jewelState = s.m_jewelState ∧
      t.m_jewelIdByPosition = s.m_jewelIdByPosition ∧
      t.m_vehicleCoords = s.m_vehicleCoords) ?_ ?_ ⟨rfl, rfl, rfl, rfl⟩ h
  · intro t move r ht hr
    obtain ⟨h1, h2, h3, h4⟩ := addMove_frame hr
    exact ⟨h1.trans ht.1, h2.trans ht.2.1, h3.trans ht.2.2.1, h4.trans ht.2.2.2⟩
  · intro t byPos ht
    exact ht

theorem fillDistancesBetweenNodes_frame {s s' : Solver}
    (h : s.fillDistancesBetweenNodes = .ok s') :
    s'.m_level = s.m_level ∧ s'.m_jewelState = s.m_jewelState ∧
      s'.m_allMoves = s.m_allMoves := by
  unfold Solver.fillDistancesBetweenNodes at h
  simp only [bind_eq_ok] at h
  obtain ⟨_, _, _, _, h⟩ := h
  rw [pure_eq_ok] at h
  rw [← h]
  exact ⟨rfl, rfl, rfl⟩

theorem computePairwiseNodeDistances_frame {s s' : Solver}
    (h : s.computePairwiseNodeDistances = .ok s') :
    s'.m_level = s.m_level ∧ s'.m_jewelState = s.m_jewelState ∧
      s'.m_allMoves = s.m_allMoves := by
  unfold Solver.computePairwiseNodeDistances at h
  simp only [bind_eq_ok] at h
  obtain ⟨_, _, _, _, h⟩ := h
  split at h
  · simp only [bind_eq_ok, pure_eq_ok] at h
    obtain ⟨_, _, _, _, _, _, h⟩ := h
    have := fillDistancesBetweenNodes_frame h
    exact this
  · simp only [bind_eq_ok, pure_eq_ok] at h
    obtain ⟨_, _, _, _, h⟩ := h
    have := fillDistancesBetweenNodes_frame h
    exact this

theorem identifySccs_frame {s s' : Solver} (h : s.identifySccs = .ok s') :
    s'.m_level = s.m_level ∧ s'.m_jewelState = s.m_jewelState ∧
      s'.m_allMoves = s.m_allMoves := by
  unfold Solver.identifySccs at h
  simp only [bind_eq_ok] at h
  obtain ⟨_, _, _, _, _, _, h⟩ := h
  rw [pure_eq_ok] at h
  rw [← h]
  exact ⟨rfl, rfl, rfl⟩

theorem assignJewelsToSccs_frame {s s' : Solver} (h : s.assignJewelsToSccs = .ok s') :
    s'.m_level = s.m_level ∧ s'.m_jewelState = s.m_jewelState ∧
      s'.m_allMoves = s.m_allMoves := by
  unfold Solver.assignJewelsToSccs at h
  simp only [bind_eq_ok] at h
  obtain ⟨_, _, _, _, h⟩ := h
  unfold Solver.resetSccCountsPerJewel at h
  simp only [bind_eq_ok] at h
  obtain ⟨_, _, h⟩ := h
  rw [pure_eq_ok] at h
  rw [← h]
  exact ⟨rfl, rfl, rfl⟩

theorem fillSccConditionalUnreachability_frame {s s' : Solver}
    (h : s.fillSccConditionalUnreachability = .ok s') :
    s'.m_level = s.m_level ∧ s'.m_jewelState = s.m_jewelState ∧
      s'.m_allMoves = s.m_allMoves ∧ s'.m_sccs = s.m_sccs ∧
      s'.m_numSccsWithJewel = s.m_numSccsWithJewel := by
  unfold Solver.fillSccConditionalUnreachability at h
  simp only [bind_eq_ok] at h
  obtain ⟨_, _, h⟩ := h
  rw [pure_eq_ok] at h
  rw [← h]
  exact ⟨rfl, rfl, rfl, rfl, rfl⟩

theorem lookForBest_level {s s' : Solver} {o : Oracle} {fuel : Nat} {sol : Solution}
    (h : s.lookForBestSolutionUsingCahHeuristicForTime o fuel = .ok (sol, s')) :
    s'.m_level = s.m_level := by
  unfold Solver.lookForBestSolutionUsingCahHeuristicForTime at h
  simp only [bind_eq_ok] at h
  obtain ⟨r, _, h⟩ := h
  by_cases hr : r.1 = true
  · rw [if_pos hr, pure_eq_ok] at h
    cases h
    rfl
  · rw [if_neg hr] at h
    simp only [bind_eq_ok] at h
    obtain ⟨_, _, h⟩ := h
    rw [pure_eq_ok] at h
    cases h
    rfl

theorem prepare_level {s s' : Solver} (h : s.prepare = .ok (some s')) :
    s'.m_level = s.m_level := by
  unfold Solver.prepare at h
  simp only [bind_eq_ok] at h
  obtain ⟨s1, h1, s2, h2, b, _, h⟩ := h
  split at h
  · rw [pure_eq_ok] at h; cases h
  · simp only [bind_eq_ok] at h
    obtain ⟨s3, h3, s4, h4, s5, h5, s6, h6, b', _, h⟩ := h
    split at h
    · rw [pure_eq_ok] at h; cases h
    · rw [pure_eq_ok] at h
      cases h
      rw [(fillSccConditionalUnreachability_frame h6).1, (assignJewelsToSccs_frame h5).1,
        (identifySccs_frame h4).1, (computePairwiseNodeDistances_frame h3).1,
        (generateAllMoves_frame h2).1, identifyJewels_level h1]

theorem make_level (level : Level) : (Solver.make level).m_level = level := rfl

/-- **C1.** For every level with `maxMoves ≥ 0`, every environment and every fuel: a
solution that `solve` returns and that exists has at most `maxMoves` moves, on each return
path (the empty solution of a board without jewels, the CAH result, the search result). -/
theorem solve_within_budget (level : Level) (o : Oracle) (fuel : Nat) (sol : Solution)
    (hmax : 0 ≤ level.maxMoves) (h : solve level o fuel = .ok sol)
    (he : sol.exists = true) : sol.size ≤ level.maxMoves := by
  unfold solve Solver.solve at h
  split at h
  · rw [pure_eq_ok] at h
    subst h
    exact hmax
  · simp only [bind_eq_ok] at h
    obtain ⟨r, hr, h⟩ := h
    cases r with
    | none =>
      simp only [pure_eq_ok] at h
      subst h
      cases he
    | some s =>
      simp only [bind_eq_ok] at h
      obtain ⟨⟨cahSolution, s'⟩, hc, h⟩ := h
      have hl : s'.m_level = level := by
        rw [lookForBest_level hc, prepare_level hr, make_level]
      simp only at h
      split at h
      · rename_i hfit
        rw [pure_eq_ok] at h
        subst h
        rw [← hl]
        exact hfit.2
      · simp only [bind_eq_ok] at h
        obtain ⟨solution, _, h⟩ := h
        split at h
        · rename_i hfit
          rw [pure_eq_ok] at h
          subst h
          rw [← hl]
          exact hfit.2
        · rw [pure_eq_ok] at h
          subst h
          cases he

theorem solve_within_budget_witness :
    solve minimalWalledLevel (quietOracle [0]) 4 = .ok ⟨true, [.East]⟩ ∧
      (⟨true, [.East]⟩ : Solution).size ≤ minimalWalledLevel.maxMoves :=
  ⟨by decide!, solve_within_budget minimalWalledLevel (quietOracle [0]) 4 ⟨true, [.East]⟩
    (by decide) (by decide!) (by decide)⟩

theorem solve_no_jewels_witness :
    solve (Level.ofGlyphs 3 3 0 ("###".toList ++ "#.#".toList ++ "###".toList))
        (quietOracle []) 0 = .ok Solution.empty ∧
      Solution.empty.exists = true ∧ Solution.empty.m_moves = [] ∧
      write Solution.empty = "" :=
  solve_no_jewels _ (quietOracle []) 0 (by
    intro x y hb
    obtain ⟨h1, h2, h3, h4⟩ := hb
    have h2' : x < 3 := h2
    have h4' : y < 3 := h4
    have hx : x = 0 ∨ x = 1 ∨ x = 2 := by omega
    have hy : y = 0 ∨ y = 1 ∨ y = 2 := by omega
    rcases hx with rfl | rfl | rfl <;> rcases hy with rfl | rfl | rfl <;> decide)

/-! ### Vectors -/

theorem vecSet_eq_ok {α : Type} {v v' : List α} {i : Int} {a : α}
    (h : vecSet v i a = .ok v') : 0 ≤ i ∧ i < v.length ∧ v' = v.set i.toNat a := by
  unfold vecSet at h
  split at h
  · rename_i hi
    cases h
    exact ⟨hi.1, hi.2, rfl⟩
  · cases h

theorem vecSet_ok {α : Type} {v : List α} {i : Int} (a : α) (h0 : 0 ≤ i)
    (h1 : i < v.length) : vecSet v i a = .ok (v.set i.toNat a) := by
  unfold vecSet
  rw [if_pos ⟨h0, h1⟩]

theorem vecGet_eq_ok {α : Type} {v : List α} {i : Int} {a : α}
    (h : vecGet v i = .ok a) : 0 ≤ i ∧ i < v.length ∧ v.get? i.toNat = some a := by
  unfold vecGet at h
  split at h
  · rename_i hi
    split at h
    · rename_i b hb
      cases h
      have hlt := (List.get?_eq_some.1 hb).1
      exact ⟨hi, by omega, hb⟩
    · cases h
  · cases h

theorem vecGet_ok {α : Type} {v : List α} {i : Int} (h0 : 0 ≤ i) (h1 : i < v.length) :
    ∃ a, vecGet v i = .ok a ∧ v.get? i.toNat = some a := by
  have hlt : i.toNat < v.length := by omega
  refine ⟨v.get ⟨i.toNat, hlt⟩, ?_, List.get?_eq_get hlt⟩
  unfold vecGet
  rw [if_pos h0, List.get?_eq_get hlt]

/-- A loop that reads and writes a vector at each index of a list returns only if every
index is one of the vector, and it keeps the size of the vector. -/
theorem foldlM_vec_indices {α : Type} (g : List α → Int → Except Fault (List α))
    (hg : ∀ v i v', g v i = .ok v' → 0 ≤ i ∧ i < v.length ∧ v'.length = v.length) :
    ∀ (l : List Int) (v v' : List α), l.foldlM g v = .ok v' →
      v'.length = v.length ∧ ∀ i ∈ l, 0 ≤ i ∧ i < v.length := by
  intro l
  induction l with
  | nil =>
    intro v v' h
    rw [List.foldlM_nil, pure_eq_ok] at h
    subst h
    exact ⟨rfl, fun i hi => by cases hi⟩
  | cons a l ih =>
    intro v v' h
    rw [List.foldlM_cons, bind_eq_ok] at h
    obtain ⟨v1, h1, h2⟩ := h
    obtain ⟨g1, g2, g3⟩ := hg v a v1 h1
    obtain ⟨i1, i2⟩ := ih v1 v' h2
    refine ⟨i1.trans g3, ?_⟩
    intro i hi
    rcases List.mem_cons.1 hi with rfl | hi
    · exact ⟨g1, g2⟩
    · have := i2 i hi
      rw [g3] at this
      exact this

/-! ### Jewel ids on registered moves -/

theorem addMove_idsValid (n : Nat) (s : Solver) (move : Move) (r : Move × Solver)
    (hs : s.IdsValid n) (h : s.addMove move = .ok r) : r.2.IdsValid n := by
  unfold Solver.addMove at h
  simp only [bind_eq_ok] at h
  obtain ⟨collecting, hc, atEnd, _, byEnd, _, h⟩ := h
  rw [pure_eq_ok] at h
  have key := foldlM_vec_indices
    (fun (acc : List (List Move)) jewelId => do
      let old ← vecGet acc jewelId
      vecSet acc jewelId (old ++ [move.setId s.m_allMoves.length]))
    (by
      intro v i v' hv
      simp only [bind_eq_ok] at hv
      obtain ⟨old, _, hset⟩ := hv
      obtain ⟨a, b, c⟩ := vecSet_eq_ok hset
      exact ⟨a, b, by rw [c, List.length_set]⟩)
    (move.setId s.m_allMoves.length).jewels s.m_movesCollectingJewel collecting hc
  rw [← h]
  refine ⟨key.1.trans hs.1, ?_⟩
  intro m hm j hj
  simp only [List.mem_append, List.mem_singleton] at hm
  rcases hm with hm | rfl
  · exact hs.2 m hm j hj
  · have := key.2 j hj
    rw [hs.1] at this
    exact this

theorem generateAllMoves_idsValid {s s' : Solver} (n : Nat) (hs : s.IdsValid n)
    (h : s.generateAllMoves = .ok s') : s'.IdsValid n :=
  generateAllMoves_preserves (Solver.IdsValid n) (addMove_idsValid n)
    (fun _ _ ht => ht) hs h

theorem identifyJewels_frame {s s' : Solver} (h : s.identifyJewels = .ok s') :
    s'.m_jewelState = s.m_jewelState ∧ s'.m_allMoves = s.m_allMoves ∧
      s'.m_movesCollectingJewel = s.m_movesCollectingJewel := by
  unfold Solver.identifyJewels at h
  simp only [bind_eq_ok] at h
  obtain ⟨a, _, h⟩ := h
  rw [pure_eq_ok] at h
  rw [← h]
  exact ⟨rfl, rfl, rfl⟩

theorem make_numJewels_nat (level : Level) :
    (Solver.make level).m_jewelState.m_numCollected.length = (countJewels level).toNat ∧
      (Solver.make level).m_movesCollectingJewel.length = (countJewels level).toNat := by
  simp [Solver.make, JewelState.make]

/-! ### Reachability of jewels -/

theorem count_true_lt_of_get?_false (l : List Bool) (j : Nat)
    (h : l.get? j = some false) : l.count true < l.length := by
  induction l generalizing j with
  | nil => simp at h
  | cons b l ih =>
    cases j with
    | zero =>
      simp only [List.get?_cons_zero, Option.some.injEq] at h
      subst h
      have := List.count_le_length true l
      simp only [List.count_cons, List.length_cons]
      simp
      omega
    | succ j =>
      simp only [List.get?_cons_succ] at h
      have := ih j h
      simp only [List.count_cons, List.length_cons]
      split <;> omega

/-- Marking the jewels of a list of ids keeps an unmarked entry unmarked when its id is
not in the list, and returns when all ids are indices. -/
theorem markReachable_spec (n : Nat) (j : Nat) :
    ∀ (ids : List Int) (acc : List Bool), acc.length = n → acc.get? j = some false →
      (∀ i ∈ ids, 0 ≤ i ∧ i < (n : Int)) → (j : Int) ∉ ids →
      ∃ acc', ids.foldlM (fun (acc : List Bool) jewelId => vecSet acc jewelId true) acc =
          .ok acc' ∧ acc'.length = n ∧ acc'.get? j = some false := by
  intro ids
  induction ids with
  | nil => intro acc h1 h2 _ _; exact ⟨acc, rfl, h1, h2⟩
  | cons a ids ih =>
    intro acc h1 h2 hv hj
    have ha := hv a (List.mem_cons_self _ _)
    have hne : a.toNat ≠ j := by
      intro h
      apply hj
      rw [← h, Int.toNat_of_nonneg ha.1]
      exact List.mem_cons_self _ _
    obtain ⟨acc', h3, h4, h5⟩ := ih (acc.set a.toNat true) (by rw [List.length_set, h1])
      (by rw [List.get?_eq_getElem?, List.getElem?_set_ne hne, ← List.get?_eq_getElem?]; exact h2)
      (fun i hi => hv i (List.mem_cons_of_mem _ hi))
      (fun h => hj (List.mem_cons_of_mem _ h))
    refine ⟨acc', ?_, h4, h5⟩
    rw [List.foldlM_cons, vecSet_ok true ha.1 (by rw [h1]; exact ha.2)]
    exact h3

theorem countReachable_spec (n : Nat) (j : Nat) :
    ∀ (moves : List Move) (acc : List Bool), acc.length = n → acc.get? j = some false →
      (∀ m ∈ moves, ∀ i ∈ m.jewels, 0 ≤ i ∧ i < (n : Int)) →
      (∀ m ∈ moves, (j : Int) ∉ m.jewels) →
      ∃ acc', moves.foldlM (fun (acc : List Bool) (move : Move) =>
          move.jewels.foldlM (fun (acc : List Bool) jewelId => vecSet acc jewelId true) acc)
          acc = .ok acc' ∧ acc'.length = n ∧ acc'.get? j = some false := by
  intro moves
  induction moves with
  | nil => intro acc h1 h2 _ _; exact ⟨acc, rfl, h1, h2⟩
  | cons m moves ih =>
    intro acc h1 h2 hv hj
    obtain ⟨acc1, g1, g2, g3⟩ := markReachable_spec n j m.jewels acc h1 h2
      (hv m (List.mem_cons_self _ _)) (hj m (List.mem_cons_self _ _))
    obtain ⟨acc', h3, h4, h5⟩ := ih acc1 g2 g3
      (fun m' hm' => hv m' (List.mem_cons_of_mem _ hm'))
      (fun m' hm' => hj m' (List.mem_cons_of_mem _ hm'))
    refine ⟨acc', ?_, h4, h5⟩
    rw [List.foldlM_cons, g1]
    exact h3

/-- When the jewel ids on the registered moves are indices and some jewel id is on no
registered move, `areAllJewelsReachable` returns false. -/
theorem areAllJewelsReachable_false (s : Solver)
    (hv : s.IdsValid s.m_jewelState.m_numCollected.length)
    (hun : ∃ j : Int, 0 ≤ j ∧ j < s.numJewels ∧ ∀ m ∈ s.m_allMoves, j ∉ m.jewels) :
    s.areAllJewelsReachable = .ok false := by
  obtain ⟨j, hj0, hj1, hj⟩ := hun
  have hnj : s.m_jewelState.numJewels = (s.m_jewelState.m_numCollected.length : Int) := rfl
  have hj1' : j.toNat < s.m_jewelState.m_numCollected.length := by
    unfold Solver.numJewels at hj1
    rw [hnj] at hj1
    omega
  obtain ⟨acc', h1, h2, h3⟩ := countReachable_spec s.m_jewelState.m_numCollected.length
    j.toNat s.m_allMoves
    (List.replicate s.m_jewelState.numJewels.toNat false)
    (by rw [List.length_replicate, hnj]; simp)
    (by
      rw [List.get?_eq_get (by rw [List.length_replicate, hnj]; simpa using hj1')]
      simp)
    hv.2 (by rw [Int.toNat_of_nonneg hj0]; exact hj)
  have hlt := count_true_lt_of_get?_false acc' j.toNat h3
  have hne : ¬ s.m_jewelState.numJewels = (List.count true acc' : Int) := by
    rw [hnj]
    omega
  unfold Solver.areAllJewelsReachable Solver.countReachableJewels
  rw [h1]
  show Except.ok (decide (s.m_jewelState.numJewels = (List.count true acc' : Int))) =
    Except.ok false
  rw [decide_eq_false hne]

theorem make_idsValid (level : Level) :
    (Solver.make level).IdsValid (Solver.make level).m_jewelState.m_numCollected.length := by
  refine ⟨?_, fun m hm => by cases hm⟩
  rw [(make_numJewels_nat level).1, (make_numJewels_nat level).2]

/-- **C4.** For every level and environment: when `generateAllMoves` has returned its live
moves and some jewel id `0 ≤ j < numJewels` (so the level has a jewel) is in the jewel list
of none of them, `areAllJewelsReachable` is false and `solve` returns
`Solution::invalid()`, a solution with `exists() = false`. -/
theorem solve_unreachable_jewel (level : Level) (o : Oracle) (fuel : Nat) (moves : List Move)
    (hgen : generatedMoves level = .ok moves)
    (hun : ∃ j : Int, 0 ≤ j ∧ j < (Solver.make level).numJewels ∧
      ∀ m ∈ moves, j ∉ m.jewels) :
    solve level o fuel = .ok Solution.invalid ∧ Solution.invalid.exists = false := by
  refine ⟨?_, rfl⟩
  unfold generatedMoves at hgen
  simp only [bind_eq_ok, pure_eq_ok] at hgen
  obtain ⟨s1, h1, s2, h2, rfl⟩ := hgen
  obtain ⟨f1, f2, f3⟩ := identifyJewels_frame h1
  obtain ⟨_, g2, _, _⟩ := generateAllMoves_frame h2
  have hjs : s2.m_jewelState = (Solver.make level).m_jewelState := g2.trans f1
  have hv1 : s1.IdsValid (Solver.make level).m_jewelState.m_numCollected.length := by
    have := make_idsValid level
    unfold Solver.IdsValid at this ⊢
    rw [f2, f3]
    exact this
  have hv2 := generateAllMoves_idsValid _ hv1 h2
  rw [← hjs] at hv2
  have hnum : s2.numJewels = (Solver.make level).numJewels := by
    unfold Solver.numJewels
    rw [hjs]
  have hfalse := areAllJewelsReachable_false s2 hv2 (by rw [hnum]; exact hun)
  obtain ⟨j, hj0, hj1, _⟩ := hun
  have hpos : ¬ (Solver.make level).numJewels = 0 := by omega
  have hprep : (Solver.make level).prepare = .ok none := by
    unfold Solver.prepare
    rw [h1]
    show (do
      let s ← s1.generateAllMoves
      if !(← s.areAllJewelsReachable) then pure none
      else
        let s ← s.computePairwiseNodeDistances
        let s ← s.identifySccs
        let s ← s.assignJewelsToSccs
        let s ← s.fillSccConditionalUnreachability
        if !(← s.mayBeSolvable) then pure none
        else pure (some s) : Except Fault (Option Solver)) = .ok none
    rw [h2]
    show (do
      if !(← s2.areAllJewelsReachable) then pure none
      else
        let s ← s2.computePairwiseNodeDistances
        let s ← s.identifySccs
        let s ← s.assignJewelsToSccs
        let s ← s.fillSccConditionalUnreachability
        if !(← s.mayBeSolvable) then pure none
        else pure (some s) : Except Fault (Option Solver)) = .ok none
    rw [hfalse]
    rfl
  unfold solve Solver.solve
  rw [if_neg hpos, hprep]
  rfl

theorem solve_unreachable_jewel_witness :
    solve walledOffLevel (quietOracle [0]) 4 = .ok Solution.invalid ∧
      Solution.invalid.exists = false :=
  solve_unreachable_jewel walledOffLevel (quietOracle [0]) 4 [] (by decide!)
    ⟨0, by decide, by decide!, fun m hm => by cases hm⟩

/-! ### The solvability prefilter -/

theorem anyM_total {α : Type} (p : α → Except Fault Bool) (Q : α → Prop) :
    ∀ (l : List α), (∀ x ∈ l, ∃ b, p x = .ok b ∧ (b = true ↔ Q x)) →
      ∃ b, l.anyM p = .ok b ∧ (b = true ↔ ∃ x ∈ l, Q x) := by
  intro l
  induction l with
  | nil =>
    intro _
    exact ⟨false, rfl, by simp⟩
  | cons a l ih =>
    intro h
    obtain ⟨b, hb, hq⟩ := h a (List.mem_cons_self _ _)
    obtain ⟨b', hb', hq'⟩ := ih (fun x hx => h x (List.mem_cons_of_mem _ hx))
    cases b with
    | true =>
      refine ⟨true, ?_, ?_⟩
      · rw [List.anyM, hb]; rfl
      · simp only [true_iff]
        exact ⟨a, List.mem_cons_self _ _, hq.1 rfl⟩
    | false =>
      refine ⟨b', ?_, ?_⟩
      · rw [List.anyM, hb]; exact hb'
      · rw [hq']
        constructor
        · rintro ⟨x, hx, hQ⟩
          exact ⟨x, List.mem_cons_of_mem _ hx, hQ⟩
        · rintro ⟨x, hx, hQ⟩
          rcases List.mem_cons.1 hx with rfl | hx
          · exact absurd (hq.2 hQ) (by simp)
          · exact ⟨x, hx, hQ⟩

theorem holdsSingleSccJewel_spec (s : Solver) (other : Scc)
    (hj : ∀ j ∈ other.jewels, 0 ≤ j ∧ j < (s.m_numSccsWithJewel.length : Int)) :
    ∃ b, s.holdsSingleSccJewel other = .ok b ∧
      (b = true ↔ ∃ j ∈ other.jewels, vecGet s.m_numSccsWithJewel j = .ok 1) := by
  unfold Solver.holdsSingleSccJewel
  apply anyM_total
  intro j hjm
  obtain ⟨n, hn, _⟩ := vecGet_ok (hj j hjm).1 (hj j hjm).2
  refine ⟨decide (n = 1), ?_, ?_⟩
  · rw [hn]; rfl
  · rw [hn]
    simp

theorem excludesRequiredScc_spec (s : Solver) (hs : s.SccsReady) (a : Nat) (scc : Scc)
    (ha : s.m_sccs.get? a = some scc) :
    ∃ b, s.excludesRequiredScc scc = .ok b ∧
      (b = true ↔ ∃ (c : Nat) (other : Scc) (j : Int), s.m_sccs.get? c = some other ∧
        j ∈ other.jewels ∧ vecGet s.m_numSccsWithJewel j = .ok 1 ∧
        s.m_ifSccTraversedThenSccUnreachable.values a c = true) := by
  obtain ⟨hid, hw, hh, hdiag, hjew⟩ := hs
  have hida : scc.id = a := hid a scc ha
  have halt : a < s.m_sccs.length := (List.get?_eq_some.1 ha).1
  unfold Solver.excludesRequiredScc
  have key := anyM_total
    (fun (otherSccId : Nat) => (do
      if scc.id = otherSccId then pure false
      else if (← s.m_ifSccTraversedThenSccUnreachable.read scc.id otherSccId) then
        s.holdsSingleSccJewel (← vecGet s.m_sccs otherSccId)
      else pure false : Except Fault Bool))
    (fun c => ∃ (other : Scc) (j : Int), s.m_sccs.get? c = some other ∧
        j ∈ other.jewels ∧ vecGet s.m_numSccsWithJewel j = .ok 1 ∧
        s.m_ifSccTraversedThenSccUnreachable.values a c = true)
    (List.range s.m_sccs.length) ?_
  · obtain ⟨b, hb, hq⟩ := key
    refine ⟨b, hb, ?_⟩
    rw [hq]
    constructor
    · rintro ⟨c, _, other, j, h1, h2, h3, h4⟩
      exact ⟨c, other, j, h1, h2, h3, h4⟩
    · rintro ⟨c, other, j, h1, h2, h3, h4⟩
      exact ⟨c, List.mem_range.2 (List.get?_eq_some.1 h1).1, other, j, h1, h2, h3, h4⟩
  · intro c hc
    rw [List.mem_range] at hc
    have hin : s.m_ifSccTraversedThenSccUnreachable.InBounds a c := by
      unfold Array2.InBounds
      omega
    have hread : s.m_ifSccTraversedThenSccUnreachable.read scc.id c =
        .ok (s.m_ifSccTraversedThenSccUnreachable.values a c) := by
      rw [hida]
      unfold Array2.read
      rw [Array2.get?_of_inBounds hin]
    obtain ⟨other, hother, hget⟩ := vecGet_ok (v := s.m_sccs) (i := (c : Int))
      (by omega) (by omega)
    rw [Int.toNat_ofNat] at hget
    by_cases hac : a = c
    · subst hac
      refine ⟨false, ?_, ?_⟩
      · simp only [hida, if_true]
        rfl
      · simp only [Bool.false_eq_true, false_iff, not_exists, not_and]
        intro _ _ _ _ _
        rw [hdiag a halt]
        simp
    · have hne : ¬ scc.id = (c : Int) := by
        rw [hida]
        omega
      simp only [if_neg hne, hread]
      cases hu : s.m_ifSccTraversedThenSccUnreachable.values a c with
      | false =>
        refine ⟨false, rfl, ?_⟩
        simp
      | true =>
        obtain ⟨b, hb, hq⟩ := holdsSingleSccJewel_spec s other
          (hjew other (List.get?_mem hget))
        refine ⟨b, ?_, ?_⟩
        · show (do s.holdsSingleSccJewel (← vecGet s.m_sccs (c : Int))) = Except.ok b
          rw [hother]
          exact hb
        · rw [hq]
          constructor
          · rintro ⟨j, h1, h2⟩
            exact ⟨other, j, hget, h1, h2, rfl⟩
          · rintro ⟨other', j, h1, h2, h3, _⟩
            rw [hget] at h1
            cases h1
            exact ⟨j, h2, h3⟩

theorem hasExclusiveJewel_spec (s : Solver) (hs : s.SccsReady) (a : Nat) (scc : Scc)
    (ha : s.m_sccs.get? a = some scc) :
    ∃ b, s.hasExclusiveJewel scc = .ok b ∧
      (b = true ↔ ∃ (j1 : Int) (c : Nat) (other : Scc) (j : Int), j1 ∈ scc.jewels ∧
        vecGet s.m_numSccsWithJewel j1 = .ok 1 ∧ s.m_sccs.get? c = some other ∧
        j ∈ other.jewels ∧ vecGet s.m_numSccsWithJewel j = .ok 1 ∧
        s.m_ifSccTraversedThenSccUnreachable.values a c = true) := by
  obtain ⟨b0, hb0, hq0⟩ := excludesRequiredScc_spec s hs a scc ha
  have hjew := hs.2.2.2.2 scc (List.get?_mem ha)
  unfold Solver.hasExclusiveJewel
  have key := anyM_total
    (fun (jewelId : Int) => (do
      if (← vecGet s.m_numSccsWithJewel jewelId) = 1 then s.excludesRequiredScc scc
      else pure false : Except Fault Bool))
    (fun j1 => vecGet s.m_numSccsWithJewel j1 = .ok 1 ∧ b0 = true) scc.jewels ?_
  · obtain ⟨b, hb, hq⟩ := key
    refine ⟨b, hb, ?_⟩
    rw [hq, hq0]
    constructor
    · rintro ⟨j1, h1, h2, c, other, j, h3⟩
      exact ⟨j1, c, other, j, h1, h2, h3⟩
    · rintro ⟨j1, c, other, j, h1, h2, h3⟩
      exact ⟨j1, h1, h2, c, other, j, h3⟩
  · intro j1 hj1
    obtain ⟨n, hn, _⟩ := vecGet_ok (hjew j1 hj1).1 (hjew j1 hj1).2
    by_cases h1 : n = 1
    · refine ⟨b0, ?_, ?_⟩
      · simp only [hn]
        show (if n = 1 then s.excludesRequiredScc scc else pure false) = Except.ok b0
        rw [if_pos h1]
        exact hb0
      · show b0 = true ↔ (vecGet s.m_numSccsWithJewel j1 = .ok 1 ∧ b0 = true)
        rw [hn, h1]
        simp
    · refine ⟨false, ?_, ?_⟩
      · simp only [hn]
        show (if n = 1 then s.excludesRequiredScc scc else pure false) = Except.ok false
        rw [if_neg h1]
        rfl
      · show false = true ↔ (vecGet s.m_numSccsWithJewel j1 = .ok 1 ∧ b0 = true)
        rw [hn]
        simp [h1]

/-- On a solver whose SCC stages are done, `mayBeSolvable` returns, and it returns false
exactly when two jewels that each lie in one SCC only sit in SCCs `a`, `b` with `U[a][b]`. -/
theorem mayBeSolvable_spec (s : Solver) (hs : s.SccsReady) :
    ∃ b, s.mayBeSolvable = .ok b ∧ (b = false ↔ s.ExclusivePair) := by
  have key := anyM_total (fun scc => s.hasExclusiveJewel scc)
    (fun scc => ∃ (a : Nat) (j1 : Int) (c : Nat) (other : Scc) (j : Int),
        s.m_sccs.get? a = some scc ∧ j1 ∈ scc.jewels ∧
        vecGet s.m_numSccsWithJewel j1 = .ok 1 ∧ s.m_sccs.get? c = some other ∧
        j ∈ other.jewels ∧ vecGet s.m_numSccsWithJewel j = .ok 1 ∧
        s.m_ifSccTraversedThenSccUnreachable.values a c = true) s.m_sccs ?_
  · obtain ⟨b, hb, hq⟩ := key
    refine ⟨!b, ?_, ?_⟩
    · unfold Solver.mayBeSolvable
      rw [hb]
      rfl
    · have : (!b) = false ↔ b = true := by cases b <;> simp
      rw [this, hq]
      unfold Solver.ExclusivePair
      constructor
      · rintro ⟨scc, _, a, j1, c, other, j, h1, h2, h3, h4, h5, h6, h7⟩
        exact ⟨a, c, scc, other, j1, j, h1, h4, h2, h5, h3, h6, h7⟩
      · rintro ⟨a, c, scc, other, j1, j, h1, h4, h2, h5, h3, h6, h7⟩
        exact ⟨scc, List.get?_mem h1, a, j1, c, other, j, h1, h2, h3, h4, h5, h6, h7⟩
  · intro scc hscc
    obtain ⟨a, ha⟩ := List.mem_iff_get?.1 hscc
    obtain ⟨b, hb, hq⟩ := hasExclusiveJewel_spec s hs a scc ha
    refine ⟨b, hb, ?_⟩
    rw [hq]
    constructor
    · rintro ⟨j1, c, other, j, h⟩
      exact ⟨a, j1, c, other, j, ha, h⟩
    · rintro ⟨a', j1, c, other, j, ha', h2, h3, h4, h5, h6, h7⟩
      have e1 := hs.1 a scc ha
      have e2 := hs.1 a' scc ha'
      have : a' = a := by
        have := e1.symm.trans e2
        omega
      subst this
      exact ⟨j1, c, other, j, h2, h3, h4, h5, h6, h7⟩

/-! ### The SCC stages establish what `mayBeSolvable` reads -/

theorem Array2.cleared_refl (u : Array2 Bool) : u.Cleared u := ⟨rfl, rfl, fun _ _ h => h⟩

theorem Array2.cleared_trans {u v w : Array2 Bool} (h1 : u.Cleared v) (h2 : v.Cleared w) :
    u.Cleared w :=
  ⟨h2.1.trans h1.1, h2.2.1.trans h1.2.1, fun x y h => h2.2.2 x y (h1.2.2 x y h)⟩

theorem Array2.write_false {u u' : Array2 Bool} {x y : Int}
    (h : u.write x y false = .ok u') : u.Cleared u' ∧ u'.values x y = false := by
  unfold Array2.write Array2.set? at h
  by_cases hb : u.InBounds x y
  · rw [if_pos hb] at h
    cases h
    refine ⟨⟨rfl, rfl, ?_⟩, ?_⟩
    · intro i j hij
      show (if i = x ∧ j = y then false else u.values i j) = false
      split
      · rfl
      · exact hij
    · show (if x = x ∧ y = y then false else u.values x y) = false
      rw [if_pos ⟨rfl, rfl⟩]
  · rw [if_neg hb] at h
    cases h

theorem fillReachableLoop_cleared (s : Solver) (links : Scc → List Int) (initialId : Int) :
    ∀ (fuel : Nat) (u : Array2 Bool) (isVisited : List Bool) (reachable : List Int)
      (u' : Array2 Bool),
      s.fillReachableLoop links initialId fuel u isVisited reachable = .ok u' →
        u.Cleared u' := by
  intro fuel
  induction fuel with
  | zero =>
    intro u isVisited reachable u' h
    cases reachable with
    | nil =>
      unfold Solver.fillReachableLoop at h
      cases h
      exact u.cleared_refl
    | cons top rest =>
      unfold Solver.fillReachableLoop at h
      cases h
  | succ fuel ih =>
    intro u isVisited reachable u' h
    cases reachable with
    | nil =>
      unfold Solver.fillReachableLoop at h
      cases h
      exact u.cleared_refl
    | cons top rest =>
      unfold Solver.fillReachableLoop at h
      simp only [bind_eq_ok] at h
      obtain ⟨scc, _, u1, h1, ⟨vis, reach⟩, _, h⟩ := h
      exact Array2.cleared_trans (Array2.write_false h1).1 (ih _ _ _ _ h)

theorem fillReachableLoop_diagonal (s : Solver) (links : Scc → List Int) (a : Nat)
    (scc : Scc) (ha : s.m_sccs.get? a = some scc) (hid : scc.id = a)
    (fuel : Nat) (u : Array2 Bool) (isVisited : List Bool) (u' : Array2 Bool)
    (h : s.fillReachableLoop links scc.id (fuel + 1) u isVisited [scc.id] = .ok u') :
    u.Cleared u' ∧ u'.values a a = false := by
  refine ⟨fillReachableLoop_cleared s links _ _ _ _ _ _ h, ?_⟩
  unfold Solver.fillReachableLoop at h
  simp only [bind_eq_ok] at h
  obtain ⟨scc', h0, u1, h1, ⟨vis, reach⟩, _, h⟩ := h
  have h0' := (vecGet_eq_ok h0).2.2
  rw [hid, Int.toNat_ofNat, ha] at h0'
  cases h0'
  rw [hid] at h1
  exact (fillReachableLoop_cleared s links _ _ _ _ _ _ h).2.2 _ _ (Array2.write_false h1).2

theorem fillSccUnreachabilityIfSccTraversed_spec (s : Solver) (a : Nat) (scc : Scc)
    (ha : s.m_sccs.get? a = some scc) (hid : scc.id = a) (u u' : Array2 Bool)
    (h : s.fillSccUnreachabilityIfSccTraversed u scc = .ok u') :
    u.Cleared u' ∧ u'.values a a = false := by
  unfold Solver.fillSccUnreachabilityIfSccTraversed at h
  simp only [bind_eq_ok] at h
  obtain ⟨u1, h1, h2⟩ := h
  unfold Solver.fillForwardSccUnreachabilityIfSccTraversed at h1
  unfold Solver.fillBackwardSccUnreachabilityIfSccTraversed at h2
  have c1 := fillReachableLoop_diagonal s _ a scc ha hid _ _ _ _ h1
  have c2 := fillReachableLoop_diagonal s _ a scc ha hid _ _ _ _ h2
  exact ⟨Array2.cleared_trans c1.1 c2.1, c2.2⟩

theorem fillSccs_spec (s : Solver) :
    ∀ (l : List Scc) (u u' : Array2 Bool),
      (∀ scc ∈ l, ∃ a : Nat, s.m_sccs.get? a = some scc ∧ scc.id = a) →
      l.foldlM (fun (u : Array2 Bool) scc => s.fillSccUnreachabilityIfSccTraversed u scc) u
        = .ok u' →
      u.Cleared u' ∧ ∀ scc ∈ l, u'.values scc.id scc.id = false := by
  intro l
  induction l with
  | nil =>
    intro u u' _ h
    rw [List.foldlM_nil, pure_eq_ok] at h
    subst h
    exact ⟨u.cleared_refl, fun _ hm => by cases hm⟩
  | cons scc l ih =>
    intro u u' hl h
    rw [List.foldlM_cons, bind_eq_ok] at h
    obtain ⟨u1, h1, h2⟩ := h
    obtain ⟨a, ha, hid⟩ := hl scc (List.mem_cons_self _ _)
    have c1 := fillSccUnreachabilityIfSccTraversed_spec s a scc ha hid u u1 h1
    have c2 := ih u1 u' (fun x hx => hl x (List.mem_cons_of_mem _ hx)) h2
    refine ⟨Array2.cleared_trans c1.1 c2.1, ?_⟩
    intro x hx
    rcases List.mem_cons.1 hx with rfl | hx
    · rw [hid]
      exact c2.1.2.2 _ _ c1.2
    · exact c2.2 x hx

theorem fillSccConditionalUnreachability_spec {s s' : Solver}
    (hid : ∀ (i : Nat) (scc : Scc), s.m_sccs.get? i = some scc → scc.id = i)
    (h : s.fillSccConditionalUnreachability = .ok s') :
    s'.m_ifSccTraversedThenSccUnreachable.width = s.m_sccs.length ∧
      s'.m_ifSccTraversedThenSccUnreachable.height = s.m_sccs.length ∧
      ∀ a : Nat, a < s.m_sccs.length →
        s'.m_ifSccTraversedThenSccUnreachable.values a a = false := by
  unfold Solver.fillSccConditionalUnreachability at h
  simp only [bind_eq_ok] at h
  obtain ⟨u, hu, h⟩ := h
  rw [pure_eq_ok] at h
  subst h
  have key := fillSccs_spec s s.m_sccs _ u
    (fun scc hm => by
      obtain ⟨a, ha⟩ := List.mem_iff_get?.1 hm
      exact ⟨a, ha, hid a scc ha⟩) hu
  refine ⟨key.1.1, key.1.2.1, ?_⟩
  intro a ha
  have hget : s.m_sccs.get? a = some (s.m_sccs.get ⟨a, ha⟩) := List.get?_eq_get ha
  have := key.2 _ (List.get?_mem hget)
  rw [hid a _ hget] at this
  exact this

theorem foldlM_vec_indices_nested {α β : Type} (jewels : β → List Int)
    (g : List α → Int → Except Fault (List α))
    (hg : ∀ v i v', g v i = .ok v' → 0 ≤ i ∧ i < v.length ∧ v'.length = v.length) :
    ∀ (l : List β) (v v' : List α),
      l.foldlM (fun (v : List α) b => (jewels b).foldlM g v) v = .ok v' →
      v'.length = v.length ∧ ∀ b ∈ l, ∀ i ∈ jewels b, 0 ≤ i ∧ i < v.length := by
  intro l
  induction l with
  | nil =>
    intro v v' h
    rw [List.foldlM_nil, pure_eq_ok] at h
    subst h
    exact ⟨rfl, fun b hb => by cases hb⟩
  | cons a l ih =>
    intro v v' h
    rw [List.foldlM_cons, bind_eq_ok] at h
    obtain ⟨v1, h1, h2⟩ := h
    obtain ⟨g1, g2⟩ := foldlM_vec_indices g hg _ _ _ h1
    obtain ⟨i1, i2⟩ := ih v1 v' h2
    refine ⟨i1.trans g1, ?_⟩
    intro b hb
    rcases List.mem_cons.1 hb with rfl | hb
    · exact g2
    · intro i hi
      have := i2 b hb i hi
      rw [g1] at this
      exact this

theorem resetSccCountsPerJewel_spec {s s' : Solver} (h : s.resetSccCountsPerJewel = .ok s') :
    s'.m_sccs = s.m_sccs ∧
      ∀ scc ∈ s.m_sccs, ∀ j ∈ scc.jewels,
        0 ≤ j ∧ j < (s'.m_numSccsWithJewel.length : Int) := by
  unfold Solver.resetSccCountsPerJewel at h
  simp only [bind_eq_ok] at h
  obtain ⟨counts, hc, h⟩ := h
  rw [pure_eq_ok] at h
  subst h
  refine ⟨rfl, ?_⟩
  have key := foldlM_vec_indices_nested Scc.jewels
    (fun (counts : List Int) jewelId => do
      vecSet counts jewelId (wrap16 ((← vecGet counts jewelId) + 1)))
    (by
      intro v i v' hv
      simp only [bind_eq_ok] at hv
      obtain ⟨_, _, hv⟩ := hv
      obtain ⟨a1, a2, a3⟩ := vecSet_eq_ok hv
      refine ⟨a1, a2, ?_⟩
      rw [a3, List.length_set])
    s.m_sccs _ counts hc
  intro scc hscc j hj
  have := key.2 scc hscc j hj
  show 0 ≤ j ∧ j < (counts.length : Int)
  rw [key.1]
  exact this

theorem assignJewelsToSccs_spec {s s' : Solver} (hid : SccIdsWrapped s.m_sccs)
    (h : s.assignJewelsToSccs = .ok s') :
    SccIdsWrapped s'.m_sccs ∧
      ∀ scc ∈ s'.m_sccs, ∀ j ∈ scc.jewels,
        0 ≤ j ∧ j < (s'.m_numSccsWithJewel.length : Int) := by
  unfold Solver.assignJewelsToSccs at h
  simp only [bind_eq_ok] at h
  obtain ⟨jewels, _, last, _, h⟩ := h
  obtain ⟨e1, e2⟩ := resetSccCountsPerJewel_spec h
  rw [e1]
  refine ⟨?_, e2⟩
  intro i scc hget
  rw [List.get?_eq_getElem?, List.getElem?_map] at hget
  cases hz : (s.m_sccs.zip jewels)[i]? with
  | none =>
    rw [hz] at hget
    cases hget
  | some p =>
    rw [hz] at hget
    cases hget
    rw [List.getElem?_zip_eq_some] at hz
    exact hid i p.1 (by rw [List.get?_eq_getElem?]; exact hz.1)

theorem vecSet_sameId {v v' : List Scc} {i : Int} {a b : Scc} (hv : SccIdsWrapped v)
    (hget : vecGet v i = .ok a) (hset : vecSet v i b = .ok v') (hid : b.id = a.id) :
    SccIdsWrapped v' := by
  obtain ⟨_, _, e⟩ := vecSet_eq_ok hset
  obtain ⟨_, _, g⟩ := vecGet_eq_ok hget
  subst e
  intro k scc hk
  by_cases hki : i.toNat = k
  · subst hki
    rw [List.get?_eq_getElem?, List.getElem?_set_self (by omega)] at hk
    cases hk
    rw [hid]
    exact hv _ _ g
  · rw [List.get?_eq_getElem?, List.getElem?_set_ne hki, ← List.get?_eq_getElem?] at hk
    exact hv _ _ hk

theorem linkScc_ids (s : Solver) (sccs sccs' : List Scc) (iv : Int)
    (hv : SccIdsWrapped sccs) (h : s.linkScc sccs iv = .ok sccs') : SccIdsWrapped sccs' := by
  unfold Solver.linkScc at h
  simp only [bind_eq_ok] at h
  obtain ⟨scc, h1, ⟨bridges, neighbours⟩, _, sccs1, h3, h4⟩ := h
  have hv1 : SccIdsWrapped sccs1 := vecSet_sameId hv h1 h3 rfl
  refine foldlM_preserves SccIdsWrapped _ ?_ _ _ _ hv1 h4
  intro v n v' hP hf
  simp only [bind_eq_ok] at hf
  obtain ⟨other, g1, g2⟩ := hf
  exact vecSet_sameId hP g1 g2 rfl

theorem enum_ids (l : List Scc) :
    SccIdsWrapped ((l.enum).map fun (p : Nat × Scc) => { p.2 with id := wrap16 p.1 }) := by
  intro i scc hget
  rw [List.get?_eq_getElem?, List.getElem?_map, List.getElem?_enum] at hget
  cases hl : l[i]? with
  | none =>
    rw [hl] at hget
    cases hget
  | some x =>
    rw [hl] at hget
    rw [← Option.some.inj hget]

theorem identifySccs_ids {s s' : Solver} (h : s.identifySccs = .ok s') :
    SccIdsWrapped s'.m_sccs := by
  unfold Solver.identifySccs at h
  simp only [bind_eq_ok] at h
  obtain ⟨t, _, sccIdAt, _, sccs, hl, h⟩ := h
  rw [pure_eq_ok] at h
  subst h
  refine foldlM_preserves SccIdsWrapped _ ?_ _ _ _ (enum_ids _) hl
  intro v iv v' hP hf
  exact linkScc_ids _ v v' iv hP hf

theorem analyse_ready {s0 s : Solver} (h : s0.analyse = .ok (some s))
    (hfit : s.m_sccs.length ≤ 32768) : s.SccsReady := by
  unfold Solver.analyse at h
  simp only [bind_eq_ok] at h
  obtain ⟨s1, _, s2, _, b, _, h⟩ := h
  split at h
  · rw [pure_eq_ok] at h; cases h
  · simp only [bind_eq_ok] at h
    obtain ⟨s3, _, s4, h4, s5, h5, s6, h6, h⟩ := h
    rw [pure_eq_ok] at h
    cases h
    obtain ⟨w5, j5⟩ := assignJewelsToSccs_spec (identifySccs_ids h4) h5
    obtain ⟨_, _, _, e1, e2⟩ := fillSccConditionalUnreachability_frame h6
    rw [e1] at hfit
    have hid : ∀ (i : Nat) (scc : Scc), s5.m_sccs.get? i = some scc → scc.id = i := by
      intro i scc hi
      have hlt := (List.get?_eq_some.1 hi).1
      rw [w5 i scc hi]
      exact wrap16_of_range (by omega) (by omega)
    obtain ⟨u1, u2, u3⟩ := fillSccConditionalUnreachability_spec hid h6
    unfold Solver.SccsReady Solver.SccIdsArePositions
    rw [e1, e2]
    exact ⟨hid, u1, u2, u3, j5⟩

theorem prepare_of_analyse {s0 s : Solver} (h : s0.analyse = .ok (some s)) :
    s0.prepare = (do if !(← s.mayBeSolvable) then pure none else pure (some s)) := by
  unfold Solver.analyse at h
  simp only [bind_eq_ok] at h
  obtain ⟨s1, h1, s2, h2, b, hb, h⟩ := h
  unfold Solver.prepare
  rw [h1]
  show (do
    let s ← s1.generateAllMoves
    if !(← s.areAllJewelsReachable) then pure none
    else
      let s ← s.computePairwiseNodeDistances
      let s ← s.identifySccs
      let s ← s.assignJewelsToSccs
      let s ← s.fillSccConditionalUnreachability
      if !(← s.mayBeSolvable) then pure none
      else pure (some s)) = _
  rw [h2]
  show (do
    if !(← s2.areAllJewelsReachable) then pure none
    else
      let s ← s2.computePairwiseNodeDistances
      let s ← s.identifySccs
      let s ← s.assignJewelsToSccs
      let s ← s.fillSccConditionalUnreachability
      if !(← s.mayBeSolvable) then pure none
      else pure (some s)) = _
  rw [hb]
  cases b with
  | false =>
    simp only [Bool.not_false, if_true, pure_eq_ok] at h
    cases h
  | true =>
    simp only [Bool.not_true, Bool.false_eq_true, if_false, bind_eq_ok] at h
    obtain ⟨s3, h3, s4, h4, s5, h5, s6, h6, h⟩ := h
    rw [pure_eq_ok] at h
    cases h
    show (do
      let s ← s2.computePairwiseNodeDistances
      let s ← s.identifySccs
      let s ← s.assignJewelsToSccs
      let s ← s.fillSccConditionalUnreachability
      if !(← s.mayBeSolvable) then pure none
      else pure (some s)) = _
    rw [h3]
    show (do
      let s ← s3.identifySccs
      let s ← s.assignJewelsToSccs
      let s ← s.fillSccConditionalUnreachability
      if !(← s.mayBeSolvable) then pure none
      else pure (some s)) = _
    rw [h4]
    show (do
      let s ← s4.assignJewelsToSccs
      let s ← s.fillSccConditionalUnreachability
      if !(← s.mayBeSolvable) then pure none
      else pure (some s)) = _
    rw [h5]
    show (do
      let s ← s5.fillSccConditionalUnreachability
      if !(← s.mayBeSolvable) then pure none
      else pure (some s)) = _
    rw [h6]
    rfl

theorem analyse_of_isAnalysed {level : Level} (h : isAnalysed level = true) :
    (Solver.make level).analyse = .ok (some (analysed level)) := by
  unfold isAnalysed at h
  unfold analysed
  split at h
  · rename_i s hs
    rw [hs]
  · cases h

theorem resetSccCountsPerJewel_length {s s' : Solver}
    (h : s.resetSccCountsPerJewel = .ok s') :
    s'.m_numSccsWithJewel.length = s.m_jewelState.numJewels.toNat := by
  unfold Solver.resetSccCountsPerJewel at h
  simp only [bind_eq_ok] at h
  obtain ⟨counts, hc, h⟩ := h
  rw [pure_eq_ok] at h
  subst h
  have key := foldlM_vec_indices_nested Scc.jewels
    (fun (counts : List Int) jewelId => do
      vecSet counts jewelId (wrap16 ((← vecGet counts jewelId) + 1)))
    (by
      intro v i v' hv
      simp only [bind_eq_ok] at hv
      obtain ⟨_, _, hv⟩ := hv
      obtain ⟨a1, a2, a3⟩ := vecSet_eq_ok hv
      refine ⟨a1, a2, ?_⟩
      rw [a3, List.length_set])
    s.m_sccs _ counts hc
  show counts.length = _
  rw [key.1, List.length_replicate]

theorem analyse_counts {s0 s : Solver} (h : s0.analyse = .ok (some s)) :
    s.m_numSccsWithJewel.length = s0.m_jewelState.numJewels.toNat := by
  unfold Solver.analyse at h
  simp only [bind_eq_ok] at h
  obtain ⟨s1, h1, s2, h2, b, _, h⟩ := h
  split at h
  · rw [pure_eq_ok] at h; cases h
  · simp only [bind_eq_ok] at h
    obtain ⟨s3, h3, s4, h4, s5, h5, s6, h6, h⟩ := h
    rw [pure_eq_ok] at h
    cases h
    rw [(fillSccConditionalUnreachability_frame h6).2.2.2.2]
    unfold Solver.assignJewelsToSccs at h5
    simp only [bind_eq_ok] at h5
    obtain ⟨jewels, _, last, _, h5⟩ := h5
    rw [resetSccCountsPerJewel_length h5]
    show s4.m_jewelState.numJewels.toNat = _
    rw [(identifySccs_frame h4).2.1, (computePairwiseNodeDistances_frame h3).2.1,
      (generateAllMoves_frame h2).2.1, (identifyJewels_frame h1).1]

/-- **C5.** On the solver that `solve` hands to `mayBeSolvable` (the stages before it ran on
`level`, with at most 32768 SCCs, which is what `SccId` can number), `mayBeSolvable` returns,
and it returns false if and only if there are jewels `j1`, `j2` with
`numSccsWithJewel[j1] = numSccsWithJewel[j2] = 1` in the jewel lists of SCCs `a` and `b`
with `U[a][b]` true; and when it returns false, `solve` returns `Solution::invalid()`, a
solution that does not exist, in every environment. -/
theorem mayBeSolvable_false_iff (level : Level) (s : Solver)
    (h : (Solver.make level).analyse = .ok (some s)) (hfit : s.m_sccs.length ≤ 32768) :
    ∃ b, s.mayBeSolvable = .ok b ∧ (b = false ↔ s.ExclusivePair) ∧
      (b = false → ∀ (o : Oracle) (fuel : Nat),
        solve level o fuel = .ok Solution.invalid ∧ Solution.invalid.exists = false) := by
  obtain ⟨b, hb, hq⟩ := mayBeSolvable_spec s (analyse_ready h hfit)
  refine ⟨b, hb, hq, ?_⟩
  intro hbf o fuel
  refine ⟨?_, rfl⟩
  obtain ⟨a, c, sccA, sccB, j1, j2, _, _, _, _, g1, _, _⟩ := hq.1 hbf
  obtain ⟨g0, glt, _⟩ := vecGet_eq_ok g1
  rw [analyse_counts h] at glt
  have hn : ¬ (Solver.make level).numJewels = 0 := by
    unfold Solver.numJewels
    omega
  unfold solve Solver.solve
  rw [if_neg hn, prepare_of_analyse h, hb, hbf]
  rfl

/-- Scenario "Mutually exclusive SCCs": on `exclusiveLevel` the run comes to `mayBeSolvable`
with three SCCs, the two jewels lie in one SCC each with `U` true between them,
`mayBeSolvable` returns false and `solve` returns `Solution::invalid()`. -/
theorem mayBeSolvable_false_iff_witness :
    (Solver.make exclusiveLevel).analyse = .ok (some (analysed exclusiveLevel)) ∧
      (analysed exclusiveLevel).m_sccs.length ≤ 32768 ∧
      (analysed exclusiveLevel).mayBeSolvable = .ok false ∧
      ∃ b, (analysed exclusiveLevel).mayBeSolvable = .ok b ∧
        (b = false ↔ (analysed exclusiveLevel).ExclusivePair) ∧
        (b = false → ∀ (o : Oracle) (fuel : Nat),
          solve exclusiveLevel o fuel = .ok Solution.invalid ∧
            Solution.invalid.exists = false) :=
  have h1 := @analyse_of_isAnalysed exclusiveLevel (by decide!)
  have h2 : (analysed exclusiveLevel).m_sccs.length ≤ 32768 := by decide!
  ⟨h1, h2, by decide!, mayBeSolvable_false_iff exclusiveLevel (analysed exclusiveLevel) h1 h2⟩

/-! ### Runs that the first pass of the CAH loop settles -/

theorem ok_bind {ε α β : Type} (a : α) (f : α → Except ε β) :
    ((Except.ok a : Except ε α) >>= f) = f a := rfl

theorem cahLoop_first_pass (o : Oracle) (fuel rounds : Nat) (st st' : CahSearch)
    (hi : Solver.cahIteration fuel (o.shuffled 1) 1 st = .ok st')
    (hfit : st'.best.exists = true ∧ st'.best.size ≤ st'.solver.m_level.maxMoves) :
    Solver.cahLoop o fuel rounds 0 st = .ok (true, st') := by
  unfold Solver.cahLoop
  have hi' : Solver.cahIteration fuel (o.shuffled (0 + 1)) (0 + 1) st = .ok st' := hi
  rw [hi', ok_bind, if_pos hfit]
  rfl

/-- When the first pass of the CAH loop finds a solution that fits, `solve` returns it: the
clock, the later shuffles and the search stage have no part in the run. -/
theorem solve_of_fitsAtOnce (level : Level) (o : Oracle) (fuel : Nat) (sol : Solution)
    (h : fitsAtOnce level (o.shuffled 1) fuel sol = true) : solve level o fuel = .ok sol := by
  unfold fitsAtOnce at h
  split at h
  · rename_i s hp
    split at h
    · rename_i st hi
      simp only [Bool.and_eq_true, decide_eq_true_eq] at h
      obtain ⟨⟨⟨⟨e, hex⟩, h1⟩, h2⟩, hn⟩ := h
      have hloop := cahLoop_first_pass o fuel o.cahRounds _ _ hi ⟨hex, h1⟩
      unfold solve Solver.solve
      rw [if_neg hn, hp, ok_bind]
      dsimp only
      unfold Solver.lookForBestSolutionUsingCahHeuristicForTime
      rw [hloop, ok_bind]
      dsimp only
      rw [if_pos rfl, pure_bind]
      dsimp only
      rw [if_pos ⟨hex, h2⟩, e]
      rfl
    · cases h
  · cases h

/-! ### The scenarios "Minimal" and "Hole stop" -/

/-- Scenario "Minimal" with a wall east of the jewel.  On the board `####`, `#.+#`, `####` (the
jewel immediately east of the vehicle, a wall east of the jewel) with `maxMoves = 1`, in every
environment (the shuffle of the one jewel id leaves `[0]`), no read leaves the board: `solve`
returns the existing solution that consists of the single direction East, and `write` prints
it as `2`. -/
theorem solve_minimal_walled (o : Oracle) (h : o.shuffled 1 = [0]) :
    minimalWalledLevel.maxMoves = 1 ∧
      solve minimalWalledLevel o 4 = .ok ⟨true, [.East]⟩ ∧
      (⟨true, [.East]⟩ : Solution).exists = true ∧ write ⟨true, [.East]⟩ = "2" :=
  ⟨by decide, solve_of_fitsAtOnce _ o 4 _ (by rw [h]; decide!), rfl, by decide⟩

theorem solve_minimal_walled_witness :
    (quietOracle [0]).shuffled 1 = [0] ∧ minimalWalledLevel.maxMoves = 1 ∧
      solve minimalWalledLevel (quietOracle [0]) 4 = .ok ⟨true, [.East]⟩ ∧
      (⟨true, [.East]⟩ : Solution).exists = true ∧ write ⟨true, [.East]⟩ = "2" :=
  ⟨rfl, solve_minimal_walled (quietOracle [0]) rfl⟩

theorem Array2.coords_nodup {α : Type} (a : Array2 α) : a.coords.Nodup := by
  unfold Array2.coords
  rw [List.nodup_flatMap]
  refine ⟨?_, ?_⟩
  · intro x _
    refine (List.nodup_range _).map ?_
    intro y₁ y₂ h
    simpa using h
  · refine List.Pairwise.imp_of_mem ?_ (List.nodup_range _)
    intro x₁ x₂ _ _ hne
    intro p h1 h2
    rw [List.mem_map] at h1 h2
    obtain ⟨y₁, _, e1⟩ := h1
    obtain ⟨y₂, _, e2⟩ := h2
    rw [← e2] at e1
    simp only [Prod.mk.injEq, Nat.cast_inj] at e1
    exact hne e1.1

theorem Array2.coords_of_inBounds {α : Type} (a : Array2 α) (x y : Int)
    (h : a.InBounds x y) : (x, y) ∈ a.coords := by
  obtain ⟨h1, h2, h3, h4⟩ := h
  unfold Array2.coords
  rw [List.mem_flatMap]
  refine ⟨x.toNat, List.mem_range.2 (by omega), ?_⟩
  rw [List.mem_map]
  refine ⟨y.toNat, List.mem_range.2 (by omega), ?_⟩
  rw [Int.toNat_of_nonneg h1, Int.toNat_of_nonneg h3]

theorem identify_fold (b : Board) (W H : Int) :
    ∀ (todo done : List (Int × Int)) (ids : Array2 Int) (n : Int) (idx : Int × Int → Int),
      (done ++ todo).Nodup → ids.width = W → ids.height = H → 0 ≤ n →
      (∀ p ∈ todo, 0 ≤ p.1 ∧ p.1 < W ∧ 0 ≤ p.2 ∧ p.2 < H) →
      (∀ p ∈ done, b.values p.1 p.2 = .Jewel →
        0 ≤ idx p ∧ idx p < n ∧ ids.values p.1 p.2 = wrap16 (idx p)) →
      (∀ p ∈ done, ∀ q ∈ done, b.values p.1 p.2 = .Jewel → b.values q.1 q.2 = .Jewel →
        idx p = idx q → p = q) →
      n = jewelsAmong b done →
      ∃ (ids' : Array2 Int) (idx' : Int × Int → Int),
        todo.foldlM
          (fun (st : Array2 Int × Int) (p : Int × Int) => do
            if b.values p.1 p.2 = CellType.Jewel then
              pure (← st.1.write p.1 p.2 (wrap16 st.2), st.2 + 1)
            else pure st)
          (ids, n) = .ok (ids', jewelsAmong b (done ++ todo)) ∧
        (∀ p ∈ done ++ todo, b.values p.1 p.2 = .Jewel →
          0 ≤ idx' p ∧ idx' p < jewelsAmong b (done ++ todo) ∧
          ids'.values p.1 p.2 = wrap16 (idx' p)) ∧
        (∀ p ∈ done ++ todo, ∀ q ∈ done ++ todo, b.values p.1 p.2 = .Jewel →
          b.values q.1 q.2 = .Jewel → idx' p = idx' q → p = q) := by
  intro todo
  induction todo with
  | nil =>
    intro done ids n idx _ _ _ _ _ h1 h2 hn
    refine ⟨ids, idx, ?_, ?_, ?_⟩
    · rw [List.append_nil, ← hn]
      rfl
    · rw [List.append_nil, ← hn]
      exact h1
    · rw [List.append_nil]
      exact h2
  | cons c todo ih =>
    intro done ids n idx hnd hw hh h0 hin h1 h2 hn
    have hsplit : done ++ c :: todo = (done ++ [c]) ++ todo := by simp
    have hcnot : c ∉ done := by
      intro hc
      rw [List.nodup_append] at hnd
      exact hnd.2.2 hc (List.mem_cons_self _ _) 
    have hnd' : ((done ++ [c]) ++ todo).Nodup := by rw [← hsplit]; exact hnd
    have hin' : ∀ p ∈ todo, 0 ≤ p.1 ∧ p.1 < W ∧ 0 ≤ p.2 ∧ p.2 < H :=
      fun p hp => hin p (List.mem_cons_of_mem _ hp)
    rw [List.foldlM_cons, hsplit]
    by_cases hj : b.values c.1 c.2 = .Jewel
    · -- a jewel cell: it gets the id `n`
      have hcin := hin c (List.mem_cons_self _ _)
      have hb : ids.InBounds c.1 c.2 := by
        unfold Array2.InBounds
        rw [hw, hh]
        exact hcin
      have hwrite : ids.write c.1 c.2 (wrap16 n) = .ok (ids.set c.1 c.2 (wrap16 n)) := by
        unfold Array2.write Array2.set?
        rw [if_pos hb]
        rfl
      have hn' : n + 1 = jewelsAmong b (done ++ [c]) := by
        unfold jewelsAmong at hn ⊢
        rw [List.foldl_append, ← hn]
        simp [hj]
      obtain ⟨ids', idx', e, g1, g2⟩ := ih (done ++ [c]) (ids.set c.1 c.2 (wrap16 n)) (n + 1)
        (fun r => if r = c then n else idx r) hnd' hw hh (by omega) hin'
        (by
          intro p hp hpj
          rcases List.mem_append.1 hp with hp | hp
          · have hpc : p ≠ c := fun e => hcnot (e ▸ hp)
            obtain ⟨a1, a2, a3⟩ := h1 p hp hpj
            refine ⟨by simp only [if_neg hpc]; exact a1, by simp only [if_neg hpc]; omega, ?_⟩
            simp only [if_neg hpc]
            show (if p.1 = c.1 ∧ p.2 = c.2 then wrap16 n else ids.values p.1 p.2) = _
            rw [if_neg (fun h => hpc (Prod.ext h.1 h.2))]
            exact a3
          · rw [List.mem_singleton] at hp
            subst hp
            refine ⟨by simp only [if_true]; exact h0, by simp only [if_true]; omega, ?_⟩
            simp only [if_true]
            show (if p.1 = p.1 ∧ p.2 = p.2 then wrap16 n else ids.values p.1 p.2) = _
            rw [if_pos ⟨rfl, rfl⟩])
        (by
          intro p hp q hq hpj hqj hpq
          by_cases hpc : p = c
          · by_cases hqc : q = c
            · rw [hpc, hqc]
            · exfalso
              rcases List.mem_append.1 hq with hq | hq
              · simp only [if_pos hpc, if_neg hqc] at hpq
                have := (h1 q hq hqj).2.1
                omega
              · exact hqc (List.mem_singleton.1 hq)
          · by_cases hqc : q = c
            · exfalso
              rcases List.mem_append.1 hp with hp | hp
              · simp only [if_neg hpc, if_pos hqc] at hpq
                have := (h1 p hp hpj).2.1
                omega
              · exact hpc (List.mem_singleton.1 hp)
            · simp only [if_neg hpc, if_neg hqc] at hpq
              rcases List.mem_append.1 hp with hp | hp
              · rcases List.mem_append.1 hq with hq | hq
                · exact h2 p hp q hq hpj hqj hpq
                · exact absurd (List.mem_singleton.1 hq) hqc
              · exact absurd (List.mem_singleton.1 hp) hpc)
        hn'
      refine ⟨ids', idx', ?_, g1, g2⟩
      rw [if_pos hj, hwrite]
      exact e
    · have hn' : n = jewelsAmong b (done ++ [c]) := by
        unfold jewelsAmong at hn ⊢
        rw [List.foldl_append, ← hn]
        simp [hj]
      obtain ⟨ids', idx', e, g1, g2⟩ := ih (done ++ [c]) ids n idx hnd' hw hh h0 hin'
        (by
          intro p hp hpj
          rcases List.mem_append.1 hp with hp | hp
          · exact h1 p hp hpj
          · rw [List.mem_singleton] at hp
            subst hp
            exact absurd hpj hj)
        (by
          intro p hp q hq hpj hqj hpq
          rcases List.mem_append.1 hp with hp | hp
          · rcases List.mem_append.1 hq with hq | hq
            · exact h2 p hp q hq hpj hqj hpq
            · rw [List.mem_singleton] at hq
              subst hq
              exact absurd hqj hj
          · rw [List.mem_singleton] at hp
            subst hp
            exact absurd hpj hj)
        hn'
      refine ⟨ids', idx', ?_, g1, g2⟩
      rw [if_neg hj]
      exact e

/-- With at most 65536 jewels, the width of a `JewelId`, `identifyJewels` gives distinct
Jewel cells of the board distinct ids. -/
theorem identifiedJewels_injective (level : Level) (hcount : countJewels level ≤ 65536)
    (p q : Coords2) (hp : level.board.InBounds p.x p.y) (hq : level.board.InBounds q.x q.y)
    (hpj : level.board.values p.x p.y = .Jewel) (hqj : level.board.values q.x q.y = .Jewel)
    (h : (identifiedJewels level).values p.x p.y = (identifiedJewels level).values q.x q.y) :
    p = q := by
  obtain ⟨ids', idx', e, g1, g2⟩ := identify_fold level.board level.width level.height
    level.board.coords [] (Array2.filled level.width level.height invalidJewelId) 0
    (fun _ => 0) (by simpa using level.board.coords_nodup) rfl rfl (le_refl _)
    (fun r hr => Array2.mem_coords _ r hr)
    (fun r hr => by cases hr) (fun r hr => by cases hr) rfl
  have hids : identifiedJewels level = ids' := by
    unfold identifiedJewels Solver.identifyJewels
    have e' : (Solver.make level).m_level.board.coords.foldlM
        (fun (st : Array2 Int × Int) (p : Int × Int) => do
          if (Solver.make level).m_level.board.values p.1 p.2 = CellType.Jewel then
            pure (← st.1.write p.1 p.2 (wrap16 st.2), st.2 + 1)
          else pure st)
        ((Solver.make level).m_jewelIdByPosition, (0 : Int)) =
        .ok (ids', jewelsAmong level.board ([] ++ level.board.coords)) := e
    rw [e']
    rfl
  have hc : jewelsAmong level.board ([] ++ level.board.coords) = countJewels level := rfl
  rw [hc] at g1
  rw [hids] at h
  have hpm := Array2.coords_of_inBounds _ _ _ hp
  have hqm := Array2.coords_of_inBounds _ _ _ hq
  obtain ⟨a1, a2, a3⟩ := g1 (p.x, p.y) (by simpa using hpm) hpj
  obtain ⟨b1, b2, b3⟩ := g1 (q.x, q.y) (by simpa using hqm) hqj
  have hw : wrap16 (idx' (p.x, p.y)) = wrap16 (idx' (q.x, q.y)) := by
    rw [← a3, ← b3]
    exact h
  have hi : idx' (p.x, p.y) = idx' (q.x, q.y) := by
    unfold wrap16 at hw
    omega
  have := g2 (p.x, p.y) (by simpa using hpm) (q.x, q.y) (by simpa using hqm) hpj hqj hi
  simp only [Prod.mk.injEq] at this
  cases p
  cases q
  simp only at this
  rw [this.1, this.2]

/-! ### The jewel lists of the slide moves -/

/-- **C7.** For every live move that `generateMovesAt(c)` returns in slot `d` (start ≠ end)
there is `n ≥ 1` with end `= c+nD`; the cells `c, c+D, …, c+nD` are cells of the board and
pairwise distinct, and the move's jewel list is the list of the ids of the Jewel cells among
them, in order of increasing distance from `c`, one entry per Jewel cell; hence the list has
no repeated id whenever the id table gives distinct Jewel cells distinct ids, as the table
of `identifyJewels` does on a level with at most 65536 jewels. -/
theorem generateMovesAt_jewels (level : Level) (ids : Array2 Int) (c : Coords2)
    (d : Direction) (ms : Moves) (hd : d ∈ DirectionHelper.values) (hc : c.Representable)
    (hms : generateMovesAt level ids c = .ok ms)
    (hlive : (ms.get d).startPos ≠ (ms.get d).endPos) :
    ∃ n, 1 ≤ n ∧ (ms.get d).endPos = rayCell c (DirectionHelper.offset d) n ∧
      (∀ i, i ≤ n → level.board.InBounds (rayCell c (DirectionHelper.offset d) i).x
        (rayCell c (DirectionHelper.offset d) i).y) ∧
      (rayCells c (DirectionHelper.offset d) n).Nodup ∧
      (ms.get d).jewels = jewelIdsAlong level ids (rayCells c (DirectionHelper.offset d) n) ∧
      ((∀ p q : Coords2, level.board.InBounds p.x p.y → level.board.InBounds q.x q.y →
          level.board.values p.x p.y = .Jewel → level.board.values q.x q.y = .Jewel →
          ids.values p.x p.y = ids.values q.x q.y → p = q) → (ms.get d).jewels.Nodup) ∧
      (ids = identifiedJewels level → countJewels level ≤ 65536 →
        (ms.get d).jewels.Nodup) := by
  obtain ⟨n, hn, hend, hin, hj⟩ := slideFrom_jewels level ids c d (ms.get d) hc
    (generateMovesAt_get hms hd) hlive
  obtain ⟨hox, hoy, hne⟩ := offset_small hd
  have hnd := rayCells_nodup level.board c _ hox hoy hne hc n hin
  have hgen : (∀ p q : Coords2, level.board.InBounds p.x p.y → level.board.InBounds q.x q.y →
      level.board.values p.x p.y = .Jewel → level.board.values q.x q.y = .Jewel →
      ids.values p.x p.y = ids.values q.x q.y → p = q) → (ms.get d).jewels.Nodup := ?_
  · refine ⟨n, hn, hend, hin, hnd, hj, hgen, ?_⟩
    intro hids hcount
    subst hids
    exact hgen (identifiedJewels_injective level hcount)
  intro hinj
  rw [hj]
  unfold jewelIdsAlong
  refine List.Nodup.map_on ?_ (hnd.filter _)
  intro p hp q hq hpq
  rw [List.mem_filter] at hp hq
  have hpin : ∀ r ∈ rayCells c (DirectionHelper.offset d) n, level.board.InBounds r.x r.y := by
    intro r hr
    unfold rayCells at hr
    rw [List.mem_map] at hr
    obtain ⟨i, hi, rfl⟩ := hr
    exact hin i (by rw [List.mem_range] at hi; omega)
  exact hinj p q (hpin p hp.1) (hpin q hq.1) (by simpa using hp.2) (by simpa using hq.2) hpq

theorem generateMovesAt_jewels_witness :
    generateMovesAt (holeStopLevel 5) (identifiedJewels (holeStopLevel 5)) ⟨4, 1⟩ =
        .ok holeStopMovesAtHole ∧
      (holeStopMovesAtHole.get .East).jewels = [0] ∧
      ∃ n, 1 ≤ n ∧
        (holeStopMovesAtHole.get .East).endPos =
          rayCell ⟨4, 1⟩ (DirectionHelper.offset .East) n ∧
        (∀ i, i ≤ n →
          (holeStopLevel 5).board.InBounds (rayCell ⟨4, 1⟩ (DirectionHelper.offset .East) i).x
            (rayCell ⟨4, 1⟩ (DirectionHelper.offset .East) i).y) ∧
        (rayCells ⟨4, 1⟩ (DirectionHelper.offset .East) n).Nodup ∧
        (holeStopMovesAtHole.get .East).jewels =
          jewelIdsAlong (holeStopLevel 5) (identifiedJewels (holeStopLevel 5))
            (rayCells ⟨4, 1⟩ (DirectionHelper.offset .East) n) ∧
        ((∀ p q : Coords2, (holeStopLevel 5).board.InBounds p.x p.y →
            (holeStopLevel 5).board.InBounds q.x q.y →
            (holeStopLevel 5).board.values p.x p.y = .Jewel →
            (holeStopLevel 5).board.values q.x q.y = .Jewel →
            (identifiedJewels (holeStopLevel 5)).values p.x p.y =
              (identifiedJewels (holeStopLevel 5)).values q.x q.y → p = q) →
          (holeStopMovesAtHole.get .East).jewels.Nodup) ∧
        (identifiedJewels (holeStopLevel 5) = identifiedJewels (holeStopLevel 5) →
          countJewels (holeStopLevel 5) ≤ 65536 →
          (holeStopMovesAtHole.get .East).jewels.Nodup) :=
  ⟨by decide!, by decide,
    generateMovesAt_jewels (holeStopLevel 5) (identifiedJewels (holeStopLevel 5)) ⟨4, 1⟩ .East
      holeStopMovesAtHole (by decide) (by decide) (by decide!) (by decide)⟩

/-! ### The output of `write` -/

theorem toId_digit (d : Direction) (h : d ≠ .None) :
    DirectionHelper.toId d ≤ 7 ∧
      toString (DirectionHelper.toId d) =
        String.singleton (Char.ofNat (48 + DirectionHelper.toId d)) := by
  cases d <;> first | exact absurd rfl h | exact ⟨by decide, by decide⟩

theorem foldl_singletons (l : List Char) :
    ∀ acc : String, (l.map String.singleton).foldl (fun a b => a ++ b) acc =
      acc ++ String.mk l := by
  induction l with
  | nil =>
    intro acc
    apply String.ext
    simp
  | cons c l ih =>
    intro acc
    rw [List.map_cons, List.foldl_cons, ih]
    apply String.ext
    simp [String.singleton]

/-- **C11.** The characters that `write` sends to the stream are `BRAK` when the solution
does not exist; otherwise they are, in the order of the solution, one character per
direction that is not `None`, namely the decimal digit of its `toId`, which is at most 7,
and nothing else. -/
theorem write_spec (solution : Solution) :
    write solution =
        (if solution.exists = true then
          String.mk ((solution.m_moves.filter fun d => d ≠ Direction.None).map
            fun d => Char.ofNat (48 + DirectionHelper.toId d))
        else "BRAK") ∧
      ∀ d ∈ solution.m_moves, d ≠ Direction.None → DirectionHelper.toId d ≤ 7 := by
  refine ⟨?_, fun d _ hd => (toId_digit d hd).1⟩
  unfold write
  cases he : solution.exists with
  | false => simp
  | true =>
    simp only [Bool.not_true, Bool.false_eq_true, if_false, if_true]
    have hmap : ((solution.m_moves.filter fun d => d ≠ Direction.None).map
        fun dir => toString (DirectionHelper.toId dir)) =
        (((solution.m_moves.filter fun d => d ≠ Direction.None).map
          fun d => Char.ofNat (48 + DirectionHelper.toId d)).map String.singleton) := by
      rw [List.map_map]
      apply List.map_congr_left
      intro d hd
      rw [List.mem_filter] at hd
      exact (toId_digit d (by simpa using hd.2)).2
    rw [hmap]
    unfold String.join
    rw [foldl_singletons]
    apply String.ext
    simp

/-! ### The invariant of `JewelState` -/

theorem count_zero_set (l : List Int) (k : Nat) (v : Int) (h : k < l.length) :
    ((l.set k v).count 0 : Int) =
      (l.count 0 : Int) - (if l.get ⟨k, h⟩ = 0 then 1 else 0) + (if v = 0 then 1 else 0) := by
  have key := List.count_set v 0 l k h
  have e1 : l.get ⟨k, h⟩ = l[k] := rfl
  rw [e1]
  by_cases h0 : l[k] = 0
  · have hm : (0 : Int) ∈ l := h0 ▸ List.getElem_mem h
    have hpos := List.count_pos_iff.2 hm
    by_cases hv : v = 0
    · simp only [h0, hv, beq_self_eq_true, if_true] at key ⊢
      omega
    · have hv' : (v == 0) = false := by simpa using hv
      simp only [h0, hv, hv', beq_self_eq_true, if_true, if_false, Bool.false_eq_true]
        at key ⊢
      omega
  · have h0' : (l[k] == 0) = false := by simpa using h0
    by_cases hv : v = 0
    · simp only [h0, h0', hv, beq_self_eq_true, if_true, if_false, Bool.false_eq_true]
        at key ⊢
      omega
    · have hv' : (v == 0) = false := by simpa using hv
      simp only [h0, h0', hv, hv', if_false, Bool.false_eq_true] at key ⊢
      omega

theorem vecGet_set_ne {α : Type} (l : List α) (i j : Int) (a : α) (h0 : 0 ≤ i)
    (hne : j ≠ i) : vecGet (l.set i.toNat a) j = vecGet l j := by
  unfold vecGet
  by_cases hj : 0 ≤ j
  · rw [if_pos hj, if_pos hj, List.get?_eq_getElem?, List.get?_eq_getElem?,
      List.getElem?_set_ne (by omega)]
  · rw [if_neg hj, if_neg hj]

theorem vecGet_set_self {α : Type} (l : List α) (i : Int) (a : α) (h0 : 0 ≤ i)
    (h1 : i < l.length) : vecGet (l.set i.toNat a) i = .ok a := by
  unfold vecGet
  rw [if_pos h0, List.get?_eq_getElem?, List.getElem?_set_self (by omega)]

/-- The state after a call that changed the count of `i` from `c` to `v`. -/
theorem JewelState.add_shape {s s' : JewelState} {i : Int} {b : Bool}
    (h : s.addToCollected i = .ok (s', b)) :
    ∃ c, vecGet s.m_numCollected i = .ok c ∧ 0 ≤ i ∧ i < s.m_numCollected.length ∧
      s'.m_numCollected = s.m_numCollected.set i.toNat (wrap16 (c + 1)) ∧
      b = decide (wrap16 (c + 1) = 1) ∧
      s'.m_numLeft = if wrap16 (c + 1) = 1 then s.m_numLeft - 1 else s.m_numLeft := by
  unfold JewelState.addToCollected at h
  simp only [bind_eq_ok] at h
  obtain ⟨c, hc, counts, hset, h⟩ := h
  obtain ⟨a1, a2, a3⟩ := vecSet_eq_ok hset
  refine ⟨c, hc, a1, a2, ?_⟩
  by_cases h1 : wrap16 (c + 1) = 1
  · rw [if_pos h1] at h
    simp only [bind_eq_ok, pure_eq_ok] at h
    obtain ⟨flags, _, h⟩ := h
    cases h
    exact ⟨a3, by simp [h1], by simp [h1]⟩
  · rw [if_neg h1, pure_eq_ok] at h
    cases h
    exact ⟨a3, by simp [h1], by simp [h1]⟩

theorem JewelState.remove_shape {s s' : JewelState} {i : Int} {b : Bool}
    (h : s.removeFromCollected i = .ok (s', b)) :
    ∃ c, vecGet s.m_numCollected i = .ok c ∧ 0 ≤ i ∧ i < s.m_numCollected.length ∧
      s'.m_numCollected = s.m_numCollected.set i.toNat (wrap16 (c - 1)) ∧
      b = decide (wrap16 (c - 1) = 0) ∧
      s'.m_numLeft = if wrap16 (c - 1) = 0 then s.m_numLeft + 1 else s.m_numLeft := by
  unfold JewelState.removeFromCollected at h
  simp only [bind_eq_ok] at h
  obtain ⟨c, hc, counts, hset, h⟩ := h
  obtain ⟨a1, a2, a3⟩ := vecSet_eq_ok hset
  refine ⟨c, hc, a1, a2, ?_⟩
  by_cases h1 : wrap16 (c - 1) = 0
  · rw [if_pos h1] at h
    simp only [bind_eq_ok, pure_eq_ok] at h
    obtain ⟨flags, _, h⟩ := h
    cases h
    exact ⟨a3, by simp [h1], by simp [h1]⟩
  · rw [if_neg h1, pure_eq_ok] at h
    cases h
    exact ⟨a3, by simp [h1], by simp [h1]⟩

theorem JewelState.reachable_inv {n : Int} (hn : 0 ≤ n) {s : JewelState}
    (hr : JewelState.Reachable n s) :
    s.m_numLeft = (s.m_numCollected.count 0 : Int) ∧
      ∀ c ∈ s.m_numCollected, 0 ≤ c ∧ c ≤ 32767 := by
  induction hr with
  | init =>
    refine ⟨?_, ?_⟩
    · show n = ((List.replicate n.toNat (0 : Int)).count 0 : Int)
      rw [List.count_replicate_self]
      omega
    · intro c hc
      have : c = 0 := List.eq_of_mem_replicate hc
      omega
  | add hr h hnn ih =>
    rename_i s s' i b
    obtain ⟨c, hc, i0, i1, hcounts, _, hleft⟩ := JewelState.add_shape h
    obtain ⟨_, _, hget⟩ := vecGet_eq_ok hc
    have hlt : i.toNat < s.m_numCollected.length := by omega
    have hcv : s.m_numCollected.get ⟨i.toNat, hlt⟩ = c := by
      rw [List.get?_eq_get hlt] at hget
      exact Option.some.inj hget
    have hcr := ih.2 c (hcv ▸ List.get_mem _ _ _)
    refine ⟨?_, ?_⟩
    · rw [hleft, hcounts, count_zero_set _ _ _ hlt, hcv, ih.1]
      have := hnn (wrap16 (c + 1)) (by rw [hcounts]; exact List.mem_set _ _ hlt _)
      have hw : wrap16 (c + 1) = c + 1 ∨ c = 32767 := by
        by_cases h7 : c = 32767
        · exact Or.inr h7
        · exact Or.inl (wrap16_of_range (by omega) (by omega))
      rcases hw with hw | hw
      · rw [hw]
        by_cases hc0 : c = 0
        · simp [hc0]
        · have h1 : ¬ c + 1 = 1 := by omega
          have h2 : ¬ c + 1 = 0 := by omega
          simp [hc0, h1, h2]
      · exfalso
        rw [hw] at this
        revert this
        decide
    · intro v hv
      rw [hcounts] at hv
      rcases List.mem_or_eq_of_mem_set hv with hv | hv
      · exact ih.2 v hv
      · have := hnn v (by rw [hcounts]; exact hv ▸ List.mem_set _ _ hlt _)
        have := wrap16_range (c + 1)
        rw [hv]
        omega
  | remove hr h hnn ih =>
    rename_i s s' i b
    obtain ⟨c, hc, i0, i1, hcounts, _, hleft⟩ := JewelState.remove_shape h
    obtain ⟨_, _, hget⟩ := vecGet_eq_ok hc
    have hlt : i.toNat < s.m_numCollected.length := by omega
    have hcv : s.m_numCollected.get ⟨i.toNat, hlt⟩ = c := by
      rw [List.get?_eq_get hlt] at hget
      exact Option.some.inj hget
    have hcr := ih.2 c (hcv ▸ List.get_mem _ _ _)
    have hw : wrap16 (c - 1) = c - 1 := wrap16_of_range (by omega) (by omega)
    refine ⟨?_, ?_⟩
    · rw [hleft, hcounts, count_zero_set _ _ _ hlt, hcv, ih.1, hw]
      have := hnn (wrap16 (c - 1)) (by rw [hcounts]; exact List.mem_set _ _ hlt _)
      rw [hw] at this
      by_cases hc1 : c = 1
      · simp [hc1]
      · have h1 : ¬ c - 1 = 0 := by omega
        have h2 : ¬ c = 0 := by omega
        simp [h1, h2]
    · intro v hv
      rw [hcounts] at hv
      rcases List.mem_or_eq_of_mem_set hv with hv | hv
      · exact ih.2 v hv
      · have := hnn v (by rw [hcounts]; exact hv ▸ List.mem_set _ _ hlt _)
        rw [hv, hw]
        omega

/-- **C12.** In every state that calls of `addToCollected` and `removeFromCollected` reach
from `JewelState(n)` without taking a count below 0: `numLeft()` is the number of ids whose
count is 0; a call `addToCollected(i)` returns true iff the count of `i` went from 0 to 1,
a call `removeFromCollected(i)` returns true iff it went from 1 to 0, and either call
leaves the counts of the ids other than `i` unchanged. -/
theorem JewelState.reachable_spec (n : Int) (hn : 0 ≤ n) (s : JewelState)
    (hr : JewelState.Reachable n s) :
    s.numLeft = (s.m_numCollected.count 0 : Int) ∧
      (∀ i s' b, s.addToCollected i = .ok (s', b) → s.Crossed s' i b 0 1) ∧
      (∀ i s' b, s.removeFromCollected i = .ok (s', b) → s.Crossed s' i b 1 0) := by
  obtain ⟨hleft, hrange⟩ := JewelState.reachable_inv hn hr
  refine ⟨hleft, ?_, ?_⟩
  · intro i s' b h
    obtain ⟨c, hc, i0, i1, hcounts, hb, _⟩ := JewelState.add_shape h
    obtain ⟨_, _, hget⟩ := vecGet_eq_ok hc
    have hcr := hrange c (List.get?_mem hget)
    have hnew : s'.numCollected i = .ok (wrap16 (c + 1)) := by
      unfold JewelState.numCollected
      rw [hcounts]
      exact vecGet_set_self _ _ _ i0 i1
    refine ⟨?_, ?_⟩
    · unfold JewelState.numCollected at hnew ⊢
      rw [hc, hnew, hb]
      have hw : wrap16 (c + 1) = 1 ↔ c = 0 := by
        unfold wrap16
        omega
      constructor
      · intro h1
        have h2 : c = 0 := hw.1 (by simpa using h1)
        subst h2
        exact ⟨rfl, rfl⟩
      · rintro ⟨h1, _⟩
        have h2 : c = 0 := Except.ok.inj h1
        simpa using hw.2 h2
    · intro j hj
      unfold JewelState.numCollected
      rw [hcounts]
      exact vecGet_set_ne _ _ _ _ i0 hj
  · intro i s' b h
    obtain ⟨c, hc, i0, i1, hcounts, hb, _⟩ := JewelState.remove_shape h
    obtain ⟨_, _, hget⟩ := vecGet_eq_ok hc
    have hcr := hrange c (List.get?_mem hget)
    have hnew : s'.numCollected i = .ok (wrap16 (c - 1)) := by
      unfold JewelState.numCollected
      rw [hcounts]
      exact vecGet_set_self _ _ _ i0 i1
    refine ⟨?_, ?_⟩
    · unfold JewelState.numCollected at hnew ⊢
      rw [hc, hnew, hb]
      have hw : wrap16 (c - 1) = 0 ↔ c = 1 := by
        unfold wrap16
        omega
      constructor
      · intro h1
        have h2 : c = 1 := hw.1 (by simpa using h1)
        subst h2
        exact ⟨rfl, rfl⟩
      · rintro ⟨h1, _⟩
        have h2 : c = 1 := Except.ok.inj h1
        simpa using hw.2 h2
    · intro j hj
      unfold JewelState.numCollected
      rw [hcounts]
      exact vecGet_set_ne _ _ _ _ i0 hj

theorem JewelState.reachable_spec_witness :
    (JewelState.make 2).addToCollected 1 = .ok (⟨[0, 1], [true, false], 1⟩, true) ∧
      JewelState.numLeft ⟨[0, 1], [true, false], 1⟩ =
        ((([0, 1] : List Int).count 0 : Nat) : Int) ∧
      (∀ i s' b, JewelState.addToCollected ⟨[0, 1], [true, false], 1⟩ i = .ok (s', b) →
        JewelState.Crossed ⟨[0, 1], [true, false], 1⟩ s' i b 0 1) ∧
      (∀ i s' b, JewelState.removeFromCollected ⟨[0, 1], [true, false], 1⟩ i = .ok (s', b) →
        JewelState.Crossed ⟨[0, 1], [true, false], 1⟩ s' i b 1 0) :=
  ⟨by decide,
    JewelState.reachable_spec 2 (by decide) ⟨[0, 1], [true, false], 1⟩
      (@JewelState.Reachable.add 2 (JewelState.make 2) ⟨[0, 1], [true, false], 1⟩ 1 true
        JewelState.Reachable.init (by decide) (by decide))⟩

/-! ### The moves that `generateAllMoves` registers -/

theorem addMove_spec {s : Solver} {move : Move} {r : Move × Solver}
    (h : s.addMove move = .ok r) :
    r.1 = move.setId s.m_allMoves.length ∧ r.2.m_allMoves = s.m_allMoves ++ [r.1] ∧
      r.2.m_movesByPosition = s.m_movesByPosition := by
  unfold Solver.addMove at h
  simp only [bind_eq_ok] at h
  obtain ⟨_, _, _, _, _, _, h⟩ := h
  rw [pure_eq_ok] at h
  rw [← h]
  exact ⟨rfl, rfl, rfl⟩

/-- What `addMovesLoop` does with the eight slides of a cell: a dead slide stays as it is, a
live slide gets its index in `m_allMoves` as id and is appended there, and its end is
pushed to the queue. -/
theorem addMovesLoop_spec :
    ∀ (l : List Move) (s : Solver) (slots : List Move) (s' : Solver) (ends : List Coords2),
      Solver.addMovesLoop s l = .ok (slots, s', ends) →
      List.Forall₂ (fun (m0 slot : Move) => slot.SameSlide m0 ∧
          (m0.startPos = m0.endPos → slot = m0) ∧
          (m0.startPos ≠ m0.endPos → ∃ k, s.m_allMoves.length ≤ k ∧
            s'.m_allMoves.get? k = some slot ∧ slot.id = wrap16 k)) l slots ∧
        s'.m_allMoves = s.m_allMoves ++ slots.filter (fun m => m.startPos ≠ m.endPos) ∧
        ends = (slots.filter (fun m => m.startPos ≠ m.endPos)).map Move.endPos ∧
        s'.m_movesByPosition = s.m_movesByPosition ∧ s'.m_level = s.m_level ∧
        s'.m_jewelIdByPosition = s.m_jewelIdByPosition ∧
        s'.m_vehicleCoords = s.m_vehicleCoords := by
  intro l
  induction l with
  | nil =>
    intro s slots s' ends h
    simp only [Solver.addMovesLoop] at h
    cases h
    exact ⟨List.Forall₂.nil, by simp, rfl, rfl, rfl, rfl, rfl⟩
  | cons move rest ih =>
    intro s slots s' ends h
    rw [Solver.addMovesLoop] at h
    by_cases hdead : move.startPos = move.endPos
    · rw [if_pos hdead] at h
      simp only [bind_eq_ok] at h
      obtain ⟨⟨slots1, s1, ends1⟩, h1, h2⟩ := h
      rw [pure_eq_ok] at h2
      cases h2
      obtain ⟨f, ha, he, hrest⟩ := ih s slots1 s1 ends1 h1
      refine ⟨List.Forall₂.cons ⟨⟨rfl, rfl, rfl⟩, fun _ => rfl, fun hn => absurd hdead hn⟩ f,
        ?_, ?_, hrest⟩
      · rw [ha, List.filter_cons_of_neg (by simpa using hdead)]
      · rw [he, List.filter_cons_of_neg (by simpa using hdead)]
    · rw [if_neg hdead] at h
      simp only [bind_eq_ok] at h
      obtain ⟨⟨m1, s1⟩, hadd, ⟨slots1, s2, ends1⟩, h1, h2⟩ := h
      rw [pure_eq_ok] at h2
      cases h2
      obtain ⟨e1, e2, e3⟩ := addMove_spec hadd
      obtain ⟨g1, g2, g3, g4⟩ := addMove_frame hadd
      obtain ⟨f, ha, he, hp, hl, hi, hv⟩ := ih s1 slots1 s2 ends1 h1
      have e1' : m1 = move.setId s.m_allMoves.length := e1
      have e2' : s1.m_allMoves = s.m_allMoves ++ [m1] := e2
      have e3' : s1.m_movesByPosition = s.m_movesByPosition := e3
      have g1' : s1.m_level = s.m_level := g1
      have g3' : s1.m_jewelIdByPosition = s.m_jewelIdByPosition := g3
      have g4' : s1.m_vehicleCoords = s.m_vehicleCoords := g4
      clear e1 e2 e3 g1 g2 g3 g4
      have hs1 : m1.startPos = move.startPos := by simp only [e1', Move.setId]
      have hs2 : m1.endPos = move.endPos := by simp only [e1', Move.setId]
      have hs3 : m1.jewels = move.jewels := by simp only [e1', Move.setId]
      have hs4 : m1.id = wrap16 s.m_allMoves.length := by simp only [e1', Move.setId]
      have hlive1 : m1.startPos ≠ m1.endPos := by rw [hs1, hs2]; exact hdead
      refine ⟨List.Forall₂.cons ⟨?_, ?_, ?_⟩ ?_, ?_, ?_, ?_⟩
      · exact ⟨hs1, hs2, hs3⟩
      · intro hn; exact absurd hn hdead
      · intro _
        refine ⟨s.m_allMoves.length, le_refl _, ?_, hs4⟩
        rw [ha, e2', List.append_assoc, List.get?_eq_getElem?,
          List.getElem?_append_right (le_refl _)]
        simp
      · refine f.imp ?_
        intro m0 slot ⟨a1, a2, a3⟩
        refine ⟨a1, a2, fun hn => ?_⟩
        obtain ⟨k, hk, hk2⟩ := a3 hn
        refine ⟨k, ?_, hk2⟩
        rw [e2', List.length_append] at hk
        have : ([m1] : List Move).length = 1 := rfl
        omega
      · rw [ha, e2', List.filter_cons_of_pos (by simpa using hlive1)]
        simp
      · rw [he, List.filter_cons_of_pos (by simpa using hlive1)]
        rfl
      · exact ⟨hp.trans e3', hl.trans g1', hi.trans g3', hv.trans g4'⟩

theorem slideFrom_start {level : Level} {ids : Array2 Int} {c : Coords2} {d : Direction}
    {m : Move} (h : slideFrom level ids c d = .ok m) :
    m.startPos = c ∧ m.id = -1 := by
  unfold slideFrom at h
  cases hg : level.board.get? c.x c.y with
  | none => rw [hg] at h; cases h
  | some cell0 =>
    rw [hg] at h
    have h' : slide level ids c (DirectionHelper.offset d) (slideFuel level)
        (rayCell c (DirectionHelper.offset d) 0)
        (if cell0 = .Jewel then [ids.values c.x c.y] else []) = .ok m := h
    obtain ⟨k, cell, _, _, _, _, hm⟩ := slide_ok_shape level ids c _ _ 0 _ m h'
    rw [hm]
    exact ⟨rfl, rfl⟩

/-- A ray whose cells are cells of the board is the ray in integer coordinates: a 16-bit
coordinate that wraps leaves the board. -/
theorem rayCell_eq_int_of_inBounds (b : Board) (c o : Coords2) (hc : c.Representable)
    (hox : o.x = -1 ∨ o.x = 0 ∨ o.x = 1) (hoy : o.y = -1 ∨ o.y = 0 ∨ o.y = 1) :
    ∀ k : Nat, (∀ j : Nat, j ≤ k → b.InBounds (rayCell c o j).x (rayCell c o j).y) →
      rayCell c o k = ⟨c.x + k * o.x, c.y + k * o.y⟩ := by
  intro k
  induction k with
  | zero =>
    intro _
    show c = _
    simp
  | succ k ih =>
    intro h
    have hk := ih (fun j hj => h j (by omega))
    have hin := h (k + 1) (le_refl _)
    have hink := h k (by omega)
    have hrep := rayCell_representable c o hc k
    have hstep : rayCell c o (k + 1) = (rayCell c o k).add o := rfl
    rw [hstep] at hin ⊢
    rw [hk] at hin hink hrep ⊢
    obtain ⟨h1, _, h3, _⟩ := hin
    obtain ⟨k1, _, k3, _⟩ := hink
    obtain ⟨r1, r2, r3, r4⟩ := hrep
    unfold Coords2.add Coords2.ofInts at h1 h3 ⊢
    simp only at h1 h3 k1 k3 r1 r2 r3 r4 ⊢
    have ex : c.x + (k : Int) * o.x + o.x = c.x + ((k + 1 : Nat) : Int) * o.x := by
      push_cast; ring
    have ey : c.y + (k : Int) * o.y + o.y = c.y + ((k + 1 : Nat) : Int) * o.y := by
      push_cast; ring
    have wx : wrap16 (c.x + (k : Int) * o.x + o.x) = c.x + (k : Int) * o.x + o.x := by
      unfold wrap16 at h1 ⊢
      omega
    have wy : wrap16 (c.y + (k : Int) * o.y + o.y) = c.y + (k : Int) * o.y + o.y := by
      unfold wrap16 at h3 ⊢
      omega
    rw [wx, wy, ex, ey]

/-- Live slides from one cell in two directions end on different cells. -/
theorem liveSlide_end_injective {level : Level} {ids : Array2 Int} {c : Coords2}
    {d d' : Direction} {m m' : Move} (hc : c.Representable)
    (h : LiveSlide level ids c d m) (h' : LiveSlide level ids c d' m')
    (he : m.endPos = m'.endPos) : d = d' := by
  obtain ⟨hd, hs, hl⟩ := h
  obtain ⟨hd', hs', hl'⟩ := h'
  obtain ⟨n, hn, hend, hin, _⟩ := slideFrom_jewels level ids c d m hc hs hl
  obtain ⟨n', hn', hend', hin', _⟩ := slideFrom_jewels level ids c d' m' hc hs' hl'
  obtain ⟨hox, hoy, _⟩ := offset_small hd
  obtain ⟨hox', hoy', _⟩ := offset_small hd'
  rw [hend, hend', rayCell_eq_int_of_inBounds level.board c _ hc hox hoy n hin,
    rayCell_eq_int_of_inBounds level.board c _ hc hox' hoy' n' hin'] at he
  simp only [Coords2.mk.injEq] at he
  obtain ⟨ex, ey⟩ := he
  have hnn : (1 : Int) ≤ n := by exact_mod_cast hn
  have hnn' : (1 : Int) ≤ n' := by exact_mod_cast hn'
  clear hin hin' hend hend' hs hs' hox hoy hox' hoy'
  have hv : ∀ e : Direction, e ∈ DirectionHelper.values → e ≠ .None := by
    intro e he h0
    subst h0
    revert he
    decide
  have h1 := hv d hd
  have h2 := hv d' hd'
  cases d <;> cases d' <;> first
    | rfl
    | exact absurd rfl h1
    | exact absurd rfl h2
    | (exfalso
       simp only [DirectionHelper.offset, Coords2.ofInts, wrap16] at ex ey
       omega)

/-- The slots that `addMoves` stores are, direction by direction, what `addMovesLoop` made
of the slides. -/
theorem slots_get (R : Move → Move → Prop) (ms : Moves) (slots : List Move)
    (h : List.Forall₂ R (DirectionHelper.values.map ms.get) slots) :
    ∀ d ∈ DirectionHelper.values, R (ms.get d) ((Moves.mk slots).get d) := by
  simp only [DirectionHelper.values, List.map] at h
  obtain ⟨a0, r0, h0, g0, e0⟩ := List.forall₂_cons_left_iff.1 h
  obtain ⟨a1, r1, h1, g1, e1⟩ := List.forall₂_cons_left_iff.1 g0
  obtain ⟨a2, r2, h2, g2, e2⟩ := List.forall₂_cons_left_iff.1 g1
  obtain ⟨a3, r3, h3, g3, e3⟩ := List.forall₂_cons_left_iff.1 g2
  obtain ⟨a4, r4, h4, g4, e4⟩ := List.forall₂_cons_left_iff.1 g3
  obtain ⟨a5, r5, h5, g5, e5⟩ := List.forall₂_cons_left_iff.1 g4
  obtain ⟨a6, r6, h6, g6, e6⟩ := List.forall₂_cons_left_iff.1 g5
  obtain ⟨a7, r7, h7, g7, e7⟩ := List.forall₂_cons_left_iff.1 g6
  rw [List.forall₂_nil_left_iff] at g7
  subst g7 e7 e6 e5 e4 e3 e2 e1 e0
  intro d hd
  simp only [DirectionHelper.values, List.mem_cons, List.mem_singleton, List.not_mem_nil,
    or_false] at hd
  rcases hd with rfl | rfl | rfl | rfl | rfl | rfl | rfl | rfl
  · exact h0
  · exact h1
  · exact h2
  · exact h3
  · exact h4
  · exact h5
  · exact h6
  · exact h7

/-- The slots in the order of the directions. -/
theorem slots_eq_map (slots : List Move) (h : slots.length = 8) :
    slots = DirectionHelper.values.map (Moves.mk slots).get := by
  match slots, h with
  | [a0, a1, a2, a3, a4, a5, a6, a7], _ => rfl

theorem Array2.at_eq_ok {α : Type} {a : Array2 α} {c : Coords2} {v : α}
    (h : a.at c = .ok v) : a.InBounds c.x c.y ∧ a.values c.x c.y = v := by
  unfold Array2.at Array2.read at h
  cases hg : a.get? c.x c.y with
  | none => rw [hg] at h; cases h
  | some w =>
    rw [hg] at h
    cases h
    exact Array2.get?_eq_some hg

theorem Array2.put_eq_ok {α : Type} {a a' : Array2 α} {c : Coords2} {v : α}
    (h : a.put c v = .ok a') :
    a.InBounds c.x c.y ∧ a'.width = a.width ∧ a'.height = a.height ∧
      ∀ i j, a'.values i j = if i = c.x ∧ j = c.y then v else a.values i j := by
  unfold Array2.put Array2.write Array2.set? at h
  by_cases hb : a.InBounds c.x c.y
  · rw [if_pos hb] at h
    cases h
    exact ⟨hb, rfl, rfl, fun _ _ => rfl⟩
  · rw [if_neg hb] at h
    cases h

theorem GenInv.skip {s0 s : Solver} {vis : Array2 Bool} {c : Coords2} {q : List Coords2}
    (h : GenInv s0 s vis (c :: q)) (hv : vis.values c.x c.y = true) : GenInv s0 s vis q where
  level := h.level
  ids := h.ids
  vehicle := h.vehicle
  moveIds := h.moveIds
  registered := h.registered
  slots := h.slots
  untouched := h.untouched
  ends := by
    intro m hm
    rcases h.ends m hm with h1 | h1
    · exact Or.inl h1
    · rcases List.mem_cons.1 h1 with h2 | h2
      · rw [h2]; exact Or.inl hv
      · exact Or.inr h2
  veh := by
    rcases h.veh with h1 | h1
    · exact Or.inl h1
    · rcases List.mem_cons.1 h1 with h2 | h2
      · rw [h2]; exact Or.inl hv
      · exact Or.inr h2
  reachVis := h.reachVis
  reachQueue := fun x hx => h.reachQueue x (List.mem_cons_of_mem _ hx)
  repVis := h.repVis
  repQueue := fun x hx => h.repQueue x (List.mem_cons_of_mem _ hx)
  once := h.once
  live := h.live
  dimsW := h.dimsW
  dimsH := h.dimsH
  nodeIds := h.nodeIds
  inB := h.inB

theorem addMove_moveIds (s : Solver) (move : Move) (r : Move × Solver)
    (hs : ∀ (i : Nat) (m : Move), s.m_allMoves.get? i = some m → m.id = wrap16 i)
    (h : s.addMove move = .ok r) :
    ∀ (i : Nat) (m : Move), r.2.m_allMoves.get? i = some m → m.id = wrap16 i := by
  obtain ⟨e1, e2, _⟩ := addMove_spec h
  intro i m hi
  rw [e2, List.get?_eq_getElem?] at hi
  by_cases hlt : i < s.m_allMoves.length
  · rw [List.getElem?_append_left hlt] at hi
    exact hs i m (by rw [List.get?_eq_getElem?]; exact hi)
  · rw [List.getElem?_append_right (by omega)] at hi
    have hi0 : i - s.m_allMoves.length = 0 := by
      by_contra hne
      rw [List.getElem?_eq_none (by simp; omega)] at hi
      cases hi
    rw [hi0] at hi
    simp only [List.getElem?_cons_zero, Option.some.injEq] at hi
    rw [← hi, e1]
    have : i = s.m_allMoves.length := by omega
    rw [this]
    simp only [Move.setId]

theorem addMoves_spec {s s' : Solver} {ms : Moves} {c : Coords2} {ends : List Coords2}
    (hadd : s.addMoves ms c = .ok (s', ends)) :
    ∃ slots : List Move,
      s'.m_allMoves = s.m_allMoves ++ slots.filter (fun m => m.startPos ≠ m.endPos) ∧
      ends = (slots.filter (fun m => m.startPos ≠ m.endPos)).map Move.endPos ∧
      slots = DirectionHelper.values.map (Moves.mk slots).get ∧
      (∀ d ∈ DirectionHelper.values, ((Moves.mk slots).get d).SameSlide (ms.get d) ∧
        ((ms.get d).startPos = (ms.get d).endPos → (Moves.mk slots).get d = ms.get d)) ∧
      s.m_movesByPosition.InBounds c.x c.y ∧
      (∀ i j, s'.m_movesByPosition.values i j =
        if i = c.x ∧ j = c.y then Moves.mk slots else s.m_movesByPosition.values i j) ∧
      ((∀ (i : Nat) (m : Move), s.m_allMoves.get? i = some m → m.id = wrap16 i) →
        ∀ (i : Nat) (m : Move), s'.m_allMoves.get? i = some m → m.id = wrap16 i) ∧
      s'.m_level = s.m_level ∧ s'.m_jewelIdByPosition = s.m_jewelIdByPosition ∧
      s'.m_vehicleCoords = s.m_vehicleCoords := by
  unfold Solver.addMoves at hadd
  simp only [bind_eq_ok] at hadd
  obtain ⟨⟨slots, s1, ends1⟩, hloop, byPos, hput, h⟩ := hadd
  rw [pure_eq_ok] at h
  cases h
  obtain ⟨F, ha, he, hp, hl, hi, hv⟩ := addMovesLoop_spec _ _ _ _ _ hloop
  obtain ⟨hb, _, _, hvals⟩ := Array2.put_eq_ok hput
  have hlen : slots.length = 8 := by
    rw [← F.length_eq]
    rfl
  have hget := slots_get _ ms slots F
  refine ⟨slots, ha, he, slots_eq_map slots hlen, ?_, ?_, ?_, ?_, hl, hi, hv⟩
  · intro d hd
    exact ⟨(hget d hd).1, (hget d hd).2.1⟩
  · rw [← hp]; exact hb
  · intro i j
    rw [← hp]
    exact hvals i j
  · intro hs
    exact addMovesLoop_preserves
      (fun t => ∀ (i : Nat) (m : Move), t.m_allMoves.get? i = some m → m.id = wrap16 i)
      addMove_moveIds _ s (slots, s1, ends1) hs hloop

theorem addMove_nodeIds {s : Solver} {move : Move} {r : Move × Solver}
    (h : s.addMove move = .ok r) :
    r.2.m_nodeIdByPosition = s.m_nodeIdByPosition ∧
      r.2.m_movesByPosition = s.m_movesByPosition := by
  unfold Solver.addMove at h
  simp only [bind_eq_ok] at h
  obtain ⟨_, _, _, _, _, _, h⟩ := h
  rw [pure_eq_ok] at h
  rw [← h]
  exact ⟨rfl, rfl⟩

theorem addMoves_dims {s s' : Solver} {ms : Moves} {c : Coords2} {ends : List Coords2}
    (hadd : s.addMoves ms c = .ok (s', ends)) :
    s'.m_movesByPosition.width = s.m_movesByPosition.width ∧
      s'.m_movesByPosition.height = s.m_movesByPosition.height ∧
      s'.m_nodeIdByPosition = s.m_nodeIdByPosition := by
  unfold Solver.addMoves at hadd
  simp only [bind_eq_ok] at hadd
  obtain ⟨⟨slots, s1, ends1⟩, h1, byPos, h2, h3⟩ := hadd
  rw [pure_eq_ok] at h3
  cases h3
  have hP := addMovesLoop_preserves
    (fun t => t.m_nodeIdByPosition = s.m_nodeIdByPosition ∧
      t.m_movesByPosition = s.m_movesByPosition)
    (fun t move r ht hr => ⟨(addMove_nodeIds hr).1.trans ht.1,
      (addMove_nodeIds hr).2.trans ht.2⟩) _ s (slots, s1, ends1) ⟨rfl, rfl⟩ h1
  obtain ⟨_, hw, hh, _⟩ := Array2.put_eq_ok h2
  refine ⟨?_, ?_, hP.1⟩
  · show byPos.width = _
    rw [hw, hP.2]
  · show byPos.height = _
    rw [hh, hP.2]

theorem GenInv.visit {s0 s s' : Solver} {vis vis' : Array2 Bool} {c : Coords2}
    {q ends : List Coords2} {ms : Moves}
    (h : GenInv s0 s vis (c :: q)) (hv : vis.values c.x c.y = false)
    (hput : vis.put c true = .ok vis')
    (hgen : generateMovesAt s.m_level s.m_jewelIdByPosition c = .ok ms)
    (hadd : s.addMoves ms c = .ok (s', ends)) : GenInv s0 s' vis' (q ++ ends) := by
  obtain ⟨slots, ha, he, hmap, hslot, hinb, hvals, hids, hl, hi, hveh⟩ := addMoves_spec hadd
  obtain ⟨_, _, _, hvis⟩ := Array2.put_eq_ok hput
  rw [h.level, h.ids] at hgen
  have hcrep : c.Representable := h.repQueue c (List.mem_cons_self _ _)
  -- the slides of the cell, direction by direction
  have hslide : ∀ d ∈ DirectionHelper.values,
      slideFrom s0.m_level s0.m_jewelIdByPosition c d = .ok (ms.get d) :=
    fun d hd => generateMovesAt_get hgen hd
  have hstart : ∀ d ∈ DirectionHelper.values, ((Moves.mk slots).get d).startPos = c :=
    fun d hd => ((hslot d hd).1.1).trans (slideFrom_start (hslide d hd)).1
  -- the new moves
  have hnew : ∀ m, m ∈ slots.filter (fun m => m.startPos ≠ m.endPos) ↔
      ∃ d ∈ DirectionHelper.values, m = (Moves.mk slots).get d ∧ m.startPos ≠ m.endPos := by
    intro m
    rw [List.mem_filter]
    constructor
    · rintro ⟨hm, hlive⟩
      rw [hmap, List.mem_map] at hm
      obtain ⟨d, hd, e⟩ := hm
      exact ⟨d, hd, e.symm, by simpa using hlive⟩
    · rintro ⟨d, hd, e, hlive⟩
      refine ⟨?_, by simpa using hlive⟩
      rw [hmap, List.mem_map]
      exact ⟨d, hd, e.symm⟩
  have hliveSlide : ∀ d ∈ DirectionHelper.values,
      ((Moves.mk slots).get d).startPos ≠ ((Moves.mk slots).get d).endPos →
      LiveSlide s0.m_level s0.m_jewelIdByPosition c d (ms.get d) := by
    intro d hd hlive
    refine ⟨hd, hslide d hd, ?_⟩
    rw [← (hslot d hd).1.1, ← (hslot d hd).1.2.1]
    exact hlive
  have hvisOld : ∀ x : Coords2, vis.values x.x x.y = true → ¬ (x.x = c.x ∧ x.y = c.y) := by
    intro x hx hxc
    rw [hxc.1, hxc.2, hv] at hx
    cases hx
  refine
    { level := hl.trans h.level
      ids := hi.trans h.ids
      vehicle := hveh.trans h.vehicle
      moveIds := hids h.moveIds
      registered := ?_
      slots := ?_
      untouched := ?_
      ends := ?_
      veh := ?_
      reachVis := ?_
      reachQueue := ?_
      repVis := ?_
      repQueue := ?_
      once := ?_
      live := ?_
      dimsW := (addMoves_dims hadd).1.trans h.dimsW
      dimsH := (addMoves_dims hadd).2.1.trans h.dimsH
      nodeIds := (addMoves_dims hadd).2.2.trans h.nodeIds
      inB := ?_ }
  · -- registered
    intro m hm
    rw [ha, List.mem_append] at hm
    rcases hm with hm | hm
    · obtain ⟨g1, d, hd, g2⟩ := h.registered m hm
      have hne := hvisOld m.startPos g1
      refine ⟨by rw [hvis, if_neg hne]; exact g1, d, hd, ?_⟩
      rw [hvals, if_neg hne]
      exact g2
    · obtain ⟨d, hd, e, _⟩ := (hnew m).1 hm
      have hs : m.startPos = c := by rw [e]; exact hstart d hd
      refine ⟨by rw [hvis, hs, if_pos ⟨rfl, rfl⟩], d, hd, ?_⟩
      rw [hvals, hs, if_pos ⟨rfl, rfl⟩]
      exact e.symm
  · -- slots
    intro x hx d hd
    by_cases hxc : x.x = c.x ∧ x.y = c.y
    · have hxe : x = c := by
        cases x; cases c
        simp only at hxc
        rw [hxc.1, hxc.2]
      subst hxe
      refine ⟨ms.get d, hslide d hd, ?_, ?_, ?_⟩
      · rw [hvals, if_pos ⟨rfl, rfl⟩]
        exact (hslot d hd).1
      · rw [hvals, if_pos ⟨rfl, rfl⟩]
        exact (hslot d hd).2
      · intro hlive
        rw [hvals, if_pos ⟨rfl, rfl⟩, ha, List.mem_append]
        refine Or.inr ((hnew _).2 ⟨d, hd, rfl, ?_⟩)
        rw [(hslot d hd).1.1, (hslot d hd).1.2.1]
        exact hlive
    · rw [hvis, if_neg hxc] at hx
      obtain ⟨m0, g1, g2, g3, g4⟩ := h.slots x hx d hd
      refine ⟨m0, g1, ?_, ?_, ?_⟩
      · rw [hvals, if_neg hxc]; exact g2
      · rw [hvals, if_neg hxc]; exact g3
      · intro hlive
        rw [hvals, if_neg hxc, ha, List.mem_append]
        exact Or.inl (g4 hlive)
  · -- untouched
    intro x y hxy
    rw [hvis] at hxy
    by_cases hxc : x = c.x ∧ y = c.y
    · rw [if_pos hxc] at hxy
      cases hxy
    · rw [if_neg hxc] at hxy
      rw [hvals, if_neg hxc]
      exact h.untouched x y hxy
  · -- ends
    intro m hm
    rw [ha, List.mem_append] at hm
    rcases hm with hm | hm
    · rcases h.ends m hm with g | g
      · exact Or.inl (by
          rw [hvis]
          by_cases hxc : m.endPos.x = c.x ∧ m.endPos.y = c.y
          · rw [if_pos hxc]
          · rw [if_neg hxc]; exact g)
      · rcases List.mem_cons.1 g with g | g
        · exact Or.inl (by rw [hvis, g, if_pos ⟨rfl, rfl⟩])
        · exact Or.inr (List.mem_append_left _ g)
    · refine Or.inr (List.mem_append_right _ ?_)
      rw [he]
      exact List.mem_map_of_mem _ hm
  · -- veh
    rcases h.veh with g | g
    · exact Or.inl (by
        rw [hvis]
        by_cases hxc : s0.m_vehicleCoords.x = c.x ∧ s0.m_vehicleCoords.y = c.y
        · rw [if_pos hxc]
        · rw [if_neg hxc]; exact g)
    · rcases List.mem_cons.1 g with g | g
      · exact Or.inl (by rw [hvis, g, if_pos ⟨rfl, rfl⟩])
      · exact Or.inr (List.mem_append_left _ g)
  · -- reachVis
    intro x hx
    by_cases hxc : x.x = c.x ∧ x.y = c.y
    · have hxe : x = c := by
        cases x; cases c
        simp only at hxc
        rw [hxc.1, hxc.2]
      rw [hxe]
      exact h.reachQueue c (List.mem_cons_self _ _)
    · rw [hvis, if_neg hxc] at hx
      exact h.reachVis x hx
  · -- reachQueue
    intro x hx
    rcases List.mem_append.1 hx with hx | hx
    · exact h.reachQueue x (List.mem_cons_of_mem _ hx)
    · rw [he, List.mem_map] at hx
      obtain ⟨m, hm, rfl⟩ := hx
      obtain ⟨d, hd, e, hlive⟩ := (hnew m).1 hm
      rw [e] at hlive ⊢
      rw [(hslot d hd).1.2.1]
      exact SlideReach.step (h.reachQueue c (List.mem_cons_self _ _)) (hliveSlide d hd hlive)
  · -- repVis
    intro x hx
    by_cases hxc : x.x = c.x ∧ x.y = c.y
    · have hxe : x = c := by
        cases x; cases c
        simp only at hxc
        rw [hxc.1, hxc.2]
      rw [hxe]
      exact hcrep
    · rw [hvis, if_neg hxc] at hx
      exact h.repVis x hx
  · -- repQueue
    intro x hx
    rcases List.mem_append.1 hx with hx | hx
    · exact h.repQueue x (List.mem_cons_of_mem _ hx)
    · rw [he, List.mem_map] at hx
      obtain ⟨m, hm, rfl⟩ := hx
      obtain ⟨d, hd, e, hlive⟩ := (hnew m).1 hm
      rw [e] at hlive ⊢
      obtain ⟨_, hsl, hl2⟩ := hliveSlide d hd hlive
      obtain ⟨n, _, hend, _, _⟩ := slideFrom_jewels _ _ c d _ hcrep hsl hl2
      rw [(hslot d hd).1.2.1, hend]
      exact rayCell_representable c _ hcrep n
  · -- once
    rw [ha, List.map_append, List.nodup_append]
    refine ⟨h.once, ?_, ?_⟩
    · have e1 : slots.filter (fun m => m.startPos ≠ m.endPos) =
          (DirectionHelper.values.filter (fun d =>
            ((Moves.mk slots).get d).startPos ≠ ((Moves.mk slots).get d).endPos)).map
            (Moves.mk slots).get := by
        conv_lhs => rw [hmap]
        rw [List.filter_map]
        rfl
      rw [e1, List.map_map]
      refine List.Nodup.map_on ?_ ((by decide : DirectionHelper.values.Nodup).filter _)
      intro d hd d' hd' hpair
      rw [List.mem_filter] at hd hd'
      simp only [Function.comp, Prod.mk.injEq] at hpair
      have l1 := hliveSlide d hd.1 (by simpa using hd.2)
      have l2 := hliveSlide d' hd'.1 (by simpa using hd'.2)
      refine liveSlide_end_injective hcrep l1 l2 ?_
      rw [← (hslot d hd.1).1.2.1, ← (hslot d' hd'.1).1.2.1]
      exact hpair.2
    · intro p hp1 hp2
      rw [List.mem_map] at hp1 hp2
      obtain ⟨m1, hm1, rfl⟩ := hp1
      obtain ⟨m2, hm2, e2⟩ := hp2
      obtain ⟨d, hd, e, _⟩ := (hnew m2).1 hm2
      have hs2 : m2.startPos = c := by rw [e]; exact hstart d hd
      simp only [Prod.mk.injEq] at e2
      have g := (h.registered m1 hm1).1
      rw [← e2.1, hs2, hv] at g
      cases g
  · -- live
    intro m hm
    rw [ha, List.mem_append] at hm
    rcases hm with hm | hm
    · exact h.live m hm
    · exact ((hnew m).1 hm).choose_spec.2.2
  · -- inB
    intro x hx
    by_cases hxc : x.x = c.x ∧ x.y = c.y
    · obtain ⟨b1, b2, b3, b4⟩ := hinb
      rw [h.dimsW] at b2
      rw [h.dimsH] at b4
      rw [hxc.1, hxc.2]
      exact ⟨b1, b2, b3, b4⟩
    · rw [hvis, if_neg hxc] at hx
      exact h.inB x hx

theorem generateAllMovesLoop_inv {s0 : Solver} : ∀ (fuel : Nat) (s : Solver)
    (vis : Array2 Bool) (queue : List Coords2) (s' : Solver), GenInv s0 s vis queue →
    Solver.generateAllMovesLoop fuel s vis queue = .ok s' →
    ∃ vis' : Array2 Bool, GenInv s0 s' vis' [] ∧
      (∀ x y, vis.values x y = true → vis'.values x y = true) := by
  intro fuel
  induction fuel with
  | zero =>
    intro s vis queue s' hs h
    cases queue with
    | nil =>
      simp only [Solver.generateAllMovesLoop] at h
      cases h
      exact ⟨vis, hs, fun _ _ g => g⟩
    | cons c q => simp [Solver.generateAllMovesLoop] at h
  | succ fuel ih =>
    intro s vis queue s' hs h
    cases queue with
    | nil =>
      simp only [Solver.generateAllMovesLoop] at h
      cases h
      exact ⟨vis, hs, fun _ _ g => g⟩
    | cons c q =>
      rw [Solver.generateAllMovesLoop] at h
      simp only [bind_eq_ok] at h
      obtain ⟨visited, hat, h⟩ := h
      obtain ⟨_, hval⟩ := Array2.at_eq_ok hat
      by_cases hv : visited = true
      · rw [if_pos hv] at h
        exact ih s vis q s' (hs.skip (hval.trans hv)) h
      · rw [if_neg hv] at h
        simp only [bind_eq_ok] at h
        obtain ⟨vis1, hput, moves, hgen, r, hr, h⟩ := h
        have hv' : vis.values c.x c.y = false := by
          rw [hval]
          cases visited
          · rfl
          · exact absurd rfl hv
        obtain ⟨vis', g1, g2⟩ := ih r.1 vis1 (q ++ r.2) s' (hs.visit hv' hput hgen hr) h
        refine ⟨vis', g1, fun x y g => g2 x y ?_⟩
        rw [(Array2.put_eq_ok hput).2.2.2]
        split
        · rfl
        · exact g

/-- The solver state at the call of `generateAllMoves` satisfies the loop reading when no
move is registered yet and the vehicle cell is a pair of 16-bit values. -/
theorem GenInv.init {s0 : Solver} (hm : s0.m_allMoves = [])
    (hrep : s0.m_vehicleCoords.Representable) :
    GenInv s0 s0 (Array2.filled s0.m_level.width s0.m_level.height false)
      [s0.m_vehicleCoords] where
  level := rfl
  ids := rfl
  vehicle := rfl
  moveIds := by intro i m h; rw [hm] at h; cases h
  registered := by intro m h; rw [hm] at h; cases h
  slots := by intro c h; cases h
  untouched := fun _ _ _ => rfl
  ends := by intro m h; rw [hm] at h; cases h
  veh := Or.inr (List.mem_singleton_self _)
  reachVis := by intro c h; cases h
  reachQueue := by
    intro c h
    rw [List.mem_singleton] at h
    rw [h]
    exact SlideReach.refl
  repVis := by intro c h; cases h
  repQueue := by
    intro c h
    rw [List.mem_singleton] at h
    rw [h]
    exact hrep
  once := by rw [hm]; exact List.nodup_nil
  live := by intro m h; rw [hm] at h; cases h
  dimsW := rfl
  dimsH := rfl
  nodeIds := rfl
  inB := by intro c h; cases h

theorem generateAllMoves_inv {s0 s' : Solver} (hm : s0.m_allMoves = [])
    (hrep : s0.m_vehicleCoords.Representable) (h : s0.generateAllMoves = .ok s') :
    ∃ vis : Array2 Bool, GenInv s0 s' vis [] := by
  obtain ⟨vis, g, _⟩ := generateAllMovesLoop_inv _ _ _ _ _ (GenInv.init hm hrep) h
  exact ⟨vis, g⟩

/-- When the queue is empty, the visited cells are closed under live slides. -/
theorem GenInv.closed {s0 s : Solver} {vis : Array2 Bool} (h : GenInv s0 s vis []) :
    ∀ c : Coords2, SlideReach s0.m_level s0.m_jewelIdByPosition s0.m_vehicleCoords c →
      vis.values c.x c.y = true := by
  intro c hc
  induction hc with
  | refl =>
    rcases h.veh with g | g
    · exact g
    · cases g
  | @step c d m _ hl ih =>
    obtain ⟨hd, hs, hlive⟩ := hl
    obtain ⟨m0, g1, g2, _, g4⟩ := h.slots c ih d hd
    rw [hs] at g1
    cases g1
    rcases h.ends _ (g4 hlive) with g | g
    · rw [g2.2.1] at g
      exact g
    · cases g

/-- A live slide ends on a Hole, or on a cell whose neighbour in the direction of the slide
is a Wall; its direction, as `Move::direction` computes it, is the direction of the walk. -/
theorem slideFrom_stop {level : Level} {ids : Array2 Int} {c : Coords2} {d : Direction}
    {m : Move} (hc : c.Representable)
    (hm : slideFrom level ids c d = .ok m) (hlive : m.startPos ≠ m.endPos) :
    level.board.get? m.endPos.x m.endPos.y = some .Hole ∨
      level.board.get? (m.endPos.add (DirectionHelper.offset d)).x
        (m.endPos.add (DirectionHelper.offset d)).y = some .Wall := by
  have hs := (slideFrom_start hm).1
  unfold slideFrom at hm
  cases hg : level.board.get? c.x c.y with
  | none => rw [hg] at hm; cases hm
  | some cell0 =>
    rw [hg] at hm
    simp only at hm
    obtain ⟨k, cell, hk, _, hcell, hstop, hmk⟩ :=
      slide_ok_shape level ids c (DirectionHelper.offset d) _ 0 _ m hm
    have hend : m.endPos = (if cell = .Wall then (rayCell c (DirectionHelper.offset d) k).sub
        (DirectionHelper.offset d) else if cell = .Mine then c
        else rayCell c (DirectionHelper.offset d) k) := by
      rw [hmk]; rfl
    by_cases hw : cell = .Wall
    · right
      rw [if_pos hw] at hend
      obtain ⟨k', rfl⟩ : ∃ k', k = k' + 1 := ⟨k - 1, by omega⟩
      have e : (rayCell c (DirectionHelper.offset d) (k' + 1)).sub (DirectionHelper.offset d) =
          rayCell c (DirectionHelper.offset d) k' :=
        Coords2.add_sub_cancel _ (rayCell_representable c _ hc k')
      rw [hend, e]
      rw [← hw]
      exact hcell
    · rw [if_neg hw] at hend
      by_cases hmine : cell = .Mine
      · rw [if_pos hmine] at hend
        rw [hs, hend] at hlive
        exact absurd rfl hlive
      · rw [if_neg hmine] at hend
        left
        rcases hstop with g | g | g
        · exact absurd g hw
        · exact absurd g hmine
        · rw [hend, ← g]
          exact hcell

theorem slideFrom_direction {level : Level} {ids : Array2 Int} {c : Coords2} {d : Direction}
    {m : Move} (hc : c.Representable) (hd : d ∈ DirectionHelper.values)
    (hm : slideFrom level ids c d = .ok m) (hlive : m.startPos ≠ m.endPos) :
    m.direction = d := by
  have hs := (slideFrom_start hm).1
  obtain ⟨n, hn, hend, hin, _⟩ := slideFrom_jewels level ids c d m hc hm hlive
  obtain ⟨hox, hoy, _⟩ := offset_small hd
  have hint := rayCell_eq_int_of_inBounds level.board c _ hc hox hoy n hin
  have hrep := rayCell_representable c (DirectionHelper.offset d) hc n
  have hb0 := hin 0 (Nat.zero_le _)
  have hbn := hin n (le_refl _)
  rw [hint] at hrep hbn
  obtain ⟨r1, r2, r3, r4⟩ := hrep
  obtain ⟨b1, b2, b3, b4⟩ := hbn
  obtain ⟨a1, a2, a3, a4⟩ := hb0
  obtain ⟨c1, c2, c3, c4⟩ := hc
  simp only [rayCell] at a1 a2 a3 a4
  simp only at r1 r2 r3 r4 b1 b2 b3 b4
  unfold Move.direction
  rw [hs, hend, hint]
  have hn' : (1 : Int) ≤ n := by exact_mod_cast hn
  have ex : wrap16 (c.x + n * (DirectionHelper.offset d).x - c.x) =
      n * (DirectionHelper.offset d).x := by
    rw [wrap16_of_range (by omega) (by omega)]; omega
  have ey : wrap16 (c.y + n * (DirectionHelper.offset d).y - c.y) =
      n * (DirectionHelper.offset d).y := by
    rw [wrap16_of_range (by omega) (by omega)]; omega
  have sx : sign ((n : Int) * (DirectionHelper.offset d).x) = (DirectionHelper.offset d).x := by
    unfold sign
    rcases hox with g | g | g <;> rw [g] <;> split_ifs <;> omega
  have sy : sign ((n : Int) * (DirectionHelper.offset d).y) = (DirectionHelper.offset d).y := by
    unfold sign
    rcases hoy with g | g | g <;> rw [g] <;> split_ifs <;> omega
  unfold DirectionHelper.fromDisplacement
  simp only [Coords2.sub, Coords2.sign, Coords2.ofInts, ex, ey, sx, sy]
  simp only [DirectionHelper.values, List.mem_cons, List.mem_singleton, List.not_mem_nil,
    or_false] at hd
  rcases hd with rfl | rfl | rfl | rfl | rfl | rfl | rfl | rfl <;> decide

theorem generated_of_isGenerated {level : Level} (h : isGenerated level = true) :
    (identified level).generateAllMoves = .ok (generated level) := by
  unfold isGenerated at h
  unfold generated
  split at h
  · rename_i s hs
    rw [hs]
  · cases h

theorem countP_le_one_of_nodup_map {α β : Type} [DecidableEq β] (f : α → β) (p : α → Bool)
    (b : β) (hp : ∀ a, p a = true → f a = b) :
    ∀ l : List α, (l.map f).Nodup → l.countP p ≤ 1 := by
  intro l hl
  have h1 : l.countP p ≤ l.countP (fun a => decide (f a = b)) := by
    apply List.countP_mono_left
    intro a _ ha
    simpa using hp a ha
  have h2 : (l.map f).count b ≤ 1 := List.nodup_iff_count_le_one.1 hl b
  have h3 : (l.map f).count b = l.countP (fun a => decide (f a = b)) := by
    rw [List.count, List.countP_map]
    congr 1
  omega

/-- **C17.** After `generateAllMoves`, called with no move registered yet: the cells whose
moves were generated are the cells that zero or more live slides reach from the vehicle
cell.  For such a cell `c` and a direction `d`, slot `d` of `m_movesByPosition[c]` is the
slide `generateMovesAt(c)[d]` (up to the id that registration gives it), and `m_allMoves`
holds that slide once if it is live and not at all if it is dead; the slots of every other
cell are as they were before the call.  Every registered move is a live slide from such a
cell, and every live slide from the end of a registered move is registered. -/
theorem generateAllMoves_spec (s0 s' : Solver) (hm : s0.m_allMoves = [])
    (hrep : s0.m_vehicleCoords.Representable) (h : s0.generateAllMoves = .ok s') :
    (∀ c : Coords2, SlideReach s0.m_level s0.m_jewelIdByPosition s0.m_vehicleCoords c →
      ∀ d ∈ DirectionHelper.values, ∃ m0,
        slideFrom s0.m_level s0.m_jewelIdByPosition c d = .ok m0 ∧
        ((s'.m_movesByPosition.values c.x c.y).get d).SameSlide m0 ∧
        s'.m_allMoves.countP (fun m => decide (m.SameSlide m0)) =
          if m0.startPos = m0.endPos then 0 else 1) ∧
    (∀ c : Coords2, ¬ SlideReach s0.m_level s0.m_jewelIdByPosition s0.m_vehicleCoords c →
      s'.m_movesByPosition.values c.x c.y = s0.m_movesByPosition.values c.x c.y) ∧
    (∀ m ∈ s'.m_allMoves,
      SlideReach s0.m_level s0.m_jewelIdByPosition s0.m_vehicleCoords m.startPos ∧
      ∃ d m0, LiveSlide s0.m_level s0.m_jewelIdByPosition m.startPos d m0 ∧
        m.SameSlide m0) ∧
    (∀ m ∈ s'.m_allMoves, ∀ d m0,
      LiveSlide s0.m_level s0.m_jewelIdByPosition m.endPos d m0 →
      ∃ m1 ∈ s'.m_allMoves, m1.SameSlide m0) := by
  obtain ⟨vis, g⟩ := generateAllMoves_inv hm hrep h
  have hclosed := g.closed
  refine ⟨?_, ?_, ?_, ?_⟩
  · intro c hc d hd
    obtain ⟨m0, g1, g2, g3, g4⟩ := g.slots c (hclosed c hc) d hd
    refine ⟨m0, g1, g2, ?_⟩
    by_cases hdead : m0.startPos = m0.endPos
    · rw [if_pos hdead, List.countP_eq_zero]
      intro m hmem hs
      have hs' : m.SameSlide m0 := by simpa using hs
      exact g.live m hmem (by rw [hs'.1, hs'.2.1]; exact hdead)
    · rw [if_neg hdead]
      have hle := countP_le_one_of_nodup_map (fun m : Move => (m.startPos, m.endPos))
        (fun m => decide (m.SameSlide m0)) (m0.startPos, m0.endPos)
        (by
          intro a ha
          have ha' : a.SameSlide m0 := by simpa using ha
          show (a.startPos, a.endPos) = _
          rw [ha'.1, ha'.2.1])
        s'.m_allMoves g.once
      have hpos : 0 < s'.m_allMoves.countP (fun m => decide (m.SameSlide m0)) := by
        rw [List.countP_pos_iff]
        exact ⟨_, g4 hdead, by simpa using g2⟩
      omega
  · intro c hc
    apply g.untouched
    cases hv : vis.values c.x c.y with
    | false => rfl
    | true => exact absurd (g.reachVis c hv) hc
  · intro m hmem
    obtain ⟨g1, d, hd, g2⟩ := g.registered m hmem
    refine ⟨g.reachVis _ g1, ?_⟩
    obtain ⟨m0, e1, e2, _, _⟩ := g.slots m.startPos g1 d hd
    rw [g2] at e2
    refine ⟨d, m0, ⟨hd, e1, ?_⟩, e2⟩
    rw [← e2.1, ← e2.2.1]
    exact g.live m hmem
  · intro m hmem d m0 hl
    have hv : vis.values m.endPos.x m.endPos.y = true := by
      rcases g.ends m hmem with e | e
      · exact e
      · cases e
    obtain ⟨hd, hs, hlive⟩ := hl
    obtain ⟨m1, e1, e2, _, e4⟩ := g.slots m.endPos hv d hd
    rw [hs] at e1
    cases e1
    exact ⟨_, e4 hlive, e2⟩

theorem generateAllMoves_spec_witness :
    (∀ c : Coords2, SlideReach (identified minimalWalledLevel).m_level
        (identified minimalWalledLevel).m_jewelIdByPosition
        (identified minimalWalledLevel).m_vehicleCoords c →
      ∀ d ∈ DirectionHelper.values, ∃ m0,
        slideFrom (identified minimalWalledLevel).m_level
          (identified minimalWalledLevel).m_jewelIdByPosition c d = .ok m0 ∧
        (((generated minimalWalledLevel).m_movesByPosition.values c.x c.y).get d).SameSlide
          m0 ∧
        (generated minimalWalledLevel).m_allMoves.countP
            (fun m => decide (m.SameSlide m0)) =
          if m0.startPos = m0.endPos then 0 else 1) ∧
    (∀ c : Coords2, ¬ SlideReach (identified minimalWalledLevel).m_level
        (identified minimalWalledLevel).m_jewelIdByPosition
        (identified minimalWalledLevel).m_vehicleCoords c →
      (generated minimalWalledLevel).m_movesByPosition.values c.x c.y =
        (identified minimalWalledLevel).m_movesByPosition.values c.x c.y) ∧
    (∀ m ∈ (generated minimalWalledLevel).m_allMoves,
      SlideReach (identified minimalWalledLevel).m_level
        (identified minimalWalledLevel).m_jewelIdByPosition
        (identified minimalWalledLevel).m_vehicleCoords m.startPos ∧
      ∃ d m0, LiveSlide (identified minimalWalledLevel).m_level
          (identified minimalWalledLevel).m_jewelIdByPosition m.startPos d m0 ∧
        m.SameSlide m0) ∧
    (∀ m ∈ (generated minimalWalledLevel).m_allMoves, ∀ d m0,
      LiveSlide (identified minimalWalledLevel).m_level
        (identified minimalWalledLevel).m_jewelIdByPosition m.endPos d m0 →
      ∃ m1 ∈ (generated minimalWalledLevel).m_allMoves, m1.SameSlide m0) :=
  generateAllMoves_spec (identified minimalWalledLevel) (generated minimalWalledLevel)
    (by decide!) (by decide!) (generated_of_isGenerated (by decide!))

/-- **C18.** After `generateAllMoves`, called with no move registered yet: every move in
`m_allMoves` has `start ≠ end`, and its end is a Hole cell or a cell whose neighbour in
the direction of the move is a Wall.  Conversely, for every cell whose moves were generated
(the cells that live slides reach from the vehicle cell) and every direction, a slide of
`generateMovesAt` with `start = end` is stored in its slot as generated, with the id `-1`,
and is not in `m_allMoves`, nor is any move with its start, end and jewels. -/
theorem generateAllMoves_live (s0 s' : Solver) (hm : s0.m_allMoves = [])
    (hrep : s0.m_vehicleCoords.Representable) (h : s0.generateAllMoves = .ok s') :
    (∀ m ∈ s'.m_allMoves, m.startPos ≠ m.endPos ∧
      (s'.m_level.board.get? m.endPos.x m.endPos.y = some .Hole ∨
        s'.m_level.board.get? (m.endPos.add (DirectionHelper.offset m.direction)).x
          (m.endPos.add (DirectionHelper.offset m.direction)).y = some .Wall)) ∧
    (∀ c : Coords2, SlideReach s0.m_level s0.m_jewelIdByPosition s0.m_vehicleCoords c →
      ∀ d ∈ DirectionHelper.values, ∀ m0,
        slideFrom s0.m_level s0.m_jewelIdByPosition c d = .ok m0 →
        m0.startPos = m0.endPos →
        (s'.m_movesByPosition.values c.x c.y).get d = m0 ∧
          ((s'.m_movesByPosition.values c.x c.y).get d).id = invalidMoveId ∧
          (s'.m_movesByPosition.values c.x c.y).get d ∉ s'.m_allMoves ∧
          ∀ m ∈ s'.m_allMoves, ¬ m.SameSlide m0) := by
  obtain ⟨vis, g⟩ := generateAllMoves_inv hm hrep h
  refine ⟨?_, ?_⟩
  · intro m hmem
    refine ⟨g.live m hmem, ?_⟩
    obtain ⟨g1, d, hd, g2⟩ := g.registered m hmem
    obtain ⟨m0, e1, e2, _, _⟩ := g.slots m.startPos g1 d hd
    rw [g2] at e2
    have hl : m0.startPos ≠ m0.endPos := by
      rw [← e2.1, ← e2.2.1]
      exact g.live m hmem
    have hcr := g.repVis _ g1
    have hdir : m.direction = d := by
      have := slideFrom_direction hcr hd e1 hl
      unfold Move.direction at this ⊢
      rw [e2.1, e2.2.1]
      exact this
    rw [hdir, g.level, e2.2.1]
    exact slideFrom_stop hcr e1 hl
  · intro c hc d hd m0 hs hdead
    obtain ⟨m1, e1, _, e3, _⟩ := g.slots c (g.closed c hc) d hd
    rw [hs] at e1
    cases e1
    have hnot : ∀ m ∈ s'.m_allMoves, ¬ m.SameSlide m0 := by
      intro m hmem hsame
      exact g.live m hmem (by rw [hsame.1, hsame.2.1]; exact hdead)
    refine ⟨e3 hdead, ?_, ?_, hnot⟩
    · rw [e3 hdead]
      exact (slideFrom_start hs).2
    · rw [e3 hdead]
      intro hmem
      exact hnot m0 hmem ⟨rfl, rfl, rfl⟩

theorem generateAllMoves_live_witness :
    (∀ m ∈ (generated (holeStopLevel 2)).m_allMoves, m.startPos ≠ m.endPos ∧
      ((generated (holeStopLevel 2)).m_level.board.get? m.endPos.x m.endPos.y = some .Hole ∨
        (generated (holeStopLevel 2)).m_level.board.get?
          (m.endPos.add (DirectionHelper.offset m.direction)).x
          (m.endPos.add (DirectionHelper.offset m.direction)).y = some .Wall)) ∧
    (∀ c : Coords2, SlideReach (identified (holeStopLevel 2)).m_level
        (identified (holeStopLevel 2)).m_jewelIdByPosition
        (identified (holeStopLevel 2)).m_vehicleCoords c →
      ∀ d ∈ DirectionHelper.values, ∀ m0,
        slideFrom (identified (holeStopLevel 2)).m_level
          (identified (holeStopLevel 2)).m_jewelIdByPosition c d = .ok m0 →
        m0.startPos = m0.endPos →
        ((generated (holeStopLevel 2)).m_movesByPosition.values c.x c.y).get d = m0 ∧
          (((generated (holeStopLevel 2)).m_movesByPosition.values c.x c.y).get d).id =
            invalidMoveId ∧
          ((generated (holeStopLevel 2)).m_movesByPosition.values c.x c.y).get d ∉
            (generated (holeStopLevel 2)).m_allMoves ∧
          ∀ m ∈ (generated (holeStopLevel 2)).m_allMoves, ¬ m.SameSlide m0) :=
  generateAllMoves_live (identified (holeStopLevel 2)) (generated (holeStopLevel 2))
    (by decide!) (by decide!) (generated_of_isGenerated (by decide!))

/-- **C19, amended.** After `generateAllMoves`, called with no move registered yet, when
`m_allMoves` holds at most 32768 moves (the ids are 16-bit): the move at index `i` of
`m_allMoves` has the id `i`; and for every cell whose moves were generated (the cells that
live slides reach from the vehicle cell) and every direction, the move in the slot has an
id `≥ 0` if and only if it is in `m_allMoves`. -/
theorem generateAllMoves_ids (s0 s' : Solver) (hm : s0.m_allMoves = [])
    (hrep : s0.m_vehicleCoords.Representable) (h : s0.generateAllMoves = .ok s')
    (hlen : s'.m_allMoves.length ≤ 32768) :
    (∀ (i : Nat) (m : Move), s'.m_allMoves.get? i = some m → m.id = i) ∧
    (∀ c : Coords2, SlideReach s0.m_level s0.m_jewelIdByPosition s0.m_vehicleCoords c →
      ∀ d ∈ DirectionHelper.values,
        (0 ≤ ((s'.m_movesByPosition.values c.x c.y).get d).id ↔
          (s'.m_movesByPosition.values c.x c.y).get d ∈ s'.m_allMoves)) := by
  obtain ⟨vis, g⟩ := generateAllMoves_inv hm hrep h
  have hid : ∀ (i : Nat) (m : Move), s'.m_allMoves.get? i = some m → m.id = i := by
    intro i m hi
    have hlt : i < s'.m_allMoves.length := by
      rw [List.get?_eq_some] at hi
      exact hi.1
    rw [g.moveIds i m hi, wrap16_of_range (by omega) (by omega)]
  refine ⟨hid, ?_⟩
  intro c hc d hd
  obtain ⟨m0, e1, _, e3, e4⟩ := g.slots c (g.closed c hc) d hd
  constructor
  · intro hpos
    by_cases hdead : m0.startPos = m0.endPos
    · rw [e3 hdead, (slideFrom_start e1).2] at hpos
      omega
    · exact e4 hdead
  · intro hmem
    obtain ⟨i, hi⟩ := List.get?_of_mem hmem
    rw [hid i _ hi]
    omega

theorem generateAllMoves_ids_witness :
    (∀ (i : Nat) (m : Move), (generated (holeStopLevel 2)).m_allMoves.get? i = some m →
      m.id = i) ∧
    (∀ c : Coords2, SlideReach (identified (holeStopLevel 2)).m_level
        (identified (holeStopLevel 2)).m_jewelIdByPosition
        (identified (holeStopLevel 2)).m_vehicleCoords c →
      ∀ d ∈ DirectionHelper.values,
        (0 ≤ (((generated (holeStopLevel 2)).m_movesByPosition.values c.x c.y).get d).id ↔
          ((generated (holeStopLevel 2)).m_movesByPosition.values c.x c.y).get d ∈
            (generated (holeStopLevel 2)).m_allMoves)) :=
  generateAllMoves_ids (identified (holeStopLevel 2)) (generated (holeStopLevel 2))
    (by decide!) (by decide!) (generated_of_isGenerated (by decide!)) (by decide!)

/-- **C19, as stated, fails.** On the board of scenario "Hole stop" the corner `(0, 0)` is a
Wall that no slide reaches, so `generateAllMoves` never writes `m_movesByPosition[(0, 0)]`:
its slots are the value-initialised moves that the constructor of the table put there, with
the id 0.  The move in the slot North has an id `≥ 0` and is not in `m_allMoves`, whose four
moves are listed. -/
theorem generateAllMoves_ids_counterexample :
    (identified (holeStopLevel 2)).generateAllMoves = .ok (generated (holeStopLevel 2)) ∧
      ((generated (holeStopLevel 2)).m_movesByPosition.values 0 0).get .North =
        ⟨⟨0, 0⟩, ⟨0, 0⟩, 0, []⟩ ∧
      0 ≤ (((generated (holeStopLevel 2)).m_movesByPosition.values 0 0).get .North).id ∧
      ((generated (holeStopLevel 2)).m_movesByPosition.values 0 0).get .North ∉
        (generated (holeStopLevel 2)).m_allMoves ∧
      (generated (holeStopLevel 2)).m_allMoves =
        [⟨⟨1, 1⟩, ⟨4, 1⟩, 0, []⟩, ⟨⟨4, 1⟩, ⟨7, 1⟩, 1, [0]⟩, ⟨⟨4, 1⟩, ⟨1, 1⟩, 2, []⟩,
          ⟨⟨7, 1⟩, ⟨4, 1⟩, 3, [0]⟩] :=
  ⟨generated_of_isGenerated (by decide!), by decide!, by decide!, by decide!, by decide!⟩

theorem length_le_of_nodup_range (n : Nat) (l : List Int) (hl : l.Nodup)
    (hr : ∀ v ∈ l, 0 ≤ v ∧ v < n) : l.length ≤ n := by
  have h1 : l.toFinset ⊆ Finset.Ico (0 : Int) n := by
    intro v hv
    rw [List.mem_toFinset] at hv
    rw [Finset.mem_Ico]
    exact hr v hv
  have h2 := Finset.card_le_card h1
  rw [List.toFinset_card_of_nodup hl, Int.card_Ico] at h2
  simpa using h2

theorem Array2.at_ok {α : Type} {a : Array2 α} {c : Coords2} (h : a.InBounds c.x c.y) :
    a.at c = .ok (a.values c.x c.y) := by
  unfold Array2.at Array2.read Array2.get?
  rw [if_pos h]

theorem Array2.put_ok {α : Type} {a : Array2 α} {c : Coords2} (v : α)
    (h : a.InBounds c.x c.y) :
    a.put c v = .ok { a with values := fun i j => if i = c.x ∧ j = c.y then v else a.values i j } := by
  unfold Array2.put Array2.write Array2.set?
  rw [if_pos h]

theorem getD_toNat_set_ne (l : List Bool) (v w : Int) (hv : 0 ≤ v) (hw : 0 ≤ w) (hne : v ≠ w) :
    (l.set w.toNat true).getD v.toNat false = l.getD v.toNat false := by
  rw [List.getD_eq_getElem?_getD, List.getD_eq_getElem?_getD, List.getElem?_set_ne]
  omega

theorem getD_toNat_set_self (l : List Bool) (w : Int) (hw : w.toNat < l.length) :
    (l.set w.toNat true).getD w.toNat false = true := by
  rw [List.getD_eq_getElem?_getD, List.getElem?_set_self hw]
  rfl

theorem getD_append_lt (l : List Int) (w : Int) (i : Nat) (h : i < l.length) :
    (l ++ [w]).getD i 0 = l.getD i 0 := by
  rw [List.getD_eq_getElem?_getD, List.getD_eq_getElem?_getD, List.getElem?_append_left h]

theorem getD_append_length (l : List Int) (w : Int) :
    (l ++ [w]).getD l.length 0 = w := by
  rw [List.getD_eq_getElem?_getD, List.getElem?_append_right (le_refl _)]
  simp

theorem getD_mem (l : List Int) (i : Nat) (h : i < l.length) : l.getD i 0 ∈ l := by
  rw [List.getD_eq_getElem?_getD, List.getElem?_eq_getElem h]
  exact List.getElem_mem h

theorem exists_getD_of_mem (l : List Int) (v : Int) (h : v ∈ l) :
    ∃ i, i < l.length ∧ l.getD i 0 = v := by
  obtain ⟨i, hi, e⟩ := List.getElem_of_mem h
  refine ⟨i, hi, ?_⟩
  rw [List.getD_eq_getElem?_getD, List.getElem?_eq_getElem hi]
  exact e

theorem getD_set_true_of_true (l : List Bool) (k i : Nat) (h : l.getD i false = true) :
    (l.set k true).getD i false = true := by
  rw [List.getD_eq_getElem?_getD] at h ⊢
  by_cases hk : k = i
  · subst hk
    by_cases hl : k < l.length
    · rw [List.getElem?_set_self hl]; rfl
    · rw [List.getElem?_eq_none (by rw [List.length_set]; omega)]
      rw [List.getElem?_eq_none (by omega)] at h
      exact h
  · rw [List.getElem?_set_ne hk]
    exact h

theorem BfsInv.push {n : Nat} {source : Int} {moveEnds : List (List Int)} {dist0 : Array2 Int}
    {qb : Nat} {visited : List Bool} {dist : Array2 Int} {q ql : List Int} {w : Int}
    (h : BfsInv n source moveEnds dist0 qb visited dist q ql) (hqb : qb < ql.length)
    (hw0 : 0 ≤ w) (hwn : w < n) (hwv : visited.getD w.toNat false = false)
    (he : EndsEdge moveEnds (ql.getD qb 0) w) :
    ql.length < n ∧
    BfsInv n source moveEnds dist0 qb (visited.set w.toNat true)
      { dist with values := fun i j =>
          if i = source ∧ j = w then dist.values source (ql.getD qb 0) + 1
          else dist.values i j }
      (q.set ql.length w) (ql ++ [w]) := by
  have hnot : w ∉ ql := by
    intro hmem
    have := (h.node w hmem).2.2
    rw [hwv] at this
    cases this
  have hne : ∀ v ∈ ql, v ≠ w := fun v hv e => hnot (e ▸ hv)
  have hlen : ql.length < n := by
    have := length_le_of_nodup_range n (w :: ql) (List.nodup_cons.2 ⟨hnot, h.nodup⟩)
      (by
        intro v hv
        rcases List.mem_cons.1 hv with rfl | hv
        · exact ⟨hw0, hwn⟩
        · exact ⟨(h.node v hv).1, (h.node v hv).2.1⟩)
    simp only [List.length_cons] at this
    omega
  have hD : ∀ v, v ≠ w → (if source = source ∧ v = w then
      dist.values source (ql.getD qb 0) + 1 else dist.values source v) =
      dist.values source v := by
    intro v hv
    rw [if_neg (fun hh => hv hh.2)]
  have hDw : (if source = source ∧ w = w then
      dist.values source (ql.getD qb 0) + 1 else dist.values source w) =
      dist.values source (ql.getD qb 0) + 1 := if_pos ⟨rfl, rfl⟩
  have hgl : ∀ i, i < ql.length → (ql ++ [w]).getD i 0 = ql.getD i 0 :=
    fun i hi => getD_append_lt ql w i hi
  have hgw : (ql ++ [w]).getD ql.length 0 = w := getD_append_length ql w
  have hmemi : ∀ i, i < ql.length → ql.getD i 0 ∈ ql := fun i hi => getD_mem ql i hi
  have hwlt : w.toNat < visited.length := by rw [h.vlen]; omega
  refine ⟨hlen, ?_⟩
  refine
    { vlen := by rw [List.length_set]; exact h.vlen
      qlen := by rw [List.length_set]; exact h.qlen
      width := h.width
      height := h.height
      qpre := ?_
      bounds := by rw [List.length_append]; exact ⟨by omega, by omega⟩
      head := by rw [hgl 0 (by omega)]; exact h.head
      d0 := ?_
      node := ?_
      nodup := ?_
      queued := ?_
      mono := ?_
      near := ?_
      parent := ?_
      small := ?_
      closed := ?_
      rest := ?_
      rows := ?_ }
  · obtain ⟨t, ht⟩ := h.qpre
    have hq := h.qlen
    rw [ht, List.length_append] at hq
    cases t with
    | nil => simp at hq; omega
    | cons x t' =>
      refine ⟨t', ?_⟩
      rw [ht]
      simp [List.set_append]
  · show (if source = source ∧ source = w then _ else dist.values source source) = 0
    have : source ≠ w := by
      have := hmemi 0 (by omega)
      rw [h.head] at this
      exact hne _ this
    rw [if_neg (fun hh => this hh.2)]
    exact h.d0
  · intro v hv
    rcases List.mem_append.1 hv with hv | hv
    · obtain ⟨a, b, c⟩ := h.node v hv
      exact ⟨a, b, getD_set_true_of_true _ _ _ c⟩
    · rw [List.mem_singleton] at hv
      subst hv
      exact ⟨hw0, hwn, getD_toNat_set_self _ _ hwlt⟩
  · rw [List.nodup_append]
    refine ⟨h.nodup, List.nodup_singleton _, ?_⟩
    intro v hv1 hv2
    rw [List.mem_singleton] at hv2
    exact hne v hv1 hv2
  · intro v hv0 hvn hvis
    by_cases hvw : v = w
    · rw [hvw]; exact List.mem_append_right _ (List.mem_singleton_self _)
    · rw [getD_toNat_set_ne _ _ _ hv0 hw0 hvw] at hvis
      exact List.mem_append_left _ (h.queued v hv0 hvn hvis)
  · intro i j hij hj
    rw [List.length_append, List.length_singleton] at hj
    show (if source = source ∧ _ = w then _ else _) ≤ (if source = source ∧ _ = w then _ else _)
    by_cases hjl : j < ql.length
    · rw [hgl j hjl, hgl i (by omega), hD _ (hne _ (hmemi j hjl)),
        hD _ (hne _ (hmemi i (by omega)))]
      exact h.mono i j hij hjl
    · have hje : j = ql.length := by omega
      subst hje
      rw [hgw, hDw]
      by_cases hil : i < ql.length
      · rw [hgl i hil, hD _ (hne _ (hmemi i hil))]
        have := h.near qb i (le_refl _) hqb hil
        exact this
      · have hie : i = ql.length := by omega
        rw [hie, hgw, hDw]
  · intro i j hi hil hj
    rw [List.length_append, List.length_singleton] at hil hj
    show (if source = source ∧ _ = w then _ else _) ≤
      (if source = source ∧ _ = w then _ else _) + 1
    by_cases hjl : j < ql.length
    · rw [hgl j hjl, hD _ (hne _ (hmemi j hjl))]
      by_cases hil' : i < ql.length
      · rw [hgl i hil', hD _ (hne _ (hmemi i hil'))]
        exact h.near i j hi hil' hjl
      · have hie : i = ql.length := by omega
        rw [hie, hgw, hDw]
        have := h.near qb j (le_refl _) hqb hjl
        omega
    · have hje : j = ql.length := by omega
      rw [hje, hgw, hDw]
      by_cases hil' : i < ql.length
      · rw [hgl i hil', hD _ (hne _ (hmemi i hil'))]
        have := h.mono qb i hi hil'
        omega
      · have hie : i = ql.length := by omega
        rw [hie, hgw, hDw]
        omega
  · intro j hj0 hj
    rw [List.length_append, List.length_singleton] at hj
    by_cases hjl : j < ql.length
    · obtain ⟨i, hij, hedge, hd⟩ := h.parent j hj0 hjl
      refine ⟨i, hij, ?_, ?_⟩
      · rw [hgl j hjl, hgl i (by omega)]
        exact hedge
      · show (if source = source ∧ _ = w then _ else _) =
          (if source = source ∧ _ = w then _ else _) + 1
        rw [hgl j hjl, hgl i (by omega), hD _ (hne _ (hmemi j hjl)),
          hD _ (hne _ (hmemi i (by omega)))]
        exact hd
    · have hje : j = ql.length := by omega
      refine ⟨qb, by omega, ?_, ?_⟩
      · rw [hje, hgw, hgl qb hqb]
        exact he
      · show (if source = source ∧ _ = w then _ else _) =
          (if source = source ∧ _ = w then _ else _) + 1
        rw [hje, hgw, hDw, hgl qb hqb, hD _ (hne _ (hmemi qb hqb))]
  · intro j hj
    rw [List.length_append, List.length_singleton] at hj
    show 0 ≤ (if source = source ∧ _ = w then _ else _) ∧
      (if source = source ∧ _ = w then _ else _) ≤ (j : Int)
    by_cases hjl : j < ql.length
    · rw [hgl j hjl, hD _ (hne _ (hmemi j hjl))]
      exact h.small j hjl
    · have hje : j = ql.length := by omega
      rw [hje, hgw, hDw]
      have := h.small qb hqb
      constructor
      · omega
      · have : (qb : Int) < ql.length := by exact_mod_cast hqb
        omega
  · intro i hi w' hedge
    rw [hgl i (by omega)] at hedge ⊢
    obtain ⟨a, b⟩ := h.closed i hi w' hedge
    have hw' : w' ≠ w := by
      intro e
      rw [e, hwv] at a
      cases a
    refine ⟨getD_set_true_of_true _ _ _ a, ?_⟩
    show (if source = source ∧ _ = w then _ else _) ≤
      (if source = source ∧ _ = w then _ else _) + 1
    rw [hD _ hw', hD _ (hne _ (hmemi i (by omega)))]
    exact b
  · intro v hv0 hvn hvis
    have hvw : v ≠ w := by
      intro e
      rw [e, getD_toNat_set_self _ _ hwlt] at hvis
      cases hvis
    rw [getD_toNat_set_ne _ _ _ hv0 hw0 hvw] at hvis
    show (if source = source ∧ _ = w then _ else _) = _
    rw [hD _ hvw]
    exact h.rest v hv0 hvn hvis
  · intro a b ha
    show (if a = source ∧ b = w then _ else _) = _
    rw [if_neg (fun hh => ha hh.1)]
    exact h.rows a b ha

theorem fillDistancesVisit_spec {n : Nat} {source : Int} {moveEnds : List (List Int)}
    {dist0 : Array2 Int} {qb : Nat} {u : Int} (hn : n ≤ 65535)
    (hs0 : 0 ≤ source) (hsn : source < n) :
    ∀ (succs : List Int) (visited : List Bool) (dist : Array2 Int) (q ql : List Int),
      BfsInv n source moveEnds dist0 qb visited dist q ql →
      qb < ql.length → ql.getD qb 0 = u →
      (∀ w ∈ succs, 0 ≤ w ∧ w < n ∧ EndsEdge moveEnds u w) →
      ∃ visited' dist' q' ql',
        Solver.fillDistancesVisit source u succs (visited, dist, q, (ql.length : Int)) =
          .ok (visited', dist', q', (ql'.length : Int)) ∧
        BfsInv n source moveEnds dist0 qb visited' dist' q' ql' ∧
        (∃ t, ql' = ql ++ t) ∧
        (∀ v : Int, visited.getD v.toNat false = true →
          visited'.getD v.toNat false = true ∧
            dist'.values source v = dist.values source v) ∧
        (∀ w ∈ succs, visited'.getD w.toNat false = true ∧
          dist'.values source w ≤ dist'.values source u + 1) := by
  intro succs
  induction succs with
  | nil =>
    intro visited dist q ql h _ _ _
    exact ⟨visited, dist, q, ql, rfl, h, ⟨[], by simp⟩, fun v hv => ⟨hv, rfl⟩,
      fun w hw => by cases hw⟩
  | cons w rest ih =>
    intro visited dist q ql h hqb hu hsuccs
    obtain ⟨hw0, hwn, hedge⟩ := hsuccs w (List.mem_cons_self _ _)
    have hrest : ∀ w ∈ rest, 0 ≤ w ∧ w < n ∧ EndsEdge moveEnds u w :=
      fun x hx => hsuccs x (List.mem_cons_of_mem _ hx)
    have huv : visited.getD u.toNat false = true := by
      rw [← hu]
      exact (h.node _ (getD_mem ql qb hqb)).2.2
    obtain ⟨b, hb, hb'⟩ := @vecGet_ok _ visited w hw0 (by rw [h.vlen]; exact hwn)
    have hbD : visited.getD w.toNat false = b := by
      rw [List.getD_eq_getElem?_getD, ← List.get?_eq_getElem?, hb']
      rfl
    unfold Solver.fillDistancesVisit
    rw [hb, ok_bind]
    cases b with
    | true =>
      simp only [if_true]
      obtain ⟨visited', dist', q', ql', e, hinv, hpre, hkeep, hdone⟩ :=
        ih visited dist q ql h hqb hu hrest
      refine ⟨visited', dist', q', ql', e, hinv, hpre, hkeep, ?_⟩
      intro x hx
      rcases List.mem_cons.1 hx with rfl | hx
      · refine ⟨(hkeep x hbD).1, ?_⟩
        rw [(hkeep x hbD).2, (hkeep u huv).2]
        obtain ⟨j, hj, ej⟩ := exists_getD_of_mem ql x (h.queued x hw0 hwn hbD)
        have := h.near qb j (le_refl _) hqb hj
        rw [ej, hu] at this
        exact this
      · exact hdone x hx
    | false =>
      simp only [Bool.false_eq_true, if_false]
      obtain ⟨hlen, hpush⟩ := h.push hqb hw0 hwn hbD (by rw [hu]; exact hedge)
      have hsmall := h.small qb hqb
      rw [hu] at hsmall hpush
      have hun : 0 ≤ u ∧ u < n := by
        rw [← hu]
        exact ⟨(h.node _ (getD_mem ql qb hqb)).1, (h.node _ (getD_mem ql qb hqb)).2.1⟩
      rw [vecSet_ok true hw0 (by rw [h.vlen]; exact hwn), ok_bind]
      have hAt : dist.at ⟨source, u⟩ = .ok (dist.values source u) :=
        Array2.at_ok ⟨hs0, by rw [h.width]; exact hsn, hun.1, by rw [h.height]; exact hun.2⟩
      rw [hAt, ok_bind]
      have hwrap : wrapU16 (dist.values source u + 1) = dist.values source u + 1 := by
        unfold wrapU16
        have : (qb : Int) < ql.length := by exact_mod_cast hqb
        have : (ql.length : Int) < n := by exact_mod_cast hlen
        have : (n : Int) ≤ 65535 := by exact_mod_cast hn
        omega
      rw [hwrap, Array2.put_ok _
        ⟨hs0, by rw [h.width]; exact hsn, hw0, by rw [h.height]; exact hwn⟩, ok_bind]
      rw [vecSet_ok w (Int.natCast_nonneg _) (by rw [h.qlen]; exact_mod_cast hlen), ok_bind]
      have hcast : ((ql.length : Int) + 1) = ((ql ++ [w]).length : Int) := by
        rw [List.length_append, List.length_singleton]; push_cast; rfl
      rw [Int.toNat_ofNat, hcast]
      obtain ⟨visited', dist', q', ql', e, hinv, hpre, hkeep, hdone⟩ :=
        ih _ _ _ _ hpush (by rw [List.length_append]; omega)
          (by rw [getD_append_lt ql w qb hqb]; exact hu) hrest
      have hwnew : (visited.set w.toNat true).getD w.toNat false = true :=
        getD_toNat_set_self _ _ (by rw [h.vlen]; omega)
      have hune : u ≠ w := by
        intro e
        rw [e, hbD] at huv
        cases huv
      refine ⟨visited', dist', q', ql', e, hinv, ?_, ?_, ?_⟩
      · obtain ⟨t, ht⟩ := hpre
        exact ⟨w :: t, by rw [ht]; simp⟩
      · intro v hv
        have hv' := getD_set_true_of_true visited w.toNat v.toNat hv
        have hvw : v ≠ w := by
          intro e
          rw [e, hbD] at hv
          cases hv
        refine ⟨(hkeep v hv').1, ?_⟩
        rw [(hkeep v hv').2]
        show (if source = source ∧ v = w then _ else _) = _
        rw [if_neg (fun hh => hvw hh.2)]
      · intro x hx
        rcases List.mem_cons.1 hx with rfl | hx
        · refine ⟨(hkeep x hwnew).1, ?_⟩
          rw [(hkeep x hwnew).2,
            (hkeep u (getD_set_true_of_true visited x.toNat u.toNat huv)).2]
          show (if source = source ∧ x = x then _ else _) ≤
            (if source = source ∧ u = x then _ else _) + 1
          rw [if_pos ⟨rfl, rfl⟩, if_neg (fun hh => hune hh.2)]
        · exact hdone x hx

theorem BfsInv.advance {n : Nat} {source : Int} {moveEnds : List (List Int)}
    {dist0 : Array2 Int} {qb : Nat} {visited : List Bool} {dist : Array2 Int}
    {q ql : List Int} (h : BfsInv n source moveEnds dist0 qb visited dist q ql)
    (hqb : qb < ql.length)
    (hdone : ∀ w, EndsEdge moveEnds (ql.getD qb 0) w →
      visited.getD w.toNat false = true ∧
        dist.values source w ≤ dist.values source (ql.getD qb 0) + 1) :
    BfsInv n source moveEnds dist0 (qb + 1) visited dist q ql where
  vlen := h.vlen
  qlen := h.qlen
  width := h.width
  height := h.height
  qpre := h.qpre
  bounds := ⟨hqb, h.bounds.2⟩
  head := h.head
  d0 := h.d0
  node := h.node
  nodup := h.nodup
  queued := h.queued
  mono := h.mono
  near := fun i j hi => h.near i j (by omega)
  parent := h.parent
  small := h.small
  closed := by
    intro i hi w hw
    by_cases hiq : i < qb
    · exact h.closed i hiq w hw
    · have : i = qb := by omega
      subst this
      exact hdone w hw
  rest := h.rest
  rows := h.rows

theorem fillDistancesLoop_spec {n : Nat} {source : Int} {moveEnds : List (List Int)}
    {dist0 : Array2 Int} (hn : n ≤ 65535) (hs0 : 0 ≤ source) (hsn : source < n)
    (hme : moveEnds.length = n)
    (hmr : ∀ l ∈ moveEnds, ∀ b ∈ l, 0 ≤ b ∧ b < (n : Int)) :
    ∀ (fuel qb : Nat) (visited : List Bool) (dist : Array2 Int) (q ql : List Int),
      BfsInv n source moveEnds dist0 qb visited dist q ql → n ≤ fuel + qb →
      ∃ visited' dist' q' ql',
        Solver.fillDistancesLoop source moveEnds fuel (qb : Int)
          (visited, dist, q, (ql.length : Int)) = .ok dist' ∧
        BfsInv n source moveEnds dist0 ql'.length visited' dist' q' ql' := by
  intro fuel
  induction fuel with
  | zero =>
    intro qb visited dist q ql h hfuel
    have hle : ql.length ≤ n := by
      obtain ⟨t, ht⟩ := h.qpre
      have := h.qlen
      rw [ht, List.length_append] at this
      omega
    have hq : qb = ql.length := by have := h.bounds.1; omega
    subst hq
    refine ⟨visited, dist, q, ql, ?_, h⟩
    unfold Solver.fillDistancesLoop
    rw [if_pos rfl]
  | succ fuel ih =>
    intro qb visited dist q ql h hfuel
    unfold Solver.fillDistancesLoop
    by_cases hq : (qb : Int) = (ql.length : Int)
    · rw [if_pos hq]
      have hq' : qb = ql.length := by exact_mod_cast hq
      subst hq'
      exact ⟨visited, dist, q, ql, rfl, h⟩
    · rw [if_neg hq]
      have hqb : qb < ql.length := by
        have := h.bounds.1
        have : qb ≠ ql.length := fun e => hq (by rw [e])
        omega
      obtain ⟨t, ht⟩ := h.qpre
      have hqget : q.get? qb = some (ql.getD qb 0) := by
        rw [ht, List.get?_eq_getElem?, List.getElem?_append_left hqb,
          List.getD_eq_getElem?_getD, List.getElem?_eq_getElem hqb]
        rfl
      have hqlen : qb < q.length := by
        rw [ht, List.length_append]; omega
      have hvq : vecGet q (qb : Int) = .ok (ql.getD qb 0) := by
        unfold vecGet
        rw [if_pos (Int.natCast_nonneg _), Int.toNat_ofNat, hqget]
      rw [hvq, ok_bind]
      obtain ⟨hu0, hun, _⟩ := h.node _ (getD_mem ql qb hqb)
      obtain ⟨succs, hsuccs, hsuccs'⟩ := @vecGet_ok _ moveEnds (ql.getD qb 0) hu0
        (by rw [hme]; exact hun)
      rw [hsuccs, ok_bind]
      have hmem : succs ∈ moveEnds := List.get?_mem hsuccs'
      obtain ⟨visited', dist', q', ql', e, hinv, hpre, hkeep, hdone⟩ :=
        fillDistancesVisit_spec hn hs0 hsn succs visited dist q ql h hqb rfl
          (fun w hw => ⟨(hmr succs hmem w hw).1, (hmr succs hmem w hw).2,
            hu0, succs, hsuccs', hw⟩)
      rw [e, ok_bind]
      obtain ⟨t', ht'⟩ := hpre
      have hqb' : qb < ql'.length := by rw [ht', List.length_append]; omega
      have hsame : ql'.getD qb 0 = ql.getD qb 0 := by
        rw [ht', List.getD_eq_getElem?_getD, List.getD_eq_getElem?_getD,
          List.getElem?_append_left hqb]
      have hadv := hinv.advance hqb' (by
        intro w hw
        rw [hsame] at hw ⊢
        obtain ⟨_, l, hl, hwl⟩ := hw
        rw [hsuccs'] at hl
        cases hl
        exact hdone w hwl)
      have hcast : ((qb : Int) + 1) = ((qb + 1 : Nat) : Int) := by push_cast; rfl
      rw [hcast]
      exact ih (qb + 1) visited' dist' q' ql' hadv (by omega)

theorem BfsInv.final {n : Nat} {source : Int} {moveEnds : List (List Int)}
    {dist0 : Array2 Int} {visited : List Bool} {dist : Array2 Int} {q ql : List Int}
    (h : BfsInv n source moveEnds dist0 ql.length visited dist q ql)
    (hmr : ∀ l ∈ moveEnds, ∀ b ∈ l, 0 ≤ b ∧ b < (n : Int))
    (hinf : ∀ v, dist0.values source v = infiniteDistance) :
    dist.values source source = 0 ∧
    (∀ (v : Int) (k : Nat), WalkOf (EndsEdge moveEnds) k source v →
      WalkOf (EndsEdge moveEnds) (dist.values source v).toNat source v ∧
        0 ≤ dist.values source v ∧ dist.values source v ≤ k ∧
        dist.values source v < n) ∧
    (∀ v : Int, 0 ≤ v → v < n → (¬ ∃ k, WalkOf (EndsEdge moveEnds) k source v) →
      dist.values source v = infiniteDistance) := by
  have hlen : ql.length ≤ n := by
    obtain ⟨t, ht⟩ := h.qpre
    have := h.qlen
    rw [ht, List.length_append] at this
    omega
  have hsrc : source ∈ ql := by
    rw [← h.head]
    exact getD_mem ql 0 (by have := h.bounds.2; omega)
  have hwalk : ∀ j, j < ql.length →
      WalkOf (EndsEdge moveEnds) (dist.values source (ql.getD j 0)).toNat source
        (ql.getD j 0) := by
    intro j
    induction j using Nat.strong_induction_on with
    | _ j ih =>
      intro hj
      by_cases hj0 : j = 0
      · subst hj0
        rw [h.head, h.d0]
        exact WalkOf.zero source
      · obtain ⟨i, hij, hedge, hd⟩ := h.parent j (by omega) hj
        have hi := ih i hij (by omega)
        have hs := (h.small i (by omega)).1
        rw [hd]
        have : (dist.values source (ql.getD i 0) + 1).toNat =
            (dist.values source (ql.getD i 0)).toNat + 1 := by omega
        rw [this]
        exact WalkOf.step hi hedge
  have hreach : ∀ (k : Nat) (a v : Int), WalkOf (EndsEdge moveEnds) k a v → a = source →
      v ∈ ql ∧ dist.values source v ≤ k := by
    intro k a v hw
    induction hw with
    | zero a =>
      intro ha
      rw [ha]
      exact ⟨hsrc, by rw [h.d0]; exact le_refl _⟩
    | @step k a b c _ hedge ih =>
      intro ha
      obtain ⟨hb, hdb⟩ := ih ha
      obtain ⟨i, hi, ei⟩ := exists_getD_of_mem ql b hb
      rw [← ei] at hedge
      obtain ⟨hv, hd⟩ := h.closed i hi c hedge
      obtain ⟨_, l, hl, hcl⟩ := hedge
      obtain ⟨hc0, hcn⟩ := hmr l (List.get?_mem hl) c hcl
      refine ⟨h.queued c hc0 hcn hv, ?_⟩
      rw [ei] at hd
      push_cast
      omega
  refine ⟨h.d0, ?_, ?_⟩
  · intro v k hw
    obtain ⟨hv, hd⟩ := hreach k source v hw rfl
    obtain ⟨j, hj, ej⟩ := exists_getD_of_mem ql v hv
    have := hwalk j hj
    have hs := h.small j hj
    rw [ej] at this hs
    refine ⟨this, hs.1, hd, ?_⟩
    have : (j : Int) < ql.length := by exact_mod_cast hj
    have : (ql.length : Int) ≤ n := by exact_mod_cast hlen
    omega
  · intro v hv0 hvn hno
    cases hvis : visited.getD v.toNat false with
    | false =>
      rw [h.rest v hv0 hvn hvis]
      exact hinf v
    | true =>
      exfalso
      obtain ⟨j, hj, ej⟩ := exists_getD_of_mem ql v (h.queued v hv0 hvn hvis)
      have := hwalk j hj
      rw [ej] at this
      exact hno ⟨_, this⟩

theorem fillDistancesFromNode_spec {n : Nat} {dist : Array2 Int} {source : Int}
    {moveEnds : List (List Int)} {q : List Int} (hn : n ≤ 65535)
    (hs0 : 0 ≤ source) (hsn : source < n) (hme : moveEnds.length = n)
    (hmr : ∀ l ∈ moveEnds, ∀ b ∈ l, 0 ≤ b ∧ b < (n : Int))
    (hw : dist.width = n) (hh : dist.height = n) (hq : q.length = n)
    (hinf : ∀ v, dist.values source v = infiniteDistance) :
    ∃ dist', Solver.fillDistancesFromNode dist source moveEnds q = .ok dist' ∧
      dist'.width = n ∧ dist'.height = n ∧
      (∀ a b : Int, a ≠ source → dist'.values a b = dist.values a b) ∧
      dist'.values source source = 0 ∧
      (∀ (v : Int) (k : Nat), WalkOf (EndsEdge moveEnds) k source v →
        WalkOf (EndsEdge moveEnds) (dist'.values source v).toNat source v ∧
          0 ≤ dist'.values source v ∧ dist'.values source v ≤ k ∧
          dist'.values source v < n) ∧
      (∀ v : Int, 0 ≤ v → v < n → (¬ ∃ k, WalkOf (EndsEdge moveEnds) k source v) →
        dist'.values source v = infiniteDistance) := by
  have hnpos : 0 < n := by omega
  have hinit : BfsInv n source moveEnds dist 0
      ((List.replicate n false).set source.toNat true)
      { dist with values := fun i j => if i = source ∧ j = source then 0 else dist.values i j }
      (q.set 0 source) [source] := by
    have hsl : source.toNat < (List.replicate n false).length := by
      rw [List.length_replicate]; omega
    have hvis : ∀ v : Int, 0 ≤ v →
        ((List.replicate n false).set source.toNat true).getD v.toNat false = true →
        v = source := by
      intro v hv0 hv
      by_contra hne
      rw [getD_toNat_set_ne _ _ _ hv0 hs0 hne, List.getD_eq_getElem?_getD] at hv
      by_cases hvn : v.toNat < n
      · rw [List.getElem?_replicate_of_lt hvn] at hv
        cases hv
      · rw [List.getElem?_eq_none (by rw [List.length_replicate]; omega)] at hv
        cases hv
    refine
      { vlen := by rw [List.length_set, List.length_replicate]
        qlen := by rw [List.length_set]; exact hq
        width := hw
        height := hh
        qpre := ?_
        bounds := ⟨Nat.zero_le _, le_refl _⟩
        head := rfl
        d0 := if_pos ⟨rfl, rfl⟩
        node := ?_
        nodup := List.nodup_singleton _
        queued := ?_
        mono := ?_
        near := ?_
        parent := ?_
        small := ?_
        closed := ?_
        rest := ?_
        rows := ?_ }
    · cases q with
      | nil => simp at hq; omega
      | cons x t => exact ⟨t, rfl⟩
    · intro v hv
      rw [List.mem_singleton] at hv
      subst hv
      exact ⟨hs0, hsn, getD_toNat_set_self _ _ hsl⟩
    · intro v hv0 _ hv
      rw [hvis v hv0 hv]
      exact List.mem_singleton_self _
    · intro i j hij hj
      simp only [List.length_singleton] at hj
      have hi : i = 0 := by omega
      have hj' : j = 0 := by omega
      rw [hi, hj']
    · intro i j _ hi hj
      simp only [List.length_singleton] at hi hj
      have hi' : i = 0 := by omega
      have hj' : j = 0 := by omega
      rw [hi', hj']
      omega
    · intro j hj0 hj
      simp only [List.length_singleton] at hj
      omega
    · intro j hj
      simp only [List.length_singleton] at hj
      have hj' : j = 0 := by omega
      subst hj'
      show 0 ≤ (if source = source ∧ source = source then (0 : Int) else _) ∧
        (if source = source ∧ source = source then (0 : Int) else _) ≤ _
      rw [if_pos ⟨rfl, rfl⟩]
      exact ⟨le_refl _, le_refl _⟩
    · intro i hi
      omega
    · intro v hv0 _ hv
      have hne : v ≠ source := by
        intro e
        rw [e, getD_toNat_set_self _ _ hsl] at hv
        cases hv
      show (if source = source ∧ v = source then (0 : Int) else _) = _
      rw [if_neg (fun hh => hne hh.2)]
    · intro a b ha
      show (if a = source ∧ b = source then (0 : Int) else _) = _
      rw [if_neg (fun hh => ha hh.1)]
  obtain ⟨visited', dist', q', ql', e, hinv⟩ :=
    fillDistancesLoop_spec hn hs0 hsn hme hmr (n + 1) 0 _ _ _ _ hinit (by omega)
  refine ⟨dist', ?_, hinv.width, hinv.height, hinv.rows, ?_⟩
  · unfold Solver.fillDistancesFromNode
    have hb : dist.InBounds (⟨source, source⟩ : Coords2).x (⟨source, source⟩ : Coords2).y :=
      ⟨hs0, by rw [hw]; exact hsn, hs0, by rw [hh]; exact hsn⟩
    have htn : dist.width.toNat = n := by rw [hw]; rfl
    rw [Array2.put_ok _ hb, ok_bind,
      vecSet_ok source (le_refl _) (by rw [hq]; exact_mod_cast hnpos), ok_bind]
    dsimp only
    rw [htn, vecSet_ok true hs0 (by rw [List.length_replicate]; exact hsn), ok_bind]
    exact e
  · exact hinv.final hmr hinf

theorem DistRow.congr {n : Nat} {E : Int → Int → Prop} {dist dist' : Array2 Int} {a : Int}
    (h : DistRow n E dist a) (he : ∀ b, dist'.values a b = dist.values a b) :
    DistRow n E dist' a := by
  unfold DistRow at h ⊢
  simp only [he]
  exact h

theorem fillDistancesRows_spec {n : Nat} {moveEnds : List (List Int)} {q : List Int}
    {dist : Array2 Int} (hn : n ≤ 65535) (hme : moveEnds.length = n)
    (hmr : ∀ l ∈ moveEnds, ∀ b ∈ l, 0 ≤ b ∧ b < (n : Int))
    (hw : dist.width = n) (hh : dist.height = n) (hq : q.length = n)
    (hinf : ∀ a b, dist.values a b = infiniteDistance) :
    ∀ m : Nat, m ≤ n →
      ∃ dist', (List.range m).foldlM
          (fun (dist : Array2 Int) (i : Nat) =>
            Solver.fillDistancesFromNode dist i moveEnds q) dist = .ok dist' ∧
        dist'.width = n ∧ dist'.height = n ∧
        (∀ a : Int, 0 ≤ a → a < m → DistRow n (EndsEdge moveEnds) dist' a) ∧
        (∀ a b : Int, ¬ (0 ≤ a ∧ a < m) → dist'.values a b = infiniteDistance) := by
  intro m
  induction m with
  | zero =>
    intro _
    refine ⟨dist, rfl, hw, hh, ?_, fun a b _ => hinf a b⟩
    intro a h0 h1
    simp at h1
    omega
  | succ m ih =>
    intro hm
    obtain ⟨d1, e1, w1, h1, r1, i1⟩ := ih (by omega)
    have hm0 : (0 : Int) ≤ (m : Int) := Int.natCast_nonneg _
    have hmn : (m : Int) < n := by exact_mod_cast hm
    obtain ⟨d2, e2, w2, h2, rows, row⟩ :=
      @fillDistancesFromNode_spec n d1 (m : Int) moveEnds q hn hm0 hmn hme hmr w1 h1 hq
        (fun v => i1 _ v (by omega))
    refine ⟨d2, ?_, w2, h2, ?_, ?_⟩
    · rw [List.range_succ, List.foldlM_append, e1]
      show (do let d ← Solver.fillDistancesFromNode d1 (m : Int) moveEnds q; pure d) = _
      rw [e2]
      rfl
    · intro a ha0 ham
      by_cases hlt : a < m
      · exact (r1 a ha0 hlt).congr (fun b => rows a b (by omega))
      · have : a = m := by push_cast at ham; omega
        subst this
        exact row
    · intro a b hab
      have hne : a ≠ (m : Int) := by
        intro e
        apply hab
        rw [e]
        push_cast
        omega
      rw [rows a b hne]
      exact i1 a b (by push_cast at hab; omega)

theorem foldlM_total {σ α : Type} (full : List α) (P : List α → σ → Prop)
    (f : σ → α → Except Fault σ)
    (hstep : ∀ pre a post s, full = pre ++ a :: post → P pre s →
      ∃ s', f s a = .ok s' ∧ P (pre ++ [a]) s') :
    ∀ (l pre : List α) (s : σ), full = pre ++ l → P pre s →
      ∃ s', l.foldlM f s = .ok s' ∧ P full s' := by
  intro l
  induction l with
  | nil =>
    intro pre s hfull hs
    rw [List.append_nil] at hfull
    exact ⟨s, rfl, hfull ▸ hs⟩
  | cons a l ih =>
    intro pre s hfull hs
    obtain ⟨s1, h1, h2⟩ := hstep pre a l s hfull hs
    obtain ⟨s', h3, h4⟩ := ih (pre ++ [a]) s1 (by rw [hfull]; simp) h2
    refine ⟨s', ?_, h4⟩
    rw [List.foldlM_cons, h1]
    exact h3

theorem identified_props (level : Level) :
    (identified level).m_level = level ∧ (identified level).m_allMoves = [] ∧
      (identified level).m_vehicleCoords = level.vehicleCoords ∧
      (identified level).m_nodeIdByPosition =
        Array2.filled level.width level.height invalidNodeId ∧
      (identified level).m_movesByPosition =
        Array2.filled level.width level.height default ∧
      (identified level).m_jewelIdByPosition = identifiedJewels level := by
  unfold identified identifiedJewels
  cases h : (Solver.make level).identifyJewels with
  | error e => exact ⟨rfl, rfl, rfl, rfl, rfl, rfl⟩
  | ok s =>
    unfold Solver.identifyJewels at h
    simp only [bind_eq_ok] at h
    obtain ⟨a, _, h⟩ := h
    rw [pure_eq_ok] at h
    subst h
    exact ⟨rfl, rfl, rfl, rfl, rfl, rfl⟩

theorem vehicleCoords_representable (level : Level) : level.vehicleCoords.Representable := by
  unfold Level.vehicleCoords
  generalize level.board.coords = l
  have : ∀ (l : List (Int × Int)) (c : Coords2), c.Representable →
      (l.foldl (fun c p => if level.board.values p.1 p.2 = CellType.Vehicle then
        Coords2.ofInts p.1 p.2 else c) c).Representable := by
    intro l
    induction l with
    | nil => intro c hc; exact hc
    | cons p l ih =>
      intro c hc
      rw [List.foldl_cons]
      apply ih
      split
      · exact Coords2.ofInts_representable _ _
      · exact hc
  exact this l _ (Coords2.ofInts_representable _ _)

theorem generated_inv {level : Level} {s : Solver}
    (h : (identified level).generateAllMoves = .ok s) :
    ∃ vis : Array2 Bool, GenInv (identified level) s vis [] := by
  obtain ⟨h1, h2, h3, _⟩ := identified_props level
  exact generateAllMoves_inv h2 (by rw [h3]; exact vehicleCoords_representable level) h

theorem numberEnds_step {W H : Int} {pre : List Move} {T : Array2 Int} {V : Array2 Bool}
    {c : Int} (m : Move) (h : NumberingInv W H pre T V c) (hlen : pre.length < 32767)
    (hin : 0 ≤ m.endPos.x ∧ m.endPos.x < W ∧ 0 ≤ m.endPos.y ∧ m.endPos.y < H) :
    ∃ st : Array2 Int × Array2 Bool × Int,
      (do
        if (← V.at m.endPos) then pure (T, V, c)
        else
          let nodeIds ← T.put m.endPos (wrap16 c)
          let visited ← V.put m.endPos true
          pure (nodeIds, visited, c + 1)) = Except.ok st ∧
      NumberingInv W H (pre ++ [m]) st.1 st.2.1 st.2.2 := by
  have hVb : V.InBounds m.endPos.x m.endPos.y := by
    obtain ⟨a, b, c, d⟩ := hin
    exact ⟨a, by rw [h.widthV]; exact b, c, by rw [h.heightV]; exact d⟩
  have hTb : T.InBounds m.endPos.x m.endPos.y := by
    obtain ⟨a, b, c, d⟩ := hin
    exact ⟨a, by rw [h.widthT]; exact b, c, by rw [h.heightT]; exact d⟩
  rw [Array2.at_ok hVb, ok_bind]
  cases hv : V.values m.endPos.x m.endPos.y with
  | true =>
    refine ⟨(T, V, c), rfl, ?_⟩
    refine
      { widthT := h.widthT
        heightT := h.heightT
        widthV := h.widthV
        heightV := h.heightV
        seen := ?_
        range := h.range
        fresh := h.fresh
        inj := h.inj
        count := ⟨h.count.1, by rw [List.length_append]; push_cast; have := h.count.2; omega⟩
        onto := h.onto }
    intro x y
    rw [h.seen x y]
    constructor
    · rintro ⟨m', hm', e⟩
      exact ⟨m', List.mem_append_left _ hm', e⟩
    · rintro ⟨m', hm', e⟩
      rcases List.mem_append.1 hm' with hm' | hm'
      · exact ⟨m', hm', e⟩
      · rw [List.mem_singleton] at hm'
        subst hm'
        exact (h.seen m'.endPos.x m'.endPos.y).1 hv |>.imp fun m2 hm2 => ⟨hm2.1, by
          rw [hm2.2, ← e]⟩
  | false =>
    have hc : wrap16 c = c := by
      have := h.count
      have : (pre.length : Int) < 32767 := by exact_mod_cast hlen
      exact wrap16_of_range (by omega) (by omega)
    rw [hc]
    simp only [Bool.false_eq_true, if_false]
    rw [Array2.put_ok _ hTb, ok_bind, Array2.put_ok _ hVb, ok_bind]
    refine ⟨_, rfl, ?_⟩
    have hVn : ∀ x y, (if x = m.endPos.x ∧ y = m.endPos.y then true else V.values x y) = true ↔
        (x = m.endPos.x ∧ y = m.endPos.y) ∨ V.values x y = true := by
      intro x y
      split
      · rename_i hxy; exact ⟨fun _ => Or.inl hxy, fun _ => rfl⟩
      · rename_i hxy
        exact ⟨fun g => Or.inr g, fun g => g.resolve_left hxy⟩
    refine
      { widthT := h.widthT
        heightT := h.heightT
        widthV := h.widthV
        heightV := h.heightV
        seen := ?_
        range := ?_
        fresh := ?_
        inj := ?_
        count := by
          show 0 ≤ c + 1 ∧ c + 1 ≤ ((pre ++ [m]).length : Int)
          rw [List.length_append, List.length_singleton]
          push_cast
          have := h.count
          omega
        onto := ?_ }
    · intro x y
      show (if x = m.endPos.x ∧ y = m.endPos.y then true else V.values x y) = true ↔ _
      rw [hVn, h.seen x y]
      constructor
      · rintro (⟨rfl, rfl⟩ | ⟨m', hm', e⟩)
        · exact ⟨m, List.mem_append_right _ (List.mem_singleton_self _), rfl⟩
        · exact ⟨m', List.mem_append_left _ hm', e⟩
      · rintro ⟨m', hm', e⟩
        rcases List.mem_append.1 hm' with hm' | hm'
        · exact Or.inr ⟨m', hm', e⟩
        · rw [List.mem_singleton] at hm'
          subst hm'
          left
          rw [e]
          exact ⟨rfl, rfl⟩
    · intro x y
      show (if x = m.endPos.x ∧ y = m.endPos.y then true else V.values x y) = true →
        0 ≤ (if x = m.endPos.x ∧ y = m.endPos.y then c else T.values x y) ∧
        (if x = m.endPos.x ∧ y = m.endPos.y then c else T.values x y) < c + 1
      intro hxy
      by_cases hq : x = m.endPos.x ∧ y = m.endPos.y
      · rw [if_pos hq]
        have := h.count.1
        omega
      · rw [if_neg hq] at hxy ⊢
        have := h.range x y hxy
        omega
    · intro x y
      show (if x = m.endPos.x ∧ y = m.endPos.y then true else V.values x y) = false →
        (if x = m.endPos.x ∧ y = m.endPos.y then c else T.values x y) = -1
      intro hxy
      by_cases hq : x = m.endPos.x ∧ y = m.endPos.y
      · rw [if_pos hq] at hxy
        cases hxy
      · rw [if_neg hq] at hxy ⊢
        exact h.fresh x y hxy
    · intro x y x' y'
      show (if x = m.endPos.x ∧ y = m.endPos.y then true else V.values x y) = true →
        (if x' = m.endPos.x ∧ y' = m.endPos.y then true else V.values x' y') = true →
        (if x = m.endPos.x ∧ y = m.endPos.y then c else T.values x y) =
          (if x' = m.endPos.x ∧ y' = m.endPos.y then c else T.values x' y') → _
      intro h1 h2 h3
      by_cases hq : x = m.endPos.x ∧ y = m.endPos.y
      · by_cases hq' : x' = m.endPos.x ∧ y' = m.endPos.y
        · exact ⟨hq.1.trans hq'.1.symm, hq.2.trans hq'.2.symm⟩
        · rw [if_neg hq'] at h2 h3
          rw [if_pos hq] at h3
          have := h.range x' y' h2
          omega
      · rw [if_neg hq] at h1 h3
        by_cases hq' : x' = m.endPos.x ∧ y' = m.endPos.y
        · rw [if_pos hq'] at h3
          have := h.range x y h1
          omega
        · rw [if_neg hq'] at h2 h3
          exact h.inj x y x' y' h1 h2 h3
    · intro a ha0 hac
      have hac' : a < c + 1 := hac
      by_cases hlt : a < c
      · obtain ⟨x, y, hxy, e⟩ := h.onto a ha0 hlt
        refine ⟨x, y, ?_, ?_⟩
        · show (if x = m.endPos.x ∧ y = m.endPos.y then true else V.values x y) = true
          rw [hVn]; exact Or.inr hxy
        · show (if x = m.endPos.x ∧ y = m.endPos.y then c else T.values x y) = a
          have hq : ¬ (x = m.endPos.x ∧ y = m.endPos.y) := by
            rintro ⟨rfl, rfl⟩
            rw [hv] at hxy
            cases hxy
          rw [if_neg hq]
          exact e
      · refine ⟨m.endPos.x, m.endPos.y, ?_, ?_⟩
        · show (if m.endPos.x = m.endPos.x ∧ m.endPos.y = m.endPos.y then true else _) = true
          rw [if_pos ⟨rfl, rfl⟩]
        · show (if m.endPos.x = m.endPos.x ∧ m.endPos.y = m.endPos.y then c else _) = a
          rw [if_pos ⟨rfl, rfl⟩]
          omega

theorem numberEnds_spec {W H : Int} (moves : List Move) (T0 : Array2 Int)
    (f : Array2 Int × Array2 Bool × Int → Move → Except Fault (Array2 Int × Array2 Bool × Int))
    (hf : ∀ T V c m, f (T, V, c) m = (do
        if (← V.at m.endPos) then pure (T, V, c)
        else
          let nodeIds ← T.put m.endPos (wrap16 c)
          let visited ← V.put m.endPos true
          pure (nodeIds, visited, c + 1)))
    (hw : T0.width = W) (hh : T0.height = H) (hT0 : ∀ x y, T0.values x y = -1)
    (hlen : moves.length ≤ 32767)
    (hin : ∀ m ∈ moves, 0 ≤ m.endPos.x ∧ m.endPos.x < W ∧ 0 ≤ m.endPos.y ∧ m.endPos.y < H) :
    ∃ T V c, moves.foldlM f (T0, Array2.filled W H false, 0) = .ok (T, V, c) ∧
      NumberingInv W H moves T V c := by
  have hinit : NumberingInv W H [] T0 (Array2.filled W H false) 0 :=
    { widthT := hw
      heightT := hh
      widthV := rfl
      heightV := rfl
      seen := fun x y => ⟨fun g => (by cases g), by rintro ⟨m, hm, _⟩; cases hm⟩
      range := fun x y g => by cases g
      fresh := fun x y _ => hT0 x y
      inj := fun x y x' y' g => by cases g
      count := ⟨le_refl _, le_refl _⟩
      onto := fun a h0 h1 => by omega }
  obtain ⟨st, e, hst⟩ := foldlM_total moves
    (fun pre (st : Array2 Int × Array2 Bool × Int) => NumberingInv W H pre st.1 st.2.1 st.2.2)
    f
    (by
      intro pre m post st hfull hst
      obtain ⟨T, V, c⟩ := st
      rw [hf]
      have hl : pre.length < 32767 := by
        have := congrArg List.length hfull
        rw [List.length_append, List.length_cons] at this
        omega
      exact numberEnds_step m hst hl
        (hin m (by rw [hfull]; exact List.mem_append_right _ (List.mem_cons_self _ _))))
    moves [] (T0, Array2.filled W H false, 0) rfl hinit
  exact ⟨st.1, st.2.1, st.2.2, e, hst⟩

theorem numberVehicle_spec {W H : Int} {moves : List Move} {T : Array2 Int}
    {V : Array2 Bool} {c : Int} (vehicle : Coords2) (h : NumberingInv W H moves T V c)
    (hlen : moves.length ≤ 32767)
    (hin : 0 ≤ vehicle.x ∧ vehicle.x < W ∧ 0 ≤ vehicle.y ∧ vehicle.y < H) :
    ∃ (T' : Array2 Int) (c' : Int),
      (do
        if (← T.at vehicle) = invalidNodeId then do
          let nodeIds ← T.put vehicle (wrap16 c)
          pure (nodeIds, c + 1)
        else pure (T, c)) = Except.ok (T', c') ∧
      T'.width = W ∧ T'.height = H ∧ NodeTable moves vehicle T' c' := by
  have hTb : T.InBounds vehicle.x vehicle.y := by
    obtain ⟨a, b, c, d⟩ := hin
    exact ⟨a, by rw [h.widthT]; exact b, c, by rw [h.heightT]; exact d⟩
  have hVT : ∀ x y, 0 ≤ T.values x y → V.values x y = true := by
    intro x y hxy
    cases hv : V.values x y with
    | true => rfl
    | false =>
      have := h.fresh x y hv
      omega
  rw [Array2.at_ok hTb, ok_bind]
  by_cases hveh : T.values vehicle.x vehicle.y = invalidNodeId
  · rw [if_pos hveh]
    have hc : wrap16 c = c := by
      have := h.count
      have : (moves.length : Int) ≤ 32767 := by exact_mod_cast hlen
      exact wrap16_of_range (by omega) (by omega)
    rw [hc, Array2.put_ok _ hTb, ok_bind]
    refine ⟨_, _, rfl, h.widthT, h.heightT, ?_⟩
    have hvV : V.values vehicle.x vehicle.y = false := by
      cases hv : V.values vehicle.x vehicle.y with
      | false => rfl
      | true =>
        have := h.range _ _ hv
        rw [hveh] at this
        have : (invalidNodeId : Int) = -1 := rfl
        omega
    refine
      { range := ?_
        inj := ?_
        ends := ?_
        veh := ?_
        only := ?_
        count := by have := h.count; omega
        onto := ?_ }
    · intro x y
      show (if x = vehicle.x ∧ y = vehicle.y then c else T.values x y) = -1 ∨
        (0 ≤ (if x = vehicle.x ∧ y = vehicle.y then c else T.values x y) ∧
          (if x = vehicle.x ∧ y = vehicle.y then c else T.values x y) < c + 1)
      by_cases hq : x = vehicle.x ∧ y = vehicle.y
      · rw [if_pos hq]
        have := h.count.1
        exact Or.inr ⟨this, by omega⟩
      · rw [if_neg hq]
        cases hv : V.values x y with
        | false => exact Or.inl (h.fresh x y hv)
        | true =>
          have := h.range x y hv
          exact Or.inr ⟨this.1, by omega⟩
    · intro x y x' y'
      show 0 ≤ (if x = vehicle.x ∧ y = vehicle.y then c else T.values x y) →
        (if x = vehicle.x ∧ y = vehicle.y then c else T.values x y) =
          (if x' = vehicle.x ∧ y' = vehicle.y then c else T.values x' y') → _
      intro h1 h3
      by_cases hq : x = vehicle.x ∧ y = vehicle.y
      · by_cases hq' : x' = vehicle.x ∧ y' = vehicle.y
        · exact ⟨hq.1.trans hq'.1.symm, hq.2.trans hq'.2.symm⟩
        · rw [if_neg hq', if_pos hq] at h3
          have hc0 := h.count.1
          have := h.range x' y' (hVT x' y' (by omega))
          omega
      · rw [if_neg hq] at h1 h3
        by_cases hq' : x' = vehicle.x ∧ y' = vehicle.y
        · rw [if_pos hq'] at h3
          have := h.range x y (hVT x y h1)
          omega
        · rw [if_neg hq'] at h3
          exact h.inj x y x' y' (hVT x y h1) (hVT x' y' (by omega)) h3
    · intro m hm
      show 0 ≤ (if m.endPos.x = vehicle.x ∧ m.endPos.y = vehicle.y then c else _)
      split
      · exact h.count.1
      · exact (h.range _ _ ((h.seen _ _).2 ⟨m, hm, rfl⟩)).1
    · show 0 ≤ (if vehicle.x = vehicle.x ∧ vehicle.y = vehicle.y then c else _)
      rw [if_pos ⟨rfl, rfl⟩]
      exact h.count.1
    · intro x y
      show 0 ≤ (if x = vehicle.x ∧ y = vehicle.y then c else T.values x y) → _
      intro hxy
      by_cases hq : x = vehicle.x ∧ y = vehicle.y
      · right
        rw [hq.1, hq.2]
      · rw [if_neg hq] at hxy
        exact Or.inl ((h.seen x y).1 (hVT x y hxy))
    · intro a ha0 hac
      by_cases hlt : a < c
      · obtain ⟨x, y, hxy, e⟩ := h.onto a ha0 hlt
        refine ⟨x, y, ?_⟩
        show (if x = vehicle.x ∧ y = vehicle.y then c else T.values x y) = a
        have hq : ¬ (x = vehicle.x ∧ y = vehicle.y) := by
          rintro ⟨rfl, rfl⟩
          rw [hvV] at hxy
          cases hxy
        rw [if_neg hq]
        exact e
      · refine ⟨vehicle.x, vehicle.y, ?_⟩
        show (if vehicle.x = vehicle.x ∧ vehicle.y = vehicle.y then c else _) = a
        rw [if_pos ⟨rfl, rfl⟩]
        omega
  · rw [if_neg hveh]
    refine ⟨T, c, rfl, h.widthT, h.heightT, ?_⟩
    have hvV : V.values vehicle.x vehicle.y = true := by
      cases hv : V.values vehicle.x vehicle.y with
      | true => rfl
      | false => exact absurd (h.fresh _ _ hv) hveh
    refine
      { range := ?_
        inj := fun x y x' y' h1 h3 =>
          h.inj x y x' y' (hVT x y h1) (hVT x' y' (by omega)) h3
        ends := fun m hm => (h.range _ _ ((h.seen _ _).2 ⟨m, hm, rfl⟩)).1
        veh := (h.range _ _ hvV).1
        only := fun x y hxy => Or.inl ((h.seen x y).1 (hVT x y hxy))
        count := by have := h.count; omega
        onto := fun a h0 h1 => by
          obtain ⟨x, y, _, e⟩ := h.onto a h0 h1
          exact ⟨x, y, e⟩ }
    intro x y
    cases hv : V.values x y with
    | false => exact Or.inl (h.fresh x y hv)
    | true => exact Or.inr (h.range x y hv)

theorem Array2.read_ok {α : Type} {a : Array2 α} {x y : Int} (h : a.InBounds x y) :
    a.read x y = .ok (a.values x y) := by
  unfold Array2.read Array2.get?
  rw [if_pos h]

theorem positions_spec {W H : Int} (b : Board) (T : Array2 Int) (c : Int)
    (f : List Coords2 → Int × Int → Except Fault (List Coords2))
    (hf : ∀ positions p, f positions p = (do
        let id ← T.read p.1 p.2
        if id < 0 then pure positions else vecSet positions id (Coords2.ofInts p.1 p.2)))
    (hbw : b.width = W) (hbh : b.height = H) (hTw : T.width = W) (hTh : T.height = H)
    (hr : ∀ x y, T.values x y = -1 ∨ (0 ≤ T.values x y ∧ T.values x y < c))
    (hinj : ∀ x y x' y', 0 ≤ T.values x y → T.values x y = T.values x' y' →
      x = x' ∧ y = y') :
    ∃ positions, b.coords.foldlM f (List.replicate c.toNat (⟨0, 0⟩ : Coords2)) =
        .ok positions ∧ positions.length = c.toNat ∧
      ∀ x y, b.InBounds x y → 0 ≤ T.values x y →
        positions.get? (T.values x y).toNat = some (Coords2.ofInts x y) := by
  obtain ⟨positions, e, hlen, hpos⟩ := foldlM_total b.coords
    (fun pre (positions : List Coords2) => positions.length = c.toNat ∧
      ∀ p ∈ pre, 0 ≤ T.values p.1 p.2 →
        positions.get? (T.values p.1 p.2).toNat = some (Coords2.ofInts p.1 p.2))
    f
    (by
      intro pre p post positions hfull ⟨hlen, hpos⟩
      have hp : p ∈ b.coords := by
        rw [hfull]; exact List.mem_append_right _ (List.mem_cons_self _ _)
      have hb := Array2.mem_coords b p hp
      have hTb : T.InBounds p.1 p.2 := by
        obtain ⟨a1, a2, a3, a4⟩ := hb
        exact ⟨a1, by rw [hTw, ← hbw]; exact a2, a3, by rw [hTh, ← hbh]; exact a4⟩
      rw [hf, Array2.read_ok hTb, ok_bind]
      by_cases hneg : T.values p.1 p.2 < 0
      · rw [if_pos hneg]
        refine ⟨positions, rfl, hlen, ?_⟩
        intro p' hp' h0
        rcases List.mem_append.1 hp' with hp' | hp'
        · exact hpos p' hp' h0
        · rw [List.mem_singleton] at hp'
          subst hp'
          omega
      · rw [if_neg hneg]
        have hid : 0 ≤ T.values p.1 p.2 ∧ T.values p.1 p.2 < c := by
          rcases hr p.1 p.2 with g | g
          · omega
          · exact g
        have hlt : T.values p.1 p.2 < positions.length := by rw [hlen]; omega
        rw [vecSet_ok _ hid.1 hlt]
        refine ⟨_, rfl, by rw [List.length_set]; exact hlen, ?_⟩
        intro p' hp' h0
        have hnd : (pre ++ p :: post).Nodup := hfull ▸ Array2.coords_nodup b
        rcases List.mem_append.1 hp' with hp' | hp'
        · have hne : T.values p.1 p.2 ≠ T.values p'.1 p'.2 := by
            intro e
            obtain ⟨e1, e2⟩ := hinj _ _ _ _ hid.1 e
            have : p = p' := Prod.ext e1 e2
            subst this
            rw [List.nodup_append] at hnd
            exact hnd.2.2 hp' (List.mem_cons_self _ _)
          rw [List.get?_eq_getElem?, List.getElem?_set_ne (by omega), ← List.get?_eq_getElem?]
          exact hpos p' hp' h0
        · rw [List.mem_singleton] at hp'
          subst hp'
          rw [List.get?_eq_getElem?, List.getElem?_set_self (by omega)])
    b.coords [] _ rfl ⟨List.length_replicate _ _, fun p hp => by cases hp⟩
  refine ⟨positions, e, hlen, ?_⟩
  intro x y hb h0
  exact hpos (x, y) (Array2.coords_of_inBounds b x y hb) h0

theorem moveEndsInner_spec (T : Array2 Int) (moves : Moves) (a : Int) (n : Nat)
    (g : List (List Int) → Direction → Except Fault (List (List Int)))
    (hg : ∀ me dir, g me dir = (do
        let move := moves.get dir
        if move.id < 0 then pure me
        else
          let endV ← T.at move.endPos
          let old ← vecGet me a
          if old.length < 8 then vecSet me a (old ++ [endV])
          else .error .outOfBounds))
    (ha0 : 0 ≤ a) (han : a < n) :
    ∀ (ds : List Direction) (me : List (List Int)) (old : List Int),
      me.length = n → me.get? a.toNat = some old → old.length + ds.length ≤ 8 →
      (∀ d ∈ ds, 0 ≤ (moves.get d).id →
        T.InBounds (moves.get d).endPos.x (moves.get d).endPos.y) →
      ∃ me', ds.foldlM g me = .ok me' ∧ me'.length = n ∧
        me'.get? a.toNat = some (old ++
          (ds.filter fun d => decide (0 ≤ (moves.get d).id)).map
            fun d => T.values (moves.get d).endPos.x (moves.get d).endPos.y) ∧
        ∀ k, k ≠ a.toNat → me'.get? k = me.get? k := by
  intro ds
  induction ds with
  | nil =>
    intro me old hlen hold _ _
    exact ⟨me, rfl, hlen, by simpa using hold, fun _ _ => rfl⟩
  | cons d ds ih =>
    intro me old hlen hold hsz hin
    rw [List.foldlM_cons, hg]
    by_cases hneg : (moves.get d).id < 0
    · simp only [if_pos hneg]
      obtain ⟨me', e, hl, hget, hoth⟩ := ih me old hlen hold
        (by simp only [List.length_cons] at hsz; omega)
        (fun d' hd' => hin d' (List.mem_cons_of_mem _ hd'))
      refine ⟨me', e, hl, ?_, hoth⟩
      rw [hget, List.filter_cons_of_neg (by simpa using hneg)]
    · simp only [if_neg hneg]
      have hpos : 0 ≤ (moves.get d).id := by omega
      rw [Array2.at_ok (hin d (List.mem_cons_self _ _) hpos), ok_bind]
      have hvg : vecGet me a = .ok old := by
        unfold vecGet
        rw [if_pos ha0, hold]
      rw [hvg, ok_bind]
      simp only [List.length_cons] at hsz
      rw [if_pos (by omega), vecSet_ok _ ha0 (by rw [hlen]; exact han)]
      obtain ⟨me', e, hl, hget, hoth⟩ := ih (me.set a.toNat (old ++
          [T.values (moves.get d).endPos.x (moves.get d).endPos.y])) _
        (by rw [List.length_set]; exact hlen)
        (by rw [List.get?_eq_getElem?, List.getElem?_set_self (by omega)])
        (by rw [List.length_append, List.length_singleton]; omega)
        (fun d' hd' => hin d' (List.mem_cons_of_mem _ hd'))
      refine ⟨me', e, hl, ?_, ?_⟩
      · rw [hget, List.filter_cons_of_pos (by simpa using hpos), List.map_cons,
          List.append_assoc]
        rfl
      · intro k hk
        rw [hoth k hk, List.get?_eq_getElem?, List.get?_eq_getElem?,
          List.getElem?_set_ne (Ne.symm hk)]

theorem moveEndsOuter_spec {W H : Int} (B : Array2 Moves) (T : Array2 Int) (n : Nat)
    (f : List (List Int) → Int × Int → Except Fault (List (List Int)))
    (hf : ∀ me p, f me p = (do
        let nodeId ← T.read p.1 p.2
        if nodeId = invalidNodeId then pure me
        else
          DirectionHelper.values.foldlM
            (fun (moveEnds : List (List Int)) dir => do
              let move := (B.values p.1 p.2).get dir
              if move.id < 0 then pure moveEnds
              else
                let endV ← T.at move.endPos
                let old ← vecGet moveEnds nodeId
                if old.length < 8 then vecSet moveEnds nodeId (old ++ [endV])
                else .error .outOfBounds)
            me))
    (hBw : B.width = W) (hBh : B.height = H) (hTw : T.width = W) (hTh : T.height = H)
    (hr : ∀ x y, T.values x y = -1 ∨ (0 ≤ T.values x y ∧ T.values x y < n))
    (hinj : ∀ x y x' y', 0 ≤ T.values x y → T.values x y = T.values x' y' →
      x = x' ∧ y = y')
    (hslot : ∀ x y, B.InBounds x y → 0 ≤ T.values x y → ∀ d ∈ DirectionHelper.values,
      0 ≤ ((B.values x y).get d).id →
      T.InBounds ((B.values x y).get d).endPos.x ((B.values x y).get d).endPos.y) :
    ∃ me, B.coords.foldlM f (List.replicate n []) = .ok me ∧ me.length = n ∧
      (∀ x y, B.InBounds x y → 0 ≤ T.values x y →
        me.get? (T.values x y).toNat = some (slotEnds B T x y)) ∧
      (∀ k : Nat, k < n → (∀ x y, B.InBounds x y → T.values x y ≠ k) →
        me.get? k = some []) := by
  obtain ⟨me, e, hlen, hpos, hnone⟩ := foldlM_total B.coords
    (fun pre (me : List (List Int)) => me.length = n ∧
      (∀ p ∈ pre, 0 ≤ T.values p.1 p.2 →
        me.get? (T.values p.1 p.2).toNat = some (slotEnds B T p.1 p.2)) ∧
      (∀ k : Nat, k < n → (∀ p ∈ pre, T.values p.1 p.2 ≠ k) → me.get? k = some []))
    f
    (by
      intro pre p post me hfull ⟨hlen, hpos, hnone⟩
      have hp : p ∈ B.coords := by
        rw [hfull]; exact List.mem_append_right _ (List.mem_cons_self _ _)
      have hb := Array2.mem_coords B p hp
      have hTb : T.InBounds p.1 p.2 := by
        obtain ⟨a1, a2, a3, a4⟩ := hb
        exact ⟨a1, by rw [hTw, ← hBw]; exact a2, a3, by rw [hTh, ← hBh]; exact a4⟩
      have hnd : (pre ++ p :: post).Nodup := hfull ▸ Array2.coords_nodup B
      have hfresh : ∀ p' ∈ pre, 0 ≤ T.values p.1 p.2 →
          T.values p'.1 p'.2 ≠ T.values p.1 p.2 := by
        intro p' hp' h0 e
        obtain ⟨e1, e2⟩ := hinj _ _ _ _ h0 e.symm
        have : p = p' := Prod.ext e1 e2
        subst this
        rw [List.nodup_append] at hnd
        exact hnd.2.2 hp' (List.mem_cons_self _ _)
      rw [hf, Array2.read_ok hTb, ok_bind]
      by_cases hinv : T.values p.1 p.2 = invalidNodeId
      · rw [if_pos hinv]
        refine ⟨me, rfl, hlen, ?_, ?_⟩
        · intro p' hp' h0
          rcases List.mem_append.1 hp' with hp' | hp'
          · exact hpos p' hp' h0
          · rw [List.mem_singleton] at hp'
            subst hp'
            rw [hinv] at h0
            exact absurd h0 (by decide)
        · intro k hk hall
          exact hnone k hk (fun p' hp' => hall p' (List.mem_append_left _ hp'))
      · rw [if_neg hinv]
        have hid : 0 ≤ T.values p.1 p.2 ∧ T.values p.1 p.2 < n := by
          rcases hr p.1 p.2 with g | g
          · exact absurd g hinv
          · exact g
        have hold : me.get? (T.values p.1 p.2).toNat = some [] := by
          apply hnone _ (by omega)
          intro p' hp'
          have := hfresh p' hp' hid.1
          rw [Int.toNat_of_nonneg hid.1]
          exact this
        obtain ⟨me', e, hl, hget, hoth⟩ := moveEndsInner_spec T (B.values p.1 p.2)
          (T.values p.1 p.2) n _ (fun _ _ => rfl) hid.1 hid.2 DirectionHelper.values me []
          hlen hold (by decide) (fun d hd h0 => hslot p.1 p.2 hb hid.1 d hd h0)
        refine ⟨me', e, hl, ?_, ?_⟩
        · intro p' hp' h0
          rcases List.mem_append.1 hp' with hp' | hp'
          · rw [hoth _ (by
              have := hfresh p' hp' hid.1
              omega)]
            exact hpos p' hp' h0
          · rw [List.mem_singleton] at hp'
            subst hp'
            rw [hget]
            rfl
        · intro k hk hall
          have hne : (k : Int) ≠ T.values p.1 p.2 :=
            fun e => hall p (List.mem_append_right _ (List.mem_singleton_self _)) e.symm
          rw [hoth k (by omega)]
          exact hnone k hk (fun p' hp' => hall p' (List.mem_append_left _ hp')))
    B.coords [] _ rfl
    ⟨List.length_replicate _ _, fun p hp => (by cases hp), fun k hk _ => (by
      rw [List.get?_eq_getElem?, List.getElem?_replicate_of_lt hk])⟩
  refine ⟨me, e, hlen, ?_, ?_⟩
  · intro x y hb h0
    exact hpos (x, y) (Array2.coords_of_inBounds B x y hb) h0
  · intro k hk hall
    exact hnone k hk (fun p hp => hall p.1 p.2 (Array2.mem_coords B p hp))

theorem GenInv.origin {s0 s : Solver} {vis : Array2 Bool} (h : GenInv s0 s vis []) :
    ∀ c : Coords2, SlideReach s0.m_level s0.m_jewelIdByPosition s0.m_vehicleCoords c →
      (∃ m ∈ s.m_allMoves, m.endPos = c) ∨ s0.m_vehicleCoords = c := by
  intro c hc
  cases hc with
  | refl => exact Or.inr rfl
  | @step c' d m0 hc' hl =>
    left
    obtain ⟨hd, hs, hlive⟩ := hl
    obtain ⟨m1, e1, e2, _, e4⟩ := h.slots c' (h.closed c' hc') d hd
    rw [hs] at e1
    cases e1
    exact ⟨_, e4 hlive, e2.2.1⟩

theorem generated_ready {level : Level} {s : Solver}
    (hgen : (identified level).generateAllMoves = .ok s) : MovesReady level s := by
  obtain ⟨vis, g⟩ := generated_inv hgen
  obtain ⟨p1, p2, p3, p4, p5, p6⟩ := identified_props level
  have hvis : ∀ c : Coords2, vis.values c.x c.y = true → level.board.InBounds c.x c.y := by
    intro c hc
    have := g.inB c hc
    rw [p5] at this
    exact this
  have hvisEnd : ∀ m ∈ s.m_allMoves, vis.values m.endPos.x m.endPos.y = true := by
    intro m hm
    rcases g.ends m hm with e | e
    · exact e
    · cases e
  have hvisVeh : vis.values level.vehicleCoords.x level.vehicleCoords.y = true := by
    rcases g.veh with e | e
    · rw [p3] at e; exact e
    · cases e
  refine
    { lvl := g.level.trans p1
      veh := g.vehicle.trans p3
      nodeIds := g.nodeIds.trans p4
      byPosW := by rw [g.dimsW, p5]; rfl
      byPosH := by rw [g.dimsH, p5]; rfl
      vehicleIn := hvis _ hvisVeh
      startIn := fun m hm => hvis _ (g.registered m hm).1
      endIn := fun m hm => hvis _ (hvisEnd m hm)
      slot := fun m hm => (g.registered m hm).2
      stops := ?_
      starts := ?_
      ids := g.moveIds
      live := g.live }
  · intro x y hxy d hd hid
    have hv : vis.values x y = true := by
      rcases hxy with ⟨m, hm, e⟩ | e
      · have := hvisEnd m hm
        rw [e] at this
        exact this
      · have := hvisVeh
        rw [e] at this
        exact this
    obtain ⟨m0, e1, e2, e3, e4⟩ := g.slots ⟨x, y⟩ hv d hd
    have hlive : m0.startPos ≠ m0.endPos := by
      intro hdead
      have := e3 hdead
      apply hid
      show ((s.m_movesByPosition.values (⟨x, y⟩ : Coords2).x (⟨x, y⟩ : Coords2).y).get d).id = -1
      rw [this]
      exact (slideFrom_start e1).2
    exact ⟨e4 hlive, e2.1.trans (slideFrom_start e1).1⟩
  · intro m hm
    have := g.origin m.startPos (g.reachVis _ (g.registered m hm).1)
    rw [p3] at this
    exact this

theorem flatMap_singleton_map {α β : Type} (f : α → β) (l : List α) :
    (l.flatMap fun a => [f a]) = l.map f := by
  induction l with
  | nil => rfl
  | cons a l ih => simp [List.flatMap_cons, ih]

theorem WalkOf.mono {E E' : Int → Int → Prop} (h : ∀ a b, E a b → E' a b) {k : Nat}
    {a b : Int} (hw : WalkOf E k a b) : WalkOf E' k a b := by
  induction hw with
  | zero a => exact WalkOf.zero a
  | step _ he ih => exact WalkOf.step ih (h _ _ he)

theorem DistRow.edges {n : Nat} {E E' : Int → Int → Prop} {dist : Array2 Int} {a : Int}
    (h : DistRow n E dist a) (he : ∀ a b, E a b ↔ E' a b) : DistRow n E' dist a := by
  obtain ⟨h1, h2, h3⟩ := h
  refine ⟨h1, ?_, ?_⟩
  · intro v k hw
    obtain ⟨g1, g2⟩ := h2 v k (hw.mono fun a b => (he a b).2)
    exact ⟨g1.mono fun a b => (he a b).1, g2⟩
  · intro v hv0 hvn hno
    exact h3 v hv0 hvn (fun ⟨k, hk⟩ => hno ⟨k, hk.mono fun a b => (he a b).1⟩)

theorem computePairwiseNodeDistances_rows {level : Level} {s : Solver}
    (hr : MovesReady level s) (hlen : s.m_allMoves.length ≤ 32767) :
    ∃ (T : Array2 Int) (c : Int) (positions : List Coords2) (dist : Array2 Int),
      s.computePairwiseNodeDistances = .ok { s with
        m_nodeIdByPosition := T
        m_distanceFromTo := dist
        m_nodePositionById := positions } ∧
      NodeTable s.m_allMoves s.m_vehicleCoords T c ∧
      T.width = level.width ∧ T.height = level.height ∧
      positions.length = c.toNat ∧
      (∀ x y, level.board.InBounds x y → 0 ≤ T.values x y →
        positions.get? (T.values x y).toNat = some (Coords2.ofInts x y)) ∧
      dist.width = c ∧ dist.height = c ∧ c ≤ 32768 ∧
      ∀ a : Int, 0 ≤ a → a < c →
        DistRow c.toNat (Solver.MoveEdge { s with
          m_nodeIdByPosition := T
          m_distanceFromTo := dist
          m_nodePositionById := positions }) dist a := by
  have hW : level.board.width = level.width := rfl
  have hH : level.board.height = level.height := rfl
  -- the numbering of the ends
  obtain ⟨T1, V1, c1, e1, hnum⟩ := @numberEnds_spec level.width level.height s.m_allMoves
    s.m_nodeIdByPosition
    (fun (st : Array2 Int × Array2 Bool × Int) move => do
      let (nodeIds, visited, c) := st
      if (← visited.at move.endPos) then pure st
      else
        let nodeIds ← nodeIds.put move.endPos (wrap16 c)
        let visited ← visited.put move.endPos true
        pure (nodeIds, visited, c + 1))
    (fun _ _ _ _ => rfl)
    (by rw [hr.nodeIds]; rfl) (by rw [hr.nodeIds]; rfl)
    (by intro x y; rw [hr.nodeIds]; rfl) hlen (fun m hm => hr.endIn m hm)
  obtain ⟨T, c, e2, hTw, hTh, htab⟩ := numberVehicle_spec s.m_vehicleCoords hnum hlen
    (by rw [hr.veh]; exact hr.vehicleIn)
  have hc0 := htab.count.1
  have hc32 : c ≤ 32768 := by
    have := htab.count.2
    have : (s.m_allMoves.length : Int) ≤ 32767 := by exact_mod_cast hlen
    omega
  have hrange : ∀ x y, T.values x y = -1 ∨ (0 ≤ T.values x y ∧ T.values x y < c) :=
    htab.range
  -- the positions
  obtain ⟨positions, e3, hplen, hpos⟩ := @positions_spec level.width level.height
    level.board T c
    (fun (positions : List Coords2) p => do
      let id ← T.read p.1 p.2
      if id < 0 then pure positions else vecSet positions id (Coords2.ofInts p.1 p.2))
    (fun _ _ => rfl) hW hH hTw hTh hrange htab.inj
  -- the successor lists
  have hcn : ((c.toNat : Nat) : Int) = c := Int.toNat_of_nonneg hc0
  have hslotMem : ∀ x y, 0 ≤ T.values x y → ∀ d ∈ DirectionHelper.values,
      0 ≤ ((s.m_movesByPosition.values x y).get d).id →
      (s.m_movesByPosition.values x y).get d ∈ s.m_allMoves ∧
        ((s.m_movesByPosition.values x y).get d).startPos = ⟨x, y⟩ := by
    intro x y hxy d hd hid
    refine hr.stops x y ?_ d hd (by omega)
    rcases htab.only x y hxy with g | g
    · exact Or.inl g
    · right; rw [← hr.veh]; exact g
  have hTin : ∀ m ∈ s.m_allMoves, T.InBounds m.endPos.x m.endPos.y := by
    intro m hm
    obtain ⟨a1, a2, a3, a4⟩ := hr.endIn m hm
    exact ⟨a1, by rw [hTw]; exact a2, a3, by rw [hTh]; exact a4⟩
  obtain ⟨me, e4, hmelen, hmepos, hmenone⟩ := @moveEndsOuter_spec level.width level.height
    s.m_movesByPosition T c.toNat
    (fun (moveEnds : List (List Int)) p => do
      let nodeId ← T.read p.1 p.2
      if nodeId = invalidNodeId then pure moveEnds
      else
        let moves := s.m_movesByPosition.values p.1 p.2
        DirectionHelper.values.foldlM
          (fun (moveEnds : List (List Int)) dir => do
            let move := moves.get dir
            if move.id < 0 then pure moveEnds
            else
              let endV ← T.at move.endPos
              let old ← vecGet moveEnds nodeId
              if old.length < 8 then vecSet moveEnds nodeId (old ++ [endV])
              else .error .outOfBounds)
          moveEnds)
    (fun _ _ => rfl) hr.byPosW hr.byPosH hTw hTh
    (by rw [hcn]; exact hrange) htab.inj
    (fun x y _ hxy d hd hid => hTin _ (hslotMem x y hxy d hd hid).1)
  -- every successor list holds node ids
  have hmeCases : ∀ (k : Nat) (l : List Int), me.get? k = some l →
      l = [] ∨ ∃ x y, s.m_movesByPosition.InBounds x y ∧ T.values x y = k ∧
        l = slotEnds s.m_movesByPosition T x y := by
    intro k l hl
    have hk : k < c.toNat := by
      have := (List.get?_eq_some.1 hl).1
      omega
    by_cases hex : ∃ x y, s.m_movesByPosition.InBounds x y ∧ T.values x y = k
    · obtain ⟨x, y, hb, hxy⟩ := hex
      right
      refine ⟨x, y, hb, hxy, ?_⟩
      have := hmepos x y hb (by rw [hxy]; exact Int.natCast_nonneg _)
      rw [hxy, Int.toNat_ofNat, hl] at this
      exact Option.some.inj this
    · left
      have := hmenone k hk (fun x y hb e => hex ⟨x, y, hb, e⟩)
      rw [hl] at this
      exact Option.some.inj this
  have hslotEnds : ∀ x y b, 0 ≤ T.values x y → b ∈ slotEnds s.m_movesByPosition T x y →
      ∃ m ∈ s.m_allMoves, m.startPos = ⟨x, y⟩ ∧ T.values m.endPos.x m.endPos.y = b := by
    intro x y b hxy hb
    unfold slotEnds at hb
    rw [List.mem_map] at hb
    obtain ⟨d, hd, e⟩ := hb
    rw [List.mem_filter] at hd
    obtain ⟨g1, g2⟩ := hslotMem x y hxy d hd.1 (by simpa using hd.2)
    exact ⟨_, g1, g2, e⟩
  have hmr : ∀ l ∈ me, ∀ b ∈ l, 0 ≤ b ∧ b < ((c.toNat : Nat) : Int) := by
    intro l hl b hb
    obtain ⟨k, hk⟩ := List.get?_of_mem hl
    rcases hmeCases k l hk with rfl | ⟨x, y, _, hxy, rfl⟩
    · cases hb
    · obtain ⟨m, hm, _, e⟩ := hslotEnds x y b (by rw [hxy]; exact Int.natCast_nonneg _) hb
      have h0 := htab.ends m hm
      rw [e] at h0
      rcases hrange m.endPos.x m.endPos.y with g | g
      · rw [e] at g; omega
      · rw [e] at g; rw [hcn]; exact ⟨h0, g.2⟩
  -- the rows
  obtain ⟨dist, e5, hdw, hdh, hrows, _⟩ := @fillDistancesRows_spec c.toNat me
    (List.replicate positions.length (0 : Int))
    (Array2.filled c c infiniteDistance) (by omega) hmelen hmr
    (by show c = _; exact hcn.symm) (by show c = _; exact hcn.symm)
    (by rw [List.length_replicate]; exact hplen) (fun _ _ => rfl) c.toNat (le_refl _)
  refine ⟨T, c, positions, dist, ?_, htab, hTw, hTh, hplen, hpos, by rw [hdw, hcn],
    by rw [hdh, hcn], hc32, ?_⟩
  · rw [← hr.lvl] at e1 e3
    have htail : (do
        let positions ← s.m_level.board.coords.foldlM
          (fun (positions : List Coords2) p => do
            let id ← T.read p.1 p.2
            if id < 0 then pure positions
            else vecSet positions id (Coords2.ofInts p.1 p.2))
          (List.replicate c.toNat (⟨0, 0⟩ : Coords2))
        Solver.fillDistancesBetweenNodes { s with
          m_nodeIdByPosition := T
          m_distanceFromTo := Array2.filled c c infiniteDistance
          m_nodePositionById := positions }) = Except.ok { s with
        m_nodeIdByPosition := T
        m_distanceFromTo := dist
        m_nodePositionById := positions } := by
      refine bind_eq_ok.2 ⟨_, e3, ?_⟩
      unfold Solver.fillDistancesBetweenNodes
      refine bind_eq_ok.2 ⟨me, ?_, ?_⟩
      · unfold Solver.moveEndsOf
        dsimp only
        rw [hplen]
        exact e4
      · dsimp only
        refine bind_eq_ok.2 ⟨dist, ?_, rfl⟩
        have hl : (do
            let a ← List.range (Array2.filled c c infiniteDistance).width.toNat
            pure (a : Int)) = (List.range c.toNat).map (fun a : Nat => (a : Int)) := by
          show (do let a ← List.range c.toNat; pure (a : Int)) = _
          simp only [List.bind_eq_flatMap, List.pure_def]
          exact flatMap_singleton_map _ _
        rw [hl, List.foldlM_map]
        exact e5
    unfold Solver.computePairwiseNodeDistances
    refine bind_eq_ok.2 ⟨_, e1, ?_⟩
    obtain ⟨v, hv, hif⟩ := bind_eq_ok.1 e2
    refine bind_eq_ok.2 ⟨_, hv, ?_⟩
    dsimp only
    by_cases hveq : v = invalidNodeId
    · rw [if_pos hveq] at hif ⊢
      obtain ⟨nodeIds, hput, hpure⟩ := bind_eq_ok.1 hif
      rw [pure_eq_ok] at hpure
      refine bind_eq_ok.2 ⟨_, hput, ?_⟩
      rw [pure_bind, hpure]
      exact htail
    · rw [if_neg hveq] at hif ⊢
      rw [pure_eq_ok] at hif
      rw [pure_bind, hif]
      exact htail
  · intro a ha0 hac
    refine (hrows a ha0 (by rw [hcn]; exact hac)).edges ?_
    intro a b
    constructor
    · rintro ⟨ha, l, hl, hb⟩
      rcases hmeCases a.toNat l hl with rfl | ⟨x, y, _, hxy, rfl⟩
      · cases hb
      · rw [Int.toNat_of_nonneg ha] at hxy
        obtain ⟨m, hm, hs, e⟩ := hslotEnds x y b (by rw [hxy]; exact ha) hb
        refine ⟨m, hm, ?_, e⟩
        show T.values m.startPos.x m.startPos.y = a
        rw [hs]
        exact hxy
    · rintro ⟨m, hm0, hs, he⟩
      have hm : m ∈ s.m_allMoves := hm0
      have hs' : T.values m.startPos.x m.startPos.y = a := hs
      have he' : T.values m.endPos.x m.endPos.y = b := he
      have hstart : 0 ≤ T.values m.startPos.x m.startPos.y := by
        rcases hr.starts m hm with ⟨m1, hm1, e⟩ | e
        · rw [← e]; exact htab.ends m1 hm1
        · rw [← e, ← hr.veh]; exact htab.veh
      obtain ⟨d, hd, hslot⟩ := hr.slot m hm
      have hb : s.m_movesByPosition.InBounds m.startPos.x m.startPos.y := by
        obtain ⟨a1, a2, a3, a4⟩ := hr.startIn m hm
        exact ⟨a1, by rw [hr.byPosW]; exact a2, a3, by rw [hr.byPosH]; exact a4⟩
      have hget := hmepos _ _ hb hstart
      rw [hs'] at hget
      refine ⟨by rw [← hs']; exact hstart, _, hget, ?_⟩
      unfold slotEnds
      rw [List.mem_map]
      refine ⟨d, ?_, by rw [hslot]; exact he'⟩
      rw [List.mem_filter]
      refine ⟨hd, ?_⟩
      rw [hslot]
      obtain ⟨i, hi⟩ := List.get?_of_mem hm
      have hlt := (List.get?_eq_some.1 hi).1
      rw [hr.ids i m hi, wrap16_of_range (by omega) (by omega)]
      simp

theorem WalkOf.append {E : Int → Int → Prop} {k1 k2 : Nat} {a b c : Int}
    (h1 : WalkOf E k1 a b) (h2 : WalkOf E k2 b c) : WalkOf E (k1 + k2) a c := by
  induction h2 with
  | zero _ => exact h1
  | step _ he ih => exact WalkOf.step (ih h1) he

theorem count_false_set_true (l : List Bool) (k : Nat) (hk : k < l.length)
    (h : l.getD k false = false) : (l.set k true).count false + 1 = l.count false := by
  have hget : l[k] = false := by
    rw [List.getD_eq_getElem?_getD, List.getElem?_eq_getElem hk] at h
    exact h
  have hpos : 0 < l.count false := by
    rw [List.count_pos_iff]
    rw [← hget]
    exact List.getElem_mem hk
  rw [List.count_set true false l k hk, hget]
  simp
  omega

theorem dfsPush_spec (n : Nat) :
    ∀ (l : List Int) (vis : List Bool) (stack : List Int),
      vis.length = n → (∀ x ∈ l, 0 ≤ x ∧ x < (n : Int)) →
      ∃ vis' stack',
        l.foldlM
          (fun (st : List Bool × List Int) n => do
            if (← vecGet st.1 n) then pure st
            else pure (← vecSet st.1 n true, n :: st.2))
          (vis, stack) = Except.ok (vis', stack') ∧
        vis'.length = n ∧
        (∀ x, x ∈ stack' → x ∈ stack ∨ x ∈ l) ∧
        (∀ x, x ∈ stack → x ∈ stack') ∧
        (∀ x : Int, 0 ≤ x → vis'.getD x.toNat false = true →
          vis.getD x.toNat false = true ∨ x ∈ stack') ∧
        (∀ x : Int, vis.getD x.toNat false = true → vis'.getD x.toNat false = true) ∧
        (∀ x ∈ l, vis'.getD x.toNat false = true) ∧
        stack'.length + vis'.count false = stack.length + vis.count false := by
  intro l
  induction l with
  | nil =>
    intro vis stack hlen _
    exact ⟨vis, stack, rfl, hlen, fun x hx => Or.inl hx, fun x hx => hx,
      fun x _ hx => Or.inl hx, fun x hx => hx, fun x hx => (by cases hx), rfl⟩
  | cons y l ih =>
    intro vis stack hlen hl
    obtain ⟨hy0, hyn⟩ := hl y (List.mem_cons_self _ _)
    have hl' : ∀ x ∈ l, 0 ≤ x ∧ x < (n : Int) := fun x hx => hl x (List.mem_cons_of_mem _ hx)
    obtain ⟨b, hb, hb'⟩ := @vecGet_ok _ vis y hy0 (by rw [hlen]; exact hyn)
    have hbD : vis.getD y.toNat false = b := by
      rw [List.getD_eq_getElem?_getD, ← List.get?_eq_getElem?, hb']
      rfl
    rw [List.foldlM_cons]
    simp only [hb, ok_bind]
    cases b with
    | true =>
      simp only [if_true, pure_bind]
      obtain ⟨vis', stack', e, g1, g2, g3, g4, g5, g6, g7⟩ := ih vis stack hlen hl'
      refine ⟨vis', stack', e, g1, ?_, g3, g4, g5, ?_, g7⟩
      · intro x hx
        rcases g2 x hx with g | g
        · exact Or.inl g
        · exact Or.inr (List.mem_cons_of_mem _ g)
      · intro x hx
        rcases List.mem_cons.1 hx with rfl | hx
        · exact g5 x hbD
        · exact g6 x hx
    | false =>
      simp only [Bool.false_eq_true, if_false]
      rw [vecSet_ok true hy0 (by rw [hlen]; exact hyn)]
      simp only [ok_bind, pure_bind]
      have hyl : y.toNat < vis.length := by rw [hlen]; omega
      obtain ⟨vis', stack', e, g1, g2, g3, g4, g5, g6, g7⟩ :=
        ih (vis.set y.toNat true) (y :: stack) (by rw [List.length_set]; exact hlen) hl'
      refine ⟨vis', stack', e, g1, ?_, ?_, ?_, ?_, ?_, ?_⟩
      · intro x hx
        rcases g2 x hx with g | g
        · rcases List.mem_cons.1 g with rfl | g
          · exact Or.inr (List.mem_cons_self _ _)
          · exact Or.inl g
        · exact Or.inr (List.mem_cons_of_mem _ g)
      · intro x hx
        exact g3 x (List.mem_cons_of_mem _ hx)
      · intro x hx0 hx
        rcases g4 x hx0 hx with g | g
        · by_cases hxy : x = y
          · right
            rw [hxy]
            exact g3 y (List.mem_cons_self _ _)
          · left
            rw [getD_toNat_set_ne _ _ _ hx0 hy0 hxy] at g
            exact g
        · exact Or.inr g
      · intro x hx
        exact g5 x (getD_set_true_of_true _ _ _ hx)
      · intro x hx
        rcases List.mem_cons.1 hx with rfl | hx
        · exact g5 x (getD_toNat_set_self _ _ hyl)
        · exact g6 x hx
      · rw [g7, List.length_cons]
        have := count_false_set_true vis y.toNat hyl hbD
        omega

theorem Array2.write_ok {α : Type} {a : Array2 α} {x y : Int} (v : α)
    (h : a.InBounds x y) :
    a.write x y v = .ok { a with values := fun i j => if i = x ∧ j = y then v else a.values i j } := by
  unfold Array2.write Array2.set?
  rw [if_pos h]

theorem fillReachableLoop_spec (s : Solver) (links : Scc → List Int) (a : Int)
    (u0 : Array2 Bool)
    (hid : ∀ (i : Nat) (scc : Scc), s.m_sccs.get? i = some scc → scc.id = i)
    (hlinks : ∀ (i : Nat) (scc : Scc), s.m_sccs.get? i = some scc →
      ∀ x ∈ links scc, 0 ≤ x ∧ x < (s.m_sccs.length : Int))
    (ha0 : 0 ≤ a) (han : a < s.m_sccs.length) :
    ∀ (fuel : Nat) (u : Array2 Bool) (vis : List Bool) (stack : List Int)
      (done : Int → Prop),
      DfsInv s links a u0 u vis stack done → stack.length + vis.count false ≤ fuel →
      ∃ u' vis' done', s.fillReachableLoop links a fuel u vis stack = .ok u' ∧
        DfsInv s links a u0 u' vis' [] done' := by
  intro fuel
  induction fuel with
  | zero =>
    intro u vis stack done h hm
    cases stack with
    | nil => exact ⟨u, vis, done, rfl, h⟩
    | cons top rest => simp at hm
  | succ fuel ih =>
    intro u vis stack done h hm
    cases stack with
    | nil => exact ⟨u, vis, done, rfl, h⟩
    | cons top rest =>
      obtain ⟨ht0, htn, hreach⟩ := h.onStack top (List.mem_cons_self _ _)
      obtain ⟨scc, hscc, hscc'⟩ := @vecGet_ok _ s.m_sccs top ht0 htn
      have hsid : scc.id = top := by
        have := hid top.toNat scc hscc'
        rw [this]
        exact Int.toNat_of_nonneg ht0
      have hl := hlinks top.toNat scc hscc'
      unfold Solver.fillReachableLoop
      rw [hscc, ok_bind, hsid, Array2.write_ok false
        ⟨ha0, by rw [h.width]; exact han, ht0, by rw [h.height]; exact htn⟩, ok_bind]
      obtain ⟨vis', stack', e, g1, g2, g3, g4, g5, g6, g7⟩ :=
        dfsPush_spec s.m_sccs.length (links scc) vis rest h.vlen hl
      rw [e, ok_bind]
      have hedge : ∀ y, s.SccEdge links top y ↔ y ∈ links scc := by
        intro y
        constructor
        · rintro ⟨_, scc', h1, h2⟩
          rw [hscc'] at h1
          cases h1
          exact h2
        · intro hy
          exact ⟨ht0, scc, hscc', hy⟩
      have hseen : ∀ x : Int, 0 ≤ x → x < s.m_sccs.length →
          vis'.getD x.toNat false = true → x ∈ stack' ∨ (done x ∨ x = top) := by
        intro x hx0 hxn hx
        rcases g4 x hx0 hx with g | g
        · rcases h.seen x hx0 hxn g with g' | g'
          · rcases List.mem_cons.1 g' with rfl | g'
            · exact Or.inr (Or.inr rfl)
            · exact Or.inl (g3 x g')
          · exact Or.inr (Or.inl g')
        · exact Or.inl g
      have hold : ∀ y, (y ∈ top :: rest ∨ done y) → y ∈ stack' ∨ (done y ∨ y = top) := by
        intro y hy
        rcases hy with hy | hy
        · rcases List.mem_cons.1 hy with rfl | hy
          · exact Or.inr (Or.inr rfl)
          · exact Or.inl (g3 y hy)
        · exact Or.inr (Or.inl hy)
      refine ih _ vis' stack' (fun x => done x ∨ x = top) ?_ (by
        rw [g7]
        simp only [List.length_cons] at hm
        omega)
      refine
        { vlen := g1
          width := h.width
          height := h.height
          onStack := ?_
          seen := hseen
          popped := ?_
          start := hold a h.start
          frame := ?_
          cleared := ?_ }
      · intro x hx
        rcases g2 x hx with g | g
        · exact h.onStack x (List.mem_cons_of_mem _ g)
        · exact ⟨(hl x g).1, (hl x g).2,
            Relation.ReflTransGen.tail hreach ((hedge x).2 g)⟩
      · intro x hx
        rcases hx with hx | hx
        · obtain ⟨p1, p2, p3, p4, p5⟩ := h.popped x hx
          refine ⟨p1, p2, p3, ?_, fun y hy => hold y (p5 y hy)⟩
          show (if a = a ∧ x = top then false else u.values a x) = false
          split
          · rfl
          · exact p4
        · rw [hx]
          refine ⟨ht0, htn, hreach, ?_, ?_⟩
          · show (if a = a ∧ top = top then false else u.values a top) = false
            rw [if_pos ⟨rfl, rfl⟩]
          · intro y hy
            have hy' := (hedge y).1 hy
            exact hseen y (hl y hy').1 (hl y hy').2 (g6 y hy')
      · intro i j hij
        show (if i = a ∧ j = top then false else u.values i j) = u0.values i j
        rw [if_neg (fun hh => hij ⟨hh.1, Or.inr hh.2⟩)]
        exact h.frame i j (fun hh => hij ⟨hh.1, Or.inl hh.2⟩)
      · intro i j hij
        show (if i = a ∧ j = top then false else u.values i j) = false
        split
        · rfl
        · exact h.cleared i j hij

theorem fillReachablePass_spec (s : Solver) (links : Scc → List Int) (k : Nat) (scc : Scc)
    (u0 : Array2 Bool)
    (hid : ∀ (i : Nat) (scc : Scc), s.m_sccs.get? i = some scc → scc.id = i)
    (hlinks : ∀ (i : Nat) (scc : Scc), s.m_sccs.get? i = some scc →
      ∀ x ∈ links scc, 0 ≤ x ∧ x < (s.m_sccs.length : Int))
    (hk : s.m_sccs.get? k = some scc)
    (hw : u0.width = s.m_sccs.length) (hh : u0.height = s.m_sccs.length) :
    ∃ u', s.fillReachableLoop links scc.id (s.m_sccs.length + 2) u0
        (List.replicate s.m_sccs.length false) [scc.id] = .ok u' ∧
      u'.width = s.m_sccs.length ∧ u'.height = s.m_sccs.length ∧
      (∀ b, Relation.ReflTransGen (s.SccEdge links) k b → u'.values k b = false) ∧
      (∀ i j : Int, ¬ (i = (k : Int) ∧ Relation.ReflTransGen (s.SccEdge links) k j) →
        u'.values i j = u0.values i j) ∧
      (∀ i j, u0.values i j = false → u'.values i j = false) := by
  have hsid := hid k scc hk
  have hkn : k < s.m_sccs.length := (List.get?_eq_some.1 hk).1
  rw [hsid]
  have hinit : DfsInv s links (k : Int) u0 u0 (List.replicate s.m_sccs.length false)
      [(k : Int)] (fun _ => False) :=
    { vlen := List.length_replicate _ _
      width := hw
      height := hh
      onStack := by
        intro x hx
        rw [List.mem_singleton] at hx
        rw [hx]
        exact ⟨Int.natCast_nonneg _, by exact_mod_cast hkn, Relation.ReflTransGen.refl⟩
      seen := by
        intro x hx0 hxn hx
        rw [List.getD_eq_getElem?_getD, List.getElem?_replicate_of_lt (by omega)] at hx
        cases hx
      popped := fun x hx => hx.elim
      start := Or.inl (List.mem_singleton_self _)
      frame := fun _ _ _ => rfl
      cleared := fun _ _ h => h }
  obtain ⟨u', vis', done', e, hinv⟩ := fillReachableLoop_spec s links (k : Int) u0 hid hlinks
    (Int.natCast_nonneg _) (by exact_mod_cast hkn) (s.m_sccs.length + 2) u0 _ _ _ hinit
    (by
      rw [List.length_singleton, List.count_replicate_self]
      omega)
  have hdone : ∀ b, Relation.ReflTransGen (s.SccEdge links) k b → done' b := by
    intro b hb
    induction hb with
    | refl =>
      rcases hinv.start with g | g
      · cases g
      · exact g
    | tail _ hedge ih =>
      rcases (hinv.popped _ ih).2.2.2.2 _ hedge with g | g
      · cases g
      · exact g
  refine ⟨u', e, hinv.width, hinv.height, fun b hb => (hinv.popped b (hdone b hb)).2.2.2.1,
    ?_, hinv.cleared⟩
  intro i j hij
  exact hinv.frame i j (fun hh => hij ⟨hh.1, (hinv.popped j hh.2).2.2.1⟩)

theorem fillSccUnreachabilityIfSccTraversed_total (s : Solver) (hl : s.SccLinks) (k : Nat)
    (scc : Scc) (u0 : Array2 Bool) (hk : s.m_sccs.get? k = some scc)
    (hw : u0.width = s.m_sccs.length) (hh : u0.height = s.m_sccs.length) :
    ∃ u', s.fillSccUnreachabilityIfSccTraversed u0 scc = .ok u' ∧
      u'.width = s.m_sccs.length ∧ u'.height = s.m_sccs.length ∧
      ∀ i j, u'.values i j = false ↔
        (u0.values i j = false ∨ (i = k ∧ (s.SccPath k j ∨ s.SccPath j k))) := by
  obtain ⟨u1, e1, w1, h1, a1, b1, c1⟩ := fillReachablePass_spec s Scc.neighbours k scc u0
    hl.ids hl.neighbours hk hw hh
  obtain ⟨u2, e2, w2, h2, a2, b2, c2⟩ := fillReachablePass_spec s Scc.predecessors k scc u1
    hl.ids hl.predecessors hk w1 h1
  have hback : ∀ j, Relation.ReflTransGen (s.SccEdge Scc.predecessors) k j ↔
      s.SccPath j k := by
    intro j
    unfold Solver.SccPath
    constructor
    · intro h
      have h' : Relation.ReflTransGen (Function.swap (s.SccEdge Scc.neighbours)) k j :=
        h.mono (fun a b hab => (hl.converse b a).1 hab)
      exact Relation.reflTransGen_swap.1 h'
    · intro h
      have h' : Relation.ReflTransGen (Function.swap (s.SccEdge Scc.neighbours)) k j :=
        Relation.reflTransGen_swap.2 h
      exact h'.mono (fun a b hab => (hl.converse b a).2 hab)
  refine ⟨u2, ?_, w2, h2, ?_⟩
  · unfold Solver.fillSccUnreachabilityIfSccTraversed
      Solver.fillForwardSccUnreachabilityIfSccTraversed
      Solver.fillBackwardSccUnreachabilityIfSccTraversed
    rw [e1, ok_bind]
    exact e2
  · intro i j
    constructor
    · intro hf
      by_contra hno
      rw [not_or] at hno
      have e2' := b2 i j (fun hh => hno.2 ⟨hh.1, Or.inr ((hback j).1 hh.2)⟩)
      have e1' := b1 i j (fun hh => hno.2 ⟨hh.1, Or.inl hh.2⟩)
      rw [e2', e1'] at hf
      exact hno.1 hf
    · rintro (h0 | ⟨rfl, hp | hp⟩)
      · exact c2 i j (c1 i j h0)
      · exact c2 _ j (a1 j hp)
      · exact a2 j ((hback j).2 hp)

theorem fillSccConditionalUnreachability_total (s : Solver) (hl : s.SccLinks) :
    ∃ u : Array2 Bool,
      s.fillSccConditionalUnreachability =
        .ok { s with m_ifSccTraversedThenSccUnreachable := u } ∧
      u.width = s.m_sccs.length ∧ u.height = s.m_sccs.length ∧
      ∀ i j : Int, u.values i j = false ↔
        (0 ≤ i ∧ i < s.m_sccs.length ∧ (s.SccPath i j ∨ s.SccPath j i)) := by
  obtain ⟨u, e, hw, hh, hu⟩ := foldlM_total s.m_sccs
    (fun pre (u : Array2 Bool) => u.width = s.m_sccs.length ∧ u.height = s.m_sccs.length ∧
      ∀ i j : Int, u.values i j = false ↔
        (0 ≤ i ∧ i < pre.length ∧ (s.SccPath i j ∨ s.SccPath j i)))
    (fun (u : Array2 Bool) scc => s.fillSccUnreachabilityIfSccTraversed u scc)
    (by
      intro pre scc post u hfull ⟨hw, hh, hu⟩
      have hk : s.m_sccs.get? pre.length = some scc := by
        rw [hfull, List.get?_eq_getElem?, List.getElem?_append_right (le_refl _)]
        simp
      obtain ⟨u', e, w', h', hu'⟩ :=
        fillSccUnreachabilityIfSccTraversed_total s hl pre.length scc u hk hw hh
      refine ⟨u', e, w', h', ?_⟩
      intro i j
      rw [hu' i j, hu i j, List.length_append, List.length_singleton]
      push_cast
      constructor
      · rintro (⟨h0, h1, h2⟩ | ⟨rfl, h2⟩)
        · exact ⟨h0, by omega, h2⟩
        · exact ⟨Int.natCast_nonneg _, by omega, h2⟩
      · rintro ⟨h0, h1, h2⟩
        by_cases hlt : i < pre.length
        · exact Or.inl ⟨h0, hlt, h2⟩
        · have hi : i = (pre.length : Int) := by omega
          subst hi
          exact Or.inr ⟨rfl, h2⟩)
    s.m_sccs [] (Array2.filled s.m_sccs.length s.m_sccs.length true) rfl
    ⟨rfl, rfl, fun i j => ⟨fun h => (by cases h), fun h => (by
      have := h.2.1
      simp only [List.length_nil] at this
      have := h.1
      omega)⟩⟩
  refine ⟨u, ?_, hw, hh, hu⟩
  unfold Solver.fillSccConditionalUnreachability
  exact bind_eq_ok.2 ⟨u, e, rfl⟩

/-- **C16.** On SCC data as `identifySccs` leaves it (ids are positions in `m_sccs`, the
`neighbours` and `predecessors` entries are SCC ids, and `a` is a predecessor of `b` exactly
when `b` is a neighbour of `a`), `fillSccConditionalUnreachability` returns, and in the
matrix `U` it leaves, for all SCC ids `a`, `b`: `U[a][a] = false`, and `U[a][b] = true` if
and only if the condensation graph of the `neighbours` lists has neither a directed path
from `a` to `b` nor one from `b` to `a`. -/
theorem fillSccConditionalUnreachability_paths (s : Solver) (hl : s.SccLinks) :
    ∃ s', s.fillSccConditionalUnreachability = .ok s' ∧ s'.m_sccs = s.m_sccs ∧
      ∀ a b : Int, 0 ≤ a → a < s'.m_sccs.length → 0 ≤ b → b < s'.m_sccs.length →
        s'.m_ifSccTraversedThenSccUnreachable.values a a = false ∧
        (s'.m_ifSccTraversedThenSccUnreachable.values a b = true ↔
          ¬ s'.SccPath a b ∧ ¬ s'.SccPath b a) := by
  obtain ⟨u, e, _, _, hu⟩ := fillSccConditionalUnreachability_total s hl
  refine ⟨_, e, rfl, ?_⟩
  intro a b ha0 han _ _
  have han' : a < s.m_sccs.length := han
  refine ⟨(hu a a).2 ⟨ha0, han', Or.inl Relation.ReflTransGen.refl⟩, ?_⟩
  show u.values a b = true ↔ ¬ s.SccPath a b ∧ ¬ s.SccPath b a
  rw [← not_or, ← Bool.not_eq_false, hu a b]
  constructor
  · intro h hp
    exact h ⟨ha0, han', hp⟩
  · intro h hp
    exact h hp.2.2

theorem mem_setInsert (a x : Int) : ∀ l : List Int, x ∈ setInsert a l ↔ x = a ∨ x ∈ l := by
  intro l
  induction l with
  | nil => simp [setInsert]
  | cons b rest ih =>
    unfold setInsert
    split
    · simp
    · split
      · rename_i h1 h2
        subst h2
        simp
      · simp only [List.mem_cons, ih]
        tauto

theorem identifyOneScc_fresh (s : Solver) (Q : Scc → Prop)
    (hQ : ∀ nodes : List Coords2, Q { (default : Scc) with nodes := nodes }) :
    ∀ (fuel : Nat) (t : Tarjan) (v : Coords2) (t' : Tarjan),
      (∀ scc ∈ t.sccs, Q scc) → s.identifyOneScc fuel t v = .ok t' →
      ∀ scc ∈ t'.sccs, Q scc := by
  intro fuel
  induction fuel with
  | zero =>
    intro t v t' _ h
    unfold Solver.identifyOneScc at h
    cases h
  | succ fuel ih =>
    intro t v t' ht h
    unfold Solver.identifyOneScc at h
    simp only [bind_eq_ok] at h
    obtain ⟨indexAt, _, lowlinkAt, _, onStackAt, _, moves, _, t1, hfold, low, _, idx, _, h⟩ := h
    have ht1 : ∀ scc ∈ t1.sccs, Q scc := by
      refine foldlM_preserves (fun (t : Tarjan) => ∀ scc ∈ t.sccs, Q scc) _ ?_ _ _ _ ?_ hfold
      swap
      · exact ht
      intro t2 dir t3 hP hf

      split at hf
      · rw [pure_eq_ok] at hf
        exact hf ▸ hP
      · simp only [bind_eq_ok] at hf
        obtain ⟨ia, _, hf⟩ := hf
        split at hf
        · simp only [bind_eq_ok] at hf
          obtain ⟨t4, hrec, _, _, _, _, _, _, hf⟩ := hf
          rw [pure_eq_ok] at hf
          rw [← hf]
          exact ih t2 _ t4 hP hrec
        · simp only [bind_eq_ok] at hf
          obtain ⟨b, _, hf⟩ := hf
          split at hf
          · simp only [bind_eq_ok] at hf
            obtain ⟨_, _, _, _, _, _, hf⟩ := hf
            rw [pure_eq_ok] at hf
            rw [← hf]
            exact hP
          · rw [pure_eq_ok] at hf
            exact hf ▸ hP
    split at h
    · simp only [bind_eq_ok] at h
      obtain ⟨⟨stack, onStack, scc⟩, _, h⟩ := h
      rw [pure_eq_ok] at h
      rw [← h]
      intro x hx
      rcases List.mem_append.1 hx with hx | hx
      · exact ht1 x hx
      · rw [List.mem_singleton] at hx
        rw [hx]
        exact hQ _
    · rw [pure_eq_ok] at h
      exact h ▸ ht1

theorem predLoop_spec (idk : Int) :
    ∀ (N : List Int) (sccs sccs' : List Scc),
      N.foldlM
        (fun (sccs : List Scc) n => do
          let other ← vecGet sccs n
          vecSet sccs n { other with predecessors := other.predecessors ++ [idk] })
        sccs = Except.ok sccs' →
      sccs'.length = sccs.length ∧ (∀ n ∈ N, 0 ≤ n ∧ n < (sccs.length : Int)) ∧
      ∀ (i : Nat) (scc' : Scc), sccs'.get? i = some scc' →
        ∃ scc, sccs.get? i = some scc ∧ scc'.id = scc.id ∧
          scc'.neighbours = scc.neighbours ∧
          ∀ a, a ∈ scc'.predecessors ↔ a ∈ scc.predecessors ∨ (a = idk ∧ (i : Int) ∈ N) := by
  intro N
  induction N with
  | nil =>
    intro sccs sccs' h
    rw [List.foldlM_nil, pure_eq_ok] at h
    subst h
    refine ⟨rfl, fun n hn => (by cases hn), ?_⟩
    intro i scc' hi
    exact ⟨scc', hi, rfl, rfl, fun a => by simp⟩
  | cons n N ih =>
    intro sccs sccs' h
    rw [List.foldlM_cons] at h
    simp only [bind_eq_ok] at h
    obtain ⟨sccs1, ⟨other, hget, hset⟩, h⟩ := h
    obtain ⟨hn0, hnl, e⟩ := vecSet_eq_ok hset
    obtain ⟨_, _, hother⟩ := vecGet_eq_ok hget
    obtain ⟨l1, v1, r1⟩ := ih sccs1 sccs' h
    have hl : sccs1.length = sccs.length := by rw [e, List.length_set]
    refine ⟨l1.trans hl, ?_, ?_⟩
    · intro x hx
      rcases List.mem_cons.1 hx with rfl | hx
      · exact ⟨hn0, hnl⟩
      · have := v1 x hx
        rw [hl] at this
        exact this
    · intro i scc' hi
      obtain ⟨scc1, g1, g2, g3, g4⟩ := r1 i scc' hi
      by_cases hin : n.toNat = i
      · subst hin
        rw [e, List.get?_eq_getElem?, List.getElem?_set_self (by omega)] at g1
        cases g1
        refine ⟨other, hother, g2, g3, ?_⟩
        intro a
        rw [g4 a]
        simp only [List.mem_append, List.mem_singleton, List.mem_cons,
          Int.toNat_of_nonneg hn0]
        tauto
      · rw [e, List.get?_eq_getElem?, List.getElem?_set_ne hin, ← List.get?_eq_getElem?] at g1
        refine ⟨scc1, g1, g2, g3, ?_⟩
        intro a
        rw [g4 a]
        have hne : (i : Int) ≠ n := by omega
        simp only [List.mem_cons]
        constructor
        · rintro (g | ⟨g, g'⟩)
          · exact Or.inl g
          · exact Or.inr ⟨g, Or.inr g'⟩
        · rintro (g | ⟨g, g' | g'⟩)
          · exact Or.inl g
          · exact absurd g' hne
          · exact Or.inr ⟨g, g'⟩

theorem linkNeighbours_ne (s : Solver) (iv : Int) :
    ∀ (nodes : List Coords2) (acc acc' : List Move × List Int),
      (∀ x ∈ acc.2, x ≠ iv) →
      nodes.foldlM
        (fun (acc : List Move × List Int) v => do
          let moves ← s.m_movesByPosition.at v
          DirectionHelper.values.foldlM
            (fun (acc : List Move × List Int) dir => do
              let move := moves.get dir
              if move.id < 0 then pure acc
              else
                let iw ← s.m_sccIdAt.at move.endPos
                if iv ≠ iw then pure (acc.1 ++ [move], setInsert iw acc.2) else pure acc)
            acc)
        acc = Except.ok acc' →
      ∀ x ∈ acc'.2, x ≠ iv := by
  intro nodes acc acc' hacc h
  refine foldlM_preserves (fun (acc : List Move × List Int) => ∀ x ∈ acc.2, x ≠ iv) _ ?_
    _ _ _ hacc h
  intro a1 v a2 hP hf
  simp only [bind_eq_ok] at hf
  obtain ⟨moves, _, hf⟩ := hf
  refine foldlM_preserves (fun (acc : List Move × List Int) => ∀ x ∈ acc.2, x ≠ iv) _ ?_
    _ _ _ hP hf
  intro b1 dir b2 hP2 hf2
  split at hf2
  · rw [pure_eq_ok] at hf2
    exact hf2 ▸ hP2
  · simp only [bind_eq_ok] at hf2
    obtain ⟨iw, _, hf2⟩ := hf2
    split at hf2
    · rename_i hne
      rw [pure_eq_ok] at hf2
      rw [← hf2]
      intro x hx
      rcases (mem_setInsert iw x b1.2).1 hx with rfl | hx
      · exact fun e => hne e.symm
      · exact hP2 x hx
    · rw [pure_eq_ok] at hf2
      exact hf2 ▸ hP2

theorem linkScc_links (s : Solver) (k : Nat) (sccs sccs' : List Scc) (hk : k < 32768)
    (h : LinkInv k sccs) (hl : s.linkScc sccs (k : Int) = .ok sccs') :
    LinkInv (k + 1) sccs' ∧ sccs'.length = sccs.length := by
  unfold Solver.linkScc at hl
  simp only [bind_eq_ok] at hl
  obtain ⟨scc0, hget, ⟨bridges, N⟩, hfold, sccs1, hset, hpred⟩ := hl
  obtain ⟨_, hkl, hscc0⟩ := vecGet_eq_ok hget
  rw [Int.toNat_ofNat] at hscc0
  obtain ⟨_, _, e1⟩ := vecSet_eq_ok hset
  rw [Int.toNat_ofNat] at e1
  have hklen : k < sccs.length := by omega
  have hid0 : scc0.id = k := by
    rw [h.ids k scc0 hscc0]
    exact wrap16_of_range (by omega) (by omega)
  have hNne : ∀ x ∈ N, x ≠ (k : Int) :=
    linkNeighbours_ne s (k : Int) scc0.nodes _ _ (fun x hx => by cases hx) hfold
  have hunl := h.unlinked k scc0 hscc0 (le_refl _)
  obtain ⟨l1, v1, r1⟩ := predLoop_spec _ N sccs1 sccs' hpred
  have hl1 : sccs1.length = sccs.length := by rw [e1, List.length_set]
  have hlen : sccs'.length = sccs.length := l1.trans hl1
  have hdesc : ∀ (i : Nat) (sc2 : Scc), sccs'.get? i = some sc2 →
      ∃ sc, sccs.get? i = some sc ∧ sc2.id = sc.id ∧
        sc2.neighbours = (if i = k then N else sc.neighbours) ∧
        ∀ a, a ∈ sc2.predecessors ↔ a ∈ sc.predecessors ∨ (a = (k : Int) ∧ (i : Int) ∈ N) := by
    intro i sc2 hi
    obtain ⟨sc1, g1, g2, g3, g4⟩ := r1 i sc2 hi
    by_cases hik : i = k
    · subst hik
      rw [e1, List.get?_eq_getElem?, List.getElem?_set_self hklen] at g1
      cases g1
      refine ⟨scc0, hscc0, g2, ?_, ?_⟩
      · rw [if_pos rfl]; exact g3
      · intro a
        rw [g4 a]
        show a ∈ scc0.predecessors ∨ (a = scc0.id ∧ _) ↔ _
        rw [hid0]
    · rw [e1, List.get?_eq_getElem?, List.getElem?_set_ne (Ne.symm hik),
        ← List.get?_eq_getElem?] at g1
      refine ⟨sc1, g1, g2, ?_, ?_⟩
      · rw [if_neg hik]; exact g3
      · intro a
        rw [g4 a]
        show a ∈ sc1.predecessors ∨ (a = scc0.id ∧ _) ↔ _
        rw [hid0]
  have hex : ∀ (i : Nat) (sc : Scc), sccs.get? i = some sc →
      ∃ sc2, sccs'.get? i = some sc2 := by
    intro i sc hi
    have hlt := (List.get?_eq_some.1 hi).1
    exact ⟨sccs'.get ⟨i, by omega⟩, List.get?_eq_get _⟩
  refine ⟨?_, hlen⟩
  refine
    { ids := ?_
      linked := ?_
      unlinked := ?_
      preds := ?_
      converse := ?_ }
  · intro i sc2 hi
    obtain ⟨sc, g1, g2, _, _⟩ := hdesc i sc2 hi
    rw [g2]
    exact h.ids i sc g1
  · intro i sc2 hi hik x hx
    obtain ⟨sc, g1, _, g3, _⟩ := hdesc i sc2 hi
    rw [g3] at hx
    rw [hlen]
    by_cases hik' : i = k
    · rw [if_pos hik'] at hx
      have := v1 x hx
      rw [hl1] at this
      exact this
    · rw [if_neg hik'] at hx
      exact h.linked i sc g1 (by omega) x hx
  · intro i sc2 hi hik
    obtain ⟨sc, g1, _, g3, _⟩ := hdesc i sc2 hi
    rw [g3, if_neg (by omega)]
    exact h.unlinked i sc g1 (by omega)
  · intro i sc2 hi p hp
    obtain ⟨sc, g1, _, _, g4⟩ := hdesc i sc2 hi
    rcases (g4 p).1 hp with g | ⟨g, _⟩
    · have := h.preds i sc g1 p g
      push_cast
      omega
    · rw [g]
      push_cast
      omega
  · intro a b sb2 hb
    obtain ⟨sb, g1, _, _, g4⟩ := hdesc b sb2 hb
    rw [g4 a, h.converse a b sb g1]
    constructor
    · rintro (⟨ha0, sa, hsa, hmem⟩ | ⟨rfl, hmem⟩)
      · obtain ⟨sa2, hsa2⟩ := hex _ sa hsa
        obtain ⟨sa', g1', _, g3', _⟩ := hdesc _ sa2 hsa2
        rw [hsa] at g1'
        cases g1'
        refine ⟨ha0, sa2, hsa2, ?_⟩
        rw [g3']
        by_cases hak : a.toNat = k
        · rw [hak] at hsa
          rw [hscc0] at hsa
          cases hsa
          rw [hunl] at hmem
          cases hmem
        · rw [if_neg hak]
          exact hmem
      · obtain ⟨sa2, hsa2⟩ := hex k scc0 hscc0
        obtain ⟨sa', g1', _, g3', _⟩ := hdesc _ sa2 hsa2
        refine ⟨Int.natCast_nonneg _, sa2, by rw [Int.toNat_ofNat]; exact hsa2, ?_⟩
        rw [g3', if_pos rfl]
        exact hmem
    · rintro ⟨ha0, sa2, hsa2, hmem⟩
      obtain ⟨sa, g1', _, g3', _⟩ := hdesc _ sa2 hsa2
      rw [g3'] at hmem
      by_cases hak : a.toNat = k
      · rw [if_pos hak] at hmem
        right
        exact ⟨by omega, hmem⟩
      · rw [if_neg hak] at hmem
        left
        exact ⟨ha0, sa, g1', hmem⟩

theorem linkFold_links (s : Solver) :
    ∀ (k : Nat) (sccs0 sccs : List Scc), k ≤ 32768 → LinkInv 0 sccs0 →
      (List.range k).foldlM (fun (sccs : List Scc) (iv : Nat) => s.linkScc sccs (iv : Int))
        sccs0 = .ok sccs →
      LinkInv k sccs ∧ sccs.length = sccs0.length := by
  intro k
  induction k with
  | zero =>
    intro sccs0 sccs _ h0 h
    rw [List.range_zero, List.foldlM_nil, pure_eq_ok] at h
    subst h
    exact ⟨h0, rfl⟩
  | succ k ih =>
    intro sccs0 sccs hk h0 h
    rw [List.range_succ, List.foldlM_append, bind_eq_ok] at h
    obtain ⟨sccs1, h1, h2⟩ := h
    obtain ⟨i1, l1⟩ := ih sccs0 sccs1 (by omega) h0 h1
    simp only [List.foldlM_cons, List.foldlM_nil, bind_eq_ok, pure_eq_ok] at h2
    obtain ⟨sccs2, h3, h4⟩ := h2
    subst h4
    obtain ⟨i2, l2⟩ := linkScc_links s k sccs1 sccs2 (by omega) i1 h3
    exact ⟨i2, l2.trans l1⟩

theorem identifySccs_links {s s' : Solver} (h0 : s.m_sccs = [])
    (h : s.identifySccs = .ok s') (hfit : s'.m_sccs.length ≤ 32768) : s'.SccLinks := by
  unfold Solver.identifySccs at h
  simp only [bind_eq_ok] at h
  obtain ⟨t, ht, sccIdAt, _, sccs, hl, h⟩ := h
  rw [pure_eq_ok] at h
  subst h
  -- the components that the search emits have no links yet
  have hfresh : ∀ scc ∈ t.sccs, scc.neighbours = [] ∧ scc.predecessors = [] := by
    refine foldlM_preserves
      (fun (t : Tarjan) => ∀ scc ∈ t.sccs, scc.neighbours = [] ∧ scc.predecessors = [])
      _ ?_ _ _ _ ?_ ht
    · intro t1 p t2 hP hf
      simp only [bind_eq_ok] at hf
      obtain ⟨b, _, hf⟩ := hf
      split at hf
      · simp only [bind_eq_ok] at hf
        obtain ⟨ix, _, hf⟩ := hf
        split at hf
        · exact identifyOneScc_fresh s
            (fun scc => scc.neighbours = [] ∧ scc.predecessors = [])
            (fun _ => ⟨rfl, rfl⟩) _ _ _ _ hP hf
        · rw [pure_eq_ok] at hf
          exact hf ▸ hP
      · rw [pure_eq_ok] at hf
        exact hf ▸ hP
    · intro scc hscc
      rw [h0] at hscc
      cases hscc
  have hfresh0 : ∀ (i : Nat) (scc : Scc),
      ((t.sccs.reverse.enum).map fun (p : Nat × Scc) =>
        { p.2 with id := wrap16 p.1 }).get? i = some scc →
      scc.neighbours = [] ∧ scc.predecessors = [] := by
    intro i scc hget
    rw [List.get?_eq_getElem?, List.getElem?_map, List.getElem?_enum] at hget
    cases hx : t.sccs.reverse[i]? with
    | none =>
      rw [hx] at hget
      cases hget
    | some x =>
      rw [hx] at hget
      rw [← Option.some.inj hget]
      exact hfresh x (List.mem_reverse.1 (List.get?_mem (by rw [List.get?_eq_getElem?]; exact hx)))
  have hinit : LinkInv 0 ((t.sccs.reverse.enum).map fun (p : Nat × Scc) =>
      { p.2 with id := wrap16 p.1 }) :=
    { ids := enum_ids _
      linked := fun i scc _ hi => by omega
      unlinked := fun i scc hget _ => (hfresh0 i scc hget).1
      preds := by
        intro i scc hget p hp
        rw [(hfresh0 i scc hget).2] at hp
        cases hp
      converse := by
        intro a b sb hb
        rw [(hfresh0 b sb hb).2]
        constructor
        · intro hm
          cases hm
        · rintro ⟨_, sa, hsa, hm⟩
          rw [(hfresh0 _ sa hsa).1] at hm
          cases hm }
  generalize ((t.sccs.reverse.enum).map fun (p : Nat × Scc) =>
    { p.2 with id := wrap16 p.1 }) = sccs0 at hl hinit
  have hlen0 : sccs.length = sccs0.length :=
    foldlM_preserves (fun (v : List Scc) => v.length = sccs0.length) _
      (by
        intro v iv v' hv hf
        unfold Solver.linkScc at hf
        simp only [bind_eq_ok] at hf
        obtain ⟨_, _, _, _, v1, hset, hpred⟩ := hf
        obtain ⟨_, _, e1⟩ := vecSet_eq_ok hset
        have := (predLoop_spec _ _ _ _ hpred).1
        rw [this, e1, List.length_set]
        exact hv) _ _ _ rfl hl
  have hle : sccs0.length ≤ 32768 := by
    rw [← hlen0]
    exact hfit
  obtain ⟨hinv, hlen⟩ := linkFold_links _ sccs0.length sccs0 sccs hle hinit hl
  have hn : sccs.length ≤ 32768 := hfit
  refine
    { ids := ?_
      neighbours := ?_
      predecessors := ?_
      converse := ?_ }
  · intro i scc hi
    have hi' : sccs.get? i = some scc := hi
    have hlt := (List.get?_eq_some.1 hi').1
    rw [hinv.ids i scc hi']
    exact wrap16_of_range (by omega) (by omega)
  · intro i scc hi x hx
    have hi' : sccs.get? i = some scc := hi
    have hlt := (List.get?_eq_some.1 hi').1
    rw [hlen] at hlt
    have := hinv.linked i scc hi' hlt x hx
    exact this
  · intro i scc hi p hp
    have hi' : sccs.get? i = some scc := hi
    have := hinv.preds i scc hi' p hp
    show 0 ≤ p ∧ p < (sccs.length : Int)
    rw [hlen]
    exact this
  · intro a b
    show (0 ≤ b ∧ ∃ sb, sccs.get? b.toNat = some sb ∧ a ∈ sb.predecessors) ↔
      (0 ≤ a ∧ ∃ sa, sccs.get? a.toNat = some sa ∧ b ∈ sa.neighbours)
    constructor
    · rintro ⟨hb0, sb, hsb, hm⟩
      have := (hinv.converse a b.toNat sb hsb).1 hm
      rw [Int.toNat_of_nonneg hb0] at this
      exact this
    · rintro ⟨ha0, sa, hsa, hm⟩
      have hlt := (List.get?_eq_some.1 hsa).1
      rw [hlen] at hlt
      obtain ⟨hb0, hbn⟩ := hinv.linked _ sa hsa hlt b hm
      have hbl : b.toNat < sccs.length := by omega
      refine ⟨hb0, sccs.get ⟨b.toNat, hbl⟩, List.get?_eq_get _, ?_⟩
      refine (hinv.converse a b.toNat _ (List.get?_eq_get hbl)).2 ⟨ha0, sa, hsa, ?_⟩
      rw [Int.toNat_of_nonneg hb0]
      exact hm

theorem foldlM_inv {σ α : Type} (P : List α → σ → Prop) (f : σ → α → Except Fault σ)
    (hstep : ∀ pre a s s', P pre s → f s a = .ok s' → P (pre ++ [a]) s') :
    ∀ (l pre : List α) (s s' : σ), P pre s → l.foldlM f s = .ok s' → P (pre ++ l) s' := by
  intro l
  induction l with
  | nil =>
    intro pre s s' hs h
    rw [List.foldlM_nil, pure_eq_ok] at h
    rw [List.append_nil]
    exact h ▸ hs
  | cons a l ih =>
    intro pre s s' hs h
    rw [List.foldlM_cons, bind_eq_ok] at h
    obtain ⟨s1, h1, h2⟩ := h
    have := ih (pre ++ [a]) s1 s' (hstep pre a s s1 hs h1) h2
    rw [List.append_assoc] at this
    exact this

theorem setInsert_sorted (a : Int) :
    ∀ l : List Int, l.Sorted (· < ·) → (setInsert a l).Sorted (· < ·) := by
  intro l
  induction l with
  | nil => intro _; simp [setInsert]
  | cons b rest ih =>
    intro hl
    unfold setInsert
    have hb := List.sorted_cons.1 hl
    split
    · rename_i hab
      refine List.sorted_cons.2 ⟨?_, hl⟩
      intro x hx
      rcases List.mem_cons.1 hx with rfl | hx
      · exact hab
      · exact lt_trans hab (hb.1 x hx)
    · split
      · exact hl
      · rename_i h1 h2
        refine List.sorted_cons.2 ⟨?_, ih hb.2⟩
        intro x hx
        rcases (mem_setInsert a x rest).1 hx with rfl | hx
        · omega
        · exact hb.1 x hx

theorem insertAt_spec {v v' : List (List Int)} {t j : Int} {old : List Int}
    (hget : vecGet v t = .ok old) (hset : vecSet v t (setInsert j old) = .ok v') :
    v'.length = v.length ∧ 0 ≤ t ∧ t < v.length ∧
      (∀ (k : Nat) (x : Int), x ∈ v'.getD k [] ↔ x ∈ v.getD k [] ∨ ((k : Int) = t ∧ x = j)) ∧
      ((∀ k : Nat, (v.getD k []).Sorted (· < ·)) → ∀ k : Nat, (v'.getD k []).Sorted (· < ·)) := by
  obtain ⟨h0, hl, e⟩ := vecSet_eq_ok hset
  obtain ⟨_, _, g⟩ := vecGet_eq_ok hget
  have hold : v.getD t.toNat [] = old := by
    rw [List.getD_eq_getElem?_getD, ← List.get?_eq_getElem?, g]
    rfl
  subst e
  refine ⟨List.length_set _ _ _, h0, hl, ?_, ?_⟩
  · intro k x
    by_cases hk : t.toNat = k
    · subst hk
      rw [List.getD_eq_getElem?_getD, List.getElem?_set_self (by omega)]
      show x ∈ setInsert j old ↔ _
      rw [mem_setInsert, hold]
      constructor
      · rintro (h | h)
        · exact Or.inr ⟨by omega, h⟩
        · exact Or.inl h
      · rintro (h | ⟨_, h⟩)
        · exact Or.inr h
        · exact Or.inl h
    · rw [List.getD_eq_getElem?_getD, List.getElem?_set_ne hk, ← List.getD_eq_getElem?_getD]
      constructor
      · exact Or.inl
      · rintro (h | ⟨h, _⟩)
        · exact h
        · omega
  · intro hs k
    by_cases hk : t.toNat = k
    · subst hk
      rw [List.getD_eq_getElem?_getD, List.getElem?_set_self (by omega)]
      show (setInsert j old).Sorted _
      rw [← hold]
      exact setInsert_sorted j _ (hs _)
    · rw [List.getD_eq_getElem?_getD, List.getElem?_set_ne hk, ← List.getD_eq_getElem?_getD]
      exact hs k

theorem assignJewelsToSccs_shape {s s' : Solver} (h : s.assignJewelsToSccs = .ok s') :
    s'.m_allMoves = s.m_allMoves ∧ s'.m_sccIdAt = s.m_sccIdAt ∧
      s'.m_jewelIdByPosition = s.m_jewelIdByPosition ∧
      ∃ jewels : List (List Int), jewels.length = s.m_sccs.length ∧
        s'.m_sccs = (s.m_sccs.zip jewels).map
          (fun (p : Scc × List Int) => { p.1 with jewels := p.2.map wrap16 }) ∧
        (∀ k : Nat, (jewels.getD k []).Sorted (· < ·)) ∧
        ∀ (k : Nat) (x : Int), x ∈ jewels.getD k [] ↔
          ∃ m ∈ s.m_allMoves, 0 ≤ m.id ∧ x ∈ m.jewels ∧ s.jewelScc m x = k := by
  unfold Solver.assignJewelsToSccs at h
  simp only [bind_eq_ok] at h
  obtain ⟨jewels, hj, last, _, h⟩ := h
  unfold Solver.resetSccCountsPerJewel at h
  simp only [bind_eq_ok] at h
  obtain ⟨counts, _, h⟩ := h
  rw [pure_eq_ok] at h
  subst h
  refine ⟨rfl, rfl, rfl, jewels, ?_⟩
  have key := foldlM_inv
    (fun (pre : List Move) (v : List (List Int)) => v.length = s.m_sccs.length ∧
      (∀ k : Nat, (v.getD k []).Sorted (· < ·)) ∧
      ∀ (k : Nat) (x : Int), x ∈ v.getD k [] ↔
        ∃ m ∈ pre, 0 ≤ m.id ∧ x ∈ m.jewels ∧ s.jewelScc m x = k)
    _ ?_ s.m_allMoves [] _ jewels ?_ hj
  · rw [List.nil_append] at key
    exact ⟨key.1, rfl, key.2.1, key.2.2⟩
  · intro pre m v v' ⟨hlen, hsorted, hmem⟩ hf
    split at hf
    · rename_i hneg
      rw [pure_eq_ok] at hf
      subst hf
      refine ⟨hlen, hsorted, ?_⟩
      intro k x
      rw [hmem k x]
      constructor
      · rintro ⟨m', hm', g⟩
        exact ⟨m', List.mem_append_left _ hm', g⟩
      · rintro ⟨m', hm', g⟩
        rcases List.mem_append.1 hm' with hm' | hm'
        · exact ⟨m', hm', g⟩
        · rw [List.mem_singleton] at hm'
          subst hm'
          omega
    · rename_i hpos
      simp only [bind_eq_ok] at hf
      obtain ⟨iv, hiv, iw, hiw, hf⟩ := hf
      have eiv := (Array2.at_eq_ok hiv).2
      have eiw := (Array2.at_eq_ok hiw).2
      have inner := foldlM_inv
        (fun (js : List Int) (w : List (List Int)) => w.length = s.m_sccs.length ∧
          (∀ k : Nat, (w.getD k []).Sorted (· < ·)) ∧
          ∀ (k : Nat) (x : Int), x ∈ w.getD k [] ↔
            x ∈ v.getD k [] ∨ (x ∈ js ∧ s.jewelScc m x = k))
        _ ?_ m.jewels [] v v' ⟨hlen, hsorted, fun k x => by simp⟩ hf
      · rw [List.nil_append] at inner
        refine ⟨inner.1, inner.2.1, ?_⟩
        intro k x
        rw [inner.2.2 k x, hmem k x]
        constructor
        · rintro (⟨m', hm', g⟩ | ⟨g1, g2⟩)
          · exact ⟨m', List.mem_append_left _ hm', g⟩
          · exact ⟨m, List.mem_append_right _ (List.mem_singleton_self _), by omega, g1, g2⟩
        · rintro ⟨m', hm', g⟩
          rcases List.mem_append.1 hm' with hm' | hm'
          · exact Or.inl ⟨m', hm', g⟩
          · rw [List.mem_singleton] at hm'
            subst hm'
            exact Or.inr ⟨g.2.1, g.2.2⟩
      · intro js j w w' ⟨wlen, wsorted, wmem⟩ hstep
        simp only [bind_eq_ok] at hstep
        obtain ⟨jid, hjid, hstep⟩ := hstep
        have ejid := (Array2.at_eq_ok hjid).2
        have htarget : ∀ t : Int, (if iv ≠ iw ∧ jid ≠ j then iw else iv) = t →
            s.jewelScc m j = t := by
          intro t ht
          unfold Solver.jewelScc
          rw [eiv, eiw, ejid]
          exact ht
        have hfinish : ∀ (t : Int) (old : List Int), s.jewelScc m j = t →
            vecGet w t = .ok old → vecSet w t (setInsert j old) = .ok w' →
            w'.length = s.m_sccs.length ∧ (∀ k : Nat, (w'.getD k []).Sorted (· < ·)) ∧
            ∀ (k : Nat) (x : Int), x ∈ w'.getD k [] ↔
              x ∈ v.getD k [] ∨ (x ∈ js ++ [j] ∧ s.jewelScc m x = k) := by
          intro t old ht hget hset
          obtain ⟨a1, a2, a3, a4, a5⟩ := insertAt_spec hget hset
          refine ⟨a1.trans wlen, a5 wsorted, ?_⟩
          intro k x
          rw [a4 k x, wmem k x]
          simp only [List.mem_append, List.mem_singleton]
          constructor
          · rintro ((g | ⟨g1, g2⟩) | ⟨g1, g2⟩)
            · exact Or.inl g
            · exact Or.inr ⟨Or.inl g1, g2⟩
            · exact Or.inr ⟨Or.inr g2, by rw [g2, ht]; exact g1.symm⟩
          · rintro (g | ⟨g1 | g1, g2⟩)
            · exact Or.inl (Or.inl g)
            · exact Or.inl (Or.inr ⟨g1, g2⟩)
            · right
              rw [g1] at g2
              exact ⟨by rw [← g2, ht], g1⟩
        split at hstep
        · rename_i hc
          simp only [bind_eq_ok] at hstep
          obtain ⟨old, hget, hset⟩ := hstep
          exact hfinish iw old (htarget iw (if_pos hc)) hget hset
        · rename_i hc
          simp only [bind_eq_ok] at hstep
          obtain ⟨old, hget, hset⟩ := hstep
          exact hfinish iv old (htarget iv (if_neg hc)) hget hset
  · refine ⟨List.length_replicate _ _, ?_, ?_⟩
    · intro k
      rw [List.getD_eq_getElem?_getD]
      by_cases hk : k < s.m_sccs.length
      · rw [List.getElem?_replicate_of_lt hk]
        exact List.sorted_nil
      · rw [List.getElem?_eq_none (by rw [List.length_replicate]; omega)]
        exact List.sorted_nil
    · intro k x
      constructor
      · intro hx
        rw [List.getD_eq_getElem?_getD] at hx
        by_cases hk : k < s.m_sccs.length
        · rw [List.getElem?_replicate_of_lt hk] at hx
          cases hx
        · rw [List.getElem?_eq_none (by rw [List.length_replicate]; omega)] at hx
          cases hx
      · rintro ⟨m, hm, _⟩
        cases hm

theorem sccsIdentified_of_isSccsIdentified {level : Level}
    (h : isSccsIdentified level = true) :
    (distanced level).identifySccs = .ok (sccsIdentified level) := by
  unfold isSccsIdentified at h
  unfold sccsIdentified
  split at h
  · rename_i s hs
    rw [hs]
  · cases h

theorem sccsAssigned_of_isSccsAssigned {level : Level} (h : isSccsAssigned level = true) :
    (sccsIdentified level).assignJewelsToSccs = .ok (sccsAssigned level) := by
  unfold isSccsAssigned at h
  unfold sccsAssigned
  split at h
  · rename_i s hs
    rw [hs]
  · cases h

theorem assignJewelsToSccs_links {s s' : Solver} (hl : s.SccLinks)
    (h : s.assignJewelsToSccs = .ok s') : s'.SccLinks := by
  obtain ⟨_, _, _, jewels, hlen, hs, _, _⟩ := assignJewelsToSccs_shape h
  have hlen' : s'.m_sccs.length = s.m_sccs.length := by
    rw [hs, List.length_map, List.length_zip, hlen, Nat.min_self]
  have hto : ∀ (i : Nat) (scc' : Scc), s'.m_sccs.get? i = some scc' →
      ∃ scc, s.m_sccs.get? i = some scc ∧ scc'.id = scc.id ∧
        scc'.neighbours = scc.neighbours ∧ scc'.predecessors = scc.predecessors := by
    intro i scc' hget
    rw [hs, List.get?_eq_getElem?, List.getElem?_map] at hget
    cases hz : (s.m_sccs.zip jewels)[i]? with
    | none =>
      rw [hz] at hget
      cases hget
    | some p =>
      rw [hz] at hget
      rw [List.getElem?_zip_eq_some] at hz
      refine ⟨p.1, by rw [List.get?_eq_getElem?]; exact hz.1, ?_⟩
      rw [← Option.some.inj hget]
      exact ⟨rfl, rfl, rfl⟩
  have hfrom : ∀ (i : Nat) (scc : Scc), s.m_sccs.get? i = some scc →
      ∃ scc', s'.m_sccs.get? i = some scc' ∧ scc'.id = scc.id ∧
        scc'.neighbours = scc.neighbours ∧ scc'.predecessors = scc.predecessors := by
    intro i scc hget
    have hlt := (List.get?_eq_some.1 hget).1
    have hlt' : i < s'.m_sccs.length := by omega
    obtain ⟨scc0, g1, g2⟩ := hto i _ (List.get?_eq_get hlt')
    rw [hget] at g1
    cases g1
    exact ⟨_, List.get?_eq_get hlt', g2⟩
  have hedge : ∀ (links : Scc → List Int),
      (∀ a b : Scc, a.neighbours = b.neighbours → a.predecessors = b.predecessors →
        links a = links b) →
      ∀ a b : Int, s'.SccEdge links a b ↔ s.SccEdge links a b := by
    intro links hlinks a b
    constructor
    · rintro ⟨h0, sa, hsa, hm⟩
      obtain ⟨sa0, g1, _, g3, g4⟩ := hto _ sa hsa
      exact ⟨h0, sa0, g1, by rw [← hlinks sa sa0 g3 g4]; exact hm⟩
    · rintro ⟨h0, sa, hsa, hm⟩
      obtain ⟨sa', g1, _, g3, g4⟩ := hfrom _ sa hsa
      exact ⟨h0, sa', g1, by rw [hlinks sa' sa g3 g4]; exact hm⟩
  refine
    { ids := ?_
      neighbours := ?_
      predecessors := ?_
      converse := ?_ }
  · intro i scc' hget
    obtain ⟨scc, g1, g2, _, _⟩ := hto i scc' hget
    rw [g2]
    exact hl.ids i scc g1
  · intro i scc' hget x hx
    obtain ⟨scc, g1, _, g3, _⟩ := hto i scc' hget
    rw [hlen']
    exact hl.neighbours i scc g1 x (by rw [← g3]; exact hx)
  · intro i scc' hget x hx
    obtain ⟨scc, g1, _, _, g4⟩ := hto i scc' hget
    rw [hlen']
    exact hl.predecessors i scc g1 x (by rw [← g4]; exact hx)
  · intro a b
    rw [hedge Scc.predecessors (fun _ _ _ h => h), hedge Scc.neighbours (fun _ _ h _ => h)]
    exact hl.converse a b

theorem fillSccConditionalUnreachability_paths_witness :
    ∃ s', (sccsIdentified exclusiveLevel).fillSccConditionalUnreachability = .ok s' ∧
      s'.m_sccs = (sccsIdentified exclusiveLevel).m_sccs ∧
      ∀ a b : Int, 0 ≤ a → a < s'.m_sccs.length → 0 ≤ b → b < s'.m_sccs.length →
        s'.m_ifSccTraversedThenSccUnreachable.values a a = false ∧
        (s'.m_ifSccTraversedThenSccUnreachable.values a b = true ↔
          ¬ s'.SccPath a b ∧ ¬ s'.SccPath b a) :=
  fillSccConditionalUnreachability_paths (sccsIdentified exclusiveLevel)
    (identifySccs_links (by decide!) (sccsIdentified_of_isSccsIdentified (by decide!))
      (by decide!))

theorem Coords2.eq_iff (x c : Coords2) : (x.x = c.x ∧ x.y = c.y) ↔ x = c := by
  cases x
  cases c
  simp

/-- Lowering `lowlinkAt[v]` of a cell whose call is open keeps the search invariant. -/
theorem TarjanInv.lowerLow {s : Solver} {G : Coords2 → Prop} {t : Tarjan} (v : Coords2)
    (m : Int) (low' : Array2 Int) (h : TarjanInv s G t) (hv : G v) (hm : m ≤ t.low v)
    (hlow : ∀ i j, low'.values i j = if i = v.x ∧ j = v.y then m else t.lowlinkAt.values i j) :
    TarjanInv s G { t with lowlinkAt := low' } := by
  have hl : ∀ x, ({ t with lowlinkAt := low' } : Tarjan).low x =
      if x = v then m else t.low x := by
    intro x
    show low'.values x.x x.y = _
    rw [hlow]
    by_cases e : x = v
    · rw [if_pos e, if_pos ((Coords2.eq_iff x v).2 e)]
    · rw [if_neg e, if_neg (fun c => e ((Coords2.eq_iff x v).1 c))]
      rfl
  have hle : ∀ x, ({ t with lowlinkAt := low' } : Tarjan).low x ≤ t.low x := by
    intro x
    rw [hl]
    split
    · rename_i e
      rw [e]
      exact hm
    · exact le_refl _
  refine
    { nodupS := h.nodupS, onStack := h.onStack, idxS := h.idxS, lowS := ?_,
      sorted := h.sorted, counter := h.counter, grayOn := h.grayOn, emitted := h.emitted,
      visited := h.visited, unique := h.unique, order := h.order, blackP := ?_, blackE := ?_ }
  · intro x hx
    exact le_trans (hle x) (h.lowS x hx)
  · intro x hx hg
    have hxv : x ≠ v := fun e => hg (e ▸ hv)
    obtain ⟨p, hp, h1, h2, h3⟩ := h.blackP x hx hg
    refine ⟨p, hp, h1, ?_, h3⟩
    rw [hl x, if_neg hxv]
    exact le_trans (hle p) h2
  · intro x hx hg y hy
    have hxv : x ≠ v := fun e => hg (e ▸ hv)
    rcases h.blackE x hx hg y hy with e | ⟨e1, e2⟩
    · exact Or.inl e
    · refine Or.inr ⟨e1, ?_⟩
      rw [hl x, if_neg hxv]
      exact e2

/-- The first statements of `identifyOneScc(v)` on an unvisited cell `v`. -/
theorem TarjanInv.pushCell {s : Solver} {G : Coords2 → Prop} {t : Tarjan} (v : Coords2)
    (ia la : Array2 Int) (oa : Array2 Bool) (h : TarjanInv s G t) (hv : t.idx v = -1)
    (hia : ∀ i j, ia.values i j = if i = v.x ∧ j = v.y then t.index else t.indexAt.values i j)
    (hla : ∀ i j, la.values i j =
      if i = v.x ∧ j = v.y then t.index else t.lowlinkAt.values i j)
    (hoa : ∀ i j, oa.values i j = if i = v.x ∧ j = v.y then true else t.onStackAt.values i j) :
    TarjanInv s (fun x => G x ∨ x = v)
      { t with indexAt := ia, lowlinkAt := la, index := t.index + 1, stack := v :: t.stack,
               onStackAt := oa } := by
  have hi : ∀ x, (Tarjan.mk (v :: t.stack) (t.index + 1) ia la oa t.sccs).idx x =
        if x = v then t.index else t.idx x := by
    intro x
    show ia.values x.x x.y = _
    rw [hia]
    by_cases e : x = v
    · rw [if_pos e, if_pos ((Coords2.eq_iff x v).2 e)]
    · rw [if_neg e, if_neg (fun c => e ((Coords2.eq_iff x v).1 c))]
      rfl
  have hl : ∀ x, (Tarjan.mk (v :: t.stack) (t.index + 1) ia la oa t.sccs).low x =
        if x = v then t.index else t.low x := by
    intro x
    show la.values x.x x.y = _
    rw [hla]
    by_cases e : x = v
    · rw [if_pos e, if_pos ((Coords2.eq_iff x v).2 e)]
    · rw [if_neg e, if_neg (fun c => e ((Coords2.eq_iff x v).1 c))]
      rfl
  have hvs : v ∉ t.stack := by
    intro hin
    have := (h.idxS v hin).1
    omega
  have hne : ∀ x ∈ t.stack, x ≠ v := fun x hx e => hvs (e ▸ hx)
  have hc := h.counter
  refine
    { nodupS := List.nodup_cons.2 ⟨hvs, h.nodupS⟩, onStack := ?_, idxS := ?_, lowS := ?_,
      sorted := ?_, counter := ?_, grayOn := ?_, emitted := ?_,
      visited := ?_, unique := h.unique, order := h.order, blackP := ?_, blackE := ?_ }
  · intro x
    show oa.values x.x x.y = true ↔ x ∈ v :: t.stack
    rw [hoa, List.mem_cons]
    by_cases e : x = v
    · rw [if_pos ((Coords2.eq_iff x v).2 e)]
      exact ⟨fun _ => Or.inl e, fun _ => rfl⟩
    · rw [if_neg (fun c => e ((Coords2.eq_iff x v).1 c))]
      exact ⟨fun g => Or.inr ((h.onStack x).1 g), fun g => (h.onStack x).2 (g.resolve_left e)⟩
  · intro x hx
    rw [hi]
    show _ ∧ _ < t.index + 1
    rcases List.mem_cons.1 hx with e | e
    · rw [if_pos e]
      omega
    · rw [if_neg (hne x e)]
      have := h.idxS x e
      omega
  · intro x hx
    rw [hi, hl]
    rcases List.mem_cons.1 hx with e | e
    · rw [if_pos e, if_pos e]
    · rw [if_neg (hne x e), if_neg (hne x e)]
      exact h.lowS x e
  · show List.Pairwise _ (v :: t.stack)
    rw [List.pairwise_cons]
    refine ⟨?_, ?_⟩
    · intro a ha
      rw [hi, hi, if_pos rfl, if_neg (hne a ha)]
      exact (h.idxS a ha).2
    · refine h.sorted.imp_of_mem ?_
      intro a b ha hb hab
      rw [hi, hi, if_neg (hne a ha), if_neg (hne b hb)]
      exact hab
  · show 0 ≤ t.index + 1
    omega
  · intro g hg
    show g ∈ v :: t.stack
    rcases hg with hg | hg
    · exact List.mem_cons_of_mem _ (h.grayOn g hg)
    · rw [hg]
      exact List.mem_cons_self _ _
  · intro x hx
    have hx0 : t.Emitted x := hx
    obtain ⟨e1, e2⟩ := h.emitted x hx0
    have hxv : x ≠ v := fun e => e1 (e ▸ hv)
    rw [hi, if_neg hxv]
    refine ⟨e1, ?_⟩
    show x ∉ v :: t.stack
    rw [List.mem_cons]
    exact fun c => c.elim hxv e2
  · intro x hx
    rw [hi] at hx
    by_cases e : x = v
    · left
      rw [e]
      exact List.mem_cons_self _ _
    · rw [if_neg e] at hx
      rcases h.visited x hx with c | c
      · exact Or.inl (List.mem_cons_of_mem _ c)
      · exact Or.inr c
  · intro x hx hg
    have hxv : x ≠ v := fun e => hg (Or.inr e)
    have hxs : x ∈ t.stack := (List.mem_cons.1 hx).resolve_left hxv
    obtain ⟨p, hp, h1, h2, h3⟩ := h.blackP x hxs (fun c => hg (Or.inl c))
    refine ⟨p, List.mem_cons_of_mem _ hp, ?_, ?_, ?_⟩
    · rw [hi, hi, if_neg hxv, if_neg (hne p hp)]
      exact h1
    · rw [hl, hl, if_neg hxv, if_neg (hne p hp)]
      exact h2
    · intro g hgg
      rw [hi x, if_neg hxv, hi p, if_neg (hne p hp)]
      rcases hgg with hgg | hgg
      · rw [hi, if_neg (hne g (h.grayOn g hgg))]
        exact h3 g hgg
      · rw [hi, if_pos hgg]
        have := (h.idxS x hxs).2
        omega
  · intro x hx hg y hy
    have hxv : x ≠ v := fun e => hg (Or.inr e)
    have hxs : x ∈ t.stack := (List.mem_cons.1 hx).resolve_left hxv
    rcases h.blackE x hxs (fun c => hg (Or.inl c)) y hy with e | ⟨e1, e2⟩
    · exact Or.inl e
    · refine Or.inr ⟨List.mem_cons_of_mem _ e1, ?_⟩
      rw [hl, hi, if_neg hxv, if_neg (hne y e1)]
      exact e2

/-- A cell `w` whose call has returned leaving it on the stack becomes a finished cell of
the search below `v`. -/
theorem TarjanInv.blacken {s : Solver} {G : Coords2 → Prop} {t : Tarjan} (v w : Coords2)
    (h : TarjanInv s (fun x => (G x ∨ x = v) ∨ x = w) t) (hv : v ∈ t.stack)
    (hidx : t.idx v < t.idx w) (hlow : t.low v ≤ t.low w)
    (htop : ∀ g, G g → t.idx g ≤ t.idx v)
    (hE : ∀ y, s.SlotEdge w y → t.Emitted y ∨ (y ∈ t.stack ∧ t.low w ≤ t.idx y)) :
    TarjanInv s (fun x => G x ∨ x = v) t := by
  refine
    { nodupS := h.nodupS, onStack := h.onStack, idxS := h.idxS, lowS := h.lowS,
      sorted := h.sorted, counter := h.counter, grayOn := fun g hg => h.grayOn g (Or.inl hg),
      emitted := h.emitted, visited := h.visited, unique := h.unique, order := h.order,
      blackP := ?_, blackE := ?_ }
  · intro x hx hg
    by_cases e : x = w
    · subst e
      refine ⟨v, hv, hidx, hlow, ?_⟩
      intro g hgg
      rcases hgg with hgg | hgg
      · have := htop g hgg
        omega
      · rw [hgg]
        omega
    · obtain ⟨p, hp, h1, h2, h3⟩ := h.blackP x hx (fun c => c.elim hg e)
      exact ⟨p, hp, h1, h2, fun g hgg => h3 g (Or.inl hgg)⟩
  · intro x hx hg y hy
    by_cases e : x = w
    · subst e
      exact hE y hy
    · exact h.blackE x hx (fun c => c.elim hg e) y hy
/-- The root case of `identifyOneScc(v)`: when `lowlinkAt[v] = indexAt[v]` and every edge
from `v` has been examined, popping the stack down to `v` emits a component all of whose
edges lead into itself or into components emitted earlier. -/
theorem TarjanInv.pop {s : Solver} {G : Coords2 → Prop} {t : Tarjan} (v : Coords2)
    (seg rest : List Coords2) (oa : Array2 Bool)
    (h : TarjanInv s (fun x => G x ∨ x = v) t) (hst : t.stack = seg ++ v :: rest)
    (hG : ∀ g, G g → g ∈ rest) (hroot : t.low v = t.idx v)
    (hE : ∀ y, s.SlotEdge v y → t.Emitted y ∨ (y ∈ t.stack ∧ t.low v ≤ t.idx y))
    (hoa : ∀ x : Coords2, oa.values x.x x.y = true ↔ x ∈ rest) :
    TarjanInv s G (Tarjan.mk rest t.index t.indexAt t.lowlinkAt oa
      (t.sccs ++ [{ (default : Scc) with nodes := seg ++ [v] }])) := by
  have hnd := h.nodupS
  have hso := h.sorted
  rw [hst] at hnd hso
  rw [List.nodup_append] at hnd
  obtain ⟨nd1, nd2, nd3⟩ := hnd
  rw [List.nodup_cons] at nd2
  obtain ⟨nd4, nd5⟩ := nd2
  rw [List.pairwise_append] at hso
  obtain ⟨so1, so2, so3⟩ := hso
  rw [List.pairwise_cons] at so2
  obtain ⟨so4, so5⟩ := so2
  have hsegv : ∀ x ∈ seg, t.idx v < t.idx x := fun x hx => so3 x hx v (List.mem_cons_self _ _)
  have hrestv : ∀ x ∈ rest, t.idx x < t.idx v := fun x hx => so4 x hx
  have hsegRest : ∀ x ∈ seg, x ∉ rest := fun x hx c => nd3 hx (List.mem_cons_of_mem _ c)
  have hsegNe : ∀ x ∈ seg, x ≠ v := fun x hx c => nd3 hx (c ▸ List.mem_cons_self _ _)
  have hmemS : ∀ x, x ∈ t.stack ↔ x ∈ seg ∨ x = v ∨ x ∈ rest := by
    intro x
    rw [hst, List.mem_append, List.mem_cons]
  have hblack : ∀ x ∈ seg, ¬ (G x ∨ x = v) := by
    intro x hx c
    rcases c with c | c
    · exact hsegRest x hx (hG x c)
    · exact hsegNe x hx c
  -- every cell above `v` has a lowlink of at least `indexAt[v]`
  have hA : ∀ (n : Nat), ∀ x ∈ seg, (t.idx x - t.idx v).toNat ≤ n → t.idx v ≤ t.low x := by
    intro n
    induction n with
    | zero =>
      intro x hx hn
      have := hsegv x hx
      omega
    | succ n ih =>
      intro x hx hn
      obtain ⟨p, hp, h1, h2, h3⟩ := h.blackP x ((hmemS x).2 (Or.inl hx)) (hblack x hx)
      have hg := h3 v (Or.inr rfl)
      have hsx := hsegv x hx
      have hvp : t.idx v ≤ t.idx p := by
        by_contra c
        exact hg ⟨by omega, hsx⟩
      rcases (hmemS p).1 hp with c | c | c
      · have := ih p c (by omega)
        omega
      · rw [c] at h2
        omega
      · have := hrestv p c
        omega
  have hlowSeg : ∀ x, x ∈ seg ∨ x = v → t.idx v ≤ t.low x := by
    intro x hx
    rcases hx with hx | hx
    · exact hA _ x hx (le_refl _)
    · rw [hx, hroot]
  have hEall : ∀ x, x ∈ seg ∨ x = v → ∀ y, s.SlotEdge x y →
      t.Emitted y ∨ (y ∈ seg ∨ y = v) := by
    intro x hx y hy
    have hl := hlowSeg x hx
    have hc : t.Emitted y ∨ (y ∈ t.stack ∧ t.low x ≤ t.idx y) := by
      rcases hx with hx | hx
      · exact h.blackE x ((hmemS x).2 (Or.inl hx)) (hblack x hx) y hy
      · rw [hx]
        rw [hx] at hy
        exact hE y hy
    rcases hc with c | ⟨c1, c2⟩
    · exact Or.inl c
    · right
      rcases (hmemS y).1 c1 with c | c | c
      · exact Or.inl c
      · exact Or.inr c
      · have := hrestv y c
        omega
  have hem : ∀ x, (Tarjan.mk rest t.index t.indexAt t.lowlinkAt oa
      (t.sccs ++ [{ (default : Scc) with nodes := seg ++ [v] }])).Emitted x ↔
        t.Emitted x ∨ (x ∈ seg ∨ x = v) := by
    intro x
    unfold Tarjan.Emitted
    constructor
    · rintro ⟨scc, hs, hx⟩
      rcases List.mem_append.1 hs with c | c
      · exact Or.inl ⟨scc, c, hx⟩
      · rw [List.mem_singleton] at c
        rw [c] at hx
        right
        rcases List.mem_append.1 hx with d | d
        · exact Or.inl d
        · exact Or.inr (List.mem_singleton.1 d)
    · rintro (⟨scc, hs, hx⟩ | c)
      · exact ⟨scc, List.mem_append_left _ hs, hx⟩
      · refine ⟨_, List.mem_append_right _ (List.mem_singleton.2 rfl), ?_⟩
        show x ∈ seg ++ [v]
        rw [List.mem_append, List.mem_singleton]
        exact c
  refine
    { nodupS := nd5, onStack := hoa, idxS := ?_, lowS := ?_,
      sorted := so5, counter := h.counter, grayOn := hG, emitted := ?_,
      visited := ?_, unique := ?_, order := ?_, blackP := ?_, blackE := ?_ }
  · intro x hx
    exact h.idxS x ((hmemS x).2 (Or.inr (Or.inr hx)))
  · intro x hx
    exact h.lowS x ((hmemS x).2 (Or.inr (Or.inr hx)))
  · intro x hx
    rcases (hem x).1 hx with c | c
    · obtain ⟨e1, e2⟩ := h.emitted x c
      exact ⟨e1, fun d => e2 ((hmemS x).2 (Or.inr (Or.inr d)))⟩
    · have hxs : x ∈ t.stack := (hmemS x).2 (c.elim Or.inl (fun d => Or.inr (Or.inl d)))
      have := (h.idxS x hxs).1
      refine ⟨fun d => ?_, ?_⟩
      · have d' : t.idx x = -1 := d
        omega
      · rcases c with c | c
        · exact hsegRest x c
        · rw [c]
          exact nd4
  · intro x hx
    rcases h.visited x hx with c | c
    · rcases (hmemS x).1 c with d | d | d
      · exact Or.inr ((hem x).2 (Or.inr (Or.inl d)))
      · exact Or.inr ((hem x).2 (Or.inr (Or.inr d)))
      · exact Or.inl d
    · exact Or.inr ((hem x).2 (Or.inl c))
  · show ((t.sccs ++ [{ (default : Scc) with nodes := seg ++ [v] }]).flatMap Scc.nodes).Nodup
    rw [List.flatMap_append, List.nodup_append]
    refine ⟨h.unique, ?_, ?_⟩
    · show (List.flatMap [{ (default : Scc) with nodes := seg ++ [v] }] Scc.nodes).Nodup
      rw [List.flatMap_singleton]
      show (seg ++ [v]).Nodup
      rw [List.nodup_append]
      refine ⟨nd1, List.nodup_singleton _, ?_⟩
      intro a ha hb
      rw [List.mem_singleton] at hb
      exact hsegNe a ha hb
    · intro a ha hb
      rw [List.mem_flatMap] at ha
      obtain ⟨scc, hs, hx⟩ := ha
      have he := (h.emitted a ⟨scc, hs, hx⟩).2
      rw [List.flatMap_singleton] at hb
      have hb' : a ∈ seg ++ [v] := hb
      rw [List.mem_append, List.mem_singleton] at hb'
      exact he ((hmemS a).2 (hb'.elim Or.inl (fun d => Or.inr (Or.inl d))))
  · intro i scc hi x hx y hy
    have hi' : (t.sccs ++ [{ (default : Scc) with nodes := seg ++ [v] }]).get? i = some scc := hi
    have hold : ∀ y, t.Emitted y → ∃ (j : Nat) (scc' : Scc), j < t.sccs.length ∧
        (t.sccs ++ [{ (default : Scc) with nodes := seg ++ [v] }]).get? j = some scc' ∧
          y ∈ scc'.nodes := by
      intro y hy
      obtain ⟨scc', hs, hy⟩ := hy
      obtain ⟨j, hj, e⟩ := List.getElem_of_mem hs
      refine ⟨j, scc', hj, ?_, hy⟩
      rw [List.get?_eq_getElem?, List.getElem?_append_left hj, List.getElem?_eq_getElem hj, e]
    by_cases hlt : i < t.sccs.length
    · rw [List.get?_eq_getElem?, List.getElem?_append_left hlt] at hi'
      obtain ⟨j, scc', hj, e, hy'⟩ := h.order i scc (by rw [List.get?_eq_getElem?]; exact hi') x hx y hy
      refine ⟨j, scc', hj, ?_, hy'⟩
      show (t.sccs ++ _).get? j = _
      rw [List.get?_eq_getElem?, List.getElem?_append_left (by omega), ← List.get?_eq_getElem?]
      exact e
    · have hlen : i < (t.sccs ++ [{ (default : Scc) with nodes := seg ++ [v] }]).length := by
        by_contra c
        rw [List.get?_eq_getElem?, List.getElem?_eq_none (by omega)] at hi'
        cases hi'
      rw [List.length_append, List.length_singleton] at hlen
      have hie : i = t.sccs.length := by omega
      rw [List.get?_eq_getElem?, List.getElem?_append_right (by omega), hie, Nat.sub_self] at hi'
      have hscc : scc = { (default : Scc) with nodes := seg ++ [v] } := by
        simpa using hi'.symm
      rw [hscc] at hx
      have hx' : x ∈ seg ++ [v] := hx
      rw [List.mem_append, List.mem_singleton] at hx'
      rcases hEall x hx' y hy with c | c
      · obtain ⟨j, scc', hj, e, hy'⟩ := hold y c
        exact ⟨j, scc', by omega, e, hy'⟩
      · refine ⟨i, scc, le_refl _, hi, ?_⟩
        rw [hscc]
        show y ∈ seg ++ [v]
        rw [List.mem_append, List.mem_singleton]
        exact c
  · intro x hx hg
    have hxr : x ∈ rest := hx
    have hxs : x ∈ t.stack := (hmemS x).2 (Or.inr (Or.inr hxr))
    have hxv : x ≠ v := fun c => nd4 (c ▸ hxr)
    obtain ⟨p, hp, h1, h2, h3⟩ := h.blackP x hxs (fun c => c.elim hg hxv)
    have hxi := hrestv x hxr
    refine ⟨p, ?_, h1, h2, fun g hgg => h3 g (Or.inl hgg)⟩
    show p ∈ rest
    rcases (hmemS p).1 hp with c | c | c
    · have := hsegv p c
      omega
    · rw [c] at h1
      omega
    · exact c
  · intro x hx hg y hy
    have hxr : x ∈ rest := hx
    have hxs : x ∈ t.stack := (hmemS x).2 (Or.inr (Or.inr hxr))
    have hxv : x ≠ v := fun c => nd4 (c ▸ hxr)
    rcases h.blackE x hxs (fun c => c.elim hg hxv) y hy with c | ⟨c1, c2⟩
    · exact Or.inl ((hem y).2 (Or.inl c))
    · rcases (hmemS y).1 c1 with d | d | d
      · exact Or.inl ((hem y).2 (Or.inr (Or.inl d)))
      · exact Or.inl ((hem y).2 (Or.inr (Or.inr d)))
      · exact Or.inr ⟨d, c2⟩
/-- The loop of `identifyOneScc(v)` passes a direction whose edge is settled. -/
theorem VisitInv.pass {s : Solver} {G : Coords2 → Prop} {t0 t : Tarjan} {v : Coords2}
    {done : List Direction} (d : Direction) (h : VisitInv s G t0 v t done)
    (hd : 0 ≤ ((s.m_movesByPosition.values v.x v.y).get d).id →
      t.Emitted ((s.m_movesByPosition.values v.x v.y).get d).endPos ∨
        (((s.m_movesByPosition.values v.x v.y).get d).endPos ∈ t.stack ∧
          t.low v ≤ t.idx ((s.m_movesByPosition.values v.x v.y).get d).endPos)) :
    VisitInv s G t0 v t (done ++ [d]) := by
  refine { inv := h.inv, frame := h.frame, stack := h.stack, gsub := h.gsub, edges := ?_ }
  intro d' hd'
  rcases List.mem_append.1 hd' with c | c
  · exact h.edges d' c
  · rw [List.mem_singleton] at c
    rw [c]
    exact hd

theorem VisitInv.notBelow {s : Solver} {G : Coords2 → Prop} {t0 t : Tarjan} {v : Coords2}
    {done : List Direction} (h : VisitInv s G t0 v t done) :
    v ∈ t.stack ∧ v ∉ t0.stack ∧ (∀ x ∈ t0.stack, x ∈ t.stack ∧ t.idx x < t.idx v) := by
  obtain ⟨seg, hst⟩ := h.stack
  have hnd := h.inv.nodupS
  have hso := h.inv.sorted
  rw [hst] at hnd hso
  rw [List.nodup_append] at hnd
  obtain ⟨_, nd2, _⟩ := hnd
  rw [List.nodup_cons] at nd2
  rw [List.pairwise_append] at hso
  obtain ⟨_, so2, _⟩ := hso
  rw [List.pairwise_cons] at so2
  refine ⟨?_, nd2.1, fun x hx => ⟨?_, so2.1 x hx⟩⟩
  · rw [hst]
    exact List.mem_append_right _ (List.mem_cons_self _ _)
  · rw [hst]
    exact List.mem_append_right _ (List.mem_cons_of_mem _ hx)

/-- The recursive call `identifyOneScc(w)` inside the loop of `identifyOneScc(v)`, followed
by `lowlinkAt[v] = min(lowlinkAt[v], lowlinkAt[w])`, keeps the loop invariant and settles
the edge to `w`. -/
theorem VisitInv.call {s : Solver} {G : Coords2 → Prop} {t0 t : Tarjan} {v : Coords2}
    {done : List Direction} (w : Coords2) (t4 : Tarjan) (low' : Array2 Int)
    (h : VisitInv s G t0 v t done) (hw : t.idx w = -1)
    (hP : VisitPost s (fun x => G x ∨ x = v) t w t4)
    (hlow : ∀ i j, low'.values i j =
      if i = v.x ∧ j = v.y then min (t4.low v) (t4.low w) else t4.lowlinkAt.values i j) :
    VisitInv s G t0 v { t4 with lowlinkAt := low' } done ∧
      (({ t4 with lowlinkAt := low' } : Tarjan).Emitted w ∨
        (w ∈ t4.stack ∧
          ({ t4 with lowlinkAt := low' } : Tarjan).low v ≤ t4.idx w)) := by
  obtain ⟨hv1, hv2, hv3⟩ := h.notBelow
  have hvi := h.inv.idxS v hv1
  have hwv : w ≠ v := by
    intro c
    rw [c] at hw
    omega
  have k1 : t4.idx v = t.idx v := hP.frame.keepIdx v (by omega)
  have k2 : t4.low v = t.low v := hP.frame.keepLow v hv1
  have k3 : t4.idx w = t.index := hP.frame.idxv
  have hl : ∀ x, ({ t4 with lowlinkAt := low' } : Tarjan).low x =
      if x = v then min (t4.low v) (t4.low w) else t4.low x := by
    intro x
    show low'.values x.x x.y = _
    rw [hlow]
    by_cases e : x = v
    · rw [if_pos e, if_pos ((Coords2.eq_iff x v).2 e)]
    · rw [if_neg e, if_neg (fun c => e ((Coords2.eq_iff x v).1 c))]
      rfl
  have hkeep : ∀ x ∈ t.stack, t4.idx x = t.idx x := by
    intro x hx
    have := h.inv.idxS x hx
    exact hP.frame.keepIdx x (by omega)
  obtain ⟨seg, hseg⟩ := h.stack
  have hcommon : (∀ x ∈ t.stack, x ∈ t4.stack) ∧ (∃ seg, t4.stack = seg ++ v :: t0.stack) ∧
      TarjanInv s (fun x => G x ∨ x = v) { t4 with lowlinkAt := low' } ∧
      (t4.Emitted w ∨ (w ∈ t4.stack ∧ t4.low w ≤ t4.idx w)) := by
    rcases hP.result with ⟨hst, hinv, hem⟩ | ⟨⟨seg2, hst⟩, hinv, hE⟩
    · refine ⟨fun x hx => hst ▸ hx, ⟨seg, by rw [hst, hseg]⟩, ?_, Or.inl hem⟩
      exact hinv.lowerLow v _ low' (Or.inr rfl) (min_le_left _ _) hlow
    · have hsub : ∀ x ∈ t.stack, x ∈ t4.stack := by
        intro x hx
        rw [hst]
        exact List.mem_append_right _ (List.mem_cons_of_mem _ hx)
      have hw4 : w ∈ t4.stack := by
        rw [hst]
        exact List.mem_append_right _ (List.mem_cons_self _ _)
      refine ⟨hsub, ⟨seg2 ++ w :: seg, by rw [hst, hseg]; simp⟩, ?_,
        Or.inr ⟨hw4, hinv.lowS w hw4⟩⟩
      have inv5 := hinv.lowerLow v _ low' (Or.inl (Or.inr rfl)) (min_le_left _ _) hlow
      refine inv5.blacken v w (hsub v hv1) ?_ ?_ ?_ ?_
      · show t4.idx v < t4.idx w
        omega
      · rw [hl, hl, if_pos rfl, if_neg hwv]
        exact min_le_right _ _
      · intro g hg
        have hg0 := hv3 g (h.gsub g hg)
        show t4.idx g ≤ t4.idx v
        rw [hkeep g hg0.1, k1]
        omega
      · intro y hy
        rcases hE y hy with c | ⟨c1, c2⟩
        · exact Or.inl c
        · refine Or.inr ⟨c1, ?_⟩
          rw [hl, if_neg hwv]
          exact c2
  obtain ⟨hsub, hstk, hinv5, hwf⟩ := hcommon
  obtain ⟨added1, hg1⟩ := h.frame.grow
  obtain ⟨added2, hg2⟩ := hP.frame.grow
  have hemit : ∀ x, t.Emitted x → ({ t4 with lowlinkAt := low' } : Tarjan).Emitted x := by
    rintro x ⟨scc, hs, hx⟩
    refine ⟨scc, ?_, hx⟩
    show scc ∈ t4.sccs
    rw [hg2]
    exact List.mem_append_left _ hs
  have hlv : ({ t4 with lowlinkAt := low' } : Tarjan).low v ≤ t4.low w ∧
      ({ t4 with lowlinkAt := low' } : Tarjan).low v ≤ t.low v := by
    rw [hl, if_pos rfl, ← k2]
    exact ⟨min_le_right _ _, min_le_left _ _⟩
  refine ⟨?_, ?_⟩
  · refine
      { inv := hinv5,
        frame :=
          { idxv := ?_, keepIdx := ?_, keepLow := ?_, fresh := ?_, grow := ?_, counter := ?_ },
        stack := hstk, gsub := h.gsub, edges := ?_ }
    · show t4.idx v = t0.index
      rw [k1]
      exact h.frame.idxv
    · intro x hx
      show t4.idx x = t0.idx x
      have e1 := h.frame.keepIdx x hx
      rw [← e1]
      exact hP.frame.keepIdx x (by rw [e1]; exact hx)
    · intro x hx
      have hxv : x ≠ v := fun c => hv2 (c ▸ hx)
      rw [hl, if_neg hxv, hP.frame.keepLow x (hv3 x hx).1]
      exact h.frame.keepLow x hx
    · intro x hx hx5
      have hx4 : t4.idx x ≠ -1 := hx5
      show t0.index ≤ t4.idx x
      by_cases c : t.idx x = -1
      · have := hP.frame.fresh x c hx4
        have := h.frame.counter
        omega
      · rw [hP.frame.keepIdx x c]
        exact h.frame.fresh x hx c
    · exact ⟨added1 ++ added2, by show t4.sccs = _; rw [hg2, hg1, List.append_assoc]⟩
    · show t0.index < t4.index
      have := h.frame.counter
      have := hP.frame.counter
      omega
    · intro d hd hid
      rcases h.edges d hd hid with c | ⟨c1, c2⟩
      · exact Or.inl (hemit _ c)
      · refine Or.inr ⟨hsub _ c1, ?_⟩
        show _ ≤ t4.idx _
        rw [hkeep _ c1]
        exact le_trans hlv.2 c2
  · rcases hwf with c | ⟨c1, c2⟩
    · exact Or.inl ⟨c.choose, c.choose_spec.1, c.choose_spec.2⟩
    · exact Or.inr ⟨c1, le_trans hlv.1 c2⟩
/-- The search invariant holds in the state in which `identifySccs` starts its search. -/
theorem TarjanInv.initial (s : Solver) (W H : Int) :
    TarjanInv s (fun _ => False)
      (Tarjan.mk [] 0 (Array2.filled W H (-1)) (Array2.filled W H (-1))
        (Array2.filled W H false) []) := by
  refine
    { nodupS := List.nodup_nil, onStack := ?_, idxS := ?_, lowS := ?_,
      sorted := List.Pairwise.nil, counter := le_refl _, grayOn := fun g hg => hg.elim,
      emitted := ?_, visited := ?_, unique := List.nodup_nil, order := ?_, blackP := ?_,
      blackE := ?_ }
  · intro x
    show false = true ↔ x ∈ []
    simp
  · intro x hx
    cases hx
  · intro x hx
    cases hx
  · rintro x ⟨scc, hs, _⟩
    cases hs
  · intro x hx
    exact absurd rfl hx
  · intro i scc hi
    cases hi
  · intro x hx
    cases hx
  · intro x hx
    cases hx

theorem distanced_of_isDistanced {level : Level} (h : isDistanced level = true) :
    (generated level).computePairwiseNodeDistances = .ok (distanced level) := by
  unfold isDistanced at h
  unfold distanced
  split at h
  · rename_i s hs
    rw [hs]
  · cases h

theorem SccReady.inB {s : Solver} {W H : Int} {c : Nat} (hs : SccReady s W H c) {t : Tarjan}
    (hD : TarjanDims s W H t) {x : Coords2} (hx : s.IsNode x) :
    t.indexAt.InBounds x.x x.y ∧ t.lowlinkAt.InBounds x.x x.y ∧ t.onStackAt.InBounds x.x x.y ∧
      s.m_movesByPosition.InBounds x.x x.y ∧ s.m_sccIdAt.InBounds x.x x.y ∧
      s.m_nodeIdByPosition.InBounds x.x x.y := by
  obtain ⟨h1, h2, h3, h4⟩ := hs.nodeIn x hx
  unfold Array2.InBounds
  rw [hD.iaW, hD.iaH, hD.laW, hD.laH, hD.oaW, hD.oaH, hs.byPosW, hs.byPosH, hs.sccW, hs.sccH,
    hs.nodeW, hs.nodeH]
  exact ⟨⟨h1, h2, h3, h4⟩, ⟨h1, h2, h3, h4⟩, ⟨h1, h2, h3, h4⟩, ⟨h1, h2, h3, h4⟩,
    ⟨h1, h2, h3, h4⟩, ⟨h1, h2, h3, h4⟩⟩

/-- The loop invariant of `identifyOneScc(v)` holds after its first statements. -/
theorem VisitInv.start {s : Solver} {G : Coords2 → Prop} {t : Tarjan} (v : Coords2)
    (ia la : Array2 Int) (oa : Array2 Bool) (ht : TarjanInv s G t) (hv : t.idx v = -1)
    (hia : ∀ i j, ia.values i j = if i = v.x ∧ j = v.y then t.index else t.indexAt.values i j)
    (hla : ∀ i j, la.values i j =
      if i = v.x ∧ j = v.y then t.index else t.lowlinkAt.values i j)
    (hoa : ∀ i j, oa.values i j = if i = v.x ∧ j = v.y then true else t.onStackAt.values i j) :
    VisitInv s G t v (Tarjan.mk (v :: t.stack) (t.index + 1) ia la oa t.sccs) [] := by
  have hpush := ht.pushCell v ia la oa hv hia hla hoa
  have hvs : v ∉ t.stack := by
    intro hin
    have := (ht.idxS v hin).1
    omega
  have hi : ∀ x, (Tarjan.mk (v :: t.stack) (t.index + 1) ia la oa t.sccs).idx x =
      if x = v then t.index else t.idx x := by
    intro x
    show ia.values x.x x.y = _
    rw [hia]
    by_cases e : x = v
    · rw [if_pos e, if_pos ((Coords2.eq_iff x v).2 e)]
    · rw [if_neg e, if_neg (fun c => e ((Coords2.eq_iff x v).1 c))]
      rfl
  have hl : ∀ x, (Tarjan.mk (v :: t.stack) (t.index + 1) ia la oa t.sccs).low x =
      if x = v then t.index else t.low x := by
    intro x
    show la.values x.x x.y = _
    rw [hla]
    by_cases e : x = v
    · rw [if_pos e, if_pos ((Coords2.eq_iff x v).2 e)]
    · rw [if_neg e, if_neg (fun c => e ((Coords2.eq_iff x v).1 c))]
      rfl
  refine
    { inv := hpush,
      frame :=
        { idxv := ?_, keepIdx := ?_, keepLow := ?_, fresh := ?_, grow := ⟨[], by simp⟩,
          counter := ?_ },
      stack := ⟨[], rfl⟩, gsub := ht.grayOn, edges := fun d hd => (by cases hd) }
  · rw [hi, if_pos rfl]
  · intro x hx
    have hxv : x ≠ v := fun c => hx (c ▸ hv)
    rw [hi, if_neg hxv]
  · intro x hx
    have hxv : x ≠ v := fun c => hvs (c ▸ hx)
    rw [hl, if_neg hxv]
  · intro x hx hx1
    rw [hi] at hx1 ⊢
    by_cases e : x = v
    · rw [if_pos e]
    · rw [if_neg e] at hx1
      exact absurd hx hx1
  · show t.index < t.index + 1
    omega

theorem saturatePotential_mono (q b : Nat) (h : q ≤ b) (hb : b ≤ 255) :
    saturatePotential q ≤ b / 7 * 3 := by
  unfold saturatePotential
  omega

/-- C24: for every 8-bit potential `p` (`0 ≤ p ≤ 255`), `saturatePotential p` is
`⌊p / 7⌋ * 3`, it is again an 8-bit value, `saturatePotential p ≤ p` with equality only at
`p = 0`, and iterating `saturatePotential` from `p` reaches `0` within 32 applications
(in fact within 5: `255, 108, 45, 18, 6, 0`). -/
theorem saturatePotential_spec (p : Nat) (hp : p ≤ 255) :
    saturatePotential p = p / 7 * 3 ∧ saturatePotential p ≤ 255 ∧
      saturatePotential p ≤ p ∧ (saturatePotential p = p ↔ p = 0) ∧
      (∃ n, n ≤ 32 ∧ saturatePotential^[n] p = 0) ∧ saturatePotential^[5] p = 0 := by
  have h5 : saturatePotential^[5] p = 0 := by
    simp only [Function.iterate_succ, Function.iterate_zero, Function.comp_apply, id_eq]
    have h1 := saturatePotential_mono p 255 hp (by omega)
    have h2 := saturatePotential_mono _ 108 h1 (by omega)
    have h3 := saturatePotential_mono _ 45 h2 (by omega)
    have h4 := saturatePotential_mono _ 18 h3 (by omega)
    have h5 := saturatePotential_mono _ 6 h4 (by omega)
    omega
  have hk : p / 7 * 3 < 256 := by omega
  have hs : saturatePotential p = p / 7 * 3 := Nat.mod_eq_of_lt hk
  rw [hs]
  refine ⟨rfl, by omega, by omega, by omega, ⟨5, by omega, h5⟩, h5⟩

theorem saturatePotential_spec_witness :
    saturatePotential 255 = 255 / 7 * 3 ∧ saturatePotential 255 ≤ 255 ∧
      saturatePotential 255 ≤ 255 ∧ (saturatePotential 255 = 255 ↔ 255 = 0) ∧
      (∃ n, n ≤ 32 ∧ saturatePotential^[n] 255 = 0) ∧ saturatePotential^[5] 255 = 0 :=
  saturatePotential_spec 255 (by decide)

theorem fromDisplacement_scaled (c : Coords2) (d : Direction) (k : Int)
    (hd : d ∈ DirectionHelper.values) (h1 : 1 ≤ k) (h2 : k ≤ 32767) :
    DirectionHelper.fromDisplacement c (c.add ((DirectionHelper.offset d).mul k)) = d := by
  have key : ∀ a b : Int, wrap16 (wrap16 (a + wrap16 b) - a) = wrap16 b := by
    intro a b
    unfold wrap16
    omega
  have hsx : ∀ v : Int, 1 ≤ v → v ≤ 32767 → wrap16 (sign (wrap16 v)) = 1 := by
    intro v hv1 hv2
    have e : wrap16 v = v := wrap16_of_range (by omega) (by omega)
    have e2 : sign v = 1 := by
      unfold sign
      rw [if_pos (by omega), if_neg (by omega)]
      rfl
    rw [e, e2]
    rfl
  have hsn : ∀ v : Int, -32767 ≤ v → v ≤ -1 → wrap16 (sign (wrap16 v)) = -1 := by
    intro v hv1 hv2
    have e : wrap16 v = v := wrap16_of_range (by omega) (by omega)
    have e2 : sign v = -1 := by
      unfold sign
      rw [if_neg (by omega), if_pos (by omega)]
      rfl
    rw [e, e2]
    rfl
  have hs0 : wrap16 (sign (wrap16 0)) = 0 := by decide
  have hw1 : wrap16 1 = 1 := by decide
  have hwn : wrap16 (-1) = -1 := by decide
  have hw0 : wrap16 0 = 0 := by decide
  unfold DirectionHelper.fromDisplacement
  simp only [Coords2.sub, Coords2.add, Coords2.mul, Coords2.sign, Coords2.ofInts, key]
  simp only [DirectionHelper.values, List.mem_cons, List.mem_singleton, List.not_mem_nil,
    or_false] at hd
  rcases hd with e | e | e | e | e | e | e | e <;> subst e <;>
    simp only [DirectionHelper.offset, Coords2.ofInts, hw1, hwn, hw0, one_mul, zero_mul,
      neg_mul, hs0, hsx k h1 h2, hsn (-k) (by omega) (by omega)] <;> decide

theorem movesAlong_cons (s : Solver) (c : Coords2) (d : Direction) (ds : List Direction) :
    s.movesAlong c (d :: ds) = (s.m_movesByPosition.values c.x c.y).get d ::
      s.movesAlong ((s.m_movesByPosition.values c.x c.y).get d).endPos ds := rfl

theorem forEachMoveInSolution_movesAlong (s : Solver) :
    ∀ (ds : List Direction) (c : Coords2) (acc : List Move),
      (∀ (x : Coords2), x = c ∨ x ∈ (s.movesAlong c ds).map Move.endPos →
        s.m_movesByPosition.InBounds x.x x.y) →
      s.forEachMoveInSolution (fun (acc : List Move) m _ => pure (acc ++ [m])) ds c acc =
        .ok (acc ++ s.movesAlong c ds,
          (s.movesAlong c ds).foldl (fun _ m => m.endPos) c) := by
  intro ds
  induction ds with
  | nil =>
    intro c acc _
    simp [Solver.forEachMoveInSolution, Solver.movesAlong]
  | cons d ds ih =>
    intro c acc hb
    unfold Solver.forEachMoveInSolution
    rw [Array2.at_ok (hb c (Or.inl rfl)), ok_bind]
    show (pure (acc ++ [(s.m_movesByPosition.values c.x c.y).get d]) >>= _) = _
    rw [show (pure (acc ++ [(s.m_movesByPosition.values c.x c.y).get d]) :
      Except Fault (List Move)) = Except.ok (acc ++ [(s.m_movesByPosition.values c.x c.y).get d])
      from rfl, ok_bind]
    rw [ih _ _ (by
      intro x hx
      apply hb x
      right
      rw [movesAlong_cons, List.map_cons, List.mem_cons]
      rcases hx with e | e
      · left
        exact e
      · right
        exact e)]
    rw [movesAlong_cons]
    congr 1
    rw [List.append_assoc, List.singleton_append, List.foldl_cons]
theorem slot_direction {level : Level} {s : Solver} {vis : Array2 Bool}
    (g : GenInv (identified level) s vis []) (c : Coords2) (d : Direction)
    (hc : SlideReach (identified level).m_level (identified level).m_jewelIdByPosition
      (identified level).m_vehicleCoords c)
    (hd : d ∈ DirectionHelper.values)
    (hlive : ((s.m_movesByPosition.values c.x c.y).get d).startPos ≠
      ((s.m_movesByPosition.values c.x c.y).get d).endPos) :
    ((s.m_movesByPosition.values c.x c.y).get d).direction = d ∧
      SlideReach (identified level).m_level (identified level).m_jewelIdByPosition
        (identified level).m_vehicleCoords
        ((s.m_movesByPosition.values c.x c.y).get d).endPos := by
  have hvis := g.closed c hc
  obtain ⟨m0, hm0, ⟨e1, e2, _⟩, _, _⟩ := g.slots c hvis d hd
  have hlive0 : m0.startPos ≠ m0.endPos := by
    rw [← e1, ← e2]
    exact hlive
  have hdir := slideFrom_direction (g.repVis c hvis) hd hm0 hlive0
  constructor
  · unfold Move.direction at hdir ⊢
    rw [e1, e2]
    exact hdir
  · rw [e2]
    exact SlideReach.step hc ⟨hd, hm0, hlive0⟩

/-- C25, amended: (1) for every `Coords2` value `c`, direction `d` of
`DirectionHelper::values()` and `1 ≤ k ≤ 32767`, `fromDisplacement(c, c + offset(d) * k)`
is `d`; (2) in the solver that `generateAllMoves` leaves on a level, at every cell `c` that
live slides reach from the vehicle, a live move in slot `d` of `m_movesByPosition[c]` has
`direction() = d`; (3) so along directions `ds` that take live slots only, the directions
that the search pushes (`move.direction()` of each move taken) are `ds` again, and
`forEachMoveInSolution` on them hands the callback the same moves. -/
theorem fromDisplacement_spec (level : Level) (s : Solver)
    (hgen : (identified level).generateAllMoves = .ok s) :
    (∀ (c : Coords2) (d : Direction) (k : Int), d ∈ DirectionHelper.values → 1 ≤ k →
      k ≤ 32767 →
      DirectionHelper.fromDisplacement c (c.add ((DirectionHelper.offset d).mul k)) = d) ∧
    (∀ (c : Coords2) (d : Direction),
      SlideReach level (identifiedJewels level) level.vehicleCoords c →
      d ∈ DirectionHelper.values →
      ((s.m_movesByPosition.values c.x c.y).get d).startPos ≠
        ((s.m_movesByPosition.values c.x c.y).get d).endPos →
      ((s.m_movesByPosition.values c.x c.y).get d).direction = d) ∧
    (∀ (c : Coords2) (ds : List Direction),
      SlideReach level (identifiedJewels level) level.vehicleCoords c → s.LiveWalk c ds →
      (s.movesAlong c ds).map Move.direction = ds ∧
      s.forEachMoveInSolution (fun (acc : List Move) m _ => pure (acc ++ [m]))
          ((s.movesAlong c ds).map Move.direction) c [] =
        .ok (s.movesAlong c ds, (s.movesAlong c ds).foldl (fun _ m => m.endPos) c)) := by
  obtain ⟨p1, _, p3, _, p5, p6⟩ := identified_props level
  have g0 := generated_inv hgen
  refine ⟨fun c d k hd h1 h2 => fromDisplacement_scaled c d k hd h1 h2, ?_, ?_⟩
  · intro c d hc hd hlive
    obtain ⟨vis, g⟩ := g0
    refine (slot_direction g c d ?_ hd hlive).1
    rw [p1, p3, p6]
    exact hc
  · obtain ⟨vis, g⟩ := g0
    have hwalk : ∀ (ds : List Direction) (c : Coords2),
        SlideReach level (identifiedJewels level) level.vehicleCoords c → s.LiveWalk c ds →
        (s.movesAlong c ds).map Move.direction = ds ∧
        ∀ x, x = c ∨ x ∈ (s.movesAlong c ds).map Move.endPos →
          s.m_movesByPosition.InBounds x.x x.y := by
      intro ds
      induction ds with
      | nil =>
        intro c hc _
        refine ⟨rfl, ?_⟩
        intro x hx
        rcases hx with e | e
        · rw [e]
          have hin := g.inB c (g.closed c (by rw [p1, p3, p6]; exact hc))
          unfold Array2.InBounds at hin ⊢
          rw [g.dimsW, g.dimsH]
          exact hin
        · cases e
      | cons d ds ih =>
        intro c hc hw
        obtain ⟨hd, hlive, hrest⟩ := hw
        obtain ⟨e1, e2⟩ := slot_direction g c d (by rw [p1, p3, p6]; exact hc) hd hlive
        rw [p1, p3, p6] at e2
        obtain ⟨i1, i2⟩ := ih _ e2 hrest
        rw [movesAlong_cons, List.map_cons, e1, i1]
        refine ⟨rfl, ?_⟩
        intro x hx
        rcases hx with e | e
        · rw [e]
          have hin := g.inB c (g.closed c (by rw [p1, p3, p6]; exact hc))
          unfold Array2.InBounds at hin ⊢
          rw [g.dimsW, g.dimsH]
          exact hin
        · rw [List.map_cons, List.mem_cons] at e
          exact i2 x e
    intro c ds hc hw
    obtain ⟨w1, w2⟩ := hwalk ds c hc hw
    refine ⟨w1, ?_⟩
    rw [w1]
    have := forEachMoveInSolution_movesAlong s ds c [] w2
    rw [List.nil_append] at this
    exact this
theorem fromDisplacement_spec_witness :
    (∀ (c : Coords2) (d : Direction) (k : Int), d ∈ DirectionHelper.values → 1 ≤ k →
      k ≤ 32767 →
      DirectionHelper.fromDisplacement c (c.add ((DirectionHelper.offset d).mul k)) = d) ∧
    (∀ (c : Coords2) (d : Direction),
      SlideReach (holeStopLevel 2) (identifiedJewels (holeStopLevel 2))
        (holeStopLevel 2).vehicleCoords c →
      d ∈ DirectionHelper.values →
      (((generated (holeStopLevel 2)).m_movesByPosition.values c.x c.y).get d).startPos ≠
        (((generated (holeStopLevel 2)).m_movesByPosition.values c.x c.y).get d).endPos →
      (((generated (holeStopLevel 2)).m_movesByPosition.values c.x c.y).get d).direction = d) ∧
    (∀ (c : Coords2) (ds : List Direction),
      SlideReach (holeStopLevel 2) (identifiedJewels (holeStopLevel 2))
        (holeStopLevel 2).vehicleCoords c →
      (generated (holeStopLevel 2)).LiveWalk c ds →
      ((generated (holeStopLevel 2)).movesAlong c ds).map Move.direction = ds ∧
      (generated (holeStopLevel 2)).forEachMoveInSolution
          (fun (acc : List Move) m _ => pure (acc ++ [m]))
          (((generated (holeStopLevel 2)).movesAlong c ds).map Move.direction) c [] =
        .ok ((generated (holeStopLevel 2)).movesAlong c ds,
          ((generated (holeStopLevel 2)).movesAlong c ds).foldl (fun _ m => m.endPos) c)) :=
  fromDisplacement_spec (holeStopLevel 2) (generated (holeStopLevel 2))
    (generated_of_isGenerated (by decide!))

/-- C25 as stated fails for `k ≥ 32768`: the product `offset(d) * k` is narrowed to 16 bits,
so from the cell `(0, 0)` the displacement `East * 32768` reads as West and `East * 65536`
as no displacement at all. -/
theorem fromDisplacement_spec_counterexample :
    DirectionHelper.fromDisplacement ⟨0, 0⟩
        ((⟨0, 0⟩ : Coords2).add ((DirectionHelper.offset .East).mul 32768)) = .West ∧
      DirectionHelper.fromDisplacement ⟨0, 0⟩
        ((⟨0, 0⟩ : Coords2).add ((DirectionHelper.offset .East).mul 65536)) = .None := by
  decide

theorem lastInner_spec (v : Int) : ∀ (jewels : List Int) (last last' : List Int),
    jewels.foldlM (fun (last : List Int) jewelId => vecSet last jewelId v) last = .ok last' →
    last'.length = last.length ∧
      ∀ j : Int, vecGet last' j = if j ∈ jewels then .ok v else vecGet last j := by
  intro jewels
  induction jewels with
  | nil =>
    intro last last' h
    rw [List.foldlM_nil, pure_eq_ok] at h
    subst h
    exact ⟨rfl, fun j => by simp⟩
  | cons a js ih =>
    intro last last' h
    rw [List.foldlM_cons, bind_eq_ok] at h
    obtain ⟨l1, h1, h2⟩ := h
    obtain ⟨a0, a1, e⟩ := vecSet_eq_ok h1
    obtain ⟨g1, g2⟩ := ih l1 last' h2
    subst e
    refine ⟨by rw [g1, List.length_set], ?_⟩
    intro j
    rw [g2 j]
    by_cases hj : j ∈ js
    · rw [if_pos hj, if_pos (List.mem_cons_of_mem _ hj)]
    · rw [if_neg hj]
      by_cases hja : j = a
      · subst hja
        rw [if_pos (List.mem_cons_self _ _), vecGet_set_self _ _ _ a0 a1]
      · rw [if_neg (by simp [hj, hja]), vecGet_set_ne _ _ _ _ a0 hja]

theorem lastOuter_spec : ∀ (L : List (Nat × Scc)) (last last' : List Int),
    L.Pairwise (fun p q => p.1 < q.1) →
    L.foldlM
      (fun (last : List Int) (p : Nat × Scc) =>
        p.2.jewels.foldlM (fun (last : List Int) jewelId => vecSet last jewelId (wrap16 p.1))
          last)
      last = .ok last' →
    ∀ j : Int,
      ((∃ p ∈ L, j ∈ p.2.jewels) →
        ∃ p ∈ L, j ∈ p.2.jewels ∧ vecGet last' j = .ok (wrap16 p.1) ∧
          ∀ q ∈ L, j ∈ q.2.jewels → q.1 ≤ p.1) ∧
      ((¬ ∃ p ∈ L, j ∈ p.2.jewels) → vecGet last' j = vecGet last j) := by
  intro L
  induction L with
  | nil =>
    intro last last' _ h
    rw [List.foldlM_nil, pure_eq_ok] at h
    subst h
    intro j
    exact ⟨fun ⟨p, hp, _⟩ => (by cases hp), fun _ => rfl⟩
  | cons p L ih =>
    intro last last' hs h
    rw [List.foldlM_cons, bind_eq_ok] at h
    obtain ⟨l1, h1, h2⟩ := h
    rw [List.pairwise_cons] at hs
    obtain ⟨hp, hs⟩ := hs
    have g := (lastInner_spec _ _ _ _ h1).2
    intro j
    obtain ⟨i1, i2⟩ := ih l1 last' hs h2 j
    by_cases hex : ∃ q ∈ L, j ∈ q.2.jewels
    · obtain ⟨q, hq, hjq, hget, hmax⟩ := i1 hex
      refine ⟨fun _ => ⟨q, List.mem_cons_of_mem _ hq, hjq, hget, ?_⟩, fun hn => ?_⟩
      · intro r hr hjr
        rcases List.mem_cons.1 hr with e | hr
        · subst e
          exact Nat.le_of_lt (hp q hq)
        · exact hmax r hr hjr
      · obtain ⟨q', hq', hj'⟩ := hex
        exact absurd ⟨q', List.mem_cons_of_mem _ hq', hj'⟩ hn
    · have e := i2 hex
      by_cases hjp : j ∈ p.2.jewels
      · refine ⟨fun _ => ⟨p, List.mem_cons_self _ _, hjp, ?_, ?_⟩, fun hn => ?_⟩
        · rw [e, g j, if_pos hjp]
        · intro r hr hjr
          rcases List.mem_cons.1 hr with e' | hr
          · subst e'
            exact Nat.le_refl _
          · exact absurd ⟨r, hr, hjr⟩ hex
        · exact absurd ⟨p, List.mem_cons_self _ _, hjp⟩ hn
      · refine ⟨fun ⟨r, hr, hjr⟩ => ?_, fun _ => ?_⟩
        · rcases List.mem_cons.1 hr with e' | hr
          · subst e'
            exact absurd hjr hjp
          · exact absurd ⟨r, hr, hjr⟩ hex
        · rw [e, g j, if_neg hjp]

theorem enumFrom_pairwise {α : Type} : ∀ (l : List α) (n : Nat),
    (l.enumFrom n).Pairwise (fun p q => p.1 < q.1) ∧ ∀ p ∈ l.enumFrom n, n ≤ p.1 := by
  intro l
  induction l with
  | nil =>
    intro n
    exact ⟨List.Pairwise.nil, fun p hp => by cases hp⟩
  | cons a l ih =>
    intro n
    obtain ⟨i1, i2⟩ := ih (n + 1)
    rw [List.enumFrom_cons]
    refine ⟨List.pairwise_cons.2 ⟨fun q hq => ?_, i1⟩, fun q hq => ?_⟩
    · have := i2 q hq
      show n < q.1
      omega
    · rcases List.mem_cons.1 hq with e | hq
      · subst e
        exact Nat.le_refl _
      · have := i2 q hq
        omega

theorem countInner_spec : ∀ (jewels : List Int) (counts counts' : List Int),
    jewels.foldlM
      (fun (counts : List Int) jewelId => do
        vecSet counts jewelId (wrap16 ((← vecGet counts jewelId) + 1)))
      counts = .ok counts' →
    counts'.length = counts.length ∧
      ∀ (j v : Int), vecGet counts j = .ok v → 0 ≤ v → v + (jewels.count j : Int) ≤ 32767 →
        vecGet counts' j = .ok (v + (jewels.count j : Int)) := by
  intro jewels
  induction jewels with
  | nil =>
    intro counts counts' h
    rw [List.foldlM_nil, pure_eq_ok] at h
    subst h
    exact ⟨rfl, fun j v hv _ _ => by simpa using hv⟩
  | cons a js ih =>
    intro counts counts' h
    rw [List.foldlM_cons, bind_eq_ok] at h
    obtain ⟨c1, h1, h2⟩ := h
    rw [bind_eq_ok] at h1
    obtain ⟨va, hva, h1⟩ := h1
    obtain ⟨a0, a1, e⟩ := vecSet_eq_ok h1
    obtain ⟨g1, g2⟩ := ih c1 counts' h2
    subst e
    refine ⟨by rw [g1, List.length_set], ?_⟩
    intro j v hv hv0 hle
    by_cases hja : j = a
    · subst hja
      rw [hva] at hv
      cases hv
      rw [List.count_cons_self] at hle ⊢
      have e1 : wrap16 (va + 1) = va + 1 := wrap16_of_range (by omega) (by omega)
      have := g2 j (va + 1) (by rw [e1]; exact vecGet_set_self _ _ _ a0 a1) (by omega)
        (by push_cast at hle; omega)
      rw [this]
      push_cast
      congr 1
      omega
    · rw [List.count_cons_of_ne hja] at hle ⊢
      exact g2 j v (by rw [vecGet_set_ne _ _ _ _ a0 hja]; exact hv) hv0 hle

theorem countOuter_spec : ∀ (L : List Scc) (counts counts' : List Int),
    L.foldlM
      (fun (counts : List Int) scc =>
        scc.jewels.foldlM
          (fun (counts : List Int) jewelId => do
            vecSet counts jewelId (wrap16 ((← vecGet counts jewelId) + 1)))
          counts)
      counts = .ok counts' →
    ∀ (j v : Int), vecGet counts j = .ok v → 0 ≤ v →
      v + (((L.map fun scc => scc.jewels.count j).sum : Nat) : Int) ≤ 32767 →
      vecGet counts' j = .ok (v + (((L.map fun scc => scc.jewels.count j).sum : Nat) : Int)) := by
  intro L
  induction L with
  | nil =>
    intro counts counts' h j v hv _ _
    rw [List.foldlM_nil, pure_eq_ok] at h
    subst h
    simpa using hv
  | cons scc L ih =>
    intro counts counts' h j v hv hv0 hle
    rw [List.foldlM_cons, bind_eq_ok] at h
    obtain ⟨c1, h1, h2⟩ := h
    rw [List.map_cons, List.sum_cons] at hle ⊢
    have g := (countInner_spec _ _ _ h1).2 j v hv hv0 (by omega)
    have := ih c1 counts' h2 j _ g (by omega) (by omega)
    rw [this]
    congr 1
    omega

theorem sum_count_nodup (j : Int) : ∀ (L : List Scc), (∀ scc ∈ L, scc.jewels.Nodup) →
    (L.map fun scc => scc.jewels.count j).sum =
      (L.filter fun scc => decide (j ∈ scc.jewels)).length := by
  intro L
  induction L with
  | nil => intro _; rfl
  | cons scc L ih =>
    intro h
    rw [List.map_cons, List.sum_cons, ih (fun s hs => h s (List.mem_cons_of_mem _ hs)),
      List.filter_cons]
    have hn := h scc (List.mem_cons_self _ _)
    by_cases hj : j ∈ scc.jewels
    · rw [if_pos (by simpa using hj), List.count_eq_one_of_mem hn hj, List.length_cons]
      omega
    · rw [if_neg (by simpa using hj), List.count_eq_zero_of_not_mem hj]
      omega
theorem assignJewelsToSccs_nodup {s s' : Solver}
    (hj : ∀ m ∈ s.m_allMoves, ∀ j ∈ m.jewels, wrap16 j = j)
    (h : s.assignJewelsToSccs = .ok s') : ∀ scc ∈ s'.m_sccs, scc.jewels.Nodup := by
  obtain ⟨_, _, _, jewels, hlen, hs, hsorted, hmem⟩ := assignJewelsToSccs_shape h
  intro scc hscc
  obtain ⟨k, hget⟩ := List.mem_iff_get?.1 hscc
  rw [hs, List.get?_eq_getElem?, List.getElem?_map] at hget
  cases hz : (s.m_sccs.zip jewels)[k]? with
  | none =>
    rw [hz] at hget
    cases hget
  | some p =>
    rw [hz] at hget
    rw [List.getElem?_zip_eq_some] at hz
    have hp2 : jewels.getD k [] = p.2 := by
      rw [List.getD_eq_getElem?_getD, hz.2]
      rfl
    have hwrap : p.2.map wrap16 = p.2 := by
      conv_rhs => rw [← List.map_id p.2]
      apply List.map_congr_left
      intro x hx
      rw [← hp2] at hx
      obtain ⟨m, hm, _, hxm, _⟩ := (hmem k x).1 hx
      exact hj m hm x hxm
    have hjew : scc.jewels = jewels.getD k [] := by
      rw [← Option.some.inj hget, hp2]
      exact hwrap
    rw [hjew]
    exact (hsorted k).nodup

theorem assignJewelsToSccs_folds {s s' : Solver} (h : s.assignJewelsToSccs = .ok s') :
    (∃ last0 : List Int, (s'.m_sccs.enum).foldlM
      (fun (last : List Int) (p : Nat × Scc) =>
        p.2.jewels.foldlM (fun (last : List Int) jewelId => vecSet last jewelId (wrap16 p.1))
          last)
      last0 = .ok s'.m_lastSccWithJewel) ∧
    s'.m_sccs.foldlM
      (fun (counts : List Int) scc =>
        scc.jewels.foldlM
          (fun (counts : List Int) jewelId => do
            vecSet counts jewelId (wrap16 ((← vecGet counts jewelId) + 1)))
          counts)
      (List.replicate s'.m_numSccsWithJewel.length (0 : Int)) = .ok s'.m_numSccsWithJewel := by
  unfold Solver.assignJewelsToSccs at h
  simp only [bind_eq_ok] at h
  obtain ⟨jewels, _, last, hl, h⟩ := h
  have hlen := resetSccCountsPerJewel_length h
  unfold Solver.resetSccCountsPerJewel at h
  simp only [bind_eq_ok] at h
  obtain ⟨counts, hc, h⟩ := h
  rw [pure_eq_ok] at h
  subst h
  refine ⟨⟨_, hl⟩, ?_⟩
  rw [hlen]
  exact hc

/-- **C21.** After `assignJewelsToSccs`, run on registered moves whose jewel ids are
unchanged by narrowing and on at most 32767 SCCs with `m_sccs[i].id = i`: for every jewel
`j` in the jewels list of at least one SCC, `m_lastSccWithJewel[j]` is the id of an SCC
whose jewels list contains `j`, no SCC whose jewels list contains `j` has a larger id, and
`m_numSccsWithJewel[j]` is the number of SCCs whose jewels list contains `j`. -/
theorem assignJewelsToSccs_last (s s' : Solver) (hids : SccIdsWrapped s.m_sccs)
    (hj : ∀ m ∈ s.m_allMoves, ∀ j ∈ m.jewels, wrap16 j = j)
    (hfit : s.m_sccs.length ≤ 32767)
    (h : s.assignJewelsToSccs = .ok s') :
    ∀ j : Int, (∃ scc ∈ s'.m_sccs, j ∈ scc.jewels) →
      (∃ scc ∈ s'.m_sccs, j ∈ scc.jewels ∧
        vecGet s'.m_lastSccWithJewel j = .ok scc.id ∧
        ∀ scc' ∈ s'.m_sccs, j ∈ scc'.jewels → scc'.id ≤ scc.id) ∧
      vecGet s'.m_numSccsWithJewel j =
        .ok ((s'.m_sccs.filter fun scc => decide (j ∈ scc.jewels)).length : Int) := by
  obtain ⟨hids', hrange⟩ := assignJewelsToSccs_spec hids h
  have hnodup := assignJewelsToSccs_nodup hj h
  obtain ⟨⟨last0, hl⟩, hc⟩ := assignJewelsToSccs_folds h
  have hlen : s'.m_sccs.length ≤ 32767 := by
    obtain ⟨_, _, _, jewels, hlen, hs, _, _⟩ := assignJewelsToSccs_shape h
    rw [hs, List.length_map, List.length_zip, hlen, Nat.min_self]
    exact hfit
  have hid : ∀ p ∈ s'.m_sccs.enum, p.2.id = p.1 ∧ p.2 ∈ s'.m_sccs ∧
      p.1 < s'.m_sccs.length := by
    intro p hp
    have hp' := List.mem_enum_iff_getElem?.1 hp
    have hlt : p.1 < s'.m_sccs.length := by
      by_contra c
      rw [List.getElem?_eq_none (by omega)] at hp'
      cases hp'
    refine ⟨?_, List.mem_iff_get?.2 ⟨p.1, by rw [List.get?_eq_getElem?]; exact hp'⟩, hlt⟩
    rw [hids' p.1 p.2 (by rw [List.get?_eq_getElem?]; exact hp')]
    exact wrap16_of_range (by omega) (by omega)
  have hen : ∀ scc ∈ s'.m_sccs, ∃ p ∈ s'.m_sccs.enum, p.2 = scc := by
    intro scc hscc
    obtain ⟨k, hk⟩ := List.mem_iff_get?.1 hscc
    rw [List.get?_eq_getElem?] at hk
    exact ⟨(k, scc), List.mem_enum_iff_getElem?.2 hk, rfl⟩
  intro j ⟨scc0, hscc0, hj0⟩
  constructor
  · obtain ⟨p0, hp0, e0⟩ := hen scc0 hscc0
    obtain ⟨p, hp, hjp, hget, hmax⟩ :=
      (lastOuter_spec _ _ _ (enumFrom_pairwise s'.m_sccs 0).1 hl j).1
        ⟨p0, hp0, by rw [e0]; exact hj0⟩
    obtain ⟨i1, i2, i3⟩ := hid p hp
    refine ⟨p.2, i2, hjp, ?_, ?_⟩
    · have e : wrap16 (p.1 : Int) = (p.1 : Int) := wrap16_of_range (by omega) (by omega)
      rw [hget, e, i1]
    · intro scc' hscc' hj'
      obtain ⟨q, hq, eq⟩ := hen scc' hscc'
      have := hmax q hq (by rw [eq]; exact hj')
      rw [i1, ← eq, (hid q hq).1]
      exact_mod_cast this
  · obtain ⟨b0, b1⟩ := hrange scc0 hscc0 j hj0
    have hsum := sum_count_nodup j s'.m_sccs hnodup
    have hle : (s'.m_sccs.filter fun scc => decide (j ∈ scc.jewels)).length ≤
        s'.m_sccs.length := List.length_filter_le _ _
    have hz : vecGet (List.replicate s'.m_numSccsWithJewel.length (0 : Int)) j = .ok 0 := by
      obtain ⟨a, ha, hb⟩ := vecGet_ok (v := List.replicate s'.m_numSccsWithJewel.length (0 : Int))
        b0 (by rw [List.length_replicate]; exact b1)
      rw [ha]
      rw [List.get?_eq_getElem?, List.getElem?_replicate_of_lt (by omega)] at hb
      cases hb
      rfl
    have := countOuter_spec _ _ _ hc j 0 hz (le_refl _) (by rw [hsum]; omega)
    rw [this, hsum, zero_add]

theorem assignJewelsToSccs_last_witness :
    (sccsIdentified exclusiveLevel).m_sccs.length ≤ 32767 ∧
    ∀ j : Int, (∃ scc ∈ (sccsAssigned exclusiveLevel).m_sccs, j ∈ scc.jewels) →
      (∃ scc ∈ (sccsAssigned exclusiveLevel).m_sccs, j ∈ scc.jewels ∧
        vecGet (sccsAssigned exclusiveLevel).m_lastSccWithJewel j = .ok scc.id ∧
        ∀ scc' ∈ (sccsAssigned exclusiveLevel).m_sccs, j ∈ scc'.jewels → scc'.id ≤ scc.id) ∧
      vecGet (sccsAssigned exclusiveLevel).m_numSccsWithJewel j =
        .ok (((sccsAssigned exclusiveLevel).m_sccs.filter
          fun scc => decide (j ∈ scc.jewels)).length : Int) :=
  ⟨by decide!,
    assignJewelsToSccs_last (sccsIdentified exclusiveLevel) (sccsAssigned exclusiveLevel)
      (identifySccs_ids (sccsIdentified_of_isSccsIdentified (by decide!)))
      (by decide!) (by decide!) (sccsAssigned_of_isSccsAssigned (by decide!))⟩

theorem canMoveToSccLoop_spec (s : Solver) (id : Int) : ∀ l : List Nat,
    (∀ j ∈ l, j < s.m_lastSccWithJewel.length ∧ j < s.m_jewelState.m_numCollected.length) →
    ∃ b, s.canMoveToSccLoop id l = .ok b ∧
      (b = false ↔ ∃ j ∈ l, ∃ last n, s.m_lastSccWithJewel.get? j = some last ∧
        s.m_jewelState.m_numCollected.get? j = some n ∧ last < id ∧ n ≤ 0) := by
  intro l
  induction l with
  | nil =>
    intro _
    exact ⟨true, rfl, by simp⟩
  | cons j rest ih =>
    intro hl
    obtain ⟨h1, h2⟩ := hl j (List.mem_cons_self _ _)
    obtain ⟨b, hb, hiff⟩ := ih (fun k hk => hl k (List.mem_cons_of_mem _ hk))
    obtain ⟨last, hlast, glast⟩ :=
      vecGet_ok (v := s.m_lastSccWithJewel) (i := (j : Int)) (by omega) (by omega)
    obtain ⟨n, hn, gn⟩ :=
      vecGet_ok (v := s.m_jewelState.m_numCollected) (i := (j : Int)) (by omega) (by omega)
    rw [Int.toNat_ofNat] at glast gn
    have hrest : ∀ c : Prop, (c ∨ ∃ k ∈ rest, ∃ last n, s.m_lastSccWithJewel.get? k = some last ∧
        s.m_jewelState.m_numCollected.get? k = some n ∧ last < id ∧ n ≤ 0) →
        (c → last < id ∧ n ≤ 0) →
        ∃ k ∈ j :: rest, ∃ last n, s.m_lastSccWithJewel.get? k = some last ∧
        s.m_jewelState.m_numCollected.get? k = some n ∧ last < id ∧ n ≤ 0 := by
      intro c hc himp
      rcases hc with hc | ⟨k, hk, g⟩
      · exact ⟨j, List.mem_cons_self _ _, last, n, glast, gn, himp hc⟩
      · exact ⟨k, List.mem_cons_of_mem _ hk, g⟩
    have hsplit : (∃ k ∈ j :: rest, ∃ last n, s.m_lastSccWithJewel.get? k = some last ∧
        s.m_jewelState.m_numCollected.get? k = some n ∧ last < id ∧ n ≤ 0) →
        (last < id ∧ n ≤ 0) ∨ ∃ k ∈ rest, ∃ last n, s.m_lastSccWithJewel.get? k = some last ∧
        s.m_jewelState.m_numCollected.get? k = some n ∧ last < id ∧ n ≤ 0 := by
      rintro ⟨k, hk, l', n', g1, g2, g3⟩
      rcases List.mem_cons.1 hk with e | hk
      · subst e
        rw [glast] at g1
        rw [gn] at g2
        cases g1
        cases g2
        exact Or.inl g3
      · exact Or.inr ⟨k, hk, l', n', g1, g2, g3⟩
    unfold Solver.canMoveToSccLoop
    rw [hlast, ok_bind]
    by_cases hc : id > last
    · rw [if_pos hc]
      unfold JewelState.isCollected
      rw [hn, ok_bind, pure_bind]
      by_cases hpos : n > 0
      · rw [if_neg (by simp [hpos])]
        refine ⟨b, hb, ?_⟩
        rw [hiff]
        constructor
        · intro g
          exact hrest False (Or.inr g) (fun c => c.elim)
        · intro g
          rcases hsplit g with g | g
          · omega
          · exact g
      · rw [if_pos (by simp [hpos])]
        refine ⟨false, rfl, ?_⟩
        constructor
        · intro _
          exact hrest True (Or.inl trivial) (fun _ => ⟨hc, by omega⟩)
        · intro _
          rfl
    · rw [if_neg hc]
      refine ⟨b, hb, ?_⟩
      rw [hiff]
      constructor
      · intro g
        exact hrest False (Or.inr g) (fun c => c.elim)
      · intro g
        rcases hsplit g with g | g
        · omega
        · exact g

theorem canMoveToScc_total (s : Solver)
    (hlast : s.m_jewelState.numJewels ≤ s.m_lastSccWithJewel.length) (id : Int) :
    ∃ b, s.canMoveToScc id = .ok b ∧
      (b = false ↔ id = invalidSccId ∨ ∃ j : Nat, ∃ last n,
        s.m_lastSccWithJewel.get? j = some last ∧
        s.m_jewelState.m_numCollected.get? j = some n ∧ last < id ∧ n ≤ 0) := by
  unfold Solver.canMoveToScc
  by_cases hid : id = invalidSccId
  · rw [if_pos hid]
    exact ⟨false, rfl, fun _ => Or.inl hid, fun _ => rfl⟩
  · rw [if_neg hid]
    have hnum : s.m_jewelState.numJewels.toNat = s.m_jewelState.m_numCollected.length := by
      unfold JewelState.numJewels
      exact Int.toNat_ofNat _
    have hlast' : s.m_jewelState.m_numCollected.length ≤ s.m_lastSccWithJewel.length := by
      unfold JewelState.numJewels at hlast
      exact_mod_cast hlast
    obtain ⟨b, hb, hiff⟩ := canMoveToSccLoop_spec s id
      (List.range s.m_jewelState.numJewels.toNat) (by
        intro j hj
        rw [List.mem_range, hnum] at hj
        exact ⟨by omega, hj⟩)
    refine ⟨b, hb, ?_⟩
    rw [hiff]
    constructor
    · rintro ⟨j, _, g⟩
      exact Or.inr ⟨j, g⟩
    · rintro (g | ⟨j, last, n, g1, g2, g3⟩)
      · exact absurd g hid
      · refine ⟨j, ?_, last, n, g1, g2, g3⟩
        rw [List.mem_range, hnum]
        exact (List.get?_eq_some.1 g2).1

theorem isMoveBlocked_eq_ok {s : Solver} {move : Move} {b : Bool}
    (h : s.isMoveBlocked move = .ok b) :
    s.m_sccIdAt.InBounds move.startPos.x move.startPos.y ∧
    s.m_sccIdAt.InBounds move.endPos.x move.endPos.y ∧
    (b = true ↔ s.m_sccIdAt.values move.startPos.x move.startPos.y ≠
        s.m_sccIdAt.values move.endPos.x move.endPos.y ∧
      s.canMoveToScc (s.m_sccIdAt.values move.endPos.x move.endPos.y) = .ok false) := by
  unfold Solver.isMoveBlocked at h
  simp only [bind_eq_ok] at h
  obtain ⟨a, ha, c, hc, h⟩ := h
  obtain ⟨i1, e1⟩ := Array2.at_eq_ok ha
  obtain ⟨i2, e2⟩ := Array2.at_eq_ok hc
  subst e1
  subst e2
  refine ⟨i1, i2, ?_⟩
  split at h
  · rename_i hne
    rw [bind_eq_ok] at h
    obtain ⟨r, hr, h⟩ := h
    rw [pure_eq_ok] at h
    subst h
    rw [hr]
    constructor
    · intro g
      refine ⟨hne, ?_⟩
      cases r
      · rfl
      · cases g
    · rintro ⟨_, g⟩
      cases g
      rfl
  · rename_i hne
    rw [pure_eq_ok] at h
    subst h
    constructor
    · intro g
      cases g
    · rintro ⟨g, _⟩
      exact absurd g hne

theorem isMoveBlocked_total {s : Solver} {move : Move}
    (hlast : s.m_jewelState.numJewels ≤ s.m_lastSccWithJewel.length)
    (h1 : s.m_sccIdAt.InBounds move.startPos.x move.startPos.y)
    (h2 : s.m_sccIdAt.InBounds move.endPos.x move.endPos.y) :
    ∃ b, s.isMoveBlocked move = .ok b := by
  unfold Solver.isMoveBlocked
  rw [Array2.at_ok h1, ok_bind, Array2.at_ok h2, ok_bind]
  split
  · obtain ⟨b, hb, _⟩ := canMoveToScc_total s hlast
      (s.m_sccIdAt.values move.endPos.x move.endPos.y)
    rw [hb, ok_bind]
    exact ⟨_, rfl⟩
  · exact ⟨_, rfl⟩
theorem orderMoves_kept (o : SearchOracle) (ss : Search) (moves : Moves)
    (hlast : ss.solver.m_jewelState.numJewels ≤ ss.solver.m_lastSccWithJewel.length)
    (hin : ∀ d ∈ DirectionHelper.values, 0 ≤ (moves.get d).id →
      ss.solver.m_sccIdAt.InBounds (moves.get d).startPos.x (moves.get d).startPos.y ∧
      ss.solver.m_sccIdAt.InBounds (moves.get d).endPos.x (moves.get d).endPos.y) :
    ∃ kept, ss.orderMoves o moves = .ok (o.sort ss.m_totalPotentialAtEdge kept) ∧
      ∀ move, move ∈ kept ↔ ∃ d ∈ DirectionHelper.values, moves.get d = move ∧
        0 ≤ move.id ∧ ss.solver.isMoveBlocked move = .ok false := by
  unfold Search.orderMoves
  have key := foldlM_total DirectionHelper.values
    (fun (pre : List Direction) (dirs : List Move) =>
      ∀ move, move ∈ dirs ↔ ∃ d ∈ pre, moves.get d = move ∧
        0 ≤ move.id ∧ ss.solver.isMoveBlocked move = .ok false)
    (fun (dirs : List Move) dir => do
      let move := moves.get dir
      if move.id < 0 then pure dirs
      else if (← ss.solver.isMoveBlocked move) then pure dirs
      else pure (dirs ++ [move]))
    ?_ DirectionHelper.values [] [] rfl (by
      intro move
      constructor
      · intro h
        cases h
      · rintro ⟨d, hd, _⟩
        cases hd)
  · obtain ⟨kept, hk, hP⟩ := key
    refine ⟨kept, ?_, hP⟩
    rw [hk, ok_bind]
    rfl
  · intro pre d post dirs hfull hP
    have hd : d ∈ DirectionHelper.values := by
      have h : d ∈ pre ++ d :: post := by simp
      rw [← hfull] at h
      exact h
    by_cases hneg : (moves.get d).id < 0
    · refine ⟨dirs, ?_, ?_⟩
      · show (if (moves.get d).id < 0 then pure dirs else _) = _
        rw [if_pos hneg]
        rfl
      · intro move
        rw [hP move]
        constructor
        · rintro ⟨d', hd', g⟩
          exact ⟨d', List.mem_append_left _ hd', g⟩
        · rintro ⟨d', hd', g⟩
          rcases List.mem_append.1 hd' with hd' | hd'
          · exact ⟨d', hd', g⟩
          · rw [List.mem_singleton] at hd'
            subst hd'
            rw [g.1] at hneg
            omega
    · obtain ⟨i1, i2⟩ := hin d hd (by omega)
      obtain ⟨b, hb⟩ := isMoveBlocked_total hlast i1 i2
      cases b with
      | true =>
        refine ⟨dirs, ?_, ?_⟩
        · show (if (moves.get d).id < 0 then pure dirs else _) = _
          rw [if_neg hneg, hb, ok_bind]
          rfl
        · intro move
          rw [hP move]
          constructor
          · rintro ⟨d', hd', g⟩
            exact ⟨d', List.mem_append_left _ hd', g⟩
          · rintro ⟨d', hd', g⟩
            rcases List.mem_append.1 hd' with hd' | hd'
            · exact ⟨d', hd', g⟩
            · rw [List.mem_singleton] at hd'
              subst hd'
              rw [← g.1, hb] at g
              cases g.2.2
      | false =>
        refine ⟨dirs ++ [moves.get d], ?_, ?_⟩
        · show (if (moves.get d).id < 0 then pure dirs else _) = _
          rw [if_neg hneg, hb, ok_bind]
          rfl
        · intro move
          rw [List.mem_append, hP move, List.mem_singleton]
          constructor
          · rintro (⟨d', hd', g⟩ | g)
            · exact ⟨d', List.mem_append_left _ hd', g⟩
            · subst g
              exact ⟨d, List.mem_append_right _ (List.mem_singleton_self _), rfl,
                by omega, hb⟩
          · rintro ⟨d', hd', g⟩
            rcases List.mem_append.1 hd' with hd' | hd'
            · exact Or.inl ⟨d', hd', g⟩
            · rw [List.mem_singleton] at hd'
              subst hd'
              exact Or.inr g.1.symm

/-- **C27.** In a state where `m_lastSccWithJewel` has an entry for every jewel (what
`assignJewelsToSccs` leaves): `canMoveToScc(id)` returns, and it returns false if and only
if `id` is `invalidSccId` or some jewel `j` is not collected (`m_numCollected[j] ≤ 0`) and
has `m_lastSccWithJewel[j] < id`.  `orderMoves(moves)`, when the live slots of `moves`
start and end on the board and `std::sort` returns a permutation, returns live slots of
`moves` only, and a live slot is missing from the result exactly when its start and end
have different SCC ids and `canMoveToScc` of the end's SCC id is false. -/
theorem canMoveToScc_spec (o : SearchOracle) (ss : Search)
    (hlast : ss.solver.m_jewelState.numJewels ≤ ss.solver.m_lastSccWithJewel.length)
    (hsort : ∀ l, (o.sort ss.m_totalPotentialAtEdge l).Perm l) :
    (∀ id : Int, ∃ b, ss.solver.canMoveToScc id = .ok b ∧
      (b = false ↔ id = invalidSccId ∨ ∃ j : Nat, ∃ last n,
        ss.solver.m_lastSccWithJewel.get? j = some last ∧
        ss.solver.m_jewelState.m_numCollected.get? j = some n ∧ last < id ∧ n ≤ 0)) ∧
    ∀ moves : Moves,
      (∀ d ∈ DirectionHelper.values, 0 ≤ (moves.get d).id →
        ss.solver.m_sccIdAt.InBounds (moves.get d).startPos.x (moves.get d).startPos.y ∧
        ss.solver.m_sccIdAt.InBounds (moves.get d).endPos.x (moves.get d).endPos.y) →
      ∃ dirs, ss.orderMoves o moves = .ok dirs ∧
        (∀ move ∈ dirs, ∃ d ∈ DirectionHelper.values, moves.get d = move ∧ 0 ≤ move.id) ∧
        ∀ d ∈ DirectionHelper.values, 0 ≤ (moves.get d).id →
          ((moves.get d) ∉ dirs ↔
            ss.solver.m_sccIdAt.values (moves.get d).startPos.x (moves.get d).startPos.y ≠
                ss.solver.m_sccIdAt.values (moves.get d).endPos.x (moves.get d).endPos.y ∧
              ss.solver.canMoveToScc
                (ss.solver.m_sccIdAt.values (moves.get d).endPos.x (moves.get d).endPos.y) =
                .ok false) := by
  refine ⟨canMoveToScc_total ss.solver hlast, ?_⟩
  intro moves hin
  obtain ⟨kept, hk, hmem⟩ := orderMoves_kept o ss moves hlast hin
  have hperm : ∀ move, move ∈ o.sort ss.m_totalPotentialAtEdge kept ↔ move ∈ kept :=
    fun move => (hsort kept).mem_iff
  refine ⟨_, hk, ?_, ?_⟩
  · intro move hmove
    obtain ⟨d, hd, g1, g2, _⟩ := (hmem move).1 ((hperm move).1 hmove)
    exact ⟨d, hd, g1, g2⟩
  · intro d hd hlive
    obtain ⟨i1, i2⟩ := hin d hd hlive
    obtain ⟨b, hb⟩ := @isMoveBlocked_total ss.solver (moves.get d) hlast i1 i2
    rw [← (isMoveBlocked_eq_ok hb).2.2, hperm, hmem]
    constructor
    · intro hno
      cases b with
      | true => rfl
      | false => exact absurd ⟨d, hd, rfl, hlive, hb⟩ hno
    · rintro hb' ⟨d', _, g1, _, g3⟩
      subst hb'
      rw [hb] at g3
      cases g3

theorem canMoveToScc_spec_witness :
    (Search.make (sccsAssigned exclusiveLevel)).solver.m_jewelState.numJewels ≤
      (Search.make (sccsAssigned exclusiveLevel)).solver.m_lastSccWithJewel.length ∧
    ((∀ id : Int, ∃ b,
      (Search.make (sccsAssigned exclusiveLevel)).solver.canMoveToScc id = .ok b ∧
      (b = false ↔ id = invalidSccId ∨ ∃ j : Nat, ∃ last n,
        (Search.make (sccsAssigned exclusiveLevel)).solver.m_lastSccWithJewel.get? j =
          some last ∧
        (Search.make (sccsAssigned exclusiveLevel)).solver.m_jewelState.m_numCollected.get? j =
          some n ∧ last < id ∧ n ≤ 0)) ∧
    ∀ moves : Moves,
      (∀ d ∈ DirectionHelper.values, 0 ≤ (moves.get d).id →
        (Search.make (sccsAssigned exclusiveLevel)).solver.m_sccIdAt.InBounds
          (moves.get d).startPos.x (moves.get d).startPos.y ∧
        (Search.make (sccsAssigned exclusiveLevel)).solver.m_sccIdAt.InBounds
          (moves.get d).endPos.x (moves.get d).endPos.y) →
      ∃ dirs, (Search.make (sccsAssigned exclusiveLevel)).orderMoves SearchOracle.plain moves =
          .ok dirs ∧
        (∀ move ∈ dirs, ∃ d ∈ DirectionHelper.values, moves.get d = move ∧ 0 ≤ move.id) ∧
        ∀ d ∈ DirectionHelper.values, 0 ≤ (moves.get d).id →
          ((moves.get d) ∉ dirs ↔
            (Search.make (sccsAssigned exclusiveLevel)).solver.m_sccIdAt.values
                (moves.get d).startPos.x (moves.get d).startPos.y ≠
              (Search.make (sccsAssigned exclusiveLevel)).solver.m_sccIdAt.values
                (moves.get d).endPos.x (moves.get d).endPos.y ∧
            (Search.make (sccsAssigned exclusiveLevel)).solver.canMoveToScc
              ((Search.make (sccsAssigned exclusiveLevel)).solver.m_sccIdAt.values
                (moves.get d).endPos.x (moves.get d).endPos.y) = .ok false)) :=
  ⟨by decide!,
    canMoveToScc_spec SearchOracle.plain (Search.make (sccsAssigned exclusiveLevel))
      (by decide!) (fun l => List.mergeSort_perm l _)⟩

/-- C29 fails on `trapLevel 20`.  The run of `solve` reaches the CAH heuristic; there SCC 1 is
the hole `(10, 2)`, it is not traversed and `remainsSolvableAfterEnteringScc(isTraversed,
1)` is false (jewel 0 lies in SCC 2 only, which cannot be reached from SCC 1).  The
candidates of `insertForJewel(2)` are the moves 4, 10, 14, 19, 20, 22; move 10 is the first
that ends in SCC 1 and is skipped, which clears `mayBeEnterable[1]`; move 14, from `(6, 2)`
to `(10, 2)`, ends in SCC 1 as well, is not skipped and is chosen: the call returns 2 with
`nodesInPath` = (node 8 at `(6, 1)`, node 2 at `(6, 2)`, node 7 at `(10, 2)`), and SCC 1 is
marked traversed.  With jewel 2 first in the shuffle the heuristic then fails, with jewel 0
first it finds a solution of 7 moves. -/
theorem insertForJewel_admits_blocked_scc :
    isPrepared (trapLevel 20) = true ∧
      trapAdmission = .ok (false, [true, false, false]) ∧
      ((prepared (trapLevel 20)).m_movesCollectingJewel.map fun l => l.map Move.id) =
        [[35, 37], [1, 6, 8, 9, 10, 11, 14, 26], [4, 10, 14, 19, 20, 22]] ∧
      (prepared (trapLevel 20)).m_allMoves.get? 14 = some ⟨⟨6, 2⟩, ⟨10, 2⟩, 14, [1, 2]⟩ ∧
      (prepared (trapLevel 20)).m_sccIdAt.values 10 2 = 1 ∧
      (prepared (trapLevel 20)).m_nodeIdByPosition.values 6 2 = 2 ∧
      (prepared (trapLevel 20)).m_nodeIdByPosition.values 10 2 = 7 ∧
      (trapInsert.map fun r =>
        (r.1, r.2.nodesInPath, r.2.isTraversed, r.2.mayBeEnterable)) =
        .ok (2, [8, 2, 7], [true, true, false], [true, false, true]) ∧
      trapRun [2, 1, 0] = .ok (false, []) ∧
      trapRun [0, 1, 2] = .ok (true, [.SouthEast, .NorthEast, .SouthEast, .NorthWest, .West,
        .South, .West]) := by
  decide!

theorem chain'_transfer {α : Type} {R R' : α → α → Prop} : ∀ (l : List α),
    List.Chain' R l → (∀ a ∈ l.dropLast, ∀ y, R a y → R' a y) → List.Chain' R' l := by
  intro l
  induction l with
  | nil => intro _ _; exact List.chain'_nil
  | cons x l ih =>
    intro h hall
    cases l with
    | nil => exact List.chain'_singleton _
    | cons y rest =>
      rw [List.chain'_cons] at h ⊢
      rw [List.dropLast_cons₂] at hall
      exact ⟨hall x (List.mem_cons_self _ _) y h.1,
        ih h.2 (fun a ha => hall a (List.mem_cons_of_mem _ ha))⟩

theorem chain'_rehead {α : Type} {R R' : α → α → Prop} (x x' : α) (l : List α)
    (h : List.Chain' R (x :: l)) (hx : ∀ y, R x y → R' x' y)
    (hall : ∀ a ∈ l.dropLast, ∀ y, R a y → R' a y) : List.Chain' R' (x' :: l) := by
  cases l with
  | nil => exact List.chain'_singleton _
  | cons y rest =>
    rw [List.chain'_cons] at h ⊢
    exact ⟨hx y h.1, chain'_transfer _ h.2 hall⟩

theorem chain'_exchange {α : Type} {R R' : α → α → Prop} (pre B C T : List α) (i j k : α)
    (h : List.Chain' R (pre ++ i :: (B ++ j :: (C ++ k :: T))))
    (hpre : ∀ a ∈ pre, ∀ y, R a y → R' a y)
    (hB : ∀ a ∈ B, ∀ y, R a y → R' a y)
    (hC : ∀ a ∈ C, ∀ y, R a y → R' a y)
    (hT : ∀ a ∈ T, ∀ y, R a y → R' a y)
    (hi : ∀ y, R j y → R' i y) (hk : ∀ y, R i y → R' k y) (hj : ∀ y, R k y → R' j y) :
    List.Chain' R' (pre ++ i :: (C ++ k :: (B ++ j :: T))) := by
  rw [List.chain'_split] at h
  obtain ⟨h1, h2⟩ := h
  have e2 : i :: (B ++ j :: (C ++ k :: T)) = (i :: B) ++ j :: (C ++ k :: T) := rfl
  rw [e2, List.chain'_split] at h2
  obtain ⟨h2, h3⟩ := h2
  have e3 : j :: (C ++ k :: T) = (j :: C) ++ k :: T := rfl
  rw [e3, List.chain'_split] at h3
  obtain ⟨h3, h4⟩ := h3
  rw [List.chain'_split]
  refine ⟨chain'_transfer _ h1 (by simpa using hpre), ?_⟩
  have f2 : i :: (C ++ k :: (B ++ j :: T)) = (i :: C) ++ k :: (B ++ j :: T) := rfl
  rw [f2, List.chain'_split]
  refine ⟨chain'_rehead j i (C ++ [k]) h3 hi (by simpa using hC), ?_⟩
  have f3 : k :: (B ++ j :: T) = (k :: B) ++ j :: T := rfl
  rw [f3, List.chain'_split]
  refine ⟨chain'_rehead i k (B ++ [j]) h2 hk (by simpa using hB), ?_⟩
  exact chain'_rehead k j T h4 hj (fun a ha => hT a (List.mem_of_mem_dropLast ha))

theorem exchange_perm {α : Type} (pre B C T : List α) (i j k : α) :
    (pre ++ i :: (C ++ k :: (B ++ j :: T))).Perm (pre ++ i :: (B ++ j :: (C ++ k :: T))) := by
  refine List.Perm.append_left _ (List.Perm.cons _ ?_)
  have e1 : C ++ k :: (B ++ j :: T) = (C ++ [k]) ++ ((B ++ [j]) ++ T) := by simp
  have e2 : B ++ j :: (C ++ k :: T) = (B ++ [j]) ++ ((C ++ [k]) ++ T) := by simp
  rw [e1, e2]
  exact List.perm_append_comm_assoc _ _ _
theorem chain'_and_iff {α : Type} {R S : α → α → Prop} : ∀ (l : List α),
    List.Chain' (fun x y => R x y ∧ S x y) l ↔ List.Chain' R l ∧ List.Chain' S l := by
  intro l
  induction l with
  | nil => simp
  | cons x l ih =>
    cases l with
    | nil => simp
    | cons y rest =>
      rw [List.chain'_cons, List.chain'_cons, List.chain'_cons, ih]
      constructor
      · rintro ⟨⟨a, b⟩, c, d⟩
        exact ⟨⟨a, c⟩, b, d⟩
      · rintro ⟨⟨a, c⟩, b, d⟩
        exact ⟨⟨a, b⟩, c, d⟩

theorem linkWeight_split (w : Int → Int → Int) (a : Int) (l₂ : List Int) :
    ∀ l₁ : List Int,
      linkWeight w (l₁ ++ a :: l₂) = linkWeight w (l₁ ++ [a]) + linkWeight w (a :: l₂) := by
  intro l₁
  induction l₁ with
  | nil => simp [linkWeight]
  | cons x l ih =>
    cases l with
    | nil =>
      show linkWeight w (x :: a :: l₂) = linkWeight w [x, a] + linkWeight w (a :: l₂)
      simp [linkWeight]
    | cons y rest =>
      show linkWeight w (x :: y :: (rest ++ a :: l₂)) =
        linkWeight w (x :: y :: (rest ++ [a])) + linkWeight w (a :: l₂)
      rw [linkWeight, linkWeight]
      have := ih
      simp only [List.cons_append] at this
      rw [this]
      ring

theorem linkWeight_cons (w : Int → Int → Int) (x y : Int) (l : List Int) :
    linkWeight w (x :: y :: l) = w x y + linkWeight w (y :: l) := rfl

theorem chain'_head {α : Type} {R : α → α → Prop} (x : α) (l : List α) (hl : l ≠ [])
    (h : List.Chain' R (x :: l)) : ∃ y rest, l = y :: rest ∧ R x y := by
  cases l with
  | nil => exact absurd rfl hl
  | cons y rest =>
    rw [List.chain'_cons] at h
    exact ⟨y, rest, rfl, h.1⟩

/-- The weight of the chain after an exchange. -/
theorem linkWeight_exchange (w : Int → Int → Int) (pre B C T : List Int) (i j k si sj sk : Int)
    (hsi : (B ++ [j]).head? = some si) (hsj : (C ++ [k]).head? = some sj)
    (hsk : T.head? = some sk) :
    linkWeight w (pre ++ i :: (C ++ k :: (B ++ j :: T))) =
      linkWeight w (pre ++ i :: (B ++ j :: (C ++ k :: T))) -
        ((w i si + w j sj + w k sk) - (w i sj + w k si + w j sk)) := by
  have hcons : ∀ (x y : Int) (l : List Int), l.head? = some y →
      linkWeight w (x :: l) = w x y + linkWeight w l := by
    intro x y l hl
    cases l with
    | nil => cases hl
    | cons z rest =>
      simp only [List.head?_cons, Option.some.injEq] at hl
      subst hl
      rfl
  have key : ∀ (B C : List Int) (i j k si sj sk : Int), (B ++ [j]).head? = some si →
      (C ++ [k]).head? = some sj → T.head? = some sk →
      linkWeight w (pre ++ i :: (B ++ j :: (C ++ k :: T))) =
        linkWeight w (pre ++ [i]) + (w i si + linkWeight w (B ++ [j])) +
          (w j sj + linkWeight w (C ++ [k])) + (w k sk + linkWeight w T) := by
    intro B C i j k si sj sk hsi hsj hsk
    have a1 := linkWeight_split w i (B ++ j :: (C ++ k :: T)) pre
    have a2 : linkWeight w (i :: (B ++ j :: (C ++ k :: T))) =
        linkWeight w (i :: (B ++ [j])) + linkWeight w (j :: (C ++ k :: T)) :=
      linkWeight_split w j (C ++ k :: T) (i :: B)
    have a3 : linkWeight w (j :: (C ++ k :: T)) =
        linkWeight w (j :: (C ++ [k])) + linkWeight w (k :: T) :=
      linkWeight_split w k T (j :: C)
    rw [a1, a2, a3, hcons i si _ hsi, hcons j sj _ hsj, hcons k sk _ hsk]
    ring
  rw [key B C i j k si sj sk hsi hsj hsk, key C B i k j sj si sk hsj hsi hsk]
  ring
theorem chainLength_iff (s : Solver) (nodes successors : List Int) :
    ∀ (rest : List Int) (x L : Int),
      List.Chain' (fun a b => vecGet successors a = .ok b) (x :: rest) →
      (s.chainLength nodes successors rest.length x = .ok L ↔
        List.Chain' (fun a b => ∃ v, s.edgeCost nodes a b = .ok v) (x :: rest) ∧
        L = linkWeight (s.edgeWeight nodes) (x :: rest)) := by
  intro rest
  induction rest with
  | nil =>
    intro x L _
    show (Except.ok 0 = Except.ok L ↔ _)
    constructor
    · intro h
      cases h
      exact ⟨List.chain'_singleton _, rfl⟩
    · rintro ⟨_, h⟩
      rw [h]
      rfl
  | cons y rest ih =>
    intro x L hc
    rw [List.chain'_cons] at hc
    obtain ⟨hxy, hc⟩ := hc
    have hw : ∀ d, s.edgeCost nodes x y = .ok d → s.edgeWeight nodes x y = d := by
      intro d hd
      unfold Solver.edgeWeight
      rw [hd]
    show ((vecGet successors x >>= fun next => s.edgeCost nodes x next >>= fun d =>
      s.chainLength nodes successors rest.length next >>= fun r => pure (d + r)) = .ok L ↔ _)
    rw [hxy, ok_bind, List.chain'_cons, linkWeight_cons]
    cases he : s.edgeCost nodes x y with
    | error e =>
      constructor
      · intro h
        cases h
      · rintro ⟨⟨⟨v, hv⟩, _⟩, _⟩
        cases hv
    | ok d =>
      rw [ok_bind, hw d he]
      cases hr : s.chainLength nodes successors rest.length y with
      | error e =>
        constructor
        · intro h
          cases h
        · rintro ⟨⟨_, h2⟩, _⟩
          have := (ih y _ hc).2 ⟨h2, rfl⟩
          rw [hr] at this
          cases this
      | ok r =>
        obtain ⟨g1, g2⟩ := (ih y r hc).1 hr
        rw [ok_bind, pure_eq_ok, ← g2]
        constructor
        · intro h
          exact ⟨⟨⟨d, rfl⟩, g1⟩, h.symm⟩
        · rintro ⟨_, h⟩
          exact h.symm

theorem exchange_spec (s : Solver) (nodes successors s1 s2 succs : List Int)
    (x0 : Int) (rest pre B C T : List Int) (i j k si sj sk L a b c : Int)
    (hsplit : x0 :: rest = pre ++ i :: (B ++ j :: (C ++ k :: T)))
    (hT : T ≠ [])
    (hc : IsChain successors (x0 :: rest))
    (hL : s.chainLength nodes successors rest.length x0 = .ok L)
    (hsi : vecGet successors i = .ok si) (hsj : vecGet successors j = .ok sj)
    (hsk : vecGet successors k = .ok sk)
    (h1 : vecSet successors j sk = .ok s1) (h2 : vecSet s1 k si = .ok s2)
    (h3 : vecSet s2 i sj = .ok succs)
    (ha : s.edgeCost nodes i sj = .ok a) (hb : s.edgeCost nodes k si = .ok b)
    (hcc : s.edgeCost nodes j sk = .ok c) :
    ∃ rest', x0 :: rest' = pre ++ i :: (C ++ k :: (B ++ j :: T)) ∧
      rest'.length = rest.length ∧ IsChain succs (x0 :: rest') ∧
      vecGet succs i = .ok sj ∧ vecGet succs k = .ok si ∧ vecGet succs j = .ok sk ∧
      (∀ x : Int, x ≠ i → x ≠ j → x ≠ k → vecGet succs x = vecGet successors x) ∧
      i ≠ j ∧ i ≠ k ∧ j ≠ k ∧ (x0 :: rest').get? (pre.length + 1) = some sj ∧
      s.chainLength nodes succs rest'.length x0 =
        .ok (L - ((s.edgeWeight nodes i si + s.edgeWeight nodes j sj +
          s.edgeWeight nodes k sk) - (a + b + c))) := by
  obtain ⟨hnd, hch⟩ := hc
  rw [hsplit] at hnd hch
  -- distinctness
  have hmem : ∀ x, x ∈ pre ++ i :: (B ++ j :: (C ++ k :: T)) ↔
      x ∈ pre ∨ x = i ∨ x ∈ B ∨ x = j ∨ x ∈ C ∨ x = k ∨ x ∈ T := by
    intro x
    simp only [List.mem_append, List.mem_cons]
  have hnd' := hnd
  simp only [List.nodup_append, List.nodup_cons, List.mem_append, List.mem_cons,
    List.Disjoint, not_or] at hnd'
  obtain ⟨_, ⟨⟨iB, iJ, iC, iK, iT⟩, _, ⟨⟨jC, jK, jT⟩, _, ⟨kT, _⟩, dC⟩, dB⟩, dP⟩ := hnd'
  have hij : i ≠ j := iJ
  have hik : i ≠ k := iK
  have hjk : j ≠ k := jK
  have hne : ∀ x, x ∈ pre ∨ x ∈ B ∨ x ∈ C ∨ x ∈ T → x ≠ i ∧ x ≠ j ∧ x ≠ k := by
    intro x hx
    rcases hx with hx | hx | hx | hx
    · exact ⟨fun e => dP hx (Or.inl e), fun e => dP hx (Or.inr (Or.inr (Or.inl e))),
        fun e => dP hx (Or.inr (Or.inr (Or.inr (Or.inr (Or.inl e)))))⟩
    · exact ⟨fun e => iB (e ▸ hx), fun e => dB hx (Or.inl e),
        fun e => dB hx (Or.inr (Or.inr (Or.inl e)))⟩
    · exact ⟨fun e => iC (e ▸ hx), fun e => jC (e ▸ hx), fun e => dC hx (Or.inl e)⟩
    · exact ⟨fun e => iT (e ▸ hx), fun e => jT (e ▸ hx), fun e => kT (e ▸ hx)⟩
  -- the three writes
  obtain ⟨j0, j1, e1⟩ := vecSet_eq_ok h1
  obtain ⟨k0, k1, e2⟩ := vecSet_eq_ok h2
  obtain ⟨i0, i1, e3⟩ := vecSet_eq_ok h3
  have l1 : s1.length = successors.length := by rw [e1, List.length_set]
  have l2 : s2.length = successors.length := by rw [e2, List.length_set, l1]
  have gi : vecGet succs i = .ok sj := by
    rw [e3]
    exact vecGet_set_self _ _ _ i0 i1
  have gk : vecGet succs k = .ok si := by
    rw [e3, vecGet_set_ne _ _ _ _ i0 (fun e => hik e.symm), e2]
    exact vecGet_set_self _ _ _ k0 k1
  have gj : vecGet succs j = .ok sk := by
    rw [e3, vecGet_set_ne _ _ _ _ i0 (fun e => hij e.symm), e2,
      vecGet_set_ne _ _ _ _ k0 hjk, e1]
    exact vecGet_set_self _ _ _ j0 j1
  have gx : ∀ x : Int, x ≠ i → x ≠ j → x ≠ k → vecGet succs x = vecGet successors x := by
    intro x xi xj xk
    rw [e3, vecGet_set_ne _ _ _ _ i0 xi, e2, vecGet_set_ne _ _ _ _ k0 xk, e1,
      vecGet_set_ne _ _ _ _ j0 xj]
  -- the readable edges of the old chain
  have hchain := hch
  rw [← hsplit] at hchain
  obtain ⟨hok, hLw⟩ := (chainLength_iff s nodes successors rest x0 L hchain).1 hL
  rw [hsplit] at hok hLw
  have hboth := (chain'_and_iff _).2 ⟨hch, hok⟩
  have hnew := @chain'_exchange Int _
    (fun x y => vecGet succs x = .ok y ∧ ∃ v, s.edgeCost nodes x y = .ok v)
    pre B C T i j k hboth
    (fun x hx y hxy => by
      obtain ⟨n1, n2, n3⟩ := hne x (Or.inl hx)
      exact ⟨by rw [gx x n1 n2 n3]; exact hxy.1, hxy.2⟩)
    (fun x hx y hxy => by
      obtain ⟨n1, n2, n3⟩ := hne x (Or.inr (Or.inl hx))
      exact ⟨by rw [gx x n1 n2 n3]; exact hxy.1, hxy.2⟩)
    (fun x hx y hxy => by
      obtain ⟨n1, n2, n3⟩ := hne x (Or.inr (Or.inr (Or.inl hx)))
      exact ⟨by rw [gx x n1 n2 n3]; exact hxy.1, hxy.2⟩)
    (fun x hx y hxy => by
      obtain ⟨n1, n2, n3⟩ := hne x (Or.inr (Or.inr (Or.inr hx)))
      exact ⟨by rw [gx x n1 n2 n3]; exact hxy.1, hxy.2⟩)
    (fun y hy => by
      have : sj = y := by
        have := hy.1
        rw [hsj] at this
        exact Except.ok.inj this
      subst this
      exact ⟨gi, a, ha⟩)
    (fun y hy => by
      have : si = y := by
        have := hy.1
        rw [hsi] at this
        exact Except.ok.inj this
      subst this
      exact ⟨gk, b, hb⟩)
    (fun y hy => by
      have : sk = y := by
        have := hy.1
        rw [hsk] at this
        exact Except.ok.inj this
      subst this
      exact ⟨gj, c, hcc⟩)
  obtain ⟨hnew1, hnew2⟩ := (chain'_and_iff _).1 hnew
  -- heads of the three segments
  have hd1 : (B ++ [j]).head? = some si := by
    have e : i :: (B ++ j :: (C ++ k :: T)) = i :: ((B ++ [j]) ++ (C ++ k :: T)) := by simp
    have h := (List.chain'_split.1 hch).2
    rw [e] at h
    obtain ⟨y, r, ey, hy⟩ := chain'_head i _ (by simp) h
    rw [hsi] at hy
    have ey' : (B ++ [j]).head? = some y := by
      cases B with
      | nil =>
        simp only [List.nil_append, List.singleton_append, List.cons.injEq] at ey
        rw [← ey.1]
        rfl
      | cons b0 B0 =>
        simp only [List.cons_append, List.cons.injEq] at ey
        rw [← ey.1]
        rfl
    rw [ey', Except.ok.inj hy]
  have hd2 : (C ++ [k]).head? = some sj := by
    have e0 : pre ++ i :: (B ++ j :: (C ++ k :: T)) = (pre ++ i :: B) ++ j :: (C ++ k :: T) := by
      simp
    have h := hch
    rw [e0] at h
    have h := (List.chain'_split.1 h).2
    have e : j :: (C ++ k :: T) = j :: ((C ++ [k]) ++ T) := by simp
    rw [e] at h
    obtain ⟨y, r, ey, hy⟩ := chain'_head j _ (by simp) h
    rw [hsj] at hy
    have ey' : (C ++ [k]).head? = some y := by
      cases C with
      | nil =>
        simp only [List.nil_append, List.singleton_append, List.cons.injEq] at ey
        rw [← ey.1]
        rfl
      | cons c0 C0 =>
        simp only [List.cons_append, List.cons.injEq] at ey
        rw [← ey.1]
        rfl
    rw [ey', Except.ok.inj hy]
  have hd3 : T.head? = some sk := by
    have e0 : pre ++ i :: (B ++ j :: (C ++ k :: T)) = (pre ++ i :: (B ++ j :: C)) ++ k :: T := by
      simp
    have h := hch
    rw [e0] at h
    have h := (List.chain'_split.1 h).2
    obtain ⟨y, r, ey, hy⟩ := chain'_head k _ hT h
    rw [hsk] at hy
    rw [ey, ← Except.ok.inj hy]
    rfl
  -- the new chain keeps its head
  have hhead : ∃ rest', x0 :: rest' = pre ++ i :: (C ++ k :: (B ++ j :: T)) := by
    cases pre with
    | nil =>
      simp only [List.nil_append, List.cons.injEq] at hsplit
      exact ⟨_, by rw [hsplit.1]; rfl⟩
    | cons p0 P =>
      simp only [List.cons_append, List.cons.injEq] at hsplit
      exact ⟨_, by rw [hsplit.1]; rfl⟩
  obtain ⟨rest', hrest'⟩ := hhead
  have hperm := exchange_perm pre B C T i j k
  have hlen : rest'.length = rest.length := by
    have h1 := congrArg List.length hrest'
    have h2 := congrArg List.length hsplit
    rw [hperm.length_eq] at h1
    rw [List.length_cons] at h1 h2
    omega
  refine ⟨rest', hrest', hlen, ⟨?_, ?_⟩, gi, gk, gj, gx, hij, hik, hjk, ?_, ?_⟩
  · rw [hrest']
    exact hperm.nodup_iff.2 hnd
  · rw [hrest']
    exact hnew1
  · rw [hrest', List.get?_eq_getElem?, List.getElem?_append_right (by omega)]
    have e : pre.length + 1 - pre.length = 1 := by omega
    rw [e]
    cases C with
    | nil =>
      simp only [List.nil_append, List.head?_cons, Option.some.injEq] at hd2
      rw [← hd2]
      simp
    | cons c0 C0 =>
      simp only [List.cons_append, List.head?_cons, Option.some.injEq] at hd2
      rw [← hd2]
      simp
  · have hch' : List.Chain' (fun a b => vecGet succs a = .ok b) (x0 :: rest') := by
      rw [hrest']
      exact hnew1
    rw [chainLength_iff s nodes succs rest' x0 _ hch', hrest']
    refine ⟨hnew2, ?_⟩
    rw [linkWeight_exchange (s.edgeWeight nodes) pre B C T i j k si sj sk hd1 hd2 hd3, ← hLw]
    have wa : s.edgeWeight nodes i sj = a := by
      unfold Solver.edgeWeight
      rw [ha]
    have wb : s.edgeWeight nodes k si = b := by
      unfold Solver.edgeWeight
      rw [hb]
    have wc : s.edgeWeight nodes j sk = c := by
      unfold Solver.edgeWeight
      rw [hcc]
    rw [wa, wb, wc]
theorem get?_split {α : Type} (l : List α) (a : Nat) (x : α) (h : l.get? a = some x) :
    l = l.take a ++ x :: l.drop (a + 1) ∧ (l.take a).length = a := by
  obtain ⟨hlt, hx⟩ := List.get?_eq_some.1 h
  refine ⟨?_, by rw [List.length_take]; omega⟩
  have := List.drop_eq_getElem_cons hlt
  have hx' : l[a] = x := hx
  rw [hx'] at this
  rw [← this, List.take_append_drop]

theorem get?_split3 {α : Type} (l : List α) (a b d : Nat) (i j k : α) (hab : a < b)
    (hbd : b < d) (hd : d + 1 < l.length) (hi : l.get? a = some i) (hj : l.get? b = some j)
    (hk : l.get? d = some k) :
    ∃ pre B C T, l = pre ++ i :: (B ++ j :: (C ++ k :: T)) ∧ pre.length = a ∧ T ≠ [] := by
  obtain ⟨e1, l1⟩ := get?_split l a i hi
  have hj' : (l.drop (a + 1)).get? (b - (a + 1)) = some j := by
    rw [List.get?_drop]
    rw [← hj]
    congr 1
    omega
  obtain ⟨e2, l2⟩ := get?_split _ _ j hj'
  have hk' : ((l.drop (a + 1)).drop (b - (a + 1) + 1)).get? (d - (b + 1)) = some k := by
    rw [List.get?_drop, List.get?_drop, ← hk]
    congr 1
    omega
  obtain ⟨e3, l3⟩ := get?_split _ _ k hk'
  refine ⟨l.take a, (l.drop (a + 1)).take (b - (a + 1)),
    ((l.drop (a + 1)).drop (b - (a + 1) + 1)).take (d - (b + 1)),
    (((l.drop (a + 1)).drop (b - (a + 1) + 1)).drop (d - (b + 1) + 1)), ?_, l1, ?_⟩
  · rw [← e3, ← e2, ← e1]
  · intro hnil
    have := congrArg List.length hnil
    simp only [List.length_drop, List.length_nil] at this
    omega

theorem chain_next (successors c : List Int) (hc : IsChain successors c) (d : Nat) (k : Int)
    (hk : c.get? d = some k) (hd : d + 1 < c.length) :
    ∃ y, c.get? (d + 1) = some y ∧ vecGet successors k = .ok y := by
  obtain ⟨e1, _⟩ := get?_split c d k hk
  have hlt : 0 < (c.drop (d + 1)).length := by
    rw [List.length_drop]
    omega
  obtain ⟨y, r, hy⟩ : ∃ y r, c.drop (d + 1) = y :: r := by
    cases hdr : c.drop (d + 1) with
    | nil => rw [hdr] at hlt; cases hlt
    | cons y r => exact ⟨y, r, rfl⟩
  have hch := hc.2
  rw [e1, hy, List.chain'_split, List.chain'_cons] at hch
  refine ⟨y, ?_, hch.2.1⟩
  have : c.get? (d + 1) = (c.drop (d + 1)).get? 0 := by
    rw [List.get?_drop]
  rw [this, hy]
  rfl

theorem edgeCost_ok (s : Solver) (nodes : List Int) (x y a b v : Int)
    (hx : vecGet nodes x = .ok a) (hy : vecGet nodes y = .ok b)
    (hv : s.m_distanceFromTo.read a b = .ok v) : s.edgeCost nodes x y = .ok v := by
  unfold Solver.edgeCost
  rw [hx, ok_bind, hy, ok_bind]
  exact hv
theorem opt3LoopK_commit (s : Solver) (nodes successors : List Int) (flags : List Bool)
    (window x0 : Int) (rest : List Int) (L : Int)
    (hc : IsChain successors (x0 :: rest)) (hn : rest.length + 1 = nodes.length)
    (hL : s.chainLength nodes successors rest.length x0 = .ok L)
    (a b : Nat) (i j si sj iStart iEnd iCost jStart jEnd jCost j0 : Int)
    (hab : a < b) (hi : (x0 :: rest).get? a = some i) (hj : (x0 :: rest).get? b = some j)
    (hsi : vecGet successors i = .ok si) (hsj : vecGet successors j = .ok sj)
    (hiS : vecGet nodes i = .ok iStart) (hiE : vecGet nodes si = .ok iEnd)
    (hiC : s.m_distanceFromTo.read iStart iEnd = .ok iCost)
    (hjS : vecGet nodes j = .ok jStart) (hjE : vecGet nodes sj = .ok jEnd)
    (hjC : s.m_distanceFromTo.read jStart jEnd = .ok jCost) :
    ∀ (steps d : Nat) (k : Int) (succs : List Int) (saved : Int), b < d →
      (x0 :: rest).get? d = some k →
      s.opt3LoopK nodes successors flags window i iStart iEnd iCost j jStart jEnd jCost j0
        steps (d : Int) k = .ok (some (succs, saved)) →
      ∃ k', s.Exchanged nodes successors succs i j k' saved ∧
        ∃ rest', IsChain succs (x0 :: rest') ∧ rest'.length = rest.length ∧
          s.chainLength nodes succs rest'.length x0 = .ok (L - saved) ∧
          (x0 :: rest').get? (a + 1) = some sj ∧ vecGet succs i = .ok sj := by
  intro steps
  induction steps with
  | zero =>
    intro d k succs saved _ _ h
    cases h
  | succ steps ih =>
    intro d k succs saved hbd hk h
    unfold Solver.opt3LoopK at h
    split at h
    · rename_i hcond
      have hd : d + 1 < (x0 :: rest).length := by
        rw [List.length_cons, hn]
        exact_mod_cast hcond.1
      obtain ⟨y, hy, hky⟩ := chain_next successors _ hc d k hk hd
      have hnext : ∀ k', vecGet successors k = .ok k' →
          s.opt3LoopK nodes successors flags window i iStart iEnd iCost j jStart jEnd jCost j0
            steps ((d : Int) + 1) k' = .ok (some (succs, saved)) →
          ∃ k', s.Exchanged nodes successors succs i j k' saved ∧
            ∃ rest', IsChain succs (x0 :: rest') ∧ rest'.length = rest.length ∧
              s.chainLength nodes succs rest'.length x0 = .ok (L - saved) ∧
              (x0 :: rest').get? (a + 1) = some sj ∧ vecGet succs i = .ok sj := by
        intro k' hk' hrec
        rw [hky] at hk'
        cases hk'
        exact ih (d + 1) y succs saved (by omega) hy (by push_cast; exact hrec)
      simp only [bind_eq_ok] at h
      obtain ⟨flag, _, h⟩ := h
      split at h
      · simp only [bind_eq_ok] at h
        obtain ⟨k', hk', h⟩ := h
        exact hnext k' hk' h
      · simp only [bind_eq_ok] at h
        obtain ⟨kStart, hkS, sk, hsk, kEnd, hkE, kCost, hkC, iCostNew, hiN, jCostNew, hjN,
          kCostNew, hkN, h⟩ := h
        split at h
        · simp only [bind_eq_ok] at h
          obtain ⟨k', hk', h⟩ := h
          exact hnext k' hk' h
        · rename_i hfin
          split at h
          · rename_i hless
            simp only [bind_eq_ok] at h
            obtain ⟨sj', hsj', sk', hsk', s1, h1, si', hsi', s2, h2, s3, h3, h⟩ := h
            rw [pure_eq_ok] at h
            have e1 : s3 = succs := congrArg Prod.fst (Option.some.inj h)
            have e2 : iCost + jCost + kCost - (iCostNew + jCostNew + kCostNew) = saved :=
              congrArg Prod.snd (Option.some.inj h)
            subst e1
            rw [hsj] at hsj'
            cases hsj'
            rw [hsk] at hsk'
            cases hsk'
            obtain ⟨pre, B, C, T, hsplit, hpre, hT⟩ :=
              get?_split3 _ a b d i j k hab hbd hd hi hj hk
            have hij : i ≠ j := by
              have hnd := hc.1
              rw [hsplit] at hnd
              simp only [List.nodup_append, List.nodup_cons, List.mem_append, List.mem_cons,
                not_or] at hnd
              exact hnd.2.1.1.2.1
            have hsi'' : si' = si := by
              obtain ⟨j0', j1', ee⟩ := vecSet_eq_ok h1
              rw [ee, vecGet_set_ne _ _ _ _ j0' hij, hsi] at hsi'
              exact (Except.ok.inj hsi').symm
            subst hsi''
            have ci := edgeCost_ok s nodes i si' iStart iEnd iCost hiS hiE hiC
            have cj := edgeCost_ok s nodes j sj jStart jEnd jCost hjS hjE hjC
            have ck := edgeCost_ok s nodes k sk kStart kEnd kCost hkS hkE hkC
            have ni := edgeCost_ok s nodes i sj iStart jEnd iCostNew hiS hjE hiN
            have nj := edgeCost_ok s nodes k si' kStart iEnd jCostNew hkS hiE hjN
            have nk := edgeCost_ok s nodes j sk jStart kEnd kCostNew hjS hkE hkN
            obtain ⟨rest', _, g2, g3, g4, g5, g6, g7, _, _, _, g8, g9⟩ :=
              exchange_spec s nodes successors s1 s2 s3 x0 rest pre B C T i j k si' sj sk L
                iCostNew jCostNew kCostNew hsplit hT hc hL hsi hsj hsk h1 h2 h3 ni nj nk
            have wi : s.edgeWeight nodes i si' = iCost := by
              unfold Solver.edgeWeight
              rw [ci]
            have wj : s.edgeWeight nodes j sj = jCost := by
              unfold Solver.edgeWeight
              rw [cj]
            have wk : s.edgeWeight nodes k sk = kCost := by
              unfold Solver.edgeWeight
              rw [ck]
            rw [wi, wj, wk, e2] at g9
            rw [hpre] at g8
            refine ⟨k, ⟨si', sj, sk, iCost, jCost, kCost, iCostNew, jCostNew, kCostNew, hsi, hsj,
              hsk, g4, g5, g6, g7, ci, cj, ck, ni, nj, nk, ?_, ?_, ?_, e2.symm, ?_⟩,
              rest', g3, g2, g9, g8, g4⟩
            · exact fun e => hfin (Or.inl e)
            · exact fun e => hfin (Or.inr (Or.inl e))
            · exact fun e => hfin (Or.inr (Or.inr e))
            · omega
          · simp only [bind_eq_ok] at h
            obtain ⟨k', hk', h⟩ := h
            exact hnext k' hk' h
    · cases h
theorem opt3LoopJ_commit (s : Solver) (nodes successors : List Int) (flags : List Bool)
    (window x0 : Int) (rest : List Int) (L : Int)
    (hc : IsChain successors (x0 :: rest)) (hn : rest.length + 1 = nodes.length)
    (hL : s.chainLength nodes successors rest.length x0 = .ok L)
    (a : Nat) (i si iStart iEnd iCost i0 : Int)
    (hi : (x0 :: rest).get? a = some i)
    (hsi : vecGet successors i = .ok si)
    (hiS : vecGet nodes i = .ok iStart) (hiE : vecGet nodes si = .ok iEnd)
    (hiC : s.m_distanceFromTo.read iStart iEnd = .ok iCost) :
    ∀ (steps b : Nat) (j : Int) (succs : List Int) (saved : Int), a < b →
      (x0 :: rest).get? b = some j →
      s.opt3LoopJ nodes successors flags window i iStart iEnd iCost i0 steps (b : Int) j =
        .ok (some (succs, saved)) →
      ∃ j' k', s.Exchanged nodes successors succs i j' k' saved ∧
        ∃ rest' y, IsChain succs (x0 :: rest') ∧ rest'.length = rest.length ∧
          s.chainLength nodes succs rest'.length x0 = .ok (L - saved) ∧
          (x0 :: rest').get? (a + 1) = some y ∧ vecGet succs i = .ok y := by
  intro steps
  induction steps with
  | zero =>
    intro b j succs saved _ _ h
    cases h
  | succ steps ih =>
    intro b j succs saved hab hj h
    unfold Solver.opt3LoopJ at h
    split at h
    · rename_i hcond
      have hb : b + 3 < (x0 :: rest).length := by
        rw [List.length_cons, hn]
        exact_mod_cast hcond.1
      obtain ⟨y, hy, hjy⟩ := chain_next successors _ hc b j hj (by omega)
      obtain ⟨z, hz, hyz⟩ := chain_next successors _ hc (b + 1) y hy (by omega)
      have hnext : ∀ j', vecGet successors j = .ok j' →
          s.opt3LoopJ nodes successors flags window i iStart iEnd iCost i0 steps
            ((b : Int) + 1) j' = .ok (some (succs, saved)) →
          ∃ j' k', s.Exchanged nodes successors succs i j' k' saved ∧
            ∃ rest' y, IsChain succs (x0 :: rest') ∧ rest'.length = rest.length ∧
              s.chainLength nodes succs rest'.length x0 = .ok (L - saved) ∧
              (x0 :: rest').get? (a + 1) = some y ∧ vecGet succs i = .ok y := by
        intro j' hj' hrec
        rw [hjy] at hj'
        cases hj'
        exact ih (b + 1) y succs saved (by omega) hy (by push_cast; exact hrec)
      simp only [bind_eq_ok] at h
      obtain ⟨flag, _, h⟩ := h
      split at h
      · simp only [bind_eq_ok] at h
        obtain ⟨j', hj', h⟩ := h
        exact hnext j' hj' h
      · simp only [bind_eq_ok] at h
        obtain ⟨jStart, hjS, sj, hsj, jEnd, hjE, jCost, hjC, sj', hsj', k, hk, r, hr, h⟩ := h
        rw [hjy] at hsj hsj'
        cases hsj
        cases hsj'
        rw [hyz] at hk
        cases hk
        cases r with
        | some r =>
          obtain ⟨succs0, saved0⟩ := r
          rw [pure_eq_ok] at h
          cases h
          have hr' : s.opt3LoopK nodes successors flags window i iStart iEnd iCost j jStart
              jEnd jCost (b : Int) nodes.length (((b + 2 : Nat)) : Int) z =
              .ok (some (succs, saved)) := by
            push_cast
            exact hr
          obtain ⟨k', hex, rest', g1, g2, g3, g4, g5⟩ :=
            opt3LoopK_commit s nodes successors flags window x0 rest L hc hn hL a b i j si y
              iStart iEnd iCost jStart jEnd jCost (b : Int) hab hi hj hsi hjy hiS hiE hiC hjS
              hjE hjC nodes.length (b + 2) z succs saved (by omega) hz hr'
          exact ⟨j, k', hex, rest', y, g1, g2, g3, g4, g5⟩
        | none =>
          simp only [bind_eq_ok] at h
          obtain ⟨j', hj', h⟩ := h
          exact hnext j' hj' h
    · cases h
theorem opt3LoopI_spec (s : Solver) (nodes : List Int) (flags : List Bool)
    (window totalLength x0 : Int) :
    ∀ (steps a : Nat) (i : Int) (successors : List Int) (savedLength : Int) (any : Bool)
      (rest : List Int) (L : Int) (succs' : List Int) (saved' : Int) (any' : Bool),
      IsChain successors (x0 :: rest) → rest.length + 1 = nodes.length →
      (x0 :: rest).get? a = some i →
      s.chainLength nodes successors rest.length x0 = .ok L →
      s.opt3LoopI nodes flags window totalLength steps (a : Int) i
        (successors, savedLength, any) = .ok (succs', saved', any') →
      ∃ rest', IsChain succs' (x0 :: rest') ∧ rest'.length = rest.length ∧
        s.chainLength nodes succs' rest'.length x0 = .ok (L - (saved' - savedLength)) ∧
        savedLength ≤ saved' ∧ (any' = true ↔ any = true ∨ savedLength < saved') ∧
        (saved' = savedLength → succs' = successors) := by
  intro steps
  have hstop : ∀ (successors : List Int) (savedLength : Int) (any : Bool) (rest : List Int)
      (L : Int) (succs' : List Int) (saved' : Int) (any' : Bool),
      IsChain successors (x0 :: rest) →
      s.chainLength nodes successors rest.length x0 = .ok L →
      (successors, savedLength, any) = (succs', saved', any') →
      ∃ rest', IsChain succs' (x0 :: rest') ∧ rest'.length = rest.length ∧
        s.chainLength nodes succs' rest'.length x0 = .ok (L - (saved' - savedLength)) ∧
        savedLength ≤ saved' ∧ (any' = true ↔ any = true ∨ savedLength < saved') ∧
        (saved' = savedLength → succs' = successors) := by
    intro successors savedLength any rest L succs' saved' any' hc hL h
    cases h
    refine ⟨rest, hc, rfl, ?_, le_refl _, ?_, fun _ => rfl⟩
    · rw [hL]
      congr 1
      omega
    · constructor
      · exact fun h => Or.inl h
      · rintro (h | h)
        · exact h
        · omega
  induction steps with
  | zero =>
    intro a i successors savedLength any rest L succs' saved' any' hc _ _ hL h
    exact hstop _ _ _ _ _ _ _ _ hc hL (Except.ok.inj h)
  | succ steps ih =>
    intro a i successors savedLength any rest L succs' saved' any' hc hn hi hL h
    unfold Solver.opt3LoopI at h
    split at h
    · rename_i hcond
      have ha : a + 5 < (x0 :: rest).length := by
        rw [List.length_cons, hn]
        exact_mod_cast hcond
      split at h
      · exact hstop _ _ _ _ _ _ _ _ hc hL (Except.ok.inj h)
      · obtain ⟨y, hy, hiy⟩ := chain_next successors _ hc a i hi (by omega)
        obtain ⟨z, hz, hyz⟩ := chain_next successors _ hc (a + 1) y hy (by omega)
        have hnext : ∀ i', vecGet successors i = .ok i' →
            s.opt3LoopI nodes flags window totalLength steps ((a : Int) + 1) i'
              (successors, savedLength, any) = .ok (succs', saved', any') →
            ∃ rest', IsChain succs' (x0 :: rest') ∧ rest'.length = rest.length ∧
              s.chainLength nodes succs' rest'.length x0 = .ok (L - (saved' - savedLength)) ∧
              savedLength ≤ saved' ∧ (any' = true ↔ any = true ∨ savedLength < saved') ∧
              (saved' = savedLength → succs' = successors) := by
          intro i' hi' hrec
          rw [hiy] at hi'
          cases hi'
          exact ih (a + 1) y successors savedLength any rest L succs' saved' any' hc hn hy hL
            (by push_cast; exact hrec)
        simp only [bind_eq_ok] at h
        obtain ⟨flag, _, h⟩ := h
        split at h
        · simp only [bind_eq_ok] at h
          obtain ⟨i', hi', h⟩ := h
          exact hnext i' hi' h
        · simp only [bind_eq_ok] at h
          obtain ⟨iStart, hiS, si, hsi, iEnd, hiE, iCost, hiC, si', hsi', j, hj, r, hr, h⟩ := h
          rw [hiy] at hsi hsi'
          cases hsi
          cases hsi'
          rw [hyz] at hj
          cases hj
          cases r with
          | some r =>
            obtain ⟨succs, saved⟩ := r
            simp only [bind_eq_ok] at h
            obtain ⟨i', hi', h⟩ := h
            have hr' : s.opt3LoopJ nodes successors flags window i iStart iEnd iCost (a : Int)
                nodes.length (((a + 2 : Nat)) : Int) z = .ok (some (succs, saved)) := by
              push_cast
              exact hr
            obtain ⟨j', k', hex, rest', y', g1, g2, g3, g4, g5⟩ :=
              opt3LoopJ_commit s nodes successors flags window x0 rest L hc hn hL a i y iStart
                iEnd iCost (a : Int) hi hiy hiS hiE hiC nodes.length (a + 2) z succs saved
                (by omega) hz hr'
            rw [g5] at hi'
            cases hi'
            have hpos : 0 < saved := by
              obtain ⟨_, _, _, _, _, _, _, _, _, _, _, _, _, _, _, _, _, _, _, _, _, _, _, _,
                _, _, hp⟩ := hex
              exact hp
            obtain ⟨rest'', f1, f2, f3, f4, f5, _⟩ :=
              ih (a + 1) i' succs (savedLength + saved) true rest' (L - saved) succs' saved'
                any' g1 (by rw [g2]; exact hn) g4 g3 (by push_cast; exact h)
            refine ⟨rest'', f1, by rw [f2, g2], ?_, by omega, ?_, ?_⟩
            · rw [f3]
              congr 1
              omega
            · constructor
              · intro _
                exact Or.inr (by omega)
              · intro _
                exact f5.2 (Or.inl rfl)
            · intro e
              omega
          | none =>
            simp only [bind_eq_ok] at h
            obtain ⟨i', hi', h⟩ := h
            exact hnext i' hi' h
    · exact hstop _ _ _ _ _ _ _ _ hc hL (Except.ok.inj h)
/-- **C30.** Let `successors` be a chain over the indices of `nodesInPath` that starts at
index 0 (each index once, each followed by its successor), with `L` the sum of
`m_distanceFromTo` over its edges.  (1) When the loops over `j` and `k`, entered by the
loop over `i` with `i` at position `a` of the chain and `j` two places further, commit an
exchange, they do so for indices `i`, `j'`, `k'` with `Exchanged`: the successors of `i`,
`k'`, `j'` become the old successors of `j'`, `i`, `k'`, no other successor changes, the
three new distances are not `infiniteDistance`, and the returned `saved` is `cost -
costNew > 0`; the new successors are again a chain from index 0, and the sum of the
distances over it is `L - saved`.  (2) `opt3(nodesInPath, successors, flags, window)`
returns true if and only if it changed `successors`, and then the sum over the new chain is
smaller by the positive total that the commits saved; when it returns false the sum is
unchanged. -/
theorem opt3_exchange (s : Solver) (nodes successors : List Int) (flags : List Bool)
    (window : Int) (rest : List Int) (L : Int)
    (hc : IsChain successors (0 :: rest)) (hn : rest.length + 1 = nodes.length)
    (hL : s.chainLength nodes successors rest.length 0 = .ok L) :
    (∀ (a : Nat) (i si iStart iEnd iCost j : Int) (succs : List Int) (saved : Int),
      (0 :: rest).get? a = some i → (0 :: rest).get? (a + 2) = some j →
      vecGet successors i = .ok si → vecGet nodes i = .ok iStart →
      vecGet nodes si = .ok iEnd → s.m_distanceFromTo.read iStart iEnd = .ok iCost →
      s.opt3LoopJ nodes successors flags window i iStart iEnd iCost (a : Int) nodes.length
        ((a : Int) + 2) j = .ok (some (succs, saved)) →
      ∃ j' k', s.Exchanged nodes successors succs i j' k' saved ∧
        ∃ rest', IsChain succs (0 :: rest') ∧ rest'.length = rest.length ∧
          s.chainLength nodes succs rest'.length 0 = .ok (L - saved)) ∧
    ∀ (improved : Bool) (succs : List Int),
      s.opt3Pass nodes successors flags window = .ok (improved, succs) →
      (improved = true ↔ succs ≠ successors) ∧
      ∃ (rest' : List Int) (saved : Int), IsChain succs (0 :: rest') ∧
        rest'.length = rest.length ∧ (improved = true ↔ 0 < saved) ∧ 0 ≤ saved ∧
        s.chainLength nodes succs rest'.length 0 = .ok (L - saved) := by
  constructor
  · intro a i si iStart iEnd iCost j succs saved hi hj hsi hiS hiE hiC h
    have h' : s.opt3LoopJ nodes successors flags window i iStart iEnd iCost (a : Int)
        nodes.length (((a + 2 : Nat)) : Int) j = .ok (some (succs, saved)) := by
      push_cast
      exact h
    obtain ⟨j', k', hex, rest', y, g1, g2, g3, _, _⟩ :=
      opt3LoopJ_commit s nodes successors flags window 0 rest L hc hn hL a i si iStart iEnd
        iCost (a : Int) hi hsi hiS hiE hiC nodes.length (a + 2) j succs saved (by omega) hj h'
    exact ⟨j', k', hex, rest', g1, g2, g3⟩
  · intro improved succs h
    unfold Solver.opt3Pass at h
    simp only [bind_eq_ok] at h
    obtain ⟨total, _, ⟨succs', saved', any'⟩, hloop, h⟩ := h
    rw [pure_eq_ok] at h
    cases h
    have hloop' : s.opt3LoopI nodes flags window total.size nodes.length ((0 : Nat) : Int) 0
        (successors, 0, false) = .ok (succs', saved', any') := hloop
    obtain ⟨rest', f1, f2, f3, f4, f5, f6⟩ :=
      opt3LoopI_spec s nodes flags window total.size 0 nodes.length 0 0 successors 0 false
        rest L succs' saved' any' hc hn rfl hL hloop'
    have hiff : any' = true ↔ 0 < saved' := by
      rw [f5]
      constructor
      · rintro (h | h)
        · cases h
        · exact h
      · exact fun h => Or.inr h
    refine ⟨?_, rest', saved', f1, f2, hiff, f4, ?_⟩
    · rw [hiff]
      constructor
      · intro hpos e
        subst e
        have hch := f1.2
        have e1 := (chainLength_iff s nodes succs' rest' 0 _ f1.2).1 f3
        have e2 := (chainLength_iff s nodes succs' rest 0 _ hc.2).1 hL
        -- the two chains of the same successors from 0 are equal
        have huniq : ∀ (l₁ l₂ : List Int) (x : Int), l₁.length = l₂.length →
            List.Chain' (fun a b => vecGet succs' a = .ok b) (x :: l₁) →
            List.Chain' (fun a b => vecGet succs' a = .ok b) (x :: l₂) → l₁ = l₂ := by
          intro l₁
          induction l₁ with
          | nil =>
            intro l₂ x hl _ _
            cases l₂ with
            | nil => rfl
            | cons _ _ => cases hl
          | cons y l₁ ih =>
            intro l₂ x hl h1 h2
            cases l₂ with
            | nil => cases hl
            | cons z l₂ =>
              rw [List.chain'_cons] at h1 h2
              have : y = z := by
                have := h1.1
                rw [h2.1] at this
                exact (Except.ok.inj this).symm
              subst this
              rw [ih l₂ y (by simpa using hl) h1.2 h2.2]
        have := huniq rest' rest 0 f2 f1.2 hc.2
        subst this
        rw [hL] at f3
        have := Except.ok.inj f3
        omega
      · intro hne
        by_contra hn0
        exact hne (f6 (by omega))
    · rw [f3]
      congr 1
      omega

theorem opt3_exchange_witness :
    IsChain [1, 2, 3, 4, 5, 6] (0 :: [1, 2, 3, 4, 5]) ∧
    (prepared (trapLevel 5)).chainLength [8, 4, 2, 0, 3, 6] [1, 2, 3, 4, 5, 6]
        ([1, 2, 3, 4, 5] : List Int).length 0 = .ok 12 ∧
    ((∀ (a : Nat) (i si iStart iEnd iCost j : Int) (succs : List Int) (saved : Int),
      (0 :: [1, 2, 3, 4, 5]).get? a = some i → (0 :: [1, 2, 3, 4, 5]).get? (a + 2) = some j →
      vecGet [1, 2, 3, 4, 5, 6] i = .ok si → vecGet [8, 4, 2, 0, 3, 6] i = .ok iStart →
      vecGet [8, 4, 2, 0, 3, 6] si = .ok iEnd →
      (prepared (trapLevel 5)).m_distanceFromTo.read iStart iEnd = .ok iCost →
      (prepared (trapLevel 5)).opt3LoopJ [8, 4, 2, 0, 3, 6] [1, 2, 3, 4, 5, 6]
        (List.replicate 5 false) 16 i iStart iEnd iCost (a : Int)
        ([8, 4, 2, 0, 3, 6] : List Int).length ((a : Int) + 2) j = .ok (some (succs, saved)) →
      ∃ j' k', (prepared (trapLevel 5)).Exchanged [8, 4, 2, 0, 3, 6] [1, 2, 3, 4, 5, 6] succs
          i j' k' saved ∧
        ∃ rest', IsChain succs (0 :: rest') ∧
          rest'.length = ([1, 2, 3, 4, 5] : List Int).length ∧
          (prepared (trapLevel 5)).chainLength [8, 4, 2, 0, 3, 6] succs rest'.length 0 =
            .ok (12 - saved)) ∧
    ∀ (improved : Bool) (succs : List Int),
      (prepared (trapLevel 5)).opt3Pass [8, 4, 2, 0, 3, 6] [1, 2, 3, 4, 5, 6]
        (List.replicate 5 false) 16 = .ok (improved, succs) →
      (improved = true ↔ succs ≠ [1, 2, 3, 4, 5, 6]) ∧
      ∃ (rest' : List Int) (saved : Int), IsChain succs (0 :: rest') ∧
        rest'.length = ([1, 2, 3, 4, 5] : List Int).length ∧
        (improved = true ↔ 0 < saved) ∧ 0 ≤ saved ∧
        (prepared (trapLevel 5)).chainLength [8, 4, 2, 0, 3, 6] succs rest'.length 0 =
          .ok (12 - saved)) :=
  ⟨⟨by decide, by
      repeat rw [List.chain'_cons]
      refine ⟨?_, ?_, ?_, ?_, ?_, List.chain'_singleton _⟩ <;> rfl⟩, by decide!,
    opt3_exchange (prepared (trapLevel 5)) [8, 4, 2, 0, 3, 6] [1, 2, 3, 4, 5, 6]
      (List.replicate 5 false) 16 [1, 2, 3, 4, 5] 12 (⟨by decide, by
        repeat rw [List.chain'_cons]
        refine ⟨?_, ?_, ?_, ?_, ?_, List.chain'_singleton _⟩ <;> rfl⟩) rfl
      (by decide!)⟩

/-- A pass of `opt3` that commits: on `trapLevel 5`, for the node list (8, 4, 2, 0, 3, 6)
with the successors 1, …, 6, the exchange at the indices 0, 2, 4 is made; the chain becomes
0, 3, 4, 1, 2, 5 and the sum of the distances falls from 12 to 9. -/
theorem opt3Pass_commits :
    (prepared (trapLevel 5)).opt3Pass [8, 4, 2, 0, 3, 6] [1, 2, 3, 4, 5, 6]
        (List.replicate 5 false) 16 = .ok (true, [3, 2, 5, 4, 1, 6]) ∧
      (prepared (trapLevel 5)).chainLength [8, 4, 2, 0, 3, 6] [3, 2, 5, 4, 1, 6] 5 0 =
        .ok 9 := by
  decide!

theorem bestRunLoop_inv (s : Solver) (starts : List Coords2) (solution : Solution)
    (solLength : Int) :
    ∀ (fuel : Nat) (start stop : Int) (numOmitted : List Int) (best best' : Improvement),
      0 ≤ best.possibleImprovement → (best.start ≠ -1 → 1 ≤ best.length) →
      s.bestRunLoop starts solution solLength fuel start stop numOmitted best = .ok best' →
      0 ≤ best'.possibleImprovement ∧ (best'.start ≠ -1 → 1 ≤ best'.length) := by
  intro fuel
  induction fuel with
  | zero =>
    intro start stop numOmitted best best' h0 h1 h
    unfold Solver.bestRunLoop at h
    split at h
    · cases h
    · cases h
      exact ⟨h0, h1⟩
  | succ fuel ih =>
    intro start stop numOmitted best best' h0 h1 h
    unfold Solver.bestRunLoop at h
    split at h
    · rw [bind_eq_ok] at h
      obtain ⟨⟨stop1, om1⟩, _, h⟩ := h
      dsimp only at h
      split at h
      · split at h
        · rename_i hlen
          simp only [bind_eq_ok] at h
          obtain ⟨_, _, _, _, _, _, _, _, newLength, _, h⟩ := h
          split at h
          · rename_i himpr
            simp only [bind_eq_ok, pure_eq_ok] at h
            obtain ⟨y, hy, move, _, om2, _, h⟩ := h
            subst hy
            exact ih _ _ _ _ _ (by show 0 ≤ stop1 - start - newLength; omega)
              (fun _ => by show 1 ≤ stop1 - start; omega) h
          · simp only [bind_eq_ok, pure_eq_ok] at h
            obtain ⟨y, hy, move, _, om2, _, h⟩ := h
            subst hy
            exact ih _ _ _ _ _ h0 h1 h
        · simp only [bind_eq_ok, pure_eq_ok] at h
          obtain ⟨y, hy, move, _, om2, _, h⟩ := h
          subst hy
          exact ih _ _ _ _ _ h0 h1 h
      · simp only [bind_eq_ok, pure_eq_ok] at h
        obtain ⟨y, hy, move, _, om2, _, h⟩ := h
        subst hy
        exact ih _ _ _ _ _ h0 h1 h
    · cases h
      exact ⟨h0, h1⟩

theorem findMostImprovableRedundantEdgeRun_length {s : Solver} {solution : Solution}
    {start length : Int}
    (h : s.findMostImprovableRedundantEdgeRun solution = .ok (start, length))
    (hs : start ≠ -1) : 1 ≤ length := by
  unfold Solver.findMostImprovableRedundantEdgeRun at h
  simp only [bind_eq_ok] at h
  obtain ⟨starts, _, best, hb, h⟩ := h
  rw [pure_eq_ok] at h
  cases h
  exact (bestRunLoop_inv s _ _ _ _ _ _ _ _ _ (le_refl _) (fun c => absurd rfl c) hb).2 hs

theorem pathLoop_length (s : Solver) (toNode : Int) :
    ∀ (fuel : Nat) (fromNode length : Int) (path : List Direction) (found : Bool)
      (path' : List Direction),
      s.pathLoop toNode fuel fromNode length path = .ok (found, path') →
      path'.length ≤ path.length + length.toNat := by
  intro fuel
  induction fuel with
  | zero =>
    intro fromNode length path found path' h
    unfold Solver.pathLoop at h
    split at h
    · cases h
      omega
    · cases h
  | succ fuel ih =>
    intro fromNode length path found path' h
    unfold Solver.pathLoop at h
    split at h
    · cases h
      omega
    · split at h
      · cases h
        omega
      · rename_i hlen
        simp only [bind_eq_ok] at h
        obtain ⟨_, _, _, _, _, _, r, _, h⟩ := h
        cases r with
        | none =>
          rw [pure_eq_ok] at h
          cases h
          omega
        | some p =>
          obtain ⟨dir, newFrom⟩ := p
          dsimp only at h
          split at h
          · rw [pure_eq_ok] at h
            cases h
            rw [List.length_append, List.length_singleton]
            omega
          · have := ih _ _ _ _ _ h
            rw [List.length_append, List.length_singleton] at this
            omega

theorem tryShortenRun_length {s : Solver} {solution : Solution} {start length : Int}
    {sol : List Direction} (h : s.tryShortenRun solution start length = .ok sol)
    (hl : 1 ≤ length) : (sol.length : Int) < length := by
  unfold Solver.tryShortenRun at h
  split at h
  · rw [pure_eq_ok] at h
    subst h
    exact_mod_cast hl
  · rename_i hlen
    simp only [bind_eq_ok] at h
    obtain ⟨coords, _, endCoords, _, ⟨found, path⟩, hp, h⟩ := h
    have hpath : path.length ≤ (length - 1).toNat := by
      unfold Solver.pathFromToWithLength at hp
      simp only [bind_eq_ok] at hp
      obtain ⟨_, _, _, _, _, _, hp⟩ := hp
      split at hp
      · rw [pure_eq_ok] at hp
        cases hp
        exact Nat.zero_le _
      · have := pathLoop_length s _ _ _ _ _ _ _ hp
        simpa using this
    dsimp only at h
    split at h
    · rw [pure_eq_ok] at h
      subst h
      omega
    · rw [pure_eq_ok] at h
      subst h
      show ((0 : Nat) : Int) < length
      omega

theorem replace_size {solution solution' : Solution} {start length : Int}
    {replacement : List Direction}
    (h : solution.replace start length replacement = .ok solution') :
    solution'.size = solution.size - (length - replacement.length) ∧
      0 ≤ length - (replacement.length : Int) := by
  unfold Solution.replace at h
  dsimp only at h
  split at h
  · cases h
  · rename_i hb
    simp only [bind_eq_ok] at h
    obtain ⟨moves, hm, h⟩ := h
    rw [pure_eq_ok] at h
    subst h
    have hlen := foldlM_preserves
      (fun (m : List Direction) => m.length =
        (solution.m_moves.take start.toNat ++
          solution.m_moves.drop (start + (length - replacement.length)).toNat).length)
      _ (by
        intro m p m' hP hf
        obtain ⟨_, _, e⟩ := vecSet_eq_ok hf
        rw [e, List.length_set]
        exact hP) _ _ _ rfl hm
    refine ⟨?_, by omega⟩
    show ((moves.length : Nat) : Int) = (solution.m_moves.length : Int) - _
    rw [hlen, List.length_append, List.length_take, List.length_drop]
    omega
theorem bind_eq_error {ε α β : Type} {x : Except ε α} {f : α → Except ε β} {e : ε} :
    (x >>= f) = .error e ↔ x = .error e ∨ ∃ a, x = .ok a ∧ f a = .error e := by
  cases x with
  | error e' => simp [bind, Except.bind]
  | ok a => simp [bind, Except.bind]

theorem vecGet_fuel {α : Type} (v : List α) (i : Int) : vecGet v i ≠ .error .outOfFuel := by
  unfold vecGet
  split
  · split
    · exact fun h => by cases h
    · exact fun h => by cases h
  · exact fun h => by cases h

theorem vecSet_fuel {α : Type} (v : List α) (i : Int) (a : α) :
    vecSet v i a ≠ .error .outOfFuel := by
  unfold vecSet
  split
  · exact fun h => by cases h
  · exact fun h => by cases h

theorem Array2.read_fuel {α : Type} (a : Array2 α) (x y : Int) :
    a.read x y ≠ .error .outOfFuel := by
  unfold Array2.read
  split
  · exact fun h => by cases h
  · exact fun h => by cases h

theorem Array2.at_fuel {α : Type} (a : Array2 α) (c : Coords2) :
    a.at c ≠ .error .outOfFuel := Array2.read_fuel a c.x c.y

theorem foldlM_fuel {σ α : Type} (f : σ → α → Except Fault σ)
    (hf : ∀ s a, f s a ≠ .error .outOfFuel) :
    ∀ (l : List α) (s : σ), l.foldlM f s ≠ .error .outOfFuel := by
  intro l
  induction l with
  | nil =>
    intro s h
    cases h
  | cons a l ih =>
    intro s h
    rw [List.foldlM_cons, bind_eq_error] at h
    rcases h with h | ⟨s1, _, h⟩
    · exact hf s a h
    · exact ih s1 h

theorem forEachMoveInSolution_fuel {σ : Type} (s : Solver)
    (f : σ → Move → Coords2 → Except Fault σ)
    (hf : ∀ st m c, f st m c ≠ .error .outOfFuel) :
    ∀ (l : List Direction) (start : Coords2) (st : σ),
      s.forEachMoveInSolution f l start st ≠ .error .outOfFuel := by
  intro l
  induction l with
  | nil =>
    intro start st h
    cases h
  | cons d l ih =>
    intro start st h
    unfold Solver.forEachMoveInSolution at h
    simp only [bind_eq_error] at h
    rcases h with h | ⟨moves, _, h | ⟨st1, _, h⟩⟩
    · exact Array2.at_fuel _ _ h
    · exact hf _ _ _ h
    · exact ih _ _ h

theorem addToCollected_fuel (js : JewelState) (i : Int) :
    js.addToCollected i ≠ .error .outOfFuel := by
  intro h
  unfold JewelState.addToCollected at h
  simp only [bind_eq_error] at h
  rcases h with h | ⟨n, _, h | ⟨counts, _, h⟩⟩
  · exact vecGet_fuel _ _ h
  · exact vecSet_fuel _ _ _ h
  · split at h
    · rw [bind_eq_error] at h
      rcases h with h | ⟨_, _, h⟩
      · exact vecSet_fuel _ _ _ h
      · cases h
    · cases h

theorem removeFromCollected_fuel (js : JewelState) (i : Int) :
    js.removeFromCollected i ≠ .error .outOfFuel := by
  intro h
  unfold JewelState.removeFromCollected at h
  simp only [bind_eq_error] at h
  rcases h with h | ⟨n, _, h | ⟨counts, _, h⟩⟩
  · exact vecGet_fuel _ _ h
  · exact vecSet_fuel _ _ _ h
  · split at h
    · rw [bind_eq_error] at h
      rcases h with h | ⟨_, _, h⟩
      · exact vecSet_fuel _ _ _ h
      · cases h
    · cases h

theorem coordsAlongSolution_fuel (s : Solver) (solution : Solution) :
    s.coordsAlongSolution solution ≠ .error .outOfFuel := by
  intro h
  unfold Solver.coordsAlongSolution at h
  rw [bind_eq_error] at h
  rcases h with h | ⟨_, _, h⟩
  · exact forEachMoveInSolution_fuel s _ (fun _ _ _ h => by cases h) _ _ _ h
  · cases h

theorem moveOfSolution_fuel (s : Solver) (starts : List Coords2) (solution : Solution)
    (i : Int) : s.moveOfSolution starts solution i ≠ .error .outOfFuel := by
  intro h
  unfold Solver.moveOfSolution at h
  simp only [bind_eq_error] at h
  rcases h with h | ⟨_, _, h | ⟨_, _, h | ⟨_, _, h⟩⟩⟩
  · exact vecGet_fuel _ _ h
  · exact Array2.at_fuel _ _ h
  · exact vecGet_fuel _ _ h
  · cases h

theorem markOmitted_fuel (s : Solver) : ∀ (l : List Int) (st : Bool × List Int),
    s.markOmitted l st ≠ .error .outOfFuel := by
  intro l
  induction l with
  | nil =>
    intro st h
    cases h
  | cons j l ih =>
    intro st h
    obtain ⟨r, om⟩ := st
    unfold Solver.markOmitted at h
    simp only [bind_eq_error] at h
    rcases h with h | ⟨_, _, h | ⟨_, _, h | ⟨_, _, h⟩⟩⟩
    · exact vecGet_fuel _ _ h
    · unfold JewelState.numCollected at h
      exact vecGet_fuel _ _ h
    · exact vecSet_fuel _ _ _ h
    · exact ih _ h

theorem unmarkOmitted_fuel : ∀ (l : List Int) (om : List Int),
    Solver.unmarkOmitted l om ≠ .error .outOfFuel := by
  intro l
  induction l with
  | nil =>
    intro om h
    cases h
  | cons j l ih =>
    intro om h
    unfold Solver.unmarkOmitted at h
    simp only [bind_eq_error] at h
    rcases h with h | ⟨_, _, h | ⟨_, _, h⟩⟩
    · exact vecGet_fuel _ _ h
    · exact vecSet_fuel _ _ _ h
    · exact ih _ h
theorem growRun_fuel (s : Solver) (starts : List Coords2) (solution : Solution)
    (solLength : Int) :
    ∀ (fuel : Nat) (stop : Int) (om : List Int), 0 ≤ stop → stop ≤ solLength →
      solLength - stop < fuel →
      s.growRun starts solution solLength fuel stop om ≠ .error .outOfFuel ∧
      ∀ stop' om', s.growRun starts solution solLength fuel stop om = .ok (stop', om') →
        stop ≤ stop' ∧ stop' ≤ solLength := by
  intro fuel
  induction fuel with
  | zero =>
    intro stop om h0 h1 h2
    exact absurd h2 (by push_cast; omega)
  | succ fuel ih =>
    intro stop om h0 h1 h2
    unfold Solver.growRun
    split
    · rename_i he
      refine ⟨fun h => (by cases h), ?_⟩
      intro stop' om' h
      cases h
      exact ⟨le_refl _, h1⟩
    · rename_i hne
      have h2' : solLength - stop < (fuel : Int) + 1 := by exact_mod_cast h2
      have i1 := fun om => (ih (stop + 1) om (by omega) (by omega) (by omega)).1
      have i2 := fun om => (ih (stop + 1) om (by omega) (by omega) (by omega)).2
      constructor
      · intro h
        simp only [bind_eq_error] at h
        rcases h with h | ⟨move, _, h | ⟨⟨r, om1⟩, _, h⟩⟩
        · exact moveOfSolution_fuel _ _ _ _ h
        · exact markOmitted_fuel _ _ _ h
        · dsimp only at h
          split at h
          · rw [bind_eq_error] at h
            rcases h with h | ⟨_, _, h⟩
            · exact unmarkOmitted_fuel _ _ h
            · cases h
          · exact i1 _ h
      · intro stop' om' h
        simp only [bind_eq_ok] at h
        obtain ⟨move, _, ⟨r, om1⟩, _, h⟩ := h
        dsimp only at h
        split at h
        · rw [bind_eq_ok] at h
          obtain ⟨_, _, h⟩ := h
          rw [pure_eq_ok] at h
          cases h
          exact ⟨le_refl _, h1⟩
        · have := i2 _ _ _ h
          omega

theorem bestRunLoop_fuel (s : Solver) (starts : List Coords2) (solution : Solution)
    (solLength : Int) (hsol : 0 ≤ solLength) :
    ∀ (fuel : Nat) (start stop : Int) (om : List Int) (best : Improvement),
      0 ≤ start → start ≤ solLength → 0 ≤ stop → stop ≤ solLength →
      solLength - start < fuel →
      s.bestRunLoop starts solution solLength fuel start stop om best ≠
        .error .outOfFuel := by
  intro fuel
  induction fuel with
  | zero =>
    intro start stop om best h0 h1 _ _ h2
    exact absurd h2 (by push_cast; omega)
  | succ fuel ih =>
    intro start stop om best h0 h1 h3 h4 h2 h
    unfold Solver.bestRunLoop at h
    split at h
    · rename_i hcond
      rw [bind_eq_error] at h
      obtain ⟨g1, g2⟩ := growRun_fuel s starts solution solLength (solLength.toNat + 1) stop om
        h3 h4 (by push_cast; omega)
      rcases h with h | ⟨⟨stop1, om1⟩, hg, h⟩
      · exact g1 h
      · obtain ⟨b1, b2⟩ := g2 _ _ hg
        dsimp only at h
        have hrest : ∀ best1 : Improvement, (do
            let move ← s.moveOfSolution starts solution start
            let numOmitted ← Solver.unmarkOmitted move.jewels om1
            s.bestRunLoop starts solution solLength fuel (start + 1) stop1 numOmitted best1) ≠
            .error .outOfFuel := by
          intro best1 h
          simp only [bind_eq_error] at h
          rcases h with h | ⟨_, _, h | ⟨_, _, h⟩⟩
          · exact moveOfSolution_fuel _ _ _ _ h
          · exact unmarkOmitted_fuel _ _ h
          · have h2' : solLength - start < (fuel : Int) + 1 := by exact_mod_cast h2
            exact ih _ _ _ _ (by omega) (by omega) (by omega) b2 (by omega) h
        split at h
        · split at h
          · simp only [bind_eq_error] at h
            rcases h with h | ⟨_, _, h | ⟨_, _, h | ⟨_, _, h | ⟨_, _, h | ⟨_, _, h⟩⟩⟩⟩⟩
            · exact vecGet_fuel _ _ h
            · exact vecGet_fuel _ _ h
            · exact Array2.at_fuel _ _ h
            · exact Array2.at_fuel _ _ h
            · exact Array2.read_fuel _ _ _ h
            · split at h
              · exact hrest _ h
              · exact hrest _ h
          · exact hrest _ h
        · exact hrest _ h
    · cases h
theorem stepTowards_fuel (s : Solver) (moves : Moves) (toNode distance : Int) :
    ∀ l : List Direction, s.stepTowards moves toNode distance l ≠ .error .outOfFuel := by
  intro l
  induction l with
  | nil =>
    intro h
    cases h
  | cons d l ih =>
    intro h
    unfold Solver.stepTowards at h
    dsimp only at h
    split at h
    · exact ih h
    · simp only [bind_eq_error] at h
      rcases h with h | ⟨_, _, h | ⟨_, _, h⟩⟩
      · exact Array2.at_fuel _ _ h
      · exact Array2.read_fuel _ _ _ h
      · split at h
        · cases h
        · exact ih h

theorem pathLoop_fuel (s : Solver) (toNode : Int) :
    ∀ (fuel : Nat) (fromNode length : Int) (path : List Direction), length < fuel →
      0 < fuel → s.pathLoop toNode fuel fromNode length path ≠ .error .outOfFuel := by
  intro fuel
  induction fuel with
  | zero =>
    intro fromNode length path _ hf
    exact absurd hf (lt_irrefl _)
  | succ fuel ih =>
    intro fromNode length path hl _ h
    unfold Solver.pathLoop at h
    split at h
    · cases h
    · split at h
      · cases h
      · rename_i hlen
        simp only [bind_eq_error] at h
        rcases h with h | ⟨_, _, h | ⟨_, _, h | ⟨_, _, h | ⟨r, _, h⟩⟩⟩⟩
        · exact Array2.read_fuel _ _ _ h
        · exact vecGet_fuel _ _ h
        · exact Array2.at_fuel _ _ h
        · exact stepTowards_fuel _ _ _ _ _ h
        · cases r with
          | none => cases h
          | some p =>
            obtain ⟨dir, newFrom⟩ := p
            dsimp only at h
            split at h
            · cases h
            · have hl' : length < (fuel : Int) + 1 := by exact_mod_cast hl
              exact ih _ _ _ (by omega) (by omega) h

theorem pathFromToWithLength_fuel (s : Solver) (fromCoords toCoords : Coords2) (length : Int)
    (path : List Direction) :
    s.pathFromToWithLength fromCoords toCoords length path ≠ .error .outOfFuel := by
  intro h
  unfold Solver.pathFromToWithLength at h
  simp only [bind_eq_error] at h
  rcases h with h | ⟨_, _, h | ⟨_, _, h | ⟨_, _, h⟩⟩⟩
  · exact Array2.at_fuel _ _ h
  · exact Array2.at_fuel _ _ h
  · exact Array2.read_fuel _ _ _ h
  · split at h
    · cases h
    · exact pathLoop_fuel s _ _ _ _ _ (by push_cast; omega) (Nat.succ_pos _) h

theorem walkSolution_fuel (s : Solver) (solution : Solution) :
    ∀ (count : Nat) (i : Int) (coords : Coords2),
      s.walkSolution solution count i coords ≠ .error .outOfFuel := by
  intro count
  induction count with
  | zero =>
    intro i coords h
    cases h
  | succ count ih =>
    intro i coords h
    unfold Solver.walkSolution at h
    simp only [bind_eq_error] at h
    rcases h with h | ⟨_, _, h | ⟨_, _, h⟩⟩
    · exact Array2.at_fuel _ _ h
    · exact vecGet_fuel _ _ h
    · exact ih _ _ h

theorem tryShortenRun_fuel (s : Solver) (solution : Solution) (start length : Int) :
    s.tryShortenRun solution start length ≠ .error .outOfFuel := by
  intro h
  unfold Solver.tryShortenRun at h
  split at h
  · cases h
  · simp only [bind_eq_error] at h
    rcases h with h | ⟨_, _, h | ⟨_, _, h | ⟨r, _, h⟩⟩⟩
    · exact walkSolution_fuel _ _ _ _ _ h
    · exact walkSolution_fuel _ _ _ _ _ h
    · exact pathFromToWithLength_fuel _ _ _ _ _ h
    · split at h
      · cases h
      · cases h

theorem uncollectAlong_fuel (s : Solver) (oldSolution : Solution) :
    ∀ (count : Nat) (i : Int) (coords : Coords2) (js : JewelState),
      s.uncollectAlong oldSolution count i coords js ≠ .error .outOfFuel := by
  intro count
  induction count with
  | zero =>
    intro i coords js h
    cases h
  | succ count ih =>
    intro i coords js h
    unfold Solver.uncollectAlong at h
    simp only [bind_eq_error] at h
    rcases h with h | ⟨_, _, h | ⟨_, _, h | ⟨_, _, h⟩⟩⟩
    · exact Array2.at_fuel _ _ h
    · exact vecGet_fuel _ _ h
    · refine foldlM_fuel _ ?_ _ _ h
      intro js j hj
      rw [bind_eq_error] at hj
      rcases hj with hj | ⟨_, _, hj⟩
      · exact removeFromCollected_fuel _ _ hj
      · cases hj
    · exact ih _ _ _ h

theorem updateJewelState_fuel (s : Solver) (oldSolution : Solution) (start length : Int)
    (directions : List Direction) :
    s.updateJewelStateOnSolutionPartReplaced oldSolution start length directions ≠
      .error .outOfFuel := by
  intro h
  unfold Solver.updateJewelStateOnSolutionPartReplaced at h
  simp only [bind_eq_error] at h
  rcases h with h | ⟨_, _, h | ⟨_, _, h | ⟨_, _, h | ⟨_, _, h⟩⟩⟩⟩
  · exact coordsAlongSolution_fuel _ _ h
  · exact vecGet_fuel _ _ h
  · exact uncollectAlong_fuel _ _ _ _ _ _ h
  · refine forEachMoveInSolution_fuel s _ ?_ _ _ _ h
    intro js m c hm
    refine foldlM_fuel _ ?_ _ _ hm
    intro js j hj
    rw [bind_eq_error] at hj
    rcases hj with hj | ⟨_, _, hj⟩
    · exact addToCollected_fuel _ _ hj
    · cases hj
  · cases h

theorem replace_fuel (solution : Solution) (start length : Int) (replacement : List Direction) :
    solution.replace start length replacement ≠ .error .outOfFuel := by
  intro h
  unfold Solution.replace at h
  dsimp only at h
  split at h
  · cases h
  · rw [bind_eq_error] at h
    rcases h with h | ⟨_, _, h⟩
    · exact foldlM_fuel _ (fun m p => vecSet_fuel _ _ _) _ _ h
    · cases h

theorem findMostImprovableRedundantEdgeRun_fuel (s : Solver) (solution : Solution) :
    s.findMostImprovableRedundantEdgeRun solution ≠ .error .outOfFuel := by
  intro h
  unfold Solver.findMostImprovableRedundantEdgeRun at h
  simp only [bind_eq_error] at h
  rcases h with h | ⟨_, _, h | ⟨_, _, h⟩⟩
  · exact coordsAlongSolution_fuel _ _ h
  · have hsz : (0 : Int) ≤ solution.size := by
      unfold Solution.size
      exact Int.natCast_nonneg _
    exact bestRunLoop_fuel s _ _ _ hsz _ _ _ _ _ (le_refl _) hsz (le_refl _) hsz
      (by push_cast; omega) h
  · cases h

theorem tryRemoveAnyRunFromSolution_fuel (s : Solver) (solution : Solution) :
    s.tryRemoveAnyRunFromSolution solution ≠ .error .outOfFuel := by
  intro h
  unfold Solver.tryRemoveAnyRunFromSolution at h
  rw [bind_eq_error] at h
  rcases h with h | ⟨run, _, h⟩
  · exact findMostImprovableRedundantEdgeRun_fuel _ _ h
  · split at h
    · simp only [bind_eq_error] at h
      rcases h with h | ⟨_, _, h | ⟨_, _, h | ⟨_, _, h⟩⟩⟩
      · exact tryShortenRun_fuel _ _ _ _ h
      · exact updateJewelState_fuel _ _ _ _ _ h
      · exact replace_fuel _ _ _ _ h
      · cases h
    · cases h
theorem tryRemoveAnyRunFromSolution_shortens {s s' : Solver} {solution solution' : Solution}
    {removed : Bool}
    (h : s.tryRemoveAnyRunFromSolution solution = .ok (removed, s', solution')) :
    (removed = true ↔ solution'.size < solution.size) ∧
      (removed = false → s' = s ∧ solution' = solution) := by
  unfold Solver.tryRemoveAnyRunFromSolution at h
  rw [bind_eq_ok] at h
  obtain ⟨⟨start, length⟩, hrun, h⟩ := h
  dsimp only at h
  split at h
  · rename_i hs
    simp only [bind_eq_ok] at h
    obtain ⟨sol, hsol, s1, _, solution1, hrep, h⟩ := h
    rw [pure_eq_ok] at h
    cases h
    have hlen := findMostImprovableRedundantEdgeRun_length hrun hs
    have hshort := tryShortenRun_length hsol hlen
    obtain ⟨e, _⟩ := replace_size hrep
    refine ⟨⟨fun _ => (by omega), fun _ => rfl⟩, fun c => (by cases c)⟩
  · rw [pure_eq_ok] at h
    cases h
    refine ⟨⟨fun c => (by cases c), fun c => absurd c (lt_irrefl _)⟩, fun _ => ⟨rfl, rfl⟩⟩

theorem removeRuns_extra : ∀ (n : Nat) (s : Solver) (solution : Solution),
    solution.size.toNat ≤ n → ∀ k : Nat,
      s.removeRuns (n + 1 + k) solution = s.removeRuns (n + 1) solution := by
  intro n
  induction n with
  | zero =>
    intro s solution hn k
    have e : 0 + 1 + k = k + 1 := by omega
    rw [e]
    unfold Solver.removeRuns
    cases hr : s.tryRemoveAnyRunFromSolution solution with
    | error e => rfl
    | ok r =>
      obtain ⟨removed, s1, sol1⟩ := r
      rw [ok_bind, ok_bind]
      dsimp only
      cases removed with
      | false => rfl
      | true =>
        have := ((tryRemoveAnyRunFromSolution_shortens hr).1.1 rfl)
        have h0 : (0 : Int) ≤ sol1.size := by
          unfold Solution.size
          exact Int.natCast_nonneg _
        omega
  | succ n ih =>
    intro s solution hn k
    have e : n + 1 + 1 + k = (n + 1 + k) + 1 := by omega
    rw [e]
    unfold Solver.removeRuns
    cases hr : s.tryRemoveAnyRunFromSolution solution with
    | error e => rfl
    | ok r =>
      obtain ⟨removed, s1, sol1⟩ := r
      rw [ok_bind, ok_bind]
      dsimp only
      cases removed with
      | false => rfl
      | true =>
        have := ((tryRemoveAnyRunFromSolution_shortens hr).1.1 rfl)
        have h0 : (0 : Int) ≤ sol1.size := by
          unfold Solution.size
          exact Int.natCast_nonneg _
        simp only [if_true]
        exact ih s1 sol1 (by omega) k

theorem removeRuns_fixpoint : ∀ (fuel : Nat) (s s' : Solver) (solution solution' : Solution),
    s.removeRuns fuel solution = .ok (s', solution') →
    solution'.size ≤ solution.size ∧
      s'.tryRemoveAnyRunFromSolution solution' = .ok (false, s', solution') := by
  intro fuel
  induction fuel with
  | zero =>
    intro s s' solution solution' h
    cases h
  | succ fuel ih =>
    intro s s' solution solution' h
    unfold Solver.removeRuns at h
    rw [bind_eq_ok] at h
    obtain ⟨⟨removed, s1, sol1⟩, hr, h⟩ := h
    dsimp only at h
    obtain ⟨g1, g2⟩ := tryRemoveAnyRunFromSolution_shortens hr
    cases removed with
    | false =>
      simp only [Bool.false_eq_true, if_false, pure_eq_ok] at h
      obtain ⟨e1, e2⟩ := g2 rfl
      cases h
      subst e1
      subst e2
      exact ⟨le_refl _, hr⟩
    | true =>
      simp only [if_true] at h
      obtain ⟨f1, f2⟩ := ih _ _ _ _ h
      have := g1.1 rfl
      exact ⟨by omega, f2⟩

theorem removeRuns_fuel : ∀ (n : Nat) (s : Solver) (solution : Solution),
    solution.size.toNat ≤ n → s.removeRuns (n + 1) solution ≠ .error .outOfFuel := by
  intro n
  induction n with
  | zero =>
    intro s solution hn h
    unfold Solver.removeRuns at h
    rw [bind_eq_error] at h
    rcases h with h | ⟨⟨removed, s1, sol1⟩, hr, h⟩
    · exact tryRemoveAnyRunFromSolution_fuel _ _ h
    · dsimp only at h
      cases removed with
      | false => cases h
      | true =>
        have := ((tryRemoveAnyRunFromSolution_shortens hr).1.1 rfl)
        have h0 : (0 : Int) ≤ sol1.size := by
          unfold Solution.size
          exact Int.natCast_nonneg _
        omega
  | succ n ih =>
    intro s solution hn h
    unfold Solver.removeRuns at h
    rw [bind_eq_error] at h
    rcases h with h | ⟨⟨removed, s1, sol1⟩, hr, h⟩
    · exact tryRemoveAnyRunFromSolution_fuel _ _ h
    · dsimp only at h
      cases removed with
      | false => cases h
      | true =>
        have := ((tryRemoveAnyRunFromSolution_shortens hr).1.1 rfl)
        have h0 : (0 : Int) ≤ sol1.size := by
          unfold Solution.size
          exact Int.natCast_nonneg _
        simp only [if_true] at h
        exact ih s1 sol1 (by omega) h

/-- **C23.** For every solver state and solution: a call of `tryRemoveAnyRunFromSolution`
that returns gives true if and only if it left the solution strictly shorter, and when it
gives false the solution and the solver (with its `JewelState`) are unchanged; the call
never needs more iterations than its loops are given.  The loop
`while (tryRemoveAnyRunFromSolution(s))` started with `size(s) + 1` rounds of fuel behaves
as with any larger amount and never runs out of it: it makes at most `size(s)` rounds that
return true.  When the loop returns, the solution is not longer than before, and a further
call returns false and changes nothing. -/
theorem tryRemoveAnyRunFromSolution_spec (s : Solver) (solution : Solution) :
    (∀ (removed : Bool) (s' : Solver) (solution' : Solution),
      s.tryRemoveAnyRunFromSolution solution = .ok (removed, s', solution') →
      (removed = true ↔ solution'.size < solution.size) ∧
        (removed = false → s' = s ∧ solution' = solution)) ∧
    s.tryRemoveAnyRunFromSolution solution ≠ .error .outOfFuel ∧
    (∀ k : Nat, s.removeRuns (solution.size.toNat + 1 + k) solution =
      s.removeRuns (solution.size.toNat + 1) solution) ∧
    s.removeRuns (solution.size.toNat + 1) solution ≠ .error .outOfFuel ∧
    ∀ (s' : Solver) (solution' : Solution),
      s.removeRuns (solution.size.toNat + 1) solution = .ok (s', solution') →
      solution'.size ≤ solution.size ∧
        s'.tryRemoveAnyRunFromSolution solution' = .ok (false, s', solution') :=
  ⟨fun _ _ _ h => tryRemoveAnyRunFromSolution_shortens h,
    tryRemoveAnyRunFromSolution_fuel s solution,
    removeRuns_extra _ s solution (le_refl _),
    removeRuns_fuel _ s solution (le_refl _),
    fun _ _ h => removeRuns_fixpoint _ _ _ _ _ h⟩

/-- A run of the loop that removes a run: on `trapLevel 20` the walk East, West, East from
the vehicle cell `(6, 1)` ends on `(8, 1)`, one move away; the first call replaces the
three moves by East and returns true, the second returns false. -/
theorem removeRuns_example :
    ((prepared (trapLevel 20)).tryRemoveAnyRunFromSolution ⟨true, [.East, .West, .East]⟩).map
        (fun r => (r.1, r.2.2)) = .ok (true, ⟨true, [.East]⟩) ∧
      ((prepared (trapLevel 20)).removeRuns 4 ⟨true, [.East, .West, .East]⟩).map
        (fun r => r.2) = .ok ⟨true, [.East]⟩ ∧
      ((prepared (trapLevel 20)).tryRemoveAnyRunFromSolution ⟨true, [.East]⟩).map
        (fun r => (r.1, r.2.2)) = .ok (false, ⟨true, [.East]⟩) := by
  decide!

theorem shiftTotal_length (P : Array2 Int) (n : Nat) (sign j : Int) (T : List Int) :
    (shiftTotal P n sign j T).length = T.length := by
  unfold shiftTotal
  rw [List.length_mapIdx]

theorem shiftTotal_getElem? (P : Array2 Int) (n : Nat) (sign j : Int) (T : List Int)
    (e : Nat) :
    (shiftTotal P n sign j T)[e]? =
      (T[e]?).map fun t => if e < n then wrapU32 (t + sign * P.values j e) else t := by
  unfold shiftTotal
  rw [List.getElem?_mapIdx]

theorem wrapU32_idem (t : Int) : wrapU32 (wrapU32 t) = wrapU32 t := by
  unfold wrapU32
  omega

theorem shiftTotal_ranged (P : Array2 Int) (n : Nat) (sign j : Int) (T : List Int)
    (h : ∀ t ∈ T, wrapU32 t = t) : ∀ t ∈ shiftTotal P n sign j T, wrapU32 t = t := by
  intro t ht
  obtain ⟨e, he, hget⟩ := List.getElem_of_mem ht
  have h1 : (shiftTotal P n sign j T)[e]? = some t := by
    rw [List.getElem?_eq_getElem he, hget]
  rw [shiftTotal_getElem?] at h1
  cases hT : T[e]? with
  | none =>
    rw [hT] at h1
    cases h1
  | some t0 =>
    rw [hT] at h1
    have h2 : (if e < n then wrapU32 (t0 + sign * P.values j e) else t0) = t :=
      Option.some.inj h1
    have hm : t0 ∈ T := List.mem_iff_getElem?.2 ⟨e, hT⟩
    split at h2
    · rw [← h2]
      exact wrapU32_idem _
    · rw [← h2]
      exact h t0 hm

theorem shiftTotal_cancel (P : Array2 Int) (n : Nat) (sign j : Int) (T : List Int)
    (h : ∀ t ∈ T, wrapU32 t = t) :
    shiftTotal P n (-sign) j (shiftTotal P n sign j T) = T := by
  apply List.ext_getElem?
  intro e
  rw [shiftTotal_getElem?, shiftTotal_getElem?]
  cases hT : T[e]? with
  | none => rfl
  | some t0 =>
    have hm : t0 ∈ T := List.mem_iff_getElem?.2 ⟨e, hT⟩
    have h0 := h t0 hm
    show some _ = some _
    congr 1
    dsimp only
    by_cases c : e < n
    · rw [if_pos c, if_pos c]
      have e2 : -sign * P.values j e = -(sign * P.values j e) := by ring
      rw [e2]
      generalize sign * P.values j e = p
      unfold wrapU32 at h0 ⊢
      omega
    · rw [if_neg c, if_neg c]

theorem shiftTotal_comm (P : Array2 Int) (n : Nat) (s1 s2 i j : Int) (T : List Int) :
    shiftTotal P n s1 i (shiftTotal P n s2 j T) =
      shiftTotal P n s2 j (shiftTotal P n s1 i T) := by
  apply List.ext_getElem?
  intro e
  rw [shiftTotal_getElem?, shiftTotal_getElem?, shiftTotal_getElem?, shiftTotal_getElem?]
  cases hT : T[e]? with
  | none => rfl
  | some t0 =>
    show some _ = some _
    congr 1
    dsimp only
    by_cases c : e < n
    · rw [if_pos c, if_pos c, if_pos c, if_pos c]
      generalize s1 * P.values i e = p
      generalize s2 * P.values j e = q
      unfold wrapU32
      omega
    · rw [if_neg c, if_neg c, if_neg c, if_neg c]

theorem Tally.eq_of_fields {a b : Tally} (h1 : a.counts = b.counts) (h2 : a.numLeft = b.numLeft)
    (h3 : a.total = b.total) : a = b := by
  cases a
  cases b
  cases h1
  cases h2
  cases h3
  rfl

theorem set_getD_self (l : List Int) (i : Nat) (h : i < l.length) :
    l.set i (l.getD i 0) = l := by
  apply List.ext_getElem?
  intro k
  by_cases e : i = k
  · subst e
    rw [List.getElem?_set_eq h, List.getD_eq_getElem?_getD, List.getElem?_eq_getElem h]
    rfl
  · rw [List.getElem?_set_ne e]

theorem getD_set_eq (l : List Int) (i : Nat) (a : Int) (h : i < l.length) :
    (l.set i a).getD i 0 = a := by
  rw [List.getD_eq_getElem?_getD, List.getElem?_set_eq h]
  rfl

theorem getD_set_ne (l : List Int) (i j : Nat) (a : Int) (h : i ≠ j) :
    (l.set i a).getD j 0 = l.getD j 0 := by
  rw [List.getD_eq_getElem?_getD, List.getElem?_set_ne h, List.getD_eq_getElem?_getD]

theorem getD_ranged (l : List Int) (h : ∀ c ∈ l, wrap16 c = c) (i : Nat) :
    wrap16 (l.getD i 0) = l.getD i 0 := by
  rw [List.getD_eq_getElem?_getD]
  cases hi : l[i]? with
  | none => rfl
  | some c => exact h c (List.mem_iff_getElem?.2 ⟨i, hi⟩)

theorem set_ranged (l : List Int) (h : ∀ c ∈ l, wrap16 c = c) (i : Nat) (v : Int) :
    ∀ c ∈ l.set i (wrap16 v), wrap16 c = c := by
  intro c hc
  rcases List.mem_or_eq_of_mem_set hc with e | e
  · exact h c e
  · rw [e]
    have := wrap16_range v
    exact wrap16_of_range this.1 this.2

theorem Tally.add_fields (P : Array2 Int) (n : Nat) (x : Tally) (j : Int)
    (h : 0 ≤ j ∧ j < x.counts.length) :
    (x.add P n j).counts = x.counts.set j.toNat (wrap16 (x.counts.getD j.toNat 0 + 1)) ∧
    (x.add P n j).numLeft =
      (if wrap16 (x.counts.getD j.toNat 0 + 1) = 1 then x.numLeft - 1 else x.numLeft) ∧
    (x.add P n j).total =
      (if wrap16 (x.counts.getD j.toNat 0 + 1) = 1 then shiftTotal P n (-1) j x.total
        else x.total) := by
  unfold Tally.add
  rw [if_pos h]
  split <;> exact ⟨rfl, rfl, rfl⟩

theorem Tally.remove_fields (P : Array2 Int) (n : Nat) (x : Tally) (j : Int)
    (h : 0 ≤ j ∧ j < x.counts.length) :
    (x.remove P n j).counts = x.counts.set j.toNat (wrap16 (x.counts.getD j.toNat 0 - 1)) ∧
    (x.remove P n j).numLeft =
      (if wrap16 (x.counts.getD j.toNat 0 - 1) = 0 then x.numLeft + 1 else x.numLeft) ∧
    (x.remove P n j).total =
      (if wrap16 (x.counts.getD j.toNat 0 - 1) = 0 then shiftTotal P n 1 j x.total
        else x.total) := by
  unfold Tally.remove
  rw [if_pos h]
  split <;> exact ⟨rfl, rfl, rfl⟩

theorem Tally.add_length (P : Array2 Int) (n : Nat) (x : Tally) (j : Int) :
    (x.add P n j).counts.length = x.counts.length := by
  by_cases h : 0 ≤ j ∧ j < x.counts.length
  · rw [(Tally.add_fields P n x j h).1, List.length_set]
  · unfold Tally.add
    rw [if_neg h]

theorem Tally.remove_length (P : Array2 Int) (n : Nat) (x : Tally) (j : Int) :
    (x.remove P n j).counts.length = x.counts.length := by
  by_cases h : 0 ≤ j ∧ j < x.counts.length
  · rw [(Tally.remove_fields P n x j h).1, List.length_set]
  · unfold Tally.remove
    rw [if_neg h]

theorem Tally.add_ranged (P : Array2 Int) (n : Nat) (x : Tally) (j : Int) (hx : x.Ranged) :
    (x.add P n j).Ranged := by
  by_cases h : 0 ≤ j ∧ j < x.counts.length
  · obtain ⟨e1, _, e3⟩ := Tally.add_fields P n x j h
    refine ⟨?_, ?_⟩
    · rw [e1]
      exact set_ranged _ hx.1 _ _
    · rw [e3]
      split
      · exact shiftTotal_ranged P n _ j _ hx.2
      · exact hx.2
  · unfold Tally.add
    rw [if_neg h]
    exact hx

theorem Tally.remove_ranged (P : Array2 Int) (n : Nat) (x : Tally) (j : Int)
    (hx : x.Ranged) : (x.remove P n j).Ranged := by
  by_cases h : 0 ≤ j ∧ j < x.counts.length
  · obtain ⟨e1, _, e3⟩ := Tally.remove_fields P n x j h
    refine ⟨?_, ?_⟩
    · rw [e1]
      exact set_ranged _ hx.1 _ _
    · rw [e3]
      split
      · exact shiftTotal_ranged P n _ j _ hx.2
      · exact hx.2
  · unfold Tally.remove
    rw [if_neg h]
    exact hx

/-- The jewel loop of `discard` undoes the jewel loop of the move for one jewel. -/
theorem Tally.remove_add (P : Array2 Int) (n : Nat) (x : Tally) (j : Int) (hx : x.Ranged) :
    (x.add P n j).remove P n j = x := by
  by_cases h : 0 ≤ j ∧ j < x.counts.length
  · obtain ⟨a1, a2, a3⟩ := Tally.add_fields P n x j h
    have h' : 0 ≤ j ∧ j < (x.add P n j).counts.length := by
      rw [Tally.add_length]
      exact h
    obtain ⟨r1, r2, r3⟩ := Tally.remove_fields P n (x.add P n j) j h'
    have hlt : j.toNat < x.counts.length := by omega
    have hc := getD_ranged x.counts hx.1 j.toNat
    have hget : (x.add P n j).counts.getD j.toNat 0 =
        wrap16 (x.counts.getD j.toNat 0 + 1) := by
      rw [a1, getD_set_eq _ _ _ hlt]
    have hback : wrap16 (wrap16 (x.counts.getD j.toNat 0 + 1) - 1) =
        x.counts.getD j.toNat 0 := by
      generalize x.counts.getD j.toNat 0 = c at hc ⊢
      unfold wrap16 at hc ⊢
      omega
    have hflag : wrap16 (x.counts.getD j.toNat 0 + 1) = 1 ↔ x.counts.getD j.toNat 0 = 0 := by
      generalize x.counts.getD j.toNat 0 = c at hc ⊢
      unfold wrap16 at hc ⊢
      omega
    rw [hget, hback] at r1 r2 r3
    apply Tally.eq_of_fields
    · rw [r1, a1, List.set_set, set_getD_self _ _ hlt]
    · rw [r2, a2]
      by_cases c0 : x.counts.getD j.toNat 0 = 0
      · rw [if_pos c0, if_pos (hflag.2 c0)]
        omega
      · rw [if_neg c0, if_neg (fun c => c0 (hflag.1 c))]
    · rw [r3, a3]
      by_cases c0 : x.counts.getD j.toNat 0 = 0
      · rw [if_pos c0, if_pos (hflag.2 c0)]
        exact shiftTotal_cancel P n (-1) j x.total hx.2
      · rw [if_neg c0, if_neg (fun c => c0 (hflag.1 c))]
  · have e : x.add P n j = x := by
      unfold Tally.add
      rw [if_neg h]
    rw [e]
    unfold Tally.remove
    rw [if_neg h]

theorem Tally.add_remove (P : Array2 Int) (n : Nat) (x : Tally) (j : Int) (hx : x.Ranged) :
    (x.remove P n j).add P n j = x := by
  by_cases h : 0 ≤ j ∧ j < x.counts.length
  · obtain ⟨a1, a2, a3⟩ := Tally.remove_fields P n x j h
    have h' : 0 ≤ j ∧ j < (x.remove P n j).counts.length := by
      rw [Tally.remove_length]
      exact h
    obtain ⟨r1, r2, r3⟩ := Tally.add_fields P n (x.remove P n j) j h'
    have hlt : j.toNat < x.counts.length := by omega
    have hc := getD_ranged x.counts hx.1 j.toNat
    have hget : (x.remove P n j).counts.getD j.toNat 0 =
        wrap16 (x.counts.getD j.toNat 0 - 1) := by
      rw [a1, getD_set_eq _ _ _ hlt]
    have hback : wrap16 (wrap16 (x.counts.getD j.toNat 0 - 1) + 1) =
        x.counts.getD j.toNat 0 := by
      generalize x.counts.getD j.toNat 0 = c at hc ⊢
      unfold wrap16 at hc ⊢
      omega
    have hflag : wrap16 (x.counts.getD j.toNat 0 - 1) = 0 ↔ x.counts.getD j.toNat 0 = 1 := by
      generalize x.counts.getD j.toNat 0 = c at hc ⊢
      unfold wrap16 at hc ⊢
      omega
    rw [hget, hback] at r1 r2 r3
    apply Tally.eq_of_fields
    · rw [r1, a1, List.set_set, set_getD_self _ _ hlt]
    · rw [r2, a2]
      by_cases c0 : x.counts.getD j.toNat 0 = 1
      · rw [if_pos c0, if_pos (hflag.2 c0)]
        omega
      · rw [if_neg c0, if_neg (fun c => c0 (hflag.1 c))]
    · rw [r3, a3]
      by_cases c0 : x.counts.getD j.toNat 0 = 1
      · rw [if_pos c0, if_pos (hflag.2 c0)]
        have := shiftTotal_cancel P n 1 j x.total hx.2
        exact this
      · rw [if_neg c0, if_neg (fun c => c0 (hflag.1 c))]
  · have e : x.remove P n j = x := by
      unfold Tally.remove
      rw [if_neg h]
    rw [e]
    unfold Tally.add
    rw [if_neg h]

/-- The jewel loops of two different jewels commute. -/
theorem Tally.remove_add_comm (P : Array2 Int) (n : Nat) (x : Tally) (i j : Int)
    (hij : i ≠ j) : (x.add P n i).remove P n j = (x.remove P n j).add P n i := by
  by_cases hi : 0 ≤ i ∧ i < x.counts.length
  · by_cases hj : 0 ≤ j ∧ j < x.counts.length
    · obtain ⟨a1, a2, a3⟩ := Tally.add_fields P n x i hi
      obtain ⟨b1, b2, b3⟩ := Tally.remove_fields P n x j hj
      have hj' : 0 ≤ j ∧ j < (x.add P n i).counts.length := by
        rw [Tally.add_length]
        exact hj
      have hi' : 0 ≤ i ∧ i < (x.remove P n j).counts.length := by
        rw [Tally.remove_length]
        exact hi
      obtain ⟨r1, r2, r3⟩ := Tally.remove_fields P n (x.add P n i) j hj'
      obtain ⟨s1, s2, s3⟩ := Tally.add_fields P n (x.remove P n j) i hi'
      have hne : i.toNat ≠ j.toNat := by omega
      have g1 : (x.add P n i).counts.getD j.toNat 0 = x.counts.getD j.toNat 0 := by
        rw [a1, getD_set_ne _ _ _ _ hne]
      have g2 : (x.remove P n j).counts.getD i.toNat 0 = x.counts.getD i.toNat 0 := by
        rw [b1, getD_set_ne _ _ _ _ (Ne.symm hne)]
      rw [g1] at r1 r2 r3
      rw [g2] at s1 s2 s3
      apply Tally.eq_of_fields
      · rw [r1, s1, a1, b1, List.set_comm _ _ _ hne]
      · rw [r2, s2, a2, b2]
        split <;> split <;> omega
      · rw [r3, s3, a3, b3]
        split <;> split
        · exact (shiftTotal_comm P n (-1) 1 i j x.total).symm
        · rfl
        · rfl
        · rfl
    · have e : x.remove P n j = x := by
        unfold Tally.remove
        rw [if_neg hj]
      have hj' : ¬ (0 ≤ j ∧ j < (x.add P n i).counts.length) := by
        rw [Tally.add_length]
        exact hj
      rw [e]
      unfold Tally.remove
      rw [if_neg hj']
  · have e : x.add P n i = x := by
      unfold Tally.add
      rw [if_neg hi]
    have hi' : ¬ (0 ≤ i ∧ i < (x.remove P n j).counts.length) := by
      rw [Tally.remove_length]
      exact hi
    rw [e]
    unfold Tally.add
    rw [if_neg hi']

theorem Tally.foldl_add_ranged (P : Array2 Int) (n : Nat) :
    ∀ (js : List Int) (x : Tally), x.Ranged → (js.foldl (Tally.add P n) x).Ranged := by
  intro js
  induction js with
  | nil => exact fun x hx => hx
  | cons j rest ih =>
    intro x hx
    rw [List.foldl_cons]
    exact ih _ (Tally.add_ranged P n x j hx)

theorem Tally.remove_foldl_add (P : Array2 Int) (n : Nat) (j : Int) :
    ∀ (js : List Int) (x : Tally), x.Ranged →
      (js.foldl (Tally.add P n) x).remove P n j =
        js.foldl (Tally.add P n) (x.remove P n j) := by
  intro js
  induction js with
  | nil => exact fun x _ => rfl
  | cons i rest ih =>
    intro x hx
    rw [List.foldl_cons, List.foldl_cons, ih _ (Tally.add_ranged P n x i hx)]
    congr 1
    by_cases e : i = j
    · subst e
      rw [Tally.remove_add P n x i hx, Tally.add_remove P n x i hx]
    · exact Tally.remove_add_comm P n x i j e

/-- The jewel loops of `discard`, run over the same jewels in the same order, undo the jewel
loops of the moves. -/
theorem Tally.foldl_remove_add (P : Array2 Int) (n : Nat) :
    ∀ (js : List Int) (x : Tally), x.Ranged →
      js.foldl (Tally.remove P n) (js.foldl (Tally.add P n) x) = x := by
  intro js
  induction js with
  | nil => exact fun x _ => rfl
  | cons j rest ih =>
    intro x hx
    rw [List.foldl_cons, List.foldl_cons,
      Tally.remove_foldl_add P n j rest _ (Tally.add_ranged P n x j hx),
      Tally.remove_add P n x j hx]
    exact ih x hx

theorem Array2.read_eq_ok {α : Type} {a : Array2 α} {x y : Int} {v : α}
    (h : a.read x y = .ok v) : a.InBounds x y ∧ a.values x y = v := by
  unfold Array2.read at h
  split at h
  · rename_i r hr
    cases h
    exact Array2.get?_eq_some hr
  · cases h

/-- The loop over the edges of `onJewelContributionEnabled` and `onJewelContributionDisabled`,
read modulo `2^32`. -/
theorem shiftLoop_spec (P : Array2 Int) (sign j : Int)
    (f : List Int → Nat → Except Fault (List Int))
    (hf : ∀ total e total', f total e = .ok total' → ∃ t p, vecGet total (e : Int) = .ok t ∧
      P.read j e = .ok p ∧ ∃ v, wrapU32 v = wrapU32 (t + sign * p) ∧
        vecSet total (e : Int) (wrapU32 v) = .ok total') :
    ∀ (n : Nat) (T T' : List Int), (List.range n).foldlM f T = .ok T' →
      T'.length = T.length ∧
      ∀ e : Nat, T'[e]? =
        (T[e]?).map fun t => if e < n then wrapU32 (t + sign * P.values j e) else t := by
  intro n
  induction n with
  | zero =>
    intro T T' h
    rw [List.range_zero, List.foldlM_nil, pure_eq_ok] at h
    subst h
    refine ⟨rfl, fun e => ?_⟩
    cases T[e]? <;> simp
  | succ n ih =>
    intro T T' h
    rw [List.range_succ, List.foldlM_append, bind_eq_ok] at h
    obtain ⟨T1, h1, h2⟩ := h
    rw [List.foldlM_cons, bind_eq_ok] at h2
    obtain ⟨T2, h2, h3⟩ := h2
    rw [List.foldlM_nil, pure_eq_ok] at h3
    subst h3
    obtain ⟨l1, g1⟩ := ih T T1 h1
    obtain ⟨t, p, ht, hp, v, hv, hset⟩ := hf T1 n T2 h2
    obtain ⟨_, hpv⟩ := Array2.read_eq_ok hp
    obtain ⟨_, hlt, e2⟩ := vecSet_eq_ok hset
    obtain ⟨_, _, hget⟩ := vecGet_eq_ok ht
    rw [Int.toNat_ofNat] at e2 hget
    rw [List.get?_eq_getElem?] at hget
    refine ⟨by rw [e2, List.length_set, l1], fun e => ?_⟩
    rw [e2]
    by_cases c : n = e
    · subst c
      rw [List.getElem?_set_eq (by omega)]
      have := g1 n
      rw [hget] at this
      cases hT : T[n]? with
      | none =>
        rw [hT] at this
        cases this
      | some t0 =>
        rw [hT] at this
        have e3 : t = t0 := by simpa using this
        show some _ = some _
        congr 1
        dsimp only
        rw [if_pos (by omega), hv, e3, hpv]
    · rw [List.getElem?_set_ne c, g1 e]
      cases T[e]? with
      | none => rfl
      | some t0 =>
        show some _ = some _
        congr 1
        dsimp only
        by_cases c2 : e < n
        · rw [if_pos c2, if_pos (by omega)]
        · rw [if_neg c2, if_neg (by omega)]

theorem shiftLoop_tally (P : Array2 Int) (sign j : Int) (n : Nat) (T T' : List Int)
    (h : ∀ e : Nat, T'[e]? =
      (T[e]?).map fun t => if e < n then wrapU32 (t + sign * P.values j e) else t) :
    T'.map wrapU32 = shiftTotal P n sign j (T.map wrapU32) := by
  apply List.ext_getElem?
  intro e
  rw [List.getElem?_map, h e, shiftTotal_getElem?, List.getElem?_map]
  cases T[e]? with
  | none => rfl
  | some t0 =>
    show some _ = some _
    congr 1
    dsimp only
    by_cases c : e < n
    · rw [if_pos c, if_pos c]
      generalize sign * P.values j e = p
      unfold wrapU32
      omega
    · rw [if_neg c, if_neg c]

theorem onJewelContributionDisabled_tally {ss ss' : Search} {j : Int}
    (h : ss.onJewelContributionDisabled j = .ok ss') :
    ss' = { ss with m_totalPotentialAtEdge := ss'.m_totalPotentialAtEdge } ∧
      ss'.m_totalPotentialAtEdge.map wrapU32 =
        shiftTotal ss.m_potentialOfJewelAtEdge ss.solver.m_allMoves.length (-1) j
          (ss.m_totalPotentialAtEdge.map wrapU32) := by
  unfold Search.onJewelContributionDisabled at h
  rw [bind_eq_ok] at h
  obtain ⟨total, hfold, h⟩ := h
  rw [pure_eq_ok] at h
  subst h
  refine ⟨rfl, ?_⟩
  obtain ⟨_, g1⟩ := shiftLoop_spec ss.m_potentialOfJewelAtEdge (-1) j _ (by
    intro T e T' hT
    simp only [bind_eq_ok] at hT
    obtain ⟨t, ht, p, hp, hset⟩ := hT
    refine ⟨t, p, ht, hp, t - p, ?_, hset⟩
    congr 1
    ring) _ _ _ hfold
  exact shiftLoop_tally _ _ _ _ _ _ g1

theorem onJewelContributionEnabled_tally {ss ss' : Search} {j : Int}
    (h : ss.onJewelContributionEnabled j = .ok ss') :
    ss' = { ss with m_totalPotentialAtEdge := ss'.m_totalPotentialAtEdge } ∧
      ss'.m_totalPotentialAtEdge.map wrapU32 =
        shiftTotal ss.m_potentialOfJewelAtEdge ss.solver.m_allMoves.length 1 j
          (ss.m_totalPotentialAtEdge.map wrapU32) := by
  unfold Search.onJewelContributionEnabled at h
  rw [bind_eq_ok] at h
  obtain ⟨total, hfold, h⟩ := h
  rw [pure_eq_ok] at h
  subst h
  refine ⟨rfl, ?_⟩
  obtain ⟨_, g1⟩ := shiftLoop_spec ss.m_potentialOfJewelAtEdge 1 j _ (by
    intro T e T' hT
    simp only [bind_eq_ok] at hT
    obtain ⟨t, ht, p, hp, hset⟩ := hT
    refine ⟨t, p, ht, hp, t + p, ?_, hset⟩
    congr 1
    ring) _ _ _ hfold
  exact shiftLoop_tally _ _ _ _ _ _ g1

theorem Search.Frame.same (ss : Search) : ss.Frame ss := ⟨rfl, rfl⟩

theorem Search.Frame.chain {a b c : Search} (h1 : a.Frame b) (h2 : b.Frame c) :
    a.Frame c := by
  refine ⟨?_, h2.potential.trans h1.potential⟩
  have e := congrArg (fun s : Solver => { s with m_jewelState := a.solver.m_jewelState })
    h2.solver
  exact e.trans h1.solver

theorem Search.Frame.allMoves {a b : Search} (h : a.Frame b) :
    b.solver.m_allMoves = a.solver.m_allMoves := by
  have := congrArg Solver.m_allMoves h.solver
  exact this

theorem Search.Frame.byPosition {a b : Search} (h : a.Frame b) :
    b.solver.m_movesByPosition = a.solver.m_movesByPosition := by
  have := congrArg Solver.m_movesByPosition h.solver
  exact this

theorem Search.Unwound.still (ss : Search) : ss.Unwound ss := ⟨Search.Frame.same ss, rfl, rfl, rfl⟩

theorem Search.Unwound.join {a b c : Search} (h1 : a.Unwound b) (h2 : b.Unwound c) :
    a.Unwound c :=
  ⟨h1.frame.chain h2.frame, h2.tally.trans h1.tally, h2.solution.trans h1.solution,
    h2.left.trans h1.left⟩

theorem Search.Ranged.tally {ss : Search} (h : ss.Ranged) : ss.tally.Ranged := by
  refine ⟨h.counts, ?_⟩
  intro t ht
  have ht' : t ∈ ss.m_totalPotentialAtEdge.map wrapU32 := ht
  rw [List.mem_map] at ht'
  obtain ⟨t0, _, e⟩ := ht'
  rw [← e]
  exact wrapU32_idem t0

theorem Search.Ranged.of_unwound {a b : Search} (h : a.Unwound b) (ha : a.Ranged) :
    b.Ranged := by
  refine ⟨?_, ?_⟩
  · have e : b.solver.m_jewelState.m_numCollected = a.solver.m_jewelState.m_numCollected :=
      congrArg Tally.counts h.tally
    rw [e]
    exact ha.counts
  · rw [h.left]
    exact ha.left

/-- One pass of the jewel loop of a move: `addToCollected` and, when it returns true,
`onJewelContributionDisabled`. -/
theorem collectStep_tally {ss ss' : Search} {j : Int}
    (h : (do
      let (js, changed) ← ss.solver.m_jewelState.addToCollected j
      let ss := { ss with solver := { ss.solver with m_jewelState := js } }
      if changed then ss.onJewelContributionDisabled j else pure ss : Except Fault Search) =
        .ok ss') :
    ss'.tally = ss.tally.add ss.m_potentialOfJewelAtEdge ss.solver.m_allMoves.length j ∧
      ss.Frame ss' ∧ ss'.solution = ss.solution ∧
      ss'.m_numJewelsLeftWhenSolvingAt = ss.m_numJewelsLeftWhenSolvingAt := by
  rw [bind_eq_ok] at h
  obtain ⟨⟨js, changed⟩, hadd, h⟩ := h
  obtain ⟨c, hc, h0, h1, e1, e2, e3⟩ := JewelState.add_shape hadd
  have hv : 0 ≤ j ∧ j < ss.tally.counts.length := ⟨h0, h1⟩
  obtain ⟨a1, a2, a3⟩ := Tally.add_fields ss.m_potentialOfJewelAtEdge
    ss.solver.m_allMoves.length ss.tally j hv
  have hcd : ss.tally.counts.getD j.toNat 0 = c := by
    have := (vecGet_eq_ok hc).2.2
    show ss.solver.m_jewelState.m_numCollected.getD j.toNat 0 = c
    rw [List.getD_eq_getElem?_getD, ← List.get?_eq_getElem?, this]
    rfl
  rw [hcd] at a1 a2 a3
  dsimp only at h
  split at h
  · rename_i hch
    have hflag : wrap16 (c + 1) = 1 := by
      rw [hch] at e2
      exact of_decide_eq_true e2.symm
    obtain ⟨g1, g2⟩ := onJewelContributionDisabled_tally h
    rw [if_pos hflag] at a2 a3 e3
    refine ⟨?_, ?_, ?_, ?_⟩
    · apply Tally.eq_of_fields
      · rw [a1, g1]
        exact e1
      · rw [a2, g1]
        exact e3
      · rw [a3]
        exact g2
    · rw [g1]
      exact ⟨rfl, rfl⟩
    · rw [g1]
    · rw [g1]
  · rename_i hch
    have hflag : ¬ wrap16 (c + 1) = 1 := by
      intro hc1
      apply hch
      rw [e2]
      exact decide_eq_true hc1
    rw [pure_eq_ok] at h
    subst h
    rw [if_neg hflag] at a2 a3 e3
    refine ⟨?_, ⟨rfl, rfl⟩, rfl, rfl⟩
    apply Tally.eq_of_fields
    · rw [a1]
      exact e1
    · rw [a2]
      exact e3
    · rw [a3]
      rfl

theorem uncollectStep_tally {ss ss' : Search} {j : Int}
    (h : (do
      let (js, changed) ← ss.solver.m_jewelState.removeFromCollected j
      let ss := { ss with solver := { ss.solver with m_jewelState := js } }
      if changed then ss.onJewelContributionEnabled j else pure ss : Except Fault Search) =
        .ok ss') :
    ss'.tally = ss.tally.remove ss.m_potentialOfJewelAtEdge ss.solver.m_allMoves.length j ∧
      ss.Frame ss' ∧ ss'.solution = ss.solution ∧
      ss'.m_numJewelsLeftWhenSolvingAt = ss.m_numJewelsLeftWhenSolvingAt := by
  rw [bind_eq_ok] at h
  obtain ⟨⟨js, changed⟩, hadd, h⟩ := h
  obtain ⟨c, hc, h0, h1, e1, e2, e3⟩ := JewelState.remove_shape hadd
  have hv : 0 ≤ j ∧ j < ss.tally.counts.length := ⟨h0, h1⟩
  obtain ⟨a1, a2, a3⟩ := Tally.remove_fields ss.m_potentialOfJewelAtEdge
    ss.solver.m_allMoves.length ss.tally j hv
  have hcd : ss.tally.counts.getD j.toNat 0 = c := by
    have := (vecGet_eq_ok hc).2.2
    show ss.solver.m_jewelState.m_numCollected.getD j.toNat 0 = c
    rw [List.getD_eq_getElem?_getD, ← List.get?_eq_getElem?, this]
    rfl
  rw [hcd] at a1 a2 a3
  dsimp only at h
  split at h
  · rename_i hch
    have hflag : wrap16 (c - 1) = 0 := by
      rw [hch] at e2
      exact of_decide_eq_true e2.symm
    obtain ⟨g1, g2⟩ := onJewelContributionEnabled_tally h
    rw [if_pos hflag] at a2 a3 e3
    refine ⟨?_, ?_, ?_, ?_⟩
    · apply Tally.eq_of_fields
      · rw [a1, g1]
        exact e1
      · rw [a2, g1]
        exact e3
      · rw [a3]
        exact g2
    · rw [g1]
      exact ⟨rfl, rfl⟩
    · rw [g1]
    · rw [g1]
  · rename_i hch
    have hflag : ¬ wrap16 (c - 1) = 0 := by
      intro hc1
      apply hch
      rw [e2]
      exact decide_eq_true hc1
    rw [pure_eq_ok] at h
    subst h
    rw [if_neg hflag] at a2 a3 e3
    refine ⟨?_, ⟨rfl, rfl⟩, rfl, rfl⟩
    apply Tally.eq_of_fields
    · rw [a1]
      exact e1
    · rw [a2]
      exact e3
    · rw [a3]
      rfl

/-- The jewel loop of a move, as the search runs it before the recursive call. -/
theorem collect_tally (move : Move) {ss ss' : Search} (h : ss.collect move = .ok ss') :
    ss'.tally = move.jewels.foldl
        (Tally.add ss.m_potentialOfJewelAtEdge ss.solver.m_allMoves.length) ss.tally ∧
      ss.Frame ss' ∧ ss'.solution = ss.solution ∧
      ss'.m_numJewelsLeftWhenSolvingAt = ss.m_numJewelsLeftWhenSolvingAt := by
  unfold Search.collect at h
  generalize move.jewels = js at h
  induction js generalizing ss with
  | nil =>
    rw [List.foldlM_nil, pure_eq_ok] at h
    subst h
    exact ⟨rfl, Search.Frame.same _, rfl, rfl⟩
  | cons j rest ih =>
    rw [List.foldlM_cons, bind_eq_ok] at h
    obtain ⟨s1, h1, h2⟩ := h
    obtain ⟨a1, a2, a3, a4⟩ := collectStep_tally h1
    obtain ⟨b1, b2, b3, b4⟩ := ih h2
    rw [a2.potential, a2.allMoves, a1] at b1
    exact ⟨b1, a2.chain b2, b3.trans a3, b4.trans a4⟩

/-- The jewel loop of `discard`. -/
theorem uncollect_tally (move : Move) {ss ss' : Search} (h : ss.uncollect move = .ok ss') :
    ss'.tally = move.jewels.foldl
        (Tally.remove ss.m_potentialOfJewelAtEdge ss.solver.m_allMoves.length) ss.tally ∧
      ss.Frame ss' ∧ ss'.solution = ss.solution ∧
      ss'.m_numJewelsLeftWhenSolvingAt = ss.m_numJewelsLeftWhenSolvingAt := by
  unfold Search.uncollect at h
  generalize move.jewels = js at h
  induction js generalizing ss with
  | nil =>
    rw [List.foldlM_nil, pure_eq_ok] at h
    subst h
    exact ⟨rfl, Search.Frame.same _, rfl, rfl⟩
  | cons j rest ih =>
    rw [List.foldlM_cons, bind_eq_ok] at h
    obtain ⟨s1, h1, h2⟩ := h
    obtain ⟨a1, a2, a3, a4⟩ := uncollectStep_tally h1
    obtain ⟨b1, b2, b3, b4⟩ := ih h2
    rw [a2.potential, a2.allMoves, a1] at b1
    exact ⟨b1, a2.chain b2, b3.trans a3, b4.trans a4⟩

theorem Array2.eq_of_values {α : Type} {a b : Array2 α} (hw : a.width = b.width)
    (hh : a.height = b.height) (hv : ∀ i j, a.values i j = b.values i j) : a = b := by
  cases a
  cases b
  cases hw
  cases hh
  congr 1
  funext i j
  exact hv i j

theorem tryRemoveAnyRunFromSolution_frame {s s' : Solver} {solution solution' : Solution}
    {removed : Bool}
    (h : s.tryRemoveAnyRunFromSolution solution = .ok (removed, s', solution')) :
    { s' with m_jewelState := s.m_jewelState } = s := by
  unfold Solver.tryRemoveAnyRunFromSolution at h
  rw [bind_eq_ok] at h
  obtain ⟨run, _, h⟩ := h
  split at h
  · simp only [bind_eq_ok] at h
    obtain ⟨sol, _, s1, hupd, sol2, _, h⟩ := h
    rw [pure_eq_ok] at h
    cases h
    unfold Solver.updateJewelStateOnSolutionPartReplaced at hupd
    simp only [bind_eq_ok] at hupd
    obtain ⟨_, _, _, _, _, _, _, _, hupd⟩ := hupd
    rw [pure_eq_ok] at hupd
    rw [← hupd]
  · rw [pure_eq_ok] at h
    cases h
    rfl

theorem removeRuns_frame : ∀ (fuel : Nat) (s s' : Solver) (solution solution' : Solution),
    s.removeRuns fuel solution = .ok (s', solution') →
    { s' with m_jewelState := s.m_jewelState } = s := by
  intro fuel
  induction fuel with
  | zero =>
    intro s s' solution solution' h
    unfold Solver.removeRuns at h
    cases h
  | succ fuel ih =>
    intro s s' solution solution' h
    unfold Solver.removeRuns at h
    rw [bind_eq_ok] at h
    obtain ⟨⟨removed, s1, sol1⟩, h1, h⟩ := h
    have f1 := tryRemoveAnyRunFromSolution_frame h1
    dsimp only at h
    split at h
    · have f2 := ih s1 s' sol1 solution' h
      have e := congrArg (fun t : Solver => { t with m_jewelState := s.m_jewelState }) f2
      exact e.trans f1
    · rw [pure_eq_ok] at h
      cases h
      exact f1

/-- The lambda `discard` undoes the push, the jewel loop and the write of
`m_numJewelsLeftWhenSolvingAt[end]` that the search makes for a move, across any steps in
between that left the state unwound. -/
theorem discard_unwinds {s0 s1 s2 s3 : Search} (move : Move) (d : Direction) (old v : Int)
    (left : Array2 Int) (h0 : s0.Ranged)
    (hold : s0.m_numJewelsLeftWhenSolvingAt.at move.endPos = .ok old)
    (hcol : ({ s0 with solution := s0.solution.push d } : Search).collect move = .ok s1)
    (hput : s1.m_numJewelsLeftWhenSolvingAt.put move.endPos v = .ok left)
    (h12 : ({ s1 with m_numJewelsLeftWhenSolvingAt := left } : Search).Unwound s2)
    (hdis : s2.discard move old = .ok s3) : s0.Unwound s3 := by
  obtain ⟨c1, c2, c3, c4⟩ := collect_tally move hcol
  obtain ⟨hin, hval⟩ := Array2.at_eq_ok hold
  unfold Search.discard at hdis
  simp only [bind_eq_ok] at hdis
  obtain ⟨u, hu, left3, hput3, sol3, hpop, hdis⟩ := hdis
  rw [pure_eq_ok] at hdis
  subst hdis
  obtain ⟨u1, u2, u3, u4⟩ := uncollect_tally move hu
  have f01 : s0.Frame s1 := ⟨c2.solver, c2.potential⟩
  have f12 : s1.Frame s2 := ⟨h12.frame.solver, h12.frame.potential⟩
  have f02 := f01.chain f12
  have f03 := f02.chain u2
  have t2 : s2.tally = s1.tally := h12.tally
  refine ⟨⟨f03.solver, f03.potential⟩, ?_, ?_, ?_⟩
  · show u.tally = s0.tally
    rw [u1, f02.potential, f02.allMoves, t2, c1]
    exact Tally.foldl_remove_add _ _ _ _ h0.tally
  · show sol3 = s0.solution
    have e : u.solution = s0.solution.push d := by
      rw [u3, h12.solution]
      exact c3
    rw [e] at hpop
    unfold Solution.pop Solution.push at hpop
    split at hpop
    · cases hpop
    · cases hpop
      show Solution.mk s0.solution.m_exists (s0.solution.m_moves ++ [d]).dropLast =
        s0.solution
      rw [List.dropLast_concat]
  · show left3 = s0.m_numJewelsLeftWhenSolvingAt
    have e : u.m_numJewelsLeftWhenSolvingAt = left := by
      rw [u4]
      exact h12.left
    rw [e] at hput3
    obtain ⟨_, w1, w2, w3⟩ := Array2.put_eq_ok hput
    obtain ⟨_, x1, x2, x3⟩ := Array2.put_eq_ok hput3
    rw [c4] at w1 w2 w3
    have w1' : left.width = s0.m_numJewelsLeftWhenSolvingAt.width := w1
    have w2' : left.height = s0.m_numJewelsLeftWhenSolvingAt.height := w2
    have w3' : ∀ i j, left.values i j =
        if i = move.endPos.x ∧ j = move.endPos.y then v
        else s0.m_numJewelsLeftWhenSolvingAt.values i j := w3
    apply Array2.eq_of_values (x1.trans w1') (x2.trans w2')
    intro i j
    rw [x3, w3']
    by_cases c : i = move.endPos.x ∧ j = move.endPos.y
    · rw [if_pos c, c.1, c.2, ← hval]
      exact h0.left _ _ hin
    · rw [if_neg c, if_neg c]

theorem movesAlong_congr {s s' : Solver} (h : s'.m_movesByPosition = s.m_movesByPosition) :
    ∀ (p : List Direction) (c : Coords2), s'.movesAlong c p = s.movesAlong c p := by
  intro p
  induction p with
  | nil => exact fun _ => rfl
  | cons d rest ih =>
    intro c
    rw [movesAlong_cons, movesAlong_cons, h, ih]

theorem movesAlong_length (s : Solver) :
    ∀ (p : List Direction) (c : Coords2), (s.movesAlong c p).length = p.length := by
  intro p
  induction p with
  | nil => exact fun _ => rfl
  | cons d rest ih =>
    intro c
    rw [movesAlong_cons, List.length_cons, List.length_cons, ih]

/-- The first walk of the detour along `path`: the jewel loops of its moves, and one push
per move. -/
theorem detourCollect_tally (S : Solver) :
    ∀ (path : List Direction) (coords : Coords2) (ss ss' : Search) (c' : Coords2),
      S.forEachMoveInSolution
        (fun (ss : Search) move _ => do
          let ss ← ss.collect move
          pure { ss with solution := ss.solution.push move.direction })
        path coords ss = .ok (ss', c') →
      ss'.tally = ((S.movesAlong coords path).flatMap Move.jewels).foldl
          (Tally.add ss.m_potentialOfJewelAtEdge ss.solver.m_allMoves.length) ss.tally ∧
        ss.Frame ss' ∧
        ss'.solution = Solution.mk ss.solution.m_exists
          (ss.solution.m_moves ++ (S.movesAlong coords path).map Move.direction) ∧
        ss'.m_numJewelsLeftWhenSolvingAt = ss.m_numJewelsLeftWhenSolvingAt := by
  intro path
  induction path with
  | nil =>
    intro coords ss ss' c' h
    unfold Solver.forEachMoveInSolution at h
    cases h
    refine ⟨rfl, Search.Frame.same _, ?_, rfl⟩
    show ss.solution = Solution.mk ss.solution.m_exists (ss.solution.m_moves ++ [])
    rw [List.append_nil]
  | cons d rest ih =>
    intro coords ss ss' c' h
    unfold Solver.forEachMoveInSolution at h
    simp only [bind_eq_ok] at h
    obtain ⟨moves, hmv, s1, ⟨s0, hcol, hs1⟩, h⟩ := h
    rw [pure_eq_ok] at hs1
    subst hs1
    obtain ⟨_, hmoves⟩ := Array2.at_eq_ok hmv
    subst hmoves
    obtain ⟨a1, a2, a3, a4⟩ := collect_tally _ hcol
    obtain ⟨b1, b2, b3, b4⟩ := ih _ _ _ _ h
    have f1 : ss.Frame ss' :=
      a2.chain (Search.Frame.mk b2.solver b2.potential : s0.Frame ss')
    rw [movesAlong_cons, List.flatMap_cons, List.foldl_append, List.map_cons]
    refine ⟨?_, f1, ?_, b4.trans a4⟩
    · rw [b1, ← a1]
      have e1 : s0.m_potentialOfJewelAtEdge = ss.m_potentialOfJewelAtEdge := a2.potential
      have e2 : s0.solver.m_allMoves = ss.solver.m_allMoves := a2.allMoves
      show List.foldl (Tally.add s0.m_potentialOfJewelAtEdge s0.solver.m_allMoves.length)
        s0.tally _ = _
      rw [e1, e2]
    · rw [b3]
      show Solution.mk s0.solution.m_exists (s0.solution.m_moves ++ [_] ++ _) = _
      rw [a3, List.append_assoc, List.singleton_append]

/-- The second walk of the detour along `path`: the jewel loops of `discard` for its moves,
and one pop per move. -/
theorem detourUncollect_tally (S : Solver) :
    ∀ (path : List Direction) (coords : Coords2) (ss ss' : Search) (c' : Coords2),
      S.forEachMoveInSolution
        (fun (ss : Search) move _ => do
          let ss ← ss.uncollect move
          pure { ss with solution := (← ss.solution.pop) })
        path coords ss = .ok (ss', c') →
      ss'.tally = ((S.movesAlong coords path).flatMap Move.jewels).foldl
          (Tally.remove ss.m_potentialOfJewelAtEdge ss.solver.m_allMoves.length) ss.tally ∧
        ss.Frame ss' ∧
        ss'.solution = Solution.mk ss.solution.m_exists
          (ss.solution.m_moves.take (ss.solution.m_moves.length - path.length)) ∧
        path.length ≤ ss.solution.m_moves.length ∧
        ss'.m_numJewelsLeftWhenSolvingAt = ss.m_numJewelsLeftWhenSolvingAt := by
  intro path
  induction path with
  | nil =>
    intro coords ss ss' c' h
    unfold Solver.forEachMoveInSolution at h
    cases h
    refine ⟨rfl, Search.Frame.same _, ?_, Nat.zero_le _, rfl⟩
    show ss.solution = Solution.mk ss.solution.m_exists
      (ss.solution.m_moves.take (ss.solution.m_moves.length - 0))
    rw [Nat.sub_zero, List.take_length]
  | cons d rest ih =>
    intro coords ss ss' c' h
    unfold Solver.forEachMoveInSolution at h
    simp only [bind_eq_ok] at h
    obtain ⟨moves, hmv, s1, ⟨s0, hcol, sol, hpop, hs1⟩, h⟩ := h
    rw [pure_eq_ok] at hs1
    subst hs1
    obtain ⟨_, hmoves⟩ := Array2.at_eq_ok hmv
    subst hmoves
    obtain ⟨a1, a2, a3, a4⟩ := uncollect_tally _ hcol
    obtain ⟨b1, b2, b3, b5, b4⟩ := ih _ _ _ _ h
    have f1 : ss.Frame ss' :=
      a2.chain (Search.Frame.mk b2.solver b2.potential : s0.Frame ss')
    have hsol : sol = Solution.mk ss.solution.m_exists ss.solution.m_moves.dropLast ∧
        ss.solution.m_moves ≠ [] := by
      rw [a3] at hpop
      unfold Solution.pop at hpop
      split at hpop
      · cases hpop
      · rename_i hne
        cases hpop
        refine ⟨rfl, ?_⟩
        intro c
        apply hne
        rw [c]
        rfl
    obtain ⟨hsol, hne⟩ := hsol
    have hlen : 0 < ss.solution.m_moves.length := List.length_pos.2 hne
    have b5' : rest.length ≤ sol.m_moves.length := b5
    rw [hsol] at b5'
    have b5'' : rest.length ≤ ss.solution.m_moves.dropLast.length := b5'
    rw [List.length_dropLast] at b5''
    rw [movesAlong_cons, List.flatMap_cons, List.foldl_append]
    refine ⟨?_, f1, ?_, ?_, b4.trans a4⟩
    · rw [b1, ← a1]
      have e1 : s0.m_potentialOfJewelAtEdge = ss.m_potentialOfJewelAtEdge := a2.potential
      have e2 : s0.solver.m_allMoves = ss.solver.m_allMoves := a2.allMoves
      show List.foldl (Tally.remove s0.m_potentialOfJewelAtEdge s0.solver.m_allMoves.length)
        s0.tally _ = _
      rw [e1, e2]
    · rw [b3]
      show Solution.mk sol.m_exists (sol.m_moves.take (sol.m_moves.length - rest.length)) = _
      rw [hsol]
      show Solution.mk ss.solution.m_exists
        (ss.solution.m_moves.dropLast.take
          (ss.solution.m_moves.dropLast.length - rest.length)) = _
      rw [List.length_dropLast, List.dropLast_eq_take, List.take_take, List.length_cons]
      congr 1
      congr 1
      omega
    · rw [List.length_cons]
      omega

/-- The branch of the search that walks to the nearest move with an uncollected jewel
leaves the state unwound when it returns false; `hcall` is the contract of the recursive
call. -/
theorem detour_unwinds (call : Search → Coords2 → Int → Int → Except Fault (Bool × Search))
    (hcall : ∀ ss coords movesLeft depth ss', ss.Ranged →
      call ss coords movesLeft depth = .ok (false, ss') → ss.Unwound ss')
    {ss ss' : Search} (coords : Coords2) (movesLeft depth additionalMoves : Int)
    (h0 : ss.Ranged)
    (h : Search.detour call ss coords movesLeft depth additionalMoves = .ok (false, ss')) :
    ss.Unwound ss' := by
  unfold Search.detour at h
  rw [bind_eq_ok] at h
  obtain ⟨best, _, h⟩ := h
  split at h
  · rw [pure_eq_ok] at h
    cases h
    exact Search.Unwound.still _
  · rename_i bestMove
    rw [bind_eq_ok] at h
    obtain ⟨⟨found, path⟩, _, h⟩ := h
    dsimp only at h
    split at h
    · rw [bind_eq_ok] at h
      obtain ⟨⟨found2, path2⟩, _, h⟩ := h
      dsimp only at h
      split at h
      · split at h
        · rw [pure_eq_ok] at h
          cases h
          exact Search.Unwound.still _
        · rw [bind_eq_ok] at h
          obtain ⟨⟨s1, c1⟩, hpass1, h⟩ := h
          dsimp only at h
          rw [bind_eq_ok] at h
          obtain ⟨⟨solved, s2⟩, hrec, h⟩ := h
          dsimp only at h
          split at h
          · rw [pure_eq_ok] at h
            cases h
          · rename_i hsolved
            have hs : solved = false := by
              cases solved
              · rfl
              · exact absurd rfl hsolved
            subst hs
            rw [bind_eq_ok] at h
            obtain ⟨⟨s3, c3⟩, hpass2, h⟩ := h
            rw [pure_eq_ok] at h
            cases h
            obtain ⟨a1, a2, a3, a4⟩ := detourCollect_tally _ _ _ _ _ _ hpass1
            have hr1 : s1.Ranged := by
              refine ⟨?_, ?_⟩
              · have e : s1.solver.m_jewelState.m_numCollected = s1.tally.counts := rfl
                rw [e, a1]
                exact (Tally.foldl_add_ranged _ _ _ _ h0.tally).1
              · rw [a4]
                exact h0.left
            have h12 := hcall _ _ _ _ _ hr1 hrec
            obtain ⟨b1, b2, b3, b5, b4⟩ := detourUncollect_tally _ _ _ _ _ _ hpass2
            have f02 := a2.chain h12.frame
            refine ⟨f02.chain b2, ?_, ?_, ?_⟩
            · rw [b1, f02.potential, f02.allMoves, h12.tally, a1,
                movesAlong_congr f02.byPosition]
              exact Tally.foldl_remove_add _ _ _ _ h0.tally
            · rw [b3, h12.solution, a3]
              show Solution.mk ss.solution.m_exists
                ((ss.solution.m_moves ++ _).take ((ss.solution.m_moves ++ _).length - _)) = _
              rw [List.length_append, List.length_map]
              rw [movesAlong_length, Nat.add_sub_cancel, List.take_left]
            · rw [b4, h12.left, a4]
      · rw [pure_eq_ok] at h
        cases h
        exact Search.Unwound.still _
    · rw [pure_eq_ok] at h
      cases h
      exact Search.Unwound.still _

/-- The part of the loop body of the search after the write of
`m_numJewelsLeftWhenSolvingAt[end]`: unless it makes the call return true, it ends with
`discard` and leaves the state that the loop body started in, unwound. -/
theorem afterMove_unwinds (o : SearchOracle)
    (call : Search → Coords2 → Int → Int → Except Fault (Bool × Search))
    (hcall : ∀ ss coords movesLeft depth ss', ss.Ranged →
      call ss coords movesLeft depth = .ok (false, ss') → ss.Unwound ss')
    {s0 s1 ss' : Search} (move : Move) (d : Direction)
    (old v movesLeft depth additionalMoves : Int) (left : Array2 Int) (r : Option Bool)
    (h0 : s0.Ranged)
    (hold : s0.m_numJewelsLeftWhenSolvingAt.at move.endPos = .ok old)
    (hcol : ({ s0 with solution := s0.solution.push d } : Search).collect move = .ok s1)
    (hput : s1.m_numJewelsLeftWhenSolvingAt.put move.endPos (wrap16 v) = .ok left)
    (h : Search.afterMove o call { s1 with m_numJewelsLeftWhenSolvingAt := left } move old
      movesLeft depth additionalMoves = .ok (r, ss'))
    (hr : r ≠ some true) : s0.Unwound ss' := by
  have hfin : ∀ (s2 s3 : Search),
      ({ s1 with m_numJewelsLeftWhenSolvingAt := left } : Search).Unwound s2 →
      s2.discard move old = .ok s3 → s0.Unwound s3 :=
    fun s2 s3 h12 hdis => discard_unwinds move d old (wrap16 v) left h0 hold hcol hput h12 hdis
  obtain ⟨c1, c2, c3, c4⟩ := collect_tally move hcol
  have hrIn : ({ s1 with m_numJewelsLeftWhenSolvingAt := left } : Search).Ranged := by
    refine ⟨?_, ?_⟩
    · have e : s1.solver.m_jewelState.m_numCollected = s1.tally.counts := rfl
      show ∀ c ∈ s1.solver.m_jewelState.m_numCollected, wrap16 c = c
      rw [e, c1]
      exact (Tally.foldl_add_ranged _ _ _ _
        (@Search.Ranged.tally { s0 with solution := s0.solution.push d }
          ⟨h0.counts, h0.left⟩)).1
    · intro x y hxy
      obtain ⟨_, w1, w2, w3⟩ := Array2.put_eq_ok hput
      show wrap16 (left.values x y) = left.values x y
      rw [w3]
      by_cases c : x = move.endPos.x ∧ y = move.endPos.y
      · rw [if_pos c]
        have := wrap16_range v
        exact wrap16_of_range this.1 this.2
      · rw [if_neg c, c4]
        refine h0.left x y ?_
        have hxy' : left.InBounds x y := hxy
        unfold Array2.InBounds at hxy' ⊢
        rw [w1, w2, c4] at hxy'
        exact hxy'
  unfold Search.afterMove at h
  split at h
  · split at h
    · split at h
      · rw [bind_eq_ok] at h
        obtain ⟨s3, hdis, h⟩ := h
        rw [pure_eq_ok] at h
        cases h
        exact hfin _ _ (Search.Unwound.still _) hdis
      · rw [bind_eq_ok] at h
        obtain ⟨⟨s, cpy⟩, hruns, h⟩ := h
        dsimp only at h
        split at h
        · rw [pure_eq_ok] at h
          cases h
          exact absurd rfl hr
        · rw [bind_eq_ok] at h
          obtain ⟨s3, hdis, h⟩ := h
          rw [pure_eq_ok] at h
          cases h
          have hf := removeRuns_frame _ _ _ _ _ hruns
          refine hfin _ _ ?_ hdis
          exact ⟨⟨hf, rfl⟩, rfl, rfl, rfl⟩
    · rw [pure_eq_ok] at h
      cases h
      exact absurd rfl hr
  · split at h
    · rw [bind_eq_ok] at h
      obtain ⟨⟨solved, s2⟩, hrec, h⟩ := h
      dsimp only at h
      split at h
      · rw [pure_eq_ok] at h
        cases h
        exact absurd rfl hr
      · rename_i hsolved
        have hs : solved = false := by
          cases solved
          · rfl
          · exact absurd rfl hsolved
        subst hs
        have h12 := hcall _ _ _ _ _ hrIn hrec
        split at h
        · rw [bind_eq_ok] at h
          obtain ⟨_, _, h⟩ := h
          split at h
          · rw [bind_eq_ok] at h
            obtain ⟨s3, hdis, h⟩ := h
            rw [pure_eq_ok] at h
            cases h
            refine hfin _ _ ?_ hdis
            exact ⟨⟨h12.frame.solver, h12.frame.potential⟩, h12.tally, h12.solution, h12.left⟩
          · rw [bind_eq_ok] at h
            obtain ⟨s3, hdis, h⟩ := h
            rw [pure_eq_ok] at h
            cases h
            refine hfin _ _ ?_ hdis
            exact ⟨⟨h12.frame.solver, h12.frame.potential⟩, h12.tally, h12.solution, h12.left⟩
        · rw [bind_eq_ok] at h
          obtain ⟨s3, hdis, h⟩ := h
          rw [pure_eq_ok] at h
          cases h
          exact hfin _ _ h12 hdis
    · rw [bind_eq_ok] at h
      obtain ⟨s3, hdis, h⟩ := h
      rw [pure_eq_ok] at h
      cases h
      exact hfin _ _ (Search.Unwound.still _) hdis

/-- The body of the loop of the search over the ordered moves leaves the state unwound
unless it makes the call return true. -/
theorem tryMove_unwinds (o : SearchOracle)
    (call : Search → Coords2 → Int → Int → Except Fault (Bool × Search))
    (hcall : ∀ ss coords movesLeft depth ss', ss.Ranged →
      call ss coords movesLeft depth = .ok (false, ss') → ss.Unwound ss')
    (coords : Coords2) (movesLeft depth additionalMoves maxPotential : Int)
    {ss ss' : Search} (move : Move) (r : Option Bool) (h0 : ss.Ranged)
    (h : Search.tryMove o call coords movesLeft depth additionalMoves maxPotential ss move =
      .ok (r, ss'))
    (hr : r ≠ some true) : ss.Unwound ss' := by
  unfold Search.tryMove at h
  rw [bind_eq_ok] at h
  obtain ⟨potential, _, h⟩ := h
  split at h
  · rw [pure_eq_ok] at h
    cases h
    exact Search.Unwound.still _
  · rw [bind_eq_ok] at h
    obtain ⟨old, hold, h⟩ := h
    rw [bind_eq_ok] at h
    obtain ⟨k, _, h⟩ := h
    split at h
    · split at h
      · rw [bind_eq_ok] at h
        obtain ⟨⟨solved, s1⟩, hdet, h⟩ := h
        rw [pure_eq_ok] at h
        cases h
        have hs : solved = false := by
          cases solved
          · rfl
          · exact absurd rfl hr
        subst hs
        exact detour_unwinds call hcall coords movesLeft depth additionalMoves h0 hdet
      · rw [pure_eq_ok] at h
        cases h
        exact Search.Unwound.still _
    · rw [bind_eq_ok] at h
      obtain ⟨s1, hcol, h⟩ := h
      rw [bind_eq_ok] at h
      obtain ⟨left, hput, h⟩ := h
      exact afterMove_unwinds o call hcall move move.direction old
        s1.solver.m_jewelState.numLeft movesLeft depth additionalMoves left r h0 hold hcol
        hput h hr

/-- The loop of the search over the ordered moves leaves the state unwound when it makes
the call return false. -/
theorem tryMoves_unwinds (o : SearchOracle)
    (call : Search → Coords2 → Int → Int → Except Fault (Bool × Search))
    (hcall : ∀ ss coords movesLeft depth ss', ss.Ranged →
      call ss coords movesLeft depth = .ok (false, ss') → ss.Unwound ss')
    (coords : Coords2) (movesLeft depth additionalMoves maxPotential : Int) :
    ∀ (moves : List Move) (ss ss' : Search), ss.Ranged →
      Search.tryMoves o call coords movesLeft depth additionalMoves maxPotential ss moves =
        .ok (false, ss') → ss.Unwound ss' := by
  intro moves
  induction moves with
  | nil =>
    intro ss ss' _ h
    unfold Search.tryMoves at h
    cases h
    exact Search.Unwound.still _
  | cons move rest ih =>
    intro ss ss' h0 h
    unfold Search.tryMoves at h
    rw [bind_eq_ok] at h
    obtain ⟨⟨r, s1⟩, hmove, h⟩ := h
    cases r with
    | some b =>
      simp only [pure_eq_ok] at h
      cases h
      exact tryMove_unwinds o call hcall coords movesLeft depth additionalMoves maxPotential
        move _ h0 hmove (by simp)
    | none =>
      have h01 := tryMove_unwinds o call hcall coords movesLeft depth additionalMoves
        maxPotential move _ h0 hmove (by simp)
      exact h01.join (ih s1 ss' (Search.Ranged.of_unwound h01 h0) h)

/-- A call of the recursive search that returns false leaves the state unwound. -/
theorem solveUsingSearchWithBacktracking_unwound (o : SearchOracle) (additionalMoves : Int) :
    ∀ (fuel : Nat) (ss : Search) (coords : Coords2) (movesLeft depth : Int) (ss' : Search),
      ss.Ranged →
      Search.solveUsingSearchWithBacktracking o additionalMoves fuel ss coords movesLeft depth =
        .ok (false, ss') → ss.Unwound ss' := by
  intro fuel
  induction fuel with
  | zero =>
    intro ss coords movesLeft depth ss' _ h
    unfold Search.solveUsingSearchWithBacktracking at h
    cases h
  | succ fuel ih =>
    intro ss coords movesLeft depth ss' h0 h
    unfold Search.solveUsingSearchWithBacktracking at h
    have hU : ss.Unwound (if depth < ss.minDepth then { ss with minDepth := depth } else ss) := by
      split
      · exact ⟨⟨rfl, rfl⟩, rfl, rfl, rfl⟩
      · exact Search.Unwound.still _
    have hR := Search.Ranged.of_unwound hU h0
    generalize (if depth < ss.minDepth then { ss with minDepth := depth } else ss) = sa
      at h hU hR
    dsimp only at h
    rw [bind_eq_ok] at h
    obtain ⟨moves, _, h⟩ := h
    rw [bind_eq_ok] at h
    obtain ⟨ordered, _, h⟩ := h
    split at h
    · rw [pure_eq_ok] at h
      cases h
      exact hU
    · rw [bind_eq_ok] at h
      obtain ⟨maxPotential, _, h⟩ := h
      exact hU.join (tryMoves_unwinds o _ ih coords movesLeft depth additionalMoves
        maxPotential _ sa ss' hR h)

theorem unwindResult_of_isUnwindFalse (h : isUnwindFalse = true) :
    Search.solveUsingSearchWithBacktracking SearchOracle.plain 5 10 unwindState ⟨2, 2⟩ 0 0 =
      .ok (false, unwindResult) := by
  unfold isUnwindFalse at h
  unfold unwindResult
  split at h
  · rename_i ss hs
    rw [hs]
  · cases h

theorem unwindState_left (x y : Int) :
    wrap16 (unwindState.m_numJewelsLeftWhenSolvingAt.values x y) =
      unwindState.m_numJewelsLeftWhenSolvingAt.values x y := by
  show wrap16 (wrap16 _) = wrap16 _
  exact wrap16_of_range (wrap16_range _).1 (wrap16_range _).2

/-- C22: a call `solveUsingSearchWithBacktracking(solution, coords, movesLeft, depth,
additionalMoves, minDepth)` that returns false, made in a state whose stored counts and
entries of `m_numJewelsLeftWhenSolvingAt` are values of their 16-bit types, leaves the
counts and `numLeft` of `m_jewelState`, the directions of `solution` and
`m_numJewelsLeftWhenSolvingAt` as they were at the call, and `m_totalPotentialAtEdge` as it
was modulo `2^32`. -/
theorem solveUsingSearchWithBacktracking_unwinds (o : SearchOracle) (additionalMoves : Int)
    (fuel : Nat) (ss ss' : Search) (coords : Coords2) (movesLeft depth : Int)
    (hcounts : ∀ c ∈ ss.solver.m_jewelState.m_numCollected, wrap16 c = c)
    (hleft : ∀ x y, ss.m_numJewelsLeftWhenSolvingAt.InBounds x y →
      wrap16 (ss.m_numJewelsLeftWhenSolvingAt.values x y) =
        ss.m_numJewelsLeftWhenSolvingAt.values x y)
    (h : Search.solveUsingSearchWithBacktracking o additionalMoves fuel ss coords movesLeft
      depth = .ok (false, ss')) :
    ss'.solver.m_jewelState.m_numCollected = ss.solver.m_jewelState.m_numCollected ∧
    ss'.solver.m_jewelState.m_numLeft = ss.solver.m_jewelState.m_numLeft ∧
    ss'.m_totalPotentialAtEdge.map wrapU32 = ss.m_totalPotentialAtEdge.map wrapU32 ∧
    ss'.solution.m_moves = ss.solution.m_moves ∧
    ss'.m_numJewelsLeftWhenSolvingAt = ss.m_numJewelsLeftWhenSolvingAt := by
  have hU := solveUsingSearchWithBacktracking_unwound o additionalMoves fuel ss coords
    movesLeft depth ss' ⟨hcounts, hleft⟩ h
  exact ⟨congrArg Tally.counts hU.tally, congrArg Tally.numLeft hU.tally,
    congrArg Tally.total hU.tally, congrArg Solution.m_moves hU.solution, hU.left⟩

theorem solveUsingSearchWithBacktracking_unwinds_witness :
    (∀ c ∈ unwindState.solver.m_jewelState.m_numCollected, wrap16 c = c) ∧
    (∀ x y, unwindState.m_numJewelsLeftWhenSolvingAt.InBounds x y →
      wrap16 (unwindState.m_numJewelsLeftWhenSolvingAt.values x y) =
        unwindState.m_numJewelsLeftWhenSolvingAt.values x y) ∧
    Search.solveUsingSearchWithBacktracking SearchOracle.plain 5 10 unwindState ⟨2, 2⟩ 0 0 =
      .ok (false, unwindResult) ∧
    unwindResult.solver.m_jewelState.m_numCollected =
      unwindState.solver.m_jewelState.m_numCollected ∧
    unwindResult.solver.m_jewelState.m_numLeft = unwindState.solver.m_jewelState.m_numLeft ∧
    unwindResult.m_totalPotentialAtEdge.map wrapU32 =
      unwindState.m_totalPotentialAtEdge.map wrapU32 ∧
    unwindResult.solution.m_moves = unwindState.solution.m_moves ∧
    unwindResult.m_numJewelsLeftWhenSolvingAt = unwindState.m_numJewelsLeftWhenSolvingAt :=
  ⟨by decide!, fun x y _ => unwindState_left x y, unwindResult_of_isUnwindFalse (by decide!),
    solveUsingSearchWithBacktracking_unwinds SearchOracle.plain 5 10 unwindState unwindResult
      ⟨2, 2⟩ 0 0 (by decide!) (fun x y _ => unwindState_left x y)
      (unwindResult_of_isUnwindFalse (by decide!))⟩

theorem isPerfectSquareLoop_spec (n : Int) (hn : n ≤ 2147395600) :
    ∀ (todo : Nat) (i : Int), 0 ≤ i → (∀ j : Int, 0 ≤ j → j < i → j * j < n) →
      (isPerfectSquareLoop n todo i = true ↔ ∃ k : Int, i ≤ k ∧ k < i + todo ∧ k * k = n) := by
  intro todo
  induction todo with
  | zero =>
    intro i _ _
    unfold isPerfectSquareLoop
    constructor
    · intro h
      cases h
    · rintro ⟨k, h1, h2, _⟩
      exfalso
      simp at h2
      omega
  | succ todo ih =>
    intro i hi hlow
    have hsq : i * i ≤ 2147395600 := by
      by_cases h0 : i = 0
      · subst h0
        norm_num
      · have h1 := hlow (i - 1) (by omega) (by omega)
        have h2 : i - 1 < 46340 := by
          by_contra c
          have : (46340 : Int) * 46340 ≤ (i - 1) * (i - 1) := by nlinarith
          omega
        nlinarith
    have hw : wrap32 (i * i) = i * i := by
      have h0 : 0 ≤ i * i := mul_nonneg hi hi
      unfold wrap32
      omega
    unfold isPerfectSquareLoop
    dsimp only
    rw [hw]
    by_cases e : i * i = n
    · rw [if_pos e]
      refine ⟨fun _ => ⟨i, le_refl _, by push_cast; omega, e⟩, fun _ => rfl⟩
    · rw [if_neg e]
      by_cases c : n < i * i
      · rw [if_pos c]
        constructor
        · intro h
          cases h
        · rintro ⟨k, h1, _, h3⟩
          exfalso
          have : i * i ≤ k * k := by nlinarith
          omega
      · rw [if_neg c, ih (i + 1) (by omega) (by
          intro j hj0 hj
          by_cases e2 : j = i
          · subst e2
            omega
          · exact hlow j hj0 (by omega))]
        constructor
        · rintro ⟨k, h1, h2, h3⟩
          exact ⟨k, by omega, by push_cast; omega, h3⟩
        · rintro ⟨k, h1, h2, h3⟩
          refine ⟨k, ?_, by push_cast at h2; omega, h3⟩
          by_contra c2
          have : k = i := by omega
          subst this
          exact e h3

theorem isPerfectSquare_iff (n : Int) (h0 : 0 ≤ n) (hn : n ≤ 2147395600) (h4 : n ≠ 4) :
    isPerfectSquare n = true ↔ ∃ k : Int, 0 ≤ k ∧ n = k * k := by
  unfold isPerfectSquare
  by_cases h01 : n = 0 ∨ n = 1
  · rw [if_pos h01]
    refine ⟨fun _ => ?_, fun _ => rfl⟩
    rcases h01 with e | e
    · exact ⟨0, le_refl _, by rw [e]; norm_num⟩
    · exact ⟨1, by norm_num, by rw [e]; norm_num⟩
  · rw [if_neg h01, isPerfectSquareLoop_spec n hn _ 0 (le_refl _) (by
      intro j h1 h2
      omega)]
    have hd : ((Int.tdiv n 2).toNat : Int) = n / 2 := by
      rw [Int.tdiv_eq_ediv h0 (by norm_num)]
      omega
    rw [zero_add, hd]
    constructor
    · rintro ⟨k, h1, _, h3⟩
      exact ⟨k, h1, h3.symm⟩
    · rintro ⟨k, h1, h3⟩
      refine ⟨k, h1, ?_, h3.symm⟩
      have hk2 : 2 ≤ k := by
        by_contra c
        have : k = 0 ∨ k = 1 := by omega
        rcases this with e | e
        · subst e
          apply h01
          left
          rw [h3]
          norm_num
        · subst e
          apply h01
          right
          rw [h3]
          norm_num
      have hk3 : 3 ≤ k := by
        by_contra c
        have : k = 2 := by omega
        subst this
        apply h4
        rw [h3]
        norm_num
      have : 2 * (k + 1) ≤ k * k := by nlinarith
      omega

/-- **C40, as stated, fails at `n = 4`.** After the test `n == 0 || n == 1` the loop of
`isPerfectSquare(4)` runs while `i < 4 / 2`: it makes the passes `i = 0` and `i = 1`, never
reaches `i = 2`, and the function returns false, though `4 = 2 * 2`. -/
theorem isPerfectSquare_counterexample :
    (0 : Int) ≤ 4 ∧ isPerfectSquare 4 = false ∧ (∃ k : Int, 0 ≤ k ∧ (4 : Int) = k * k) ∧
      ¬ (isPerfectSquare 4 = true ↔ ∃ k : Int, 0 ≤ k ∧ (4 : Int) = k * k) := by
  have h1 : isPerfectSquare 4 = false := by decide
  have h2 : ∃ k : Int, 0 ≤ k ∧ (4 : Int) = k * k := ⟨2, by norm_num, by norm_num⟩
  refine ⟨by norm_num, h1, h2, fun h => ?_⟩
  rw [h1] at h
  exact Bool.false_ne_true (h.2 h2)

/-- **C40, amended.** For every `n` from 0 to `46340 * 46340` (the squares `i * i` that the
loop computes stay within `int` there) other than 4, `isPerfectSquare(n)` returns true if and
only if `n = k * k` for some `k ≥ 0`.  For every such `n`, 4 included, the test
`n <= minDepthToAllowSkip || isPerfectSquare(n)` of `initializeSkipProbability`, which holds
the one call of the function, is true if and only if `n ≤ 10` or `n = k * k` for some
`k ≥ 0`: the call receives arguments above 10 only. -/
theorem isPerfectSquare_spec (n : Int) (h0 : 0 ≤ n) (hn : n ≤ 2147395600) :
    (n ≠ 4 → (isPerfectSquare n = true ↔ ∃ k : Int, 0 ≤ k ∧ n = k * k)) ∧
      (isSkipFree n = true ↔ n ≤ 10 ∨ ∃ k : Int, 0 ≤ k ∧ n = k * k) := by
  refine ⟨isPerfectSquare_iff n h0 hn, ?_⟩
  unfold isSkipFree minDepthToAllowSkip
  by_cases h : n ≤ 10
  · rw [if_pos h]
    exact ⟨fun _ => Or.inl h, fun _ => rfl⟩
  · rw [if_neg h, isPerfectSquare_iff n h0 hn (by omega)]
    exact ⟨fun e => Or.inr e, fun e => e.resolve_left h⟩

theorem isPerfectSquare_spec_witness :
    (0 : Int) ≤ 16 ∧ (16 : Int) ≤ 2147395600 ∧
      ((16 : Int) ≠ 4 → (isPerfectSquare 16 = true ↔ ∃ k : Int, 0 ≤ k ∧ (16 : Int) = k * k)) ∧
      (isSkipFree 16 = true ↔ (16 : Int) ≤ 10 ∨ ∃ k : Int, 0 ≤ k ∧ (16 : Int) = k * k) :=
  ⟨by decide, by decide, isPerfectSquare_spec 16 (by decide) (by decide)⟩

/-- The loop of `Solution::replace` that writes the replacement over the cells from `start`
on. -/
theorem replaceLoop_spec (start : Nat) :
    ∀ (r : List Direction) (n : Nat) (pre mid post : List Direction),
      pre.length = start + n → mid.length = r.length →
      ∃ moves, ((r.enumFrom n)).foldlM
          (fun (moves : List Direction) (p : Nat × Direction) =>
            vecSet moves ((start : Int) + p.1) p.2)
          (pre ++ mid ++ post) = .ok moves ∧ moves = pre ++ r ++ post := by
  intro r
  induction r with
  | nil =>
    intro n pre mid post _ hm
    have : mid = [] := List.length_eq_zero.1 hm
    subst this
    exact ⟨_, rfl, rfl⟩
  | cons d rest ih =>
    intro n pre mid post hp hm
    cases mid with
    | nil => cases hm
    | cons m0 mid =>
      rw [List.enumFrom_cons, List.foldlM_cons]
      have hset : vecSet (pre ++ m0 :: mid ++ post) ((start : Int) + (n : Nat)) d =
          .ok (pre ++ [d] ++ mid ++ post) := by
        rw [vecSet_ok d (by omega) (by
          simp only [List.length_append, List.length_cons]
          push_cast
          omega)]
        congr 1
        have e : ((start : Int) + (n : Int)).toNat = pre.length := by omega
        rw [e, List.append_assoc, List.set_append_right _ _ (le_refl _), Nat.sub_self]
        simp
      rw [hset, ok_bind]
      obtain ⟨moves, h1, h2⟩ := ih (n + 1) (pre ++ [d]) mid post (by
        rw [List.length_append, List.length_singleton]
        omega) (by simpa using hm)
      refine ⟨moves, h1, ?_⟩
      rw [h2]
      simp

/-- C36: for every move list `m`, every `start ≥ 0` and `length` with
`start + length ≤ |m|` and every replacement `r` with `|r| ≤ length`,
`Solution::replace(start, length, r)` returns and leaves the move list
`m[0..start) ++ r ++ m[start+length..)`: its size is `|m| - length + |r|`, the moves before
`start` keep their places and values, and the move at `start + length + i` is found at
`start + |r| + i`. -/
theorem replace_spec (s : Solution) (start length : Int) (r : List Direction)
    (h0 : 0 ≤ start) (h1 : start + length ≤ s.m_moves.length)
    (h2 : (r.length : Int) ≤ length) :
    ∃ s', s.replace start length r = .ok s' ∧
      s'.m_moves = s.m_moves.take start.toNat ++ r ++ s.m_moves.drop (start + length).toNat ∧
      s'.m_exists = s.m_exists ∧
      s'.size = s.size - length + r.length ∧
      (∀ i : Nat, i < start.toNat → s'.m_moves.get? i = s.m_moves.get? i) ∧
      ∀ i : Nat, s'.m_moves.get? (start.toNat + r.length + i) =
        s.m_moves.get? ((start + length).toNat + i) := by
  have hsplit : s.m_moves.drop (start + (length - r.length)).toNat =
      (s.m_moves.drop (start + (length - r.length)).toNat).take r.length ++
        s.m_moves.drop (start + length).toNat := by
    have e : (start + length).toNat = (start + (length - r.length)).toNat + r.length := by
      omega
    rw [e, ← List.drop_drop, List.take_append_drop]
  obtain ⟨moves, hm1, hm2⟩ := replaceLoop_spec start.toNat r 0
    (s.m_moves.take start.toNat)
    ((s.m_moves.drop (start + (length - r.length)).toNat).take r.length)
    (s.m_moves.drop (start + length).toNat)
    (by rw [List.length_take]; omega)
    (by rw [List.length_take, List.length_drop]; omega)
  have hst : ((start.toNat : Nat) : Int) = start := by omega
  rw [hst, List.append_assoc, ← hsplit] at hm1
  refine ⟨{ s with m_moves := moves }, ?_, hm2, rfl, ?_, ?_, ?_⟩
  · unfold Solution.replace
    dsimp only
    rw [if_neg (by omega)]
    have hm1' : (r.enum).foldlM
        (fun (moves : List Direction) (p : Nat × Direction) => vecSet moves (start + p.1) p.2)
        (s.m_moves.take start.toNat ++
          s.m_moves.drop (start + (length - r.length)).toNat) = .ok moves := hm1
    rw [hm1']
    rfl
  · show ((moves.length : Nat) : Int) = (s.m_moves.length : Int) - length + r.length
    rw [hm2]
    simp only [List.length_append, List.length_take, List.length_drop]
    omega
  · intro i hi
    show moves.get? i = _
    rw [hm2, List.append_assoc, List.get?_eq_getElem?, List.get?_eq_getElem?,
      List.getElem?_append_left (by rw [List.length_take]; omega), List.getElem?_take, if_pos hi]
  · intro i
    show moves.get? _ = _
    rw [hm2, List.get?_eq_getElem?, List.get?_eq_getElem?,
      List.getElem?_append_right (by
        rw [List.length_append, List.length_take]
        omega)]
    rw [List.getElem?_drop]
    congr 1
    rw [List.length_append, List.length_take]
    omega

theorem replace_spec_witness :
    (0 : Int) ≤ 1 ∧
    (1 : Int) + 3 ≤ (Solution.mk true [.North, .East, .South, .West, .North]).m_moves.length ∧
    (([.NorthEast, .SouthWest] : List Direction).length : Int) ≤ 3 ∧
    ∃ s', (Solution.mk true [.North, .East, .South, .West, .North]).replace 1 3
        [.NorthEast, .SouthWest] = .ok s' ∧
      s'.m_moves = (Solution.mk true [.North, .East, .South, .West, .North]).m_moves.take
          (1 : Int).toNat ++ [.NorthEast, .SouthWest] ++
        (Solution.mk true [.North, .East, .South, .West, .North]).m_moves.drop
          ((1 : Int) + 3).toNat ∧
      s'.m_exists = (Solution.mk true [.North, .East, .South, .West, .North]).m_exists ∧
      s'.size = (Solution.mk true [.North, .East, .South, .West, .North]).size - 3 +
        ([.NorthEast, .SouthWest] : List Direction).length ∧
      (∀ i : Nat, i < (1 : Int).toNat → s'.m_moves.get? i =
        (Solution.mk true [.North, .East, .South, .West, .North]).m_moves.get? i) ∧
      ∀ i : Nat, s'.m_moves.get? ((1 : Int).toNat +
          ([.NorthEast, .SouthWest] : List Direction).length + i) =
        (Solution.mk true [.North, .East, .South, .West, .North]).m_moves.get?
          (((1 : Int) + 3).toNat + i) :=
  ⟨by decide, by decide, by decide,
    replace_spec (Solution.mk true [.North, .East, .South, .West, .North]) 1 3
      [.NorthEast, .SouthWest] (by decide) (by decide) (by decide)⟩

/-- C35: on SCC data as `identifySccs` leaves it (ids are positions in `m_sccs`, the
`neighbours` and `predecessors` entries are SCC ids, and `a` is a predecessor of `b` exactly
when `b` is a neighbour of `a`), `fillSccConditionalUnreachability` returns and the matrix
`U` it leaves is symmetric: `U[a][b] = U[b][a]` for all SCC ids `a`, `b`. -/
theorem fillSccConditionalUnreachability_symmetric (s : Solver) (hl : s.SccLinks) :
    ∃ s', s.fillSccConditionalUnreachability = .ok s' ∧ s'.m_sccs = s.m_sccs ∧
      ∀ a b : Int, 0 ≤ a → a < s'.m_sccs.length → 0 ≤ b → b < s'.m_sccs.length →
        s'.m_ifSccTraversedThenSccUnreachable.values a b =
          s'.m_ifSccTraversedThenSccUnreachable.values b a := by
  obtain ⟨u, e, _, _, hu⟩ := fillSccConditionalUnreachability_total s hl
  refine ⟨_, e, rfl, ?_⟩
  intro a b ha0 han hb0 hbn
  have han' : a < s.m_sccs.length := han
  have hbn' : b < s.m_sccs.length := hbn
  show u.values a b = u.values b a
  have h1 := hu a b
  have h2 := hu b a
  cases hab : u.values a b <;> cases hba : u.values b a
  · rfl
  · exact absurd (h2.2 ⟨hb0, hbn', (h1.1 hab).2.2.symm⟩) (by rw [hba]; decide)
  · exact absurd (h1.2 ⟨ha0, han', (h2.1 hba).2.2.symm⟩) (by rw [hab]; decide)
  · rfl

theorem fillSccConditionalUnreachability_symmetric_witness :
    ∃ s', (sccsIdentified exclusiveLevel).fillSccConditionalUnreachability = .ok s' ∧
      s'.m_sccs = (sccsIdentified exclusiveLevel).m_sccs ∧
      ∀ a b : Int, 0 ≤ a → a < s'.m_sccs.length → 0 ≤ b → b < s'.m_sccs.length →
        s'.m_ifSccTraversedThenSccUnreachable.values a b =
          s'.m_ifSccTraversedThenSccUnreachable.values b a :=
  fillSccConditionalUnreachability_symmetric (sccsIdentified exclusiveLevel)
    (identifySccs_links (by decide!) (sccsIdentified_of_isSccsIdentified (by decide!))
      (by decide!))

theorem wrap16_shift (a b : Int) : wrap16 (wrap16 a + b) = wrap16 (a + b) := by
  unfold wrap16; omega

/-- One jewel of the inner loops of `remainsSolvableAfterEnteringScc`. -/
theorem shiftJewel_ok (delta : Int) (flag : Bool) (counts : List Int) (j : Int)
    (h0 : 0 ≤ j) (h1 : j < counts.length) :
    (do
      let n := wrap16 ((← vecGet counts j) + delta)
      let counts' ← vecSet counts j n
      pure (if delta < 0 ∧ n ≤ 0 then false else flag, counts') :
        Except Fault (Bool × List Int)) =
      .ok (if delta < 0 ∧ wrap16 (counts.getD j.toNat 0 + delta) ≤ 0 then false else flag,
        counts.set j.toNat (wrap16 (counts.getD j.toNat 0 + delta))) := by
  obtain ⟨c, hc, hget⟩ := vecGet_ok (v := counts) h0 h1
  have hd : counts.getD j.toNat 0 = c := by
    rw [List.getD_eq_getElem?_getD, ← List.get?_eq_getElem?, hget]
    rfl
  rw [hc, ok_bind]
  show (vecSet counts j (wrap16 (c + delta)) >>= fun counts' =>
    (pure (if delta < 0 ∧ wrap16 (c + delta) ≤ 0 then false else flag, counts') :
      Except Fault (Bool × List Int))) = _
  rw [vecSet_ok _ h0 h1, ok_bind, hd]
  rfl

/-- The inner loop of `remainsSolvableAfterEnteringScc` over a list of jewels: it returns,
and the count of `n` moves by `delta` for every occurrence of `n`, as a 16-bit value. -/
theorem shiftJewels_values (delta : Int) :
    ∀ (js : List Int) (flag : Bool) (counts : List Int),
      (∀ j ∈ js, 0 ≤ j ∧ j < (counts.length : Int)) →
      (∀ n : Nat, wrap16 (counts.getD n 0) = counts.getD n 0) →
      ∃ flag' counts', js.foldlM
          (fun (st : Bool × List Int) jewelId => do
            let n := wrap16 ((← vecGet st.2 jewelId) + delta)
            let counts ← vecSet st.2 jewelId n
            pure (if delta < 0 ∧ n ≤ 0 then false else st.1, counts))
          (flag, counts) = .ok (flag', counts') ∧
        counts'.length = counts.length ∧
        ∀ n : Nat, counts'.getD n 0 = wrap16 (counts.getD n 0 + delta * js.count (n : Int)) := by
  intro js
  induction js with
  | nil =>
    intro flag counts _ hrep
    refine ⟨flag, counts, rfl, rfl, ?_⟩
    intro n
    rw [List.count_nil]
    simp only [Nat.cast_zero, mul_zero, add_zero]
    exact (hrep n).symm
  | cons j0 rest ih =>
    intro flag counts hj hrep
    obtain ⟨h0, h1⟩ := hj j0 (List.mem_cons_self _ _)
    rw [List.foldlM_cons]
    have hstep := shiftJewel_ok delta flag counts j0 h0 h1
    rw [hstep, ok_bind]
    have hrep1 : ∀ n : Nat, wrap16 ((counts.set j0.toNat
        (wrap16 (counts.getD j0.toNat 0 + delta))).getD n 0) =
        (counts.set j0.toNat (wrap16 (counts.getD j0.toNat 0 + delta))).getD n 0 := by
      intro n
      by_cases hn : n = j0.toNat
      · subst hn
        rw [List.getD_eq_getElem?_getD, List.getElem?_set_self (by omega)]
        show wrap16 (wrap16 _) = wrap16 _
        unfold wrap16; omega
      · rw [List.getD_eq_getElem?_getD, List.getElem?_set_ne (fun e => hn e.symm),
          ← List.getD_eq_getElem?_getD]
        exact hrep n
    obtain ⟨flag', counts', e, hlen, hval⟩ := ih _ _ (by
      intro j hjm
      rw [List.length_set]
      exact hj j (List.mem_cons_of_mem _ hjm)) hrep1
    refine ⟨flag', counts', e, by rw [hlen, List.length_set], ?_⟩
    intro n
    rw [hval n]
    by_cases hn : n = j0.toNat
    · subst hn
      have hc : ((j0.toNat : Nat) : Int) = j0 := by omega
      rw [List.getD_eq_getElem?_getD, List.getElem?_set_self (by omega), hc,
        List.count_cons_self]
      show wrap16 (wrap16 _ + _) = _
      rw [wrap16_shift]
      congr 1
      push_cast
      ring
    · have hne : j0 ≠ (n : Int) := by omega
      rw [List.getD_eq_getElem?_getD, List.getElem?_set_ne (fun e => hn e.symm),
        ← List.getD_eq_getElem?_getD, List.count_cons_of_ne hne.symm]

/-- The flag that the decrementing loop leaves when no count wraps: it is cleared when some
jewel of the list ends with a count of zero or less. -/
theorem shiftJewels_flag :
    ∀ (js : List Int) (flag : Bool) (counts : List Int) (flag' : Bool) (counts' : List Int),
      (∀ j ∈ js, 0 ≤ j ∧ j < (counts.length : Int)) →
      (∀ j ∈ js, (js.count j : Int) ≤ counts.getD j.toNat 0 ∧ counts.getD j.toNat 0 ≤ 32767) →
      js.foldlM
          (fun (st : Bool × List Int) jewelId => do
            let n := wrap16 ((← vecGet st.2 jewelId) + (-1))
            let counts ← vecSet st.2 jewelId n
            pure (if (-1 : Int) < 0 ∧ n ≤ 0 then false else st.1, counts))
          (flag, counts) = .ok (flag', counts') →
      (flag' = false ↔
        flag = false ∨ ∃ j ∈ js, counts.getD j.toNat 0 - (js.count j : Int) ≤ 0) := by
  intro js
  induction js with
  | nil =>
    intro flag counts flag' counts' _ _ h
    cases h
    simp
  | cons j0 rest ih =>
    intro flag counts flag' counts' hj hno h
    obtain ⟨h0, h1⟩ := hj j0 (List.mem_cons_self _ _)
    rw [List.foldlM_cons, shiftJewel_ok (-1) flag counts j0 h0 h1, ok_bind] at h
    have hc0 := hno j0 (List.mem_cons_self _ _)
    rw [List.count_cons_self] at hc0
    have hw : wrap16 (counts.getD j0.toNat 0 + -1) = counts.getD j0.toNat 0 - 1 := by
      rw [wrap16_of_range (by push_cast at hc0; omega) (by omega)]
      ring
    rw [hw] at h
    have hget : ∀ j : Int, 0 ≤ j → (counts.set j0.toNat (counts.getD j0.toNat 0 - 1)).getD
        j.toNat 0 = if j = j0 then counts.getD j0.toNat 0 - 1 else counts.getD j.toNat 0 := by
      intro j hj0
      by_cases e : j = j0
      · subst e
        rw [if_pos rfl, List.getD_eq_getElem?_getD, List.getElem?_set_self (by omega)]
        rfl
      · rw [if_neg e, List.getD_eq_getElem?_getD, List.getElem?_set_ne (by omega),
          ← List.getD_eq_getElem?_getD]
    have key := ih _ _ flag' counts' (by
      intro j hjm
      rw [List.length_set]
      exact hj j (List.mem_cons_of_mem _ hjm)) (by
      intro j hjm
      have hjr := hj j (List.mem_cons_of_mem _ hjm)
      have hn := hno j (List.mem_cons_of_mem _ hjm)
      rw [hget j hjr.1]
      by_cases e : j = j0
      · subst e
        rw [if_pos rfl]
        rw [List.count_cons_self] at hn
        push_cast at hn
        omega
      · rw [if_neg e]
        rw [List.count_cons_of_ne e] at hn
        exact hn) h
    rw [key]
    constructor
    · rintro (hf | ⟨j, hjm, hle⟩)
      · by_cases hz : (-1 : Int) < 0 ∧ counts.getD j0.toNat 0 - 1 ≤ 0
        · right
          refine ⟨j0, List.mem_cons_self _ _, ?_⟩
          rw [List.count_cons_self]
          push_cast
          have := hz.2
          have : (0 : Int) ≤ (rest.count j0 : Int) := Int.ofNat_nonneg _
          omega
        · rw [if_neg hz] at hf
          exact Or.inl hf
      · right
        have hjr := hj j (List.mem_cons_of_mem _ hjm)
        refine ⟨j, List.mem_cons_of_mem _ hjm, ?_⟩
        rw [hget j hjr.1] at hle
        by_cases e : j = j0
        · subst e
          rw [if_pos rfl] at hle
          rw [List.count_cons_self]
          push_cast
          omega
        · rw [if_neg e] at hle
          rw [List.count_cons_of_ne e]
          exact hle
    · rintro (hf | ⟨j, hjm, hle⟩)
      · left
        rw [hf]
        split <;> rfl
      · by_cases e : j = j0
        · subst e
          rw [List.count_cons_self] at hle
          push_cast at hle
          by_cases hmem : j ∈ rest
          · right
            refine ⟨j, hmem, ?_⟩
            rw [hget j h0, if_pos rfl]
            omega
          · left
            have hzero : rest.count j = 0 := List.count_eq_zero_of_not_mem hmem
            rw [hzero] at hle
            rw [if_pos ⟨by decide, by push_cast at hle; omega⟩]
        · right
          have hjm' : j ∈ rest := by
            rcases List.mem_cons.1 hjm with e' | e'
            · exact absurd e' e
            · exact e'
          have hjr := hj j hjm
          refine ⟨j, hjm', ?_⟩
          rw [hget j hjr.1, if_neg e]
          rw [List.count_cons_of_ne e] at hle
          exact hle

/-- The loops of `remainsSolvableAfterEnteringScc` over the SCCs are one loop over the
jewels of the SCCs that `U[i][.]` marks, in the order of `m_sccs`. -/
theorem shiftSccCounts_flat (s : Solver) (i delta : Int)
    (hi : 0 ≤ i ∧ i < s.m_ifSccTraversedThenSccUnreachable.width) :
    ∀ (sccs : List Scc) (st : Bool × List Int),
      (∀ scc ∈ sccs, 0 ≤ scc.id ∧ scc.id < s.m_ifSccTraversedThenSccUnreachable.height) →
      s.shiftSccCounts i delta sccs st =
        ((sccs.filter fun scc => s.m_ifSccTraversedThenSccUnreachable.values i scc.id).flatMap
          Scc.jewels).foldlM
          (fun (st : Bool × List Int) jewelId => do
            let n := wrap16 ((← vecGet st.2 jewelId) + delta)
            let counts ← vecSet st.2 jewelId n
            pure (if delta < 0 ∧ n ≤ 0 then false else st.1, counts))
          st := by
  intro sccs
  induction sccs with
  | nil =>
    intro st _
    obtain ⟨flag, counts⟩ := st
    rfl
  | cons scc rest ih =>
    intro st hid
    obtain ⟨flag, counts⟩ := st
    have hr := hid scc (List.mem_cons_self _ _)
    have hrest : ∀ scc ∈ rest, 0 ≤ scc.id ∧
        scc.id < s.m_ifSccTraversedThenSccUnreachable.height :=
      fun x hx => hid x (List.mem_cons_of_mem _ hx)
    unfold Solver.shiftSccCounts
    rw [Array2.read_ok ⟨hi.1, hi.2, hr.1, hr.2⟩, ok_bind]
    by_cases hm : s.m_ifSccTraversedThenSccUnreachable.values i scc.id = true
    · rw [if_pos hm, List.filter_cons, if_pos hm, List.flatMap_cons, List.foldlM_append]
      congr 1
      funext st'
      exact ih st' hrest
    · rw [if_neg hm, List.filter_cons, if_neg hm]
      exact ih _ hrest
theorem count_flatMap_filter (j : Int) (p : Scc → Bool) :
    ∀ sccs : List Scc, (∀ scc ∈ sccs, scc.jewels.Nodup) →
      ((sccs.filter p).flatMap Scc.jewels).count j =
        (sccs.filter fun scc => p scc && decide (j ∈ scc.jewels)).length := by
  intro sccs
  induction sccs with
  | nil => intro _; rfl
  | cons scc rest ih =>
    intro hn
    have ih' := ih fun x hx => hn x (List.mem_cons_of_mem _ hx)
    have hnd := hn scc (List.mem_cons_self _ _)
    rw [List.filter_cons, List.filter_cons]
    by_cases hp : p scc = true
    · rw [if_pos hp, List.flatMap_cons, List.count_append, ih', hp, Bool.true_and]
      by_cases hm : j ∈ scc.jewels
      · rw [if_pos (decide_eq_true hm), List.count_eq_one_of_mem hnd hm, List.length_cons]
        omega
      · rw [if_neg (by simpa using hm), List.count_eq_zero_of_not_mem hm]
        omega
    · rw [if_neg hp, ih', if_neg (by simp [hp])]

theorem filter_and_length_le {α : Type} (p q : α → Bool) :
    ∀ l : List α, (l.filter fun x => p x && q x).length ≤ (l.filter q).length := by
  intro l
  induction l with
  | nil => exact le_refl _
  | cons a rest ih =>
    rw [List.filter_cons, List.filter_cons]
    by_cases hq : q a = true
    · rw [if_pos hq]
      split
      · simp only [List.length_cons]
        omega
      · simp only [List.length_cons]
        omega
    · rw [if_neg hq, if_neg (by simp [hq])]
      exact ih

theorem filter_and_length_eq {α : Type} (p q : α → Bool) :
    ∀ l : List α, (l.filter q).length ≤ (l.filter fun x => p x && q x).length ↔
      ∀ x ∈ l, q x = true → p x = true := by
  intro l
  induction l with
  | nil => simp
  | cons a rest ih =>
    have hle := filter_and_length_le p q rest
    rw [List.filter_cons, List.filter_cons]
    by_cases hq : q a = true
    · rw [if_pos hq]
      by_cases hp : p a = true
      · rw [if_pos (by simp [hp, hq])]
        simp only [List.length_cons, List.mem_cons, forall_eq_or_imp]
        rw [Nat.succ_le_succ_iff, ih]
        exact ⟨fun h => ⟨fun _ => hp, h⟩, fun h => h.2⟩
      · rw [if_neg (by simp [hp])]
        simp only [List.length_cons, List.mem_cons, forall_eq_or_imp]
        constructor
        · intro h
          omega
        · intro h
          exact absurd (h.1 hq) hp
    · rw [if_neg hq, if_neg (by simp [hq])]
      simp only [List.mem_cons, forall_eq_or_imp]
      rw [ih]
      exact ⟨fun h => ⟨fun c => absurd c hq, h⟩, fun h => h.2⟩

/-- C37: `remainsSolvableAfterEnteringScc(isTraversed, i)` returns and leaves the solver,
with `m_numSccsWithJewel`, as it was (`isTraversed` is read only), whenever `i` is
`invalidSccId` or an index of `isTraversed` and of `U`, the ids of the SCCs are indices of
`U`, the jewel ids of the SCCs are indices of `m_numSccsWithJewel`, and the counts are 16-bit
values. It returns `true` when `i` is invalid or already traversed. Otherwise, when
`m_numSccsWithJewel[j]` is the number of SCCs that list `j` (the lists have no duplicates and
there are at most 32767 SCCs), it returns `false` if and only if some jewel that lies in an
SCC has every SCC that lists it marked `U[i][.] = true`; when every jewel lies in an SCC, that
is: if and only if some jewel has every SCC that lists it marked. -/
theorem remainsSolvableAfterEnteringScc_spec (s : Solver) (isTraversed : List Bool) (i : Int)
    (hi : i = invalidSccId ∨ (0 ≤ i ∧ i < isTraversed.length ∧
      i < s.m_ifSccTraversedThenSccUnreachable.width))
    (hid : ∀ scc ∈ s.m_sccs, 0 ≤ scc.id ∧
      scc.id < s.m_ifSccTraversedThenSccUnreachable.height)
    (hj : ∀ scc ∈ s.m_sccs, ∀ j ∈ scc.jewels,
      0 ≤ j ∧ j < (s.m_numSccsWithJewel.length : Int))
    (hrep : ∀ c ∈ s.m_numSccsWithJewel, wrap16 c = c) :
    ∃ b, s.remainsSolvableAfterEnteringScc isTraversed i = .ok (b, s) ∧
      (i = invalidSccId ∨ isTraversed.get? i.toNat = some true → b = true) ∧
      ((∀ scc ∈ s.m_sccs, scc.jewels.Nodup) → s.m_sccs.length ≤ 32767 →
        (∀ j : Int, (∃ scc ∈ s.m_sccs, j ∈ scc.jewels) →
          vecGet s.m_numSccsWithJewel j =
            .ok ((s.m_sccs.filter fun scc => decide (j ∈ scc.jewels)).length : Int)) →
        i ≠ invalidSccId → isTraversed.get? i.toNat = some false →
        (b = false ↔ ∃ j : Int, (∃ scc ∈ s.m_sccs, j ∈ scc.jewels) ∧
          ∀ scc ∈ s.m_sccs, j ∈ scc.jewels →
            s.m_ifSccTraversedThenSccUnreachable.values i scc.id = true) ∧
        ((∀ j : Int, 0 ≤ j → j < s.m_numSccsWithJewel.length →
            ∃ scc ∈ s.m_sccs, j ∈ scc.jewels) →
          (b = false ↔ ∃ j : Int, 0 ≤ j ∧ j < s.m_numSccsWithJewel.length ∧
            ∀ scc ∈ s.m_sccs, j ∈ scc.jewels →
              s.m_ifSccTraversedThenSccUnreachable.values i scc.id = true))) := by
  by_cases hinv : i = invalidSccId
  · refine ⟨true, ?_, fun _ => rfl, fun _ _ _ c => absurd hinv c⟩
    unfold Solver.remainsSolvableAfterEnteringScc
    rw [if_pos hinv]
    rfl
  obtain ⟨hi0, hi1, hi2⟩ := hi.resolve_left hinv
  obtain ⟨t, ht, hget⟩ := vecGet_ok (v := isTraversed) hi0 hi1
  cases t with
  | true =>
    refine ⟨true, ?_, fun _ => rfl, ?_⟩
    · unfold Solver.remainsSolvableAfterEnteringScc
      rw [if_neg hinv, ht, ok_bind]
      rfl
    · intro _ _ _ _ c
      rw [hget] at c
      cases c
  | false =>
    have hrep' : ∀ n : Nat, wrap16 (s.m_numSccsWithJewel.getD n 0) =
        s.m_numSccsWithJewel.getD n 0 := by
      intro n
      by_cases hn : n < s.m_numSccsWithJewel.length
      · exact hrep _ (getD_mem _ n hn)
      · rw [List.getD_eq_getElem?_getD, List.getElem?_eq_none (by omega)]
        rfl
    have hmem : ∀ j ∈ ((s.m_sccs.filter fun scc =>
        s.m_ifSccTraversedThenSccUnreachable.values i scc.id).flatMap Scc.jewels),
        ∃ scc ∈ s.m_sccs, s.m_ifSccTraversedThenSccUnreachable.values i scc.id = true ∧
          j ∈ scc.jewels := by
      intro j hjm
      obtain ⟨scc, hscc, hjs⟩ := List.mem_flatMap.1 hjm
      obtain ⟨h1, h2⟩ := List.mem_filter.1 hscc
      exact ⟨scc, h1, h2, hjs⟩
    have hrange : ∀ j ∈ ((s.m_sccs.filter fun scc =>
        s.m_ifSccTraversedThenSccUnreachable.values i scc.id).flatMap Scc.jewels),
        0 ≤ j ∧ j < (s.m_numSccsWithJewel.length : Int) := by
      intro j hjm
      obtain ⟨scc, h1, _, h3⟩ := hmem j hjm
      exact hj scc h1 j h3
    obtain ⟨b, counts1, e1, hlen1, hval1⟩ := shiftJewels_values (-1) _ true
      s.m_numSccsWithJewel hrange hrep'
    obtain ⟨b2, counts2, e2, hlen2, hval2⟩ := shiftJewels_values 1 _ b counts1
      (by rw [hlen1]; exact hrange) (by
        intro n
        rw [hval1 n]
        unfold wrap16; omega)
    have hsame : counts2 = s.m_numSccsWithJewel := by
      apply List.ext_getElem?
      intro n
      by_cases hn : n < s.m_numSccsWithJewel.length
      · have h2 := hval2 n
        rw [hval1 n, wrap16_shift] at h2
        have h3 : counts2.getD n 0 = s.m_numSccsWithJewel.getD n 0 := by
          rw [h2]
          refine Eq.trans (congrArg wrap16 ?_) (hrep' n)
          ring
        rw [List.getD_eq_getElem?_getD, List.getD_eq_getElem?_getD,
          List.getElem?_eq_getElem (by omega : n < counts2.length),
          List.getElem?_eq_getElem hn] at h3
        rw [List.getElem?_eq_getElem (by omega : n < counts2.length),
          List.getElem?_eq_getElem hn]
        exact congrArg some h3
      · rw [List.getElem?_eq_none (by omega), List.getElem?_eq_none (by omega)]
    have hrun : s.remainsSolvableAfterEnteringScc isTraversed i = .ok (b, s) := by
      unfold Solver.remainsSolvableAfterEnteringScc
      rw [if_neg hinv, ht, ok_bind]
      simp only [Bool.false_eq_true, if_false]
      rw [shiftSccCounts_flat s i (-1) ⟨hi0, hi2⟩ s.m_sccs _ hid, e1, ok_bind]
      simp only []
      rw [shiftSccCounts_flat s i 1 ⟨hi0, hi2⟩ s.m_sccs _ hid, e2, ok_bind, hsame]
      rfl
    refine ⟨b, hrun, ?_, ?_⟩
    · intro c
      rcases c with c | c
      · exact absurd c hinv
      · rw [hget] at c
        cases c
    · intro hnd hfit hexact _ _
      have hcount : ∀ j : Int, (((s.m_sccs.filter fun scc =>
          s.m_ifSccTraversedThenSccUnreachable.values i scc.id).flatMap Scc.jewels).count j) =
          (s.m_sccs.filter fun scc => s.m_ifSccTraversedThenSccUnreachable.values i scc.id &&
            decide (j ∈ scc.jewels)).length :=
        fun j => count_flatMap_filter j _ s.m_sccs hnd
      have hc : ∀ j : Int, (∃ scc ∈ s.m_sccs, j ∈ scc.jewels) →
          s.m_numSccsWithJewel.getD j.toNat 0 =
            ((s.m_sccs.filter fun scc => decide (j ∈ scc.jewels)).length : Int) := by
        intro j hjl
        obtain ⟨_, _, g⟩ := vecGet_eq_ok (hexact j hjl)
        rw [List.getD_eq_getElem?_getD, ← List.get?_eq_getElem?, g]
        rfl
      have hflag := shiftJewels_flag _ true s.m_numSccsWithJewel b counts1 hrange (by
        intro j hjm
        obtain ⟨scc, h1, _, h3⟩ := hmem j hjm
        rw [hc j ⟨scc, h1, h3⟩, hcount j]
        have h4 := filter_and_length_le
          (fun scc => s.m_ifSccTraversedThenSccUnreachable.values i scc.id)
          (fun scc => decide (j ∈ scc.jewels)) s.m_sccs
        have h5 := List.length_filter_le (fun scc : Scc => decide (j ∈ scc.jewels)) s.m_sccs
        constructor
        · exact_mod_cast h4
        · omega) e1
      have hA : b = false ↔ ∃ j : Int, (∃ scc ∈ s.m_sccs, j ∈ scc.jewels) ∧
          ∀ scc ∈ s.m_sccs, j ∈ scc.jewels →
            s.m_ifSccTraversedThenSccUnreachable.values i scc.id = true := by
        rw [hflag]
        constructor
        · rintro (c | ⟨j, hjm, hle⟩)
          · cases c
          · obtain ⟨scc, h1, _, h3⟩ := hmem j hjm
            refine ⟨j, ⟨scc, h1, h3⟩, ?_⟩
            rw [hc j ⟨scc, h1, h3⟩, hcount j] at hle
            have h6 := (filter_and_length_eq
              (fun scc => s.m_ifSccTraversedThenSccUnreachable.values i scc.id)
              (fun scc => decide (j ∈ scc.jewels)) s.m_sccs).1 (by omega)
            intro scc' hs' hj'
            exact h6 scc' hs' (decide_eq_true hj')
        · rintro ⟨j, ⟨scc, h1, h3⟩, hall⟩
          right
          refine ⟨j, List.mem_flatMap.2 ⟨scc, List.mem_filter.2 ⟨h1, hall scc h1 h3⟩, h3⟩, ?_⟩
          rw [hc j ⟨scc, h1, h3⟩, hcount j]
          have h6 := (filter_and_length_eq
            (fun scc => s.m_ifSccTraversedThenSccUnreachable.values i scc.id)
            (fun scc => decide (j ∈ scc.jewels)) s.m_sccs).2 (by
              intro scc' hs' hj'
              exact hall scc' hs' (of_decide_eq_true hj'))
          omega
      refine ⟨hA, ?_⟩
      intro hlisted
      rw [hA]
      constructor
      · rintro ⟨j, ⟨scc, h1, h3⟩, hall⟩
        exact ⟨j, (hj scc h1 j h3).1, (hj scc h1 j h3).2, hall⟩
      · rintro ⟨j, h0, h1, hall⟩
        exact ⟨j, hlisted j h0 h1, hall⟩
theorem trapState_index :
    (1 : Int) = invalidSccId ∨ ((0 : Int) ≤ 1 ∧ (1 : Int) < [true, false, false].length ∧
      1 < (prepared (trapLevel 20)).m_ifSccTraversedThenSccUnreachable.width) := by
  decide!

theorem trapState_ids :
    ∀ scc ∈ (prepared (trapLevel 20)).m_sccs, 0 ≤ scc.id ∧
      scc.id < (prepared (trapLevel 20)).m_ifSccTraversedThenSccUnreachable.height := by
  decide!

theorem trapState_jewels :
    ∀ scc ∈ (prepared (trapLevel 20)).m_sccs, ∀ j ∈ scc.jewels,
      0 ≤ j ∧ j < ((prepared (trapLevel 20)).m_numSccsWithJewel.length : Int) := by
  decide!

theorem trapState_counts :
    ∀ c ∈ (prepared (trapLevel 20)).m_numSccsWithJewel, wrap16 c = c := by
  decide!

theorem trapState_nodup :
    (∀ scc ∈ (prepared (trapLevel 20)).m_sccs, scc.jewels.Nodup) ∧
      (prepared (trapLevel 20)).m_sccs.length ≤ 32767 := by
  decide!

theorem trapState_exact :
    ∀ j ∈ (prepared (trapLevel 20)).m_sccs.flatMap Scc.jewels,
      vecGet (prepared (trapLevel 20)).m_numSccsWithJewel j =
        .ok (((prepared (trapLevel 20)).m_sccs.filter fun scc =>
          decide (j ∈ scc.jewels)).length : Int) := by
  decide!

theorem remainsSolvableAfterEnteringScc_spec_witness :
    ((1 : Int) = invalidSccId ∨ ((0 : Int) ≤ 1 ∧ (1 : Int) < [true, false, false].length ∧
      1 < (prepared (trapLevel 20)).m_ifSccTraversedThenSccUnreachable.width)) ∧
    (∀ scc ∈ (prepared (trapLevel 20)).m_sccs, 0 ≤ scc.id ∧
      scc.id < (prepared (trapLevel 20)).m_ifSccTraversedThenSccUnreachable.height) ∧
    (∀ scc ∈ (prepared (trapLevel 20)).m_sccs, ∀ j ∈ scc.jewels,
      0 ≤ j ∧ j < ((prepared (trapLevel 20)).m_numSccsWithJewel.length : Int)) ∧
    (∀ c ∈ (prepared (trapLevel 20)).m_numSccsWithJewel, wrap16 c = c) ∧
    (∀ scc ∈ (prepared (trapLevel 20)).m_sccs, scc.jewels.Nodup) ∧
    (prepared (trapLevel 20)).m_sccs.length ≤ 32767 ∧
    (∀ j : Int, (∃ scc ∈ (prepared (trapLevel 20)).m_sccs, j ∈ scc.jewels) →
      vecGet (prepared (trapLevel 20)).m_numSccsWithJewel j =
        .ok (((prepared (trapLevel 20)).m_sccs.filter fun scc =>
          decide (j ∈ scc.jewels)).length : Int)) ∧
    ∃ b, (prepared (trapLevel 20)).remainsSolvableAfterEnteringScc [true, false, false] 1 =
        .ok (b, prepared (trapLevel 20)) ∧
      ((1 : Int) = invalidSccId ∨ [true, false, false].get? (1 : Int).toNat = some true →
        b = true) ∧
      ((∀ scc ∈ (prepared (trapLevel 20)).m_sccs, scc.jewels.Nodup) →
        (prepared (trapLevel 20)).m_sccs.length ≤ 32767 →
        (∀ j : Int, (∃ scc ∈ (prepared (trapLevel 20)).m_sccs, j ∈ scc.jewels) →
          vecGet (prepared (trapLevel 20)).m_numSccsWithJewel j =
            .ok (((prepared (trapLevel 20)).m_sccs.filter fun scc =>
              decide (j ∈ scc.jewels)).length : Int)) →
        (1 : Int) ≠ invalidSccId → [true, false, false].get? (1 : Int).toNat = some false →
        (b = false ↔ ∃ j : Int, (∃ scc ∈ (prepared (trapLevel 20)).m_sccs, j ∈ scc.jewels) ∧
          ∀ scc ∈ (prepared (trapLevel 20)).m_sccs, j ∈ scc.jewels →
            (prepared (trapLevel 20)).m_ifSccTraversedThenSccUnreachable.values 1 scc.id =
              true) ∧
        ((∀ j : Int, 0 ≤ j → j < (prepared (trapLevel 20)).m_numSccsWithJewel.length →
            ∃ scc ∈ (prepared (trapLevel 20)).m_sccs, j ∈ scc.jewels) →
          (b = false ↔ ∃ j : Int, 0 ≤ j ∧
            j < (prepared (trapLevel 20)).m_numSccsWithJewel.length ∧
            ∀ scc ∈ (prepared (trapLevel 20)).m_sccs, j ∈ scc.jewels →
              (prepared (trapLevel 20)).m_ifSccTraversedThenSccUnreachable.values 1 scc.id =
                true))) :=
  ⟨trapState_index, trapState_ids, trapState_jewels, trapState_counts, trapState_nodup.1,
    trapState_nodup.2,
    fun j ⟨scc, h1, h2⟩ => trapState_exact j (List.mem_flatMap.2 ⟨scc, h1, h2⟩),
    remainsSolvableAfterEnteringScc_spec (prepared (trapLevel 20)) [true, false, false] 1
      trapState_index trapState_ids trapState_jewels trapState_counts⟩

theorem getLast?_exchange {α : Type} (pre B C T : List α) (i j k : α) (hT : T ≠ []) :
    (pre ++ i :: (C ++ k :: (B ++ j :: T))).getLast? =
      (pre ++ i :: (B ++ j :: (C ++ k :: T))).getLast? := by
  have e1 : pre ++ i :: (C ++ k :: (B ++ j :: T)) = (pre ++ i :: (C ++ k :: (B ++ [j]))) ++ T := by
    simp
  have e2 : pre ++ i :: (B ++ j :: (C ++ k :: T)) = (pre ++ i :: (B ++ j :: (C ++ [k]))) ++ T := by
    simp
  rw [e1, e2, List.getLast?_append_of_ne_nil _ hT, List.getLast?_append_of_ne_nil _ hT]

theorem opt3LoopK_order (s : Solver) (nodes successors : List Int) (flags : List Bool)
    (window x0 : Int) (rest : List Int) (L : Int)
    (hc : IsChain successors (x0 :: rest)) (hn : rest.length + 1 = nodes.length)
    (hL : s.chainLength nodes successors rest.length x0 = .ok L)
    (a b : Nat) (i j si sj iStart iEnd iCost jStart jEnd jCost j0 : Int)
    (hab : a < b) (hi : (x0 :: rest).get? a = some i) (hj : (x0 :: rest).get? b = some j)
    (hsi : vecGet successors i = .ok si) (hsj : vecGet successors j = .ok sj)
    (hiS : vecGet nodes i = .ok iStart) (hiE : vecGet nodes si = .ok iEnd)
    (hiC : s.m_distanceFromTo.read iStart iEnd = .ok iCost)
    (hjS : vecGet nodes j = .ok jStart) (hjE : vecGet nodes sj = .ok jEnd)
    (hjC : s.m_distanceFromTo.read jStart jEnd = .ok jCost) :
    ∀ (steps d : Nat) (k : Int) (succs : List Int) (saved : Int), b < d →
      (x0 :: rest).get? d = some k →
      s.opt3LoopK nodes successors flags window i iStart iEnd iCost j jStart jEnd jCost j0
        steps (d : Int) k = .ok (some (succs, saved)) →
      ∃ k', s.Exchanged nodes successors succs i j k' saved ∧
        vecGet flags k' = .ok false ∧
        ∃ rest', IsChain succs (x0 :: rest') ∧ rest'.length = rest.length ∧
          s.chainLength nodes succs rest'.length x0 = .ok (L - saved) ∧
          (x0 :: rest').get? (a + 1) = some sj ∧ vecGet succs i = .ok sj ∧
          (x0 :: rest').Perm (x0 :: rest) ∧
          (x0 :: rest').getLast? = (x0 :: rest).getLast? := by
  intro steps
  induction steps with
  | zero =>
    intro d k succs saved _ _ h
    cases h
  | succ steps ih =>
    intro d k succs saved hbd hk h
    unfold Solver.opt3LoopK at h
    split at h
    · rename_i hcond
      have hd : d + 1 < (x0 :: rest).length := by
        rw [List.length_cons, hn]
        exact_mod_cast hcond.1
      obtain ⟨y, hy, hky⟩ := chain_next successors _ hc d k hk hd
      have hnext : ∀ k', vecGet successors k = .ok k' →
          s.opt3LoopK nodes successors flags window i iStart iEnd iCost j jStart jEnd jCost j0
            steps ((d : Int) + 1) k' = .ok (some (succs, saved)) →
          ∃ k', s.Exchanged nodes successors succs i j k' saved ∧
        vecGet flags k' = .ok false ∧
            ∃ rest', IsChain succs (x0 :: rest') ∧ rest'.length = rest.length ∧
              s.chainLength nodes succs rest'.length x0 = .ok (L - saved) ∧
              (x0 :: rest').get? (a + 1) = some sj ∧ vecGet succs i = .ok sj ∧
          (x0 :: rest').Perm (x0 :: rest) ∧
          (x0 :: rest').getLast? = (x0 :: rest).getLast? := by
        intro k' hk' hrec
        rw [hky] at hk'
        cases hk'
        exact ih (d + 1) y succs saved (by omega) hy (by push_cast; exact hrec)
      simp only [bind_eq_ok] at h
      obtain ⟨flag, hflag, h⟩ := h
      split at h
      · simp only [bind_eq_ok] at h
        obtain ⟨k', hk', h⟩ := h
        exact hnext k' hk' h
      · rename_i hnf
        simp only [bind_eq_ok] at h
        obtain ⟨kStart, hkS, sk, hsk, kEnd, hkE, kCost, hkC, iCostNew, hiN, jCostNew, hjN,
          kCostNew, hkN, h⟩ := h
        split at h
        · simp only [bind_eq_ok] at h
          obtain ⟨k', hk', h⟩ := h
          exact hnext k' hk' h
        · rename_i hfin
          split at h
          · rename_i hless
            simp only [bind_eq_ok] at h
            obtain ⟨sj', hsj', sk', hsk', s1, h1, si', hsi', s2, h2, s3, h3, h⟩ := h
            rw [pure_eq_ok] at h
            have e1 : s3 = succs := congrArg Prod.fst (Option.some.inj h)
            have e2 : iCost + jCost + kCost - (iCostNew + jCostNew + kCostNew) = saved :=
              congrArg Prod.snd (Option.some.inj h)
            subst e1
            rw [hsj] at hsj'
            cases hsj'
            rw [hsk] at hsk'
            cases hsk'
            obtain ⟨pre, B, C, T, hsplit, hpre, hT⟩ :=
              get?_split3 _ a b d i j k hab hbd hd hi hj hk
            have hij : i ≠ j := by
              have hnd := hc.1
              rw [hsplit] at hnd
              simp only [List.nodup_append, List.nodup_cons, List.mem_append, List.mem_cons,
                not_or] at hnd
              exact hnd.2.1.1.2.1
            have hsi'' : si' = si := by
              obtain ⟨j0', j1', ee⟩ := vecSet_eq_ok h1
              rw [ee, vecGet_set_ne _ _ _ _ j0' hij, hsi] at hsi'
              exact (Except.ok.inj hsi').symm
            subst hsi''
            have ci := edgeCost_ok s nodes i si' iStart iEnd iCost hiS hiE hiC
            have cj := edgeCost_ok s nodes j sj jStart jEnd jCost hjS hjE hjC
            have ck := edgeCost_ok s nodes k sk kStart kEnd kCost hkS hkE hkC
            have ni := edgeCost_ok s nodes i sj iStart jEnd iCostNew hiS hjE hiN
            have nj := edgeCost_ok s nodes k si' kStart iEnd jCostNew hkS hiE hjN
            have nk := edgeCost_ok s nodes j sk jStart kEnd kCostNew hjS hkE hkN
            obtain ⟨rest', g1, g2, g3, g4, g5, g6, g7, _, _, _, g8, g9⟩ :=
              exchange_spec s nodes successors s1 s2 s3 x0 rest pre B C T i j k si' sj sk L
                iCostNew jCostNew kCostNew hsplit hT hc hL hsi hsj hsk h1 h2 h3 ni nj nk
            have wi : s.edgeWeight nodes i si' = iCost := by
              unfold Solver.edgeWeight
              rw [ci]
            have wj : s.edgeWeight nodes j sj = jCost := by
              unfold Solver.edgeWeight
              rw [cj]
            have wk : s.edgeWeight nodes k sk = kCost := by
              unfold Solver.edgeWeight
              rw [ck]
            rw [wi, wj, wk, e2] at g9
            rw [hpre] at g8
            have hkf : vecGet flags k = .ok false := by
              cases flag with
              | true => exact absurd rfl hnf
              | false => exact hflag
            have hperm : (x0 :: rest').Perm (x0 :: rest) := by
              rw [g1, hsplit]
              exact exchange_perm pre B C T i j k
            have hlast : (x0 :: rest').getLast? = (x0 :: rest).getLast? := by
              rw [g1, hsplit]
              exact getLast?_exchange pre B C T i j k hT
            refine ⟨k, ⟨si', sj, sk, iCost, jCost, kCost, iCostNew, jCostNew, kCostNew, hsi, hsj,
              hsk, g4, g5, g6, g7, ci, cj, ck, ni, nj, nk, ?_, ?_, ?_, e2.symm, ?_⟩, hkf,
              rest', g3, g2, g9, g8, g4, hperm, hlast⟩
            · exact fun e => hfin (Or.inl e)
            · exact fun e => hfin (Or.inr (Or.inl e))
            · exact fun e => hfin (Or.inr (Or.inr e))
            · omega
          · simp only [bind_eq_ok] at h
            obtain ⟨k', hk', h⟩ := h
            exact hnext k' hk' h
    · cases h
theorem opt3LoopJ_order (s : Solver) (nodes successors : List Int) (flags : List Bool)
    (window x0 : Int) (rest : List Int) (L : Int)
    (hc : IsChain successors (x0 :: rest)) (hn : rest.length + 1 = nodes.length)
    (hL : s.chainLength nodes successors rest.length x0 = .ok L)
    (a : Nat) (i si iStart iEnd iCost i0 : Int)
    (hi : (x0 :: rest).get? a = some i)
    (hsi : vecGet successors i = .ok si)
    (hiS : vecGet nodes i = .ok iStart) (hiE : vecGet nodes si = .ok iEnd)
    (hiC : s.m_distanceFromTo.read iStart iEnd = .ok iCost) :
    ∀ (steps b : Nat) (j : Int) (succs : List Int) (saved : Int), a < b →
      (x0 :: rest).get? b = some j →
      s.opt3LoopJ nodes successors flags window i iStart iEnd iCost i0 steps (b : Int) j =
        .ok (some (succs, saved)) →
      ∃ j' k', s.Exchanged nodes successors succs i j' k' saved ∧
        vecGet flags j' = .ok false ∧ vecGet flags k' = .ok false ∧
        ∃ rest' y, IsChain succs (x0 :: rest') ∧ rest'.length = rest.length ∧
          s.chainLength nodes succs rest'.length x0 = .ok (L - saved) ∧
          (x0 :: rest').get? (a + 1) = some y ∧ vecGet succs i = .ok y ∧
          (x0 :: rest').Perm (x0 :: rest) ∧
          (x0 :: rest').getLast? = (x0 :: rest).getLast? := by
  intro steps
  induction steps with
  | zero =>
    intro b j succs saved _ _ h
    cases h
  | succ steps ih =>
    intro b j succs saved hab hj h
    unfold Solver.opt3LoopJ at h
    split at h
    · rename_i hcond
      have hb : b + 3 < (x0 :: rest).length := by
        rw [List.length_cons, hn]
        exact_mod_cast hcond.1
      obtain ⟨y, hy, hjy⟩ := chain_next successors _ hc b j hj (by omega)
      obtain ⟨z, hz, hyz⟩ := chain_next successors _ hc (b + 1) y hy (by omega)
      have hnext : ∀ j', vecGet successors j = .ok j' →
          s.opt3LoopJ nodes successors flags window i iStart iEnd iCost i0 steps
            ((b : Int) + 1) j' = .ok (some (succs, saved)) →
          ∃ j' k', s.Exchanged nodes successors succs i j' k' saved ∧
        vecGet flags j' = .ok false ∧ vecGet flags k' = .ok false ∧
            ∃ rest' y, IsChain succs (x0 :: rest') ∧ rest'.length = rest.length ∧
              s.chainLength nodes succs rest'.length x0 = .ok (L - saved) ∧
              (x0 :: rest').get? (a + 1) = some y ∧ vecGet succs i = .ok y ∧
          (x0 :: rest').Perm (x0 :: rest) ∧
          (x0 :: rest').getLast? = (x0 :: rest).getLast? := by
        intro j' hj' hrec
        rw [hjy] at hj'
        cases hj'
        exact ih (b + 1) y succs saved (by omega) hy (by push_cast; exact hrec)
      simp only [bind_eq_ok] at h
      obtain ⟨flag, hflag, h⟩ := h
      split at h
      · simp only [bind_eq_ok] at h
        obtain ⟨j', hj', h⟩ := h
        exact hnext j' hj' h
      · rename_i hnf
        simp only [bind_eq_ok] at h
        obtain ⟨jStart, hjS, sj, hsj, jEnd, hjE, jCost, hjC, sj', hsj', k, hk, r, hr, h⟩ := h
        rw [hjy] at hsj hsj'
        cases hsj
        cases hsj'
        rw [hyz] at hk
        cases hk
        cases r with
        | some r =>
          obtain ⟨succs0, saved0⟩ := r
          rw [pure_eq_ok] at h
          cases h
          have hr' : s.opt3LoopK nodes successors flags window i iStart iEnd iCost j jStart
              jEnd jCost (b : Int) nodes.length (((b + 2 : Nat)) : Int) z =
              .ok (some (succs, saved)) := by
            push_cast
            exact hr
          have hjf : vecGet flags j = .ok false := by
            cases flag with
            | true => exact absurd rfl hnf
            | false => exact hflag
          obtain ⟨k', hex, hkf, rest', g1, g2, g3, g4, g5, g6, g7⟩ :=
            opt3LoopK_order s nodes successors flags window x0 rest L hc hn hL a b i j si y
              iStart iEnd iCost jStart jEnd jCost (b : Int) hab hi hj hsi hjy hiS hiE hiC hjS
              hjE hjC nodes.length (b + 2) z succs saved (by omega) hz hr'
          exact ⟨j, k', hex, hjf, hkf, rest', y, g1, g2, g3, g4, g5, g6, g7⟩
        | none =>
          simp only [bind_eq_ok] at h
          obtain ⟨j', hj', h⟩ := h
          exact hnext j' hj' h
    · cases h
/-- The outer loop of `opt3` keeps the chain of the successors: the indices that following
`successors` from `x0` visits are the same after the loop, in another order but with the
same last one, and the successor of an index whose edge is flagged is not changed. -/
theorem opt3LoopI_order (s : Solver) (nodes : List Int) (flags : List Bool)
    (window totalLength x0 : Int) :
    ∀ (steps a : Nat) (i : Int) (successors : List Int) (savedLength : Int) (any : Bool)
      (rest : List Int) (L : Int) (succs' : List Int) (saved' : Int) (any' : Bool),
      IsChain successors (x0 :: rest) → rest.length + 1 = nodes.length →
      (x0 :: rest).get? a = some i →
      s.chainLength nodes successors rest.length x0 = .ok L →
      s.opt3LoopI nodes flags window totalLength steps (a : Int) i
        (successors, savedLength, any) = .ok (succs', saved', any') →
      ∃ rest' L', IsChain succs' (x0 :: rest') ∧ rest'.length = rest.length ∧
        s.chainLength nodes succs' rest'.length x0 = .ok L' ∧
        (x0 :: rest').Perm (x0 :: rest) ∧
        (x0 :: rest').getLast? = (x0 :: rest).getLast? ∧
        ∀ x : Int, vecGet flags x = .ok true → vecGet succs' x = vecGet successors x := by
  intro steps
  have hstop : ∀ (successors : List Int) (savedLength : Int) (any : Bool) (rest : List Int)
      (L : Int) (succs' : List Int) (saved' : Int) (any' : Bool),
      IsChain successors (x0 :: rest) →
      s.chainLength nodes successors rest.length x0 = .ok L →
      (successors, savedLength, any) = (succs', saved', any') →
      ∃ rest' L', IsChain succs' (x0 :: rest') ∧ rest'.length = rest.length ∧
        s.chainLength nodes succs' rest'.length x0 = .ok L' ∧
        (x0 :: rest').Perm (x0 :: rest) ∧
        (x0 :: rest').getLast? = (x0 :: rest).getLast? ∧
        ∀ x : Int, vecGet flags x = .ok true → vecGet succs' x = vecGet successors x := by
    intro successors savedLength any rest L succs' saved' any' hc hL h
    cases h
    exact ⟨rest, L, hc, rfl, hL, List.Perm.refl _, rfl, fun _ _ => rfl⟩
  induction steps with
  | zero =>
    intro a i successors savedLength any rest L succs' saved' any' hc _ _ hL h
    exact hstop _ _ _ _ _ _ _ _ hc hL (Except.ok.inj h)
  | succ steps ih =>
    intro a i successors savedLength any rest L succs' saved' any' hc hn hi hL h
    unfold Solver.opt3LoopI at h
    split at h
    · rename_i hcond
      have ha : a + 5 < (x0 :: rest).length := by
        rw [List.length_cons, hn]
        exact_mod_cast hcond
      split at h
      · exact hstop _ _ _ _ _ _ _ _ hc hL (Except.ok.inj h)
      · obtain ⟨y, hy, hiy⟩ := chain_next successors _ hc a i hi (by omega)
        obtain ⟨z, hz, hyz⟩ := chain_next successors _ hc (a + 1) y hy (by omega)
        have hnext : ∀ i', vecGet successors i = .ok i' →
            s.opt3LoopI nodes flags window totalLength steps ((a : Int) + 1) i'
              (successors, savedLength, any) = .ok (succs', saved', any') →
            ∃ rest' L', IsChain succs' (x0 :: rest') ∧ rest'.length = rest.length ∧
              s.chainLength nodes succs' rest'.length x0 = .ok L' ∧
              (x0 :: rest').Perm (x0 :: rest) ∧
              (x0 :: rest').getLast? = (x0 :: rest).getLast? ∧
              ∀ x : Int, vecGet flags x = .ok true →
                vecGet succs' x = vecGet successors x := by
          intro i' hi' hrec
          rw [hiy] at hi'
          cases hi'
          exact ih (a + 1) y successors savedLength any rest L succs' saved' any' hc hn hy hL
            (by push_cast; exact hrec)
        simp only [bind_eq_ok] at h
        obtain ⟨flag, hflag, h⟩ := h
        split at h
        · simp only [bind_eq_ok] at h
          obtain ⟨i', hi', h⟩ := h
          exact hnext i' hi' h
        · rename_i hnf
          have hif : vecGet flags i = .ok false := by
            cases flag with
            | true => exact absurd rfl hnf
            | false => exact hflag
          simp only [bind_eq_ok] at h
          obtain ⟨iStart, hiS, si, hsi, iEnd, hiE, iCost, hiC, si', hsi', j, hj, r, hr, h⟩ := h
          rw [hiy] at hsi hsi'
          cases hsi
          cases hsi'
          rw [hyz] at hj
          cases hj
          cases r with
          | some r =>
            obtain ⟨succs, saved⟩ := r
            simp only [bind_eq_ok] at h
            obtain ⟨i', hi', h⟩ := h
            have hr' : s.opt3LoopJ nodes successors flags window i iStart iEnd iCost (a : Int)
                nodes.length (((a + 2 : Nat)) : Int) z = .ok (some (succs, saved)) := by
              push_cast
              exact hr
            obtain ⟨j', k', hex, hjf, hkf, rest', y', g1, g2, g3, g4, g5, g6, g7⟩ :=
              opt3LoopJ_order s nodes successors flags window x0 rest L hc hn hL a i y iStart
                iEnd iCost (a : Int) hi hiy hiS hiE hiC nodes.length (a + 2) z succs saved
                (by omega) hz hr'
            rw [g5] at hi'
            cases hi'
            have hsame : ∀ x : Int, vecGet flags x = .ok true →
                vecGet succs x = vecGet successors x := by
              intro x hx
              obtain ⟨_, _, _, _, _, _, _, _, _, _, _, _, _, _, _, hrest, _⟩ := hex
              refine hrest x ?_ ?_ ?_
              · intro e
                rw [e, hif] at hx
                cases hx
              · intro e
                rw [e, hjf] at hx
                cases hx
              · intro e
                rw [e, hkf] at hx
                cases hx
            obtain ⟨rest'', L'', f1, f2, f3, f4, f5, f6⟩ :=
              ih (a + 1) i' succs (savedLength + saved) true rest' (L - saved) succs' saved'
                any' g1 (by rw [g2]; exact hn) g4 g3 (by push_cast; exact h)
            exact ⟨rest'', L'', f1, by rw [f2, g2], f3, f4.trans g6, f5.trans g7,
              fun x hx => (f6 x hx).trans (hsame x hx)⟩
          | none =>
            simp only [bind_eq_ok] at h
            obtain ⟨i', hi', h⟩ := h
            exact hnext i' hi' h
    · exact hstop _ _ _ _ _ _ _ _ hc hL (Except.ok.inj h)
theorem edgeCost_readable (s : Solver) (nodes : List Int)
    (hnodes : ∀ v ∈ nodes, 0 ≤ v ∧ v < s.m_distanceFromTo.width ∧
      v < s.m_distanceFromTo.height) :
    ∀ c : List Int, (∀ x ∈ c, 0 ≤ x ∧ x < (nodes.length : Int)) →
      List.Chain' (fun a b => ∃ v, s.edgeCost nodes a b = .ok v) c := by
  intro c
  induction c with
  | nil => intro _; exact List.chain'_nil
  | cons x rest ih =>
    intro h
    cases rest with
    | nil => exact List.chain'_singleton _
    | cons y rest =>
      rw [List.chain'_cons]
      refine ⟨?_, ih fun z hz => h z (List.mem_cons_of_mem _ hz)⟩
      obtain ⟨hx0, hx1⟩ := h x (List.mem_cons_self _ _)
      obtain ⟨hy0, hy1⟩ := h y (List.mem_cons_of_mem _ (List.mem_cons_self _ _))
      obtain ⟨a, ha, ha'⟩ := vecGet_ok (v := nodes) hx0 hx1
      obtain ⟨b, hb, hb'⟩ := vecGet_ok (v := nodes) hy0 hy1
      obtain ⟨a0, a1, _⟩ := hnodes a (List.get?_mem ha')
      obtain ⟨b0, _, b2⟩ := hnodes b (List.get?_mem hb')
      exact ⟨_, edgeCost_ok s nodes x y a b _ ha hb (Array2.read_ok ⟨a0, a1, b0, b2⟩)⟩

theorem iota_chain (n : Nat) :
    IsChain ((List.range n).map fun (i : Nat) => (i : Int) + 1)
      ((List.range n).map fun (i : Nat) => (i : Int)) := by
  constructor
  · exact (List.nodup_range n).map (fun a b h => by exact_mod_cast h)
  · rw [List.chain'_map]
    cases n with
    | zero => exact List.chain'_nil
    | succ n =>
      rw [List.chain'_range_succ]
      intro m hm
      unfold vecGet
      rw [if_pos (Int.natCast_nonneg _), Int.toNat_ofNat, List.get?_eq_getElem?,
        List.getElem?_map, List.getElem?_range (by omega)]
      show Except.ok ((m : Int) + 1) = Except.ok (((m + 1 : Nat)) : Int)
      push_cast
      rfl

/-- C38: let `nodes` be a list of `n ≥ 1` node ids and `flags` the flags of its edges.
Every successor vector that `opt3(solution)` holds (the vector `1, 2, …, n` of `std::iota`,
and what any number of calls of `opt3(nodes, successors, flags, window)` leave of it) is a
chain over the indices: following it from index 0 gives a list of `n` indices in which each
of `0 .. n-1` occurs once, the last is `n - 1`, each index is followed by its successor, and
every index whose edge is flagged important still has the successor `index + 1`. -/
theorem opt3_successors_chain (s : Solver) (nodes : List Int) (flags : List Bool)
    (succs : List Int) (hpos : 0 < nodes.length) (hflags : flags.length ≤ nodes.length)
    (hnodes : ∀ v ∈ nodes, 0 ≤ v ∧ v < s.m_distanceFromTo.width ∧
      v < s.m_distanceFromTo.height)
    (h : s.Opt3Reached nodes flags succs) :
    ∃ rest : List Int, IsChain succs (0 :: rest) ∧ rest.length + 1 = nodes.length ∧
      (0 :: rest).Perm ((List.range nodes.length).map fun (i : Nat) => (i : Int)) ∧
      (0 :: rest).getLast? = some ((nodes.length : Int) - 1) ∧
      ∀ x : Int, vecGet flags x = .ok true → vecGet succs x = .ok (x + 1) := by
  induction h with
  | iota =>
    obtain ⟨n, hn⟩ : ∃ n, nodes.length = n + 1 := ⟨nodes.length - 1, by omega⟩
    have hc := iota_chain nodes.length
    have hsplit : ((List.range nodes.length).map fun (i : Nat) => (i : Int)) =
        0 :: ((List.range n).map fun (i : Nat) => ((i + 1 : Nat) : Int)) := by
      rw [hn, List.range_succ_eq_map, List.map_cons, List.map_map]
      rfl
    refine ⟨(List.range n).map fun (i : Nat) => ((i + 1 : Nat) : Int), ?_, ?_, ?_, ?_, ?_⟩
    · rw [← hsplit]
      exact hc
    · rw [List.length_map, List.length_range, hn]
    · rw [← hsplit]
    · rw [← hsplit, hn, List.range_succ, List.map_append, List.map_singleton,
        List.getLast?_append_of_ne_nil _ (by simp)]
      show some ((n : Nat) : Int) = some ((((n + 1 : Nat)) : Int) - 1)
      push_cast
      congr 1
      ring
    · intro x hx
      obtain ⟨h0, h1, _⟩ := vecGet_eq_ok hx
      unfold vecGet
      have hlt : x.toNat < nodes.length := by omega
      rw [if_pos h0, List.get?_eq_getElem?, List.getElem?_map, List.getElem?_range hlt]
      show Except.ok (((x.toNat : Nat) : Int) + 1) = Except.ok (x + 1)
      rw [Int.toNat_of_nonneg h0]
  | @pass successors succs window improved _ hp ih =>
    obtain ⟨rest, hc, hlen, hperm, hlast, hflag⟩ := ih
    have hrange : ∀ x ∈ (0 :: rest), 0 ≤ x ∧ x < (nodes.length : Int) := by
      intro x hx
      have := hperm.mem_iff.1 hx
      rw [List.mem_map] at this
      obtain ⟨m, hm, e⟩ := this
      rw [List.mem_range] at hm
      subst e
      exact ⟨Int.natCast_nonneg _, by exact_mod_cast hm⟩
    have hL : s.chainLength nodes successors rest.length 0 =
        .ok (linkWeight (s.edgeWeight nodes) (0 :: rest)) :=
      (chainLength_iff s nodes successors rest 0 _ hc.2).2
        ⟨edgeCost_readable s nodes hnodes _ hrange, rfl⟩
    unfold Solver.opt3Pass at hp
    simp only [bind_eq_ok] at hp
    obtain ⟨total, _, ⟨succs', saved', any'⟩, hloop, hp⟩ := hp
    rw [pure_eq_ok] at hp
    have e1 : succs' = succs := congrArg Prod.snd hp
    subst e1
    have hloop' : s.opt3LoopI nodes flags window total.size nodes.length ((0 : Nat) : Int) 0
        (successors, 0, false) = .ok (succs', saved', any') := hloop
    obtain ⟨rest', L', f1, f2, _, f4, f5, f6⟩ :=
      opt3LoopI_order s nodes flags window total.size 0 nodes.length 0 0 successors 0 false
        rest _ succs' saved' any' hc hlen rfl hL hloop'
    exact ⟨rest', f1, by rw [f2]; exact hlen, f4.trans hperm, f5.trans hlast,
      fun x hx => (f6 x hx).trans (hflag x hx)⟩

theorem trapNodes_valid :
    ∀ v ∈ ([8, 4, 2, 0, 3, 6] : List Int), 0 ≤ v ∧
      v < (prepared (trapLevel 5)).m_distanceFromTo.width ∧
      v < (prepared (trapLevel 5)).m_distanceFromTo.height := by
  decide!

theorem opt3_successors_chain_witness :
    0 < ([8, 4, 2, 0, 3, 6] : List Int).length ∧
    (List.replicate 5 false).length ≤ ([8, 4, 2, 0, 3, 6] : List Int).length ∧
    (∀ v ∈ ([8, 4, 2, 0, 3, 6] : List Int), 0 ≤ v ∧
      v < (prepared (trapLevel 5)).m_distanceFromTo.width ∧
      v < (prepared (trapLevel 5)).m_distanceFromTo.height) ∧
    (prepared (trapLevel 5)).Opt3Reached [8, 4, 2, 0, 3, 6] (List.replicate 5 false)
      [3, 2, 5, 4, 1, 6] ∧
    ∃ rest : List Int, IsChain [3, 2, 5, 4, 1, 6] (0 :: rest) ∧
      rest.length + 1 = ([8, 4, 2, 0, 3, 6] : List Int).length ∧
      (0 :: rest).Perm ((List.range ([8, 4, 2, 0, 3, 6] : List Int).length).map
        fun (i : Nat) => (i : Int)) ∧
      (0 :: rest).getLast? = some ((([8, 4, 2, 0, 3, 6] : List Int).length : Int) - 1) ∧
      ∀ x : Int, vecGet (List.replicate 5 false) x = .ok true →
        vecGet [3, 2, 5, 4, 1, 6] x = .ok (x + 1) :=
  ⟨by decide, by decide, trapNodes_valid,
    Solver.Opt3Reached.pass Solver.Opt3Reached.iota opt3Pass_commits.1,
    opt3_successors_chain (prepared (trapLevel 5)) [8, 4, 2, 0, 3, 6] (List.replicate 5 false)
      [3, 2, 5, 4, 1, 6] (by decide) (by decide) trapNodes_valid
      (Solver.Opt3Reached.pass Solver.Opt3Reached.iota opt3Pass_commits.1)⟩

theorem distanced_pathsReady {level : Level} {s s' : Solver}
    (hgen : (identified level).generateAllMoves = .ok s)
    (hlen : s.m_allMoves.length ≤ 32767)
    (hd : s.computePairwiseNodeDistances = .ok s') : ∃ c, PathsReady s' c := by
  have hr := generated_ready hgen
  obtain ⟨vis, g⟩ := generated_inv hgen
  obtain ⟨T, c, positions, dist, e, htab, hTw, hTh, hplen, hpos, hdw, hdh, hc, hrows⟩ :=
    computePairwiseNodeDistances_rows hr hlen
  rw [hd] at e
  have e' := Except.ok.inj e
  subst e'
  have hin : ∀ x y, 0 ≤ T.values x y → level.board.InBounds x y ∧
      (⟨x, y⟩ : Coords2).Representable := by
    intro x y hxy
    rcases htab.only x y hxy with ⟨m, hm, he⟩ | he
    · have h1 := hr.endIn m hm
      have h2 : vis.values m.endPos.x m.endPos.y = true := by
        rcases g.ends m hm with q | q
        · exact q
        · cases q
      have h3 := g.repVis m.endPos h2
      rw [he] at h1 h3
      exact ⟨h1, h3⟩
    · have h1 := hr.vehicleIn
      have h3 := vehicleCoords_representable level
      rw [← hr.veh, he] at h1 h3
      exact ⟨h1, h3⟩
  refine ⟨c, ?_⟩
  refine
    { range := htab.range
      inj := htab.inj
      cell := ?_
      moves := ?_
      stops := ?_
      width := hdw
      height := hdh
      small := ⟨htab.count.1, hc⟩
      rows := hrows }
  · intro x y hxy
    obtain ⟨hb, hrep⟩ := hin x y hxy
    obtain ⟨b1, b2, b3, b4⟩ := hb
    refine ⟨⟨b1, by rw [hTw]; exact b2, b3, by rw [hTh]; exact b4⟩,
      ⟨b1, by rw [hr.byPosW]; exact b2, b3, by rw [hr.byPosH]; exact b4⟩, ?_⟩
    have := hpos x y ⟨b1, b2, b3, b4⟩ hxy
    show positions.get? (T.values x y).toNat = _
    rw [this]
    unfold Coords2.ofInts
    rw [wrap16_of_range hrep.1 hrep.2.1, wrap16_of_range hrep.2.2.1 hrep.2.2.2]
  · intro m hm0
    have hm : m ∈ s.m_allMoves := hm0
    refine ⟨?_, htab.ends m hm, ?_, hr.slot m hm⟩
    · show 0 ≤ T.values m.startPos.x m.startPos.y
      rcases hr.starts m hm with ⟨m1, hm1, q⟩ | q
      · rw [← q]
        exact htab.ends m1 hm1
      · rw [← q, ← hr.veh]
        exact htab.veh
    · obtain ⟨i, hi⟩ := List.get?_of_mem hm
      have hlt := (List.get?_eq_some.1 hi).1
      rw [hr.ids i m hi, wrap16_of_range (by omega) (by omega)]
      exact Int.natCast_nonneg _
  · intro x y hxy0 d hdv hid0
    have hxy : 0 ≤ T.values x y := hxy0
    have hid : 0 ≤ ((s.m_movesByPosition.values x y).get d).id := hid0
    refine hr.stops x y ?_ d hdv (by omega)
    rcases htab.only x y hxy with q | q
    · exact Or.inl q
    · right
      rw [← hr.veh]
      exact q
theorem WalkOf.zero_eq {E : Int → Int → Prop} {n : Nat} {a b : Int} (h : WalkOf E n a b)
    (hn : n = 0) : a = b := by
  cases h with
  | zero _ => rfl
  | step _ _ => cases hn

theorem WalkOf.head {E : Int → Int → Prop} {n : Nat} {a c : Int} (h : WalkOf E n a c) :
    ∀ k, n = k + 1 → ∃ b, E a b ∧ WalkOf E k b c := by
  induction h with
  | zero _ => intro k hk; cases hk
  | @step k' a b c w e ih =>
    intro k hk
    have hk' : k' = k := by omega
    subst hk'
    cases k' with
    | zero =>
      have := w.zero_eq rfl
      subst this
      exact ⟨c, e, WalkOf.zero c⟩
    | succ k'' =>
      obtain ⟨b', e', w'⟩ := ih k'' rfl
      exact ⟨b', e', WalkOf.step w' e⟩

theorem WalkOf.cons {E : Int → Int → Prop} {k : Nat} {a b c : Int} (e : E a b)
    (w : WalkOf E k b c) : WalkOf E (k + 1) a c := by
  have h1 : WalkOf E (0 + 1) a b := WalkOf.step (WalkOf.zero a) e
  have := h1.append w
  rw [Nat.add_comm] at this
  exact this

/-- The distances of a node `a ≠ t` with a walk to `t` and of the ends `b` of its edges: the
distance of `b` is at least that of `a` less one, and some edge reaches this. -/
theorem PathsReady.descent {s : Solver} {c : Int} (h : PathsReady s c) {a t : Int}
    (ha : 0 ≤ a ∧ a < c) (ht : 0 ≤ t ∧ t < c)
    (hfin : s.m_distanceFromTo.values a t ≠ infiniteDistance) :
    (∃ k, WalkOf s.MoveEdge k a t) ∧ 0 ≤ s.m_distanceFromTo.values a t ∧
    s.m_distanceFromTo.values a t < c ∧
    (s.m_distanceFromTo.values a t = 0 ↔ a = t) ∧
    (∀ b : Int, 0 ≤ b → b < c → s.MoveEdge a b →
      s.m_distanceFromTo.values b t < s.m_distanceFromTo.values a t →
      s.m_distanceFromTo.values b t = s.m_distanceFromTo.values a t - 1) ∧
    (a ≠ t → ∃ b, s.MoveEdge a b ∧
      s.m_distanceFromTo.values b t < s.m_distanceFromTo.values a t) := by
  have hcn : ((c.toNat : Nat) : Int) = c := Int.toNat_of_nonneg h.small.1
  obtain ⟨r1, r2, r3⟩ := h.rows a ha.1 ha.2
  have hex : ∃ k, WalkOf s.MoveEdge k a t := by
    by_contra hno
    exact hfin (r3 t ht.1 (by rw [hcn]; exact ht.2) hno)
  obtain ⟨k, hk⟩ := hex
  obtain ⟨w, d0, _, dn⟩ := r2 t k hk
  rw [hcn] at dn
  have hedge : ∀ b, s.MoveEdge a b → 0 ≤ b ∧ b < c := by
    rintro b ⟨m, hm, _, e⟩
    have h0 := (h.moves m hm).2.1
    rcases h.range m.endPos.x m.endPos.y with q | q
    · omega
    · rw [← e]
      exact q
  refine ⟨⟨k, hk⟩, d0, dn, ?_, ?_, ?_⟩
  · constructor
    · intro hz
      rw [hz] at w
      exact w.zero_eq rfl
    · intro e
      rw [← e]
      exact r1
  · intro b hb0 hbc hab hlt
    obtain ⟨_, q2, q3⟩ := h.rows b hb0 hbc
    have hbfin : ∃ kb, WalkOf s.MoveEdge kb b t := by
      by_contra hno
      have := q3 t ht.1 (by rw [hcn]; exact ht.2) hno
      rw [this] at hlt
      have : infiniteDistance = 65535 := rfl
      have := h.small.2
      omega
    obtain ⟨kb, hkb⟩ := hbfin
    obtain ⟨wb, b0, _, _⟩ := q2 t kb hkb
    obtain ⟨_, _, le, _⟩ := r2 t _ (WalkOf.cons hab wb)
    push_cast at le
    rw [Int.toNat_of_nonneg b0] at le
    omega
  · intro hne
    have hpos : 0 < s.m_distanceFromTo.values a t := by
      by_contra q
      have hz : s.m_distanceFromTo.values a t = 0 := by omega
      rw [hz] at w
      exact absurd (w.zero_eq rfl) hne
    obtain ⟨b, e, w'⟩ := w.head ((s.m_distanceFromTo.values a t).toNat - 1) (by omega)
    obtain ⟨hb0, hbc⟩ := hedge b e
    obtain ⟨_, q2, _⟩ := h.rows b hb0 hbc
    obtain ⟨_, _, le, _⟩ := q2 t _ w'
    refine ⟨b, e, ?_⟩
    have : (((s.m_distanceFromTo.values a t).toNat - 1 : Nat) : Int) =
        s.m_distanceFromTo.values a t - 1 := by omega
    omega

/-- An unreachable target stays unreachable from the ends of the edges. -/
theorem PathsReady.blocked {s : Solver} {c : Int} (h : PathsReady s c) {a t : Int}
    (ha : 0 ≤ a ∧ a < c) (ht : 0 ≤ t ∧ t < c)
    (hinf : s.m_distanceFromTo.values a t = infiniteDistance) :
    (¬ ∃ k, WalkOf s.MoveEdge k a t) ∧ a ≠ t ∧
    ∀ b : Int, 0 ≤ b → b < c → s.MoveEdge a b →
      s.m_distanceFromTo.values b t = infiniteDistance := by
  have hcn : ((c.toNat : Nat) : Int) = c := Int.toNat_of_nonneg h.small.1
  obtain ⟨r1, r2, r3⟩ := h.rows a ha.1 ha.2
  have hno : ¬ ∃ k, WalkOf s.MoveEdge k a t := by
    rintro ⟨k, hk⟩
    obtain ⟨_, _, _, dn⟩ := r2 t k hk
    rw [hcn, hinf] at dn
    have : infiniteDistance = 65535 := rfl
    have := h.small.2
    omega
  refine ⟨hno, ?_, ?_⟩
  · intro e
    rw [← e, r1] at hinf
    cases hinf
  · intro b hb0 hbc hab
    obtain ⟨_, q2, q3⟩ := h.rows b hb0 hbc
    apply q3 t ht.1 (by rw [hcn]; exact ht.2)
    rintro ⟨kb, hkb⟩
    exact hno ⟨_, WalkOf.cons hab hkb⟩
/-- The search of `pathFromToWithLength` among the slots of the node cell `(x, y)`: it
returns, with the first direction of `ds` whose slot holds a move (id `≥ 0`) that ends at a
node nearer than `distance` to the target, or with nothing when there is none. -/
theorem stepTowards_spec {s : Solver} {c : Int} (h : PathsReady s c) (x y : Int)
    (hxy : 0 ≤ s.m_nodeIdByPosition.values x y) (t : Int) (ht : 0 ≤ t ∧ t < c)
    (distance : Int) :
    ∀ ds : List Direction, (∀ d ∈ ds, d ∈ DirectionHelper.values) →
      ∃ r, s.stepTowards (s.m_movesByPosition.values x y) t distance ds = .ok r ∧
        (r = none → ∀ d ∈ ds, 0 ≤ ((s.m_movesByPosition.values x y).get d).id →
          ¬ s.m_distanceFromTo.values
            (s.m_nodeIdByPosition.values ((s.m_movesByPosition.values x y).get d).endPos.x
              ((s.m_movesByPosition.values x y).get d).endPos.y) t < distance) ∧
        ∀ dir cand, r = some (dir, cand) →
          dir ∈ ds ∧ 0 ≤ ((s.m_movesByPosition.values x y).get dir).id ∧
          cand = s.m_nodeIdByPosition.values
            ((s.m_movesByPosition.values x y).get dir).endPos.x
            ((s.m_movesByPosition.values x y).get dir).endPos.y ∧
          s.m_distanceFromTo.values cand t < distance := by
  intro ds
  induction ds with
  | nil =>
    intro _
    refine ⟨none, rfl, fun _ d hd => (by cases hd), fun dir cand e => (by cases e)⟩
  | cons d rest ih =>
    intro hds
    obtain ⟨r, hr, hnone, hsome⟩ := ih fun d' hd' => hds d' (List.mem_cons_of_mem _ hd')
    unfold Solver.stepTowards
    dsimp only
    by_cases hid : ((s.m_movesByPosition.values x y).get d).id < 0
    · rw [if_pos hid]
      refine ⟨r, hr, ?_, ?_⟩
      · intro e d' hd' h0
        rcases List.mem_cons.1 hd' with q | q
        · subst q
          omega
        · exact hnone e d' q h0
      · intro dir cand e
        obtain ⟨g1, g2⟩ := hsome dir cand e
        exact ⟨List.mem_cons_of_mem _ g1, g2⟩
    · rw [if_neg hid]
      obtain ⟨hm, _⟩ := h.stops x y hxy d (hds d (List.mem_cons_self _ _)) (by omega)
      obtain ⟨_, he0, _, _⟩ := h.moves _ hm
      obtain ⟨hTb, _, _⟩ := h.cell _ _ he0
      have hcand : 0 ≤ s.m_nodeIdByPosition.values
          ((s.m_movesByPosition.values x y).get d).endPos.x
          ((s.m_movesByPosition.values x y).get d).endPos.y ∧
          s.m_nodeIdByPosition.values ((s.m_movesByPosition.values x y).get d).endPos.x
            ((s.m_movesByPosition.values x y).get d).endPos.y < c := by
        rcases h.range ((s.m_movesByPosition.values x y).get d).endPos.x
          ((s.m_movesByPosition.values x y).get d).endPos.y with q | q
        · omega
        · exact q
      rw [Array2.at_ok hTb, ok_bind,
        Array2.read_ok ⟨hcand.1, by rw [h.width]; exact hcand.2, ht.1,
          by rw [h.height]; exact ht.2⟩, ok_bind]
      by_cases hlt : s.m_distanceFromTo.values
          (s.m_nodeIdByPosition.values ((s.m_movesByPosition.values x y).get d).endPos.x
            ((s.m_movesByPosition.values x y).get d).endPos.y) t < distance
      · rw [if_pos hlt]
        refine ⟨some (d, _), rfl, fun e => (by cases e), ?_⟩
        intro dir cand e
        cases e
        exact ⟨List.mem_cons_self _ _, by omega, rfl, hlt⟩
      · rw [if_neg hlt]
        refine ⟨r, hr, ?_, ?_⟩
        · intro e d' hd' h0
          rcases List.mem_cons.1 hd' with q | q
          · subst q
            exact hlt
          · exact hnone e d' q h0
        · intro dir cand e
          obtain ⟨g1, g2⟩ := hsome dir cand e
          exact ⟨List.mem_cons_of_mem _ g1, g2⟩
theorem PathsReady.node {s : Solver} {c : Int} (h : PathsReady s c) {v : Coords2}
    (hv : s.IsNode v) :
    0 ≤ s.m_nodeIdByPosition.values v.x v.y ∧ s.m_nodeIdByPosition.values v.x v.y < c := by
  rcases h.range v.x v.y with q | q
  · exact absurd q hv
  · exact q

theorem PathsReady.slotEdge {s : Solver} {c : Int} (h : PathsReady s c) {x y : Int}
    (hxy : 0 ≤ s.m_nodeIdByPosition.values x y) {d : Direction}
    (hd : d ∈ DirectionHelper.values)
    (hid : 0 ≤ ((s.m_movesByPosition.values x y).get d).id) :
    (s.m_movesByPosition.values x y).get d ∈ s.m_allMoves ∧
    ((s.m_movesByPosition.values x y).get d).startPos = ⟨x, y⟩ ∧
    s.MoveEdge (s.m_nodeIdByPosition.values x y)
      (s.m_nodeIdByPosition.values ((s.m_movesByPosition.values x y).get d).endPos.x
        ((s.m_movesByPosition.values x y).get d).endPos.y) ∧
    0 ≤ s.m_nodeIdByPosition.values ((s.m_movesByPosition.values x y).get d).endPos.x
        ((s.m_movesByPosition.values x y).get d).endPos.y ∧
    s.m_nodeIdByPosition.values ((s.m_movesByPosition.values x y).get d).endPos.x
        ((s.m_movesByPosition.values x y).get d).endPos.y < c := by
  obtain ⟨hm, hs⟩ := h.stops x y hxy d hd hid
  obtain ⟨_, he0, _, _⟩ := h.moves _ hm
  refine ⟨hm, hs, ⟨_, hm, by rw [hs], rfl⟩, he0, ?_⟩
  rcases h.range ((s.m_movesByPosition.values x y).get d).endPos.x
    ((s.m_movesByPosition.values x y).get d).endPos.y with q | q
  · omega
  · exact q.2

theorem PathsReady.edgeSlot {s : Solver} {c : Int} (h : PathsReady s c) {x y b : Int}
    (he : s.MoveEdge (s.m_nodeIdByPosition.values x y) b) :
    ∃ d ∈ DirectionHelper.values, 0 ≤ ((s.m_movesByPosition.values x y).get d).id ∧
      s.m_nodeIdByPosition.values ((s.m_movesByPosition.values x y).get d).endPos.x
        ((s.m_movesByPosition.values x y).get d).endPos.y = b := by
  obtain ⟨m, hm, hs, hb⟩ := he
  obtain ⟨h0, _, hid, d, hd, hslot⟩ := h.moves m hm
  obtain ⟨e1, e2⟩ := h.inj _ _ _ _ h0 hs
  rw [e1, e2] at hslot
  refine ⟨d, hd, ?_, ?_⟩
  · rw [hslot]
    exact hid
  · rw [hslot]
    exact hb

/-- The loop of `pathFromToWithLength` from a node with a finite distance `dn ≤ length` to
the target: it returns true and appends `dn` directions that lead to the target. -/
theorem pathLoop_reach {s : Solver} {c : Int} (h : PathsReady s c) (g : Coords2)
    (hg : 0 ≤ s.m_nodeIdByPosition.values g.x g.y ∧ s.m_nodeIdByPosition.values g.x g.y < c) :
    ∀ (dn fuel : Nat) (x y L : Int) (path : List Direction),
      0 ≤ s.m_nodeIdByPosition.values x y →
      s.m_distanceFromTo.values (s.m_nodeIdByPosition.values x y)
        (s.m_nodeIdByPosition.values g.x g.y) = dn →
      (dn : Int) < c → dn ≤ fuel → (dn : Int) ≤ L →
      ∃ w, s.pathLoop (s.m_nodeIdByPosition.values g.x g.y) fuel
          (s.m_nodeIdByPosition.values x y) L path = .ok (true, path ++ w) ∧
        w.length = dn ∧ s.WalksTo ⟨x, y⟩ w g := by
  have hsmall := h.small.2
  have hinfv : infiniteDistance = 65535 := rfl
  intro dn
  induction dn with
  | zero =>
    intro fuel x y L path hxy hd _ _ _
    have hxc : s.m_nodeIdByPosition.values x y < c := by
      rcases h.range x y with q | q
      · omega
      · exact q.2
    have hfin : s.m_distanceFromTo.values (s.m_nodeIdByPosition.values x y)
        (s.m_nodeIdByPosition.values g.x g.y) ≠ infiniteDistance := by
      rw [hd]
      decide
    obtain ⟨_, _, _, hz, _, _⟩ := h.descent ⟨hxy, hxc⟩ hg hfin
    have heq := hz.1 (by rw [hd]; rfl)
    obtain ⟨e1, e2⟩ := h.inj _ _ _ _ hxy heq
    refine ⟨[], ?_, rfl, ?_⟩
    · rw [List.append_nil]
      cases fuel with
      | zero =>
        unfold Solver.pathLoop
        rw [if_pos heq]
      | succ fuel =>
        unfold Solver.pathLoop
        rw [if_pos heq]
    · show (⟨x, y⟩ : Coords2) = g
      rw [e1, e2]
  | succ dn ih =>
    intro fuel x y L path hxy hd hdc hfuel hL
    have hxc : s.m_nodeIdByPosition.values x y < c := by
      rcases h.range x y with q | q
      · omega
      · exact q.2
    have hfin : s.m_distanceFromTo.values (s.m_nodeIdByPosition.values x y)
        (s.m_nodeIdByPosition.values g.x g.y) ≠ infiniteDistance := by
      rw [hd, hinfv]
      omega
    obtain ⟨_, _, _, hz, hstep, hex⟩ := h.descent ⟨hxy, hxc⟩ hg hfin
    have hne : s.m_nodeIdByPosition.values x y ≠ s.m_nodeIdByPosition.values g.x g.y := by
      intro e
      have := hz.2 e
      rw [hd] at this
      have : ((dn + 1 : Nat) : Int) = 0 := this
      omega
    obtain ⟨fuel', rfl⟩ : ∃ f, fuel = f + 1 := ⟨fuel - 1, by omega⟩
    obtain ⟨hTb, hBb, hposn⟩ := h.cell x y hxy
    obtain ⟨r, hr, hnone, hsome⟩ := stepTowards_spec h x y hxy
      (s.m_nodeIdByPosition.values g.x g.y) hg ((dn + 1 : Nat) : Int) DirectionHelper.values
      (fun d hd => hd)
    obtain ⟨b, hb, hblt⟩ := hex hne
    obtain ⟨d0, hd0, hid0, hend0⟩ := h.edgeSlot hb
    cases r with
    | none =>
      exfalso
      refine hnone rfl d0 hd0 hid0 ?_
      rw [hend0, ← hd]
      exact hblt
    | some p =>
      obtain ⟨dir, cand⟩ := p
      obtain ⟨hdir, hid, hcand, hclt⟩ := hsome dir cand rfl
      obtain ⟨hm, hs, hedge, hc0, hcc⟩ := h.slotEdge hxy hdir hid
      rw [← hcand] at hedge hc0 hcc
      have hcd : s.m_distanceFromTo.values cand (s.m_nodeIdByPosition.values g.x g.y) =
          (dn : Int) := by
        have := hstep cand hc0 hcc hedge (by rw [hd]; exact hclt)
        rw [this, hd]
        push_cast
        ring
      have hncand : s.m_nodeIdByPosition.values x y ≠ cand := by
        intro e
        rw [← e, hd] at hcd
        have : ((dn + 1 : Nat) : Int) = (dn : Int) := hcd
        omega
      obtain ⟨w, hw, hwl, hww⟩ := ih fuel'
        ((s.m_movesByPosition.values x y).get dir).endPos.x
        ((s.m_movesByPosition.values x y).get dir).endPos.y (L - 1) (path ++ [dir])
        (by rw [← hcand]; exact hc0) (by rw [← hcand]; exact hcd) (by omega) (by omega)
        (by omega)
      rw [← hcand] at hw
      refine ⟨dir :: w, ?_, by rw [List.length_cons, hwl], ⟨hm, hs, hww⟩⟩
      unfold Solver.pathLoop
      rw [if_neg hne, if_neg (by omega),
        Array2.read_ok ⟨hxy, by rw [h.width]; exact hxc, hg.1, by rw [h.height]; exact hg.2⟩,
        ok_bind]
      have hvp : vecGet s.m_nodePositionById (s.m_nodeIdByPosition.values x y) =
          .ok (⟨x, y⟩ : Coords2) := by
        unfold vecGet
        rw [if_pos hxy, hposn]
      rw [hvp, ok_bind, Array2.at_ok hBb, ok_bind, hd, hr, ok_bind]
      show (if s.m_nodeIdByPosition.values x y = cand then _ else _) = _
      rw [if_neg hncand, hw, List.append_assoc]
      rfl
/-- The loop of `pathFromToWithLength` from a node that has no walk to the target, with a
positive budget: it returns false and appends nothing. -/
theorem pathLoop_blocked {s : Solver} {c : Int} (h : PathsReady s c) (g : Coords2)
    (hg : 0 ≤ s.m_nodeIdByPosition.values g.x g.y ∧ s.m_nodeIdByPosition.values g.x g.y < c)
    (fuel : Nat) (x y L : Int) (path : List Direction)
    (hxy : 0 ≤ s.m_nodeIdByPosition.values x y)
    (hinf : s.m_distanceFromTo.values (s.m_nodeIdByPosition.values x y)
      (s.m_nodeIdByPosition.values g.x g.y) = infiniteDistance)
    (hL : 0 < L) :
    s.pathLoop (s.m_nodeIdByPosition.values g.x g.y) (fuel + 1)
      (s.m_nodeIdByPosition.values x y) L path = .ok (false, path) := by
  have hxc : s.m_nodeIdByPosition.values x y < c := by
    rcases h.range x y with q | q
    · omega
    · exact q.2
  obtain ⟨_, hne, hall⟩ := h.blocked ⟨hxy, hxc⟩ hg hinf
  obtain ⟨hTb, hBb, hposn⟩ := h.cell x y hxy
  obtain ⟨r, hr, hnone, hsome⟩ := stepTowards_spec h x y hxy
    (s.m_nodeIdByPosition.values g.x g.y) hg infiniteDistance DirectionHelper.values
    (fun d hd => hd)
  have hrn : r = none := by
    cases r with
    | none => rfl
    | some p =>
      exfalso
      obtain ⟨dir, cand⟩ := p
      obtain ⟨hdir, hid, hcand, hclt⟩ := hsome dir cand rfl
      obtain ⟨_, _, hedge, hc0, hcc⟩ := h.slotEdge hxy hdir hid
      rw [← hcand] at hedge hc0 hcc
      rw [hall cand hc0 hcc hedge] at hclt
      exact absurd hclt (lt_irrefl _)
  subst hrn
  unfold Solver.pathLoop
  rw [if_neg hne, if_neg (by omega),
    Array2.read_ok ⟨hxy, by rw [h.width]; exact hxc, hg.1, by rw [h.height]; exact hg.2⟩,
    ok_bind]
  have hvp : vecGet s.m_nodePositionById (s.m_nodeIdByPosition.values x y) =
      .ok (⟨x, y⟩ : Coords2) := by
    unfold vecGet
    rw [if_pos hxy, hposn]
  rw [hvp, ok_bind, Array2.at_ok hBb, ok_bind, hinf, hr, ok_bind]
  rfl

/-- The contract of `pathFromToWithLength` on the tables that
`computePairwiseNodeDistances` leaves. -/
theorem PathsReady.path_spec {s : Solver} {c : Int} (h : PathsReady s c)
    (f g : Coords2) (hf : s.IsNode f) (hg : s.IsNode g) (L : Int) (path : List Direction) :
    ∃ b path', s.pathFromToWithLength f g L path = .ok (b, path') ∧
      (b = true ↔
        s.m_distanceFromTo.values (s.m_nodeIdByPosition.values f.x f.y)
          (s.m_nodeIdByPosition.values g.x g.y) ≠ infiniteDistance ∧
        s.m_distanceFromTo.values (s.m_nodeIdByPosition.values f.x f.y)
          (s.m_nodeIdByPosition.values g.x g.y) ≤ L) ∧
      (b = true → ∃ w, path' = path ++ w ∧
        (w.length : Int) = s.m_distanceFromTo.values (s.m_nodeIdByPosition.values f.x f.y)
          (s.m_nodeIdByPosition.values g.x g.y) ∧ s.WalksTo f w g) ∧
      (b = false → path' = path) := by
  have hf' := h.node hf
  have hg' := h.node hg
  have hinfv : infiniteDistance = 65535 := rfl
  have hsmall := h.small.2
  obtain ⟨hTf, _, _⟩ := h.cell f.x f.y hf'.1
  obtain ⟨hTg, _, _⟩ := h.cell g.x g.y hg'.1
  have hread : s.m_distanceFromTo.read (s.m_nodeIdByPosition.values f.x f.y)
      (s.m_nodeIdByPosition.values g.x g.y) = .ok (s.m_distanceFromTo.values
        (s.m_nodeIdByPosition.values f.x f.y) (s.m_nodeIdByPosition.values g.x g.y)) :=
    Array2.read_ok ⟨hf'.1, by rw [h.width]; exact hf'.2, hg'.1, by rw [h.height]; exact hg'.2⟩
  have hunf : s.pathFromToWithLength f g L path =
      if s.m_distanceFromTo.values (s.m_nodeIdByPosition.values f.x f.y)
          (s.m_nodeIdByPosition.values g.x g.y) > L then .ok (false, path)
      else s.pathLoop (s.m_nodeIdByPosition.values g.x g.y) (L.toNat + 1)
        (s.m_nodeIdByPosition.values f.x f.y) L path := by
    unfold Solver.pathFromToWithLength
    rw [Array2.at_ok hTf, ok_bind, Array2.at_ok hTg, ok_bind, hread, ok_bind]
    rfl
  rw [hunf]
  by_cases hgt : s.m_distanceFromTo.values (s.m_nodeIdByPosition.values f.x f.y)
      (s.m_nodeIdByPosition.values g.x g.y) > L
  · rw [if_pos hgt]
    refine ⟨false, path, rfl, ?_, fun e => (by cases e), fun _ => rfl⟩
    constructor
    · intro e
      cases e
    · intro e
      omega
  · rw [if_neg hgt]
    by_cases hinf : s.m_distanceFromTo.values (s.m_nodeIdByPosition.values f.x f.y)
        (s.m_nodeIdByPosition.values g.x g.y) = infiniteDistance
    · have hL : 0 < L := by
        rw [hinf, hinfv] at hgt
        omega
      rw [pathLoop_blocked h g hg' L.toNat f.x f.y L path hf'.1 hinf hL]
      refine ⟨false, path, rfl, ?_, fun e => (by cases e), fun _ => rfl⟩
      constructor
      · intro e
        cases e
      · intro e
        exact absurd hinf e.1
    · obtain ⟨_, d0, dc, _⟩ := h.descent hf' hg' hinf
      obtain ⟨w, hw, hwl, hww⟩ := pathLoop_reach h g hg'
        (s.m_distanceFromTo.values (s.m_nodeIdByPosition.values f.x f.y)
          (s.m_nodeIdByPosition.values g.x g.y)).toNat (L.toNat + 1) f.x f.y L path hf'.1
        (by rw [Int.toNat_of_nonneg d0]) (by rw [Int.toNat_of_nonneg d0]; exact dc)
        (by omega) (by rw [Int.toNat_of_nonneg d0]; omega)
      rw [hw]
      refine ⟨true, path ++ w, rfl, ?_, ?_, fun e => (by cases e)⟩
      · constructor
        · intro _
          exact ⟨hinf, by omega⟩
        · intro _
          rfl
      · intro _
        refine ⟨w, rfl, ?_, hww⟩
        rw [hwl, Int.toNat_of_nonneg d0]
/-- C33: when `generateAllMoves` has returned at most 32767 moves and
`computePairwiseNodeDistances` has filled `dist` (the BFS metric of the move graph, C13),
then for all node cells `from`, `to`, every budget `L` and every vector `path`:
`pathFromToWithLength(from, to, L, path)` returns; it returns true if and only if
`dist[from][to]` is not `infiniteDistance` and is at most `L`; when it returns true it has
appended to `path` exactly `dist[from][to]` directions, which lead from `from` to `to` along
live moves, and when it returns false `path` is unchanged.  `shortestPathFromTo` returns
true if and only if a walk of live moves leads from `from` to `to`, it appends such a walk
of `dist[from][to]` directions then, and it appends nothing when `from = to`. -/
theorem pathFromToWithLength_spec (level : Level) (s s' : Solver)
    (hgen : (identified level).generateAllMoves = .ok s)
    (hlen : s.m_allMoves.length ≤ 32767)
    (hd : s.computePairwiseNodeDistances = .ok s')
    (f g : Coords2) (hf : s'.IsNode f) (hg : s'.IsNode g) (path : List Direction) :
    (∀ L : Int, ∃ b path', s'.pathFromToWithLength f g L path = .ok (b, path') ∧
      (b = true ↔
        s'.m_distanceFromTo.values (s'.m_nodeIdByPosition.values f.x f.y)
          (s'.m_nodeIdByPosition.values g.x g.y) ≠ infiniteDistance ∧
        s'.m_distanceFromTo.values (s'.m_nodeIdByPosition.values f.x f.y)
          (s'.m_nodeIdByPosition.values g.x g.y) ≤ L) ∧
      (b = true → ∃ w, path' = path ++ w ∧
        (w.length : Int) = s'.m_distanceFromTo.values (s'.m_nodeIdByPosition.values f.x f.y)
          (s'.m_nodeIdByPosition.values g.x g.y) ∧ s'.WalksTo f w g) ∧
      (b = false → path' = path)) ∧
    ∃ b path', s'.shortestPathFromTo f g path = .ok (b, path') ∧
      (b = true ↔ ∃ k : Nat, WalkOf s'.MoveEdge k (s'.m_nodeIdByPosition.values f.x f.y)
        (s'.m_nodeIdByPosition.values g.x g.y)) ∧
      (b = true → ∃ w, path' = path ++ w ∧
        (w.length : Int) = s'.m_distanceFromTo.values (s'.m_nodeIdByPosition.values f.x f.y)
          (s'.m_nodeIdByPosition.values g.x g.y) ∧ s'.WalksTo f w g) ∧
      (b = false → path' = path) ∧ (f = g → path' = path) := by
  obtain ⟨c, h⟩ := distanced_pathsReady hgen hlen hd
  refine ⟨fun L => h.path_spec f g hf hg L path, ?_⟩
  have hf' := h.node hf
  have hg' := h.node hg
  obtain ⟨hTf, _, _⟩ := h.cell f.x f.y hf'.1
  obtain ⟨hTg, _, _⟩ := h.cell g.x g.y hg'.1
  obtain ⟨b, path', e, hb, hw, hfalse⟩ := h.path_spec f g hf hg
    (s'.m_distanceFromTo.values (s'.m_nodeIdByPosition.values f.x f.y)
      (s'.m_nodeIdByPosition.values g.x g.y)) path
  refine ⟨b, path', ?_, ?_, hw, hfalse, ?_⟩
  · unfold Solver.shortestPathFromTo
    rw [Array2.at_ok hTf, ok_bind, Array2.at_ok hTg, ok_bind,
      Array2.read_ok ⟨hf'.1, by rw [h.width]; exact hf'.2, hg'.1,
        by rw [h.height]; exact hg'.2⟩, ok_bind]
    exact e
  · rw [hb]
    constructor
    · intro q
      exact (h.descent hf' hg' q.1).1
    · intro q
      refine ⟨?_, le_refl _⟩
      intro hinf
      exact (h.blocked hf' hg' hinf).1 q
  · intro hfg
    subst hfg
    cases b with
    | false => exact hfalse rfl
    | true =>
      obtain ⟨w, e1, e2, _⟩ := hw rfl
      have hz : s'.m_distanceFromTo.values (s'.m_nodeIdByPosition.values f.x f.y)
          (s'.m_nodeIdByPosition.values f.x f.y) = 0 := (h.rows _ hf'.1 hf'.2).1
      rw [hz] at e2
      have : w = [] := List.length_eq_zero.1 (by exact_mod_cast e2)
      rw [e1, this, List.append_nil]

theorem holeStop_nodes :
    (distanced (holeStopLevel 2)).IsNode ⟨1, 1⟩ ∧
      (distanced (holeStopLevel 2)).IsNode ⟨4, 1⟩ := by
  unfold Solver.IsNode
  decide!

theorem pathFromToWithLength_spec_witness :
    (identified (holeStopLevel 2)).generateAllMoves = .ok (generated (holeStopLevel 2)) ∧
    (generated (holeStopLevel 2)).m_allMoves.length ≤ 32767 ∧
    (generated (holeStopLevel 2)).computePairwiseNodeDistances =
      .ok (distanced (holeStopLevel 2)) ∧
    (distanced (holeStopLevel 2)).IsNode ⟨1, 1⟩ ∧
    (distanced (holeStopLevel 2)).IsNode ⟨4, 1⟩ ∧
    (∀ L : Int, ∃ b path',
      (distanced (holeStopLevel 2)).pathFromToWithLength ⟨1, 1⟩ ⟨4, 1⟩ L [] =
        .ok (b, path') ∧
      (b = true ↔
        (distanced (holeStopLevel 2)).m_distanceFromTo.values
          ((distanced (holeStopLevel 2)).m_nodeIdByPosition.values (⟨1, 1⟩ : Coords2).x
            (⟨1, 1⟩ : Coords2).y)
          ((distanced (holeStopLevel 2)).m_nodeIdByPosition.values (⟨4, 1⟩ : Coords2).x
            (⟨4, 1⟩ : Coords2).y) ≠ infiniteDistance ∧
        (distanced (holeStopLevel 2)).m_distanceFromTo.values
          ((distanced (holeStopLevel 2)).m_nodeIdByPosition.values (⟨1, 1⟩ : Coords2).x
            (⟨1, 1⟩ : Coords2).y)
          ((distanced (holeStopLevel 2)).m_nodeIdByPosition.values (⟨4, 1⟩ : Coords2).x
            (⟨4, 1⟩ : Coords2).y) ≤ L) ∧
      (b = true → ∃ w, path' = [] ++ w ∧
        (w.length : Int) = (distanced (holeStopLevel 2)).m_distanceFromTo.values
          ((distanced (holeStopLevel 2)).m_nodeIdByPosition.values (⟨1, 1⟩ : Coords2).x
            (⟨1, 1⟩ : Coords2).y)
          ((distanced (holeStopLevel 2)).m_nodeIdByPosition.values (⟨4, 1⟩ : Coords2).x
            (⟨4, 1⟩ : Coords2).y) ∧
        (distanced (holeStopLevel 2)).WalksTo ⟨1, 1⟩ w ⟨4, 1⟩) ∧
      (b = false → path' = [])) ∧
    ∃ b path', (distanced (holeStopLevel 2)).shortestPathFromTo ⟨1, 1⟩ ⟨4, 1⟩ [] =
        .ok (b, path') ∧
      (b = true ↔ ∃ k : Nat, WalkOf (distanced (holeStopLevel 2)).MoveEdge k
        ((distanced (holeStopLevel 2)).m_nodeIdByPosition.values (⟨1, 1⟩ : Coords2).x
          (⟨1, 1⟩ : Coords2).y)
        ((distanced (holeStopLevel 2)).m_nodeIdByPosition.values (⟨4, 1⟩ : Coords2).x
          (⟨4, 1⟩ : Coords2).y)) ∧
      (b = true → ∃ w, path' = [] ++ w ∧
        (w.length : Int) = (distanced (holeStopLevel 2)).m_distanceFromTo.values
          ((distanced (holeStopLevel 2)).m_nodeIdByPosition.values (⟨1, 1⟩ : Coords2).x
            (⟨1, 1⟩ : Coords2).y)
          ((distanced (holeStopLevel 2)).m_nodeIdByPosition.values (⟨4, 1⟩ : Coords2).x
            (⟨4, 1⟩ : Coords2).y) ∧
        (distanced (holeStopLevel 2)).WalksTo ⟨1, 1⟩ w ⟨4, 1⟩) ∧
      (b = false → path' = []) ∧ ((⟨1, 1⟩ : Coords2) = ⟨4, 1⟩ → path' = []) :=
  ⟨generated_of_isGenerated (by decide!), by decide!, distanced_of_isDistanced (by decide!),
    holeStop_nodes.1, holeStop_nodes.2,
    pathFromToWithLength_spec (holeStopLevel 2) (generated (holeStopLevel 2))
      (distanced (holeStopLevel 2)) (generated_of_isGenerated (by decide!)) (by decide!)
      (distanced_of_isDistanced (by decide!)) ⟨1, 1⟩ ⟨4, 1⟩ holeStop_nodes.1
      holeStop_nodes.2 []⟩

theorem sum_map_range_change (f g : Nat → Int) (j0 : Nat) :
    ∀ m : Nat, j0 < m → (∀ j, j < m → j ≠ j0 → f j = g j) →
      ((List.range m).map f).sum = ((List.range m).map g).sum + (f j0 - g j0) := by
  intro m
  induction m with
  | zero => intro h; omega
  | succ m ih =>
    intro hj hsame
    rw [List.range_succ, List.map_append, List.map_append, List.sum_append, List.sum_append]
    simp only [List.map_singleton, List.sum_singleton]
    by_cases hm : j0 = m
    · subst hm
      have : ((List.range j0).map f) = ((List.range j0).map g) := by
        apply List.map_congr_left
        intro j hjm
        rw [List.mem_range] at hjm
        exact hsame j (by omega) (by omega)
      rw [this]
      ring
    · rw [ih (by omega) (fun j h1 h2 => hsame j (by omega) h2), hsame m (by omega) (Ne.symm hm)]
      ring

/-- The sum of the potentials of the jewels that are not collected, after the count of the
jewel `j0` has been set to `v`. -/
theorem potentialSum_set (P : Array2 Int) (counts : List Int) (e : Int) (j0 : Nat) (v : Int)
    (h : j0 < counts.length) :
    potentialSum P (counts.set j0 v) e =
      potentialSum P counts e +
        ((if v ≤ 0 then P.values j0 e else 0) -
          (if counts.getD j0 0 ≤ 0 then P.values j0 e else 0)) := by
  unfold potentialSum
  rw [List.length_set]
  rw [sum_map_range_change _ (fun (j : Nat) => if counts.getD j 0 ≤ 0 then P.values j e else 0)
    j0 counts.length h (by
      intro j _ hne
      show (if (counts.set j0 v).getD j 0 ≤ 0 then _ else _) = _
      rw [getD_set_ne _ _ _ _ (Ne.symm hne)])]
  show _ + ((if (counts.set j0 v).getD j0 0 ≤ 0 then _ else _) - _) = _
  rw [getD_set_eq _ _ _ h]

theorem Tally.add_summed (P : Array2 Int) (n : Nat) (x : Tally) (j : Int)
    (hs : x.Summed P n) (hr : ∀ c ∈ x.counts, wrap16 c = c)
    (hcap : ∀ c ∈ x.counts, c < 32767) : (x.add P n j).Summed P n := by
  by_cases h : 0 ≤ j ∧ j < x.counts.length
  · obtain ⟨e1, _, e3⟩ := Tally.add_fields P n x j h
    have hlt : j.toNat < x.counts.length := by omega
    have hmem := getD_mem x.counts j.toNat hlt
    have hc1 := hcap _ hmem
    have hc2 := wrap16_range (x.counts.getD j.toNat 0)
    rw [hr _ hmem] at hc2
    have hw : wrap16 (x.counts.getD j.toNat 0 + 1) = x.counts.getD j.toNat 0 + 1 :=
      wrap16_of_range (by omega) (by omega)
    have hj : ((j.toNat : Nat) : Int) = j := Int.toNat_of_nonneg h.1
    intro e he
    rw [e1, e3, hw, potentialSum_set P x.counts e j.toNat _ hlt, hj]
    by_cases hone : x.counts.getD j.toNat 0 + 1 = 1
    · have hz : x.counts.getD j.toNat 0 = 0 := by omega
      rw [if_pos hone, List.get?_eq_getElem?, shiftTotal_getElem?, ← List.get?_eq_getElem?,
        hs e he, hz]
      simp only [Option.map_some', if_pos he]
      rw [if_neg (by omega), if_pos (le_refl _)]
      congr 1
      unfold wrapU32
      omega
    · rw [if_neg hone, hs e he]
      congr 2
      by_cases hle : x.counts.getD j.toNat 0 ≤ 0
      · rw [if_pos hle, if_pos (by omega)]
        ring
      · rw [if_neg hle, if_neg (by omega)]
        ring
  · unfold Tally.add
    rw [if_neg h]
    exact hs

theorem Tally.remove_summed (P : Array2 Int) (n : Nat) (x : Tally) (j : Int)
    (hs : x.Summed P n) (hr : ∀ c ∈ x.counts, wrap16 c = c)
    (hcap : ∀ c ∈ x.counts, -32768 < c) : (x.remove P n j).Summed P n := by
  by_cases h : 0 ≤ j ∧ j < x.counts.length
  · obtain ⟨e1, _, e3⟩ := Tally.remove_fields P n x j h
    have hlt : j.toNat < x.counts.length := by omega
    have hmem := getD_mem x.counts j.toNat hlt
    have hc1 := hcap _ hmem
    have hc2 := wrap16_range (x.counts.getD j.toNat 0)
    rw [hr _ hmem] at hc2
    have hw : wrap16 (x.counts.getD j.toNat 0 - 1) = x.counts.getD j.toNat 0 - 1 :=
      wrap16_of_range (by omega) (by omega)
    have hj : ((j.toNat : Nat) : Int) = j := Int.toNat_of_nonneg h.1
    intro e he
    rw [e1, e3, hw, potentialSum_set P x.counts e j.toNat _ hlt, hj]
    by_cases hone : x.counts.getD j.toNat 0 - 1 = 0
    · have hz : x.counts.getD j.toNat 0 = 1 := by omega
      rw [if_pos hone, List.get?_eq_getElem?, shiftTotal_getElem?, ← List.get?_eq_getElem?,
        hs e he, hz]
      simp only [Option.map_some', if_pos he]
      rw [if_pos (by omega), if_neg (by omega)]
      congr 1
      unfold wrapU32
      omega
    · rw [if_neg hone, hs e he]
      congr 2
      by_cases hle : x.counts.getD j.toNat 0 ≤ 0
      · rw [if_pos hle, if_pos (by omega)]
        ring
      · rw [if_neg hle, if_neg (by omega)]
        ring
  · unfold Tally.remove
    rw [if_neg h]
    exact hs

theorem Tally.add_counts_le (P : Array2 Int) (n : Nat) (x : Tally) (j : Int) (K : Int)
    (hr : ∀ c ∈ x.counts, wrap16 c = c) (hcap : ∀ c ∈ x.counts, c ≤ K) (hK : K < 32767) :
    ∀ c ∈ (x.add P n j).counts, c ≤ K + 1 := by
  by_cases h : 0 ≤ j ∧ j < x.counts.length
  · obtain ⟨e1, _, _⟩ := Tally.add_fields P n x j h
    have hlt : j.toNat < x.counts.length := by omega
    have hmem := getD_mem x.counts j.toNat hlt
    have hc1 := hcap _ hmem
    have hc2 := wrap16_range (x.counts.getD j.toNat 0)
    rw [hr _ hmem] at hc2
    intro c hc
    rw [e1] at hc
    rcases List.mem_or_eq_of_mem_set hc with q | q
    · have := hcap c q
      omega
    · rw [q, wrap16_of_range (by omega) (by omega)]
      omega
  · unfold Tally.add
    rw [if_neg h]
    intro c hc
    have := hcap c hc
    omega

/-- The jewel loop of one or more moves keeps the sums, as long as no count reaches the end
of the range of `MoveId`: the counts are at most `K` before and at most `K + |js|` after. -/
theorem Tally.foldl_add_summed (P : Array2 Int) (n : Nat) :
    ∀ (js : List Int) (x : Tally) (K : Int), x.Summed P n → x.Ranged →
      (∀ c ∈ x.counts, c ≤ K) → K + js.length ≤ 32767 →
      (js.foldl (Tally.add P n) x).Summed P n ∧
        ∀ c ∈ (js.foldl (Tally.add P n) x).counts, c ≤ K + js.length := by
  intro js
  induction js with
  | nil =>
    intro x K hs _ hcap _
    refine ⟨hs, ?_⟩
    intro c hc
    have := hcap c hc
    simp only [List.length_nil, Nat.cast_zero, add_zero]
    exact this
  | cons j rest ih =>
    intro x K hs hr hcap hK
    rw [List.foldl_cons]
    rw [List.length_cons] at hK ⊢
    push_cast at hK ⊢
    obtain ⟨g1, g2⟩ := ih (x.add P n j) (K + 1)
      (Tally.add_summed P n x j hs hr.1 (fun c hc => by have := hcap c hc; omega))
      (Tally.add_ranged P n x j hr)
      (Tally.add_counts_le P n x j K hr.1 hcap (by omega)) (by omega)
    refine ⟨g1, ?_⟩
    intro c hc
    have := g2 c hc
    omega

theorem Search.isSummed_iff (ss : Search) :
    ss.isSummed = true ↔
      ss.tally.Summed ss.m_potentialOfJewelAtEdge ss.solver.m_allMoves.length := by
  unfold Search.isSummed Tally.Summed
  rw [List.all_eq_true]
  constructor
  · intro h e he
    have := h e (List.mem_range.2 he)
    rw [decide_eq_true_iff] at this
    show (ss.m_totalPotentialAtEdge.map wrapU32).get? e = _
    rw [List.get?_eq_getElem?, List.getElem?_map, ← List.get?_eq_getElem?]
    exact this
  · intro h e he
    rw [List.mem_range] at he
    have := h e he
    rw [decide_eq_true_iff]
    have h2 : (ss.m_totalPotentialAtEdge.map wrapU32).get? e = _ := this
    rw [List.get?_eq_getElem?, List.getElem?_map, ← List.get?_eq_getElem?] at h2
    exact h2

theorem Search.Bounded.frame {J D : Nat} {a b : Search} (hf : a.Frame b)
    (h : a.Bounded J D) : b.Bounded J D := by
  refine ⟨?_, ?_⟩
  · rw [hf.byPosition]
    exact h.jewels
  · intro js f g p p' hp
    have e : ({ b.solver with m_jewelState := js } : Solver) =
        { a.solver with m_jewelState := js } := by
      have := congrArg (fun s : Solver => ({ s with m_jewelState := js } : Solver)) hf.solver
      exact this
    rw [e] at hp
    exact h.paths js f g p p' hp

/-- The state after the jewel loops of the moves whose jewel lists make up `js`, reached
from a good state through `Tally.add`, is good with the counts raised by at most `|js|`. -/
theorem Search.Good.collected {J D : Nat} {K : Int} {a b : Search} (js : List Int)
    (h : a.Good J D K) (hf : a.Frame b)
    (ht : b.tally =
      js.foldl (Tally.add a.m_potentialOfJewelAtEdge a.solver.m_allMoves.length) a.tally)
    (hl : b.m_numJewelsLeftWhenSolvingAt = a.m_numJewelsLeftWhenSolvingAt)
    (hK : K + js.length ≤ 32767) : b.Good J D (K + js.length) := by
  have hs := (Search.isSummed_iff a).1 h.summed
  obtain ⟨g1, g2⟩ := Tally.foldl_add_summed a.m_potentialOfJewelAtEdge
    a.solver.m_allMoves.length js a.tally K hs h.ranged.tally h.capped hK
  have gr := Tally.foldl_add_ranged a.m_potentialOfJewelAtEdge a.solver.m_allMoves.length js
    a.tally h.ranged.tally
  rw [← ht] at g1 g2 gr
  refine ⟨?_, ⟨gr.1, ?_⟩, g2, h.bounded.frame hf⟩
  · rw [Search.isSummed_iff, hf.potential, hf.allMoves]
    exact g1
  · rw [hl]
    exact h.ranged.left

theorem range_foldlM_total {σ : Type} (f : σ → Nat → Except Fault σ) (Inv : Nat → σ → Prop)
    (n : Nat) (hstep : ∀ i s, i < n → Inv i s → ∃ s', f s i = .ok s' ∧ Inv (i + 1) s') :
    ∀ k, k ≤ n → ∀ s, Inv 0 s → ∃ s', (List.range k).foldlM f s = .ok s' ∧ Inv k s' := by
  intro k
  induction k with
  | zero =>
    intro _ s hs
    exact ⟨s, rfl, hs⟩
  | succ k ih =>
    intro hk s hs
    obtain ⟨s1, e1, h1⟩ := ih (by omega) s hs
    obtain ⟨s2, e2, h2⟩ := hstep k s1 (by omega) h1
    refine ⟨s2, ?_, h2⟩
    rw [List.range_succ, List.foldlM_append, e1, ok_bind, List.foldlM_cons, e2, ok_bind]
    rfl

/-- The sum of the potentials `P[j][e]` over the jewels `j < k`. -/
theorem potentialSum_replicate (P : Array2 Int) (k : Nat) (e : Int) :
    potentialSum P (List.replicate k 0) e =
      ((List.range k).map fun (j : Nat) => P.values j e).sum := by
  unfold potentialSum
  rw [List.length_replicate]
  congr 1
  refine List.map_congr_left fun j hj => ?_
  rw [List.mem_range] at hj
  have : (List.replicate k (0 : Int)).getD j 0 = 0 := by
    rw [List.getD_eq_getElem?_getD, List.getElem?_replicate]
    split <;> rfl
  rw [this, if_pos (le_refl _)]

theorem Solver.Registered.index {s : Solver} (h : s.Registered) {m : Move}
    (hm : m ∈ s.m_allMoves) :
    ∃ i : Nat, i < s.m_allMoves.length ∧ m.id = i ∧ s.m_allMoves.get? i = some m := by
  obtain ⟨i, hi, e⟩ := List.getElem_of_mem hm
  have hg : s.m_allMoves.get? i = some m := by
    rw [List.get?_eq_getElem?, List.getElem?_eq_getElem hi, e]
  exact ⟨i, hi, h.ids i m hg, hg⟩

theorem Solver.Registered.unique {s : Solver} (h : s.Registered) {m m' : Move}
    (hm : m ∈ s.m_allMoves) (hm' : m' ∈ s.m_allMoves) (e : m.id = m'.id) : m = m' := by
  obtain ⟨i, _, hi, gi⟩ := h.index hm
  obtain ⟨k, _, hk, gk⟩ := h.index hm'
  have : i = k := by omega
  subst this
  rw [gi] at gk
  exact Option.some.inj gk

theorem potentialSlack_nonneg {s : Solver} {P : Array2 Int} {j : Int} (h : s.RowOk P j) :
    0 ≤ potentialSlack P j s.m_allMoves.length := by
  unfold potentialSlack
  refine List.sum_nonneg ?_
  intro x hx
  rw [List.mem_map] at hx
  obtain ⟨e, he, rfl⟩ := hx
  rw [List.mem_range] at he
  have := (h.range e he).2
  omega

/-- The loop of `propagatePotentialFromJewel` over the moves that end at the start of the
popped move: it returns; an entry of the row of `j` changes only from a value below
`v` to `v`, and the move of a changed entry is pushed; afterwards every move of the list has
a potential of at least `v`; and the queue grows by no more than the slack shrinks. -/
theorem raiseAtEnd_spec {s : Solver} (hs : s.Registered) (j : Nat) (v : Int) (hv0 : 0 ≤ v)
    (hv : v ≤ 255) :
    ∀ (l : List Move) (P : Array2 Int) (q : List Move), (∀ m ∈ l, m ∈ s.m_allMoves) →
      s.RowOk P j → (j : Int) < s.numJewels →
      ∃ (P' : Array2 Int) (pushed : List Move),
        Solver.raiseAtEnd j v l P q = .ok (P', q ++ pushed) ∧ s.RowOk P' j ∧
        (∀ x y : Int, x ≠ j → P'.values x y = P.values x y) ∧
        (∀ e : Nat, e < s.m_allMoves.length →
          P'.values j e = P.values j e ∨ (P.values j e < v ∧ P'.values j e = v)) ∧
        (∀ m ∈ pushed, m ∈ l) ∧
        (∀ e : Nat, e < s.m_allMoves.length → P'.values j e ≠ P.values j e →
          ∃ m ∈ pushed, m.id = e) ∧
        (∀ m ∈ l, v ≤ P'.values j m.id) ∧
        (pushed.length : Int) + potentialSlack P' j s.m_allMoves.length ≤
          potentialSlack P j s.m_allMoves.length := by
  intro l
  induction l with
  | nil =>
    intro P q _ hP _
    refine ⟨P, [], ?_, hP, fun _ _ _ => rfl, fun _ _ => Or.inl rfl, ?_, ?_, ?_, ?_⟩
    · unfold Solver.raiseAtEnd
      rw [List.append_nil]
      rfl
    · intro m hm
      cases hm
    · intro e _ hne
      exact absurd rfl hne
    · intro m hm
      cases hm
    · simp
  | cons m l ih =>
    intro P q hl hP hj
    obtain ⟨k, hk, hid, _⟩ := hs.index (hl m (List.mem_cons_self _ _))
    have hb : P.InBounds j m.id := by
      unfold Array2.InBounds
      rw [hP.width, hP.height, hid]
      omega
    have hl' : ∀ m' ∈ l, m' ∈ s.m_allMoves := fun m' h => hl m' (List.mem_cons_of_mem _ h)
    have hunf : Solver.raiseAtEnd j v (m :: l) P q =
        (if v > P.values j m.id then
          Solver.raiseAtEnd j v l
            { P with values := fun x y => if x = j ∧ y = m.id then v else P.values x y }
            (q ++ [m])
        else Solver.raiseAtEnd j v l P q) := by
      unfold Solver.raiseAtEnd
      rw [List.foldlM_cons]
      show (P.read j m.id >>= fun c => _) >>= _ = _
      rw [Array2.read_ok hb, ok_bind]
      by_cases c : v > P.values j m.id
      · rw [if_pos c, if_pos c]
        show ((P.write j m.id v >>= fun w => _) >>= _) = _
        rw [Array2.write_ok v hb, ok_bind]
        rfl
      · rw [if_neg c, if_neg c]
        rfl
    rw [hunf]
    by_cases c : v > P.values j m.id
    · rw [if_pos c]
      have hP1 : s.RowOk
          { P with values := fun x y => if x = j ∧ y = m.id then v else P.values x y } j := by
        refine ⟨hP.width, hP.height, ?_⟩
        intro e he
        show 0 ≤ (if (j : Int) = j ∧ (e : Int) = m.id then v else P.values j e) ∧
          (if (j : Int) = j ∧ (e : Int) = m.id then v else P.values j e) ≤ 255
        split
        · exact ⟨hv0, hv⟩
        · exact hP.range e he
      obtain ⟨P', pushed, e1, e2, e3, e4, e5, e6, e7, e8⟩ := ih _ (q ++ [m]) hl' hP1 hj
      have hval : ∀ e : Nat, ({ P with values := fun x y =>
          if x = j ∧ y = m.id then v else P.values x y } : Array2 Int).values j e =
          if e = k then v else P.values j e := by
        intro e
        show (if (j : Int) = j ∧ (e : Int) = m.id then v else P.values j e) = _
        by_cases q : e = k
        · rw [if_pos q, if_pos ⟨rfl, by rw [hid, q]⟩]
        · rw [if_neg q, if_neg (fun c => q (by have := c.2; omega))]
      refine ⟨P', m :: pushed, ?_, e2, ?_, ?_, ?_, ?_, ?_, ?_⟩
      · rw [e1, List.append_assoc]
        rfl
      · intro x y hx
        rw [e3 x y hx]
        show (if x = j ∧ y = m.id then v else P.values x y) = _
        rw [if_neg (fun c => hx c.1)]
      · intro e he
        have h4 := e4 e he
        rw [hval e] at h4
        by_cases q : e = k
        · rw [if_pos q] at h4
          subst q
          rw [hid] at c
          rcases h4 with h4 | h4
          · exact Or.inr ⟨c, h4⟩
          · exact Or.inr ⟨c, h4.2⟩
        · rw [if_neg q] at h4
          exact h4
      · intro m' hm'
        rcases List.mem_cons.1 hm' with q | q
        · rw [q]
          exact List.mem_cons_self _ _
        · exact List.mem_cons_of_mem _ (e5 m' q)
      · intro e he hne
        by_cases q : e = k
        · exact ⟨m, List.mem_cons_self _ _, by rw [hid, q]⟩
        · have h6 := e6 e he (by rw [hval e, if_neg q]; exact hne)
          obtain ⟨m', hm', hid'⟩ := h6
          exact ⟨m', List.mem_cons_of_mem _ hm', hid'⟩
      · intro m' hm'
        rcases List.mem_cons.1 hm' with q | q
        · rw [q, hid]
          have h4 := e4 k hk
          rw [hval k, if_pos rfl] at h4
          rcases h4 with h4 | h4
          · rw [h4]
          · rw [h4.2]
        · exact e7 m' q
      · have hsl := sum_map_range_change
          (fun (e : Nat) => 255 - ({ P with values := fun x y =>
            if x = j ∧ y = m.id then v else P.values x y } : Array2 Int).values j e)
          (fun (e : Nat) => 255 - P.values j e) k s.m_allMoves.length hk
          (by
            intro e _ hne
            show 255 - _ = 255 - _
            rw [hval e, if_neg hne])
        have hk' := hval k
        rw [if_pos rfl] at hk'
        have hsl' : potentialSlack { P with values := fun x y =>
            if x = j ∧ y = m.id then v else P.values x y } j s.m_allMoves.length =
            potentialSlack P j s.m_allMoves.length + ((255 - v) - (255 - P.values j k)) := by
          unfold potentialSlack
          rw [hsl]
          show _ + ((255 - _) - _) = _
          rw [hk']
        rw [hsl'] at e8
        rw [hid] at c
        rw [List.length_cons]
        push_cast
        omega
    · rw [if_neg c]
      obtain ⟨P', pushed, e1, e2, e3, e4, e5, e6, e7, e8⟩ := ih P q hl' hP hj
      refine ⟨P', pushed, e1, e2, e3, e4, fun m' hm' => List.mem_cons_of_mem _ (e5 m' hm'),
        e6, ?_, e8⟩
      intro m' hm'
      rcases List.mem_cons.1 hm' with q | q
      · rw [q, hid]
        rw [hid] at c
        rcases e4 k hk with h4 | h4
        · rw [h4]
          omega
        · rw [h4.2]
      · exact e7 m' q

/-- The `while` loop of `propagatePotentialFromJewel` returns when the fuel covers the
length of the queue plus the slack of the potentials, and it leaves the potentials of the
jewel settled at every registered move, given that they are settled at the moves outside
the queue. -/
theorem propagateLoop_spec {s : Solver} (hs : s.Registered) (j : Nat)
    (hj : (j : Int) < s.numJewels) :
    ∀ (fuel : Nat) (queue : List Move) (P : Array2 Int),
      (∀ m ∈ queue, m ∈ s.m_allMoves) → s.RowOk P j →
      (∀ e ∈ s.m_allMoves, e ∈ queue ∨ s.Settled P j e) →
      (queue.length : Int) + potentialSlack P j s.m_allMoves.length ≤ fuel →
      ∃ P' : Array2 Int, s.propagateLoop j fuel queue P = .ok P' ∧ s.RowOk P' j ∧
        (∀ x y : Int, x ≠ j → P'.values x y = P.values x y) ∧
        (∀ e : Nat, e < s.m_allMoves.length → P.values j e = 255 → P'.values j e = 255) ∧
        ∀ e ∈ s.m_allMoves, s.Settled P' j e := by
  have hempty : ∀ (fuel : Nat) (P : Array2 Int), s.RowOk P j →
      (∀ e ∈ s.m_allMoves, e ∈ ([] : List Move) ∨ s.Settled P j e) →
      ∃ P' : Array2 Int, s.propagateLoop j fuel [] P = .ok P' ∧ s.RowOk P' j ∧
        (∀ x y : Int, x ≠ j → P'.values x y = P.values x y) ∧
        (∀ e : Nat, e < s.m_allMoves.length → P.values j e = 255 → P'.values j e = 255) ∧
        ∀ e ∈ s.m_allMoves, s.Settled P' j e := by
    intro fuel P hP hset
    refine ⟨P, ?_, hP, fun _ _ _ => rfl, fun _ _ h => h, ?_⟩
    · cases fuel <;> rfl
    · intro e he
      rcases hset e he with q | q
      · cases q
      · exact q
  intro fuel
  induction fuel with
  | zero =>
    intro queue P _ hP hset hfuel
    cases queue with
    | nil => exact hempty 0 P hP hset
    | cons m rest =>
      have := potentialSlack_nonneg hP
      rw [List.length_cons] at hfuel
      push_cast at hfuel
      omega
  | succ fuel ih =>
    intro queue P hq hP hset hfuel
    cases queue with
    | nil => exact hempty (fuel + 1) P hP hset
    | cons m rest =>
      have hm := hq m (List.mem_cons_self _ _)
      obtain ⟨k, hk, hid, _⟩ := hs.index hm
      have hb : P.InBounds j m.id := by
        unfold Array2.InBounds
        rw [hP.width, hP.height, hid]
        omega
      have hcur := hP.range k hk
      rw [← hid] at hcur
      have hsat := saturatePotential_spec (P.values j m.id).toNat (by omega)
      have hv0 : (0 : Int) ≤ ((saturatePotential (P.values j m.id).toNat : Nat) : Int) :=
        Int.ofNat_nonneg _
      have hv : ((saturatePotential (P.values j m.id).toNat : Nat) : Int) ≤ 255 := by
        have := hsat.2.1
        omega
      have hl : ∀ m' ∈ s.m_movesByEndPosition.values m.startPos.x m.startPos.y,
          m' ∈ s.m_allMoves := hs.atEnd m hm
      obtain ⟨P1, pushed, e1, e2, e3, e4, e5, e6, e7, e8⟩ :=
        raiseAtEnd_spec hs j _ hv0 hv _ P rest hl hP hj
      have hrest : ∀ m' ∈ rest ++ pushed, m' ∈ s.m_allMoves := by
        intro m' hm'
        rcases List.mem_append.1 hm' with q | q
        · exact hq m' (List.mem_cons_of_mem _ q)
        · exact hl m' (e5 m' q)
      have hmono : ∀ e : Nat, e < s.m_allMoves.length → P.values j e ≤ P1.values j e := by
        intro e he
        rcases e4 e he with q | q
        · rw [q]
        · rw [q.2]
          exact le_of_lt q.1
      have hset1 : ∀ e ∈ s.m_allMoves, e ∈ rest ++ pushed ∨ s.Settled P1 j e := by
        intro e he
        by_cases hin : e ∈ rest ++ pushed
        · exact Or.inl hin
        refine Or.inr ?_
        obtain ⟨i, hi, hei, _⟩ := hs.index he
        have hsame : P1.values j e.id = P.values j e.id := by
          by_contra hne
          rw [hei] at hne
          obtain ⟨m', hm', hid'⟩ := e6 i hi hne
          have : m' = e := hs.unique (hl m' (e5 m' hm')) he (by rw [hid', hei])
          subst this
          exact hin (List.mem_append_right _ hm')
        intro e' he' hend
        obtain ⟨i', hi', hei', _⟩ := hs.index he'
        rw [hsame]
        by_cases hem : e = m
        · subst hem
          exact e7 e' (hs.ending e he e' he' hend)
        · rcases hset e he with q | q
          · rcases List.mem_cons.1 q with q | q
            · exact absurd q hem
            · exact absurd (List.mem_append_left _ q) hin
          · have h1 := q e' he' hend
            have h2 := hmono i' hi'
            rw [← hei'] at h2
            exact le_trans h1 h2
      have hfuel1 : ((rest ++ pushed).length : Int) +
          potentialSlack P1 j s.m_allMoves.length ≤ fuel := by
        rw [List.length_append]
        rw [List.length_cons] at hfuel
        push_cast at hfuel ⊢
        omega
      obtain ⟨P', f1, f2, f3, f4, f5⟩ := ih (rest ++ pushed) P1 hrest e2 hset1 hfuel1
      refine ⟨P', ?_, f2, fun x y hx => (f3 x y hx).trans (e3 x y hx), ?_, f5⟩
      · unfold Solver.propagateLoop
        rw [Array2.read_ok hb, ok_bind, Array2.at_ok (hs.starts m hm), ok_bind]
        show (Solver.raiseAtEnd j _ _ P rest >>= fun r => _) = _
        rw [e1, ok_bind]
        exact f1
      · intro e he h255
        refine f4 e he ?_
        rcases e4 e he with q | q
        · rw [q, h255]
        · rw [h255] at q
          omega

theorem potentialSlack_le {s : Solver} {P : Array2 Int} {j : Int} (h : s.RowOk P j) :
    potentialSlack P j s.m_allMoves.length ≤ 255 * s.m_allMoves.length := by
  unfold potentialSlack
  have key : ∀ n : Nat, n ≤ s.m_allMoves.length →
      ((List.range n).map fun (e : Nat) => 255 - P.values j e).sum ≤ 255 * (n : Int) := by
    intro n
    induction n with
    | zero => intro _; simp
    | succ n ih =>
      intro hn
      rw [List.range_succ, List.map_append, List.sum_append, List.map_singleton,
        List.sum_singleton]
      have h1 := ih (by omega)
      have h2 := (h.range n (by omega)).1
      push_cast
      omega
  exact key _ (le_refl _)

/-- The loop of `fillInitialMovePotential` over the jewels of the move at the index `k`. -/
theorem fillJewels_spec (k : Nat) :
    ∀ (js : List Int) (ss : Search),
      (∀ j ∈ js, 0 ≤ j ∧ j < ss.m_potentialOfJewelAtEdge.width) →
      (k : Int) < ss.m_potentialOfJewelAtEdge.height →
      ∃ ss' : Search,
        js.foldlM
          (fun (ss : Search) jewelId => do
            let potential ← ss.m_potentialOfJewelAtEdge.write jewelId k maxPotential
            pure { ss with m_potentialOfJewelAtEdge := potential })
          ss = .ok ss' ∧
        ss'.solver = ss.solver ∧
        ss'.m_potentialOfJewelAtEdge.width = ss.m_potentialOfJewelAtEdge.width ∧
        ss'.m_potentialOfJewelAtEdge.height = ss.m_potentialOfJewelAtEdge.height ∧
        ∀ x y : Int, ss'.m_potentialOfJewelAtEdge.values x y =
          if x ∈ js ∧ y = k then 255 else ss.m_potentialOfJewelAtEdge.values x y := by
  intro js
  induction js with
  | nil =>
    intro ss _ _
    refine ⟨ss, rfl, rfl, rfl, rfl, ?_⟩
    intro x y
    rw [if_neg]
    rintro ⟨h, _⟩
    cases h
  | cons j0 rest ih =>
    intro ss hjs hk
    have hj0 := hjs j0 (List.mem_cons_self _ _)
    have hb : ss.m_potentialOfJewelAtEdge.InBounds j0 k := ⟨hj0.1, hj0.2, by omega, hk⟩
    obtain ⟨ss', e1, e2, e3, e4, e5⟩ := ih
      ({ ss with m_potentialOfJewelAtEdge :=
        { ss.m_potentialOfJewelAtEdge with
          values := fun x y => if x = j0 ∧ y = k then maxPotential
            else ss.m_potentialOfJewelAtEdge.values x y } } : Search)
      (fun j h => hjs j (List.mem_cons_of_mem _ h)) hk
    refine ⟨ss', ?_, e2, e3, e4, ?_⟩
    · rw [List.foldlM_cons]
      show ((ss.m_potentialOfJewelAtEdge.write j0 k maxPotential >>= fun p => _) >>= _) = _
      rw [Array2.write_ok maxPotential hb, ok_bind]
      exact e1
    · intro x y
      rw [e5 x y]
      show (if x ∈ rest ∧ y = k then 255
        else if x = j0 ∧ y = k then maxPotential
          else ss.m_potentialOfJewelAtEdge.values x y) = _
      by_cases hy : y = (k : Int)
      · by_cases hx : x ∈ rest
        · rw [if_pos ⟨hx, hy⟩, if_pos ⟨List.mem_cons_of_mem _ hx, hy⟩]
        · rw [if_neg (fun c => hx c.1)]
          by_cases hx0 : x = j0
          · rw [if_pos ⟨hx0, hy⟩, if_pos ⟨by rw [hx0]; exact List.mem_cons_self _ _, hy⟩]
            rfl
          · rw [if_neg (fun c => hx0 c.1), if_neg]
            rintro ⟨c, _⟩
            rcases List.mem_cons.1 c with c | c
            · exact hx0 c
            · exact hx c
      · rw [if_neg (fun c => hy c.2), if_neg (fun c => hy c.2), if_neg (fun c => hy c.2)]

/-- What `fillInitialMovePotential` leaves in a table of zeros: `P[j][e]` is 255 when the
jewel list of the move `e` contains `j`, and 0 otherwise. -/
theorem fillInitialMovePotential_spec (ss : Search) (hs : ss.solver.Registered)
    (hw : ss.m_potentialOfJewelAtEdge.width = ss.solver.numJewels)
    (hh : ss.m_potentialOfJewelAtEdge.height = ss.solver.m_allMoves.length)
    (hz : ∀ x y : Int, ss.m_potentialOfJewelAtEdge.values x y = 0) :
    ∃ ss' : Search, ss.fillInitialMovePotential = .ok ss' ∧ ss'.solver = ss.solver ∧
      ss'.m_potentialOfJewelAtEdge.width = ss.solver.numJewels ∧
      ss'.m_potentialOfJewelAtEdge.height = ss.solver.m_allMoves.length ∧
      ∀ (j : Int) (e : Nat) (m : Move), ss.solver.m_allMoves.get? e = some m →
        ss'.m_potentialOfJewelAtEdge.values j e = if j ∈ m.jewels then 255 else 0 := by
  have key := range_foldlM_total
    (fun (ss : Search) (edgeId : Nat) => do
      let move ← vecGet ss.solver.m_allMoves edgeId
      move.jewels.foldlM
        (fun (ss : Search) jewelId => do
          let potential ← ss.m_potentialOfJewelAtEdge.write jewelId edgeId maxPotential
          pure { ss with m_potentialOfJewelAtEdge := potential })
        ss)
    (fun (k : Nat) (s : Search) =>
      s.solver = ss.solver ∧
      s.m_potentialOfJewelAtEdge.width = ss.solver.numJewels ∧
      s.m_potentialOfJewelAtEdge.height = ss.solver.m_allMoves.length ∧
      ∀ (j : Int) (e : Nat) (m : Move), ss.solver.m_allMoves.get? e = some m →
        s.m_potentialOfJewelAtEdge.values j e = if e < k ∧ j ∈ m.jewels then 255 else 0)
    ss.solver.m_allMoves.length ?_ ss.solver.m_allMoves.length (le_refl _) ss
    ⟨rfl, hw, hh, ?_⟩
  · obtain ⟨s', e, i1, i2, i3, i4⟩ := key
    refine ⟨s', e, i1, i2, i3, ?_⟩
    intro j e m hm
    rw [i4 j e m hm]
    have he : e < ss.solver.m_allMoves.length := by
      rw [List.get?_eq_getElem?] at hm
      exact (List.getElem?_eq_some_iff.1 hm).1
    by_cases c : j ∈ m.jewels
    · rw [if_pos ⟨he, c⟩, if_pos c]
    · rw [if_neg (fun q => c q.2), if_neg c]
  · intro k s hk ⟨i1, i2, i3, i4⟩
    obtain ⟨move, hmove, hget⟩ := @vecGet_ok _ s.solver.m_allMoves (k : Int) (by omega)
      (by rw [i1]; exact_mod_cast hk)
    rw [Int.toNat_ofNat, i1] at hget
    have hmem : move ∈ ss.solver.m_allMoves := by
      rw [List.get?_eq_getElem?] at hget
      exact List.getElem?_mem hget
    obtain ⟨s', e1, e2, e3, e4, e5⟩ := fillJewels_spec k move.jewels s
      (fun j hj => by rw [i2]; exact hs.jewels move hmem j hj)
      (by rw [i3]; exact_mod_cast hk)
    refine ⟨s', ?_, e2.trans i1, e3.trans i2, e4.trans i3, ?_⟩
    · show (vecGet s.solver.m_allMoves (k : Int) >>= fun move => _) = _
      rw [hmove, ok_bind]
      exact e1
    · intro j e m hm
      rw [e5 j e, i4 j e m hm]
      by_cases hek : e = k
      · subst hek
        rw [hget] at hm
        have := Option.some.inj hm
        subst this
        by_cases c : j ∈ move.jewels
        · rw [if_pos ⟨c, rfl⟩, if_pos ⟨by omega, c⟩]
        · rw [if_neg (fun q => c q.1), if_neg (fun q => by omega), if_neg (fun q => c q.2)]
      · rw [if_neg (fun q => hek (by exact_mod_cast q.2))]
        by_cases c : e < k ∧ j ∈ m.jewels
        · rw [if_pos c, if_pos ⟨by omega, c.2⟩]
        · rw [if_neg c, if_neg]
          rintro ⟨q1, q2⟩
          exact c ⟨by omega, q2⟩
  · intro j e m _
    rw [hz, if_neg]
    rintro ⟨h, _⟩
    omega

/-- The loop of `propagateMovePotential` over the jewels, on the table that
`fillInitialMovePotential` leaves: every call of `propagatePotentialFromJewel` returns, and
afterwards the potentials of every jewel are values of `PotentialType`, 255 at the moves that
collect the jewel, and settled at every registered move. -/
theorem propagateMovePotential_spec (fuel : Nat) (ss : Search) (hs : ss.solver.Registered)
    (hw : ss.m_potentialOfJewelAtEdge.width = ss.solver.numJewels)
    (hh : ss.m_potentialOfJewelAtEdge.height = ss.solver.m_allMoves.length)
    (hfill : ∀ (j : Int) (e : Nat) (m : Move), ss.solver.m_allMoves.get? e = some m →
      ss.m_potentialOfJewelAtEdge.values j e = if j ∈ m.jewels then 255 else 0)
    (hfuel : ∀ l ∈ ss.solver.m_movesCollectingJewel,
      l.length + 255 * ss.solver.m_allMoves.length ≤ fuel) :
    ∃ ss' : Search, ss.propagateMovePotential fuel = .ok ss' ∧ ss'.solver = ss.solver ∧
      ∀ j : Nat, (j : Int) < ss.solver.numJewels →
        ss.solver.RowOk ss'.m_potentialOfJewelAtEdge j ∧
        (∀ (e : Nat) (m : Move), ss.solver.m_allMoves.get? e = some m → (j : Int) ∈ m.jewels →
          ss'.m_potentialOfJewelAtEdge.values j e = 255) ∧
        ∀ e ∈ ss.solver.m_allMoves, ss.solver.Settled ss'.m_potentialOfJewelAtEdge j e := by
  have hnum : 0 ≤ ss.solver.numJewels := Int.ofNat_nonneg _
  have key := range_foldlM_total
    (fun (ss : Search) (jewelId : Nat) => ss.propagatePotentialFromJewel fuel jewelId)
    (fun (k : Nat) (s : Search) =>
      s.solver = ss.solver ∧
      s.m_potentialOfJewelAtEdge.width = ss.solver.numJewels ∧
      s.m_potentialOfJewelAtEdge.height = ss.solver.m_allMoves.length ∧
      (∀ j : Nat, (j : Int) < ss.solver.numJewels → ∀ e : Nat, e < ss.solver.m_allMoves.length →
        0 ≤ s.m_potentialOfJewelAtEdge.values j e ∧
          s.m_potentialOfJewelAtEdge.values j e ≤ 255) ∧
      (∀ j : Nat, (j : Int) < ss.solver.numJewels → ∀ (e : Nat) (m : Move),
        ss.solver.m_allMoves.get? e = some m → (j : Int) ∈ m.jewels →
        s.m_potentialOfJewelAtEdge.values j e = 255) ∧
      (∀ j : Nat, j < k → ∀ e ∈ ss.solver.m_allMoves,
        ss.solver.Settled s.m_potentialOfJewelAtEdge j e) ∧
      ∀ j : Nat, k ≤ j → ∀ (e : Nat) (m : Move), ss.solver.m_allMoves.get? e = some m →
        s.m_potentialOfJewelAtEdge.values j e = if (j : Int) ∈ m.jewels then 255 else 0)
    ss.solver.numJewels.toNat ?_ ss.solver.numJewels.toNat (le_refl _) ss
    ⟨rfl, hw, hh, ?_, ?_, ?_, ?_⟩
  · obtain ⟨s', e, i1, i2, i3, i4, i5, i6, _⟩ := key
    refine ⟨s', e, i1, ?_⟩
    intro j hj
    exact ⟨⟨i2, i3, i4 j hj⟩, i5 j hj, i6 j (by omega)⟩
  · intro k s hk ⟨i1, i2, i3, i4, i5, i6, i7⟩
    have hkj : (k : Int) < ss.solver.numJewels := by omega
    obtain ⟨queue, hqueue, hget⟩ := @vecGet_ok _ s.solver.m_movesCollectingJewel (k : Int)
      (by omega) (by rw [i1, hs.size]; exact_mod_cast hk)
    rw [Int.toNat_ofNat, i1] at hget
    have hqmem : queue ∈ ss.solver.m_movesCollectingJewel := by
      rw [List.get?_eq_getElem?] at hget
      exact List.getElem?_mem hget
    have hrow : ss.solver.RowOk s.m_potentialOfJewelAtEdge k := ⟨i2, i3, i4 k hkj⟩
    have hset : ∀ e ∈ ss.solver.m_allMoves,
        e ∈ queue ∨ ss.solver.Settled s.m_potentialOfJewelAtEdge k e := by
      intro e he
      by_cases c : (k : Int) ∈ e.jewels
      · exact Or.inl (hs.collecting k queue hget e he c)
      · refine Or.inr ?_
        obtain ⟨i, hi, hei, gi⟩ := hs.index he
        intro e' he' _
        obtain ⟨i', hi', hei', _⟩ := hs.index he'
        have hz := i7 k (le_refl _) i e gi
        rw [if_neg c] at hz
        rw [hei, hz, hei']
        have : saturatePotential (0 : Int).toNat = 0 := by decide
        rw [this]
        exact (i4 k hkj i' hi').1
    have hf : (queue.length : Int) +
        potentialSlack s.m_potentialOfJewelAtEdge k ss.solver.m_allMoves.length ≤ fuel := by
      have h1 := potentialSlack_le hrow
      have h2 := hfuel queue hqmem
      have h3 : ((queue.length + 255 * ss.solver.m_allMoves.length : Nat) : Int) ≤ fuel := by
        exact_mod_cast h2
      push_cast at h3
      omega
    obtain ⟨P', f1, f2, f3, f4, f5⟩ := propagateLoop_spec hs k hkj fuel queue
      s.m_potentialOfJewelAtEdge (hs.queued queue hqmem) hrow hset hf
    have hne : ∀ j : Nat, j ≠ k → ∀ y : Int,
        P'.values j y = s.m_potentialOfJewelAtEdge.values j y := by
      intro j hjk y
      exact f3 j y (by omega)
    refine ⟨{ s with m_potentialOfJewelAtEdge := P' }, ?_, i1, f2.width, f2.height, ?_, ?_, ?_,
      ?_⟩
    · show s.propagatePotentialFromJewel fuel k = _
      unfold Search.propagatePotentialFromJewel
      rw [hqueue, ok_bind, i1, f1, ok_bind]
      rfl
    · intro j hj e he
      show 0 ≤ P'.values j e ∧ P'.values j e ≤ 255
      by_cases c : j = k
      · subst c
        exact f2.range e he
      · rw [hne j c e]
        exact i4 j hj e he
    · intro j hj e m hm hjm
      show P'.values j e = 255
      by_cases c : j = k
      · subst c
        have he : e < ss.solver.m_allMoves.length := by
          rw [List.get?_eq_getElem?] at hm
          exact (List.getElem?_eq_some_iff.1 hm).1
        exact f4 e he (i5 j hj e m hm hjm)
      · rw [hne j c e]
        exact i5 j hj e m hm hjm
    · intro j hj e he
      by_cases c : j = k
      · subst c
        exact f5 e he
      · intro e' he' hend
        show _ ≤ P'.values j e'.id
        have h1 := i6 j (by omega) e he e' he' hend
        show ((saturatePotential (P'.values j e.id).toNat : Nat) : Int) ≤ _
        rw [hne j c e.id, hne j c e'.id]
        exact h1
    · intro j hj e m hm
      show P'.values j e = _
      rw [hne j (by omega) e]
      exact i7 j (by omega) e m hm
  · intro j _ e he
    have hlt : e < ss.solver.m_allMoves.length := he
    have hg : ss.solver.m_allMoves.get? e = some (ss.solver.m_allMoves.get ⟨e, hlt⟩) :=
      List.get?_eq_get hlt
    rw [hfill j e _ hg]
    split <;> omega
  · intro j _ e m hm hjm
    rw [hfill j e m hm, if_pos hjm]
  · intro j hj
    omega
  · intro j _ e m hm
    exact hfill j e m hm

/-- C31: on tables of registered moves as `generateAllMoves` leaves them and a potential
table of zeros of the size that `initializeMovePotential` gives it,
`fillInitialMovePotential` and then `propagateMovePotential` return, every call of
`propagatePotentialFromJewel` ending within `fuel` passes of its loop when `fuel` is at
least the length of `m_movesCollectingJewel[j]` plus 255 times the number of moves; and
afterwards, for every jewel `j`, every `P[j][e]` is a value of `PotentialType`,
`P[j][e] = 255` for every registered move `e` whose jewel list contains `j`, and
`P[j][e'] ≥ saturatePotential(P[j][e])` for all registered moves `e'`, `e` with
`e'.end = e.start`. -/
theorem propagateMovePotential_fixpoint (fuel : Nat) (ss : Search)
    (hs : ss.solver.Registered)
    (hP : ss.m_potentialOfJewelAtEdge =
      Array2.filled ss.solver.numJewels ss.solver.m_allMoves.length 0)
    (hfuel : ∀ l ∈ ss.solver.m_movesCollectingJewel,
      l.length + 255 * ss.solver.m_allMoves.length ≤ fuel) :
    ∃ s1 s2 : Search, ss.fillInitialMovePotential = .ok s1 ∧
      s1.propagateMovePotential fuel = .ok s2 ∧ s2.solver = ss.solver ∧
      ∀ j : Nat, (j : Int) < ss.solver.numJewels → ∀ e ∈ ss.solver.m_allMoves,
        (0 ≤ s2.m_potentialOfJewelAtEdge.values j e.id ∧
          s2.m_potentialOfJewelAtEdge.values j e.id ≤ 255) ∧
        ((j : Int) ∈ e.jewels → s2.m_potentialOfJewelAtEdge.values j e.id = 255) ∧
        ∀ e' ∈ ss.solver.m_allMoves, e'.endPos = e.startPos →
          ((saturatePotential (s2.m_potentialOfJewelAtEdge.values j e.id).toNat : Nat) : Int) ≤
            s2.m_potentialOfJewelAtEdge.values j e'.id := by
  obtain ⟨s1, e1, k1, k2, k3, k4⟩ := fillInitialMovePotential_spec ss hs
    (by rw [hP]; rfl) (by rw [hP]; rfl) (by rw [hP]; intro x y; rfl)
  obtain ⟨s2, e2, m1, m2⟩ := propagateMovePotential_spec fuel s1 (by rw [k1]; exact hs)
    (by rw [k1]; exact k2) (by rw [k1]; exact k3) (by rw [k1]; exact k4)
    (by rw [k1]; exact hfuel)
  refine ⟨s1, s2, e1, e2, m1.trans k1, ?_⟩
  intro j hj e he
  obtain ⟨r1, r2, r3⟩ := m2 j (by rw [k1]; exact hj)
  rw [k1] at r1 r2 r3
  obtain ⟨i, hi, hei, gi⟩ := hs.index he
  refine ⟨?_, ?_, r3 e he⟩
  · rw [hei]
    exact r1.range i hi
  · intro hjm
    rw [hei]
    exact r2 i e gi hjm

/-- The loop of `addMove` over the jewels of the move: the list of every jewel of the move
gets the move appended, once for each occurrence. -/
theorem collectingFold_spec (move : Move) :
    ∀ (js : List Int) (acc acc' : List (List Move)),
      js.foldlM
        (fun (acc : List (List Move)) jewelId => do
          let old ← vecGet acc jewelId
          vecSet acc jewelId (old ++ [move]))
        acc = .ok acc' →
      ∀ (j : Nat) (l' : List Move), acc'.get? j = some l' →
        ∃ l, acc.get? j = some l ∧ ∀ m : Move, m ∈ l' ↔ m ∈ l ∨ (m = move ∧ (j : Int) ∈ js) := by
  intro js
  induction js with
  | nil =>
    intro acc acc' h j l' hl'
    rw [List.foldlM_nil, pure_eq_ok] at h
    subst h
    refine ⟨l', hl', fun m => ⟨Or.inl, ?_⟩⟩
    rintro (q | ⟨_, q⟩)
    · exact q
    · cases q
  | cons j0 rest ih =>
    intro acc acc' h j l' hl'
    rw [List.foldlM_cons, bind_eq_ok] at h
    obtain ⟨acc1, h1, h⟩ := h
    obtain ⟨old, hold, hset⟩ := bind_eq_ok.1 h1
    obtain ⟨g1, g2, g3⟩ := vecGet_eq_ok hold
    obtain ⟨_, _, hacc1⟩ := vecSet_eq_ok hset
    obtain ⟨l1, hl1, hiff⟩ := ih acc1 acc' h j l' hl'
    rw [hacc1, List.get?_eq_getElem?, List.getElem?_set] at hl1
    by_cases c : j0.toNat = j
    · rw [if_pos c, if_pos (by omega)] at hl1
      have e := Option.some.inj hl1
      subst e
      refine ⟨old, by rw [← c]; exact g3, ?_⟩
      intro m
      rw [hiff m, List.mem_append, List.mem_singleton]
      have hj0 : (j : Int) = j0 := by omega
      constructor
      · rintro ((q | q) | ⟨q1, q2⟩)
        · exact Or.inl q
        · exact Or.inr ⟨q, by rw [hj0]; exact List.mem_cons_self _ _⟩
        · exact Or.inr ⟨q1, List.mem_cons_of_mem _ q2⟩
      · rintro (q | ⟨q1, _⟩)
        · exact Or.inl (Or.inl q)
        · exact Or.inl (Or.inr q1)
    · rw [if_neg c, ← List.get?_eq_getElem?] at hl1
      refine ⟨l1, hl1, ?_⟩
      intro m
      rw [hiff m]
      have hj0 : (j : Int) ≠ j0 := by omega
      constructor
      · rintro (q | ⟨q1, q2⟩)
        · exact Or.inl q
        · exact Or.inr ⟨q1, List.mem_cons_of_mem _ q2⟩
      · rintro (q | ⟨q1, q2⟩)
        · exact Or.inl q
        · rcases List.mem_cons.1 q2 with q2 | q2
          · exact absurd q2 hj0
          · exact Or.inr ⟨q1, q2⟩

theorem addMove_tabled (W H : Int) (s : Solver) (move : Move) (r : Move × Solver)
    (hs : s.Tabled W H) (h : s.addMove move = .ok r) : r.2.Tabled W H := by
  unfold Solver.addMove at h
  simp only [bind_eq_ok] at h
  obtain ⟨collecting, hc, atEnd, hat, byEnd, hput, h⟩ := h
  rw [pure_eq_ok] at h
  obtain ⟨_, hatv⟩ := Array2.at_eq_ok hat
  obtain ⟨_, w1, w2, w3⟩ := Array2.put_eq_ok hput
  rw [← h]
  refine ⟨?_, ?_, w1.trans hs.width, w2.trans hs.height⟩
  · intro j l' hl'
    obtain ⟨l, hl, hiff⟩ := collectingFold_spec _ _ _ _ hc j l' hl'
    intro m
    rw [hiff m, hs.coll j l hl m]
    show _ ↔ m ∈ s.m_allMoves ++ [move.setId s.m_allMoves.length] ∧ _
    rw [List.mem_append, List.mem_singleton]
    constructor
    · rintro (⟨q1, q2⟩ | ⟨q1, q2⟩)
      · exact ⟨Or.inl q1, q2⟩
      · exact ⟨Or.inr q1, by rw [q1]; exact q2⟩
    · rintro ⟨q1 | q1, q2⟩
      · exact Or.inl ⟨q1, q2⟩
      · exact Or.inr ⟨q1, by rw [q1] at q2; exact q2⟩
  · intro x y m
    show m ∈ byEnd.values x y ↔ m ∈ s.m_allMoves ++ [move.setId s.m_allMoves.length] ∧ _
    rw [w3, List.mem_append, List.mem_singleton]
    by_cases c : x = (move.setId s.m_allMoves.length).endPos.x ∧
        y = (move.setId s.m_allMoves.length).endPos.y
    · rw [if_pos c, List.mem_append, List.mem_singleton, ← hatv, hs.byEnd _ _ m]
      obtain ⟨c1, c2⟩ := c
      subst c1
      subst c2
      constructor
      · rintro (⟨q1, q2⟩ | q)
        · exact ⟨Or.inl q1, q2⟩
        · exact ⟨Or.inr q, by rw [q]⟩
      · rintro ⟨q1 | q1, q2⟩
        · exact Or.inl ⟨q1, q2⟩
        · exact Or.inr q1
    · rw [if_neg c, hs.byEnd x y m]
      constructor
      · rintro ⟨q1, q2⟩
        exact ⟨Or.inl q1, q2⟩
      · rintro ⟨q1 | q1, q2⟩
        · exact ⟨q1, q2⟩
        · exfalso
          rw [q1] at q2
          apply c
          rw [q2]
          exact ⟨rfl, rfl⟩

theorem identified_tabled (level : Level) :
    (identified level).Tabled level.width level.height ∧
      (identified level).IdsValid (identified level).m_jewelState.m_numCollected.length := by
  unfold identified
  cases h : (Solver.make level).identifyJewels with
  | error e =>
    refine ⟨⟨?_, ?_, rfl, rfl⟩, make_idsValid level⟩
    · intro j l hl m
      have hl0 : l = [] := by
        have hmem : l ∈ (Solver.make level).m_movesCollectingJewel := by
          rw [List.get?_eq_getElem?] at hl
          exact List.getElem?_mem hl
        exact List.eq_of_mem_replicate hmem
      rw [hl0]
      constructor
      · intro q
        cases q
      · rintro ⟨q, _⟩
        cases q
    · intro x y m
      constructor
      · intro q
        cases q
      · rintro ⟨q, _⟩
        cases q
  | ok s =>
    have hv := make_idsValid level
    unfold Solver.identifyJewels at h
    simp only [bind_eq_ok] at h
    obtain ⟨a, _, h⟩ := h
    rw [pure_eq_ok] at h
    subst h
    refine ⟨⟨?_, ?_, rfl, rfl⟩, hv⟩
    · intro j l hl m
      have hl0 : l = [] := by
        have hmem : l ∈ (Solver.make level).m_movesCollectingJewel := by
          rw [List.get?_eq_getElem?] at hl
          exact List.getElem?_mem hl
        exact List.eq_of_mem_replicate hmem
      rw [hl0]
      constructor
      · intro q
        cases q
      · rintro ⟨q, _⟩
        cases q
    · intro x y m
      constructor
      · intro q
        cases q
      · rintro ⟨q, _⟩
        cases q

/-- The tables that the potential field reads are as `Solver.Registered` describes them
after `generateAllMoves`, when it registers at most 32767 moves. -/
theorem generateAllMoves_registered {level : Level} {s : Solver}
    (hgen : (identified level).generateAllMoves = .ok s)
    (hlen : s.m_allMoves.length ≤ 32767) : s.Registered := by
  have hr := generated_ready hgen
  obtain ⟨t0, v0⟩ := identified_tabled level
  have ht : s.Tabled level.width level.height :=
    generateAllMoves_preserves (fun t => t.Tabled level.width level.height)
      (addMove_tabled level.width level.height)
      (fun t _ q => ⟨q.coll, q.byEnd, q.width, q.height⟩) t0 hgen
  have hv := generateAllMoves_idsValid _ v0 hgen
  have hjs := (generateAllMoves_frame hgen).2.1
  have hnum : s.numJewels = ((identified level).m_jewelState.m_numCollected.length : Int) := by
    show (s.m_jewelState.m_numCollected.length : Int) = _
    rw [hjs]
  refine ⟨?_, ?_, ?_, ?_, ?_, ?_, ?_, ?_⟩
  · intro i m hm
    have hi : i < s.m_allMoves.length := by
      rw [List.get?_eq_getElem?] at hm
      exact (List.getElem?_eq_some_iff.1 hm).1
    rw [hr.ids i m hm]
    exact wrap16_of_range (by omega) (by omega)
  · intro m hm j hj
    rw [hnum]
    exact hv.2 m hm j hj
  · rw [hv.1, hnum, Int.toNat_ofNat]
  · intro l hl m hm
    obtain ⟨j, hj, e⟩ := List.getElem_of_mem hl
    have hg : s.m_movesCollectingJewel.get? j = some l := by
      rw [List.get?_eq_getElem?, List.getElem?_eq_getElem hj, e]
    exact ((ht.coll j l hg m).1 hm).1
  · intro j l hl m hm hjm
    exact (ht.coll j l hl m).2 ⟨hm, hjm⟩
  · intro m hm
    have := hr.startIn m hm
    unfold Array2.InBounds at this ⊢
    rw [ht.width, ht.height]
    exact this
  · intro m _ m' hm'
    exact ((ht.byEnd _ _ m').1 hm').1
  · intro m _ m' hm' hend
    exact (ht.byEnd _ _ m').2 ⟨hm', hend⟩

theorem fillDistancesBetweenNodes_indexes {s s' : Solver}
    (h : s.fillDistancesBetweenNodes = .ok s') :
    s'.m_movesCollectingJewel = s.m_movesCollectingJewel ∧
      s'.m_movesByEndPosition = s.m_movesByEndPosition := by
  unfold Solver.fillDistancesBetweenNodes at h
  simp only [bind_eq_ok] at h
  obtain ⟨_, _, _, _, h⟩ := h
  rw [pure_eq_ok] at h
  rw [← h]
  exact ⟨rfl, rfl⟩

theorem computePairwiseNodeDistances_indexes {s s' : Solver}
    (h : s.computePairwiseNodeDistances = .ok s') :
    s'.m_movesCollectingJewel = s.m_movesCollectingJewel ∧
      s'.m_movesByEndPosition = s.m_movesByEndPosition := by
  unfold Solver.computePairwiseNodeDistances at h
  simp only [bind_eq_ok] at h
  obtain ⟨_, _, _, _, h⟩ := h
  split at h
  · simp only [bind_eq_ok, pure_eq_ok] at h
    obtain ⟨_, _, _, _, _, _, h⟩ := h
    have := fillDistancesBetweenNodes_indexes h
    exact this
  · simp only [bind_eq_ok, pure_eq_ok] at h
    obtain ⟨_, _, _, _, h⟩ := h
    have := fillDistancesBetweenNodes_indexes h
    exact this

theorem identifySccs_indexes {s s' : Solver} (h : s.identifySccs = .ok s') :
    s'.m_movesCollectingJewel = s.m_movesCollectingJewel ∧
      s'.m_movesByEndPosition = s.m_movesByEndPosition := by
  unfold Solver.identifySccs at h
  simp only [bind_eq_ok] at h
  obtain ⟨_, _, _, _, _, _, h⟩ := h
  rw [pure_eq_ok] at h
  rw [← h]
  exact ⟨rfl, rfl⟩

theorem assignJewelsToSccs_indexes {s s' : Solver} (h : s.assignJewelsToSccs = .ok s') :
    s'.m_movesCollectingJewel = s.m_movesCollectingJewel ∧
      s'.m_movesByEndPosition = s.m_movesByEndPosition := by
  unfold Solver.assignJewelsToSccs at h
  simp only [bind_eq_ok] at h
  obtain ⟨_, _, _, _, h⟩ := h
  unfold Solver.resetSccCountsPerJewel at h
  simp only [bind_eq_ok] at h
  obtain ⟨_, _, h⟩ := h
  rw [pure_eq_ok] at h
  rw [← h]
  exact ⟨rfl, rfl⟩

/-- The facts that the potential field uses hold in every solver with the same registered
moves, the same two indexes of them and the same jewels. -/
theorem Solver.Registered.of_indexes {s s' : Solver} (h : s.Registered)
    (e1 : s'.m_allMoves = s.m_allMoves) (e2 : s'.m_jewelState = s.m_jewelState)
    (e3 : s'.m_movesCollectingJewel = s.m_movesCollectingJewel)
    (e4 : s'.m_movesByEndPosition = s.m_movesByEndPosition) : s'.Registered := by
  have hn : s'.numJewels = s.numJewels := by
    show (s'.m_jewelState.m_numCollected.length : Int) = s.m_jewelState.m_numCollected.length
    rw [e2]
  refine ⟨?_, ?_, ?_, ?_, ?_, ?_, ?_, ?_⟩
  · rw [e1]
    exact h.ids
  · rw [e1, hn]
    exact h.jewels
  · rw [e3, hn]
    exact h.size
  · rw [e1, e3]
    exact h.queued
  · rw [e1, e3]
    exact h.collecting
  · rw [e1, e4]
    exact h.starts
  · rw [e1, e4]
    exact h.atEnd
  · rw [e1, e4]
    exact h.ending

/-- The tables of the registered moves are as the potential field needs them in the solver
that `assignJewelsToSccs` leaves. -/
theorem sccsAssigned_registered {level : Level} (h1 : isGenerated level = true)
    (hlen : (generated level).m_allMoves.length ≤ 32767) (h2 : isDistanced level = true)
    (h3 : isSccsIdentified level = true) (h4 : isSccsAssigned level = true) :
    (sccsAssigned level).Registered := by
  have g1 := generateAllMoves_registered (generated_of_isGenerated h1) hlen
  have d := distanced_of_isDistanced h2
  have i := sccsIdentified_of_isSccsIdentified h3
  have a := sccsAssigned_of_isSccsAssigned h4
  have g2 := g1.of_indexes (computePairwiseNodeDistances_frame d).2.2
    (computePairwiseNodeDistances_frame d).2.1 (computePairwiseNodeDistances_indexes d).1
    (computePairwiseNodeDistances_indexes d).2
  have g3 := g2.of_indexes (identifySccs_frame i).2.2 (identifySccs_frame i).2.1
    (identifySccs_indexes i).1 (identifySccs_indexes i).2
  exact g3.of_indexes (assignJewelsToSccs_frame a).2.2 (assignJewelsToSccs_frame a).2.1
    (assignJewelsToSccs_indexes a).1 (assignJewelsToSccs_indexes a).2

theorem holeStop_registered : (sccsAssigned (holeStopLevel 2)).Registered :=
  sccsAssigned_registered (by decide!) (by decide!) (by decide!) (by decide!) (by decide!)

theorem holeStop_fuel :
    ∀ l ∈ (Search.make (sccsAssigned (holeStopLevel 2))).solver.m_movesCollectingJewel,
      l.length + 255 * (Search.make (sccsAssigned (holeStopLevel 2))).solver.m_allMoves.length ≤
        1100 := by
  decide!

theorem propagatedState_row :
    ((List.range 4).map fun (e : Nat) =>
      propagatedState.m_potentialOfJewelAtEdge.values 0 e) = [108, 255, 45, 255] := by
  decide!

theorem propagateMovePotential_fixpoint_witness :
    (Search.make (sccsAssigned (holeStopLevel 2))).solver.Registered ∧
    (Search.make (sccsAssigned (holeStopLevel 2))).m_potentialOfJewelAtEdge =
      Array2.filled (Search.make (sccsAssigned (holeStopLevel 2))).solver.numJewels
        (Search.make (sccsAssigned (holeStopLevel 2))).solver.m_allMoves.length 0 ∧
    (∀ l ∈ (Search.make (sccsAssigned (holeStopLevel 2))).solver.m_movesCollectingJewel,
      l.length + 255 * (Search.make (sccsAssigned (holeStopLevel 2))).solver.m_allMoves.length ≤
        1100) ∧
    ((List.range 4).map fun (e : Nat) =>
      propagatedState.m_potentialOfJewelAtEdge.values 0 e) = [108, 255, 45, 255] ∧
    ∃ s1 s2 : Search,
      (Search.make (sccsAssigned (holeStopLevel 2))).fillInitialMovePotential = .ok s1 ∧
      s1.propagateMovePotential 1100 = .ok s2 ∧
      s2.solver = (Search.make (sccsAssigned (holeStopLevel 2))).solver ∧
      ∀ j : Nat, (j : Int) < (Search.make (sccsAssigned (holeStopLevel 2))).solver.numJewels →
        ∀ e ∈ (Search.make (sccsAssigned (holeStopLevel 2))).solver.m_allMoves,
          (0 ≤ s2.m_potentialOfJewelAtEdge.values j e.id ∧
            s2.m_potentialOfJewelAtEdge.values j e.id ≤ 255) ∧
          ((j : Int) ∈ e.jewels → s2.m_potentialOfJewelAtEdge.values j e.id = 255) ∧
          ∀ e' ∈ (Search.make (sccsAssigned (holeStopLevel 2))).solver.m_allMoves,
            e'.endPos = e.startPos →
            ((saturatePotential (s2.m_potentialOfJewelAtEdge.values j e.id).toNat : Nat) : Int) ≤
              s2.m_potentialOfJewelAtEdge.values j e'.id :=
  ⟨holeStop_registered, rfl, holeStop_fuel, propagatedState_row,
    propagateMovePotential_fixpoint 1100 (Search.make (sccsAssigned (holeStopLevel 2)))
      holeStop_registered rfl holeStop_fuel⟩

theorem jewelCount_append (j : Int) (a b : List Move) :
    jewelCount j (a ++ b) = jewelCount j a + jewelCount j b := by
  unfold jewelCount
  rw [List.flatMap_append, List.count_append]

theorem jewelCount_take_le (j : Int) (M : List Move) (i : Nat) :
    jewelCount j (M.take i) ≤ jewelCount j M := by
  have := jewelCount_append j (M.take i) (M.drop i)
  rw [List.take_append_drop] at this
  omega

/-- The counters of a window are values of `MoveId` when the counts of the jewel state are
the numbers of occurrences on the walk and are values of `MoveId`. -/
theorem Solver.Window.ranged {s : Solver} {M : List Move} {start stop : Int}
    {om : List Int} (h : s.Window M start stop om)
    (hc : ∀ c ∈ s.m_jewelState.m_numCollected, c ≤ 32767)
    (htot : ∀ j : Nat, j < s.m_jewelState.m_numCollected.length →
      s.m_jewelState.m_numCollected.getD j 0 = jewelCount j M) :
    ∀ x ∈ om, wrap16 x = x := by
  intro x hx
  obtain ⟨j, hj, e⟩ := List.getElem_of_mem hx
  have hg : om.getD j 0 = x := by
    rw [List.getD_eq_getElem?_getD, List.getElem?_eq_getElem hj, e]
    rfl
  have h1 := h.counts j hj
  rw [hg] at h1
  have hj' : j < s.m_jewelState.m_numCollected.length := by
    rw [← h.size]
    exact hj
  have h2 := htot j hj'
  have h3 : s.m_jewelState.m_numCollected.getD j 0 ≤ 32767 := by
    refine hc _ ?_
    rw [List.getD_eq_getElem?_getD, List.getElem?_eq_getElem hj']
    exact List.getElem_mem _
  have h4 := jewelCount_take_le j M stop.toNat
  have h5 := jewelCount_take_le j M start.toNat
  exact wrap16_of_range (by omega) (by omega)

end apto
